import Mathlib

/-!
# DAOOPT: elimination orders and pseudo trees

A shallow embedding of `Graph.h`, of `Pseudotree::eliminate`, `Pseudotree::build`,
`Pseudotree::buildChain`, `Pseudotree::resetFunctionInfo` and of the recursive
`PseudotreeNode` updates of `Pseudotree.cpp`, with the properties of the specification
proved (or refuted) about them.

Conventions of the embedding.
* `std::set<int>` is a strictly ascending `List Nat`; `size()` is `List.length`.
* `unordered_map<int, set<int>>` is an association list with distinct keys.
* `vector<T>` is a `List T`; `v[i]` on a position that does not exist is undefined in C++
  and reads a default here.
* A `PseudotreeNode*` is the variable of the node it points to (`m_nodes` is the arena);
  `NULL` is `none`.
* A failed `assert`, a null dereference or an iterator run past the end is `none`.
-/

namespace daoopt

/-! ## Constants -/

/-- The largest `int`, the sentinel of `eliminate` and the tag of eliminated scores. -/
def INT_MAX : Int := 2147483647

/-- Modelled from the spec: the constant `UNKNOWN` of the absent `_base.h`, the value `-1`
that the width has before any node is eliminated. -/
def UNKNOWN : Int := -1

/-- Modelled from the spec: the constant `NONE` of the absent `_base.h`, the negative value
`-1` that stands for "no cache limit" and "no node". -/
def NONE : Int := -1

/-! ## `std::set<int>` -/

/-- The `insert` of `std::set<int>`: nothing happens when the key is present, otherwise it
is put at its place in the ascending order. -/
def setInsert (a : Nat) (s : List Nat) : List Nat :=
  if a ∈ s then s else List.orderedInsert (fun x y => x ≤ y) a s

/-- The `erase(key)` of `std::set<int>`. -/
def setErase (a : Nat) (s : List Nat) : List Nat :=
  s.filter (fun x => x != a)

/-- The range `insert(first, last)` of `std::set<int>`. -/
def setInsertAll (xs : List Nat) (s : List Nat) : List Nat :=
  xs.foldl (fun acc x => setInsert x acc) s

/-! ## `unordered_map<int, set<int>>` -/

/-- The `find` of the adjacency map. -/
def mapFind : List (Nat × List Nat) → Nat → Option (List Nat)
  | [], _ => none
  | (k, v) :: r, i => if k = i then some v else mapFind r i

/-- Overwrites the set stored under an existing key (`it->second = v`). -/
def mapSet : List (Nat × List Nat) → Nat → List Nat → List (Nat × List Nat)
  | [], _, _ => []
  | (k, w) :: r, i, v => if k = i then (k, v) :: r else (k, w) :: mapSet r i v

/-- The `erase` of the adjacency map. -/
def mapErase (m : List (Nat × List Nat)) (i : Nat) : List (Nat × List Nat) :=
  m.filter (fun kv => kv.1 != i)

/-! ## `Graph` (Graph.h, with `USE_ADJ_MATRIX`) -/

/-- The class `Graph`. -/
structure Graph where
  /-- Adjacency lists. -/
  m_neighbors : List (Nat × List Nat)
  /-- Side length of the adjacency matrix. -/
  m_n : Nat
  /-- Adjacency matrix, row-major. -/
  m_matrix : List Bool
  /-- Number of vertices. -/
  m_statNumNodes : Int
  /-- Number of edges. -/
  m_statNumEdges : Int
deriving DecidableEq, Repr

namespace Graph

/-- The constructor `Graph(n)`. -/
def new (n : Nat) : Graph :=
  { m_neighbors := [], m_n := n, m_matrix := List.replicate (n * n) false,
    m_statNumNodes := 0, m_statNumEdges := 0 }

/-- `Graph::getNeighbors`; `none` is the failed assertion. -/
def getNeighbors (G : Graph) (var : Nat) : Option (List Nat) :=
  mapFind G.m_neighbors var

/-- `Graph::getNodes`: the keys as a `set<int>`. -/
def getNodes (G : Graph) : List Nat :=
  setInsertAll (G.m_neighbors.map Prod.fst) []

/-- `Graph::getStatNodes`. -/
def getStatNodes (G : Graph) : Int := G.m_statNumNodes

/-- `Graph::hasNode`. -/
def hasNode (G : Graph) (i : Nat) : Bool := (mapFind G.m_neighbors i).isSome

/-- `Graph::hasEdge`, which with `USE_ADJ_MATRIX` reads the matrix only. -/
def hasEdge (G : Graph) (i j : Nat) : Bool := G.m_matrix.getD (i * G.m_n + j) false

/-- `Graph::addNode`. -/
def addNode (G : Graph) (i : Nat) : Graph :=
  match mapFind G.m_neighbors i with
  | none => { G with m_neighbors := G.m_neighbors ++ [(i, [])],
                     m_statNumNodes := G.m_statNumNodes + 1 }
  | some _ => G

/-- `Graph::addAdjacency`: the entry `(i,j)`, not the reverse one. -/
def addAdjacency (G : Graph) (i j : Nat) : Graph :=
  let G1 := G.addNode i
  match mapFind G1.m_neighbors i with
  | some s => { G1 with m_neighbors := mapSet G1.m_neighbors i (setInsert j s),
                        m_matrix := G1.m_matrix.set (i * G1.m_n + j) true }
  | none => { G1 with m_matrix := G1.m_matrix.set (i * G1.m_n + j) true }

/-- `Graph::removeAdjacency`: the entry `(i,j)`, not the reverse one. -/
def removeAdjacency (G : Graph) (i j : Nat) : Graph :=
  match mapFind G.m_neighbors i with
  | some s => { G with m_neighbors := mapSet G.m_neighbors i (setErase j s),
                       m_matrix := G.m_matrix.set (i * G.m_n + j) false }
  | none => { G with m_matrix := G.m_matrix.set (i * G.m_n + j) false }

/-- `Graph::addEdge`. -/
def addEdge (G : Graph) (i j : Nat) : Graph :=
  let G2 := (G.addAdjacency i j).addAdjacency j i
  { G2 with m_statNumEdges := G2.m_statNumEdges + 1 }

/-- `Graph::removeNode`. The loop runs over the neighbours of `i` as they are on entry
(the source iterates the live set, which the loop leaves alone unless `i` is its own
neighbour). -/
def removeNode (G : Graph) (i : Nat) : Graph :=
  match mapFind G.m_neighbors i with
  | some S =>
    let G1 := S.foldl
      (fun g it => { g.removeAdjacency it i with
                     m_statNumEdges := (g.removeAdjacency it i).m_statNumEdges - 1 }) G
    { G1 with m_neighbors := mapErase G1.m_neighbors i,
              m_statNumNodes := G1.m_statNumNodes - 1 }
  | none => G

/-- `Graph::addClique(const set<int>&)`: the inner `while (++it2 != s.end())`. -/
def addCliqueInner (G : Graph) (a : Nat) (rest : List Nat) : Graph :=
  rest.foldl (fun g b => g.addEdge a b) G

/-- `Graph::addClique(const set<int>&)`. -/
def addClique (G : Graph) : List Nat → Graph
  | [] => G
  | a :: rest => addClique (addCliqueInner (G.addNode a) a rest) rest

/-- Modelled from the spec: the inner count of `Graph::scoreMinfill` (its body is in the
absent `Graph.cpp`), the neighbours after `a` that have no edge to `a`. -/
def countMissingFrom (G : Graph) (a : Nat) (rest : List Nat) : Nat :=
  (rest.filter (fun b => !G.hasEdge a b)).length

/-- Modelled from the spec: the pair count of `Graph::scoreMinfill`, the number of pairs
of the set that have no edge. -/
def countMissing (G : Graph) : List Nat → Nat
  | [] => 0
  | a :: rest => countMissingFrom G a rest + countMissing G rest

/-- Modelled from the spec: `Graph::scoreMinfill` (declared in `Graph.h`, defined in the
absent `Graph.cpp`), "the number of missing edges among its neighbors"; a node that is
not in the graph scores `0` here. -/
def scoreMinfill (G : Graph) (i : Nat) : Int :=
  match mapFind G.m_neighbors i with
  | some S => (countMissing G S : Nat)
  | none => 0

/-- A test fixture: the graph on `0..n-1` with the given edges, built through the
interface of the class. -/
def ofEdges (n : Nat) (edges : List (Nat × Nat)) : Graph :=
  edges.foldl (fun g e => g.addEdge e.1 e.2)
    ((List.range n).foldl (fun g i => g.addNode i) (Graph.new n))

end Graph

/-! ## `Pseudotree::eliminate` -/

/-- Modelled from the spec: `rand::next(k)` of the absent `_base.h`, a draw from `0..k-1`;
`r` is the raw value the generator produced. -/
def randNext (r : Nat) (k : Nat) : Nat := r % k

/-- The three work lists of the scan: `candidates`, `candScore` and `simplicial`. -/
structure Cands where
  /-- The lists of minimal score nodes, one per rank. -/
  candidates : List (List Nat)
  /-- The score of each rank. -/
  candScore : List Int
  /-- The nodes of score 0. -/
  simplicial : List Nat
deriving DecidableEq, Repr

/-- Lines 153-157: every rank cleared and its score reset, `simplicial` cleared. -/
def Cands.clear (tolerance : Nat) : Cands :=
  { candidates := List.replicate (tolerance + 1) [],
    candScore := List.replicate (tolerance + 1) INT_MAX,
    simplicial := [] }

/-- Lines 181-184: `for (k = tolerance; k > j; --k)`, moving the ranks back by one;
the first argument is `k`. -/
def moveBack : Nat → Nat → List (List Nat) → List Int → List (List Nat) × List Int
  | 0, _, cands, cs => (cands, cs)
  | k + 1, j, cands, cs =>
    if j < k + 1 then
      moveBack k j (cands.set (k + 1) (cands.getD k [])) (cs.set (k + 1) (cs.getD k 0))
    else (cands, cs)

/-- Lines 173-190: `for (j = 0; j <= tolerance; ++j)` with its two `break`s; the first
argument counts the ranks still to visit, `j` is the current rank, `s` is `scores[i]`. -/
def scanRanks (tolerance : Nat) (s : Int) (i : Nat) :
    Nat → Nat → List (List Nat) → List Int → List (List Nat) × List Int
  | 0, _, cands, cs => (cands, cs)
  | r + 1, j, cands, cs =>
    if s = cs.getD j 0 then
      (cands.set j (cands.getD j [] ++ [i]), cs)
    else if s < cs.getD j 0 then
      let cands1 := cands.set tolerance []
      let moved := moveBack tolerance j cands1 cs
      ((moved.1.set j []).set j [i], moved.2.set j s)
    else scanRanks tolerance s i r (j + 1) cands cs

/-- Lines 161-192: the body of `for (i = 0; i < n; ++i)`. -/
def scanNode (tolerance : Nat) (scores : List Int) (c : Cands) (i : Nat) : Cands :=
  if scores.getD i 0 = 0 then
    { c with simplicial := c.simplicial ++ [i] }
  else if tolerance = 0 then
    if scores.getD i 0 = c.candScore.getD 0 0 then
      { c with candidates := c.candidates.set 0 (c.candidates.getD 0 [] ++ [i]) }
    else if scores.getD i 0 < c.candScore.getD 0 0 then
      { c with candidates := (c.candidates.set 0 []).set 0 [i],
               candScore := c.candScore.set 0 (scores.getD i 0) }
    else c
  else
    let out := scanRanks tolerance (scores.getD i 0) i (tolerance + 1) 0
      c.candidates c.candScore
    { c with candidates := out.1, candScore := out.2 }

/-- Lines 153-193: the work lists after the scan of all `n` scores. -/
def scan (n tolerance : Nat) (scores : List Int) : Cands :=
  (List.range n).foldl (scanNode tolerance scores) (Cands.clear tolerance)

/-- The variables of the `while` loop of `eliminate`. -/
structure ElimState where
  /-- The graph, passed by value. -/
  G : Graph
  /-- The node scores. -/
  scores : List Int
  /-- The order built so far. -/
  elim : List Nat
  /-- The width so far. -/
  width : Int
  /-- The local `nextNode`; `none` is `NONE`. -/
  nextNode : Option Nat
  /-- The number of draws made from the random generator. -/
  draws : Nat
deriving DecidableEq, Repr

/-- Lines 196-201: the elimination of the simplicial nodes. -/
def elimSimplicial : List Nat → ElimState → Option ElimState
  | [], st => some st
  | v :: rest, st =>
    match st.G.getNeighbors v with
    | none => none
    | some N =>
      elimSimplicial rest
        { st with elim := st.elim ++ [v],
                  width := max st.width (N.length : Int),
                  G := st.G.removeNode v,
                  scores := st.scores.set v INT_MAX }

/-- Lines 215-220: `candTotal`, the sizes of the ranks before the first unused one. -/
def candTotal : List (List Nat) → List Int → Nat
  | c :: cands, s :: cs => if s = INT_MAX then 0 else c.length + candTotal cands cs
  | _, _ => 0

/-- Lines 222-228: the rank loop that finds the node of the drawn position; `none` when no
rank holds it, in which case the source leaves `nextNode` as it was. -/
def pickRank : List (List Nat) → Nat → Option Nat
  | [], _ => none
  | c :: cands, choice =>
    if choice < c.length then c.get? choice else pickRank cands (choice - c.length)

/-- Lines 212-229: the choice of `nextNode`; the outer `none` is the exception of
`vector::at` (or the draw from an empty range), the inner value the new `nextNode`. -/
def pickNext (tolerance : Nat) (c : Cands) (r : Nat) (old : Option Nat) :
    Option (Option Nat) :=
  if tolerance = 0 then
    match (c.candidates.getD 0 []).get? (randNext r (c.candidates.getD 0 []).length) with
    | some v => some (some v)
    | none => none
  else
    if candTotal c.candidates c.candScore = 0 then none
    else
      match pickRank c.candidates (randNext r (candTotal c.candidates c.candScore)) with
      | some v => some (some v)
      | none => some old

/-- Lines 249-254: `updateCand`, the neighbours and their neighbours, without the node. -/
def updateCand (G : Graph) (neighbors : List Nat) (nextNode : Nat) : List Nat :=
  setErase nextNode
    (neighbors.foldl (fun acc it => setInsertAll ((G.getNeighbors it).getD []) acc)
      (setInsertAll neighbors []))

/-- What `eliminate` hands back: the returned width and the order written to `elim`. -/
structure ElimResult where
  /-- The return value. -/
  ret : Int
  /-- The output parameter `elim`. -/
  elim : List Nat
deriving DecidableEq, Repr

/-- How one pass through the body of the `while` loop ends. -/
inductive ElimStep where
  /-- A `return`. -/
  | done (r : ElimResult)
  /-- The end of the body is reached, the loop goes on with these variables. -/
  | next (st : ElimState)
  /-- A failed assertion or an exception. -/
  | fail
deriving DecidableEq, Repr

/-- Lines 244-263: the elimination of `nextNode` once the width is within the limit. -/
def eliminateNode (st1 : ElimState) (nextNode : Nat) (neighbors : List Nat) (width : Int) :
    ElimState :=
  let G1 := st1.G.addClique neighbors
  let upd := updateCand G1 neighbors nextNode
  let G2 := G1.removeNode nextNode
  let scores1 := st1.scores.set nextNode INT_MAX
  let scores2 := upd.foldl (fun sc it => sc.set it (G2.scoreMinfill it)) scores1
  { G := G2, scores := scores2, elim := st1.elim ++ [nextNode], width := width,
    nextNode := some nextNode, draws := st1.draws + 1 }

/-- Lines 153-263: the body of the `while` loop, entered with `getStatNodes() != 0`. -/
def eliminateBody (n tolerance : Nat) (limit : Int) (rnd : Nat → Nat) (st : ElimState) :
    ElimStep :=
  let c := scan n tolerance st.scores
  match elimSimplicial c.simplicial st with
  | none => ElimStep.fail
  | some st1 =>
    if c.candScore.getD 0 0 = INT_MAX then ElimStep.done ⟨st1.width, st1.elim⟩
    else
      match pickNext tolerance c (rnd st1.draws) st1.nextNode with
      | none => ElimStep.fail
      | some none => ElimStep.fail
      | some (some nextNode) =>
        match st1.G.getNeighbors nextNode with
        | none => ElimStep.fail
        | some neighbors =>
          if max st1.width (neighbors.length : Int) > limit then
            ElimStep.done ⟨INT_MAX, st1.elim ++ [nextNode]⟩
          else
            ElimStep.next
              (eliminateNode st1 nextNode neighbors (max st1.width (neighbors.length : Int)))

/-- Lines 151-268: the `while` loop; the first argument bounds the number of passes,
`none` is a failed assertion, an exception or an exhausted bound. -/
def eliminateLoop (n tolerance : Nat) (limit : Int) (rnd : Nat → Nat) :
    Nat → ElimState → Option ElimResult
  | 0, _ => none
  | fuel + 1, st =>
    if st.G.getStatNodes = 0 then some ⟨st.width, st.elim⟩
    else
      match eliminateBody n tolerance limit rnd st with
      | ElimStep.done r => some r
      | ElimStep.fail => none
      | ElimStep.next st2 => eliminateLoop n tolerance limit rnd fuel st2

/-- Lines 131-139: the scores the loop starts from. -/
def initialScores (G : Graph) (n : Nat) (m_initialScores : List Int) : List Int :=
  if m_initialScores.length ≠ 0 then m_initialScores
  else G.getNodes.foldl (fun sc it => sc.set it (G.scoreMinfill it)) (List.replicate n 0)

/-- `Pseudotree::eliminate(G, elim, limit, tolerance)`, with the member `m_initialScores`
and the draws of the random generator as further inputs. The loop cannot take more than
`n + 1` passes, which is the bound given to it. After the call the member
`m_initialScores` holds `initialScores G n m_initialScores`. -/
def eliminate (G : Graph) (limit : Int) (tolerance : Nat) (m_initialScores : List Int)
    (rnd : Nat → Nat) : Option ElimResult :=
  let n := G.getStatNodes.toNat
  eliminateLoop n tolerance limit rnd (n + 1)
    { G := G, scores := initialScores G n m_initialScores, elim := [], width := UNKNOWN,
      nextNode := none, draws := 0 }

/-! ## `Function` and `PseudotreeNode` -/

/-- The class `Function`, as far as the pseudo tree reads it: the id and the scope. -/
structure Function where
  /-- Function id. -/
  m_id : Nat
  /-- Scope of the function as a set. -/
  m_scopeS : List Nat
deriving DecidableEq, Repr

/-- `Function::getScopeSet`. -/
def Function.getScopeSet (f : Function) : List Nat := f.m_scopeS

/-- The class `PseudotreeNode`. The vectors `m_contextV` and `m_cacheContextV` hold the
elements of the sets `m_contextS` and `m_cacheContextS` in the same order and are not
kept apart. -/
structure PseudotreeNode where
  /-- The domain size of the variable. -/
  m_domain : Int
  /-- The node variable. -/
  m_var : Nat
  /-- The depth of the node in the tree. -/
  m_depth : Int
  /-- The height of the node. -/
  m_subHeight : Int
  /-- The largest width in the subproblem. -/
  m_subWidth : Int
  /-- The parent node. -/
  m_parent : Option Nat
  /-- The variables of the subproblem, the node's own among them. -/
  m_subproblemVars : List Nat
  /-- The position of every variable in `m_subproblemVars`, `NONE` when it is not there. -/
  m_subproblemVarMap : List Int
  /-- The full OR context. -/
  m_contextS : List Nat
  /-- The context for adaptive caching. -/
  m_cacheContextS : List Nat
  /-- The variables whose cache tables are reset at this node. -/
  m_cacheResetList : List Nat
  /-- The functions assigned to the node. -/
  m_functions : List Function
  /-- The children. -/
  m_children : List Nat
deriving DecidableEq, Repr

namespace PseudotreeNode

/-- The constructor `PseudotreeNode(t, v, s)`; `m_subWidth`, which the constructor leaves
unset, is `UNKNOWN` here. -/
def new (v : Nat) (s : List Nat) : PseudotreeNode :=
  { m_domain := UNKNOWN, m_var := v, m_depth := UNKNOWN, m_subHeight := UNKNOWN,
    m_subWidth := UNKNOWN, m_parent := none, m_subproblemVars := [],
    m_subproblemVarMap := [], m_contextS := s, m_cacheContextS := [],
    m_cacheResetList := [], m_functions := [], m_children := [] }

/-- `setParent`. -/
def setParent (nd : PseudotreeNode) (p : Option Nat) : PseudotreeNode :=
  { nd with m_parent := p }

/-- `addChild`. -/
def addChild (nd : PseudotreeNode) (c : Nat) : PseudotreeNode :=
  { nd with m_children := nd.m_children ++ [c] }

/-- `setChild`. -/
def setChild (nd : PseudotreeNode) (c : Nat) : PseudotreeNode :=
  { nd with m_children := [c] }

/-- `setCacheContext`. -/
def setCacheContext (nd : PseudotreeNode) (c : List Nat) : PseudotreeNode :=
  { nd with m_cacheContextS := c }

/-- `addCacheReset`. -/
def addCacheReset (nd : PseudotreeNode) (i : Nat) : PseudotreeNode :=
  { nd with m_cacheResetList := nd.m_cacheResetList ++ [i] }

/-- `addFunction`. -/
def addFunction (nd : PseudotreeNode) (f : Function) : PseudotreeNode :=
  { nd with m_functions := nd.m_functions ++ [f] }

/-- `resetFunctions`. -/
def resetFunctions (nd : PseudotreeNode) : PseudotreeNode :=
  { nd with m_functions := [] }

/-- `PseudotreeNode::compLess`. -/
def compLess (a b : PseudotreeNode) : Bool :=
  if a.m_subWidth < b.m_subWidth then true
  else if a.m_subWidth > b.m_subWidth then false
  else if a.m_subHeight < b.m_subHeight then true
  else false

/-- `PseudotreeNode::compGreater`. -/
def compGreater (a b : PseudotreeNode) : Bool :=
  if a.m_subWidth > b.m_subWidth then true
  else if a.m_subWidth < b.m_subWidth then false
  else if a.m_subHeight > b.m_subHeight then true
  else false

end PseudotreeNode

/-- The arena of the nodes: `m_nodes`, read at a pointer. -/
abbrev Arena := List (Option PseudotreeNode)

/-- The node a pointer points to; `none` for `NULL` and for a position outside `m_nodes`. -/
def Arena.deref (nodes : Arena) (p : Nat) : Option PseudotreeNode := nodes.getD p none

/-- An update of the node a pointer points to. -/
def Arena.modify (nodes : Arena) (p : Nat) (f : PseudotreeNode → PseudotreeNode) : Arena :=
  match nodes.deref p with
  | some nd => nodes.set p (some (f nd))
  | none => nodes

/-! ## The recursive updates of `PseudotreeNode` -/

/-- The loop over the children in `updateDepthHeight`: `m = max(m, child->update(d+1))`;
`f` is the call on one child. -/
def depthHeightKids (f : Arena → Nat → Option (Arena × Int)) :
    List Nat → Arena → Int → Option (Arena × Int)
  | [], nodes, m => some (nodes, m)
  | c :: cs, nodes, m =>
    match f nodes c with
    | none => none
    | some (nodes1, h) => depthHeightKids f cs nodes1 (max m h)

/-- `PseudotreeNode::updateDepthHeight(d)` on the node `v`; the first argument bounds the
depth of the recursion. Returns the arena and the height of the subtree. -/
def updateDepthHeight : Nat → Arena → Nat → Int → Option (Arena × Int)
  | 0, _, _, _ => none
  | fuel + 1, nodes, v, d =>
    match nodes.deref v with
    | none => none
    | some nd =>
      let nodes1 := nodes.modify v (fun x => { x with m_depth := d })
      if nd.m_children = [] then
        some (nodes1.modify v (fun x => { x with m_subHeight := 0 }), 0)
      else
        match depthHeightKids (fun ns c => updateDepthHeight fuel ns c (d + 1))
            nd.m_children nodes1 0 with
        | none => none
        | some (nodes2, m) =>
          some (nodes2.modify v (fun x => { x with m_subHeight := m + 1 }), m + 1)

/-- The loop over the children in `updateSubWidth`:
`m_subWidth = max(m_subWidth, child->updateSubWidth())`, on the node `v`. -/
def subWidthKids (f : Arena → Nat → Option (Arena × Int)) (v : Nat) :
    List Nat → Arena → Option Arena
  | [], nodes => some nodes
  | c :: cs, nodes =>
    match f nodes c with
    | none => none
    | some (nodes1, w) =>
      subWidthKids f v cs (nodes1.modify v (fun x => { x with m_subWidth := max x.m_subWidth w }))

/-- `PseudotreeNode::updateSubWidth()` on the node `v`. -/
def updateSubWidth : Nat → Arena → Nat → Option (Arena × Int)
  | 0, _, _ => none
  | fuel + 1, nodes, v =>
    match nodes.deref v with
    | none => none
    | some nd =>
      let nodes1 := nodes.modify v (fun x => { x with m_subWidth := (x.m_contextS.length : Int) })
      match subWidthKids (fun ns c => updateSubWidth fuel ns c) v nd.m_children nodes1 with
      | none => none
      | some nodes2 =>
        match nodes2.deref v with
        | none => none
        | some nd2 => some (nodes2, nd2.m_subWidth)

/-- The `sort` of a vector of variables: insertion into ascending order. -/
def sortVars (l : List Nat) : List Nat := l.insertionSort (fun x y => x ≤ y)

/-- Lines 699-705: the map from the variables to their positions in the sorted list. -/
def subproblemVarMap (numVars : Nat) (vars : List Nat) : List Int :=
  (vars.enum).foldl (fun mp iv => mp.set iv.2 (iv.1 : Int)) (List.replicate numVars NONE)

/-- The loop over the children in `updateSubprobVars`: the variables of every child are
appended to `m_subproblemVars` of the node `v`. -/
def subprobVarsKids (f : Arena → Nat → Option (Arena × List Nat)) (v : Nat) :
    List Nat → Arena → Option Arena
  | [], nodes => some nodes
  | c :: cs, nodes =>
    match f nodes c with
    | none => none
    | some (nodes1, childVars) =>
      subprobVarsKids f v cs
        (nodes1.modify v (fun x => { x with m_subproblemVars := x.m_subproblemVars ++ childVars }))

/-- `PseudotreeNode::updateSubprobVars(numVars)` on the node `v`. -/
def updateSubprobVars (numVars : Nat) : Nat → Arena → Nat → Option (Arena × List Nat)
  | 0, _, _ => none
  | fuel + 1, nodes, v =>
    match nodes.deref v with
    | none => none
    | some nd =>
      let nodes1 := nodes.modify v (fun x => { x with m_subproblemVars := [x.m_var] })
      match subprobVarsKids (fun ns c => updateSubprobVars numVars fuel ns c) v
          nd.m_children nodes1 with
      | none => none
      | some nodes2 =>
        match nodes2.deref v with
        | none => none
        | some nd2 =>
          let vars := sortVars nd2.m_subproblemVars
          some (nodes2.modify v (fun x => { x with
                  m_subproblemVars := vars,
                  m_subproblemVarMap := subproblemVarMap numVars vars }), vars)

/-- How `m_subOrder` compares with the constants of the absent header: equal to
`SUBPROB_WIDTH_INC`, equal to `SUBPROB_WIDTH_DEC`, or neither. -/
inductive SubOrder where
  /-- `SUBPROB_WIDTH_INC`. -/
  | widthInc
  /-- `SUBPROB_WIDTH_DEC`. -/
  | widthDec
  /-- Any other value. -/
  | other
deriving DecidableEq, Repr

/-- `PseudotreeNode::orderChildren(subOrder)` on the node `v`. `std::sort` is an insertion
sort here; the order it gives to children that compare equal is not specified in C++.
The comparison dereferences the children, a null child is `none`. -/
def orderChildren (subOrder : SubOrder) (nodes : Arena) (v : Nat) : Option Arena :=
  let key (a : Nat) : PseudotreeNode := (nodes.deref a).getD (PseudotreeNode.new a [])
  match nodes.deref v with
  | none => none
  | some nd =>
    match subOrder with
    | SubOrder.widthInc =>
      if nd.m_children.all (fun c => (nodes.deref c).isSome) then
        let sorted := nd.m_children.insertionSort
          (fun a b => PseudotreeNode.compLess (key a) (key b) = true)
        some (nodes.modify v (fun x => { x with m_children := sorted }))
      else none
    | SubOrder.widthDec =>
      if nd.m_children.all (fun c => (nodes.deref c).isSome) then
        let sorted := nd.m_children.insertionSort
          (fun a b => PseudotreeNode.compGreater (key a) (key b) = true)
        some (nodes.modify v (fun x => { x with m_children := sorted }))
      else none
    | SubOrder.other => some nodes

/-! ## `Pseudotree` -/

/-- The class `Pseudotree`; `m_problemN` is `m_problem->getN()`. -/
structure Pseudotree where
  /-- The order of the subproblems. -/
  m_subOrder : SubOrder
  /-- The height. -/
  m_height : Int
  /-- The height of the conditioned subproblem. -/
  m_heightConditioned : Int
  /-- The induced width. -/
  m_width : Int
  /-- The width of the conditioned subproblem. -/
  m_widthConditioned : Int
  /-- The path width, set by `buildChain`. -/
  m_pathwidth : Int
  /-- The number of components. -/
  m_components : Int
  /-- The number of nodes. -/
  m_size : Int
  /-- The size of the conditioned subproblem. -/
  m_sizeConditioned : Int
  /-- The number of variables of the problem. -/
  m_problemN : Nat
  /-- The root. -/
  m_root : Option Nat
  /-- The initial scores of min-fill. -/
  m_initialScores : List Int
  /-- The nodes, by variable. -/
  m_nodes : Arena
  /-- The elimination order, the dummy variable last. -/
  m_elimOrder : List Nat
deriving DecidableEq, Repr

namespace Pseudotree

/-- The constructor `Pseudotree(p, subOrder)` for a problem of `N` variables;
`m_pathwidth`, which the constructor leaves unset, is `UNKNOWN` here. -/
def new (N : Nat) (subOrder : SubOrder) : Pseudotree :=
  { m_subOrder := subOrder, m_height := UNKNOWN, m_heightConditioned := UNKNOWN,
    m_width := UNKNOWN, m_widthConditioned := UNKNOWN, m_pathwidth := UNKNOWN,
    m_components := 0, m_size := N, m_sizeConditioned := UNKNOWN, m_problemN := N,
    m_root := none, m_initialScores := [], m_nodes := List.replicate N none,
    m_elimOrder := [] }

/-- `Pseudotree::reset`. -/
def reset (pt : Pseudotree) : Pseudotree :=
  { pt with m_height := UNKNOWN, m_heightConditioned := UNKNOWN, m_width := UNKNOWN,
            m_widthConditioned := UNKNOWN, m_components := 0, m_sizeConditioned := UNKNOWN,
            m_root := none, m_nodes := List.replicate pt.m_problemN none,
            m_size := pt.m_problemN }

/-- `Pseudotree::getWidth`. -/
def getWidth (pt : Pseudotree) : Int := pt.m_width

/-- `Pseudotree::getComponents`. -/
def getComponents (pt : Pseudotree) : Int := pt.m_components

/-- `Pseudotree::getElimOrder`. -/
def getElimOrder (pt : Pseudotree) : List Nat := pt.m_elimOrder

/-- `Pseudotree::getNode`. -/
def getNode (pt : Pseudotree) (i : Nat) : Option PseudotreeNode := pt.m_nodes.deref i

end Pseudotree

/-- Lines 945-955 of `insertNewNode`: the loop over `roots`. Returns the arena, in which
every root whose context holds `i` has become a child of the node `i`, and the roots that
are left. -/
def attachRoots (i : Nat) : List Nat → Arena → List Nat → Option (Arena × List Nat)
  | [], nodes, kept => some (nodes, kept)
  | r :: rest, nodes, kept =>
    match nodes.deref r with
    | none => none
    | some rn =>
      if i ∈ rn.m_contextS then
        attachRoots i rest
          ((nodes.modify i (fun p => p.addChild r)).modify r (fun x => x.setParent (some i)))
          kept
      else attachRoots i rest nodes (kept ++ [r])

/-- `Pseudotree::insertNewNode(i, N, roots)`. The arena is keyed by variable, so the model
stops when `i` is no position of `m_nodes` or has a node already. -/
def insertNewNode (nodes : Arena) (i : Nat) (N : List Nat) (roots : List Nat) :
    Option (Arena × List Nat) :=
  if i < nodes.length ∧ nodes.deref i = none then
    match attachRoots i roots (nodes.set i (some (PseudotreeNode.new i N))) [] with
    | none => none
    | some (nodes1, kept) => some (nodes1, kept ++ [i])
  else none

/-- The variables of the first loop of `build`. -/
structure BuildState where
  /-- The graph, passed by value. -/
  G : Graph
  /-- The member `m_width`. -/
  m_width : Int
  /-- The member `m_nodes`. -/
  m_nodes : Arena
  /-- The local list `roots`. -/
  roots : List Nat
deriving DecidableEq, Repr

/-- Lines 393-399: the first loop of `build`, over the elimination order. -/
def buildLoop : List Nat → BuildState → Option BuildState
  | [], st => some st
  | v :: rest, st =>
    match st.G.getNeighbors v with
    | none => none
    | some N =>
      match insertNewNode st.m_nodes v N st.roots with
      | none => none
      | some (nodes1, roots1) =>
        buildLoop rest
          { G := (st.G.addClique N).removeNode v,
            m_width := max st.m_width (N.length : Int),
            m_nodes := nodes1, roots := roots1 }

/-- The inner `while (ctxt.find(p->getVar()) == ctxt.end()) p = p->getParent();` of the
cache context loop: the first node from `p` upward whose variable is in `ctxt`; `none`
when the walk steps past a node without parent. The first argument bounds the steps. -/
def findInContext (nodes : Arena) (ctxt : List Nat) : Nat → Option Nat → Option Nat
  | 0, _ => none
  | _ + 1, none => none
  | fuel + 1, some p =>
    match nodes.deref p with
    | none => none
    | some nd =>
      if nd.m_var ∈ ctxt then some p else findInContext nodes ctxt fuel nd.m_parent

/-- Lines 411-416: `while (j--)`, which collects `j` context variables from `p` upward.
Returns the pointer `p` after the loop and the set `newCacheCtxt`. -/
def cacheWalk (nodes : Arena) (ctxt : List Nat) :
    Nat → Option Nat → List Nat → Option (Option Nat × List Nat)
  | 0, p, acc => some (p, acc)
  | j + 1, p, acc =>
    match findInContext nodes ctxt (nodes.length + 1) p with
    | none => none
    | some q =>
      match nodes.deref q with
      | none => none
      | some nd => cacheWalk nodes ctxt j nd.m_parent (setInsert nd.m_var acc)

/-- Lines 403-421: the body of the cache context loop for the node at position `i`. A
limit below zero other than `NONE` lets `while (j--)` run until `p` is null. -/
def cacheContextNode (cachelimit : Int) (nodes : Arena) (i : Nat) : Option Arena :=
  match nodes.deref i with
  | none => none
  | some nd =>
    if cachelimit = NONE ∨ cachelimit ≥ (nd.m_contextS.length : Int) then
      some (nodes.modify i (fun x => x.setCacheContext nd.m_contextS))
    else if cachelimit < 0 then none
    else
      match cacheWalk nodes nd.m_contextS cachelimit.toNat nd.m_parent [] with
      | none => none
      | some (p, newCacheCtxt) =>
        let nodes1 := nodes.modify i (fun x => x.setCacheContext newCacheCtxt)
        match findInContext nodes1 nd.m_contextS (nodes1.length + 1) p with
        | none => none
        | some q => some (nodes1.modify q (fun x => x.addCacheReset nd.m_var))

/-- Lines 402-424: the cache context loop over the positions of `m_nodes`. -/
def cacheContextLoop (cachelimit : Int) : List Nat → Arena → Option Arena
  | [], nodes => some nodes
  | i :: rest, nodes =>
    match cacheContextNode cachelimit nodes i with
    | none => none
    | some nodes1 => cacheContextLoop cachelimit rest nodes1

/-- Lines 430-434: the roots become the children of the dummy node at position `bogus`. -/
def attachToDummy (bogus : Nat) : List Nat → Arena → Int → Option (Arena × Int)
  | [], nodes, comps => some (nodes, comps)
  | r :: rest, nodes, comps =>
    match nodes.deref r with
    | none => none
    | some _ =>
      attachToDummy bogus rest
        ((nodes.modify bogus (fun p => p.addChild r)).modify r
          (fun x => x.setParent (some bogus)))
        (comps + 1)

/-- Lines 455-456: `orderChildren` on every node. -/
def orderAll (subOrder : SubOrder) : List Nat → Arena → Option Arena
  | [], nodes => some nodes
  | i :: rest, nodes =>
    match orderChildren subOrder nodes i with
    | none => none
    | some nodes1 => orderAll subOrder rest nodes1

/-- `Pseudotree::build(G, elim, cachelimit)` (without `PARALLEL_DYNAMIC` and
`PARALLEL_STATIC`). The recursive updates get the number of nodes plus one as the bound
of their depth. -/
def Pseudotree.build (pt0 : Pseudotree) (G : Graph) (elim : List Nat) (cachelimit : Int) :
    Option Pseudotree :=
  let pt := if pt0.m_height ≠ UNKNOWN then pt0.reset else pt0
  if G.getStatNodes = (pt.m_nodes.length : Int) ∧ G.getStatNodes = (elim.length : Int) then
    match buildLoop elim { G := G, m_width := pt.m_width, m_nodes := pt.m_nodes, roots := [] } with
    | none => none
    | some st =>
      match cacheContextLoop cachelimit (List.range st.m_nodes.length) st.m_nodes with
      | none => none
      | some nodes1 =>
        let bogusIdx := elim.length
        match attachToDummy bogusIdx st.roots (nodes1 ++ [some (PseudotreeNode.new bogusIdx [])])
            pt.m_components with
        | none => none
        | some (nodes2, comps) =>
          match updateDepthHeight (nodes2.length + 1) nodes2 bogusIdx (-1) with
          | none => none
          | some (nodes3, h) =>
            match updateSubWidth (nodes3.length + 1) nodes3 bogusIdx with
            | none => none
            | some (nodes4, _) =>
              match orderAll pt.m_subOrder (List.range nodes4.length) nodes4 with
              | none => none
              | some nodes5 =>
                match updateSubprobVars nodes5.length (nodes5.length + 1) nodes5 bogusIdx with
                | none => none
                | some (nodes6, vars) =>
                  some { pt with m_width := st.m_width, m_components := comps,
                                 m_nodes := nodes6, m_root := some bogusIdx,
                                 m_elimOrder := elim ++ [bogusIdx],
                                 m_height := h - 1,
                                 m_size := (vars.length : Int) - 1 }
  else none

/-- The variables of the first loop of `buildChain`. -/
structure ChainState where
  /-- The graph, passed by value. -/
  G : Graph
  /-- The member `m_pathwidth`. -/
  m_pathwidth : Int
  /-- The member `m_nodes`. -/
  m_nodes : Arena
  /-- The running context. -/
  context : List Nat
  /-- The node created last. -/
  prev : Option Nat
deriving DecidableEq, Repr

/-- Lines 288-311: the first loop of `buildChain`. As in `insertNewNode` the model stops
when the variable is no position of `m_nodes` or has a node already. -/
def chainLoop : List Nat → ChainState → Option ChainState
  | [], st => some st
  | v :: rest, st =>
    match st.G.getNeighbors v with
    | none => none
    | some N =>
      let context := setInsertAll N (setErase v st.context)
      if v < st.m_nodes.length ∧ st.m_nodes.deref v = none then
        let nodes1 : Arena := st.m_nodes.set v (some (PseudotreeNode.new v context))
        let nodes2 : Arena :=
          match st.prev with
          | some q => (nodes1.modify v (fun x => x.setChild q)).modify q
              (fun x => x.setParent (some v))
          | none => nodes1
        chainLoop rest
          { G := (st.G.addClique N).removeNode v,
            m_pathwidth := max st.m_pathwidth (context.length : Int),
            m_nodes := nodes2, context := context, prev := some v }
      else none

/-- `Pseudotree::buildChain(G, elim, cachelimit)` (without `PARALLEL_DYNAMIC` and
`PARALLEL_STATIC`). -/
def Pseudotree.buildChain (pt0 : Pseudotree) (G : Graph) (elim : List Nat)
    (cachelimit : Int) : Option Pseudotree :=
  let pt := if pt0.m_height ≠ UNKNOWN then { pt0.reset with m_width := pt0.m_width } else pt0
  if G.getStatNodes = (pt.m_nodes.length : Int) ∧ G.getStatNodes = (elim.length : Int) then
    match chainLoop elim { G := G, m_pathwidth := pt.m_pathwidth, m_nodes := pt.m_nodes,
                           context := [], prev := none } with
    | none => none
    | some st =>
      match cacheContextLoop cachelimit (List.range st.m_nodes.length) st.m_nodes with
      | none => none
      | some nodes1 =>
        let bogusIdx := elim.length
        match st.prev with
        | none => none
        | some prev =>
          let nodes2 : Arena :=
            Arena.modify
              (Arena.modify (nodes1 ++ [some (PseudotreeNode.new bogusIdx [])]) bogusIdx
                (fun p => p.addChild prev))
              prev (fun x => x.setParent (some bogusIdx))
          match updateDepthHeight (nodes2.length + 1) nodes2 bogusIdx (-1) with
          | none => none
          | some (nodes3, h) =>
            match updateSubWidth (nodes3.length + 1) nodes3 bogusIdx with
            | none => none
            | some (nodes4, _) =>
              match updateSubprobVars nodes4.length (nodes4.length + 1) nodes4 bogusIdx with
              | none => none
              | some (nodes5, vars) =>
                some { pt with m_pathwidth := st.m_pathwidth, m_components := 1,
                               m_nodes := nodes5, m_root := some bogusIdx,
                               m_elimOrder := elim ++ [bogusIdx],
                               m_height := h - 1,
                               m_size := (vars.length : Int) - 1 }
  else none

/-- Lines 100-106 of `resetFunctionInfo`: the search of `m_elimOrder` for the first
variable of the scope; `none` when the iterator runs past the end. -/
def firstInScope (scope : List Nat) : List Nat → Option Nat
  | [] => none
  | v :: rest => if v ∈ scope then some v else firstInScope scope rest

/-- Lines 96-106: the position in `m_nodes` of the node that gets the function `f`:
`m_elimOrder.back()` for an empty scope, else the first entry of `m_elimOrder` that is in
the scope; `none` when there is no such entry. -/
def functionTarget (elimOrder : List Nat) (f : Function) : Option Nat :=
  if f.getScopeSet.length = 0 then elimOrder.getLast? else firstInScope f.getScopeSet elimOrder

/-- Lines 90-107: the body of the loop over the functions. -/
def assignFunction (elimOrder : List Nat) (nodes : Arena) (f : Function) : Option Arena :=
  if f.getScopeSet.length = 0 then
    match elimOrder.getLast? with
    | none => none
    | some d =>
      match nodes.deref d with
      | none => none
      | some _ => some (nodes.modify d (fun x => x.addFunction f))
  else
    match firstInScope f.getScopeSet elimOrder with
    | none => none
    | some v =>
      match nodes.deref v with
      | none => none
      | some _ => some (nodes.modify v (fun x => x.addFunction f))

/-- Lines 90-107: the loop over the functions. -/
def assignFunctions (elimOrder : List Nat) : List Function → Arena → Option Arena
  | [], nodes => some nodes
  | f :: rest, nodes =>
    match assignFunction elimOrder nodes f with
    | none => none
    | some nodes1 => assignFunctions elimOrder rest nodes1

/-- Lines 87-88: `resetFunctions` on every node; a null node is `none`. -/
def resetAllFunctions : Arena → Option Arena
  | [] => some []
  | none :: _ => none
  | some nd :: rest =>
    match resetAllFunctions rest with
    | none => none
    | some rest1 => some (some nd.resetFunctions :: rest1)

/-- `Pseudotree::resetFunctionInfo(fns)`. -/
def Pseudotree.resetFunctionInfo (pt : Pseudotree) (fns : List Function) :
    Option Pseudotree :=
  match resetAllFunctions pt.m_nodes with
  | none => none
  | some nodes0 =>
    match assignFunctions pt.m_elimOrder fns nodes0 with
    | none => none
    | some nodes1 => some { pt with m_nodes := nodes1 }

/-! ## Well-formed graphs -/

/-- The node `j` is in the neighbour set of the node `i`. -/
def Graph.adj (G : Graph) (i j : Nat) : Prop :=
  ∃ S, G.getNeighbors i = some S ∧ j ∈ S

/-- Adjacency is read off the neighbour set. -/
instance Graph.decidableAdj (G : Graph) (i j : Nat) : Decidable (G.adj i j) :=
  match h : G.getNeighbors i with
  | none => isFalse (fun ⟨_, hS, _⟩ => by rw [h] at hS; cases hS)
  | some S =>
    if hj : j ∈ S then isTrue ⟨S, h, hj⟩
    else isFalse (fun ⟨_, hS, hm⟩ => by rw [h] at hS; cases hS; exact hj hm)

/-- The invariants of the representation: the keys of the map are distinct, the node
counter is the number of keys, the neighbour sets have no repetition. -/
structure Graph.Rep (G : Graph) : Prop where
  /-- The keys of the adjacency map are distinct. -/
  keysNodup : (G.m_neighbors.map Prod.fst).Nodup
  /-- The node counter is the number of keys. -/
  statNodes : G.m_statNumNodes = (G.m_neighbors.length : Int)
  /-- A neighbour set has no repetition. -/
  setsNodup : ∀ i S, G.getNeighbors i = some S → S.Nodup

/-- An undirected graph without loops: "edges and their reverse edges are kept in sync",
so a neighbour is a node, and no node is its own neighbour. -/
structure Graph.Simple (G : Graph) : Prop where
  /-- The reverse of an edge is an edge. -/
  sym : ∀ i j, G.adj i j → G.adj j i
  /-- No node is its own neighbour. -/
  irrefl : ∀ i, ¬ G.adj i i

/-- The adjacency matrix agrees with the adjacency lists on the nodes of the graph. -/
structure Graph.MatrixOK (G : Graph) : Prop where
  /-- The nodes index the matrix. -/
  bound : ∀ i, G.hasNode i = true → i < G.m_n
  /-- The matrix has `m_n * m_n` entries. -/
  size : G.m_matrix.length = G.m_n * G.m_n
  /-- An entry between two nodes is set exactly for an edge. -/
  agree : ∀ i j, G.hasNode i = true → G.hasNode j = true →
    (G.hasEdge i j = true ↔ G.adj i j)

/-- A well-formed graph. -/
structure Graph.WF (G : Graph) : Prop where
  /-- The representation is sound. -/
  rep : G.Rep
  /-- The graph is undirected and has no loops. -/
  simple : G.Simple
  /-- The matrix agrees with the lists. -/
  matrix : G.MatrixOK

/-- The node set of the graph is `0..n-1`. -/
def Graph.NodesAre (G : Graph) (n : Nat) : Prop :=
  ∀ k, G.hasNode k = true ↔ k < n

/-- A decision procedure for `WF` and `NodesAre` on a concrete graph. -/
def Graph.check (G : Graph) (n : Nat) : Bool :=
  decide ((G.m_neighbors.map Prod.fst).Nodup)
  && decide (G.m_statNumNodes = (G.m_neighbors.length : Int))
  && decide (G.m_matrix.length = G.m_n * G.m_n)
  && decide (∀ k < n, G.hasNode k = true)
  && G.m_neighbors.all (fun e =>
      decide (e.1 < n) && decide (e.1 < G.m_n) && decide (e.2.Nodup) && decide (e.1 ∉ e.2)
      && e.2.all (fun j => decide (e.1 ∈ (G.getNeighbors j).getD []) && G.hasNode j)
      && G.m_neighbors.all (fun f => G.hasEdge e.1 f.1 == decide (f.1 ∈ e.2)))

/-! ## Invariants of `eliminate` -/

/-- Every rank, as a list of nodes together with its score, satisfies `Q`. -/
def Slots (tolerance : Nat) (Q : List Nat → Int → Prop) (cands : List (List Nat))
    (cs : List Int) : Prop :=
  ∀ m, m < tolerance + 1 → Q (cands.getD m []) (cs.getD m 0)

/-- What holds of the work lists after the scores of the nodes `pre` have been scanned. -/
structure ScanInv (tolerance : Nat) (sc : List Int) (pre : List Nat) (c : Cands) : Prop where
  /-- There are `tolerance + 1` ranks. -/
  len1 : c.candidates.length = tolerance + 1
  /-- There are `tolerance + 1` rank scores. -/
  len2 : c.candScore.length = tolerance + 1
  /-- The simplicial nodes are the scanned nodes of score 0, in the order of the scan. -/
  simp : c.simplicial = pre.filter (fun x => decide (sc.getD x 0 = 0))
  /-- A node of a rank was scanned, has a score other than 0, and it is the score of the
  rank; a rank whose score is set is not empty. -/
  slots : Slots tolerance
    (fun l v => (∀ x ∈ l, x ∈ pre ∧ sc.getD x 0 ≠ 0 ∧ sc.getD x 0 = v)
      ∧ (v ≠ INT_MAX → l ≠ [])) c.candidates c.candScore
  /-- The score of the first rank is the least score other than 0. -/
  minScore : ∀ x ∈ pre, sc.getD x 0 ≠ 0 → c.candScore.getD 0 0 ≤ sc.getD x 0
  /-- The score of the first rank is at most the initial one. -/
  le : c.candScore.getD 0 0 ≤ INT_MAX

/-- The loop invariant of `eliminate` on a graph with the nodes `0..n-1`: the graph holds
the nodes that are not in `elim` yet, and a score is `INT_MAX` exactly for the nodes that
are in `elim`. -/
structure ElimInv (n : Nat) (st : ElimState) : Prop where
  /-- The representation of the graph is sound. -/
  rep : st.G.Rep
  /-- The graph is undirected without loops. -/
  simple : st.G.Simple
  /-- The graph holds the nodes that are not eliminated. -/
  nodes : ∀ k, st.G.hasNode k = true ↔ (k < n ∧ k ∉ st.elim)
  /-- No node is in the order twice. -/
  elimNodup : st.elim.Nodup
  /-- The order holds nodes of the graph. -/
  elimLt : ∀ k ∈ st.elim, k < n
  /-- There is a score for every node. -/
  scoresLen : st.scores.length = n
  /-- The score of an eliminated node is the tag. -/
  scoreDead : ∀ k ∈ st.elim, st.scores.getD k 0 = INT_MAX
  /-- The score of a node of the graph is below the tag. -/
  scoreLive : ∀ k, st.G.hasNode k = true → st.scores.getD k 0 < INT_MAX

/-! ## Invariants of `build` -/

/-- Several `addChild` in a row. -/
def PseudotreeNode.addChildren (nd : PseudotreeNode) (cs : List Nat) : PseudotreeNode :=
  { nd with m_children := nd.m_children ++ cs }

/-- The full context of the node at a position, empty when there is no node. -/
def Arena.ctx (nodes : Arena) (r : Nat) : List Nat :=
  ((nodes.deref r).map (fun x => x.m_contextS)).getD []


/-- The loop invariant of the first loop of `build` on the graph `G0` with the nodes
`0..n-1`, after the prefix `pre` of the order `elim`: the created nodes form a forest in
which a parent is eliminated after its children, and a node without parent has a context
of nodes that are still in the graph and are pairwise adjacent there. -/
structure ForestInv (G0 : Graph) (n : Nat) (elim pre : List Nat) (st : BuildState) : Prop where
  /-- The representation of the graph is sound. -/
  rep : st.G.Rep
  /-- The graph is undirected without loops. -/
  simple : st.G.Simple
  /-- The graph holds the nodes that are not eliminated. -/
  gnodes : ∀ k, st.G.hasNode k = true ↔ (k < n ∧ k ∉ pre)
  /-- The nodes done are in the order before the others. -/
  before : ∀ k ∈ pre, ∀ x, x ∉ pre → elim.indexOf k < elim.indexOf x
  /-- The nodes done are nodes of the graph. -/
  preLt : ∀ k ∈ pre, k < n
  /-- The arena has one position per node of the graph. -/
  len : st.m_nodes.length = n
  /-- The positions of the nodes done are filled. -/
  nodeIff : ∀ k, (st.m_nodes.deref k).isSome = true ↔ k ∈ pre
  /-- A node is stored at the position of its variable. -/
  var : ∀ k nd, st.m_nodes.deref k = some nd → nd.m_var = k
  /-- The list `roots` holds the nodes without parent. -/
  rootsIff : ∀ r, r ∈ st.roots ↔ ∃ nd, st.m_nodes.deref r = some nd ∧ nd.m_parent = none
  /-- No node is in `roots` twice. -/
  rootsNodup : st.roots.Nodup
  /-- A parent is eliminated later, lists the child once, and its context with its variable
  covers the context of the child. -/
  parent : ∀ k nd p, st.m_nodes.deref k = some nd → nd.m_parent = some p →
    elim.indexOf k < elim.indexOf p ∧ ∃ pn, st.m_nodes.deref p = some pn
      ∧ pn.m_children.count k = 1 ∧ ∀ x ∈ nd.m_contextS, x = p ∨ x ∈ pn.m_contextS
  /-- A child names the node as its parent. -/
  children : ∀ p pn c, st.m_nodes.deref p = some pn → c ∈ pn.m_children →
    ∃ cn, st.m_nodes.deref c = some cn ∧ cn.m_parent = some p
  /-- A context has no repetition. -/
  ctxNodup : ∀ k nd, st.m_nodes.deref k = some nd → nd.m_contextS.Nodup
  /-- A context holds nodes that are eliminated later. -/
  ctxLater : ∀ k nd x, st.m_nodes.deref k = some nd → x ∈ nd.m_contextS →
    x < n ∧ elim.indexOf k < elim.indexOf x
  /-- The context of a node without parent is a clique of the graph. -/
  rootCtx : ∀ r nd, st.m_nodes.deref r = some nd → nd.m_parent = none →
    (∀ x ∈ nd.m_contextS, x ∉ pre)
      ∧ (∀ x ∈ nd.m_contextS, ∀ y ∈ nd.m_contextS, x ≠ y → st.G.adj x y)
  /-- An edge of `G0` between nodes that are not eliminated is an edge of the graph. -/
  edges : ∀ a b, G0.adj a b → a ∉ pre → b ∉ pre → st.G.adj a b
  /-- A neighbour in `G0` that is eliminated later is in the context. -/
  ctxEdges : ∀ k nd x, st.m_nodes.deref k = some nd → G0.adj k x →
    elim.indexOf k < elim.indexOf x → x ∈ nd.m_contextS
  /-- Nothing but the context is set in a node yet. -/
  fresh : ∀ k nd, st.m_nodes.deref k = some nd →
    nd.m_cacheContextS = [] ∧ nd.m_cacheResetList = [] ∧ nd.m_functions = []

/-- The nodes met from the pointer `p` upward along the parent links; the first argument
bounds the number of steps. -/
def Arena.ancestors (nodes : Arena) : Nat → Option Nat → List Nat
  | 0, _ => []
  | _ + 1, none => []
  | fuel + 1, some p =>
    match nodes.deref p with
    | none => []
    | some nd => p :: Arena.ancestors nodes fuel nd.m_parent

/-- The proper ancestors of the node at position `k`, nearest first. -/
def Arena.ancestorsOf (nodes : Arena) (k : Nat) : List Nat :=
  match nodes.deref k with
  | none => []
  | some nd => nodes.ancestors nodes.length nd.m_parent

/-- The parent links climb in the rank `ρ`, which stays below `B`, and a node is stored at
the position of its variable. -/
structure Arena.Ranked (nodes : Arena) (ρ : Nat → Nat) (B : Nat) : Prop where
  /-- A node is stored at the position of its variable. -/
  var : ∀ k nd, nodes.deref k = some nd → nd.m_var = k
  /-- The parent of a node is a node of higher rank. -/
  up : ∀ k nd p, nodes.deref k = some nd → nd.m_parent = some p →
    ρ k < ρ p ∧ ρ p < B ∧ (nodes.deref p).isSome = true

/-- Two nodes agree in variable, parent and full context, and have the same children up
to their order. -/
def PseudotreeNode.Shape (a b : PseudotreeNode) : Prop :=
  a.m_var = b.m_var ∧ a.m_parent = b.m_parent ∧ a.m_contextS = b.m_contextS
    ∧ a.m_children.Perm b.m_children

/-- Two nodes agree in all that `build` has set before the recursive updates, the children
up to their order. -/
def PseudotreeNode.Similar (a b : PseudotreeNode) : Prop :=
  a.Shape b ∧ a.m_cacheContextS = b.m_cacheContextS
    ∧ a.m_cacheResetList = b.m_cacheResetList ∧ a.m_functions = b.m_functions

/-- Two arenas hold nodes at the same positions, related by `R`. -/
def Arena.Rel (R : PseudotreeNode → PseudotreeNode → Prop) (A B : Arena) : Prop :=
  A.length = B.length ∧ ∀ k,
    match A.deref k, B.deref k with
    | none, none => True
    | some a, some b => R a b
    | _, _ => False

/-- The context of a node without parent is empty, and the context of any other node is
covered by the context of its parent together with the parent. -/
def Arena.Covered (nodes : Arena) : Prop :=
  ∀ k nd, nodes.deref k = some nd →
    (nd.m_parent = none → nd.m_contextS = [])
    ∧ (∀ p, nd.m_parent = some p →
        ∃ pn, nodes.deref p = some pn ∧ ∀ x ∈ nd.m_contextS, x = p ∨ x ∈ pn.m_contextS)

/-- Two nodes agree in everything the cache context loop reads or leaves alone. -/
def PseudotreeNode.CacheRel (a b : PseudotreeNode) : Prop :=
  a.m_var = b.m_var ∧ a.m_parent = b.m_parent ∧ a.m_contextS = b.m_contextS
    ∧ a.m_children = b.m_children ∧ a.m_functions = b.m_functions

/-- The context variables met from the parent of the node at position `k` upward, nearest
first. -/
def Arena.ctxAncestors (nodes : Arena) (k : Nat) : List Nat :=
  match nodes.deref k with
  | none => []
  | some nd =>
    (nodes.ancestors (nodes.length + 1) nd.m_parent).filter (fun x => decide (x ∈ nd.m_contextS))

/-- The cache context that lines 403-417 give to the node at position `k`. -/
def Arena.cacheTarget (cachelimit : Int) (nodes : Arena) (k : Nat) : List Nat :=
  match nodes.deref k with
  | none => []
  | some nd =>
    if cachelimit = NONE ∨ cachelimit ≥ (nd.m_contextS.length : Int) then nd.m_contextS
    else ((nodes.ctxAncestors k).take cachelimit.toNat).foldl (fun a x => setInsert x a) []

/-- What `build` has made of the graph `G0` on the nodes `0..n-1` and the order `elim`
once the dummy root is in place: the arena is a tree on `0..n` with the root `n`. -/
structure TreeInv (G0 : Graph) (n : Nat) (elim : List Nat) (cachelimit : Int) (T : Arena) :
    Prop where
  /-- One position per node and one for the dummy. -/
  len : T.length = n + 1
  /-- Every position holds the node of its variable. -/
  node : ∀ k, k ≤ n → ∃ nd, T.deref k = some nd ∧ nd.m_var = k
  /-- The dummy has no parent and an empty context. -/
  root : ∃ rd, T.deref n = some rd ∧ rd.m_parent = none ∧ rd.m_contextS = []
      ∧ rd.m_cacheContextS = []
  /-- Every other node has a parent, the dummy or a node eliminated later, which lists it
  once as a child and covers its context; under the dummy the context is empty. -/
  parent : ∀ k nd, k < n → T.deref k = some nd →
    ∃ p pn, nd.m_parent = some p
      ∧ (p = n ∨ (p < n ∧ elim.indexOf k < elim.indexOf p))
      ∧ T.deref p = some pn ∧ pn.m_children.count k = 1
      ∧ (∀ x ∈ nd.m_contextS, x = p ∨ x ∈ pn.m_contextS)
      ∧ (p = n → nd.m_contextS = [])
  /-- A child names the node as its parent. -/
  children : ∀ p pn c, T.deref p = some pn → c ∈ pn.m_children →
    c < n ∧ ∃ cn, T.deref c = some cn ∧ cn.m_parent = some p
  /-- A context has no repetition. -/
  ctxNodup : ∀ k nd, T.deref k = some nd → nd.m_contextS.Nodup
  /-- A context holds nodes that are eliminated later. -/
  ctxLater : ∀ k nd x, T.deref k = some nd → x ∈ nd.m_contextS →
    x < n ∧ elim.indexOf k < elim.indexOf x
  /-- A neighbour in `G0` that is eliminated later is in the context. -/
  ctxEdges : ∀ k nd x, k < n → T.deref k = some nd → G0.adj k x →
    elim.indexOf k < elim.indexOf x → x ∈ nd.m_contextS
  /-- The cache contexts are those of lines 403-417. -/
  cache : ∀ k nd, k < n → T.deref k = some nd →
    nd.m_cacheContextS = T.cacheTarget cachelimit k


/-- The children of a node are nodes of lower rank `ρ`. -/
def Arena.Down (nodes : Arena) (ρ : Nat → Nat) : Prop :=
  ∀ p pn c, nodes.deref p = some pn → c ∈ pn.m_children →
    (nodes.deref c).isSome = true ∧ ρ c < ρ p

/-- The parent of a node lists the node as a child. -/
def Arena.Up (nodes : Arena) : Prop :=
  ∀ c cn p, nodes.deref c = some cn → cn.m_parent = some p →
    ∃ pn, nodes.deref p = some pn ∧ c ∈ pn.m_children

/-- The parent links lead from the node `k` to the node `v`. -/
inductive Arena.Reaches (nodes : Arena) : Nat → Nat → Prop where
  /-- A node reaches itself. -/
  | refl (k : Nat) : Arena.Reaches nodes k k
  /-- One more parent link at the upper end. -/
  | step {k c v : Nat} {cn : PseudotreeNode} : Arena.Reaches nodes k c →
      nodes.deref c = some cn → cn.m_parent = some v → Arena.Reaches nodes k v

/-- The subproblem variables of the node at position `k` hold `k` and, besides, only
variables of lower rank `ρ`. -/
def Arena.Good (nodes : Arena) (ρ : Nat → Nat) (k : Nat) : Prop :=
  ∃ nd, nodes.deref k = some nd ∧ k ∈ nd.m_subproblemVars
    ∧ ∀ x ∈ nd.m_subproblemVars, x = k ∨ ρ x < ρ k

/-- What the first loop of `build` or `buildChain` leaves when it is through the order
`elim`: a forest on the nodes `0..n-1` of the graph `G0` whose nodes without parent are
those of `roots` and have an empty context. -/
structure ForestDone (G0 : Graph) (n : Nat) (elim : List Nat) (F : Arena) (roots : List Nat) :
    Prop where
  /-- The arena has one position per node of the graph. -/
  len : F.length = n
  /-- Every position is filled. -/
  nodeSome : ∀ k, k < n → (F.deref k).isSome = true
  /-- A node is stored at the position of its variable. -/
  var : ∀ k nd, F.deref k = some nd → nd.m_var = k
  /-- The list `roots` holds the nodes without parent. -/
  rootsIff : ∀ r, r ∈ roots ↔ ∃ nd, F.deref r = some nd ∧ nd.m_parent = none
  /-- No node is in `roots` twice. -/
  rootsNodup : roots.Nodup
  /-- A parent is eliminated later, lists the child once, and its context with its variable
  covers the context of the child. -/
  parent : ∀ k nd p, F.deref k = some nd → nd.m_parent = some p →
    elim.indexOf k < elim.indexOf p ∧ ∃ pn, F.deref p = some pn
      ∧ pn.m_children.count k = 1 ∧ ∀ x ∈ nd.m_contextS, x = p ∨ x ∈ pn.m_contextS
  /-- A child names the node as its parent. -/
  children : ∀ p pn c, F.deref p = some pn → c ∈ pn.m_children →
    ∃ cn, F.deref c = some cn ∧ cn.m_parent = some p
  /-- A context has no repetition. -/
  ctxNodup : ∀ k nd, F.deref k = some nd → nd.m_contextS.Nodup
  /-- A context holds nodes that are eliminated later. -/
  ctxLater : ∀ k nd x, F.deref k = some nd → x ∈ nd.m_contextS →
    x < n ∧ elim.indexOf k < elim.indexOf x
  /-- The context of a node without parent is empty. -/
  rootCtx : ∀ r nd, F.deref r = some nd → nd.m_parent = none → nd.m_contextS = []
  /-- A neighbour in `G0` that is eliminated later is in the context. -/
  ctxEdges : ∀ k nd x, F.deref k = some nd → G0.adj k x →
    elim.indexOf k < elim.indexOf x → x ∈ nd.m_contextS

/-- The loop invariant of the first loop of `buildChain` on the graph `G0` with the nodes
`0..n-1`, after the prefix `pre` of the order `elim`: the created nodes form a chain whose
top is `prev`, and the running context is the context of `prev`. -/
structure ChainInv (G0 : Graph) (n : Nat) (elim pre : List Nat) (st : ChainState) : Prop where
  /-- The representation of the graph is sound. -/
  rep : st.G.Rep
  /-- The graph is undirected without loops. -/
  simple : st.G.Simple
  /-- The graph holds the nodes that are not eliminated. -/
  gnodes : ∀ k, st.G.hasNode k = true ↔ (k < n ∧ k ∉ pre)
  /-- The arena has one position per node of the graph. -/
  len : st.m_nodes.length = n
  /-- The positions of the nodes done are filled. -/
  nodeIff : ∀ k, (st.m_nodes.deref k).isSome = true ↔ k ∈ pre
  /-- A node is stored at the position of its variable. -/
  var : ∀ k nd, st.m_nodes.deref k = some nd → nd.m_var = k
  /-- The node created last is a node done. -/
  prevSome : ∀ q, st.prev = some q → q ∈ pre
  /-- There is a node created last once a node is done. -/
  prevNone : st.prev = none → pre = []
  /-- The node created last is the one without parent. -/
  rootIff : ∀ k nd, st.m_nodes.deref k = some nd → (nd.m_parent = none ↔ st.prev = some k)
  /-- The running context is the context of the node created last. -/
  prevCtx : ∀ q nd, st.prev = some q → st.m_nodes.deref q = some nd →
    nd.m_contextS = st.context
  /-- The running context holds nodes that are still in the graph. -/
  ctxLive : ∀ x ∈ st.context, x < n ∧ x ∉ pre
  /-- The running context has no repetition. -/
  contextNodup : st.context.Nodup
  /-- A parent is eliminated later, lists the child once, and its context with its variable
  covers the context of the child. -/
  parent : ∀ k nd p, st.m_nodes.deref k = some nd → nd.m_parent = some p →
    elim.indexOf k < elim.indexOf p ∧ ∃ pn, st.m_nodes.deref p = some pn
      ∧ pn.m_children.count k = 1 ∧ ∀ x ∈ nd.m_contextS, x = p ∨ x ∈ pn.m_contextS
  /-- A child names the node as its parent. -/
  children : ∀ p pn c, st.m_nodes.deref p = some pn → c ∈ pn.m_children →
    ∃ cn, st.m_nodes.deref c = some cn ∧ cn.m_parent = some p
  /-- A context has no repetition. -/
  ctxNodup : ∀ k nd, st.m_nodes.deref k = some nd → nd.m_contextS.Nodup
  /-- A context holds nodes that are eliminated later. -/
  ctxLater : ∀ k nd x, st.m_nodes.deref k = some nd → x ∈ nd.m_contextS →
    x < n ∧ elim.indexOf k < elim.indexOf x
  /-- An edge of `G0` between nodes that are not eliminated is an edge of the graph. -/
  edges : ∀ a b, G0.adj a b → a ∉ pre → b ∉ pre → st.G.adj a b
  /-- A neighbour in `G0` that is eliminated later is in the context. -/
  ctxEdges : ∀ k nd x, st.m_nodes.deref k = some nd → G0.adj k x →
    elim.indexOf k < elim.indexOf x → x ∈ nd.m_contextS
  /-- Nothing but the context is set in a node yet. -/
  fresh : ∀ k nd, st.m_nodes.deref k = some nd →
    nd.m_cacheContextS = [] ∧ nd.m_cacheResetList = [] ∧ nd.m_functions = []

/-- A pseudo tree on which `build` and `buildChain` may run for a problem of `n` variables:
it has been built before, so that it is reset first, or its nodes are all null. -/
def Pseudotree.Ready (pt : Pseudotree) (n : Nat) : Prop :=
  pt.m_problemN = n ∧ (pt.m_height ≠ UNKNOWN ∨ pt.m_nodes = List.replicate n none)

/-! ## The elimination game -/

/-- One elimination in the graph, as lines 394, 397 and 398 of `build` do it: the
neighbours of `v` are counted and connected, and `v` is removed. -/
def elimStep (acc : Option (Graph × List Nat)) (v : Nat) : Option (Graph × List Nat) :=
  match acc with
  | none => none
  | some (H, ds) =>
    match H.getNeighbors v with
    | none => none
    | some N => some ((H.addClique N).removeNode v, ds ++ [N.length])

/-- The elimination of the nodes of `order` from `G` one after the other: the graph that
is left, and the number of neighbours every node had in the filled graph when its turn
came. -/
def elimGame (G : Graph) (order : List Nat) : Option (Graph × List Nat) :=
  order.foldl elimStep (some (G, []))

/-- The largest of the neighbour counts, `UNKNOWN` when there is none. -/
def widthOf (ds : List Nat) : Int := ds.foldl (fun w d => max w (d : Int)) UNKNOWN

/-- The neighbours of the node `k` are pairwise adjacent. -/
def Graph.CliqueAt (G : Graph) (k : Nat) : Prop :=
  ∀ x y, G.adj k x → G.adj k y → x ≠ y → G.adj x y

/-- Two graphs with the same nodes and the same edges. -/
def Graph.SameEdges (H G : Graph) : Prop :=
  (∀ k, H.hasNode k = G.hasNode k) ∧ ∀ i j, H.adj i j ↔ G.adj i j

/-- The second loop invariant of `eliminate` on the graph `G0`: the matrix agrees with
the lists, a node whose stored score is 0 has pairwise adjacent neighbours, and the graph
and the width are those of the elimination game on the order built so far. -/
structure WidthInv (G0 : Graph) (st : ElimState) : Prop where
  /-- The matrix agrees with the lists. -/
  matrix : st.G.MatrixOK
  /-- A stored score 0 is a true one. -/
  clique : ∀ k, st.G.hasNode k = true → st.scores.getD k 0 = 0 → st.G.CliqueAt k
  /-- The graph and the width are those of the elimination game. -/
  game : ∃ H ds, elimGame G0 st.elim = some (H, ds) ∧ H.Rep ∧ H.Simple
    ∧ H.SameEdges st.G ∧ st.width = widthOf ds ∧ ds.length = st.elim.length

/-- The node with which lines 418-421 register the variable `k` for the reset of its cache
table: the context variable that follows the first `cachelimit` ones met from the parent
upward; `none` when the cache context is the full context. -/
def Arena.resetTarget (cachelimit : Int) (nodes : Arena) (k : Nat) : Option Nat :=
  match nodes.deref k with
  | none => none
  | some nd =>
    if cachelimit = NONE ∨ cachelimit ≥ (nd.m_contextS.length : Int) then none
    else (nodes.ctxAncestors k)[cachelimit.toNat]?

/-- The nodes of `pre` are linked into a chain in the order of `pre`: every node has the
next one as its parent and the one before it as its only child, and the last one is
`prev`. -/
def ChainLinks (pre : List Nat) (prev : Option Nat) (nodes : Arena) : Prop :=
  prev = pre.getLast? ∧ ∀ l1 k l2, pre = l1 ++ k :: l2 →
    ∃ nd, nodes.deref k = some nd ∧ nd.m_parent = l2.head?
      ∧ nd.m_children = l1.getLast?.toList

/-! ## The values of the search -/

/-- A `double` (IEEE 754 binary64) as the search uses it, which adds, compares and tests
for NaN. The value is NaN, minus infinity (the log of 0), plus infinity, or finite. Every
finite `double` is a whole multiple of `2^-1074`, the smallest positive `double`, and
`fin x` is the value `x * 2^-1074`: the values with `|x| < 2^53`, which include the
subnormal ones, and beyond them the values `m * 2^e` with `|m| < 2^53` up to the largest
`double`, which is `fin ((2^53 - 1) * 2^2045)`. The two zeros, which compare equal and add alike, are the
one value `fin 0`. The examples with small values give them in this unit, in which the
sums below `2^53` are exact as the sums of whole numbers below `2^53` are. -/
inductive Dbl where
  /-- Not a number. -/
  | nan : Dbl
  /-- Minus infinity. -/
  | ninf : Dbl
  /-- A finite value. -/
  | fin (x : Int) : Dbl
  /-- Plus infinity. -/
  | pinf : Dbl
deriving DecidableEq, Repr

namespace Dbl

/-- Modelled from the spec: the test `ISNAN` of the absent `_base.h`. -/
def isNaN : Dbl → Bool
  | nan => true
  | _ => false

/-- The comparison `a <= b` of two `double`, false when one of them is NaN. -/
def le : Dbl → Dbl → Bool
  | nan, _ => false
  | _, nan => false
  | ninf, _ => true
  | _, pinf => true
  | fin a, fin b => decide (a ≤ b)
  | fin _, ninf => false
  | pinf, _ => false

/-- The comparison `a < b` of two `double`, false when one of them is NaN. -/
def lt : Dbl → Dbl → Bool
  | nan, _ => false
  | _, nan => false
  | ninf, ninf => false
  | ninf, _ => true
  | fin a, fin b => decide (a < b)
  | fin _, pinf => true
  | fin _, ninf => false
  | pinf, _ => false

/-- The comparison `a == b` of two `double`, false when one of them is NaN. -/
def eq : Dbl → Dbl → Bool
  | nan, _ => false
  | _, nan => false
  | a, b => decide (a = b)

/-- The number of low bits that the magnitude `a` loses when it is cut to 53 significant
bits: the least `e` with `a / 2^e < 2^53`; the first argument bounds the search. -/
def shift : Nat → Nat → Nat
  | 0, _ => 0
  | fuel + 1, a => if a < 2 ^ 53 then 0 else shift fuel (a / 2) + 1

/-- The magnitude `a` rounded to a multiple of `2^e`, which is `1 <<< e`: to the nearest
one, and of two that are equally near to the even multiple. -/
def roundAt (e a : Nat) : Nat :=
  if 2 * (a % (1 <<< e)) < 1 <<< e
      ∨ (2 * (a % (1 <<< e)) = 1 <<< e ∧ a / (1 <<< e) % 2 = 0) then
    a / (1 <<< e) * (1 <<< e)
  else (a / (1 <<< e) + 1) * (1 <<< e)

/-- The magnitude `a` rounded to 53 significant bits, to the nearest such value and to the
even one of two that are equally near, as the default rounding of IEEE 754 does. -/
def roundMag (a : Nat) : Nat := roundAt (shift a a) a

/-- The `double` that an operation returns for the exact result `x`, in units of
`2^-1074`: the nearest `double`, and an infinity when that is `2^1024`, which is
`2^53 * 2^2045` units, or more; `1 <<< e` is `2^e`. -/
def round (x : Int) : Dbl :=
  if 2046 ≤ shift x.natAbs x.natAbs
      ∨ (shift x.natAbs x.natAbs = 2045
          ∧ roundMag x.natAbs = 2 ^ 53 * (1 <<< shift x.natAbs x.natAbs)) then
    (if x < 0 then ninf else pinf)
  else fin (if x < 0 then -(roundMag x.natAbs : Int) else (roundMag x.natAbs : Int))

/-- The `double` with the value of the whole number `k`, for `|k| <= 2^53`: `k` times
`2^1074` units, the power written as `1 <<< 1074`. -/
def ofInt (k : Int) : Dbl := fin (k * ((1 <<< 1074 : Nat) : Int))

/-- The sum `a + b` of two `double`: the sum of the two infinities is NaN, and the sum of
two finite values is the exact sum rounded to a `double`. -/
def add : Dbl → Dbl → Dbl
  | nan, _ => nan
  | _, nan => nan
  | ninf, pinf => nan
  | pinf, ninf => nan
  | ninf, _ => ninf
  | _, ninf => ninf
  | pinf, _ => pinf
  | _, pinf => pinf
  | fin a, fin b => round (a + b)

/-- The sum of two values as real numbers, which no `double` operation computes: the sum
of two finite values is not rounded. -/
def addExact : Dbl → Dbl → Dbl
  | nan, _ => nan
  | _, nan => nan
  | ninf, pinf => nan
  | pinf, ninf => nan
  | ninf, _ => ninf
  | _, ninf => ninf
  | pinf, _ => pinf
  | _, pinf => pinf
  | fin a, fin b => fin (a + b)

/-- The function `std::max(a, b)`: `b` when `a < b`, else `a`. -/
def max (a b : Dbl) : Dbl := if lt a b then b else a

end Dbl

/-- Modelled from the spec: the constant `ELEM_ZERO` of the absent `_base.h`, the log of 0,
minus infinity. -/
def ELEM_ZERO : Dbl := Dbl.ninf

/-- Modelled from the spec: the constant `ELEM_ONE` of the absent `_base.h`, the log of 1. -/
def ELEM_ONE : Dbl := Dbl.fin 0

/-- Modelled from the spec: the constant `ELEM_NAN` of the absent `_base.h`. -/
def ELEM_NAN : Dbl := Dbl.nan

/-- Modelled from the spec: `OP_TIMES` of the absent `_base.h`, the product, which is the sum
of the logs. -/
def OP_TIMES (a b : Dbl) : Dbl := a.add b

/-! ## The search nodes -/

/-- Modelled from the spec: the tag of a search node. -/
inductive NodeType where
  /-- An AND node. -/
  | NODE_AND
  /-- An OR node. -/
  | NODE_OR
deriving DecidableEq, Repr

/-- Modelled from the spec: a search node. The classes `SearchNode`, `SearchNodeAND` and
`SearchNodeOR` are in the absent `SearchNode.h`; the record holds what `Search.cpp` reads
and writes through their methods. A node of either kind has all the fields; those of the
other kind keep the value the constructor gives. An AND node holds the variable and the
depth of its parent. -/
structure SearchNode where
  /-- The tag, `getType`. -/
  m_type : NodeType
  /-- The parent, `getParent`. -/
  m_parent : Option Nat
  /-- The variable, `getVar`. -/
  m_var : Nat
  /-- The value of an AND node, `getVal`. -/
  m_val : Int
  /-- The depth, `getDepth`. -/
  m_depth : Int
  /-- The value of the node, NaN until it is set: `getValue`, `setValue`. -/
  m_nodeValue : Dbl
  /-- The heuristic estimate, `getHeur`, `setHeur`. -/
  m_heurValue : Dbl
  /-- The label of an AND node, `getLabel`. -/
  m_nodeLabel : Dbl
  /-- The accumulated value of the solved children of an AND node, `getSubSolved`. -/
  m_subSolved : Dbl
  /-- The array of the children, null before the expansion; a child that has been deleted
  is a null entry. `getChildCountFull` is the length of the array. -/
  m_children : Option (List (Option Nat))
  /-- The heuristics and labels of the prospective children of an OR node, the heuristic of
  the value `i` at `2i` and the label at `2i+1`; null until `setHeurCache`. -/
  m_heurCache : Option (List Dbl)
  /-- The cache signature of an OR node, `getCacheContext`. -/
  m_cacheContext : List Int
  /-- The cache instance of an OR node, `getCacheInst`. -/
  m_cacheInst : Nat
  /-- The optimal assignment, `setOptAssig`. -/
  m_optAssig : List Int
  /-- The flag set by `setLeaf`. -/
  m_leaf : Bool
  /-- The flag set by `setCachable`. -/
  m_cachable : Bool
  /-- The flag set by `setNotOpt`. -/
  m_notOpt : Bool
  /-- The flag set by `setPruned`. -/
  m_pruned : Bool
deriving DecidableEq, Repr

namespace SearchNode

/-- Modelled from the spec: the constructor `SearchNodeOR(parent, var, depth)`. The value
is NaN; the heuristic, which every caller sets before it is read, is NaN as well here. -/
def newOR (parent : Option Nat) (var : Nat) (depth : Int) : SearchNode :=
  { m_type := NodeType.NODE_OR, m_parent := parent, m_var := var, m_val := NONE,
    m_depth := depth, m_nodeValue := ELEM_NAN, m_heurValue := ELEM_NAN,
    m_nodeLabel := ELEM_ONE, m_subSolved := ELEM_ONE, m_children := none,
    m_heurCache := none, m_cacheContext := [], m_cacheInst := 0, m_optAssig := [],
    m_leaf := false, m_cachable := false, m_notOpt := false, m_pruned := false }

/-- Modelled from the spec: the constructor `SearchNodeAND(parent, val, label)` for the
parent `parent` with the variable `var` and the depth `depth`. -/
def newAND (parent : Nat) (var : Nat) (depth : Int) (val : Int) (label : Dbl) : SearchNode :=
  { m_type := NodeType.NODE_AND, m_parent := some parent, m_var := var, m_val := val,
    m_depth := depth, m_nodeValue := ELEM_NAN, m_heurValue := ELEM_NAN,
    m_nodeLabel := label, m_subSolved := ELEM_ONE, m_children := none,
    m_heurCache := none, m_cacheContext := [], m_cacheInst := 0, m_optAssig := [],
    m_leaf := false, m_cachable := false, m_notOpt := false, m_pruned := false }

/-- `getType`. -/
def getType (nd : SearchNode) : NodeType := nd.m_type

/-- `getParent`. -/
def getParent (nd : SearchNode) : Option Nat := nd.m_parent

/-- `getVar`. -/
def getVar (nd : SearchNode) : Nat := nd.m_var

/-- `getVal`. -/
def getVal (nd : SearchNode) : Int := nd.m_val

/-- `getDepth`. -/
def getDepth (nd : SearchNode) : Int := nd.m_depth

/-- `getValue`. -/
def getValue (nd : SearchNode) : Dbl := nd.m_nodeValue

/-- `getHeur`. -/
def getHeur (nd : SearchNode) : Dbl := nd.m_heurValue

/-- `getLabel`. -/
def getLabel (nd : SearchNode) : Dbl := nd.m_nodeLabel

/-- `getSubSolved`. -/
def getSubSolved (nd : SearchNode) : Dbl := nd.m_subSolved

/-- The entries `children[0..getChildCountFull())` of `getChildren`, none when the array is
null. -/
def childList (nd : SearchNode) : List (Option Nat) := nd.m_children.getD []

/-- `getChildCountFull`. -/
def getChildCountFull (nd : SearchNode) : Nat := nd.childList.length

/-- `getChildCountAct`: the number of children that are still there. -/
def getChildCountAct (nd : SearchNode) : Nat := (nd.childList.filterMap id).length

/-- `getHeurCache`. -/
def getHeurCache (nd : SearchNode) : Option (List Dbl) := nd.m_heurCache

/-- `getCacheContext`. -/
def getCacheContext (nd : SearchNode) : List Int := nd.m_cacheContext

/-- `getCacheInst`. -/
def getCacheInst (nd : SearchNode) : Nat := nd.m_cacheInst

/-- `setValue`. -/
def setValue (nd : SearchNode) (d : Dbl) : SearchNode := { nd with m_nodeValue := d }

/-- `setHeur`. -/
def setHeur (nd : SearchNode) (d : Dbl) : SearchNode := { nd with m_heurValue := d }

/-- `setHeurCache`. -/
def setHeurCache (nd : SearchNode) (dv : List Dbl) : SearchNode :=
  { nd with m_heurCache := some dv }

/-- `setCacheContext`. -/
def setCacheContext (nd : SearchNode) (sig : List Int) : SearchNode :=
  { nd with m_cacheContext := sig }

/-- `setOptAssig`. -/
def setOptAssig (nd : SearchNode) (a : List Int) : SearchNode := { nd with m_optAssig := a }

/-- `setLeaf`. -/
def setLeaf (nd : SearchNode) : SearchNode := { nd with m_leaf := true }

/-- `setCachable`. -/
def setCachable (nd : SearchNode) : SearchNode := { nd with m_cachable := true }

/-- `setNotOpt`. -/
def setNotOpt (nd : SearchNode) : SearchNode := { nd with m_notOpt := true }

/-- `setPruned`. -/
def setPruned (nd : SearchNode) : SearchNode := { nd with m_pruned := true }

/-- `addChildren(chi)`: the array of the children becomes a copy of `chi`. -/
def addChildren (nd : SearchNode) (chi : List Nat) : SearchNode :=
  { nd with m_children := some (chi.map some) }

/-- `clearChildren`. -/
def clearChildren (nd : SearchNode) : SearchNode := { nd with m_children := none }

end SearchNode

/-- The search nodes on the heap; a pointer is a position, and the position of a node that
has been deleted holds `none`. -/
abbrev Heap := List (Option SearchNode)

/-- The node a pointer points to; `none` for a pointer to no live node. -/
def Heap.deref (heap : Heap) (p : Nat) : Option SearchNode := heap.getD p none

/-- An update of the node a pointer points to. -/
def Heap.modify (heap : Heap) (p : Nat) (f : SearchNode → SearchNode) : Heap :=
  match heap.deref p with
  | some nd => heap.set p (some (f nd))
  | none => heap

/-! ## `Search::canBePruned` -/

/-- Lines 245-248: the loop over the children of `curAND`, which multiplies the heuristic of
every child that is still there, `curOR` apart, onto the value of the partial solution
tree. -/
def pstSiblings (heap : Heap) (curOR : Nat) : List (Option Nat) → Dbl → Option Dbl
  | [], pst => some pst
  | none :: rest, pst => pstSiblings heap curOR rest pst
  | some c :: rest, pst =>
    if c = curOR then pstSiblings heap curOR rest pst
    else
      match heap.deref c with
      | none => none
      | some cn => pstSiblings heap curOR rest (OP_TIMES pst cn.getHeur)

/-- Lines 261-263: `setNotOpt` on the nodes from `nn` upward, two steps at a time, until
`curOR` is reached; the first argument bounds the number of steps. -/
def markNotOpt (curOR : Nat) : Nat → Heap → Nat → Option Heap
  | 0, _, _ => none
  | fuel + 1, heap, nn =>
    if nn = curOR then some heap
    else
      match heap.deref nn with
      | none => none
      | some nd =>
        match nd.getParent with
        | none => none
        | some a =>
          match heap.deref a with
          | none => none
          | some an =>
            match an.getParent with
            | none => none
            | some g => markNotOpt curOR fuel (heap.modify nn (fun x => x.setNotOpt)) g

/-- Lines 238-267: the `while` loop of `canBePruned` for the node whose own OR node is
`start`; the first argument bounds the number of passes. -/
def pruneLoop (heap : Heap) (start : Nat) : Nat → Nat → Dbl → Option (Bool × Heap)
  | 0, _, _ => none
  | fuel + 1, curOR, curPSTVal =>
    match heap.deref curOR with
    | none => none
    | some orn =>
      match orn.getParent with
      | none => some (false, heap)
      | some curAND =>
        match heap.deref curAND with
        | none => none
        | some an =>
          match pstSiblings heap curOR an.childList
              (OP_TIMES (OP_TIMES curPSTVal an.getLabel) an.getSubSolved) with
          | none => none
          | some pst =>
            match an.getParent with
            | none => none
            | some g =>
              match heap.deref g with
              | none => none
              | some gn =>
                if Dbl.le pst gn.getValue then
                  match markNotOpt g (heap.length + 1) heap start with
                  | none => none
                  | some heap1 => some (true, heap1)
                else pruneLoop heap start fuel g pst

/-- `Search::canBePruned(n)`, lines 224-269: the answer and the heap, in which nodes may
have been marked by `setNotOpt`. -/
def canBePruned (heap : Heap) (n : Nat) : Option (Bool × Heap) :=
  match heap.deref n with
  | none => none
  | some nd =>
    if nd.getDepth < 0 then some (false, heap)
    else if Dbl.eq nd.getHeur ELEM_ZERO then some (true, heap)
    else
      match (if nd.getType = NodeType.NODE_OR then some n else nd.getParent) with
      | none => none
      | some curOR =>
        match heap.deref curOR with
        | none => none
        | some orn =>
          if Dbl.le nd.getHeur orn.getValue then some (true, heap)
          else pruneLoop heap curOR (heap.length + 1) curOR nd.getHeur

/-- The shape of the heap: a parent is a live node of the other kind that was created
before the child, an AND node has a parent, and the children in the array of a node are
live. -/
structure Heap.WF (heap : Heap) : Prop where
  /-- A parent is a live node of the other kind, created before the child. -/
  up : ∀ i nd p, heap.deref i = some nd → nd.m_parent = some p →
    p < i ∧ ∃ pn, heap.deref p = some pn ∧ pn.m_type ≠ nd.m_type
  /-- An AND node has a parent. -/
  andParent : ∀ i nd, heap.deref i = some nd → nd.m_type = NodeType.NODE_AND →
    nd.m_parent.isSome = true
  /-- The children in the array of a node are live. -/
  kids : ∀ i nd c, heap.deref i = some nd → some c ∈ nd.childList →
    (heap.deref c).isSome = true

/-- The heuristic of the node at `c`. -/
def heurOf (heap : Heap) (c : Nat) : Dbl :=
  match heap.deref c with
  | some cn => cn.getHeur
  | none => ELEM_NAN

/-- The accumulator `getSubSolved` of the node at `a`. -/
def subSolvedOf (heap : Heap) (a : Nat) : Dbl :=
  match heap.deref a with
  | some an => an.getSubSolved
  | none => ELEM_NAN

/-- The OR node of a node: the node itself when it is an OR node, its parent otherwise. -/
def ownOR (heap : Heap) (n : Nat) : Option Nat :=
  match heap.deref n with
  | none => none
  | some nd => if nd.getType = NodeType.NODE_OR then some n else nd.getParent

/-- The OR node above the OR node `o`: the parent of its parent AND node. -/
def orAbove (heap : Heap) (o : Nat) : Option Nat :=
  match heap.deref o with
  | none => none
  | some orn =>
    match orn.getParent with
    | none => none
    | some a =>
      match heap.deref a with
      | none => none
      | some an => an.getParent

/-- The OR node `k` levels above the OR node `o`. -/
def orAt (heap : Heap) (o : Nat) : Nat → Option Nat
  | 0 => some o
  | k + 1 => (orAt heap o k).bind (orAbove heap)

/-- The OR nodes from `o` upward, `k` of them. -/
def orList (heap : Heap) (o : Nat) : Nat → List Nat
  | 0 => []
  | k + 1 =>
    match orAbove heap o with
    | none => [o]
    | some g => o :: orList heap g k

/-- One level of the partial solution tree, in the words of the pruning rule: from the OR
node `o` with the value `v` to the OR node above its parent AND node `A`, with `v`
combined with the label of `A`, with the value `sub A` of the solved children of `A`, and
with the value `sib c` of every child `c` of `A` that is still there, `o` apart. -/
def chainStep (heap : Heap) (sib sub : Nat → Dbl) (x : Nat × Dbl) : Option (Nat × Dbl) :=
  match heap.deref x.1 with
  | none => none
  | some orn =>
    match orn.getParent with
    | none => none
    | some a =>
      match heap.deref a with
      | none => none
      | some an =>
        match an.getParent with
        | none => none
        | some g =>
          some (g, ((an.childList.filterMap id).filter (fun c => decide (c ≠ x.1))).foldl
            (fun acc c => OP_TIMES acc (sib c))
            (OP_TIMES (OP_TIMES x.2 an.getLabel) (sub a)))

/-- The OR node `o_k` that is `k` levels above the OR node of `n`, with the value that
`chainStep` accumulates on the way, from `init` at the OR node of `n`. -/
def chainValue (heap : Heap) (sib sub : Nat → Dbl) (init : Dbl) (n : Nat) :
    Nat → Option (Nat × Dbl)
  | 0 => (ownOR heap n).map (fun o => (o, init))
  | k + 1 => (chainValue heap sib sub init n k).bind (chainStep heap sib sub)

/-- The pair `(o_k, pst_k)` of the pruning rule for the node `n`: `pst_0` is the heuristic
of `n`, and a level up combines the label and the accumulator of the AND node and the
heuristics of the siblings. -/
def pstChain (heap : Heap) (n k : Nat) : Option (Nat × Dbl) :=
  chainValue heap (heurOf heap) (subSolvedOf heap) (heurOf heap n) n k

/-- The best value of a solution of the subproblem of `o_k` that passes through `n`, for
the best value `below` of a completion below `n`, the optimum `opt c` of the subproblem of
a sibling OR node `c`, and the value `solved A` of the solved children of an AND node `A`:
on the way up the label of the AND node, the value of its solved children and the optima
of the siblings are combined with it. -/
def bestThrough (heap : Heap) (opt solved : Nat → Dbl) (below : Dbl) (n k : Nat) :
    Option (Nat × Dbl) :=
  chainValue heap opt solved below n k

/-- One level of the partial solution tree as `chainStep` combines it, with the sums taken
as real numbers. -/
def exactStep (heap : Heap) (sib sub : Nat → Dbl) (x : Nat × Dbl) : Option (Nat × Dbl) :=
  match heap.deref x.1 with
  | none => none
  | some orn =>
    match orn.getParent with
    | none => none
    | some a =>
      match heap.deref a with
      | none => none
      | some an =>
        match an.getParent with
        | none => none
        | some g =>
          some (g, ((an.childList.filterMap id).filter (fun c => decide (c ≠ x.1))).foldl
            (fun acc c => Dbl.addExact acc (sib c))
            (Dbl.addExact (Dbl.addExact x.2 an.getLabel) (sub a)))

/-- The best value of a solution of the subproblem of `o_k` that passes through `n`, as
`bestThrough` combines it, with the sums taken as real numbers. -/
def bestExact (heap : Heap) (opt solved : Nat → Dbl) (below : Dbl) (n : Nat) :
    Nat → Option (Nat × Dbl)
  | 0 => (ownOR heap n).map (fun o => (o, below))
  | k + 1 => (bestExact heap opt solved below n k).bind (exactStep heap opt solved)

/-- A log value: finite or minus infinity. -/
def Dbl.IsLog (x : Dbl) : Prop := x = Dbl.ninf ∨ ∃ a, x = Dbl.fin a

/-- The comparison of the pruning rule fails at every level up to `k`. -/
def NoPrune (heap : Heap) (n k : Nat) : Prop :=
  ∀ j, j ≤ k → ∀ o pst orn, pstChain heap n j = some (o, pst) → heap.deref o = some orn →
    Dbl.le pst orn.getValue = false

/-- The test of `Heap.WF` on the node at `i`. -/
def Heap.checkNode (heap : Heap) (i : Nat) : Bool :=
  match heap.deref i with
  | none => true
  | some nd =>
    (match nd.m_parent with
      | none => decide (nd.m_type ≠ NodeType.NODE_AND)
      | some p =>
        decide (p < i) && (match heap.deref p with
          | none => false
          | some pn => decide (pn.m_type ≠ nd.m_type)))
    && nd.childList.all (fun c =>
        match c with
        | none => true
        | some k => (heap.deref k).isSome)

/-- The test of `Heap.WF`. -/
def Heap.check (heap : Heap) : Bool := (List.range heap.length).all (fun i => heap.checkNode i)

/-- A search space for the examples: the root OR node at 0 with the value 5, its AND child
at 1 with the label 0, and the OR children of that at 2 and 3 with the heuristics 3 and 1,
which have no value yet. -/
def pruneExample : Heap :=
  [some ((((SearchNode.newOR none 4 (-1)).setValue (Dbl.fin 5)).setHeur
      (Dbl.fin 9)).addChildren [1]),
    some (((SearchNode.newAND 0 4 (-1) 0 (Dbl.fin 0)).setHeur (Dbl.fin 7)).addChildren [2, 3]),
    some ((SearchNode.newOR (some 1) 0 0).setHeur (Dbl.fin 3)),
    some ((SearchNode.newOR (some 1) 1 0).setHeur (Dbl.fin 1))]

/-- A search space in which a sum is rounded: the root OR node at 0 with the value `2^53`,
its AND child at 1 with the label 0, and the OR children of that at 2 and 3 with the
heuristics `2^53` and 1, which have no value yet. The values are the whole numbers
themselves, `Dbl.ofInt`; the sum of `2^53` and 1 has 54 significant bits. -/
def roundExample : Heap :=
  [some ((((SearchNode.newOR none 4 (-1)).setValue (Dbl.ofInt (2 ^ 53))).setHeur
      (Dbl.ofInt (2 ^ 53))).addChildren [1]),
    some (((SearchNode.newAND 0 4 (-1) 0 (Dbl.ofInt 0)).setHeur
      (Dbl.ofInt (2 ^ 53))).addChildren [2, 3]),
    some ((SearchNode.newOR (some 1) 0 0).setHeur (Dbl.ofInt (2 ^ 53))),
    some ((SearchNode.newOR (some 1) 1 0).setHeur (Dbl.ofInt 1))]

/-- No live node has the value plus infinity. -/
def Heap.NoPlusInf (heap : Heap) : Prop :=
  ∀ c cn, heap.deref c = some cn → cn.getValue ≠ Dbl.pinf

/-- The heuristics, labels and accumulators of the live nodes are log values. -/
def Heap.LogValued (heap : Heap) : Prop :=
  ∀ c cn, heap.deref c = some cn →
    cn.getHeur.IsLog ∧ cn.getLabel.IsLog ∧ cn.getSubSolved.IsLog

/-! ## The class `Search` -/

/-- `PseudotreeNode::getFullContextVec`: the full context as a vector, in the order of the
set. -/
def PseudotreeNode.getFullContextVec (nd : PseudotreeNode) : List Nat := nd.m_contextS

/-- `PseudotreeNode::getCacheContextVec`: the cache context as a vector, in the order of
the set. -/
def PseudotreeNode.getCacheContextVec (nd : PseudotreeNode) : List Nat := nd.m_cacheContextS

/-- `PseudotreeNode::getCacheReset`. -/
def PseudotreeNode.getCacheReset (nd : PseudotreeNode) : List Nat := nd.m_cacheResetList

/-- Modelled from the spec: the counters `m_space->stats` of the absent `SearchSpace.h`. -/
structure SearchStats where
  /-- The AND nodes expanded. -/
  numExpAND : Nat
  /-- The OR nodes expanded. -/
  numExpOR : Nat
  /-- The AND nodes processed. -/
  numProcAND : Nat
  /-- The OR nodes processed. -/
  numProcOR : Nat
  /-- The leaves. -/
  numLeaf : Nat
  /-- The dead ends. -/
  numDead : Nat
  /-- The nodes pruned. -/
  numPruned : Nat
  /-- The AND nodes expanded, for every variable. -/
  numANDVar : List Nat
  /-- The OR nodes expanded, for every variable. -/
  numORVar : List Nat
deriving DecidableEq, Repr

/-- How `m_space->options->subprobOrder` compares with the constants of the absent header:
equal to `SUBPROB_HEUR_INC`, equal to `SUBPROB_HEUR_DEC`, or neither. -/
inductive HeurOrder where
  /-- `SUBPROB_HEUR_INC`. -/
  | heurInc
  /-- `SUBPROB_HEUR_DEC`. -/
  | heurDec
  /-- Any other value. -/
  | other
deriving DecidableEq, Repr

/-- The class `Search` with what its methods reach through `m_problem`, `m_pseudotree` and
`m_space`; the cache and the heuristic are parameters of the methods that use them. -/
structure Search where
  /-- The pseudo tree. -/
  m_pseudotree : Pseudotree
  /-- The domain sizes `m_problem->m_domains`, read by `getDomainSize`. -/
  m_domains : List Int
  /-- The AND nodes per depth. -/
  m_nodeProfile : List Nat
  /-- The leaf AND nodes per depth. -/
  m_leafProfile : List Nat
  /-- The current assignment. -/
  m_assignment : List Int
  /-- The vector for the costs of the values of a variable. -/
  m_costTmp : List Dbl
  /-- The search nodes. -/
  heap : Heap
  /-- The root `m_space->root`. -/
  root : Option Nat
  /-- The counters `m_space->stats`. -/
  stats : SearchStats
  /-- The option `subprobOrder`. -/
  subprobOrder : HeurOrder
deriving Repr

/-- Modelled from the spec: the heuristic `m_heuristic` of the absent `Heuristic.h`, as far
as `assignCostsOR` calls it. `getHeurAll(var, assignment, node, out)` and
`getLabelAll(var, assignment, node, out)` are functions of the variable, the assignment,
the position of the node and the vector `out` as it comes in; they give the vector as it
goes out and are taken to change nothing else. -/
structure Heuristic where
  /-- The heuristic of every value of the variable. -/
  getHeurAll : Nat → List Int → Nat → List Dbl → List Dbl
  /-- The label of every value of the variable. -/
  getLabelAll : Nat → List Int → Nat → List Dbl → List Dbl

/-- The statement `v[i] += k` on a `vector<count_t>`; `none` when `i` is no position of
`v`. -/
def bump (v : List Nat) (i : Int) (k : Nat) : Option (List Nat) :=
  if 0 ≤ i ∧ i.toNat < v.length then some (v.set i.toNat (v.getD i.toNat 0 + k)) else none

/-- `Problem::getDomainSize(i)`, which asserts that `i` is a variable. -/
def Search.getDomainSize (s : Search) (i : Nat) : Option Int := s.m_domains[i]?

/-! ### `Search::addCacheContext` -/

/-- Lines 529-531: the loop over the context, which appends `m_assignment[c]` to the
signature; `none` when `c` is no position of the assignment. -/
def cacheSignature (assignment : List Int) : List Nat → List Int → Option (List Int)
  | [], sig => some sig
  | c :: rest, sig =>
    match assignment[c]? with
    | none => none
    | some a => cacheSignature assignment rest (sig ++ [a])

/-- `Search::addCacheContext(node, ctxt)`, lines 525-538, without `PARALLEL_DYNAMIC`. -/
def Search.addCacheContext (s : Search) (node : Nat) (ctxt : List Nat) : Option Search :=
  match cacheSignature s.m_assignment ctxt [] with
  | none => none
  | some sig =>
    match s.heap.deref node with
    | none => none
    | some _ => some { s with heap := s.heap.modify node (fun x => x.setCacheContext sig) }

/-! ### `Search::doCaching` -/

/-- `Search::doCaching(node)`, lines 94-148. The cache of the absent `CacheTable.h` is a
value `cache` of any type `C` with its methods `read(var, inst, ctxt)`, which gives the
entry, a value and an assignment, and `reset(var)` as parameters. The result is the answer,
the cache and the state. -/
def Search.doCaching {C : Type} (read : C → Nat → Nat → List Int → Dbl × List Int)
    (reset : C → Nat → C) (cache : C) (s : Search) (node : Nat) :
    Option (Bool × C × Search) :=
  match s.heap.deref node with
  | none => none
  | some nd =>
    match s.m_pseudotree.getNode nd.getVar with
    | none => none
    | some ptnode =>
      if nd.getType = NodeType.NODE_AND then
        some (false, ptnode.getCacheReset.foldl reset cache, s)
      else
        match ptnode.m_parent with
        | none => some (false, cache, s)
        | some p =>
          match s.m_pseudotree.getNode p with
          | none => none
          | some ppn =>
            match ppn.m_parent with
            | none => some (false, cache, s)
            | some _ =>
              if ptnode.getFullContextVec.length ≤ ppn.getFullContextVec.length then
                match s.addCacheContext node ptnode.getCacheContextVec with
                | none => none
                | some s1 =>
                  match s1.heap.deref node with
                  | none => none
                  | some nd1 =>
                    let entry := read cache nd1.getVar nd1.getCacheInst nd1.getCacheContext
                    if entry.1.isNaN = false then
                      let heap1 := s1.heap.modify node
                        (fun x => ((x.setValue entry.1).setOptAssig entry.2).setLeaf)
                      some (true, cache, { s1 with heap := heap1 })
                    else
                      let heap1 := s1.heap.modify node (fun x => x.setCachable)
                      some (false, cache, { s1 with heap := heap1 })
              else some (false, cache, s)

/-! ### `Search::assignCostsOR` -/

/-- Lines 474-476 and 483-485: `dv[2*i+off] = m_costTmp[i]` for the values `i`; `none` when
`i` is no position of `m_costTmp`. -/
def copyCosts (costTmp : List Dbl) (off : Nat) : List Nat → List Dbl → Option (List Dbl)
  | [], dv => some dv
  | i :: rest, dv =>
    match costTmp[i]? with
    | none => none
    | some x => copyCosts costTmp off rest (dv.set (2 * i + off) x)

/-- Lines 486-489: `dv[2*i] = dv[2*i+1] OP_TIMES dv[2*i]` and `h = max(h, dv[2*i])` for the
values `i`. -/
def combineCosts : List Nat → List Dbl → Dbl → List Dbl × Dbl
  | [], dv, h => (dv, h)
  | i :: rest, dv, h =>
    combineCosts rest
      (dv.set (2 * i) (OP_TIMES (dv.getD (2 * i + 1) ELEM_NAN) (dv.getD (2 * i) ELEM_NAN)))
      (Dbl.max h (OP_TIMES (dv.getD (2 * i + 1) ELEM_NAN) (dv.getD (2 * i) ELEM_NAN)))

/-- Lines 464-490 of `assignCostsOR` with `GET_VALUE_BULK`, for the variable `v` and the
node at `n`: the array `dv`, the value `h` and the vector `m_costTmp` as it is left. The
entries of the new array, all of which are written before they are read, start as NaN;
`none` for a variable without domain size and for a domain size below 0. -/
def orCosts (hr : Heuristic) (domains : List Int) (assignment : List Int) (v n : Nat) :
    Option (List Dbl × Dbl × List Dbl) :=
  match domains[v]? with
  | none => none
  | some vDomain =>
    if vDomain < 0 then none
    else
      let d := vDomain.toNat
      let dv0 := (List.range d).foldl (fun dv i => dv.set (2 * i + 1) ELEM_ONE)
        (List.replicate (2 * d) ELEM_NAN)
      let cost1 := hr.getHeurAll v assignment n (List.replicate d ELEM_ONE)
      match copyCosts cost1 0 (List.range d) dv0 with
      | none => none
      | some dv1 =>
        let cost2 := hr.getLabelAll v assignment n (List.replicate d ELEM_ONE)
        match copyCosts cost2 1 (List.range d) dv1 with
        | none => none
        | some dv2 =>
          let r := combineCosts (List.range d) dv2 ELEM_ZERO
          some (r.1, r.2, cost2)

/-- `Search::assignCostsOR(n)`, lines 462-521, with `GET_VALUE_BULK`. -/
def Search.assignCostsOR (hr : Heuristic) (s : Search) (n : Nat) : Option (Dbl × Search) :=
  match s.heap.deref n with
  | none => none
  | some nd =>
    match orCosts hr s.m_domains s.m_assignment nd.getVar n with
    | none => none
    | some (dv, h, cost) =>
      some (h, { s with m_costTmp := cost,
                        heap := s.heap.modify n (fun x => (x.setHeur h).setHeurCache dv) })

/-! ### `Search::generateChildrenOR` -/

/-- Modelled from the spec: `SearchNode::heurLess(a, b)` of the absent `SearchNode.h`, the
comparison of the heuristics of two nodes. -/
def heurLess (heap : Heap) (a b : Nat) : Prop := Dbl.lt (heurOf heap a) (heurOf heap b) = true

/-- The comparison `heurLess` can be computed. -/
instance heurLess.decidable (heap : Heap) : DecidableRel (heurLess heap) :=
  fun a b => inferInstanceAs (Decidable (Dbl.lt (heurOf heap a) (heurOf heap b) = true))

/-- Lines 398-429 without `NO_HEURISTIC`: the loop over the values `i` of the variable, for
the node `n` with the variable `var`, the depth `depth` and the array `heur`. A value whose
label is `ELEM_ZERO` is counted as a dead end; every other value gets a new AND node, which
is appended to `chi`. -/
def Search.orValues (n var : Nat) (depth : Int) (heur : Option (List Dbl)) :
    List Nat → Search → List Nat → Option (Search × List Nat)
  | [], s, chi => some (s, chi)
  | i :: rest, s, chi =>
    match heur with
    | none => none
    | some hc =>
      match hc[2 * i + 1]? with
      | none => none
      | some lab =>
        if Dbl.eq lab ELEM_ZERO then
          match bump s.m_leafProfile depth 1 with
          | none => none
          | some lp =>
            Search.orValues n var depth heur rest
              { s with stats := { s.stats with numDead := s.stats.numDead + 1 },
                       m_leafProfile := lp } chi
        else
          match hc[2 * i]? with
          | none => none
          | some h =>
            Search.orValues n var depth heur rest
              { s with heap := s.heap ++
                  [some ((SearchNode.newAND n var depth (i : Int) lab).setHeur h)] }
              (chi ++ [s.heap.length])

/-- `Search::generateChildrenOR(n, chi)`, lines 370-457, without `NO_HEURISTIC`: the
answer, the state and the vector `chi`; `none` when the assertion of line 372 fails.
`std::sort` is an insertion sort here. -/
def Search.generateChildrenOR (s : Search) (n : Nat) (chi : List Nat) :
    Option (Bool × Search × List Nat) :=
  match s.heap.deref n with
  | none => none
  | some nd =>
    if nd.getType ≠ NodeType.NODE_OR then none
    else if nd.m_children.isSome = true ∧ nd.getChildCountAct ≠ 0 then
      some (false, s, chi ++ nd.childList.filterMap id)
    else
      let s0 : Search :=
        if nd.m_children.isSome = true then
          { s with heap := s.heap.modify n (fun x => x.clearChildren) }
        else s
      match bump s0.stats.numORVar (nd.getVar : Int) 1 with
      | none => none
      | some nv =>
        let s1 : Search :=
          { s0 with stats := { s0.stats with numExpOR := s0.stats.numExpOR + 1,
                                             numORVar := nv } }
        match s1.getDomainSize nd.getVar with
        | none => none
        | some dom =>
          match Search.orValues n nd.getVar nd.getDepth nd.getHeurCache
              (List.range dom.toNat).reverse s1 chi with
          | none => none
          | some (s2, chi2) =>
            if chi2.isEmpty then
              let heap1 := s2.heap.modify n (fun x => (x.setLeaf).setValue ELEM_ZERO)
              some (true, { s2 with heap := heap1 }, chi2)
            else
              let sorted := chi2.insertionSort (heurLess s2.heap)
              let heap1 := s2.heap.modify n (fun x => x.addChildren sorted)
              some (false, { s2 with heap := heap1 }, sorted)

/-! ### `Search::generateChildrenAND` -/

/-- The statement `delete p`: the position of the node holds no node any more. -/
def Heap.free (heap : Heap) (p : Nat) : Heap := heap.set p none

/-- Lines 313-341 without `NO_HEURISTIC`: the loop over the children of the pseudo tree
node, last child first, for the node `n` of the depth `depth`. Every child gets a new OR
node, which is appended to `chi`, and its costs. When the heuristic of the new node is
`ELEM_ZERO` the nodes of `chi` are deleted, `chi` is cleared and the first component of
the result is `true`. -/
def Search.andChildren (hr : Heuristic) (n : Nat) (depth : Int) :
    List Nat → Search → List Nat → Option (Bool × Search × List Nat)
  | [], s, chi => some (false, s, chi)
  | pc :: rest, s, chi =>
    match s.m_pseudotree.getNode pc with
    | none => none
    | some pcn =>
      match Search.assignCostsOR hr
          { s with heap := s.heap ++ [some (SearchNode.newOR (some n) pcn.m_var (depth + 1))] }
          s.heap.length with
      | none => none
      | some (h, s2) =>
        if Dbl.eq h ELEM_ZERO then
          some (true, { s2 with heap := (chi ++ [s.heap.length]).foldl Heap.free s2.heap }, [])
        else Search.andChildren hr n depth rest s2 (chi ++ [s.heap.length])

/-- The leaf of lines 324-331 and 345-353: the node `n` is marked as a leaf with the value
`v`, and the leaf is counted. -/
def Search.leafAND (s : Search) (n : Nat) (depth : Int) (v : Dbl) : Option Search :=
  match (if depth ≠ -1 then bump s.m_leafProfile depth 1 else some s.m_leafProfile) with
  | none => none
  | some lp =>
    some { s with heap := s.heap.modify n (fun x => (x.setLeaf).setValue v),
                  stats := { s.stats with numLeaf := s.stats.numLeaf + 1 },
                  m_leafProfile := lp }

/-- `Search::generateChildrenAND(n, chi)`, lines 284-367, without `NO_HEURISTIC` and the
parallel modes: the answer, the state and the vector `chi`; `none` when the assertion of
line 286 fails. `std::sort` is an insertion sort here. -/
def Search.generateChildrenAND (hr : Heuristic) (s : Search) (n : Nat) (chi : List Nat) :
    Option (Bool × Search × List Nat) :=
  match s.heap.deref n with
  | none => none
  | some nd =>
    if nd.getType ≠ NodeType.NODE_AND then none
    else if nd.m_children.isSome = true ∧ nd.getChildCountAct ≠ 0 then
      some (false, s, chi ++ nd.childList.filterMap id)
    else
      let s0 : Search :=
        if nd.m_children.isSome = true then
          { s with heap := s.heap.modify n (fun x => x.clearChildren) }
        else s
      match bump s0.stats.numANDVar (nd.getVar : Int) 1 with
      | none => none
      | some nv =>
        match s0.m_pseudotree.getNode nd.getVar with
        | none => none
        | some ptnode =>
          match (if nd.getDepth ≥ 0 then bump s0.m_nodeProfile nd.getDepth 1
                 else some s0.m_nodeProfile) with
          | none => none
          | some np =>
            let s1 : Search :=
              { s0 with stats := { s0.stats with numExpAND := s0.stats.numExpAND + 1,
                                                 numANDVar := nv },
                        m_nodeProfile := np }
            match Search.andChildren hr n nd.getDepth ptnode.m_children.reverse s1 chi with
            | none => none
            | some (true, s2, chi2) =>
              match s2.leafAND n nd.getDepth ELEM_ZERO with
              | none => none
              | some s3 => some (true, s3, chi2)
            | some (false, s2, chi2) =>
              if chi2.isEmpty then
                match s2.leafAND n nd.getDepth ELEM_ONE with
                | none => none
                | some s3 => some (true, s3, chi2)
              else
                let sorted : List Nat :=
                  match s2.subprobOrder with
                  | HeurOrder.heurInc => (chi2.reverse.insertionSort (heurLess s2.heap)).reverse
                  | HeurOrder.heurDec => chi2.insertionSort (heurLess s2.heap)
                  | HeurOrder.other => chi2
                let heap1 := s2.heap.modify n (fun x => x.addChildren sorted)
                some (false, { s2 with heap := heap1 }, sorted)

/-- The two gates of the cache lookup in the words of the rule: the node `ptnode` of the
pseudo tree has a parent, so it is not the root, the parent has a parent, so the node is no
child of the root, and the full context of the node is not longer than that of its
parent. -/
def Search.cacheGates (s : Search) (ptnode : PseudotreeNode) : Prop :=
  ∃ p ppn, ptnode.m_parent = some p ∧ s.m_pseudotree.getNode p = some ppn
    ∧ ppn.m_parent ≠ none
    ∧ ptnode.getFullContextVec.length ≤ ppn.getFullContextVec.length

/-- The projection of the assignment onto the context `ctxt`, in the order of `ctxt`. -/
def Search.project (s : Search) (ctxt : List Nat) : List Int :=
  ctxt.map (fun c => s.m_assignment.getD c NONE)


/-- The pseudo tree of the examples: what `build` makes of the path 0 - 1 - 2 with the
order 0, 1, 2, the chain of the nodes 0, 1 and 2 under the dummy root 3. -/
def examplePT : Pseudotree :=
  ((Pseudotree.new 3 SubOrder.other).build (Graph.ofEdges 3 [(0, 1), (1, 2)]) [0, 1, 2]
    NONE).getD (Pseudotree.new 3 SubOrder.other)

/-- The AND node for the value 0 of the variable 1 in the examples, a child of the OR node
at 4, which has not been expanded. -/
def exampleNodeAND : SearchNode :=
  (SearchNode.newAND 4 1 1 0 (Dbl.fin 0)).setHeur (Dbl.fin 0)

/-- The search nodes of the examples, a path from the root: the OR node of the dummy
variable 3, then an AND node and an OR node in turn for the variables 3, 2 and 1. The AND
node at 5, of the variable 1, has not been expanded. -/
def exampleHeap : Heap :=
  [some (((SearchNode.newOR none 3 (-1)).setHeur (Dbl.fin 0)).addChildren [1]),
    some (((SearchNode.newAND 0 3 (-1) 0 (Dbl.fin 0)).setHeur (Dbl.fin 0)).addChildren [2]),
    some (((SearchNode.newOR (some 1) 2 0).setHeur (Dbl.fin 0)).addChildren [3]),
    some (((SearchNode.newAND 2 2 0 1 (Dbl.fin 0)).setHeur (Dbl.fin 0)).addChildren [4]),
    some (((SearchNode.newOR (some 3) 1 1).setHeur (Dbl.fin 0)).addChildren [5]),
    some exampleNodeAND]

/-- The counters of the examples, all of them 0. -/
def exampleStats : SearchStats :=
  { numExpAND := 0, numExpOR := 0, numProcAND := 0, numProcOR := 0, numLeaf := 0,
    numDead := 0, numPruned := 0, numANDVar := [0, 0, 0, 0], numORVar := [0, 0, 0, 0] }

/-- A state of the search for the examples, on the pseudo tree `examplePT` with two values
for every variable and one for the dummy, with the nodes `exampleHeap`. -/
def exampleSearch : Search :=
  { m_pseudotree := examplePT, m_domains := [2, 2, 2, 1], m_nodeProfile := [0, 0, 0],
    m_leafProfile := [0, 0, 0], m_assignment := [NONE, 0, 1, 0], m_costTmp := [],
    heap := exampleHeap, root := some 0, stats := exampleStats,
    subprobOrder := HeurOrder.other }

/-- The costs of the two values of the variable 0 in the examples: the first value has the
label `ELEM_ZERO`, the second the label and the heuristic -1. -/
def exampleCosts : List Dbl := [Dbl.ninf, Dbl.ninf, Dbl.fin (-1), Dbl.fin (-1)]

/-- The OR node of the variable 0 in the examples, a child of the AND node at 5 with the
costs `exampleCosts`, which has not been expanded. -/
def exampleNodeOR : SearchNode :=
  ((SearchNode.newOR (some 5) 0 2).setHeur (Dbl.fin (-1))).setHeurCache exampleCosts

/-- The AND node for the value 1 of the variable 0 in the examples, a child of the OR node
at 6, which has not been expanded. -/
def exampleNodeLeaf : SearchNode :=
  (SearchNode.newAND 6 0 2 1 (Dbl.fin (-1))).setHeur (Dbl.fin (-1))

/-- The nodes `exampleHeap` after the AND node at 5 got its child, the OR node at 6 of the
variable 0, with the costs of its two values, the label of the first of which is
`ELEM_ZERO`. The OR node has not been expanded. -/
def exampleHeapOR : Heap :=
  (exampleHeap.modify 5 (fun x => x.addChildren [6])) ++ [some exampleNodeOR]

/-- The state `exampleSearch` with the nodes `exampleHeapOR`. -/
def exampleSearchOR : Search := { exampleSearch with heap := exampleHeapOR }

/-- The nodes `exampleHeapOR` after the OR node at 6 got its child, the AND node at 7 for
the value 1 of the variable 0, which has no child in the pseudo tree. The AND node has not
been expanded. -/
def exampleHeapLeaf : Heap :=
  (exampleHeapOR.modify 6 (fun x => x.addChildren [7])) ++ [some exampleNodeLeaf]

/-- The state `exampleSearch` with the nodes `exampleHeapLeaf` and the value 1 for the
variable 0. -/
def exampleSearchLeaf : Search :=
  { exampleSearch with heap := exampleHeapLeaf, m_assignment := [1, 0, 1, 0] }

/-- A heuristic for the examples: every value of every variable has the heuristic 0 and
the label -1. -/
def exampleHeuristic : Heuristic :=
  { getHeurAll := fun _ _ _ out => out,
    getLabelAll := fun _ _ _ out => out.map (fun _ => Dbl.fin (-1)) }

/-- The node of the variable `v` in the pseudo tree of the examples. -/
def examplePTNode (v : Nat) : PseudotreeNode :=
  (examplePT.getNode v).getD (PseudotreeNode.new v [])

/-- A cache for the examples, which holds the value 7 with the assignment 1 under every
signature. -/
def exampleRead : Unit → Nat → Nat → List Int → Dbl × List Int :=
  fun _ _ _ _ => (Dbl.fin 7, [1])

/-- A heuristic for the examples that makes every node a dead end: every value of every
variable has the heuristic `ELEM_ZERO` and the label `ELEM_ONE`. -/
def deadHeuristic : Heuristic :=
  { getHeurAll := fun _ _ _ out => out.map (fun _ => ELEM_ZERO),
    getLabelAll := fun _ _ _ out => out }

/-! ### `Search::doProcess`, `Search::doPruning` and `Search::nextLeaf` -/

/-- `Search::doProcess(node)`, lines 76-91; `none` when the assertion on the label fails
and when the variable is no position of `m_assignment`. -/
def Search.doProcess (s : Search) (node : Nat) : Option (Bool × Search) :=
  match s.heap.deref node with
  | none => none
  | some nd =>
    if nd.getType = NodeType.NODE_AND then
      if Dbl.eq nd.getLabel ELEM_ZERO then none
      else if nd.getVar < s.m_assignment.length then
        some (false, { s with
          stats := { s.stats with numProcAND := s.stats.numProcAND + 1 },
          m_assignment := s.m_assignment.set nd.getVar nd.getVal })
      else none
    else some (false, { s with stats := { s.stats with numProcOR := s.stats.numProcOR + 1 } })

/-- `Search::doPruning(node)`, lines 151-187, without `NO_HEURISTIC` and the parallel
modes. `m_leafProfile.at(depth)` throws on a position that does not exist, which is `none`
here, as is a domain size below 0, which no problem has. -/
def Search.doPruning (s : Search) (node : Nat) : Option (Bool × Search) :=
  match s.heap.deref node with
  | none => none
  | some nd =>
    match s.m_pseudotree.getNode nd.getVar with
    | none => none
    | some ptnode =>
      match canBePruned s.heap node with
      | none => none
      | some (false, heap1) => some (false, { s with heap := heap1 })
      | some (true, heap1) =>
        let heap2 := heap1.modify node (fun x => (x.setLeaf).setPruned)
        let stats1 := { s.stats with numPruned := s.stats.numPruned + 1 }
        if nd.getType = NodeType.NODE_AND then
          if ptnode.m_depth ≥ 0 then
            match bump s.m_leafProfile ptnode.m_depth 1 with
            | none => none
            | some lp =>
              some (true, { s with heap := heap2, stats := stats1, m_leafProfile := lp })
          else some (true, { s with heap := heap2, stats := stats1 })
        else
          match heap2.deref node with
          | none => none
          | some nd2 =>
            let heap3 :=
              if nd2.getValue.isNaN then heap2.modify node (fun x => x.setValue ELEM_ZERO)
              else heap2
            if ptnode.m_depth ≥ 0 then
              match s.getDomainSize nd.getVar with
              | none => none
              | some dom =>
                if dom < 0 then none
                else
                  match bump s.m_leafProfile ptnode.m_depth dom.toNat with
                  | none => none
                  | some lp =>
                    some (true, { s with heap := heap3, stats := stats1, m_leafProfile := lp })
            else some (true, { s with heap := heap3, stats := stats1 })

/-- The state of a run of the search: the state of `Search`, the cache table of type `C`
and the members of the derived class of type `D` (the stack of `BranchAndBound`). -/
structure Run (C D : Type) where
  /-- The members of `Search` and the search space. -/
  search : Search
  /-- The cache table. -/
  cache : C
  /-- The members of the derived class. -/
  driver : D

/-- How `Search::nextLeaf` ends. -/
inductive LeafResult where
  /-- A node is returned. -/
  | leaf (node : Nat)
  /-- `NULL` is returned. -/
  | finished
  /-- The budget is spent: the statistics are printed and `exit(0)` ends the run. -/
  | exit0
deriving DecidableEq, Repr

/-- The loop of `Search::nextLeaf`, lines 194-219, for the current `node`. The virtual
functions `nextNode` and `doExpand` of the derived class are parameters, as are the cache
functions; `clock k` is what the call number `k` of `time` reads, `timeStart` is
`_time_start` and `maxTime` the option. The first argument bounds the number of turns of
the loop, `k` counts the calls of `time`. -/
def nextLeafLoop {C D : Type} (read : C → Nat → Nat → List Int → Dbl × List Int)
    (reset : C → Nat → C) (nextNode : Run C D → Option (Option Nat × Run C D))
    (doExpand : Run C D → Nat → Option (Bool × Run C D)) (clock : Nat → Int)
    (timeStart maxTime : Int) :
    Nat → Option Nat → Run C D → Nat → Option (LeafResult × Run C D × Nat)
  | 0, _, _, _ => none
  | _ + 1, none, r, k => some (LeafResult.finished, r, k)
  | fuel + 1, some node, r, k =>
    match r.search.doProcess node with
    | none => none
    | some (true, s1) => some (LeafResult.leaf node, { r with search := s1 }, k)
    | some (false, s1) =>
      match s1.doCaching read reset r.cache node with
      | none => none
      | some (true, c2, s2) =>
        some (LeafResult.leaf node, { r with search := s2, cache := c2 }, k)
      | some (false, c2, s2) =>
        match s2.doPruning node with
        | none => none
        | some (true, s3) =>
          some (LeafResult.leaf node, { r with search := s3, cache := c2 }, k)
        | some (false, s3) =>
          match doExpand { r with search := s3, cache := c2 } node with
          | none => none
          | some (true, r4) => some (LeafResult.leaf node, r4, k)
          | some (false, r4) =>
            match nextNode r4 with
            | none => none
            | some (next, r5) =>
              if clock k - timeStart > maxTime then some (LeafResult.exit0, r5, k + 1)
              else nextLeafLoop read reset nextNode doExpand clock timeStart maxTime
                fuel next r5 (k + 1)

/-- `Search::nextLeaf`, lines 191-221. -/
def nextLeaf {C D : Type} (read : C → Nat → Nat → List Int → Dbl × List Int)
    (reset : C → Nat → C) (nextNode : Run C D → Option (Option Nat × Run C D))
    (doExpand : Run C D → Nat → Option (Bool × Run C D)) (clock : Nat → Int)
    (timeStart maxTime : Int) (fuel : Nat) (r : Run C D) (k : Nat) :
    Option (LeafResult × Run C D × Nat) :=
  match nextNode r with
  | none => none
  | some (node, r1) =>
    nextLeafLoop read reset nextNode doExpand clock timeStart maxTime fuel node r1 k

/-- Modelled from the spec: `BranchAndBound::nextNode` of the absent `BranchAndBound.cpp`,
which pops the node on top of the stack and gives `NULL` when the stack is empty. -/
def bbNextNode {C : Type} (r : Run C (List Nat)) : Option (Option Nat × Run C (List Nat)) :=
  match r.driver with
  | [] => some (none, r)
  | n :: rest => some (some n, { r with driver := rest })

/-- Modelled from the spec: `BranchAndBound::doExpand` of the absent `BranchAndBound.cpp`,
which expands the node by `generateChildrenAND` or `generateChildrenOR` and pushes the
children on the stack, the last one on top. -/
def bbExpand {C : Type} (hr : Heuristic) (r : Run C (List Nat)) (n : Nat) :
    Option (Bool × Run C (List Nat)) :=
  match r.search.heap.deref n with
  | none => none
  | some nd =>
    match (if nd.getType = NodeType.NODE_AND then r.search.generateChildrenAND hr n []
           else r.search.generateChildrenOR n []) with
    | none => none
    | some (true, s1, _) => some (true, { r with search := s1 })
    | some (false, s1, chi) =>
      some (false, { r with search := s1, driver := chi.reverse ++ r.driver })

/-- A cache for the examples without any entry. -/
def emptyRead : Unit → Nat → Nat → List Int → Dbl × List Int :=
  fun _ _ _ _ => (Dbl.nan, [])

/-- The state of the examples at the start of the search: the only node is the root, the
OR node of the dummy variable 3 with the costs of its one value, no variable has a value,
and the stack holds the root. -/
def exampleRunStart : Run Unit (List Nat) :=
  { search := { exampleSearch with
      heap := [some (((SearchNode.newOR none 3 (-1)).setHeur (Dbl.fin (-1))).setHeurCache
        [Dbl.fin (-1), Dbl.fin (-1)])],
      m_assignment := [NONE, NONE, NONE, NONE] },
    cache := (),
    driver := [0] }

/-! ### `Main::runSearch` -/

/-- The class `Main` as far as `runSearch` reads and writes it: the two flags, the option
`nosearch` of `m_options` (`none` is the null pointer) and, in `rest`, everything else:
the search, the search space, the problem with its incumbent. -/
structure Main (σ : Type) where
  /-- The flag `m_solved`. -/
  m_solved : Bool
  /-- The flag `m_started`. -/
  m_started : Bool
  /-- The option `m_options->nosearch`. -/
  nosearch : Option Bool
  /-- The other members. -/
  rest : σ

/-- `Main::runSearch(nodeLimit)`, lines 133-151 of `Main.h`, without the parallel modes;
`runSearchWorker`, defined in the absent `Main.cpp`, is a parameter that may fail. The
line printed at the start is left out. -/
def Main.runSearch {σ : Type} (runSearchWorker : Main σ → Nat → Option (Bool × Main σ))
    (m : Main σ) (nodeLimit : Nat) : Option (Bool × Main σ) :=
  match m.nosearch with
  | none => none
  | some true => some (true, m)
  | some false =>
    if m.m_solved then some (true, m)
    else if !m.m_started then runSearchWorker { m with m_started := true } nodeLimit
    else runSearchWorker m nodeLimit

/-! ### `increaseTuple` -/

/-- The loop of `increaseTuple`, lines 98-103 of `utils.h`; the first argument is `i`. The
result is `i` at the exit and the tuple. The entries are of the type `val_t`, taken wide
enough for the limits. -/
def increaseLoop : Nat → List Int → List Int → Nat × List Int
  | 0, tuple, _ => (0, tuple)
  | i + 1, tuple, limit =>
    let t1 := tuple.set i (tuple.getD i 0 + 1)
    if t1.getD i 0 = limit.getD i 0 then increaseLoop i (t1.set i 0) limit
    else (i + 1, t1)

/-- `increaseTuple(idx, tuple, limit)`, lines 94-106 of `utils.h`: the answer, `idx` and
the tuple; `idx` is a `size_t` of 64 bits. `none` is the failed assertion. -/
def increaseTuple (idx : Nat) (tuple limit : List Int) : Option (Bool × Nat × List Int) :=
  if tuple.length = limit.length then
    let r := increaseLoop tuple.length tuple limit
    some (decide (r.1 ≠ 0), (idx + 1) % 2 ^ 64, r.2)
  else none

/-- The row-major offset of a tuple: the sum over `j` of `tuple[j]` times the product of
the `limit[k]` with `k > j`. -/
def rowMajorOffset : List Int → List Int → Int
  | t :: ts, _ :: ls => t * ls.prod + rowMajorOffset ts ls
  | _, _ => 0

/-! ### The partial solution tree in `Search::restrictSubproblem(string)` -/

/-- Lines 855-862: the loop that fills the array in the order of the file; the first
argument counts the turns that are left, `i` is the position. The two reads take the next
values of the stream, `none` when it has no more; `at` fails on a position that does not
exist. -/
def fillForward : Nat → Nat → List Dbl → List Dbl → Option (List Dbl × List Dbl)
  | 0, _, stream, pstVals => some (pstVals, stream)
  | r + 1, i, valueOR :: labelAND :: stream, pstVals =>
    if 2 * i + 1 < pstVals.length then
      fillForward r (i + 1) stream ((pstVals.set (2 * i) valueOR).set (2 * i + 1) labelAND)
    else none
  | _ + 1, _, _, _ => none

/-- Lines 846-853: the loop that fills the array in reverse; the first argument is `i + 1`,
and the loop ends when `i` is below 0. -/
def fillReverse : Nat → List Dbl → List Dbl → Option (List Dbl × List Dbl)
  | 0, stream, pstVals => some (pstVals, stream)
  | i + 1, labelAND :: valueOR :: stream, pstVals =>
    if 2 * i + 1 < pstVals.length then
      fillReverse i stream ((pstVals.set (2 * i + 1) labelAND).set (2 * i) valueOR)
    else none
  | _ + 1, _, _ => none

/-- Lines 835-863 of `Search::restrictSubproblem(string)`: the vector `pstVals` read from
the rest `stream` of the file after the size `pstSize`, an `int`, and what is left of the
stream. `none` when `-pstSize` or `2 * pstSize` is no `int`. -/
def readPST (pstSize : Int) (stream : List Dbl) : Option (List Dbl × List Dbl) :=
  if pstSize < -INT_MAX ∨ 2 * pstSize > INT_MAX ∨ 2 * pstSize < -INT_MAX then none
  else if pstSize < 0 then
    fillReverse (-pstSize).toNat stream (List.replicate ((-pstSize).toNat * 2) ELEM_NAN)
  else
    fillForward pstSize.toNat 0 stream (List.replicate (pstSize.toNat * 2) ELEM_NAN)

/-! ### The operations of `Graph` in sequence -/

/-- `Graph::removeEdge`. -/
def Graph.removeEdge (G : Graph) (i j : Nat) : Graph :=
  let G2 := (G.removeAdjacency i j).removeAdjacency j i
  { G2 with m_statNumEdges := G2.m_statNumEdges - 1 }

/-- A call of one of the operations that change a graph. -/
inductive GraphOp where
  /-- `addNode(i)`. -/
  | addNode (i : Nat)
  /-- `addEdge(i, j)`. -/
  | addEdge (i j : Nat)
  /-- `removeEdge(i, j)`. -/
  | removeEdge (i j : Nat)
  /-- `removeNode(i)`. -/
  | removeNode (i : Nat)
  /-- `addClique(s)` for a set `s`. -/
  | addClique (s : List Nat)
deriving DecidableEq, Repr

/-- The graph after the call. -/
def GraphOp.apply (G : Graph) : GraphOp → Graph
  | GraphOp.addNode i => G.addNode i
  | GraphOp.addEdge i j => G.addEdge i j
  | GraphOp.removeEdge i j => G.removeEdge i j
  | GraphOp.removeNode i => G.removeNode i
  | GraphOp.addClique s => G.addClique s

/-- The calls that are meant for a graph with a matrix of side `n`: the nodes are below
`n`, an edge joins two different nodes, and a set is strictly ascending. -/
def GraphOp.Valid (n : Nat) : GraphOp → Prop
  | GraphOp.addNode i => i < n
  | GraphOp.addEdge i j => i < n ∧ j < n ∧ i ≠ j
  | GraphOp.removeEdge i j => i < n ∧ j < n
  | GraphOp.removeNode i => i < n
  | GraphOp.addClique s => s.Sorted (fun x y => x < y) ∧ ∀ x ∈ s, x < n

/-- The graph after the calls `ops`, first to last. -/
def Graph.run (ops : List GraphOp) (G : Graph) : Graph := ops.foldl GraphOp.apply G

/-- The number of undirected edges `{i, j}` of the graph, each counted at its smaller
end. -/
def Graph.edgeCount (G : Graph) : Nat :=
  (G.m_neighbors.map (fun e => (e.2.filter (fun j => decide (e.1 < j))).length)).sum

/-- The state `exampleSearchOR` with the value 5 at the root, so that the OR node at 6,
whose partial solution tree has the value -1 at the root, can be pruned. -/
def exampleSearchPrune : Search :=
  { exampleSearchOR with heap := exampleHeapOR.modify 0 (fun x => x.setValue (Dbl.fin 5)) }

/-- The state of the examples after the root has been popped and gone through `doProcess`,
`doCaching` and `doPruning`. -/
def exampleRunProcessed : Run Unit (List Nat) :=
  { exampleRunStart with
    search := { exampleRunStart.search with stats := { exampleStats with numProcOR := 1 } },
    driver := [] }

/-- The state of the examples after the root has been expanded. -/
def exampleRunExpanded : Run Unit (List Nat) :=
  ((bbExpand exampleHeuristic exampleRunProcessed 0).map Prod.snd).getD exampleRunStart

/-- `Graph::getStatEdges`. -/
def Graph.getStatEdges (G : Graph) : Int := G.m_statNumEdges

/-! ### `Pseudotree::restrictSubproblem` -/

/-- The two loops of `setminusSize(a, b)` for vectors, lines 253-270 of `utils.h`: the
first argument bounds the number of turns, `s` is the counter. -/
def setminusLoop : Nat → List Nat → List Nat → Int → Int
  | fuel + 1, x :: xs, y :: ys, s =>
    if x = y then setminusLoop fuel xs ys s
    else if x < y then setminusLoop fuel xs (y :: ys) (s + 1)
    else setminusLoop fuel (x :: xs) ys s
  | _, a, _, s => s + (a.length : Int)

/-- `setminusSize(a, b)` for vectors; every turn of the first loop moves one of the two
iterators, so the sum of the lengths bounds the number of turns. -/
def setminusSize (a b : List Nat) : Int := setminusLoop (a.length + b.length) a b 0

/-- Lines 52-62 of `restrictSubproblem`, the loop over the stack `stck`, top first, that
computes the largest `setminusSize(n->m_contextV, condset)` over the nodes below; the first
argument bounds the number of turns. -/
def condWidthLoop (nodes : Arena) (condset : List Nat) : Nat → List Nat → Int → Option Int
  | 0, _, _ => none
  | _ + 1, [], w => some w
  | fuel + 1, n :: stck, w =>
    match nodes.deref n with
    | none => none
    | some nd =>
      condWidthLoop nodes condset fuel (nd.m_children.reverse ++ stck)
        (max w (setminusSize nd.m_contextS condset))

/-- `Pseudotree::getSizeCond`. -/
def Pseudotree.getSizeCond (pt : Pseudotree) : Int :=
  if pt.m_sizeConditioned = NONE then pt.m_size else pt.m_sizeConditioned

/-- `Pseudotree::getHeightCond`. -/
def Pseudotree.getHeightCond (pt : Pseudotree) : Int :=
  if pt.m_heightConditioned = NONE then pt.m_height else pt.m_heightConditioned

/-- `Pseudotree::restrictSubproblem(i)`, lines 30-65 of `Pseudotree.cpp`: the value
returned and the pseudo tree; `none` is the failed assertion. The recursive updates get the
number of nodes plus one as the bound of their depth, and the loop over the stack, which
visits every node of the subproblem once, gets the size of the subproblem as the bound of
its turns. -/
def Pseudotree.restrictSubproblem (pt : Pseudotree) (i : Nat) : Option (Int × Pseudotree) :=
  match pt.m_root with
  | none => none
  | some r =>
    match pt.m_nodes.deref r with
    | none => none
    | some rn =>
      if i < pt.m_nodes.length then
        match pt.m_nodes.deref i with
        | none => none
        | some nd =>
          if rn.m_var = i then some (rn.m_depth, pt)
          else
            let nodes1 := (pt.m_nodes.modify r (fun x => x.setChild i)).modify i
              (fun x => x.setParent (some r))
            match updateSubprobVars nodes1.length (nodes1.length + 1) nodes1 r with
            | none => none
            | some (nodes2, _) =>
              match nodes2.deref r with
              | none => none
              | some rn2 =>
                match updateDepthHeight (nodes2.length + 1) nodes2 r (-1) with
                | none => none
                | some (nodes3, h) =>
                  match nodes3.deref i with
                  | none => none
                  | some nd3 =>
                    match condWidthLoop nodes3 nd3.m_contextS rn2.m_subproblemVars.length [i]
                        NONE with
                    | none => none
                    | some w =>
                      some (nd.m_depth,
                        { pt with m_widthConditioned := w,
                                  m_sizeConditioned := (rn2.m_subproblemVars.length : Int) - 1,
                                  m_heightConditioned := h - 1,
                                  m_nodes := nodes3 })
      else none

/-- The variables of the subtree of the node `v`: `v` and the variables of the subtrees of
its children; the first argument bounds the depth. -/
def Arena.subtree (nodes : Arena) : Nat → Nat → List Nat
  | 0, _ => []
  | fuel + 1, v =>
    match nodes.deref v with
    | none => []
    | some nd => v :: nd.m_children.flatMap (Arena.subtree nodes fuel)

/-- The height of the subtree of the node `v`: 0 for a node without children and 1 more
than the largest height of a child otherwise; the first argument bounds the depth. -/
def Arena.height (nodes : Arena) : Nat → Nat → Int
  | 0, _ => 0
  | fuel + 1, v =>
    match nodes.deref v with
    | none => 0
    | some nd =>
      if nd.m_children = [] then 0
      else (nd.m_children.map (Arena.height nodes fuel)).foldl max 0 + 1

/-- Two nodes agree in all but the depth and the height. -/
def PseudotreeNode.SameButDepth (a b : PseudotreeNode) : Prop :=
  b = { a with m_depth := b.m_depth, m_subHeight := b.m_subHeight }

/-- Two nodes agree in all but the subproblem variables and their map. -/
def PseudotreeNode.SameButVars (a b : PseudotreeNode) : Prop :=
  b = { a with m_subproblemVars := b.m_subproblemVars,
               m_subproblemVarMap := b.m_subproblemVarMap }

/-! ### `Search::restrictSubproblem(rootVar, assig, pst)` and `Search::updateSolution` -/

/-- Modelled from the spec: `SearchNode::setChild(c)` of the absent `SearchNode.h`, after
which the node has the one child `c`. -/
def SearchNode.setChild (nd : SearchNode) (c : Nat) : SearchNode :=
  { nd with m_children := some [some c] }

/-- `vector::resize(k)` on a `vector<count_t>`: the first `k` entries stay, and entries that
are missing are 0. -/
def resizeCounts (v : List Nat) (k : Nat) : List Nat :=
  v.take k ++ List.replicate (k - v.length) 0

/-- Lines 680-683: `m_assignment[*it] = assig[*it]` for the variables of the context;
`none` when a variable is no position of one of the two vectors. -/
def copyContext : List Nat → List Int → List Int → Option (List Int)
  | [], _, a => some a
  | c :: rest, assig, a =>
    match assig[c]? with
    | none => none
    | some v => if c < a.length then copyContext rest assig (a.set c v) else none

/-- Lines 694-708: the loop over `i` that builds the chain of dummy nodes, for the `k`
passes that are left; the new nodes are appended to the heap. The variables are the heap,
`m_space->root` and `node`. -/
def pstNodes (dummyVar : Nat) (pst : List Dbl) :
    Nat → Nat → Heap → Option Nat → Option Nat → Option (Heap × Option Nat × Option Nat)
  | 0, _, heap, root, node => some (heap, root, node)
  | k + 1, i, heap, root, node =>
    match pst[2 * i]?, pst[2 * i + 1]? with
    | some v, some l =>
      let next := heap.length
      let heap1 := heap ++ [some ((SearchNode.newOR node dummyVar (-1)).setValue v)]
      let linked : Option (Heap × Option Nat) :=
        if 0 < i then
          match node with
          | none => none
          | some nd =>
            match heap1.deref nd with
            | none => none
            | some _ => some (heap1.modify nd (fun x => x.setChild next), root)
        else some (heap1, some next)
      match linked with
      | none => none
      | some (heap2, root1) =>
        let next2 := heap2.length
        let heap3 := heap2 ++ [some (SearchNode.newAND next dummyVar (-1) 0 l)]
        pstNodes dummyVar pst k (i + 1) (heap3.modify next (fun x => x.setChild next2))
          root1 (some next2)
    | _, _ => none

/-- What `Search::restrictSubproblem(rootVar, assig, pst)` leaves: the value it returns,
the state, the member `m_space->subproblemLocal`, and the node that is passed to the
virtual function `reset`. -/
structure Restricted where
  /-- The value returned, the old depth of the root variable. -/
  depth : Int
  /-- The state of the search. -/
  search : Search
  /-- The member `m_space->subproblemLocal`. -/
  subproblemLocal : Nat
  /-- The argument of the call `this->reset(next)`. -/
  resetArg : Nat

/-- `Search::restrictSubproblem(rootVar, assig, pst)`, lines 666-718 of `Search.cpp`;
`none` when a null pointer is dereferenced or a vector is read outside its range.
`fresh` is the value `SearchStats()` of the class in the absent `SearchSpace.h`. The
`delete` of the old root frees its position. `m_problem->getN()` is the number of the
domain sizes; the variable of a node is a natural number here, so the model stops for a
problem without any variable, where `dummyVar` is -1. -/
def Search.restrictSubproblem (fresh : SearchStats) (s : Search) (rootVar : Nat)
    (assig : List Int) (pst : List Dbl) : Option Restricted :=
  match s.m_pseudotree.restrictSubproblem rootVar with
  | none => none
  | some (depth, pt1) =>
    if pt1.getHeightCond + 1 < 0 then none
    else
      let leafProfile := resizeCounts s.m_leafProfile (pt1.getHeightCond + 1).toNat
      match pt1.getNode rootVar with
      | none => none
      | some ptnode =>
        match copyContext ptnode.getFullContextVec assig s.m_assignment with
        | none => none
        | some assignment1 =>
          let heap0 : Heap :=
            match s.root with
            | some r => s.heap.free r
            | none => s.heap
          if s.m_domains.length = 0 then none
          else
            match pstNodes (s.m_domains.length - 1) pst (pst.length / 2) 0 heap0 s.root
                none with
            | none => none
            | some (heap1, root1, node) =>
              match node with
              | none => none
              | some nd =>
                match heap1.deref nd with
                | none => none
                | some _ =>
                  let next := heap1.length
                  let heap2 := (heap1 ++ [some (SearchNode.newOR (some nd) rootVar 0)]).modify nd
                    (fun x => x.setChild next)
                  some { depth := depth,
                         search := { s with m_pseudotree := pt1, m_nodeProfile := [],
                                            m_leafProfile := leafProfile,
                                            m_assignment := assignment1,
                                            stats := fresh, heap := heap2, root := root1 },
                         subproblemLocal := next,
                         resetArg := next }

/-- `Search::updateSolution(d, tuple)`, lines 721-737 of `Search.cpp`, with the
assignment; `none` is the failed assertion. -/
def Search.updateSolution (s : Search) (d : Dbl) (tuple : List Int) : Option (Bool × Search) :=
  match s.root with
  | none => none
  | some r =>
    match s.heap.deref r with
    | none => none
    | some rn =>
      if d.isNaN = true then some (false, s)
      else if rn.getValue.isNaN = false ∧ Dbl.le d rn.getValue = true then some (false, s)
      else
        let heap1 := s.heap.modify r (fun x => (x.setValue d).setOptAssig tuple)
        some (true, { s with heap := heap1 })

/-- A sequence of calls of `updateSolution`, each with its value and its assignment. -/
def Search.updateSolutions : List (Dbl × List Int) → Search → Option Search
  | [], s => some s
  | c :: rest, s =>
    match s.updateSolution c.1 c.2 with
    | none => none
    | some (_, s1) => Search.updateSolutions rest s1

/-- The value of the root `m_space->root`. -/
def Search.rootValue (s : Search) : Option Dbl :=
  match s.root with
  | none => none
  | some r => (s.heap.deref r).map (fun x => x.getValue)

/-- The dummy OR node that the pass `t` of the loop of `restrictSubproblem` leaves at the
position `L + 2t` of the heap: its parent is the AND node of the pass before, its value is
`pst[2t]`, and its child is the AND node of the pass. -/
def dummyOR (dummyVar L : Nat) (pst : List Dbl) (t : Nat) : SearchNode :=
  (((SearchNode.newOR (if 0 < t then some (L + 2 * t - 1) else none) dummyVar (-1)).setValue
    (pst.getD (2 * t) ELEM_NAN)).setChild (L + 2 * t + 1))

/-- The dummy AND node that the pass `t` of the loop of `restrictSubproblem` creates at the
position `L + 2t + 1` of the heap, before it gets its child: its parent is the OR node of
the pass, its value is 0 and its label is `pst[2t+1]`. -/
def dummyAND (dummyVar L : Nat) (pst : List Dbl) (t : Nat) : SearchNode :=
  SearchNode.newAND (L + 2 * t) dummyVar (-1) 0 (pst.getD (2 * t + 1) ELEM_NAN)

/-- The pseudo tree of the examples after `restrictSubproblem(1)`. -/
def examplePTRestricted : Pseudotree :=
  ((examplePT.restrictSubproblem 1).map Prod.snd).getD examplePT

/-- The state of the examples at the start of the search when the one value of the dummy
variable has the label `ELEM_ZERO`: the only node is the root, the OR node of the dummy
variable 3 at the depth -1. -/
def exampleSearchRootZero : Search :=
  { exampleRunStart.search with
      heap := [some (((SearchNode.newOR none 3 (-1)).setHeur (Dbl.fin (-1))).setHeurCache
        [Dbl.fin (-1), ELEM_ZERO])] }

/-! ### Connected nodes and sorted sets -/

/-- A path of edges leads from the node `a` to the node `b`. -/
def Graph.Connected (G : Graph) (a b : Nat) : Prop := Relation.ReflTransGen G.adj a b

/-- The neighbour sets of the graph are strictly increasing lists, as the elements of a
`set<int>` are in the order of its iteration. -/
def Graph.Ascending (G : Graph) : Prop :=
  ∀ kv ∈ G.m_neighbors, kv.2.Pairwise (fun x y => x < y)

/-! ### The depths, heights and widths that `build` computes -/

/-- The largest size of a full context in the subtree of the node `v`: the size of the
context of `v` and the sizes in the subtrees of its children; the first argument bounds the
depth. -/
def Arena.width (nodes : Arena) : Nat → Nat → Int
  | 0, _ => 0
  | fuel + 1, v =>
    match nodes.deref v with
    | none => 0
    | some nd =>
      (nd.m_children.map (Arena.width nodes fuel)).foldl max (nd.m_contextS.length : Int)

/-- The member `m_subHeight` of the node at position `k`. -/
def Arena.subHeightAt (nodes : Arena) (k : Nat) : Int :=
  match nodes.deref k with
  | some nd => nd.m_subHeight
  | none => 0

/-- The member `m_depth` of the node at position `k`. -/
def Arena.depthAt (nodes : Arena) (k : Nat) : Int :=
  match nodes.deref k with
  | some nd => nd.m_depth
  | none => 0

/-- Two nodes agree in all but the width of the subtree. -/
def PseudotreeNode.SameButWidth (a b : PseudotreeNode) : Prop :=
  b = { a with m_subWidth := b.m_subWidth }

/-- Two nodes agree in depth, height of the subtree and width of the subtree. -/
def PseudotreeNode.SameMeasures (a b : PseudotreeNode) : Prop :=
  a.m_depth = b.m_depth ∧ a.m_subHeight = b.m_subHeight ∧ a.m_subWidth = b.m_subWidth

/-- `Pseudotree::getHeight`. -/
def Pseudotree.getHeight (pt : Pseudotree) : Int := pt.m_height

/-- The depths, heights and widths of a pseudo tree with the dummy root `n` are those of
its shape: the dummy root has depth -1, every other node has a parent and its depth is one
more than that of the parent, `m_subHeight` is 0 for a node without children and one more
than the largest `m_subHeight` of a child otherwise, `m_subWidth` is the largest size of a
full context in the subtree, and `getHeight()` is the largest depth of a node. -/
def Pseudotree.Measured (pt : Pseudotree) (n : Nat) : Prop :=
  (∃ rd, pt.m_nodes.deref n = some rd ∧ rd.m_depth = -1)
  ∧ (∀ k nd, k ≠ n → pt.m_nodes.deref k = some nd →
      ∃ p pd, nd.m_parent = some p ∧ pt.m_nodes.deref p = some pd
        ∧ nd.m_depth = pd.m_depth + 1)
  ∧ (∀ p pn, pt.m_nodes.deref p = some pn →
      pn.m_subHeight = if pn.m_children = [] then 0
        else (pn.m_children.map pt.m_nodes.subHeightAt).foldl max 0 + 1)
  ∧ (∀ p pn, pt.m_nodes.deref p = some pn →
      (∀ k kd, k ∈ pt.m_nodes.subtree (n + 1) p → pt.m_nodes.deref k = some kd →
        (kd.m_contextS.length : Int) ≤ pn.m_subWidth)
      ∧ ∃ k kd, k ∈ pt.m_nodes.subtree (n + 1) p ∧ pt.m_nodes.deref k = some kd
          ∧ (kd.m_contextS.length : Int) = pn.m_subWidth)
  ∧ (∀ k kd, pt.m_nodes.deref k = some kd → kd.m_depth ≤ pt.getHeight)
  ∧ ∃ k kd, pt.m_nodes.deref k = some kd ∧ kd.m_depth = pt.getHeight

/-! ### `Pseudotree::computeSubproblemWidth` -/

/-- The number of elements of `a` that are not in `b`. -/
def setminusCount (a b : List Nat) : Int := ((a.filter (fun x => decide (x ∉ b))).length : Int)

/-- `Pseudotree::computeSubproblemWidth(i)`, lines 67-83 of `Pseudotree.cpp`; `none` is the
dereference of a null node. The loop over the stack visits a node of the tree once, so the
number of nodes plus one bounds its turns. -/
def Pseudotree.computeSubproblemWidth (pt : Pseudotree) (i : Nat) : Option Int :=
  match pt.m_nodes.deref i with
  | none => none
  | some nd => condWidthLoop pt.m_nodes nd.m_contextS (pt.m_nodes.length + 1) [i] NONE

/-- `Pseudotree::getWidthCond`. -/
def Pseudotree.getWidthCond (pt : Pseudotree) : Int :=
  if pt.m_widthConditioned = NONE then pt.m_width else pt.m_widthConditioned

/-! ## Lemmas on sets and maps -/

theorem mem_setInsert (x a : Nat) (s : List Nat) : x ∈ setInsert a s ↔ x = a ∨ x ∈ s := by
  unfold setInsert
  by_cases h : a ∈ s
  · simp only [h, if_true]
    constructor
    · intro hx; exact Or.inr hx
    · rintro (rfl | hx)
      · exact h
      · exact hx
  · simp [h, List.mem_orderedInsert]

theorem nodup_setInsert (a : Nat) (s : List Nat) (h : s.Nodup) : (setInsert a s).Nodup := by
  unfold setInsert
  by_cases ha : a ∈ s
  · simpa [ha] using h
  · simp only [ha, if_false]
    exact ((List.perm_orderedInsert _ a s).nodup_iff).2 (List.nodup_cons.2 ⟨ha, h⟩)

theorem setInsert_of_mem {a : Nat} {s : List Nat} (h : a ∈ s) : setInsert a s = s := by
  simp [setInsert, h]

theorem length_setInsert_of_not_mem {a : Nat} {s : List Nat} (h : a ∉ s) :
    (setInsert a s).length = s.length + 1 := by
  simp [setInsert, h, List.orderedInsert_length]

theorem mem_setErase (x a : Nat) (s : List Nat) : x ∈ setErase a s ↔ x ∈ s ∧ x ≠ a := by
  simp [setErase]

theorem nodup_setErase (a : Nat) (s : List Nat) (h : s.Nodup) : (setErase a s).Nodup :=
  h.filter _

theorem setErase_of_not_mem {a : Nat} {s : List Nat} (h : a ∉ s) : setErase a s = s := by
  unfold setErase
  rw [List.filter_eq_self]
  intro x hx
  have : x ≠ a := fun e => h (e ▸ hx)
  simpa using this

theorem mem_setInsertAll (x : Nat) (xs s : List Nat) :
    x ∈ setInsertAll xs s ↔ x ∈ xs ∨ x ∈ s := by
  unfold setInsertAll
  induction xs generalizing s with
  | nil => simp
  | cons a xs ih =>
    simp only [List.foldl_cons, ih, mem_setInsert, List.mem_cons]
    tauto

theorem nodup_setInsertAll (xs s : List Nat) (h : s.Nodup) : (setInsertAll xs s).Nodup := by
  unfold setInsertAll
  induction xs generalizing s with
  | nil => simpa using h
  | cons a xs ih => exact ih _ (nodup_setInsert a s h)

theorem mapFind_append (m : List (Nat × List Nat)) (i k : Nat) (v : List Nat) :
    mapFind (m ++ [(i, v)]) k
      = match mapFind m k with
        | some w => some w
        | none => if i = k then some v else none := by
  induction m with
  | nil => simp [mapFind]
  | cons kv r ih =>
    obtain ⟨k0, w⟩ := kv
    by_cases h : k0 = k
    · simp [mapFind, h]
    · simp [mapFind, h, ih]

theorem mapFind_mapSet (m : List (Nat × List Nat)) (i k : Nat) (v : List Nat) :
    mapFind (mapSet m i v) k
      = if k = i then (mapFind m i).map (fun _ => v) else mapFind m k := by
  induction m with
  | nil => simp [mapFind, mapSet]
  | cons kv r ih =>
    obtain ⟨k0, w⟩ := kv
    by_cases h : k0 = i
    · subst h
      by_cases hk : k = k0
      · subst hk; simp [mapFind, mapSet]
      · have hk2 : ¬ k0 = k := fun e => hk e.symm
        simp [mapFind, mapSet, hk, hk2]
    · by_cases hk : k = i
      · subst hk
        simp [mapFind, mapSet, h, ih]
      · by_cases h0 : k0 = k
        · simp [mapFind, mapSet, h, h0, hk]
        · simp [mapFind, mapSet, h, h0, hk, ih]

theorem mapFind_mapErase (m : List (Nat × List Nat)) (i k : Nat) :
    mapFind (mapErase m i) k = if k = i then none else mapFind m k := by
  induction m with
  | nil => simp [mapFind, mapErase]
  | cons kv r ih =>
    obtain ⟨k0, w⟩ := kv
    unfold mapErase at ih ⊢
    by_cases h : k0 = i
    · subst h
      by_cases hk : k = k0
      · subst hk; simpa [mapFind, List.filter_cons] using ih
      · have hk2 : ¬ k0 = k := fun e => hk e.symm
        simpa [mapFind, List.filter_cons, hk, hk2] using ih
    · by_cases h0 : k0 = k
      · have hk : ¬ k = i := fun e => h (h0.trans e)
        simp [mapFind, List.filter_cons, h, h0, hk]
      · simp [mapFind, List.filter_cons, h, h0, ih]

theorem keys_mapSet (m : List (Nat × List Nat)) (i : Nat) (v : List Nat) :
    (mapSet m i v).map Prod.fst = m.map Prod.fst := by
  induction m with
  | nil => simp [mapSet]
  | cons kv r ih =>
    obtain ⟨k0, w⟩ := kv
    by_cases h : k0 = i
    · simp [mapSet, h]
    · simp [mapSet, h, ih]

theorem length_mapSet (m : List (Nat × List Nat)) (i : Nat) (v : List Nat) :
    (mapSet m i v).length = m.length := by
  have := congrArg List.length (keys_mapSet m i v)
  simpa using this

theorem mapFind_isSome_iff (m : List (Nat × List Nat)) (k : Nat) :
    (mapFind m k).isSome = true ↔ k ∈ m.map Prod.fst := by
  induction m with
  | nil => simp [mapFind]
  | cons kv r ih =>
    obtain ⟨k0, w⟩ := kv
    by_cases h : k0 = k
    · simp [mapFind, h]
    · have h2 : ¬ k = k0 := fun e => h e.symm
      simp [mapFind, h, h2, ih]

theorem keys_mapErase (m : List (Nat × List Nat)) (i : Nat) :
    (mapErase m i).map Prod.fst = (m.map Prod.fst).filter (fun k => k != i) := by
  induction m with
  | nil => simp [mapErase]
  | cons kv r ih =>
    obtain ⟨k0, w⟩ := kv
    unfold mapErase at ih ⊢
    by_cases h : k0 = i
    · simp [List.filter_cons, h, ih]
    · simp [List.filter_cons, h, ih]

theorem length_mapErase (m : List (Nat × List Nat)) (i : Nat)
    (hk : (m.map Prod.fst).Nodup) (hi : (mapFind m i).isSome = true) :
    ((mapErase m i).length : Int) = (m.length : Int) - 1 := by
  have h1 : (mapErase m i).length = ((m.map Prod.fst).filter (fun k => k != i)).length := by
    rw [← keys_mapErase]; simp
  have h2 : i ∈ m.map Prod.fst := (mapFind_isSome_iff m i).1 hi
  have h3 : ((m.map Prod.fst).filter (fun k => k != i)) = (m.map Prod.fst).erase i := by
    rw [List.Nodup.erase_eq_filter hk]
  rw [h1, h3, List.length_erase_of_mem h2]
  have : 0 < (m.map Prod.fst).length := List.length_pos_of_mem h2
  simp only [List.length_map] at this ⊢
  omega


theorem mapFind_some_mem {m : List (Nat × List Nat)} {i : Nat} {S : List Nat}
    (h : mapFind m i = some S) : (i, S) ∈ m := by
  induction m with
  | nil => simp [mapFind] at h
  | cons kv r ih =>
    obtain ⟨k0, w⟩ := kv
    by_cases hk : k0 = i
    · simp [mapFind, hk] at h
      simp [hk, h]
    · simp [mapFind, hk] at h
      exact List.mem_cons_of_mem _ (ih h)

theorem Graph.hasNode_iff (G : Graph) (k : Nat) :
    G.hasNode k = true ↔ ∃ S, G.getNeighbors k = some S := by
  unfold Graph.hasNode Graph.getNeighbors
  cases mapFind G.m_neighbors k <;> simp

theorem Graph.adj_hasNode {G : Graph} {i j : Nat} (h : G.adj i j) : G.hasNode i = true := by
  obtain ⟨S, hS, _⟩ := h
  exact (G.hasNode_iff i).2 ⟨S, hS⟩

theorem Graph.wf_of_check {G : Graph} {n : Nat} (h : G.check n = true) :
    G.WF ∧ G.NodesAre n := by
  unfold Graph.check at h
  simp only [Bool.and_eq_true, decide_eq_true_eq, List.all_eq_true, beq_iff_eq] at h
  obtain ⟨⟨⟨⟨h1, h2⟩, h3⟩, h4⟩, h5⟩ := h
  have key : ∀ i S, G.getNeighbors i = some S → (i, S) ∈ G.m_neighbors :=
    fun i S hS => mapFind_some_mem hS
  refine ⟨⟨⟨h1, h2, ?_⟩, ⟨?_, ?_⟩, ⟨?_, h3, ?_⟩⟩, ?_⟩
  · intro i S hS
    exact (h5 _ (key i S hS)).1.1.1.2
  · rintro i j ⟨S, hS, hj⟩
    have := (h5 _ (key i S hS)).1.2 j hj
    obtain ⟨hm, hn⟩ := this
    obtain ⟨T, hT⟩ := (G.hasNode_iff j).1 hn
    refine ⟨T, hT, ?_⟩
    simpa [hT] using hm
  · rintro i ⟨S, hS, hi⟩
    exact (h5 _ (key i S hS)).1.1.2 hi
  · intro i hi
    obtain ⟨S, hS⟩ := (G.hasNode_iff i).1 hi
    exact (h5 _ (key i S hS)).1.1.1.1.2
  · intro i j hi hj
    obtain ⟨S, hS⟩ := (G.hasNode_iff i).1 hi
    obtain ⟨T, hT⟩ := (G.hasNode_iff j).1 hj
    have := (h5 _ (key i S hS)).2 _ (key j T hT)
    simp only at this
    rw [this]
    simp only [decide_eq_true_eq]
    constructor
    · intro hm; exact ⟨S, hS, hm⟩
    · rintro ⟨S2, hS2, hm⟩
      rw [hS] at hS2
      cases hS2
      exact hm
  · intro k
    constructor
    · intro hk
      obtain ⟨S, hS⟩ := (G.hasNode_iff k).1 hk
      exact (h5 _ (key k S hS)).1.1.1.1.1
    · intro hk
      exact h4 k hk


/-! ## The operations of `Graph` on the adjacency lists -/

theorem Graph.getNeighbors_addNode (G : Graph) (i k : Nat) :
    (G.addNode i).getNeighbors k
      = if k = i then some ((G.getNeighbors i).getD []) else G.getNeighbors k := by
  unfold Graph.addNode Graph.getNeighbors
  cases h : mapFind G.m_neighbors i with
  | some S =>
    by_cases hk : k = i
    · subst hk; simp [h]
    · simp [hk]
  | none =>
    simp only [mapFind_append]
    by_cases hk : k = i
    · subst hk; simp [h]
    · have hk2 : ¬ i = k := fun e => hk e.symm
      cases h2 : mapFind G.m_neighbors k <;> simp [hk, hk2]

theorem Graph.getNeighbors_addAdjacency (G : Graph) (i j k : Nat) :
    (G.addAdjacency i j).getNeighbors k
      = if k = i then some (setInsert j ((G.getNeighbors i).getD []))
        else G.getNeighbors k := by
  have h1 := G.getNeighbors_addNode i i
  have h2 := G.getNeighbors_addNode i k
  unfold Graph.getNeighbors at h1 h2 ⊢
  unfold Graph.addAdjacency
  simp only [if_true] at h1
  simp only [h1]
  simp only [mapFind_mapSet, h1, h2]
  by_cases hk : k = i
  · simp [hk]
  · simp [hk]

theorem Graph.getNeighbors_removeAdjacency (G : Graph) (i j k : Nat) :
    (G.removeAdjacency i j).getNeighbors k
      = if k = i then (G.getNeighbors i).map (setErase j) else G.getNeighbors k := by
  unfold Graph.removeAdjacency Graph.getNeighbors
  cases h : mapFind G.m_neighbors i with
  | some S =>
    simp only [mapFind_mapSet, h]
    by_cases hk : k = i
    · simp [hk]
    · simp [hk]
  | none =>
    by_cases hk : k = i
    · subst hk; simp [h]
    · simp [hk]

theorem Graph.getNeighbors_addEdge (G : Graph) (i j k : Nat) :
    (G.addEdge i j).getNeighbors k
      = if k = j then
          some (setInsert i (((G.addAdjacency i j).getNeighbors j).getD []))
        else (G.addAdjacency i j).getNeighbors k := by
  have := (G.addAdjacency i j).getNeighbors_addAdjacency j i k
  unfold Graph.addEdge
  unfold Graph.getNeighbors at this ⊢
  exact this

theorem Graph.adj_addEdge (G : Graph) (i j a b : Nat) :
    (G.addEdge i j).adj a b ↔ G.adj a b ∨ (a = i ∧ b = j) ∨ (a = j ∧ b = i) := by
  unfold Graph.adj
  rw [Graph.getNeighbors_addEdge]
  simp only [Graph.getNeighbors_addAdjacency]
  by_cases haj : a = j
  · subst haj
    by_cases hai : a = i
    · subst hai
      simp only [if_true, Option.getD_some, Option.some.injEq, exists_eq_left',
        mem_setInsert]
      cases h : G.getNeighbors a with
      | none => simp
      | some S => simp [or_comm]
    · simp only [if_true, hai, if_false, Option.some.injEq, exists_eq_left', mem_setInsert]
      cases h : G.getNeighbors a with
      | none => simp
      | some S => simp [or_comm]
  · by_cases hai : a = i
    · subst hai
      simp only [haj, if_false, if_true, Option.some.injEq, exists_eq_left', mem_setInsert]
      cases h : G.getNeighbors a with
      | none => simp
      | some S => simp [or_comm]
    · simp [haj, hai]

theorem Graph.hasNode_addEdge (G : Graph) (i j k : Nat) :
    (G.addEdge i j).hasNode k = true ↔ G.hasNode k = true ∨ k = i ∨ k = j := by
  simp only [Graph.hasNode_iff]
  rw [Graph.getNeighbors_addEdge]
  simp only [Graph.getNeighbors_addAdjacency]
  by_cases hkj : k = j
  · simp [hkj]
  · by_cases hki : k = i
    · subst hki
      simp [hkj]
    · simp [hkj, hki]

theorem setErase_idem (a : Nat) (s : List Nat) : setErase a (setErase a s) = setErase a s := by
  unfold setErase
  rw [List.filter_filter]
  simp

/-- The loop of `removeNode` over a list `L` of neighbours. -/
theorem Graph.getNeighbors_removeLoop (L : List Nat) (G : Graph) (i k : Nat) :
    (L.foldl (fun g it => { g.removeAdjacency it i with
        m_statNumEdges := (g.removeAdjacency it i).m_statNumEdges - 1 }) G).getNeighbors k
      = (G.getNeighbors k).map (fun T => if k ∈ L then setErase i T else T) := by
  induction L generalizing G with
  | nil => simp
  | cons a L ih =>
    rw [List.foldl_cons, ih]
    have h := G.getNeighbors_removeAdjacency a i k
    unfold Graph.getNeighbors at h ⊢
    simp only [h]
    by_cases hk : k = a
    · subst hk
      cases h2 : mapFind G.m_neighbors k with
      | none => simp
      | some T =>
        by_cases hL : k ∈ L
        · simp [hL, setErase_idem]
        · simp [hL]
    · have hk2 : ¬ a = k := fun e => hk e.symm
      cases h2 : mapFind G.m_neighbors k with
      | none => simp [hk]
      | some T => simp [hk, List.mem_cons]

theorem Graph.getNeighbors_removeNode (G : Graph) (i k : Nat) :
    (G.removeNode i).getNeighbors k
      = if k = i then none
        else (G.getNeighbors k).map
          (fun T => if k ∈ (G.getNeighbors i).getD [] then setErase i T else T) := by
  unfold Graph.removeNode
  cases h : mapFind G.m_neighbors i with
  | none =>
    have h' : G.getNeighbors i = none := h
    by_cases hk : k = i
    · subst hk; simp [h']
    · cases h2 : G.getNeighbors k <;> simp [hk, h', h2]
  | some S =>
    have h' : G.getNeighbors i = some S := h
    have := Graph.getNeighbors_removeLoop S G i k
    unfold Graph.getNeighbors at this h' ⊢
    simp only [mapFind_mapErase, this, h']
    by_cases hk : k = i
    · simp [hk]
    · simp [hk]

theorem Graph.hasNode_removeNode (G : Graph) (i k : Nat) :
    (G.removeNode i).hasNode k = true ↔ G.hasNode k = true ∧ k ≠ i := by
  simp only [Graph.hasNode_iff, Graph.getNeighbors_removeNode]
  by_cases hk : k = i
  · simp [hk]
  · cases h : G.getNeighbors k <;> simp [hk]

theorem Graph.adj_removeNode (G : Graph) (hs : G.Simple) (v a b : Nat) :
    (G.removeNode v).adj a b ↔ a ≠ v ∧ b ≠ v ∧ G.adj a b := by
  unfold Graph.adj
  rw [Graph.getNeighbors_removeNode]
  by_cases ha : a = v
  · simp [ha]
  · simp only [ha, if_false, ne_eq, not_false_eq_true, true_and]
    cases h : G.getNeighbors a with
    | none => simp
    | some T =>
      simp only [Option.map_some', Option.some.injEq, exists_eq_left']
      by_cases hm : a ∈ (G.getNeighbors v).getD []
      · simp only [hm, if_true, mem_setErase]
        tauto
      · simp only [hm, if_false]
        constructor
        · intro hb
          refine ⟨?_, hb⟩
          intro hbv
          subst hbv
          obtain ⟨S, hS, haS⟩ := hs.sym a b ⟨T, h, hb⟩
          apply hm
          simp [hS, haS]
        · exact fun hb => hb.2

theorem Graph.getNeighbors_addCliqueInner (rest : List Nat) (G : Graph) (a k : Nat) :
    (G.addCliqueInner a rest).hasNode k = true ↔ G.hasNode k = true ∨ (rest ≠ [] ∧ k = a) ∨ k ∈ rest := by
  unfold Graph.addCliqueInner
  induction rest generalizing G with
  | nil => simp
  | cons b rest ih =>
    rw [List.foldl_cons, ih, Graph.hasNode_addEdge]
    by_cases hr : rest = []
    · subst hr; simp
    · simp [hr]; tauto

theorem Graph.adj_addCliqueInner (rest : List Nat) (G : Graph) (a x y : Nat) :
    (G.addCliqueInner a rest).adj x y
      ↔ G.adj x y ∨ (x = a ∧ y ∈ rest) ∨ (y = a ∧ x ∈ rest) := by
  unfold Graph.addCliqueInner
  induction rest generalizing G with
  | nil => simp
  | cons b rest ih =>
    rw [List.foldl_cons, ih, Graph.adj_addEdge]
    simp only [List.mem_cons]
    tauto

theorem Graph.hasNode_addNode (G : Graph) (i k : Nat) :
    (G.addNode i).hasNode k = true ↔ G.hasNode k = true ∨ k = i := by
  simp only [Graph.hasNode_iff, Graph.getNeighbors_addNode]
  by_cases hk : k = i
  · simp [hk]
  · simp [hk]

theorem Graph.adj_addNode (G : Graph) (i x y : Nat) :
    (G.addNode i).adj x y ↔ G.adj x y := by
  unfold Graph.adj
  rw [Graph.getNeighbors_addNode]
  by_cases hk : x = i
  · subst hk
    cases h : G.getNeighbors x <;> simp
  · simp [hk]

theorem Graph.hasNode_addClique (S : List Nat) (G : Graph) (k : Nat) :
    (G.addClique S).hasNode k = true ↔ G.hasNode k = true ∨ k ∈ S := by
  induction S generalizing G with
  | nil => simp [Graph.addClique]
  | cons a rest ih =>
    rw [Graph.addClique, ih, Graph.getNeighbors_addCliqueInner, Graph.hasNode_addNode]
    simp only [List.mem_cons]
    tauto

theorem Graph.adj_addClique (S : List Nat) (hS : S.Nodup) (G : Graph) (x y : Nat) :
    (G.addClique S).adj x y ↔ G.adj x y ∨ (x ∈ S ∧ y ∈ S ∧ x ≠ y) := by
  induction S generalizing G with
  | nil => simp [Graph.addClique]
  | cons a rest ih =>
    obtain ⟨ha, hrest⟩ := List.nodup_cons.1 hS
    rw [Graph.addClique, ih hrest, Graph.adj_addCliqueInner, Graph.adj_addNode]
    simp only [List.mem_cons]
    constructor
    · rintro ((h | ⟨rfl, hy⟩ | ⟨rfl, hx⟩) | ⟨hx, hy, hne⟩)
      · exact Or.inl h
      · exact Or.inr ⟨Or.inl rfl, Or.inr hy, fun e => ha (e ▸ hy)⟩
      · exact Or.inr ⟨Or.inr hx, Or.inl rfl, fun e => ha (e ▸ hx)⟩
      · exact Or.inr ⟨Or.inr hx, Or.inr hy, hne⟩
    · rintro (h | ⟨hx | hx, hy | hy, hne⟩)
      · exact Or.inl (Or.inl h)
      · exact absurd (hx.trans hy.symm) hne
      · exact Or.inl (Or.inr (Or.inl ⟨hx, hy⟩))
      · exact Or.inl (Or.inr (Or.inr ⟨hy, hx⟩))
      · exact Or.inr ⟨hx, hy, hne⟩

/-! ## Preservation of the representation invariants -/

theorem Graph.rep_addNode {G : Graph} (h : G.Rep) (i : Nat) : (G.addNode i).Rep := by
  refine ⟨?_, ?_, ?_⟩
  · unfold Graph.addNode
    cases hf : mapFind G.m_neighbors i with
    | some S => exact h.keysNodup
    | none =>
      simp only [List.map_append, List.map_cons, List.map_nil]
      have hni : i ∉ G.m_neighbors.map Prod.fst := by
        intro hm
        have := (mapFind_isSome_iff G.m_neighbors i).2 hm
        simp [hf] at this
      exact List.Nodup.append h.keysNodup (List.nodup_singleton i)
        (by simpa [List.disjoint_singleton] using hni)
  · unfold Graph.addNode
    cases hf : mapFind G.m_neighbors i with
    | some S => exact h.statNodes
    | none => simp [h.statNodes]
  · intro k S hS
    rw [Graph.getNeighbors_addNode] at hS
    by_cases hk : k = i
    · subst hk
      simp only [if_true, Option.some.injEq] at hS
      subst hS
      cases hf : G.getNeighbors k with
      | none => simp
      | some T => simpa using h.setsNodup k T hf
    · simp only [hk, if_false] at hS
      exact h.setsNodup k S hS

theorem Graph.addAdjacency_keys (G : Graph) (i j : Nat) :
    (G.addAdjacency i j).m_neighbors.map Prod.fst = (G.addNode i).m_neighbors.map Prod.fst := by
  unfold Graph.addAdjacency
  dsimp only
  split <;> simp [keys_mapSet]

theorem Graph.addAdjacency_stat (G : Graph) (i j : Nat) :
    (G.addAdjacency i j).m_statNumNodes = (G.addNode i).m_statNumNodes := by
  unfold Graph.addAdjacency
  dsimp only
  split <;> simp

theorem Graph.rep_addAdjacency {G : Graph} (h : G.Rep) (i j : Nat) :
    (G.addAdjacency i j).Rep := by
  have h1 := Graph.rep_addNode h i
  have hk := G.addAdjacency_keys i j
  refine ⟨?_, ?_, ?_⟩
  · rw [hk]; exact h1.keysNodup
  · rw [Graph.addAdjacency_stat, h1.statNodes]
    have := congrArg List.length hk
    simp only [List.length_map] at this
    rw [this]
  · intro k S hS
    rw [Graph.getNeighbors_addAdjacency] at hS
    by_cases hk : k = i
    · subst hk
      simp only [if_true, Option.some.injEq] at hS
      subst hS
      apply nodup_setInsert
      cases hf : G.getNeighbors k with
      | none => simp
      | some T => simpa using h.setsNodup k T hf
    · simp only [hk, if_false] at hS
      exact h.setsNodup k S hS

theorem Graph.rep_removeAdjacency {G : Graph} (h : G.Rep) (i j : Nat) :
    (G.removeAdjacency i j).Rep := by
  refine ⟨?_, ?_, ?_⟩
  · unfold Graph.removeAdjacency
    cases hf : mapFind G.m_neighbors i with
    | some S => simpa [keys_mapSet] using h.keysNodup
    | none => simpa using h.keysNodup
  · unfold Graph.removeAdjacency
    cases hf : mapFind G.m_neighbors i with
    | some S => simpa [length_mapSet] using h.statNodes
    | none => simpa using h.statNodes
  · intro k S hS
    rw [Graph.getNeighbors_removeAdjacency] at hS
    by_cases hk : k = i
    · subst hk
      simp only [if_true] at hS
      cases hf : G.getNeighbors k with
      | none => simp [hf] at hS
      | some T =>
        simp only [hf, Option.map_some', Option.some.injEq] at hS
        subst hS
        exact nodup_setErase _ _ (h.setsNodup k T hf)
    · simp only [hk, if_false] at hS
      exact h.setsNodup k S hS

theorem Graph.rep_addEdge {G : Graph} (h : G.Rep) (i j : Nat) : (G.addEdge i j).Rep := by
  have h2 := Graph.rep_addAdjacency (Graph.rep_addAdjacency h i j) j i
  exact ⟨h2.keysNodup, h2.statNodes, h2.setsNodup⟩

theorem Graph.rep_removeLoop (L : List Nat) {G : Graph} (h : G.Rep) (i : Nat) :
    (L.foldl (fun g it => { g.removeAdjacency it i with
        m_statNumEdges := (g.removeAdjacency it i).m_statNumEdges - 1 }) G).Rep := by
  induction L generalizing G with
  | nil => simpa using h
  | cons a L ih =>
    rw [List.foldl_cons]
    apply ih
    have h2 := Graph.rep_removeAdjacency h a i
    exact ⟨h2.keysNodup, h2.statNodes, h2.setsNodup⟩

theorem Graph.rep_removeNode {G : Graph} (h : G.Rep) (i : Nat) : (G.removeNode i).Rep := by
  have hgn := G.getNeighbors_removeNode i
  unfold Graph.removeNode at hgn ⊢
  cases hf : mapFind G.m_neighbors i with
  | none => simpa using h
  | some S =>
    simp only [hf] at hgn
    have h1 := Graph.rep_removeLoop S h i
    have hsome : (mapFind (S.foldl (fun g it => { g.removeAdjacency it i with
        m_statNumEdges := (g.removeAdjacency it i).m_statNumEdges - 1 }) G).m_neighbors i).isSome
          = true := by
      have := Graph.getNeighbors_removeLoop S G i i
      unfold Graph.getNeighbors at this
      rw [this, hf]
      simp
    refine ⟨?_, ?_, ?_⟩
    · simp only [keys_mapErase]
      exact h1.keysNodup.filter _
    · simp only
      rw [length_mapErase _ _ h1.keysNodup hsome, h1.statNodes]
    · intro k T hT
      have hgk := hgn k
      rw [hT] at hgk
      by_cases hk : k = i
      · simp [hk] at hgk
      · simp only [hk, if_false] at hgk
        cases hfk : G.getNeighbors k with
        | none => simp [hfk] at hgk
        | some U =>
          simp only [hfk, Option.map_some', Option.some.injEq] at hgk
          have hU := h.setsNodup k U hfk
          rw [hgk]
          split
          · exact nodup_setErase _ _ hU
          · exact hU

theorem Graph.rep_addCliqueInner (rest : List Nat) {G : Graph} (h : G.Rep) (a : Nat) :
    (G.addCliqueInner a rest).Rep := by
  unfold Graph.addCliqueInner
  induction rest generalizing G with
  | nil => simpa using h
  | cons b rest ih =>
    rw [List.foldl_cons]
    exact ih (Graph.rep_addEdge h a b)

theorem Graph.rep_addClique (S : List Nat) {G : Graph} (h : G.Rep) : (G.addClique S).Rep := by
  induction S generalizing G with
  | nil => simpa [Graph.addClique] using h
  | cons a rest ih =>
    rw [Graph.addClique]
    exact ih (Graph.rep_addCliqueInner rest (Graph.rep_addNode h a) a)

/-! ## Preservation of symmetry -/

theorem Graph.simple_removeNode {G : Graph} (h : G.Simple) (v : Nat) :
    (G.removeNode v).Simple := by
  refine ⟨?_, ?_⟩
  · intro i j hij
    rw [Graph.adj_removeNode G h] at hij ⊢
    exact ⟨hij.2.1, hij.1, h.sym i j hij.2.2⟩
  · intro i hi
    rw [Graph.adj_removeNode G h] at hi
    exact h.irrefl i hi.2.2

theorem Graph.simple_addClique {G : Graph} (h : G.Simple) (S : List Nat) (hS : S.Nodup) :
    (G.addClique S).Simple := by
  refine ⟨?_, ?_⟩
  · intro i j hij
    rw [Graph.adj_addClique S hS] at hij ⊢
    rcases hij with hij | ⟨hi, hj, hne⟩
    · exact Or.inl (h.sym i j hij)
    · exact Or.inr ⟨hj, hi, fun e => hne e.symm⟩
  · intro i hi
    rw [Graph.adj_addClique S hS] at hi
    rcases hi with hi | ⟨_, _, hne⟩
    · exact h.irrefl i hi
    · exact hne rfl

theorem Graph.adj_elimStep {G : Graph} (hs : G.Simple) (v : Nat) (N : List Nat)
    (hNnd : N.Nodup) (a b : Nat) :
    ((G.addClique N).removeNode v).adj a b
      ↔ a ≠ v ∧ b ≠ v ∧ (G.adj a b ∨ (a ∈ N ∧ b ∈ N ∧ a ≠ b)) := by
  rw [Graph.adj_removeNode _ (Graph.simple_addClique hs N hNnd), Graph.adj_addClique N hNnd]

theorem Graph.hasNode_elimStep {G : Graph} (hs : G.Simple) (v : Nat) (N : List Nat)
    (hN : G.getNeighbors v = some N) (k : Nat) :
    ((G.addClique N).removeNode v).hasNode k = true ↔ G.hasNode k = true ∧ k ≠ v := by
  rw [Graph.hasNode_removeNode, Graph.hasNode_addClique]
  constructor
  · rintro ⟨h | h, hk⟩
    · exact ⟨h, hk⟩
    · exact ⟨Graph.adj_hasNode (hs.sym v k ⟨N, hN, h⟩), hk⟩
  · rintro ⟨h, hk⟩
    exact ⟨Or.inl h, hk⟩


/-! ## The scan of the scores -/

theorem moveBack_length (k j : Nat) (cands : List (List Nat)) (cs : List Int) :
    (moveBack k j cands cs).1.length = cands.length
      ∧ (moveBack k j cands cs).2.length = cs.length := by
  induction k generalizing cands cs with
  | zero => simp [moveBack]
  | succ k ih =>
    unfold moveBack
    split
    · have := ih (cands.set (k + 1) (cands.getD k [])) (cs.set (k + 1) (cs.getD k 0))
      simpa using this
    · simp

theorem getD_set_eq {α : Type} (l : List α) (i : Nat) (a d : α) (h : i < l.length) :
    (l.set i a).getD i d = a := by
  simp [List.getD_eq_getElem?_getD, List.getElem?_set, h]

theorem getD_set_ne {α : Type} (l : List α) (i m : Nat) (a d : α) (h : i ≠ m) :
    (l.set i a).getD m d = l.getD m d := by
  simp [List.getD_eq_getElem?_getD, List.getElem?_set, h]

theorem moveBack_getD (k j : Nat) (cands : List (List Nat)) (cs : List Int)
    (hk1 : k < cands.length) (hk2 : k < cs.length) (m : Nat) :
    (moveBack k j cands cs).1.getD m []
        = (if j < m ∧ m ≤ k then cands.getD (m - 1) [] else cands.getD m [])
      ∧ (moveBack k j cands cs).2.getD m 0
        = (if j < m ∧ m ≤ k then cs.getD (m - 1) 0 else cs.getD m 0) := by
  induction k generalizing cands cs with
  | zero =>
    have : ¬ (j < m ∧ m ≤ 0) := by omega
    unfold moveBack
    simp only [this, if_false, and_self]
  | succ k ih =>
    unfold moveBack
    by_cases hj : j < k + 1
    · simp only [hj, if_true]
      have h1 := ih (cands.set (k + 1) (cands.getD k [])) (cs.set (k + 1) (cs.getD k 0))
        (by simp; omega) (by simp; omega)
      rw [h1.1, h1.2]
      by_cases hm : j < m ∧ m ≤ k
      · have hm2 : j < m ∧ m ≤ k + 1 := ⟨hm.1, by omega⟩
        simp only [hm, hm2, and_self, if_true]
        rw [getD_set_ne _ _ _ _ _ (by omega), getD_set_ne _ _ _ _ _ (by omega)]
        simp
      · simp only [hm, if_false]
        by_cases hmk : m = k + 1
        · subst hmk
          have hm2 : j < k + 1 ∧ k + 1 ≤ k + 1 := ⟨hj, le_refl _⟩
          simp only [hm2, and_self, if_true, Nat.add_sub_cancel]
          rw [getD_set_eq _ _ _ _ hk1, getD_set_eq _ _ _ _ hk2]
          simp
        · have hm2 : ¬ (j < m ∧ m ≤ k + 1) := by omega
          simp only [hm2, if_false]
          rw [getD_set_ne _ _ _ _ _ (Ne.symm hmk), getD_set_ne _ _ _ _ _ (Ne.symm hmk)]
          simp
    · have hm2 : ¬ (j < m ∧ m ≤ k + 1) := by omega
      simp [hj, hm2]

theorem scanRanks_spec (tol : Nat) (s : Int) (i : Nat) (Q : List Nat → Int → Prop)
    (happ : ∀ l, Q l s → Q (l ++ [i]) s) (hnew : Q [i] s) (r : Nat) :
    ∀ (j : Nat) (cands : List (List Nat)) (cs : List Int), j + r = tol + 1 →
      cands.length = tol + 1 → cs.length = tol + 1 →
      (scanRanks tol s i r j cands cs).1.length = tol + 1
      ∧ (scanRanks tol s i r j cands cs).2.length = tol + 1
      ∧ (Slots tol Q cands cs →
          Slots tol Q (scanRanks tol s i r j cands cs).1 (scanRanks tol s i r j cands cs).2)
      ∧ (scanRanks tol s i r j cands cs).2.getD 0 0 ≤ cs.getD 0 0
      ∧ ((j = 0 ∨ cs.getD 0 0 < s) → (scanRanks tol s i r j cands cs).2.getD 0 0 ≤ s) := by
  induction r with
  | zero =>
    intro j cands cs hj hl1 hl2
    refine ⟨by simpa [scanRanks] using hl1, by simpa [scanRanks] using hl2, ?_, ?_, ?_⟩
    · intro hp; simpa [scanRanks] using hp
    · simp [scanRanks]
    · rintro (h | h)
      · omega
      · simpa [scanRanks] using le_of_lt h
  | succ r ih =>
    intro j cands cs hj hl1 hl2
    have hjt : j < tol + 1 := by omega
    unfold scanRanks
    by_cases heq : s = cs.getD j 0
    · simp only [← heq, if_true]
      refine ⟨by simpa using hl1, hl2, ?_, ?_, ?_⟩
      · intro hp m hm
        by_cases hmj : m = j
        · subst hmj
          rw [getD_set_eq _ _ _ _ (by omega)]
          have := hp m hm
          rw [← heq] at this ⊢
          exact happ _ this
        · rw [getD_set_ne _ _ _ _ _ (Ne.symm hmj)]
          exact hp m hm
      · exact le_refl _
      · rintro (h | h)
        · subst h; exact le_of_eq heq.symm
        · exact le_of_lt h
    · simp only [heq, if_false]
      by_cases hlt : s < cs.getD j 0
      · simp only [hlt, if_true]
        have hlen := moveBack_length tol j (cands.set tol []) cs
        have hget := moveBack_getD tol j (cands.set tol []) cs (by simp; omega) (by omega)
        refine ⟨by simp [hlen.1, hl1], by simp [hlen.2, hl2], ?_, ?_, ?_⟩
        · intro hp m hm
          by_cases hmj : m = j
          · subst hmj
            rw [getD_set_eq _ _ _ _ (by simp [hlen.1, hl1]; omega)]
            rw [getD_set_eq _ _ _ _ (by simp [hlen.2, hl2]; omega)]
            exact hnew
          · rw [getD_set_ne _ _ _ _ _ (Ne.symm hmj), getD_set_ne _ _ _ _ _ (Ne.symm hmj),
              (hget m).1]
            rw [getD_set_ne _ _ _ _ _ (Ne.symm hmj), (hget m).2]
            by_cases hc : j < m ∧ m ≤ tol
            · simp only [hc, and_self, if_true]
              rw [getD_set_ne _ _ _ _ _ (by omega)]
              exact hp (m - 1) (by omega)
            · simp only [hc, if_false]
              rw [getD_set_ne _ _ _ _ _ (by omega)]
              exact hp m hm
        · by_cases hj0 : j = 0
          · subst hj0
            rw [getD_set_eq _ _ _ _ (by simp [hlen.2, hl2])]
            exact le_of_lt hlt
          · rw [getD_set_ne _ _ _ _ _ hj0, (hget 0).2]
            simp
        · rintro (h | h)
          · subst h
            rw [getD_set_eq _ _ _ _ (by simp [hlen.2, hl2])]
          · by_cases hj0 : j = 0
            · subst hj0
              rw [getD_set_eq _ _ _ _ (by simp [hlen.2, hl2])]
            · rw [getD_set_ne _ _ _ _ _ hj0, (hget 0).2]
              simpa using le_of_lt h
      · simp only [hlt, if_false]
        obtain ⟨h1, h2, h3, h4, h5⟩ := ih (j + 1) cands cs (by omega) hl1 hl2
        refine ⟨h1, h2, h3, h4, ?_⟩
        rintro (h | h)
        · subst h
          apply h5
          right
          omega
        · exact h5 (Or.inr h)

theorem getD_replicate_lt {α : Type} (n m : Nat) (a d : α) (h : m < n) :
    (List.replicate n a).getD m d = a := by
  simp [List.getD_eq_getElem?_getD, List.getElem?_replicate, h]

theorem ScanInv.clear (tol : Nat) (sc : List Int) : ScanInv tol sc [] (Cands.clear tol) := by
  refine ⟨by simp [Cands.clear], by simp [Cands.clear], by simp [Cands.clear], ?_, ?_, ?_⟩
  · intro m hm
    simp only [Cands.clear]
    rw [getD_replicate_lt _ _ _ _ hm, getD_replicate_lt _ _ _ _ hm]
    simp
  · intro x hx; simp at hx
  · simp only [Cands.clear]
    rw [getD_replicate_lt _ _ _ _ (Nat.succ_pos _)]

theorem ScanInv.scanNode {tol : Nat} {sc : List Int} {pre : List Nat} {c : Cands}
    (h : ScanInv tol sc pre c) (i : Nat) (hle : sc.getD i 0 ≤ INT_MAX) :
    ScanInv tol sc (pre ++ [i]) (scanNode tol sc c i) := by
  have hmono : ∀ (l : List Nat) (v : Int),
      ((∀ x ∈ l, x ∈ pre ∧ sc.getD x 0 ≠ 0 ∧ sc.getD x 0 = v) ∧ (v ≠ INT_MAX → l ≠ [])) →
      ((∀ x ∈ l, x ∈ pre ++ [i] ∧ sc.getD x 0 ≠ 0 ∧ sc.getD x 0 = v)
        ∧ (v ≠ INT_MAX → l ≠ [])) := by
    intro l v hl
    exact ⟨fun x hx => ⟨List.mem_append_left _ (hl.1 x hx).1, (hl.1 x hx).2⟩, hl.2⟩
  have hslots : Slots tol
      (fun l v => (∀ x ∈ l, x ∈ pre ++ [i] ∧ sc.getD x 0 ≠ 0 ∧ sc.getD x 0 = v)
        ∧ (v ≠ INT_MAX → l ≠ [])) c.candidates c.candScore :=
    fun m hm => hmono _ _ (h.slots m hm)
  unfold daoopt.scanNode
  by_cases h0 : sc.getD i 0 = 0
  · simp only [h0, if_true]
    have h0' : sc[i]?.getD 0 = 0 := by simpa [List.getD_eq_getElem?_getD] using h0
    refine ⟨h.len1, h.len2, ?_, hslots, ?_, h.le⟩
    · simp [h.simp, List.filter_append, h0']
    · intro x hx hx0
      rcases List.mem_append.1 hx with hx | hx
      · exact h.minScore x hx hx0
      · simp only [List.mem_singleton] at hx
        subst hx
        exact absurd h0 hx0
  · simp only [h0, if_false]
    have h0' : ¬ sc[i]?.getD 0 = 0 := by simpa [List.getD_eq_getElem?_getD] using h0
    have hsimp : c.simplicial = (pre ++ [i]).filter (fun x => decide (sc.getD x 0 = 0)) := by
      simp [h.simp, List.filter_append, h0']
    have hnew : (∀ x ∈ [i], x ∈ pre ++ [i] ∧ sc.getD x 0 ≠ 0 ∧ sc.getD x 0 = sc.getD i 0)
        ∧ (sc.getD i 0 ≠ INT_MAX → [i] ≠ []) := by
      refine ⟨?_, fun _ => by simp⟩
      intro x hx
      simp only [List.mem_singleton] at hx
      subst hx
      exact ⟨by simp, h0, rfl⟩
    have happ : ∀ l, ((∀ x ∈ l, x ∈ pre ++ [i] ∧ sc.getD x 0 ≠ 0 ∧ sc.getD x 0 = sc.getD i 0)
        ∧ (sc.getD i 0 ≠ INT_MAX → l ≠ [])) →
        ((∀ x ∈ l ++ [i], x ∈ pre ++ [i] ∧ sc.getD x 0 ≠ 0 ∧ sc.getD x 0 = sc.getD i 0)
        ∧ (sc.getD i 0 ≠ INT_MAX → l ++ [i] ≠ [])) := by
      intro l hl
      refine ⟨?_, fun _ => by simp⟩
      intro x hx
      rcases List.mem_append.1 hx with hx | hx
      · exact hl.1 x hx
      · exact hnew.1 x hx
    by_cases ht : tol = 0
    · subst ht
      simp only [if_true]
      by_cases heq : sc.getD i 0 = c.candScore.getD 0 0
      · simp only [heq, if_true]
        refine ⟨by simpa using h.len1, h.len2, hsimp, ?_, ?_, h.le⟩
        · intro m hm
          have hm0 : m = 0 := by omega
          subst hm0
          rw [getD_set_eq _ _ _ _ (by rw [h.len1]; omega)]
          have := happ _ (by rw [heq]; exact hslots 0 hm)
          rw [heq] at this
          exact this
        · intro x hx hx0
          rcases List.mem_append.1 hx with hx | hx
          · exact h.minScore x hx hx0
          · simp only [List.mem_singleton] at hx
            subst hx
            exact le_of_eq heq.symm
      · simp only [heq, if_false]
        by_cases hlt : sc.getD i 0 < c.candScore.getD 0 0
        · simp only [hlt, if_true]
          refine ⟨by simpa using h.len1, by simpa using h.len2, hsimp, ?_, ?_, ?_⟩
          · intro m hm
            have hm0 : m = 0 := by omega
            subst hm0
            rw [getD_set_eq _ _ _ _ (by simp [h.len1]),
              getD_set_eq _ _ _ _ (by simp [h.len2])]
            exact hnew
          · intro x hx hx0
            rw [getD_set_eq _ _ _ _ (by simp [h.len2])]
            rcases List.mem_append.1 hx with hx | hx
            · exact le_trans (le_of_lt hlt) (h.minScore x hx hx0)
            · simp only [List.mem_singleton] at hx
              subst hx
              exact le_refl _
          · rw [getD_set_eq _ _ _ _ (by simp [h.len2])]
            exact hle
        · simp only [hlt, if_false]
          refine ⟨h.len1, h.len2, hsimp, hslots, ?_, h.le⟩
          intro x hx hx0
          rcases List.mem_append.1 hx with hx | hx
          · exact h.minScore x hx hx0
          · simp only [List.mem_singleton] at hx
            subst hx
            omega
    · simp only [ht, if_false]
      obtain ⟨h1, h2, h3, h4, h5⟩ := scanRanks_spec tol (sc.getD i 0) i
        (fun l v => (∀ x ∈ l, x ∈ pre ++ [i] ∧ sc.getD x 0 ≠ 0 ∧ sc.getD x 0 = v)
          ∧ (v ≠ INT_MAX → l ≠ [])) happ hnew (tol + 1) 0
        c.candidates c.candScore (by omega) h.len1 h.len2
      refine ⟨h1, h2, hsimp, h3 hslots, ?_, le_trans h4 h.le⟩
      intro x hx hx0
      rcases List.mem_append.1 hx with hx | hx
      · exact le_trans h4 (h.minScore x hx hx0)
      · simp only [List.mem_singleton] at hx
        subst hx
        exact h5 (Or.inl rfl)

theorem ScanInv.foldl {tol : Nat} {sc : List Int} (hle : ∀ i, sc.getD i 0 ≤ INT_MAX)
    (L : List Nat) : ∀ (pre : List Nat) (c : Cands), ScanInv tol sc pre c →
      ScanInv tol sc (pre ++ L) (L.foldl (daoopt.scanNode tol sc) c) := by
  induction L with
  | nil => intro pre c h; simpa using h
  | cons i L ih =>
    intro pre c h
    have := ih (pre ++ [i]) _ (h.scanNode i (hle i))
    simpa using this

theorem scan_spec (n tol : Nat) (sc : List Int) (hle : ∀ i, sc.getD i 0 ≤ INT_MAX) :
    ScanInv tol sc (List.range n) (scan n tol sc) := by
  have := ScanInv.foldl hle (List.range n) [] _ (ScanInv.clear tol sc)
  simpa [scan] using this

/-! ## One elimination -/

theorem countMissing_le (G : Graph) (S : List Nat) :
    G.countMissing S + S.length ≤ S.length * S.length := by
  induction S with
  | nil => simp [Graph.countMissing]
  | cons a rest ih =>
    have h1 : G.countMissingFrom a rest ≤ rest.length := by
      unfold Graph.countMissingFrom
      exact List.length_filter_le _ _
    simp only [Graph.countMissing, List.length_cons]
    nlinarith

theorem nodup_length_le {S : List Nat} {n : Nat} (hS : S.Nodup) (hlt : ∀ x ∈ S, x < n) :
    S.length ≤ n := by
  have h1 : S.toFinset ⊆ Finset.range n := by
    intro x hx
    simp only [List.mem_toFinset] at hx
    exact Finset.mem_range.2 (hlt x hx)
  have h2 := Finset.card_le_card h1
  rw [List.toFinset_card_of_nodup hS, Finset.card_range] at h2
  exact h2

theorem scoreMinfill_lt {G : Graph} {n : Nat} (hrep : G.Rep) (hs : G.Simple)
    (hnodes : ∀ k, G.hasNode k = true → k < n) (hn : (n : Int) * n ≤ INT_MAX) (i : Nat) :
    0 ≤ G.scoreMinfill i ∧ G.scoreMinfill i < INT_MAX := by
  unfold Graph.scoreMinfill
  cases h : mapFind G.m_neighbors i with
  | none => simp [INT_MAX]
  | some S =>
    have hS : G.getNeighbors i = some S := h
    have hnd := hrep.setsNodup i S hS
    have hlt : ∀ x ∈ S, x < n := by
      intro x hx
      exact hnodes x (Graph.adj_hasNode (hs.sym i x ⟨S, hS, hx⟩))
    have hlen := nodup_length_le hnd hlt
    have hc := countMissing_le G S
    simp only
    constructor
    · exact Int.natCast_nonneg _
    · by_cases h0 : S.length = 0
      · have : G.countMissing S = 0 := by
          have : S = [] := List.length_eq_zero.1 h0
          subst this
          simp [Graph.countMissing]
        rw [this]
        simp [INT_MAX]
      · have h3 : S.length * S.length ≤ n * n := Nat.mul_le_mul hlen hlen
        have h4 : (G.countMissing S : Int) + 1 ≤ (n : Int) * n := by
          have : G.countMissing S + 1 ≤ n * n := by omega
          exact_mod_cast this
        omega

theorem foldl_set_length {α : Type} (f : Nat → α) (upd : List Nat) (sc : List α) :
    (upd.foldl (fun s it => s.set it (f it)) sc).length = sc.length := by
  induction upd generalizing sc with
  | nil => simp
  | cons a upd ih => simp [ih]

theorem foldl_set_getD {α : Type} (f : Nat → α) (d : α) (upd : List Nat) (sc : List α)
    (k : Nat) :
    (upd.foldl (fun s it => s.set it (f it)) sc).getD k d
      = if k ∈ upd ∧ k < sc.length then f k else sc.getD k d := by
  induction upd generalizing sc with
  | nil => simp
  | cons a upd ih =>
    rw [List.foldl_cons, ih]
    simp only [List.length_set, List.mem_cons]
    by_cases hk : k ∈ upd ∧ k < sc.length
    · have : (k = a ∨ k ∈ upd) ∧ k < sc.length := ⟨Or.inr hk.1, hk.2⟩
      simp [hk, this]
    · simp only [hk, if_false]
      by_cases hka : k = a
      · subst hka
        by_cases hlen : k < sc.length
        · simp [hlen, getD_set_eq _ _ _ _ hlen]
        · simp only [hlen, and_false, if_false]
          have hnone : sc[k]? = none := List.getElem?_eq_none (by omega)
          simp [List.getD_eq_getElem?_getD, List.getElem?_set, hlen, hnone]
      · have : ¬ ((k = a ∨ k ∈ upd) ∧ k < sc.length) := by tauto
        simp only [this, if_false]
        exact getD_set_ne _ _ _ _ _ (Ne.symm hka)

theorem mem_updateCand (G : Graph) (N : List Nat) (v x : Nat) :
    x ∈ updateCand G N v
      ↔ x ≠ v ∧ (x ∈ N ∨ ∃ a ∈ N, x ∈ (G.getNeighbors a).getD []) := by
  unfold updateCand
  rw [mem_setErase]
  have key : ∀ (L : List Nat) (acc : List Nat),
      x ∈ L.foldl (fun acc it => setInsertAll ((G.getNeighbors it).getD []) acc) acc
        ↔ x ∈ acc ∨ ∃ a ∈ L, x ∈ (G.getNeighbors a).getD [] := by
    intro L
    induction L with
    | nil => intro acc; simp
    | cons b L ih =>
      intro acc
      rw [List.foldl_cons, ih, mem_setInsertAll]
      simp only [List.mem_cons, exists_eq_or_imp]
      tauto
  rw [key, mem_setInsertAll]
  simp only [List.not_mem_nil, or_false]
  tauto

theorem ElimInv.removeSimplicial {n : Nat} {st : ElimState} (h : ElimInv n st) (v : Nat)
    (hv : st.G.hasNode v = true) (w : Int) :
    ElimInv n { st with elim := st.elim ++ [v], width := w, G := st.G.removeNode v,
                        scores := st.scores.set v INT_MAX } := by
  have hvn := (h.nodes v).1 hv
  refine ⟨Graph.rep_removeNode h.rep v, Graph.simple_removeNode h.simple v, ?_, ?_, ?_, ?_, ?_, ?_⟩
  · intro k
    simp only [Graph.hasNode_removeNode, h.nodes k, List.mem_append, List.mem_singleton]
    tauto
  · exact List.Nodup.append h.elimNodup (List.nodup_singleton v)
      (by simpa [List.disjoint_singleton] using hvn.2)
  · intro k hk
    rcases List.mem_append.1 hk with hk | hk
    · exact h.elimLt k hk
    · simp only [List.mem_singleton] at hk
      subst hk
      exact hvn.1
  · simpa using h.scoresLen
  · intro k hk
    by_cases hkv : k = v
    · subst hkv
      exact getD_set_eq _ _ _ _ (by rw [h.scoresLen]; exact hvn.1)
    · simp only
      rw [getD_set_ne _ _ _ _ _ (Ne.symm hkv)]
      rcases List.mem_append.1 hk with hk | hk
      · exact h.scoreDead k hk
      · simp only [List.mem_singleton] at hk
        exact absurd hk hkv
  · intro k hk
    simp only [Graph.hasNode_removeNode] at hk
    simp only
    rw [getD_set_ne _ _ _ _ _ (Ne.symm hk.2)]
    exact h.scoreLive k hk.1

theorem ElimInv.eliminateNode {n : Nat} {st : ElimState} (h : ElimInv n st)
    (hn : (n : Int) * n ≤ INT_MAX) (v : Nat) (N : List Nat)
    (hN : st.G.getNeighbors v = some N) (w : Int) :
    ElimInv n (eliminateNode st v N w) := by
  have hv : st.G.hasNode v = true := (st.G.hasNode_iff v).2 ⟨N, hN⟩
  have hvn := (h.nodes v).1 hv
  have hNnd := h.rep.setsNodup v N hN
  have hNnode : ∀ x ∈ N, st.G.hasNode x = true :=
    fun x hx => Graph.adj_hasNode (h.simple.sym v x ⟨N, hN, hx⟩)
  have hrep2 : ((st.G.addClique N).removeNode v).Rep := Graph.rep_removeNode (Graph.rep_addClique N h.rep) v
  have hsim1 : (st.G.addClique N).Simple := Graph.simple_addClique h.simple N hNnd
  have hsim2 : ((st.G.addClique N).removeNode v).Simple := Graph.simple_removeNode hsim1 v
  have hnode1 : ∀ k, (st.G.addClique N).hasNode k = true ↔ st.G.hasNode k = true := by
    intro k
    rw [Graph.hasNode_addClique]
    constructor
    · rintro (hk | hk)
      · exact hk
      · exact hNnode k hk
    · exact Or.inl
  have hnode2 : ∀ k, ((st.G.addClique N).removeNode v).hasNode k = true
      ↔ (k < n ∧ k ∉ st.elim ++ [v]) := by
    intro k
    simp only [Graph.hasNode_removeNode, hnode1, h.nodes k, List.mem_append,
      List.mem_singleton]
    tauto
  have hupd : ∀ x ∈ updateCand (st.G.addClique N) N v,
      ((st.G.addClique N).removeNode v).hasNode x = true := by
    intro x hx
    rw [mem_updateCand] at hx
    rw [Graph.hasNode_removeNode, hnode1]
    refine ⟨?_, hx.1⟩
    rcases hx.2 with hx2 | ⟨a, ha, hx2⟩
    · exact hNnode x hx2
    · cases hga : (st.G.addClique N).getNeighbors a with
      | none => simp [hga] at hx2
      | some T =>
        simp only [hga, Option.getD_some] at hx2
        exact (hnode1 x).1 (Graph.adj_hasNode (hsim1.sym a x ⟨T, hga, hx2⟩))
  have hlt2 := fun i => scoreMinfill_lt hrep2 hsim2 (fun k hk => ((hnode2 k).1 hk).1) hn i
  refine ⟨hrep2, hsim2, hnode2, ?_, ?_, ?_, ?_, ?_⟩
  · exact List.Nodup.append h.elimNodup (List.nodup_singleton v)
      (by simpa [List.disjoint_singleton] using hvn.2)
  · intro k hk
    rcases List.mem_append.1 hk with hk | hk
    · exact h.elimLt k hk
    · simp only [List.mem_singleton] at hk
      subst hk
      exact hvn.1
  · simp only [daoopt.eliminateNode]
    rw [foldl_set_length]
    simpa using h.scoresLen
  · intro k hk
    simp only [daoopt.eliminateNode]
    rw [foldl_set_getD]
    have hnot : ¬ (k ∈ updateCand (st.G.addClique N) N v
        ∧ k < (st.scores.set v INT_MAX).length) := by
      intro hc
      have := (hnode2 k).1 (hupd k hc.1)
      exact this.2 hk
    simp only [hnot, if_false]
    by_cases hkv : k = v
    · subst hkv
      exact getD_set_eq _ _ _ _ (by rw [h.scoresLen]; exact hvn.1)
    · rw [getD_set_ne _ _ _ _ _ (Ne.symm hkv)]
      rcases List.mem_append.1 hk with hk | hk
      · exact h.scoreDead k hk
      · simp only [List.mem_singleton] at hk
        exact absurd hk hkv
  · intro k hk
    have hk2 := (Graph.hasNode_removeNode _ _ _).1 hk
    simp only [daoopt.eliminateNode]
    rw [foldl_set_getD]
    split
    · exact (hlt2 k).2
    · rw [getD_set_ne _ _ _ _ _ (Ne.symm hk2.2)]
      exact h.scoreLive k ((hnode1 k).1 hk2.1)

/-! ## The phases of the loop body -/

/-- A proof rule for the loop over the simplicial nodes: `R rest st` holds of the nodes
still to eliminate and the variables. -/
theorem elimSimplicial_rule (R : List Nat → ElimState → Prop)
    (hlive : ∀ v rest st, R (v :: rest) st → st.G.hasNode v = true)
    (hstep : ∀ v rest st N, R (v :: rest) st → st.G.getNeighbors v = some N →
      R rest { st with elim := st.elim ++ [v], width := max st.width (N.length : Int),
                       G := st.G.removeNode v, scores := st.scores.set v INT_MAX }) :
    ∀ (L : List Nat) (st : ElimState), R L st →
      ∃ st1, elimSimplicial L st = some st1 ∧ R [] st1 := by
  intro L
  induction L with
  | nil => intro st h; exact ⟨st, rfl, h⟩
  | cons v rest ih =>
    intro st h
    obtain ⟨N, hN⟩ := (st.G.hasNode_iff v).1 (hlive v rest st h)
    obtain ⟨st1, h1, h2⟩ := ih _ (hstep v rest st N h hN)
    refine ⟨st1, ?_, h2⟩
    simp only [elimSimplicial, hN]
    exact h1

theorem pickRank_spec : ∀ (cands : List (List Nat)) (cs : List Int) (choice : Nat),
    choice < candTotal cands cs →
    ∃ v m, pickRank cands choice = some v ∧ m < cands.length ∧ m < cs.length
      ∧ v ∈ cands.getD m [] ∧ cs.getD m 0 ≠ INT_MAX := by
  intro cands
  induction cands with
  | nil => intro cs choice h; simp [candTotal] at h
  | cons c cands ih =>
    intro cs choice h
    cases cs with
    | nil => simp [candTotal] at h
    | cons s cs =>
      simp only [candTotal] at h
      by_cases hs : s = INT_MAX
      · simp [hs] at h
      · simp only [hs, if_false] at h
        by_cases hc : choice < c.length
        · refine ⟨c.get ⟨choice, hc⟩, 0, ?_, by simp, by simp, ?_, ?_⟩
          · simp [pickRank, hc, List.get?_eq_get]
          · simp
          · simp [hs]
        · obtain ⟨v, m, h1, h2, h3, h4, h5⟩ := ih cs (choice - c.length) (by omega)
          refine ⟨v, m + 1, ?_, by simpa using h2, by simpa using h3, ?_, ?_⟩
          · simp [pickRank, hc, h1]
          · simpa using h4
          · simpa using h5

theorem pickNext_spec {tol n : Nat} {sc : List Int} {c : Cands}
    (hc : ScanInv tol sc (List.range n) c) (h0 : c.candScore.getD 0 0 ≠ INT_MAX)
    (r : Nat) (old : Option Nat) :
    ∃ v m, pickNext tol c r old = some (some v) ∧ m < tol + 1
      ∧ v ∈ c.candidates.getD m [] ∧ c.candScore.getD m 0 ≠ INT_MAX
      ∧ (tol = 0 → m = 0) := by
  have hne : c.candidates.getD 0 [] ≠ [] := (hc.slots 0 (Nat.succ_pos _)).2 h0
  unfold pickNext
  by_cases ht : tol = 0
  · simp only [ht, if_true]
    have hlen : 0 < (c.candidates.getD 0 []).length := List.length_pos.2 hne
    have hlt : randNext r (c.candidates.getD 0 []).length < (c.candidates.getD 0 []).length :=
      Nat.mod_lt _ hlen
    refine ⟨(c.candidates.getD 0 []).get ⟨_, hlt⟩, 0, ?_, by omega, List.get_mem _ _ _, h0,
      fun _ => rfl⟩
    rw [List.get?_eq_get hlt]
  · simp only [ht, if_false]
    have hpos : 0 < candTotal c.candidates c.candScore := by
      have h1 := hc.len1
      have h2 := hc.len2
      cases hcc : c.candidates with
      | nil => rw [hcc] at h1; simp at h1
      | cons l ls =>
        cases hss : c.candScore with
        | nil => rw [hss] at h2; simp at h2
        | cons s ss =>
          rw [hcc] at hne
          rw [hss] at h0
          simp only [List.getD_cons_zero] at hne h0
          simp only [candTotal, h0, if_false]
          have := List.length_pos.2 hne
          omega
    have hpos2 : candTotal c.candidates c.candScore ≠ 0 := by omega
    simp only [hpos2, if_false]
    obtain ⟨v, m, h1, h2, h3, h4, h5⟩ := pickRank_spec c.candidates c.candScore
      (randNext r (candTotal c.candidates c.candScore)) (Nat.mod_lt _ hpos)
    refine ⟨v, m, ?_, by rw [hc.len1] at h2; exact h2, h4, h5, fun h => h.elim⟩
    simp [h1]

theorem ElimInv.score_le {n : Nat} {st : ElimState} (h : ElimInv n st) (i : Nat) :
    st.scores.getD i 0 ≤ INT_MAX := by
  by_cases hi : i < n
  · by_cases he : i ∈ st.elim
    · exact le_of_eq (h.scoreDead i he)
    · exact le_of_lt (h.scoreLive i ((h.nodes i).2 ⟨hi, he⟩))
  · have hnone : st.scores[i]? = none := List.getElem?_eq_none (by rw [h.scoresLen]; omega)
    simp [List.getD_eq_getElem?_getD, hnone, INT_MAX]

theorem mem_simplicial {n tol : Nat} {sc : List Int} {c : Cands}
    (hc : ScanInv tol sc (List.range n) c) (x : Nat) :
    x ∈ c.simplicial ↔ x < n ∧ sc.getD x 0 = 0 := by
  rw [hc.simp]
  simp [List.mem_filter]

/-- The loop over the simplicial nodes keeps the loop invariant, appends the simplicial
nodes to the order, and keeps whatever `R` a single removal keeps. -/
theorem simplicial_phase {n : Nat} (tol : Nat) {st : ElimState} (h : ElimInv n st)
    (R : List Nat → ElimState → Prop)
    (hstep : ∀ v rest st2 N, ElimInv n st2 → R (v :: rest) st2 →
      st2.G.getNeighbors v = some N →
      R rest { st2 with elim := st2.elim ++ [v], width := max st2.width (N.length : Int),
                        G := st2.G.removeNode v, scores := st2.scores.set v INT_MAX })
    (h0 : R (scan n tol st.scores).simplicial st) :
    ∃ st1, elimSimplicial (scan n tol st.scores).simplicial st = some st1
      ∧ ElimInv n st1 ∧ st1.elim = st.elim ++ (scan n tol st.scores).simplicial
      ∧ st1.nextNode = st.nextNode ∧ st1.draws = st.draws ∧ R [] st1 := by
  have hc := scan_spec n tol st.scores h.score_le
  have hnd : (scan n tol st.scores).simplicial.Nodup := by
    rw [hc.simp]
    exact (List.nodup_range n).filter _
  have hlive : ∀ v ∈ (scan n tol st.scores).simplicial, st.G.hasNode v = true := by
    intro v hv
    have hv2 := (mem_simplicial hc v).1 hv
    refine (h.nodes v).2 ⟨hv2.1, fun he => ?_⟩
    have := h.scoreDead v he
    rw [hv2.2] at this
    simp [INT_MAX] at this
  obtain ⟨st1, h1, h2⟩ := elimSimplicial_rule
    (fun rest st2 => ElimInv n st2 ∧ rest.Nodup ∧ (∀ v ∈ rest, st2.G.hasNode v = true)
      ∧ (∃ pre, pre ++ rest = (scan n tol st.scores).simplicial ∧ st2.elim = st.elim ++ pre)
      ∧ st2.nextNode = st.nextNode ∧ st2.draws = st.draws ∧ R rest st2)
    (fun v rest st2 hR => hR.2.2.1 v (List.mem_cons_self v rest))
    (by
      intro v rest st2 N hR hN
      obtain ⟨hinv, hnd2, hl, ⟨pre, hpre, hel⟩, hnn, hdr, hr⟩ := hR
      have hvl := hl v (List.mem_cons_self v rest)
      refine ⟨hinv.removeSimplicial v hvl _, (List.nodup_cons.1 hnd2).2, ?_, ?_, hnn, hdr,
        hstep v rest st2 N hinv hr hN⟩
      · intro x hx
        rw [Graph.hasNode_removeNode]
        refine ⟨hl x (List.mem_cons_of_mem v hx), fun e => ?_⟩
        subst e
        exact (List.nodup_cons.1 hnd2).1 hx
      · refine ⟨pre ++ [v], by simpa using hpre, ?_⟩
        simp [hel])
    (scan n tol st.scores).simplicial st
    ⟨h, hnd, hlive, ⟨[], by simp, by simp⟩, rfl, rfl, h0⟩
  obtain ⟨hinv, _, _, ⟨pre, hpre, hel⟩, hnn, hdr, hr⟩ := h2
  simp only [List.append_nil] at hpre
  subst hpre
  exact ⟨st1, h1, hinv, hel, hnn, hdr, hr⟩

/-- How the body of the loop ends, once the simplicial nodes are gone. -/
theorem eliminateBody_after {n tol : Nat} (limit : Int) (rnd : Nat → Nat)
    {st st1 : ElimState} (h : ElimInv n st) (h1 : ElimInv n st1)
    (hs : elimSimplicial (scan n tol st.scores).simplicial st = some st1)
    (hel : st1.elim = st.elim ++ (scan n tol st.scores).simplicial) :
    ((scan n tol st.scores).candScore.getD 0 0 = INT_MAX
        ∧ (∀ k, k < n → k ∈ st1.elim)
        ∧ eliminateBody n tol limit rnd st = ElimStep.done ⟨st1.width, st1.elim⟩)
    ∨ ((scan n tol st.scores).candScore.getD 0 0 ≠ INT_MAX ∧ ∃ v N m,
        pickNext tol (scan n tol st.scores) (rnd st1.draws) st1.nextNode = some (some v)
        ∧ m < tol + 1 ∧ v ∈ (scan n tol st.scores).candidates.getD m []
        ∧ (tol = 0 → m = 0)
        ∧ st1.G.getNeighbors v = some N
        ∧ ((max st1.width (N.length : Int) > limit
            ∧ eliminateBody n tol limit rnd st = ElimStep.done ⟨INT_MAX, st1.elim ++ [v]⟩)
          ∨ (¬ max st1.width (N.length : Int) > limit
            ∧ eliminateBody n tol limit rnd st
              = ElimStep.next (eliminateNode st1 v N (max st1.width (N.length : Int)))))) := by
  have hc := scan_spec n tol st.scores h.score_le
  by_cases h0 : (scan n tol st.scores).candScore.getD 0 0 = INT_MAX
  · left
    refine ⟨h0, ?_, ?_⟩
    · intro k hk
      rw [hel]
      by_cases he : k ∈ st.elim
      · exact List.mem_append_left _ he
      · apply List.mem_append_right
        rw [mem_simplicial hc]
        refine ⟨hk, ?_⟩
        by_contra hne
        have hmin := hc.minScore k (List.mem_range.2 hk) hne
        rw [h0] at hmin
        have := h.scoreLive k ((h.nodes k).2 ⟨hk, he⟩)
        omega
    · simp only [eliminateBody, hs, h0, if_true]
  · right
    refine ⟨h0, ?_⟩
    obtain ⟨v, m, hp, hm, hv, hsm, htm⟩ := pickNext_spec hc h0 (rnd st1.draws) st1.nextNode
    obtain ⟨hv1, hv2⟩ := (hc.slots m hm).1 v hv
    have hvn : v < n := List.mem_range.1 hv1
    have hvlive : st1.G.hasNode v = true := by
      refine (h1.nodes v).2 ⟨hvn, ?_⟩
      rw [hel]
      intro hmem
      rcases List.mem_append.1 hmem with hmem | hmem
      · have := h.scoreDead v hmem
        rw [hv2.2] at this
        exact hsm this
      · exact hv2.1 ((mem_simplicial hc v).1 hmem).2
    obtain ⟨N, hN⟩ := (st1.G.hasNode_iff v).1 hvlive
    refine ⟨v, N, m, hp, hm, hv, htm, hN, ?_⟩
    by_cases hw : max st1.width (N.length : Int) > limit
    · left
      refine ⟨hw, ?_⟩
      simp only [eliminateBody, hs, h0, hp, hN, hw, if_false, if_true]
    · right
      refine ⟨hw, ?_⟩
      simp only [eliminateBody, hs, h0, hp, hN, hw, if_false]

/-- A proof rule for the `while` loop: an invariant `I` that every pass keeps, with the
order growing in every pass, gives the postcondition `Q` of every `return`. -/
theorem eliminateLoop_rule (n tol : Nat) (limit : Int) (rnd : Nat → Nat)
    (I : ElimState → Prop) (Q : ElimResult → Prop)
    (hlen : ∀ st, I st → st.elim.length ≤ n)
    (hexit : ∀ st, I st → st.G.getStatNodes = 0 → Q ⟨st.width, st.elim⟩)
    (hbody : ∀ st, I st → st.G.getStatNodes ≠ 0 →
      match eliminateBody n tol limit rnd st with
      | ElimStep.done r => Q r
      | ElimStep.next st2 => I st2 ∧ st.elim.length < st2.elim.length
      | ElimStep.fail => False) :
    ∀ (fuel : Nat) (st : ElimState), I st → n < fuel + st.elim.length →
      ∃ r, eliminateLoop n tol limit rnd fuel st = some r ∧ Q r := by
  intro fuel
  induction fuel with
  | zero =>
    intro st hI hf
    have := hlen st hI
    omega
  | succ fuel ih =>
    intro st hI hf
    unfold eliminateLoop
    by_cases h0 : st.G.getStatNodes = 0
    · simp only [h0, if_true]
      exact ⟨_, rfl, hexit st hI h0⟩
    · simp only [h0, if_false]
      have hb := hbody st hI h0
      cases hbd : eliminateBody n tol limit rnd st with
      | done r =>
        rw [hbd] at hb
        exact ⟨r, rfl, hb⟩
      | fail => rw [hbd] at hb; exact hb.elim
      | next st2 =>
        rw [hbd] at hb
        simp only
        exact ih st2 hb.1 (by omega)

/-! ## The first pass of `eliminate` -/

theorem keys_length_of_nodesAre {G : Graph} {n : Nat} (hrep : G.Rep) (hnodes : G.NodesAre n) :
    G.m_neighbors.length = n := by
  have hperm : (G.m_neighbors.map Prod.fst).Perm (List.range n) := by
    rw [List.perm_ext_iff_of_nodup hrep.keysNodup (List.nodup_range n)]
    intro k
    rw [← mapFind_isSome_iff, List.mem_range]
    exact hnodes k
  have := hperm.length_eq
  simpa using this

theorem getStatNodes_of_nodesAre {G : Graph} {n : Nat} (hrep : G.Rep)
    (hnodes : G.NodesAre n) : G.getStatNodes.toNat = n := by
  unfold Graph.getStatNodes
  rw [hrep.statNodes, keys_length_of_nodesAre hrep hnodes]
  simp

theorem mem_getNodes (G : Graph) (k : Nat) : k ∈ G.getNodes ↔ G.hasNode k = true := by
  unfold Graph.getNodes Graph.hasNode
  rw [mem_setInsertAll, mapFind_isSome_iff]
  simp

theorem ElimInv.init {G : Graph} {n : Nat} (hrep : G.Rep) (hsim : G.Simple)
    (hnodes : G.NodesAre n) (hn : (n : Int) * n ≤ INT_MAX) :
    ElimInv n { G := G, scores := initialScores G n [], elim := [], width := UNKNOWN,
                nextNode := none, draws := 0 } := by
  refine ⟨hrep, hsim, ?_, List.nodup_nil, ?_, ?_, ?_, ?_⟩
  · intro k; simpa using hnodes k
  · intro k hk; simp at hk
  · simp [initialScores, foldl_set_length]
  · intro k hk; simp at hk
  · intro k hk
    have hkn := (hnodes k).1 hk
    simp only [initialScores, List.length_nil, ne_eq, not_true_eq_false, if_false]
    rw [foldl_set_getD]
    have : k ∈ G.getNodes ∧ k < (List.replicate n (0 : Int)).length :=
      ⟨(mem_getNodes G k).2 hk, by simpa using hkn⟩
    simp only [this, and_self, if_true]
    exact (scoreMinfill_lt hrep hsim (fun j hj => (hnodes j).1 hj) hn k).2

theorem ElimInv.elim_length_le {n : Nat} {st : ElimState} (h : ElimInv n st) :
    st.elim.length ≤ n :=
  nodup_length_le h.elimNodup h.elimLt

theorem ElimInv.exit_all {n : Nat} {st : ElimState} (h : ElimInv n st)
    (h0 : st.G.getStatNodes = 0) : ∀ k, k < n → k ∈ st.elim := by
  intro k hk
  by_contra hne
  have hnode := (h.nodes k).2 ⟨hk, hne⟩
  have hlen : st.G.m_neighbors.length = 0 := by
    have := h.rep.statNodes
    unfold Graph.getStatNodes at h0
    rw [h0] at this
    exact_mod_cast this.symm
  have hnil : st.G.m_neighbors = [] := List.length_eq_zero.1 hlen
  simp [Graph.hasNode, hnil, mapFind] at hnode

/-! ## The adjacency matrix -/

theorem matrix_index_inj {n i j a b : Nat} (hj : j < n) (hb : b < n)
    (h : i * n + j = a * n + b) : i = a ∧ j = b := by
  have hi : i = a := by
    rcases Nat.lt_trichotomy i a with h1 | h1 | h1
    · have : (i + 1) * n ≤ a * n := Nat.mul_le_mul_right n h1
      rw [Nat.add_mul] at this
      omega
    · exact h1
    · have : (a + 1) * n ≤ i * n := Nat.mul_le_mul_right n h1
      rw [Nat.add_mul] at this
      omega
  subst hi
  exact ⟨rfl, by omega⟩

theorem matrix_index_lt {n i j : Nat} (hi : i < n) (hj : j < n) : i * n + j < n * n := by
  have : (i + 1) * n ≤ n * n := Nat.mul_le_mul_right n hi
  rw [Nat.add_mul] at this
  omega

theorem Graph.matrix_addNode (G : Graph) (i : Nat) :
    (G.addNode i).m_n = G.m_n ∧ (G.addNode i).m_matrix = G.m_matrix := by
  unfold Graph.addNode
  split <;> simp

theorem Graph.matrix_addAdjacency (G : Graph) (i j : Nat) :
    (G.addAdjacency i j).m_n = G.m_n
      ∧ (G.addAdjacency i j).m_matrix = G.m_matrix.set (i * G.m_n + j) true := by
  unfold Graph.addAdjacency
  dsimp only
  split <;> simp [(G.matrix_addNode i).1, (G.matrix_addNode i).2]

theorem Graph.matrix_removeAdjacency (G : Graph) (i j : Nat) :
    (G.removeAdjacency i j).m_n = G.m_n
      ∧ (G.removeAdjacency i j).m_matrix = G.m_matrix.set (i * G.m_n + j) false := by
  unfold Graph.removeAdjacency
  split <;> simp

theorem Graph.matrix_addEdge (G : Graph) (i j : Nat) :
    (G.addEdge i j).m_n = G.m_n
      ∧ (G.addEdge i j).m_matrix
        = (G.m_matrix.set (i * G.m_n + j) true).set (j * G.m_n + i) true := by
  unfold Graph.addEdge
  simp only [Graph.matrix_addAdjacency, and_self]

theorem Graph.hasEdge_addEdge {G : Graph} (hsize : G.m_matrix.length = G.m_n * G.m_n)
    {i j a b : Nat} (_hi : i < G.m_n) (hj : j < G.m_n) (ha : a < G.m_n) (hb : b < G.m_n) :
    (G.addEdge a b).hasEdge i j = true
      ↔ G.hasEdge i j = true ∨ (i = a ∧ j = b) ∨ (i = b ∧ j = a) := by
  unfold Graph.hasEdge
  rw [(G.matrix_addEdge a b).1, (G.matrix_addEdge a b).2]
  by_cases h1 : i * G.m_n + j = b * G.m_n + a
  · obtain ⟨e1, e2⟩ := matrix_index_inj hj ha h1
    rw [h1, getD_set_eq _ _ _ _ (by
      rw [List.length_set, hsize]; exact matrix_index_lt hb ha)]
    simp [e1, e2]
  · rw [getD_set_ne _ _ _ _ _ (Ne.symm h1)]
    have hne1 : ¬ (i = b ∧ j = a) := fun e => h1 (by rw [e.1, e.2])
    by_cases h2 : i * G.m_n + j = a * G.m_n + b
    · obtain ⟨e1, e2⟩ := matrix_index_inj hj hb h2
      rw [h2, getD_set_eq _ _ _ _ (by rw [hsize]; exact matrix_index_lt ha hb)]
      simp [e1, e2]
    · rw [getD_set_ne _ _ _ _ _ (Ne.symm h2)]
      have hne2 : ¬ (i = a ∧ j = b) := fun e => h2 (by rw [e.1, e.2])
      simp [hne1, hne2]

theorem Graph.size_addEdge (G : Graph) (a b : Nat) :
    (G.addEdge a b).m_matrix.length = G.m_matrix.length := by
  rw [(G.matrix_addEdge a b).2]
  simp

theorem Graph.hasEdge_addCliqueInner (rest : List Nat) : ∀ (G : Graph),
    G.m_matrix.length = G.m_n * G.m_n → ∀ {i j a : Nat}, i < G.m_n → j < G.m_n →
    a < G.m_n → (∀ b ∈ rest, b < G.m_n) →
    (G.addCliqueInner a rest).m_n = G.m_n
    ∧ (G.addCliqueInner a rest).m_matrix.length = G.m_matrix.length
    ∧ ((G.addCliqueInner a rest).hasEdge i j = true
      ↔ G.hasEdge i j = true ∨ (i = a ∧ j ∈ rest) ∨ (j = a ∧ i ∈ rest)) := by
  unfold Graph.addCliqueInner
  induction rest with
  | nil => intro G _ i j a _ _ _ _; simp
  | cons b rest ih =>
    intro G hsize i j a hi hj ha hb
    have hbn := hb b (List.mem_cons_self _ _)
    have hn1 := (G.matrix_addEdge a b).1
    have hs1 := G.size_addEdge a b
    obtain ⟨h1, h2, h3⟩ := ih (G.addEdge a b) (by rw [hs1, hn1, hsize])
      (i := i) (j := j) (a := a) (by rw [hn1]; exact hi) (by rw [hn1]; exact hj)
      (by rw [hn1]; exact ha) (fun x hx => by rw [hn1]; exact hb x (List.mem_cons_of_mem _ hx))
    rw [List.foldl_cons]
    refine ⟨h1.trans hn1, h2.trans hs1, ?_⟩
    rw [h3, Graph.hasEdge_addEdge hsize hi hj ha hbn]
    simp only [List.mem_cons]
    constructor
    · rintro ((h | ⟨h4, h5⟩ | ⟨h4, h5⟩) | ⟨h4, h5⟩ | ⟨h4, h5⟩)
      · exact Or.inl h
      · exact Or.inr (Or.inl ⟨h4, Or.inl h5⟩)
      · exact Or.inr (Or.inr ⟨h5, Or.inl h4⟩)
      · exact Or.inr (Or.inl ⟨h4, Or.inr h5⟩)
      · exact Or.inr (Or.inr ⟨h4, Or.inr h5⟩)
    · rintro (h | ⟨h4, h5 | h5⟩ | ⟨h4, h5 | h5⟩)
      · exact Or.inl (Or.inl h)
      · exact Or.inl (Or.inr (Or.inl ⟨h4, h5⟩))
      · exact Or.inr (Or.inl ⟨h4, h5⟩)
      · exact Or.inl (Or.inr (Or.inr ⟨h5, h4⟩))
      · exact Or.inr (Or.inr ⟨h4, h5⟩)

theorem Graph.hasEdge_addClique (S : List Nat) (hS : S.Nodup) : ∀ (G : Graph),
    G.m_matrix.length = G.m_n * G.m_n → ∀ {i j : Nat}, i < G.m_n → j < G.m_n →
    (∀ b ∈ S, b < G.m_n) →
    (G.addClique S).m_n = G.m_n
    ∧ (G.addClique S).m_matrix.length = G.m_matrix.length
    ∧ ((G.addClique S).hasEdge i j = true
      ↔ G.hasEdge i j = true ∨ (i ∈ S ∧ j ∈ S ∧ i ≠ j)) := by
  induction S with
  | nil => intro G _ i j _ _ _; simp [Graph.addClique]
  | cons a rest ih =>
    intro G hsize i j hi hj hb
    obtain ⟨ha, hrest⟩ := List.nodup_cons.1 hS
    have hn0 := (G.matrix_addNode a).1
    have hm0 := (G.matrix_addNode a).2
    have han := hb a (List.mem_cons_self _ _)
    have hsz1 : (G.addNode a).m_matrix.length = (G.addNode a).m_n * (G.addNode a).m_n := by
      rw [hm0, hn0, hsize]
    have hi1 : i < (G.addNode a).m_n := by rw [hn0]; exact hi
    have hj1 : j < (G.addNode a).m_n := by rw [hn0]; exact hj
    have ha1 : a < (G.addNode a).m_n := by rw [hn0]; exact han
    have hb1 : ∀ x ∈ rest, x < (G.addNode a).m_n := by
      intro x hx
      rw [hn0]
      exact hb x (List.mem_cons_of_mem _ hx)
    obtain ⟨h1, h2, h3⟩ := Graph.hasEdge_addCliqueInner rest (G.addNode a) hsz1 hi1 hj1 ha1 hb1
    have hsz2 : ((G.addNode a).addCliqueInner a rest).m_matrix.length
        = ((G.addNode a).addCliqueInner a rest).m_n * ((G.addNode a).addCliqueInner a rest).m_n := by
      rw [h2, h1, hsz1]
    have hi2 : i < ((G.addNode a).addCliqueInner a rest).m_n := by rw [h1]; exact hi1
    have hj2 : j < ((G.addNode a).addCliqueInner a rest).m_n := by rw [h1]; exact hj1
    have hb2 : ∀ x ∈ rest, x < ((G.addNode a).addCliqueInner a rest).m_n := by
      intro x hx
      rw [h1]
      exact hb1 x hx
    obtain ⟨g1, g2, g3⟩ := ih hrest ((G.addNode a).addCliqueInner a rest) hsz2 hi2 hj2 hb2
    rw [Graph.addClique]
    refine ⟨g1.trans (h1.trans hn0), g2.trans (h2.trans (by rw [hm0])), ?_⟩
    rw [g3, h3]
    have h0 : (G.addNode a).hasEdge i j = G.hasEdge i j := by
      unfold Graph.hasEdge
      rw [hn0, hm0]
    rw [h0]
    simp only [List.mem_cons]
    constructor
    · rintro ((h | ⟨rfl, hy⟩ | ⟨rfl, hx⟩) | ⟨hx, hy, hne⟩)
      · exact Or.inl h
      · exact Or.inr ⟨Or.inl rfl, Or.inr hy, fun e => ha (e ▸ hy)⟩
      · exact Or.inr ⟨Or.inr hx, Or.inl rfl, fun e => ha (e ▸ hx)⟩
      · exact Or.inr ⟨Or.inr hx, Or.inr hy, hne⟩
    · rintro (h | ⟨hx | hx, hy | hy, hne⟩)
      · exact Or.inl (Or.inl h)
      · exact absurd (hx.trans hy.symm) hne
      · exact Or.inl (Or.inr (Or.inl ⟨hx, hy⟩))
      · exact Or.inl (Or.inr (Or.inr ⟨hy, hx⟩))
      · exact Or.inr ⟨hx, hy, hne⟩

/-- The matrix after the loop of `removeNode` over a list `L` of neighbours: only entries
of the column `i` change. -/
theorem Graph.matrix_removeLoop (L : List Nat) (i n : Nat) : ∀ (G : Graph), G.m_n = n →
    (L.foldl (fun g it => { g.removeAdjacency it i with
        m_statNumEdges := (g.removeAdjacency it i).m_statNumEdges - 1 }) G).m_n = n
    ∧ (L.foldl (fun g it => { g.removeAdjacency it i with
        m_statNumEdges := (g.removeAdjacency it i).m_statNumEdges - 1 }) G).m_matrix.length
        = G.m_matrix.length
    ∧ ∀ a b, b < n → i < n → b ≠ i →
      (L.foldl (fun g it => { g.removeAdjacency it i with
        m_statNumEdges := (g.removeAdjacency it i).m_statNumEdges - 1 }) G).m_matrix.getD
          (a * n + b) false = G.m_matrix.getD (a * n + b) false := by
  induction L with
  | nil => intro G hG; simp [hG]
  | cons c L ih =>
    intro G hG
    rw [List.foldl_cons]
    have hn := (G.matrix_removeAdjacency c i).1
    have hm := (G.matrix_removeAdjacency c i).2
    obtain ⟨h1, h2, h3⟩ := ih { G.removeAdjacency c i with
        m_statNumEdges := (G.removeAdjacency c i).m_statNumEdges - 1 } (hn.trans hG)
    refine ⟨h1, h2.trans (by simp only [hm, List.length_set]), ?_⟩
    intro a b hb hi hbi
    refine (h3 a b hb hi hbi).trans ?_
    show (G.removeAdjacency c i).m_matrix.getD (a * n + b) false = _
    rw [hm, hG]
    apply getD_set_ne
    intro e
    exact hbi (matrix_index_inj hb hi e.symm).2

theorem Graph.matrix_removeNode (G : Graph) (i : Nat) :
    (G.removeNode i).m_n = G.m_n
    ∧ (G.removeNode i).m_matrix.length = G.m_matrix.length
    ∧ ∀ a b, b < G.m_n → i < G.m_n → b ≠ i →
      (G.removeNode i).hasEdge a b = G.hasEdge a b := by
  unfold Graph.removeNode
  cases h : mapFind G.m_neighbors i with
  | none => simp
  | some S =>
    obtain ⟨h1, h2, h3⟩ := Graph.matrix_removeLoop S i G.m_n G rfl
    refine ⟨h1, h2, fun a b hb hi hbi => ?_⟩
    unfold Graph.hasEdge
    simp only [h1]
    exact h3 a b hb hi hbi

theorem Graph.matrixOK_removeNode {G : Graph} (h : G.MatrixOK) (hs : G.Simple) (v : Nat) :
    (G.removeNode v).MatrixOK := by
  obtain ⟨h1, h2, h3⟩ := G.matrix_removeNode v
  refine ⟨?_, by rw [h2, h1, h.size], ?_⟩
  · intro i hi
    rw [h1]
    exact h.bound i ((G.hasNode_removeNode v i).1 hi).1
  · intro i j hi hj
    obtain ⟨hi1, hi2⟩ := (G.hasNode_removeNode v i).1 hi
    obtain ⟨hj1, hj2⟩ := (G.hasNode_removeNode v j).1 hj
    rw [Graph.adj_removeNode G hs]
    by_cases hv : G.hasNode v = true
    · rw [h3 i j (h.bound j hj1) (h.bound v hv) hj2, h.agree i j hi1 hj1]
      simp [hi2, hj2]
    · have hnone : mapFind G.m_neighbors v = none := by
        cases hm : mapFind G.m_neighbors v with
        | none => rfl
        | some S => simp [Graph.hasNode, hm] at hv
      have : G.removeNode v = G := by
        unfold Graph.removeNode
        rw [hnone]
      rw [this, h.agree i j hi1 hj1]
      simp [hi2, hj2]

theorem Graph.matrixOK_addClique {G : Graph} (h : G.MatrixOK) (S : List Nat) (hS : S.Nodup)
    (hnode : ∀ s ∈ S, G.hasNode s = true) : (G.addClique S).MatrixOK := by
  have hb : ∀ b ∈ S, b < G.m_n := fun b hb => h.bound b (hnode b hb)
  have hnodes : ∀ k, (G.addClique S).hasNode k = true ↔ G.hasNode k = true := by
    intro k
    rw [Graph.hasNode_addClique]
    constructor
    · rintro (h1 | h1)
      · exact h1
      · exact hnode k h1
    · exact Or.inl
  have hmn : (G.addClique S).m_n = G.m_n := by
    cases S with
    | nil => rfl
    | cons a rest =>
      have ha := hb a (List.mem_cons_self _ _)
      exact (Graph.hasEdge_addClique (a :: rest) hS G h.size ha ha hb).1
  have hlen : (G.addClique S).m_matrix.length = G.m_matrix.length := by
    cases S with
    | nil => rfl
    | cons a rest =>
      have ha := hb a (List.mem_cons_self _ _)
      exact (Graph.hasEdge_addClique (a :: rest) hS G h.size ha ha hb).2.1
  refine ⟨?_, by rw [hlen, hmn, h.size], ?_⟩
  · intro i hi
    rw [hmn]
    exact h.bound i ((hnodes i).1 hi)
  · intro i j hi hj
    have hi1 := (hnodes i).1 hi
    have hj1 := (hnodes j).1 hj
    rw [(Graph.hasEdge_addClique S hS G h.size (h.bound i hi1) (h.bound j hj1) hb).2.2,
      Graph.adj_addClique S hS, h.agree i j hi1 hj1]

/-- The neighbours of the node `k` are pairwise adjacent. -/
theorem Graph.clique_of_score {G : Graph} (hs : G.Simple) (hm : G.MatrixOK)
    {k : Nat} (h0 : G.scoreMinfill k = 0) :
    ∀ x y, G.adj k x → G.adj k y → x ≠ y → G.adj x y := by
  intro x y hx hy hxy
  obtain ⟨S, hS, hxS⟩ := hx
  obtain ⟨S2, hS2, hyS⟩ := hy
  rw [hS] at hS2
  cases hS2
  have hfind : mapFind G.m_neighbors k = some S := hS
  have hc : G.countMissing S = 0 := by
    unfold Graph.scoreMinfill at h0
    rw [hfind] at h0
    simp only at h0
    exact_mod_cast h0
  have hnode : ∀ z ∈ S, G.hasNode z = true :=
    fun z hz => Graph.adj_hasNode (hs.sym k z ⟨S, hS, hz⟩)
  have hpair : ∀ (L : List Nat), (∀ z ∈ L, G.hasNode z = true) → G.countMissing L = 0 →
      L.Pairwise (fun a b => G.adj a b) := by
    intro L
    induction L with
    | nil => intro _ _; exact List.Pairwise.nil
    | cons a L ih =>
      intro hn hc
      simp only [Graph.countMissing, Nat.add_eq_zero] at hc
      refine List.Pairwise.cons ?_ (ih (fun z hz => hn z (List.mem_cons_of_mem _ hz)) hc.2)
      intro b hb
      have hf := hc.1
      unfold Graph.countMissingFrom at hf
      have hnil := List.length_eq_zero.1 hf
      have hE : G.hasEdge a b = true := by
        by_contra hne
        have : b ∈ L.filter (fun b => !G.hasEdge a b) :=
          List.mem_filter.2 ⟨hb, by simpa using hne⟩
        rw [hnil] at this
        simp at this
      exact (hm.agree a b (hn a (List.mem_cons_self _ _)) (hn b (List.mem_cons_of_mem _ hb))).1 hE
  exact (hpair S hnode hc).forall (fun a b hab => hs.sym a b hab) hxS hyS hxy

/-! ## The width that `eliminate` returns -/

theorem widthOf_append (ds : List Nat) (d : Nat) :
    widthOf (ds ++ [d]) = max (widthOf ds) (d : Int) := by
  simp [widthOf, List.foldl_append]

theorem le_widthOf (ds : List Nat) : ∀ d ∈ ds, (d : Int) ≤ widthOf ds := by
  induction ds using List.reverseRecOn with
  | nil => intro d hd; simp at hd
  | append_singleton ds a ih =>
    intro d hd
    rw [widthOf_append]
    rcases List.mem_append.1 hd with h | h
    · exact le_trans (ih d h) (le_max_left _ _)
    · simp only [List.mem_singleton] at h
      subst h
      exact le_max_right _ _

/-- One more elimination in the game, when the graph of `eliminate` changes as the game
does. -/
theorem game_step {G0 G G1 : Graph} {elim : List Nat} {w : Int} {v : Nat} {N : List Nat}
    (hrep : G.Rep) (hN : G.getNeighbors v = some N)
    (hnode : ∀ k, G1.hasNode k = true ↔ G.hasNode k = true ∧ k ≠ v)
    (hadj : ∀ a b, G1.adj a b ↔ a ≠ v ∧ b ≠ v ∧ (G.adj a b ∨ (a ∈ N ∧ b ∈ N ∧ a ≠ b)))
    (hg : ∃ H ds, elimGame G0 elim = some (H, ds) ∧ H.Rep ∧ H.Simple
      ∧ H.SameEdges G ∧ w = widthOf ds ∧ ds.length = elim.length) :
    ∃ H ds, elimGame G0 (elim ++ [v]) = some (H, ds) ∧ H.Rep ∧ H.Simple
      ∧ H.SameEdges G1 ∧ max w (N.length : Int) = widthOf ds
      ∧ ds.length = (elim ++ [v]).length := by
  obtain ⟨H, ds, hgame, hHrep, hHsim, hsame, hw, hlen⟩ := hg
  have hHv : H.hasNode v = true := by
    rw [hsame.1 v]
    exact (G.hasNode_iff v).2 ⟨N, hN⟩
  obtain ⟨NH, hNH⟩ := (H.hasNode_iff v).1 hHv
  have hNHnd : NH.Nodup := hHrep.setsNodup v NH hNH
  have hNnd : N.Nodup := hrep.setsNodup v N hN
  have hmem : ∀ x, x ∈ NH ↔ x ∈ N := by
    intro x
    constructor
    · intro hx
      obtain ⟨S, hS, hxS⟩ := (hsame.2 v x).1 ⟨NH, hNH, hx⟩
      rw [hN] at hS
      cases hS
      exact hxS
    · intro hx
      obtain ⟨S, hS, hxS⟩ := (hsame.2 v x).2 ⟨N, hN, hx⟩
      rw [hNH] at hS
      cases hS
      exact hxS
  have hperm : NH.Perm N := (List.perm_ext_iff_of_nodup hNHnd hNnd).2 hmem
  refine ⟨(H.addClique NH).removeNode v, ds ++ [NH.length], ?_,
    Graph.rep_removeNode (Graph.rep_addClique NH hHrep) v,
    Graph.simple_removeNode (Graph.simple_addClique hHsim NH hNHnd) v, ⟨?_, ?_⟩, ?_, ?_⟩
  · simp only [elimGame, List.foldl_append, List.foldl_cons, List.foldl_nil] at hgame ⊢
    rw [hgame]
    simp only [elimStep, hNH]
  · intro k
    have h1 := Graph.hasNode_elimStep hHsim v NH hNH k
    have h2 := hnode k
    rw [← hsame.1 k] at h2
    cases hk1 : ((H.addClique NH).removeNode v).hasNode k <;> cases hk2 : G1.hasNode k
    · rfl
    · rw [hk2] at h2
      rw [hk1] at h1
      exact absurd (h1.2 (h2.1 rfl)) (by simp)
    · rw [hk2] at h2
      rw [hk1] at h1
      exact absurd (h2.2 (h1.1 rfl)) (by simp)
    · rfl
  · intro a b
    rw [Graph.adj_elimStep hHsim v NH hNHnd, hadj, hsame.2 a b, hmem a, hmem b]
  · rw [widthOf_append, hw, hperm.length_eq]
  · simp [hlen]

theorem Graph.cliqueAt_removeNode {G : Graph} (hs : G.Simple) {k : Nat} (v : Nat)
    (h : G.CliqueAt k) : (G.removeNode v).CliqueAt k := by
  intro x y hx hy hxy
  rw [Graph.adj_removeNode G hs] at hx hy ⊢
  exact ⟨hx.2.1, hy.2.1, h x y hx.2.2 hy.2.2 hxy⟩

theorem WidthInv.removeSimplicial_width {G0 : Graph} {n : Nat} {st : ElimState} (h : ElimInv n st)
    (hw : WidthInv G0 st) (v : Nat) (N : List Nat) (hN : st.G.getNeighbors v = some N)
    (h0 : st.scores.getD v 0 = 0) :
    WidthInv G0 { st with elim := st.elim ++ [v], width := max st.width (N.length : Int),
                          G := st.G.removeNode v, scores := st.scores.set v INT_MAX } := by
  have hv : st.G.hasNode v = true := (st.G.hasNode_iff v).2 ⟨N, hN⟩
  have hcl := hw.clique v hv h0
  refine ⟨Graph.matrixOK_removeNode hw.matrix h.simple v, ?_, ?_⟩
  · intro k hk hk0
    simp only [Graph.hasNode_removeNode] at hk
    simp only at hk0
    rw [getD_set_ne _ _ _ _ _ (Ne.symm hk.2)] at hk0
    exact Graph.cliqueAt_removeNode h.simple v (hw.clique k hk.1 hk0)
  · refine game_step h.rep hN (fun k => Graph.hasNode_removeNode _ _ _) (fun a b => ?_) hw.game
    rw [Graph.adj_removeNode _ h.simple]
    constructor
    · rintro ⟨h1, h2, h3⟩
      exact ⟨h1, h2, Or.inl h3⟩
    · rintro ⟨h1, h2, h3 | ⟨h3, h4, h5⟩⟩
      · exact ⟨h1, h2, h3⟩
      · exact ⟨h1, h2, hcl a b ⟨N, hN, h3⟩ ⟨N, hN, h4⟩ h5⟩

theorem WidthInv.eliminateNode_width {G0 : Graph} {n : Nat} {st : ElimState} (h : ElimInv n st)
    (hw : WidthInv G0 st) (v : Nat) (N : List Nat) (hN : st.G.getNeighbors v = some N) :
    WidthInv G0 (eliminateNode st v N (max st.width (N.length : Int))) := by
  have hv : st.G.hasNode v = true := (st.G.hasNode_iff v).2 ⟨N, hN⟩
  have hNnd := h.rep.setsNodup v N hN
  have hNnode : ∀ x ∈ N, st.G.hasNode x = true :=
    fun x hx => Graph.adj_hasNode (h.simple.sym v x ⟨N, hN, hx⟩)
  have hsim1 : (st.G.addClique N).Simple := Graph.simple_addClique h.simple N hNnd
  have hsim2 : ((st.G.addClique N).removeNode v).Simple := Graph.simple_removeNode hsim1 v
  have hmat2 : ((st.G.addClique N).removeNode v).MatrixOK :=
    Graph.matrixOK_removeNode (Graph.matrixOK_addClique hw.matrix N hNnd hNnode) hsim1 v
  have hadj := Graph.adj_elimStep h.simple v N hNnd
  have hnode := Graph.hasNode_elimStep h.simple v N hN
  refine ⟨hmat2, ?_, ?_⟩
  · intro k hk hk0
    have hk1 := (hnode k).1 hk
    simp only [daoopt.eliminateNode] at hk0 ⊢
    rw [foldl_set_getD] at hk0
    by_cases hu : k ∈ updateCand (st.G.addClique N) N v
        ∧ k < (st.scores.set v INT_MAX).length
    · simp only [hu, and_self, if_true] at hk0
      exact Graph.clique_of_score hsim2 hmat2 hk0
    · simp only [hu, if_false] at hk0
      rw [getD_set_ne _ _ _ _ _ (Ne.symm hk1.2)] at hk0
      have hcl := hw.clique k hk1.1 hk0
      have hklen : k < (st.scores.set v INT_MAX).length := by
        rw [List.length_set, h.scoresLen]
        exact ((h.nodes k).1 hk1.1).1
      have hkN : k ∉ N := by
        intro hmem
        exact hu ⟨(mem_updateCand _ _ _ _).2 ⟨hk1.2, Or.inl hmem⟩, hklen⟩
      intro x y hx hy hxy
      rw [hadj] at hx hy ⊢
      have hx2 : st.G.adj k x := by
        rcases hx.2.2 with h1 | h1
        · exact h1
        · exact absurd h1.1 hkN
      have hy2 : st.G.adj k y := by
        rcases hy.2.2 with h1 | h1
        · exact h1
        · exact absurd h1.1 hkN
      exact ⟨hx.2.1, hy.2.1, Or.inl (hcl x y hx2 hy2 hxy)⟩
  · exact game_step h.rep hN hnode hadj hw.game

theorem WidthInv.init_width {G : Graph} {n : Nat} (hrep : G.Rep) (hsim : G.Simple)
    (hmat : G.MatrixOK) (hnodes : G.NodesAre n) :
    WidthInv G { G := G, scores := initialScores G n [], elim := [], width := UNKNOWN,
                 nextNode := none, draws := 0 } := by
  refine ⟨hmat, ?_, ⟨G, [], rfl, hrep, hsim, ⟨fun _ => rfl, fun _ _ => Iff.rfl⟩, rfl, rfl⟩⟩
  intro k hk hk0
  have hkn := (hnodes k).1 hk
  simp only [initialScores, List.length_nil, ne_eq, not_true_eq_false, if_false] at hk0
  rw [foldl_set_getD] at hk0
  have : k ∈ G.getNodes ∧ k < (List.replicate n (0 : Int)).length :=
    ⟨(mem_getNodes G k).2 hk, by simpa using hkn⟩
  simp only [this, and_self, if_true] at hk0
  exact Graph.clique_of_score hsim hmat hk0

theorem elimStep_foldl_none (post : List Nat) : post.foldl elimStep none = none := by
  induction post with
  | nil => rfl
  | cons a post ih => simpa [elimStep] using ih

theorem elimStep_foldl_mem (post : List Nat) : ∀ (H : Graph) (ds : List Nat) (H1 : Graph)
    (ds1 : List Nat), post.foldl elimStep (some (H, ds)) = some (H1, ds1) →
    ∀ d ∈ ds, d ∈ ds1 := by
  induction post with
  | nil =>
    intro H ds H1 ds1 h d hd
    simp only [List.foldl_nil, Option.some.injEq, Prod.mk.injEq] at h
    rw [← h.2]
    exact hd
  | cons a post ih =>
    intro H ds H1 ds1 h d hd
    rw [List.foldl_cons] at h
    cases hN : H.getNeighbors a with
    | none =>
      simp only [elimStep, hN] at h
      rw [elimStep_foldl_none] at h
      cases h
    | some N =>
      simp only [elimStep, hN] at h
      exact ih _ _ H1 ds1 h d (List.mem_append_left _ hd)

/-- The game on an order reaches every node of the order: the game on the nodes before it
returns a graph that has the node, and the number of its neighbours there is among the
counts. -/
theorem elimGame_split {G H : Graph} {pre post ds : List Nat} {v : Nat}
    (h : elimGame G (pre ++ v :: post) = some (H, ds)) :
    ∃ H1 ds1 N, elimGame G pre = some (H1, ds1) ∧ H1.getNeighbors v = some N
      ∧ N.length ∈ ds := by
  simp only [elimGame, List.foldl_append, List.foldl_cons] at h ⊢
  cases hp : pre.foldl elimStep (some (G, [])) with
  | none =>
    rw [hp] at h
    simp only [elimStep] at h
    rw [elimStep_foldl_none] at h
    cases h
  | some x =>
    obtain ⟨H1, ds1⟩ := x
    rw [hp] at h
    cases hN : H1.getNeighbors v with
    | none =>
      simp only [elimStep, hN] at h
      rw [elimStep_foldl_none] at h
      cases h
    | some N =>
      simp only [elimStep, hN] at h
      exact ⟨H1, ds1, N, rfl, hN, elimStep_foldl_mem post _ _ H ds h _ (by simp)⟩

/-- What `eliminate` returns on a well-formed graph, in terms of the elimination game. -/
theorem eliminate_game (G : Graph) (n : Nat) (limit : Int) (tolerance : Nat)
    (rnd : Nat → Nat) (hwf : G.WF) (hnodes : G.NodesAre n) (hn : (n : Int) * n ≤ INT_MAX) :
    ∃ r, eliminate G limit tolerance [] rnd = some r
      ∧ (r.ret ≠ INT_MAX → ∃ H ds, elimGame G r.elim = some (H, ds)
          ∧ ds.length = r.elim.length ∧ r.ret = widthOf ds ∧ r.elim.length ≤ n) := by
  have key := eliminateLoop_rule n tolerance limit rnd
    (fun st => ElimInv n st ∧ WidthInv G st)
    (fun r => r.ret ≠ INT_MAX → ∃ H ds, elimGame G r.elim = some (H, ds)
          ∧ ds.length = r.elim.length ∧ r.ret = widthOf ds ∧ r.elim.length ≤ n)
    (fun st h => h.1.elim_length_le)
    (fun st h _ _ => by
      obtain ⟨H, ds, hg, _, _, _, hw, hl⟩ := h.2.game
      exact ⟨H, ds, hg, hl, hw, h.1.elim_length_le⟩)
    (by
      intro st h _
      have hc := scan_spec n tolerance st.scores h.1.score_le
      obtain ⟨st1, hs, h1, hel, _, _, _, _, hw1⟩ := simplicial_phase tolerance h.1
        (fun rest st2 => (∀ x ∈ rest, st2.scores.getD x 0 = 0) ∧ rest.Nodup
          ∧ WidthInv G st2)
        (fun v rest st2 N hinv hR hN => by
          obtain ⟨hz, hnd, hw⟩ := hR
          refine ⟨fun x hx => ?_, (List.nodup_cons.1 hnd).2,
            hw.removeSimplicial_width hinv v N hN (hz v (List.mem_cons_self _ _))⟩
          have hxv : x ≠ v := fun e => (List.nodup_cons.1 hnd).1 (e ▸ hx)
          simp only
          rw [getD_set_ne _ _ _ _ _ (Ne.symm hxv)]
          exact hz x (List.mem_cons_of_mem _ hx))
        ⟨fun x hx => ((mem_simplicial hc x).1 hx).2, by
          rw [hc.simp]
          exact (List.nodup_range n).filter _, h.2⟩
      rcases eliminateBody_after limit rnd h.1 h1 hs hel with
        ⟨_, _, hb⟩ | ⟨_, v, N, m, _, _, _, _, hN, ⟨_, hb⟩ | ⟨_, hb⟩⟩
      · rw [hb]
        intro _
        obtain ⟨H, ds, hg, _, _, _, hw, hl⟩ := hw1.game
        exact ⟨H, ds, hg, hl, hw, h1.elim_length_le⟩
      · rw [hb]
        exact fun hne => absurd rfl hne
      · rw [hb]
        refine ⟨⟨h1.eliminateNode hn v N hN _, hw1.eliminateNode_width h1 v N hN⟩, ?_⟩
        simp [eliminateNode, hel])
  have hstat := getStatNodes_of_nodesAre hwf.rep hnodes
  obtain ⟨r, hr, hq⟩ := key (n + 1) _
    ⟨ElimInv.init hwf.rep hwf.simple hnodes hn, WidthInv.init_width hwf.rep hwf.simple hwf.matrix hnodes⟩
    (by simp)
  refine ⟨r, ?_, hq⟩
  simp only [eliminate, hstat]
  exact hr


/-! ## The arena -/

theorem Arena.deref_lt {nodes : Arena} {p : Nat} {nd : PseudotreeNode}
    (h : nodes.deref p = some nd) : p < nodes.length := by
  by_contra hlt
  have hnone : nodes[p]? = none := List.getElem?_eq_none (by omega)
  simp [Arena.deref, List.getD_eq_getElem?_getD, hnone] at h

theorem Arena.deref_set (nodes : Arena) (p k : Nat) (x : Option PseudotreeNode)
    (hp : p < nodes.length) :
    Arena.deref (nodes.set p x) k = if k = p then x else nodes.deref k := by
  unfold Arena.deref
  by_cases hk : k = p
  · subst hk
    rw [getD_set_eq _ _ _ _ hp]
    simp
  · rw [getD_set_ne _ _ _ _ _ (Ne.symm hk)]
    simp [hk]

theorem Arena.deref_modify (nodes : Arena) (p k : Nat)
    (f : PseudotreeNode → PseudotreeNode) :
    (nodes.modify p f).deref k = if k = p then (nodes.deref p).map f else nodes.deref k := by
  unfold Arena.modify
  cases h : nodes.deref p with
  | none =>
    by_cases hk : k = p
    · subst hk; simp [h]
    · simp [hk]
  | some nd =>
    simp only
    rw [Arena.deref_set _ _ _ _ (Arena.deref_lt h)]
    by_cases hk : k = p
    · simp [hk]
    · simp [hk]

theorem Arena.length_modify (nodes : Arena) (p : Nat) (f : PseudotreeNode → PseudotreeNode) :
    (nodes.modify p f).length = nodes.length := by
  unfold Arena.modify
  cases h : nodes.deref p <;> simp

theorem Arena.deref_append (nodes : Arena) (x : Option PseudotreeNode) (k : Nat) :
    Arena.deref (nodes ++ [x]) k
      = if k < nodes.length then nodes.deref k else if k = nodes.length then x else none := by
  unfold Arena.deref
  by_cases hk : k < nodes.length
  · simp [hk, List.getD_eq_getElem?_getD, List.getElem?_append_left hk]
  · simp only [hk, if_false]
    by_cases hk2 : k = nodes.length
    · subst hk2
      simp [List.getD_eq_getElem?_getD]
    · have hnone : (nodes ++ [x])[k]? = none :=
        List.getElem?_eq_none (by simp; omega)
      simp [hk2, List.getD_eq_getElem?_getD, hnone]

theorem Arena.deref_replicate (n k : Nat) :
    Arena.deref (List.replicate n none) k = none := by
  unfold Arena.deref
  by_cases hk : k < n
  · exact getD_replicate_lt _ _ _ _ hk
  · have hnone : (List.replicate n (none : Option PseudotreeNode))[k]? = none :=
      List.getElem?_eq_none (by simp; omega)
    simp [List.getD_eq_getElem?_getD, hnone]

/-! ## Positions in the elimination order -/

theorem indexOf_append_mid (pre rest : List Nat) (v : Nat) (hv : v ∉ pre) :
    (pre ++ v :: rest).indexOf v = pre.length := by
  induction pre with
  | nil => simp
  | cons a pre ih =>
    have hav : a ≠ v := fun e => hv (by simp [e])
    have hv2 : v ∉ pre := fun h => hv (List.mem_cons_of_mem _ h)
    simp [List.indexOf_cons, hav, ih hv2]

theorem indexOf_lt_of_mem_left (pre rest : List Nat) (k : Nat) (hk : k ∈ pre) :
    (pre ++ rest).indexOf k < pre.length := by
  induction pre with
  | nil => simp at hk
  | cons a pre ih =>
    by_cases hak : a = k
    · simp [List.indexOf_cons, hak]
    · have hk2 : k ∈ pre := by
        rcases List.mem_cons.1 hk with h | h
        · exact absurd h.symm hak
        · exact h
      have := ih hk2
      simp only [List.cons_append, List.indexOf_cons, List.length_cons]
      have hne : (a == k) = false := by simpa using hak
      simp only [hne, cond_false]
      omega

theorem indexOf_ge_of_not_mem_left (pre rest : List Nat) (x : Nat) (hx : x ∉ pre) :
    pre.length ≤ (pre ++ rest).indexOf x := by
  induction pre with
  | nil => simp
  | cons a pre ih =>
    have hax : a ≠ x := fun e => hx (by simp [e])
    have hx2 : x ∉ pre := fun h => hx (List.mem_cons_of_mem _ h)
    have := ih hx2
    simp only [List.cons_append, List.indexOf_cons, List.length_cons]
    have hne : (a == x) = false := by simpa using hax
    simp only [hne, cond_false]
    omega

theorem indexOf_gt_of_not_mem (pre rest : List Nat) (v x : Nat)
    (hx : x ∉ pre) (hxv : x ≠ v) : pre.length < (pre ++ v :: rest).indexOf x := by
  have h := indexOf_ge_of_not_mem_left (pre ++ [v]) rest x (by simp [hx, hxv])
  simpa using h

/-! ## `insertNewNode` -/

theorem attachRoots_spec (i : Nat) : ∀ (roots : List Nat) (nodes : Arena) (kept : List Nat),
    (∀ r ∈ roots, ∃ rn, nodes.deref r = some rn) → i ∉ roots → roots.Nodup →
    ∃ nodes1, attachRoots i roots nodes kept
        = some (nodes1, kept ++ roots.filter (fun r => decide (i ∉ nodes.ctx r)))
      ∧ nodes1.length = nodes.length
      ∧ ∀ k, nodes1.deref k =
          if k = i then
            (nodes.deref i).map (fun p =>
              p.addChildren (roots.filter (fun r => decide (i ∈ nodes.ctx r))))
          else if k ∈ roots then
            (nodes.deref k).map (fun x => if i ∈ x.m_contextS then x.setParent (some i) else x)
          else nodes.deref k := by
  intro roots
  induction roots with
  | nil =>
    intro nodes kept _ _ _
    refine ⟨nodes, by simp [attachRoots], rfl, ?_⟩
    intro k
    by_cases hk : k = i
    · subst hk
      cases h : nodes.deref k <;> simp [h, PseudotreeNode.addChildren]
    · simp [hk]
  | cons r rest ih =>
    intro nodes kept hall hi hnd
    obtain ⟨rn, hrn⟩ := hall r (List.mem_cons_self r rest)
    have hir : i ≠ r := fun e => hi (by simp [e])
    have hri : r ≠ i := fun e => hir e.symm
    have hirest : i ∉ rest := fun h => hi (List.mem_cons_of_mem _ h)
    obtain ⟨hrrest, hndrest⟩ := List.nodup_cons.1 hnd
    have hctxr : nodes.ctx r = rn.m_contextS := by simp [Arena.ctx, hrn]
    unfold attachRoots
    simp only [hrn]
    by_cases hmem : i ∈ rn.m_contextS
    · simp only [hmem, if_true]
      have hd1 : ∀ k, Arena.deref ((nodes.modify i (fun p => p.addChild r)).modify r
          (fun x => x.setParent (some i))) k
          = if k = r then (nodes.deref r).map (fun x => x.setParent (some i))
            else if k = i then (nodes.deref i).map (fun p => p.addChild r)
            else nodes.deref k := by
        intro k
        simp only [Arena.deref_modify]
        by_cases hkr : k = r
        · subst hkr
          simp [hri]
        · simp [hkr]
      have hctx1 : ∀ k, Arena.ctx ((nodes.modify i (fun p => p.addChild r)).modify r
          (fun x => x.setParent (some i))) k = nodes.ctx k := by
        intro k
        unfold Arena.ctx
        rw [hd1]
        by_cases hkr : k = r
        · subst hkr
          cases h : nodes.deref k <;> simp [PseudotreeNode.setParent]
        · by_cases hki : k = i
          · subst hki
            cases h : nodes.deref k <;> simp [hkr, PseudotreeNode.addChild]
          · simp [hkr, hki]
      obtain ⟨nodes1, h1, h2, h3⟩ := ih
        ((nodes.modify i (fun p => p.addChild r)).modify r (fun x => x.setParent (some i)))
        kept
        (by
          intro r2 hr2
          obtain ⟨rn2, hrn2⟩ := hall r2 (List.mem_cons_of_mem _ hr2)
          rw [hd1]
          by_cases h2r : r2 = r
          · subst h2r; simp [hrn]
          · have h2i : r2 ≠ i := fun e => hirest (e ▸ hr2)
            simp [h2r, h2i, hrn2])
        hirest hndrest
      refine ⟨nodes1, ?_, ?_, ?_⟩
      · rw [h1]
        simp only [hctx1]
        simp [List.filter_cons, hctxr, hmem]
      · rw [h2, Arena.length_modify, Arena.length_modify]
      · intro k
        rw [h3]
        simp only [hctx1, hd1]
        by_cases hki : k = i
        · subst hki
          simp only [if_true, hir, if_false]
          cases h : nodes.deref k with
          | none => simp
          | some pk =>
            simp [List.filter_cons, hctxr, hmem, PseudotreeNode.addChild,
              PseudotreeNode.addChildren]
        · simp only [hki, if_false, List.mem_cons]
          by_cases hkr : k = r
          · subst hkr
            simp only [hrrest, if_false, if_true, true_or, hrn, Option.map_some', hmem]
          · simp only [hkr, if_false, false_or]
    · simp only [hmem, if_false]
      obtain ⟨nodes1, h1, h2, h3⟩ := ih nodes (kept ++ [r])
        (fun r2 hr2 => hall r2 (List.mem_cons_of_mem _ hr2)) hirest hndrest
      refine ⟨nodes1, ?_, h2, ?_⟩
      · rw [h1]
        simp [List.filter_cons, hctxr, hmem]
      · intro k
        rw [h3]
        by_cases hki : k = i
        · subst hki
          simp only [if_true]
          cases h : nodes.deref k with
          | none => simp
          | some pk => simp [List.filter_cons, hctxr, hmem]
        · simp only [hki, if_false, List.mem_cons]
          by_cases hkr : k = r
          · subst hkr
            simp only [hrrest, if_false, true_or, if_true, hrn, Option.map_some', hmem]
          · simp only [hkr, false_or]

theorem insertNewNode_spec (nodes : Arena) (roots : List Nat) (i : Nat) (N : List Nat)
    (hi : i < nodes.length) (hnone : nodes.deref i = none)
    (hroots : ∀ r ∈ roots, ∃ rn, nodes.deref r = some rn) (hnd : roots.Nodup) :
    ∃ nodes1, insertNewNode nodes i N roots
        = some (nodes1, roots.filter (fun r => decide (i ∉ nodes.ctx r)) ++ [i])
      ∧ nodes1.length = nodes.length
      ∧ nodes1.deref i = some ((PseudotreeNode.new i N).addChildren
          (roots.filter (fun r => decide (i ∈ nodes.ctx r))))
      ∧ ∀ k, k ≠ i → nodes1.deref k = (nodes.deref k).map
          (fun x => if k ∈ roots ∧ i ∈ x.m_contextS then x.setParent (some i) else x) := by
  have hir : i ∉ roots := by
    intro h
    obtain ⟨rn, hrn⟩ := hroots i h
    rw [hnone] at hrn
    cases hrn
  have hd0 : ∀ k, Arena.deref (nodes.set i (some (PseudotreeNode.new i N))) k
      = if k = i then some (PseudotreeNode.new i N) else nodes.deref k :=
    fun k => Arena.deref_set nodes i k _ hi
  have hctx0 : ∀ r ∈ roots, Arena.ctx (nodes.set i (some (PseudotreeNode.new i N))) r
      = nodes.ctx r := by
    intro r hr
    have hri : r ≠ i := fun e => hir (e ▸ hr)
    simp [Arena.ctx, hd0, hri]
  obtain ⟨nodes1, h1, h2, h3⟩ := attachRoots_spec i roots
    (nodes.set i (some (PseudotreeNode.new i N))) []
    (by
      intro r hr
      have hri : r ≠ i := fun e => hir (e ▸ hr)
      rw [hd0]
      simpa [hri] using hroots r hr)
    hir hnd
  have hf1 : roots.filter (fun r => decide
        (i ∉ Arena.ctx (nodes.set i (some (PseudotreeNode.new i N))) r))
      = roots.filter (fun r => decide (i ∉ nodes.ctx r)) := by
    apply List.filter_congr
    intro r hr
    rw [hctx0 r hr]
  have hf2 : roots.filter (fun r => decide
        (i ∈ Arena.ctx (nodes.set i (some (PseudotreeNode.new i N))) r))
      = roots.filter (fun r => decide (i ∈ nodes.ctx r)) := by
    apply List.filter_congr
    intro r hr
    rw [hctx0 r hr]
  refine ⟨nodes1, ?_, ?_, ?_, ?_⟩
  · unfold insertNewNode
    have hc : i < nodes.length ∧ nodes.deref i = none := ⟨hi, hnone⟩
    simp only [hc, and_self, if_true, h1, hf1, List.nil_append]
  · rw [h2]; simp
  · rw [h3 i, hd0, hf2]
    simp
  · intro k hk
    simp only [h3 k, hd0, hk, if_false]
    by_cases hkr : k ∈ roots
    · simp [hkr]
    · cases h : nodes.deref k <;> simp [hkr]

theorem ForestInv.step_forest {G0 : Graph} {n : Nat} {elim pre rest : List Nat} {v : Nat}
    {st : BuildState} (h : ForestInv G0 n elim pre st) (hsplit : pre ++ v :: rest = elim)
    (hnd : elim.Nodup) (hlt : ∀ k ∈ elim, k < n) :
    ∃ N nodes1 roots1, st.G.getNeighbors v = some N
      ∧ insertNewNode st.m_nodes v N st.roots = some (nodes1, roots1)
      ∧ ForestInv G0 n elim (pre ++ [v])
          { G := (st.G.addClique N).removeNode v,
            m_width := max st.m_width (N.length : Int),
            m_nodes := nodes1, roots := roots1 } := by
  have hvpre : v ∉ pre := by
    rw [← hsplit] at hnd
    have := (List.nodup_append.1 hnd).2.2
    intro hv
    exact this hv (List.mem_cons_self v rest) 
  have hvn : v < n := hlt v (by rw [← hsplit]; simp)
  have hvnode : st.G.hasNode v = true := (h.gnodes v).2 ⟨hvn, hvpre⟩
  obtain ⟨N, hN⟩ := (st.G.hasNode_iff v).1 hvnode
  have hNnd : N.Nodup := h.rep.setsNodup v N hN
  have hNadj : ∀ x, x ∈ N ↔ st.G.adj v x := by
    intro x
    constructor
    · intro hx; exact ⟨N, hN, hx⟩
    · rintro ⟨S, hS, hx⟩
      rw [hN] at hS; cases hS; exact hx
  have hNnode : ∀ x ∈ N, st.G.hasNode x = true :=
    fun x hx => Graph.adj_hasNode (h.simple.sym v x ⟨N, hN, hx⟩)
  have hNv : ∀ x ∈ N, x ≠ v := by
    intro x hx e
    subst e
    exact h.simple.irrefl x ⟨N, hN, hx⟩
  have hNlive : ∀ x ∈ N, x < n ∧ x ∉ pre := fun x hx => (h.gnodes x).1 (hNnode x hx)
  have hidxv : elim.indexOf v = pre.length := by
    rw [← hsplit]; exact indexOf_append_mid pre rest v hvpre
  have hidxpre : ∀ k ∈ pre, elim.indexOf k < pre.length := by
    intro k hk; rw [← hsplit]; exact indexOf_lt_of_mem_left pre _ k hk
  have hidxother : ∀ x, x ∉ pre → x ≠ v → pre.length < elim.indexOf x := by
    intro x hx hxv; rw [← hsplit]; exact indexOf_gt_of_not_mem pre rest v x hx hxv
  have hvnone : st.m_nodes.deref v = none := by
    cases hd : st.m_nodes.deref v with
    | none => rfl
    | some nd =>
      have := (h.nodeIff v).1 (by simp [hd])
      exact absurd this hvpre
  have hrootsome : ∀ r ∈ st.roots, ∃ rn, st.m_nodes.deref r = some rn := by
    intro r hr
    obtain ⟨rn, hrn, _⟩ := (h.rootsIff r).1 hr
    exact ⟨rn, hrn⟩
  obtain ⟨nodes1, hins, hlen1, hdv, hdk⟩ := insertNewNode_spec st.m_nodes st.roots v N
    (by rw [h.len]; exact hvn) hvnone hrootsome h.rootsNodup
  refine ⟨N, nodes1, _, hN, hins, ?_⟩
  have hadj := Graph.adj_elimStep h.simple v N hNnd
  have hnode := Graph.hasNode_elimStep h.simple v N hN
  -- the view of the new arena
  have hview : ∀ k nd1, nodes1.deref k = some nd1 → k ≠ v →
      ∃ nd, st.m_nodes.deref k = some nd ∧ nd1.m_var = nd.m_var
        ∧ nd1.m_contextS = nd.m_contextS ∧ nd1.m_children = nd.m_children
        ∧ nd1.m_cacheContextS = nd.m_cacheContextS
        ∧ nd1.m_cacheResetList = nd.m_cacheResetList ∧ nd1.m_functions = nd.m_functions
        ∧ nd1.m_parent = (if k ∈ st.roots ∧ v ∈ nd.m_contextS then some v else nd.m_parent) := by
    intro k nd1 hk1 hkv
    rw [hdk k hkv] at hk1
    cases hd : st.m_nodes.deref k with
    | none => simp [hd] at hk1
    | some nd =>
      simp only [hd, Option.map_some', Option.some.injEq] at hk1
      refine ⟨nd, rfl, ?_⟩
      subst hk1
      by_cases hc : k ∈ st.roots ∧ v ∈ nd.m_contextS
      · simp [hc, PseudotreeNode.setParent]
      · simp [hc]
  have hview2 : ∀ k nd, st.m_nodes.deref k = some nd →
      ∃ nd1, nodes1.deref k = some nd1 ∧ nd1.m_var = nd.m_var
        ∧ nd1.m_contextS = nd.m_contextS ∧ nd1.m_children = nd.m_children
        ∧ nd1.m_parent = (if k ∈ st.roots ∧ v ∈ nd.m_contextS then some v else nd.m_parent) := by
    intro k nd hd
    have hkv : k ≠ v := by
      intro e; subst e; rw [hvnone] at hd; cases hd
    rw [hdk k hkv, hd]
    by_cases hc : k ∈ st.roots ∧ v ∈ nd.m_contextS
    · exact ⟨_, rfl, by simp [hc, PseudotreeNode.setParent]⟩
    · exact ⟨_, rfl, by simp [hc]⟩
  have hatt : ∀ r, r ∈ st.roots.filter (fun r => decide (v ∈ st.m_nodes.ctx r))
      ↔ r ∈ st.roots ∧ v ∈ st.m_nodes.ctx r := by
    intro r; simp [List.mem_filter]
  have hattnd : (st.roots.filter (fun r => decide (v ∈ st.m_nodes.ctx r))).Nodup :=
    h.rootsNodup.filter _
  have hnew : ∀ nd1, nodes1.deref v = some nd1 →
      nd1 = (PseudotreeNode.new v N).addChildren
        (st.roots.filter (fun r => decide (v ∈ st.m_nodes.ctx r))) := by
    intro nd1 h1
    rw [hdv] at h1
    cases h1; rfl
  have hctxof : ∀ k nd, st.m_nodes.deref k = some nd → st.m_nodes.ctx k = nd.m_contextS := by
    intro k nd hd; simp [Arena.ctx, hd]
  refine ⟨Graph.rep_removeNode (Graph.rep_addClique N h.rep) v,
    Graph.simple_removeNode (Graph.simple_addClique h.simple N hNnd) v,
    ?gnodes, ?before, ?preLt, hlen1.trans h.len, ?nodeIff, ?var, ?rootsIff, ?rootsNodup,
    ?parent, ?children, ?ctxNodup, ?ctxLater, ?rootCtx, ?edges, ?ctxEdges, ?fresh⟩
  case gnodes =>
    intro k
    simp only [hnode, h.gnodes k, List.mem_append, List.mem_singleton]
    tauto
  case before =>
    intro k hk x hx
    have hx1 : x ∉ pre := fun hm => hx (List.mem_append_left _ hm)
    have hx2 : x ≠ v := fun e => hx (by simp [e])
    rcases List.mem_append.1 hk with hk | hk
    · exact h.before k hk x hx1
    · simp only [List.mem_singleton] at hk
      subst hk
      rw [hidxv]
      exact hidxother x hx1 hx2
  case preLt =>
    intro k hk
    rcases List.mem_append.1 hk with hk | hk
    · exact h.preLt k hk
    · simp only [List.mem_singleton] at hk
      subst hk
      exact hvn
  case nodeIff =>
    intro k
    by_cases hkv : k = v
    · subst hkv
      simp [hdv]
    · rw [hdk k hkv]
      have := h.nodeIff k
      simp only [List.mem_append, List.mem_singleton, hkv, or_false]
      rw [← this]
      cases st.m_nodes.deref k <;> simp
  case var =>
    intro k nd1 hd1
    by_cases hkv : k = v
    · subst hkv
      rw [hnew nd1 hd1]
      rfl
    · obtain ⟨nd, hd, hvar, _⟩ := hview k nd1 hd1 hkv
      rw [hvar]
      exact h.var k nd hd
  case rootsIff =>
    intro r
    simp only [List.mem_append, List.mem_filter, List.mem_singleton, decide_eq_true_eq]
    constructor
    · rintro (⟨hr, hvr⟩ | hr)
      · obtain ⟨rn, hrn, hpar⟩ := (h.rootsIff r).1 hr
        rw [hctxof r rn hrn] at hvr
        obtain ⟨nd1, h1, _, _, _, h5⟩ := hview2 r rn hrn
        refine ⟨nd1, h1, ?_⟩
        rw [h5]
        simp [hvr, hpar]
      · subst hr
        exact ⟨_, hdv, rfl⟩
    · rintro ⟨nd1, hd1, hpar⟩
      by_cases hrv : r = v
      · exact Or.inr hrv
      · left
        obtain ⟨nd, hd, _, _, _, _, _, _, h8⟩ := hview r nd1 hd1 hrv
        rw [hpar] at h8
        by_cases hc : r ∈ st.roots ∧ v ∈ nd.m_contextS
        · simp [hc] at h8
        · simp only [hc, if_false] at h8
          have hr : r ∈ st.roots := (h.rootsIff r).2 ⟨nd, hd, h8.symm⟩
          refine ⟨hr, ?_⟩
          rw [hctxof r nd hd]
          exact fun hm => hc ⟨hr, hm⟩
  case rootsNodup =>
    refine List.Nodup.append (h.rootsNodup.filter _) (List.nodup_singleton v) ?_
    simp only [List.disjoint_singleton]
    intro hm
    obtain ⟨rn, hrn⟩ := hrootsome v (List.mem_filter.1 hm).1
    rw [hvnone] at hrn
    cases hrn
  case parent =>
    intro k nd1 p hd1 hpar
    by_cases hkv : k = v
    · subst hkv
      rw [hnew nd1 hd1] at hpar
      simp [PseudotreeNode.new, PseudotreeNode.addChildren] at hpar
    · obtain ⟨nd, hd, _, hctx, _, _, _, _, h8⟩ := hview k nd1 hd1 hkv
      rw [hpar] at h8
      by_cases hc : k ∈ st.roots ∧ v ∈ nd.m_contextS
      · simp only [hc, and_self, if_true, Option.some.injEq] at h8
        subst h8
        have hkpre : k ∈ pre := (h.nodeIff k).1 (by simp [hd])
        refine ⟨by rw [hidxv]; exact hidxpre k hkpre, _, hdv, ?_, ?_⟩
        · simp only [PseudotreeNode.new, PseudotreeNode.addChildren, List.nil_append]
          apply List.count_eq_one_of_mem hattnd
          rw [hatt, hctxof k nd hd]
          exact hc
        · intro x hx
          rw [hctx] at hx
          by_cases hxp : x = p
          · exact Or.inl hxp
          · right
            simp only [PseudotreeNode.new, PseudotreeNode.addChildren]
            obtain ⟨rn, hrn, hrpar⟩ := (h.rootsIff k).1 hc.1
            rw [hd] at hrn
            cases hrn
            have := (h.rootCtx k nd hd hrpar).2 x hx p hc.2 hxp
            exact (hNadj x).2 (h.simple.sym x p this)
      · simp only [hc, if_false] at h8
        obtain ⟨hidx, pn, hpn, hcount, hcover⟩ := h.parent k nd p hd h8.symm
        obtain ⟨pn1, hpn1, _, hpctx, hpch, _⟩ := hview2 p pn hpn
        refine ⟨hidx, pn1, hpn1, by rw [hpch]; exact hcount, ?_⟩
        intro x hx
        rw [hctx] at hx
        rw [hpctx]
        exact hcover x hx
  case children =>
    intro p pn1 c hd1 hc
    by_cases hpv : p = v
    · subst hpv
      rw [hnew pn1 hd1] at hc
      simp only [PseudotreeNode.new, PseudotreeNode.addChildren, List.nil_append] at hc
      rw [hatt] at hc
      obtain ⟨rn, hrn⟩ := hrootsome c hc.1
      obtain ⟨cn1, hcn1, _, _, _, h5⟩ := hview2 c rn hrn
      refine ⟨cn1, hcn1, ?_⟩
      rw [h5]
      rw [hctxof c rn hrn] at hc
      simp [hc]
    · obtain ⟨pn, hpn, _, _, hch, _⟩ := hview p pn1 hd1 hpv
      rw [hch] at hc
      obtain ⟨cn, hcn, hcpar⟩ := h.children p pn c hpn hc
      obtain ⟨cn1, hcn1, _, _, _, h5⟩ := hview2 c cn hcn
      refine ⟨cn1, hcn1, ?_⟩
      rw [h5]
      have hnr : c ∉ st.roots := by
        intro hr
        obtain ⟨rn, hrn, hrpar⟩ := (h.rootsIff c).1 hr
        rw [hcn] at hrn
        cases hrn
        rw [hcpar] at hrpar
        cases hrpar
      simp [hnr, hcpar]
  case ctxNodup =>
    intro k nd1 hd1
    by_cases hkv : k = v
    · subst hkv
      rw [hnew nd1 hd1]
      exact hNnd
    · obtain ⟨nd, hd, _, hctx, _⟩ := hview k nd1 hd1 hkv
      rw [hctx]
      exact h.ctxNodup k nd hd
  case ctxLater =>
    intro k nd1 x hd1 hx
    by_cases hkv : k = v
    · subst hkv
      rw [hnew nd1 hd1] at hx
      have hxN : x ∈ N := hx
      refine ⟨(hNlive x hxN).1, ?_⟩
      rw [hidxv]
      exact hidxother x (hNlive x hxN).2 (hNv x hxN)
    · obtain ⟨nd, hd, _, hctx, _⟩ := hview k nd1 hd1 hkv
      rw [hctx] at hx
      exact h.ctxLater k nd x hd hx
  case rootCtx =>
    intro r nd1 hd1 hpar
    by_cases hrv : r = v
    · subst hrv
      rw [hnew nd1 hd1]
      simp only [PseudotreeNode.new, PseudotreeNode.addChildren]
      refine ⟨?_, ?_⟩
      · intro x hx
        simp only [List.mem_append, List.mem_singleton, not_or]
        exact ⟨(hNlive x hx).2, hNv x hx⟩
      · intro x hx y hy hxy
        rw [hadj]
        exact ⟨hNv x hx, hNv y hy, Or.inr ⟨hx, hy, hxy⟩⟩
    · obtain ⟨nd, hd, _, hctx, _, _, _, _, h8⟩ := hview r nd1 hd1 hrv
      rw [hpar] at h8
      by_cases hc : r ∈ st.roots ∧ v ∈ nd.m_contextS
      · simp [hc] at h8
      · simp only [hc, if_false] at h8
        have hr : r ∈ st.roots := (h.rootsIff r).2 ⟨nd, hd, h8.symm⟩
        have hvctx : v ∉ nd.m_contextS := fun hm => hc ⟨hr, hm⟩
        obtain ⟨h1, h2⟩ := h.rootCtx r nd hd h8.symm
        rw [hctx]
        refine ⟨?_, ?_⟩
        · intro x hx
          simp only [List.mem_append, List.mem_singleton, not_or]
          exact ⟨h1 x hx, fun e => hvctx (e ▸ hx)⟩
        · intro x hx y hy hxy
          rw [hadj]
          exact ⟨fun e => hvctx (e ▸ hx), fun e => hvctx (e ▸ hy), Or.inl (h2 x hx y hy hxy)⟩
  case edges =>
    intro a b hab ha hb
    simp only [List.mem_append, List.mem_singleton, not_or] at ha hb
    rw [hadj]
    exact ⟨ha.2, hb.2, Or.inl (h.edges a b hab ha.1 hb.1)⟩
  case ctxEdges =>
    intro k nd1 x hd1 hkx hidx
    by_cases hkv : k = v
    · subst hkv
      rw [hnew nd1 hd1]
      simp only [PseudotreeNode.new, PseudotreeNode.addChildren]
      have hxpre : x ∉ pre := by
        intro hm
        have := hidxpre x hm
        omega
      exact (hNadj x).2 (h.edges k x hkx hvpre hxpre)
    · obtain ⟨nd, hd, _, hctx, _⟩ := hview k nd1 hd1 hkv
      rw [hctx]
      exact h.ctxEdges k nd x hd hkx hidx
  case fresh =>
    intro k nd1 hd1
    by_cases hkv : k = v
    · subst hkv
      rw [hnew nd1 hd1]
      simp [PseudotreeNode.new, PseudotreeNode.addChildren]
    · obtain ⟨nd, hd, _, _, _, h5, h6, h7, _⟩ := hview k nd1 hd1 hkv
      rw [h5, h6, h7]
      exact h.fresh k nd hd

theorem ForestInv.init_forest {G : Graph} {n : Nat} (elim : List Nat) (w : Int) (hrep : G.Rep)
    (hsim : G.Simple) (hnodes : G.NodesAre n) :
    ForestInv G n elim []
      { G := G, m_width := w, m_nodes := List.replicate n none, roots := [] } := by
  refine ⟨hrep, hsim, ?_, ?_, ?_, by simp, ?_, ?_, ?_, List.nodup_nil, ?_, ?_, ?_, ?_, ?_,
    ?_, ?_, ?_⟩
  · intro k; simpa using hnodes k
  · intro k hk; simp at hk
  · intro k hk; simp at hk
  · intro k; simp [Arena.deref_replicate]
  · intro k nd hd; simp [Arena.deref_replicate] at hd
  · intro r; simp [Arena.deref_replicate]
  · intro k nd p hd; simp [Arena.deref_replicate] at hd
  · intro p pn c hd; simp [Arena.deref_replicate] at hd
  · intro k nd hd; simp [Arena.deref_replicate] at hd
  · intro k nd x hd; simp [Arena.deref_replicate] at hd
  · intro r nd hd; simp [Arena.deref_replicate] at hd
  · intro a b hab _ _; exact hab
  · intro k nd x hd; simp [Arena.deref_replicate] at hd
  · intro k nd hd; simp [Arena.deref_replicate] at hd

theorem buildLoop_spec {G0 : Graph} {n : Nat} {elim : List Nat} (hnd : elim.Nodup)
    (hlt : ∀ k ∈ elim, k < n) :
    ∀ (rest pre : List Nat) (st : BuildState), pre ++ rest = elim →
      ForestInv G0 n elim pre st →
      ∃ st1, buildLoop rest st = some st1 ∧ ForestInv G0 n elim elim st1 := by
  intro rest
  induction rest with
  | nil =>
    intro pre st hsplit h
    simp only [List.append_nil] at hsplit
    subst hsplit
    exact ⟨st, rfl, h⟩
  | cons v rest ih =>
    intro pre st hsplit h
    obtain ⟨N, nodes1, roots1, hN, hins, h1⟩ := h.step_forest hsplit hnd hlt
    obtain ⟨st1, hb, h2⟩ := ih (pre ++ [v]) _ (by simpa using hsplit) h1
    refine ⟨st1, ?_, h2⟩
    simp only [buildLoop, hN, hins]
    exact hb

/-! ## Ancestors -/

theorem Arena.ancestors_stable {nodes : Arena} {ρ : Nat → Nat} {B : Nat}
    (hr : nodes.Ranked ρ B) :
    ∀ (f1 f2 : Nat) (po : Option Nat),
      (∀ p, po = some p → ρ p < B ∧ B ≤ f1 + ρ p) →
      (∀ p, po = some p → B ≤ f2 + ρ p) →
      nodes.ancestors f1 po = nodes.ancestors f2 po := by
  intro f1
  induction f1 with
  | zero =>
    intro f2 po h1 _
    cases po with
    | none => cases f2 <;> simp [Arena.ancestors]
    | some p =>
      have := h1 p rfl
      omega
  | succ f1 ih =>
    intro f2 po h1 h2
    cases po with
    | none => cases f2 <;> simp [Arena.ancestors]
    | some p =>
      have hp1 := h1 p rfl
      have hp2 := h2 p rfl
      cases f2 with
      | zero => omega
      | succ f2 =>
        simp only [Arena.ancestors]
        cases hd : nodes.deref p with
        | none => rfl
        | some nd =>
          simp only
          congr 1
          apply ih
          · intro q hq
            have := hr.up p nd q hd hq
            omega
          · intro q hq
            have := hr.up p nd q hd hq
            omega

theorem findInContext_eq_find {nodes : Arena} (hvar : ∀ k nd, nodes.deref k = some nd →
    nd.m_var = k) (ctxt : List Nat) :
    ∀ (f : Nat) (po : Option Nat),
      findInContext nodes ctxt f po = (nodes.ancestors f po).find? (fun q => decide (q ∈ ctxt)) := by
  intro f
  induction f with
  | zero => intro po; simp [findInContext, Arena.ancestors]
  | succ f ih =>
    intro po
    cases po with
    | none => simp [findInContext, Arena.ancestors]
    | some p =>
      simp only [findInContext, Arena.ancestors]
      cases hd : nodes.deref p with
      | none => simp
      | some nd =>
        simp only [hvar p nd hd, List.find?_cons]
        by_cases hm : p ∈ ctxt
        · simp [hm]
        · simp [hm, ih]

theorem Arena.ancestors_deref {nodes : Arena} :
    ∀ (f : Nat) (po : Option Nat) (q : Nat), q ∈ nodes.ancestors f po →
      ∃ nd, nodes.deref q = some nd := by
  intro f
  induction f with
  | zero => intro po q h; simp [Arena.ancestors] at h
  | succ f ih =>
    intro po q h
    cases po with
    | none => simp [Arena.ancestors] at h
    | some p =>
      simp only [Arena.ancestors] at h
      cases hd : nodes.deref p with
      | none => simp [hd] at h
      | some nd =>
        simp only [hd, List.mem_cons] at h
        rcases h with h | h
        · subst h; exact ⟨nd, hd⟩
        · exact ih _ q h

/-- The ranks along the ancestors are above the rank of the start. -/
theorem Arena.ancestors_rank {nodes : Arena} {ρ : Nat → Nat} {B : Nat}
    (hr : nodes.Ranked ρ B) :
    ∀ (f : Nat) (p q : Nat), q ∈ nodes.ancestors f (some p) → ρ p ≤ ρ q := by
  intro f
  induction f with
  | zero => intro p q h; simp [Arena.ancestors] at h
  | succ f ih =>
    intro p q h
    simp only [Arena.ancestors] at h
    cases hd : nodes.deref p with
    | none => simp [hd] at h
    | some nd =>
      simp only [hd, List.mem_cons] at h
      rcases h with h | h
      · subst h; exact le_refl _
      · cases hpar : nd.m_parent with
        | none =>
          rw [hpar] at h
          cases f <;> simp [Arena.ancestors] at h
        | some p2 =>
          rw [hpar] at h
          have := ih p2 q h
          have := hr.up p nd p2 hd hpar
          omega

theorem Arena.ancestors_nodup {nodes : Arena} {ρ : Nat → Nat} {B : Nat}
    (hr : nodes.Ranked ρ B) :
    ∀ (f : Nat) (po : Option Nat), (nodes.ancestors f po).Nodup := by
  intro f
  induction f with
  | zero => intro po; simp [Arena.ancestors]
  | succ f ih =>
    intro po
    cases po with
    | none => simp [Arena.ancestors]
    | some p =>
      simp only [Arena.ancestors]
      cases hd : nodes.deref p with
      | none => simp
      | some nd =>
        simp only
        refine List.nodup_cons.2 ⟨?_, ih _⟩
        intro hm
        cases hpar : nd.m_parent with
        | none =>
          rw [hpar] at hm
          cases f <;> simp [Arena.ancestors] at hm
        | some p2 =>
          rw [hpar] at hm
          have := Arena.ancestors_rank hr f p2 p hm
          have := hr.up p nd p2 hd hpar
          omega

theorem Arena.ctx_subset_ancestors {nodes : Arena} {ρ : Nat → Nat} {B : Nat}
    (hr : nodes.Ranked ρ B) (hc : nodes.Covered) :
    ∀ (f : Nat) (k : Nat) (nd : PseudotreeNode), nodes.deref k = some nd →
      (∀ p, nd.m_parent = some p → B ≤ f + ρ p) →
      ∀ x ∈ nd.m_contextS, x ∈ nodes.ancestors f nd.m_parent := by
  intro f
  induction f with
  | zero =>
    intro k nd hd hf x hx
    cases hpar : nd.m_parent with
    | none =>
      rw [(hc k nd hd).1 hpar] at hx
      simp at hx
    | some p =>
      have := hf p hpar
      have := hr.up k nd p hd hpar
      omega
  | succ f ih =>
    intro k nd hd hf x hx
    cases hpar : nd.m_parent with
    | none =>
      rw [(hc k nd hd).1 hpar] at hx
      simp at hx
    | some p =>
      obtain ⟨pn, hpn, hcov⟩ := (hc k nd hd).2 p hpar
      simp only [Arena.ancestors, hpn, List.mem_cons]
      rcases hcov x hx with h | h
      · exact Or.inl h
      · right
        apply ih p pn hpn _ x h
        intro p2 hp2
        have h1 := hf p hpar
        have h2 := hr.up p pn p2 hpn hp2
        omega

theorem Arena.filter_split {nodes : Arena} {ρ : Nat → Nat} {B : Nat}
    (hr : nodes.Ranked ρ B) (C : List Nat) (f0 : Nat) (hB : B ≤ f0) :
    ∀ (f : Nat) (po : Option Nat) (q : Nat),
      (∀ p, po = some p → ρ p < B ∧ B ≤ f + ρ p) →
      (nodes.ancestors f po).find? (fun x => decide (x ∈ C)) = some q →
      ∃ nd, nodes.deref q = some nd
        ∧ (nodes.ancestors f po).filter (fun x => decide (x ∈ C))
          = q :: (nodes.ancestors f0 nd.m_parent).filter (fun x => decide (x ∈ C)) := by
  intro f
  induction f with
  | zero => intro po q _ h; simp [Arena.ancestors] at h
  | succ f ih =>
    intro po q hf h
    cases po with
    | none => simp [Arena.ancestors] at h
    | some p =>
      have hp := hf p rfl
      simp only [Arena.ancestors] at h ⊢
      cases hd : nodes.deref p with
      | none => simp [hd] at h
      | some nd =>
        simp only [hd] at h ⊢
        have hen : ∀ p2, nd.m_parent = some p2 → ρ p2 < B ∧ B ≤ f + ρ p2 := by
          intro p2 hp2
          have := hr.up p nd p2 hd hp2
          omega
        by_cases hm : p ∈ C
        · simp only [List.find?_cons, hm, decide_True, Option.some.injEq] at h
          subst h
          refine ⟨nd, hd, ?_⟩
          simp only [List.filter_cons, hm, decide_True, if_true]
          congr 2
          apply Arena.ancestors_stable hr
          · exact hen
          · intro p2 hp2
            omega
        · simp only [List.find?_cons, hm, decide_False] at h
          obtain ⟨nd2, hnd2, heq⟩ := ih nd.m_parent q hen h
          refine ⟨nd2, hnd2, ?_⟩
          simp only [List.filter_cons, hm, decide_False]
          exact heq

theorem find_of_filter_ne_nil {α : Type} (p : α → Bool) (l : List α)
    (h : l.filter p ≠ []) : ∃ q, l.find? p = some q := by
  induction l with
  | nil => simp at h
  | cons a l ih =>
    by_cases ha : p a = true
    · exact ⟨a, by simp [List.find?_cons, ha]⟩
    · simp only [List.filter_cons, ha] at h
      obtain ⟨q, hq⟩ := ih (by simpa using h)
      exact ⟨q, by simp [List.find?_cons, ha, hq]⟩

theorem cacheWalk_spec {nodes : Arena} {ρ : Nat → Nat} {B : Nat}
    (hr : nodes.Ranked ρ B) (hB : B ≤ nodes.length + 1) (C : List Nat) :
    ∀ (j : Nat) (po : Option Nat) (acc : List Nat),
      (∀ p, po = some p → ρ p < B) →
      j ≤ ((nodes.ancestors (nodes.length + 1) po).filter (fun x => decide (x ∈ C))).length →
      ∃ p1, cacheWalk nodes C j po acc
          = some (p1, (((nodes.ancestors (nodes.length + 1) po).filter
              (fun x => decide (x ∈ C))).take j).foldl (fun a x => setInsert x a) acc)
        ∧ (∀ p, p1 = some p → ρ p < B)
        ∧ (nodes.ancestors (nodes.length + 1) p1).filter (fun x => decide (x ∈ C))
          = ((nodes.ancestors (nodes.length + 1) po).filter (fun x => decide (x ∈ C))).drop j := by
  intro j
  induction j with
  | zero =>
    intro po acc hpo _
    exact ⟨po, by simp [cacheWalk], hpo, by simp⟩
  | succ j ih =>
    intro po acc hpo hlen
    have hne : (nodes.ancestors (nodes.length + 1) po).filter (fun x => decide (x ∈ C)) ≠ [] := by
      intro he
      rw [he] at hlen
      simp at hlen
    obtain ⟨q, hq⟩ := find_of_filter_ne_nil _ _ hne
    obtain ⟨nd, hnd, hsplit⟩ := Arena.filter_split hr C (nodes.length + 1) hB
      (nodes.length + 1) po q
      (by intro p hp; have := hpo p hp; omega) hq
    have hfind : findInContext nodes C (nodes.length + 1) po = some q := by
      rw [findInContext_eq_find hr.var]; exact hq
    have hpo2 : ∀ p, nd.m_parent = some p → ρ p < B :=
      fun p hp => (hr.up q nd p hnd hp).2.1
    obtain ⟨p1, h1, h2, h3⟩ := ih nd.m_parent (setInsert nd.m_var acc) hpo2
      (by rw [hsplit] at hlen; simpa using hlen)
    have hvar := hr.var q nd hnd
    rw [hvar] at h1
    refine ⟨p1, ?_, h2, ?_⟩
    · simp only [cacheWalk, hfind, hnd, hvar, hsplit, List.take_succ_cons, List.foldl_cons]
      exact h1
    · rw [h3, hsplit]
      simp

/-! ## Related arenas -/

theorem Arena.Rel.left {R : PseudotreeNode → PseudotreeNode → Prop} {A B : Arena}
    (h : Arena.Rel R A B) {k : Nat} {a : PseudotreeNode} (ha : A.deref k = some a) :
    ∃ b, B.deref k = some b ∧ R a b := by
  have := h.2 k
  rw [ha] at this
  cases hb : B.deref k with
  | none => simp [hb] at this
  | some b => simp only [hb] at this; exact ⟨b, rfl, this⟩

theorem Arena.Rel.right {R : PseudotreeNode → PseudotreeNode → Prop} {A B : Arena}
    (h : Arena.Rel R A B) {k : Nat} {b : PseudotreeNode} (hb : B.deref k = some b) :
    ∃ a, A.deref k = some a ∧ R a b := by
  have := h.2 k
  rw [hb] at this
  cases ha : A.deref k with
  | none => simp [ha] at this
  | some a => simp only [ha] at this; exact ⟨a, rfl, this⟩

theorem Arena.Rel.none_iff {R : PseudotreeNode → PseudotreeNode → Prop} {A B : Arena}
    (h : Arena.Rel R A B) (k : Nat) : A.deref k = none ↔ B.deref k = none := by
  have := h.2 k
  cases ha : A.deref k <;> cases hb : B.deref k <;> simp [ha, hb] at this ⊢

theorem Arena.Rel.rel_refl {R : PseudotreeNode → PseudotreeNode → Prop}
    (hR : ∀ a, R a a) (A : Arena) : Arena.Rel R A A := by
  refine ⟨rfl, fun k => ?_⟩
  cases h : A.deref k with
  | none => trivial
  | some a => exact hR a

theorem Arena.Rel.rel_trans {R : PseudotreeNode → PseudotreeNode → Prop}
    (hR : ∀ a b c, R a b → R b c → R a c) {A B C : Arena}
    (h1 : Arena.Rel R A B) (h2 : Arena.Rel R B C) : Arena.Rel R A C := by
  refine ⟨h1.1.trans h2.1, fun k => ?_⟩
  cases ha : A.deref k with
  | none =>
    have := (h2.none_iff k).1 ((h1.none_iff k).1 ha)
    simp [this]
  | some a =>
    obtain ⟨b, hb, hab⟩ := h1.left ha
    obtain ⟨c, hc, hbc⟩ := h2.left hb
    simp only [hc]
    exact hR a b c hab hbc

theorem Arena.Rel.mono {R S : PseudotreeNode → PseudotreeNode → Prop}
    (hRS : ∀ a b, R a b → S a b) {A B : Arena} (h : Arena.Rel R A B) : Arena.Rel S A B := by
  refine ⟨h.1, fun k => ?_⟩
  cases ha : A.deref k with
  | none =>
    have := (h.none_iff k).1 ha
    simp [this]
  | some a =>
    obtain ⟨b, hb, hab⟩ := h.left ha
    simp only [hb]
    exact hRS a b hab

/-- One node changed by `f`, which keeps the relation. -/
theorem Arena.Rel.rel_modify {R : PseudotreeNode → PseudotreeNode → Prop}
    (hR : ∀ a, R a a) (A : Arena) (p : Nat) (f : PseudotreeNode → PseudotreeNode)
    (hf : ∀ a, R a (f a)) : Arena.Rel R A (A.modify p f) := by
  refine ⟨(Arena.length_modify A p f).symm, fun k => ?_⟩
  rw [Arena.deref_modify]
  by_cases hk : k = p
  · subst hk
    cases h : A.deref k with
    | none => simp
    | some a => simpa using hf a
  · simp only [hk, if_false]
    cases h : A.deref k with
    | none => trivial
    | some a => exact hR a

theorem Arena.ancestors_congr {R : PseudotreeNode → PseudotreeNode → Prop} {A B : Arena}
    (h : Arena.Rel R A B) (hpar : ∀ a b, R a b → a.m_parent = b.m_parent) :
    ∀ (f : Nat) (po : Option Nat), A.ancestors f po = B.ancestors f po := by
  intro f
  induction f with
  | zero => intro po; simp [Arena.ancestors]
  | succ f ih =>
    intro po
    cases po with
    | none => simp [Arena.ancestors]
    | some p =>
      simp only [Arena.ancestors]
      cases ha : A.deref p with
      | none =>
        rw [(h.none_iff p).1 ha]
      | some a =>
        obtain ⟨b, hb, hab⟩ := h.left ha
        simp only [hb, hpar a b hab, ih]

theorem Arena.Ranked.ranked_congr {R : PseudotreeNode → PseudotreeNode → Prop} {A B : Arena}
    (h : Arena.Rel R A B) (hvar : ∀ a b, R a b → a.m_var = b.m_var)
    (hpar : ∀ a b, R a b → a.m_parent = b.m_parent) {ρ : Nat → Nat} {n : Nat}
    (hr : A.Ranked ρ n) : B.Ranked ρ n := by
  refine ⟨?_, ?_⟩
  · intro k b hb
    obtain ⟨a, ha, hab⟩ := h.right hb
    rw [← hvar a b hab]
    exact hr.var k a ha
  · intro k b p hb hp
    obtain ⟨a, ha, hab⟩ := h.right hb
    rw [← hpar a b hab] at hp
    obtain ⟨h1, h2, h3⟩ := hr.up k a p ha hp
    refine ⟨h1, h2, ?_⟩
    cases hpa : A.deref p with
    | none => simp [hpa] at h3
    | some pa =>
      obtain ⟨pb, hpb, _⟩ := h.left hpa
      simp [hpb]

theorem Arena.Covered.covered_congr {R : PseudotreeNode → PseudotreeNode → Prop} {A B : Arena}
    (h : Arena.Rel R A B) (hpar : ∀ a b, R a b → a.m_parent = b.m_parent)
    (hctx : ∀ a b, R a b → a.m_contextS = b.m_contextS)
    (hc : A.Covered) : B.Covered := by
  intro k b hb
  obtain ⟨a, ha, hab⟩ := h.right hb
  rw [← hpar a b hab, ← hctx a b hab]
  refine ⟨(hc k a ha).1, ?_⟩
  intro p hp
  obtain ⟨pa, hpa, hcov⟩ := (hc k a ha).2 p hp
  obtain ⟨pb, hpb, hpab⟩ := h.left hpa
  refine ⟨pb, hpb, ?_⟩
  rw [← hctx pa pb hpab]
  exact hcov

theorem Arena.ctxAncestors_congr {R : PseudotreeNode → PseudotreeNode → Prop} {A B : Arena}
    (h : Arena.Rel R A B) (hpar : ∀ a b, R a b → a.m_parent = b.m_parent)
    (hctx : ∀ a b, R a b → a.m_contextS = b.m_contextS) (k : Nat) :
    A.ctxAncestors k = B.ctxAncestors k := by
  unfold Arena.ctxAncestors
  cases ha : A.deref k with
  | none => rw [(h.none_iff k).1 ha]
  | some a =>
    obtain ⟨b, hb, hab⟩ := h.left ha
    simp only [hb, hpar a b hab, hctx a b hab, h.1, Arena.ancestors_congr h hpar]

theorem Arena.cacheTarget_congr {R : PseudotreeNode → PseudotreeNode → Prop} {A B : Arena}
    (h : Arena.Rel R A B) (hpar : ∀ a b, R a b → a.m_parent = b.m_parent)
    (hctx : ∀ a b, R a b → a.m_contextS = b.m_contextS) (cachelimit : Int) (k : Nat) :
    A.cacheTarget cachelimit k = B.cacheTarget cachelimit k := by
  unfold Arena.cacheTarget
  rw [Arena.ctxAncestors_congr h hpar hctx]
  cases ha : A.deref k with
  | none => rw [(h.none_iff k).1 ha]
  | some a =>
    obtain ⟨b, hb, hab⟩ := h.left ha
    simp only [hb, hctx a b hab]

/-! ## The cache context loop -/

theorem PseudotreeNode.CacheRel.cache_refl (a : PseudotreeNode) : a.CacheRel a :=
  ⟨rfl, rfl, rfl, rfl, rfl⟩

theorem PseudotreeNode.CacheRel.cache_trans (a b c : PseudotreeNode) (h1 : a.CacheRel b)
    (h2 : b.CacheRel c) : a.CacheRel c :=
  ⟨h1.1.trans h2.1, h1.2.1.trans h2.2.1, h1.2.2.1.trans h2.2.2.1,
    h1.2.2.2.1.trans h2.2.2.2.1, h1.2.2.2.2.trans h2.2.2.2.2⟩

theorem filter_mem_perm {A C : List Nat} (hA : A.Nodup) (hC : C.Nodup)
    (hsub : ∀ x ∈ C, x ∈ A) : (A.filter (fun x => decide (x ∈ C))).Perm C := by
  rw [List.perm_ext_iff_of_nodup (hA.filter _) hC]
  intro x
  simp only [List.mem_filter, decide_eq_true_eq]
  exact ⟨fun h => h.2, fun h => ⟨hsub x h, h⟩⟩

theorem Arena.ctxAncestors_perm {nodes : Arena} {ρ : Nat → Nat} {B : Nat}
    (hr : nodes.Ranked ρ B) (hB : B ≤ nodes.length + 1) (hc : nodes.Covered)
    {i : Nat} {nd : PseudotreeNode} (hd : nodes.deref i = some nd)
    (hnd : nd.m_contextS.Nodup) : (nodes.ctxAncestors i).Perm nd.m_contextS := by
  unfold Arena.ctxAncestors
  simp only [hd]
  apply filter_mem_perm (Arena.ancestors_nodup hr _ _) hnd
  apply Arena.ctx_subset_ancestors hr hc _ i nd hd
  intro p _
  omega

theorem cacheContextNode_spec {nodes : Arena} {ρ : Nat → Nat} {B : Nat}
    (hr : nodes.Ranked ρ B) (hB : B ≤ nodes.length + 1) (hc : nodes.Covered)
    (cachelimit : Int) (hlim : cachelimit = NONE ∨ 0 ≤ cachelimit)
    {i : Nat} {nd : PseudotreeNode} (hd : nodes.deref i = some nd)
    (hnd : nd.m_contextS.Nodup) :
    ∃ nodes1, cacheContextNode cachelimit nodes i = some nodes1
      ∧ Arena.Rel PseudotreeNode.CacheRel nodes nodes1
      ∧ (∃ nd1, nodes1.deref i = some nd1
          ∧ nd1.m_cacheContextS = nodes.cacheTarget cachelimit i)
      ∧ ∀ k, k ≠ i → ∀ a b, nodes.deref k = some a → nodes1.deref k = some b →
          b.m_cacheContextS = a.m_cacheContextS := by
  have hperm := Arena.ctxAncestors_perm hr hB hc hd hnd
  unfold cacheContextNode
  simp only [hd]
  by_cases hfull : cachelimit = NONE ∨ cachelimit ≥ (nd.m_contextS.length : Int)
  · simp only [hfull, if_true]
    refine ⟨_, rfl, Arena.Rel.rel_modify PseudotreeNode.CacheRel.cache_refl _ _ _
      (fun a => ⟨rfl, rfl, rfl, rfl, rfl⟩), ?_, ?_⟩
    · refine ⟨nd.setCacheContext nd.m_contextS, ?_, ?_⟩
      · rw [Arena.deref_modify]; simp [hd]
      · simp [Arena.cacheTarget, hd, hfull, PseudotreeNode.setCacheContext]
    · intro k hk a b ha hb
      rw [Arena.deref_modify] at hb
      simp only [hk, if_false] at hb
      rw [ha] at hb
      cases hb; rfl
  · simp only [hfull, if_false]
    have hnn : cachelimit ≠ NONE := fun e => hfull (Or.inl e)
    have h0 : 0 ≤ cachelimit := by
      rcases hlim with h | h
      · exact absurd h hnn
      · exact h
    have hlt : ¬ cachelimit < 0 := by omega
    have hj : cachelimit.toNat < nd.m_contextS.length := by
      have : ¬ cachelimit ≥ (nd.m_contextS.length : Int) := fun e => hfull (Or.inr e)
      omega
    simp only [hlt, if_false]
    have hlenA : ((nodes.ancestors (nodes.length + 1) nd.m_parent).filter
        (fun x => decide (x ∈ nd.m_contextS))).length = nd.m_contextS.length := by
      have := hperm.length_eq
      simpa [Arena.ctxAncestors, hd] using this
    obtain ⟨p1, hw, hp1, hdrop⟩ := cacheWalk_spec hr hB nd.m_contextS cachelimit.toNat
      nd.m_parent []
      (fun p hp => (hr.up i nd p hd hp).2.1)
      (by rw [hlenA]; omega)
    simp only [hw]
    have hrel1 : ∀ l : List Nat, Arena.Rel PseudotreeNode.CacheRel nodes
        (nodes.modify i (fun x => x.setCacheContext l)) :=
      fun l => Arena.Rel.rel_modify PseudotreeNode.CacheRel.cache_refl _ _ _
        (fun a => ⟨rfl, rfl, rfl, rfl, rfl⟩)
    have hne : ((nodes.ancestors (nodes.length + 1) p1).filter
        (fun x => decide (x ∈ nd.m_contextS))) ≠ [] := by
      rw [hdrop]
      intro he
      have := congrArg List.length he
      simp only [List.length_drop, List.length_nil, hlenA] at this
      omega
    obtain ⟨q, hq⟩ := find_of_filter_ne_nil _ _ hne
    have hfind : ∀ l : List Nat,
        findInContext (nodes.modify i (fun x => x.setCacheContext l)) nd.m_contextS
          ((nodes.modify i (fun x => x.setCacheContext l)).length + 1) p1 = some q := by
      intro l
      have hr1 := Arena.Ranked.ranked_congr (hrel1 l) (fun a b h => h.1) (fun a b h => h.2.1) hr
      have hanc := Arena.ancestors_congr (hrel1 l) (fun a b h => h.2.1)
      rw [findInContext_eq_find hr1.var, ← hanc, Arena.length_modify]
      exact hq
    simp only [hfind]
    have hdd : ∀ (l : List Nat) (w k : Nat),
        Arena.deref ((nodes.modify i (fun x => x.setCacheContext l)).modify q
          (fun x => x.addCacheReset w)) k
        = ((nodes.deref k).map (fun x => if k = i then x.setCacheContext l else x)).map
            (fun x => if k = q then x.addCacheReset w else x) := by
      intro l w k
      simp only [Arena.deref_modify]
      by_cases hkq : k = q
      · by_cases hki : k = i
        · subst hki
          subst hkq
          cases nodes.deref k <;> simp
        · subst hkq
          cases nodes.deref k <;> simp [hki]
      · by_cases hki : k = i
        · subst hki
          cases nodes.deref k <;> simp [hkq]
        · cases nodes.deref k <;> simp [hkq, hki]
    refine ⟨_, rfl, ?_, ?_, ?_⟩
    · exact Arena.Rel.rel_trans PseudotreeNode.CacheRel.cache_trans (hrel1 _)
        (Arena.Rel.rel_modify PseudotreeNode.CacheRel.cache_refl _ _ _
          (fun a => ⟨rfl, rfl, rfl, rfl, rfl⟩))
    · rw [hdd, hd]
      simp only [Option.map_some', if_true]
      refine ⟨_, rfl, ?_⟩
      have ht : nodes.cacheTarget cachelimit i
          = (((nodes.ancestors (nodes.length + 1) nd.m_parent).filter
              (fun x => decide (x ∈ nd.m_contextS))).take cachelimit.toNat).foldl
                (fun a x => setInsert x a) [] := by
        simp only [Arena.cacheTarget, hd, hfull, if_false, Arena.ctxAncestors]
      rw [ht]
      by_cases hiq : i = q
      · simp only [hiq, if_true]
        rfl
      · simp only [hiq, if_false]
        rfl
    · intro k hk a b ha hb
      rw [hdd, ha] at hb
      simp only [Option.map_some', hk, if_false, Option.some.injEq] at hb
      rw [← hb]
      by_cases hkq : k = q
      · simp only [hkq, if_true]
        rfl
      · simp only [hkq, if_false]

theorem cacheContextLoop_spec {F : Arena} {ρ : Nat → Nat} {B : Nat}
    (hr : F.Ranked ρ B) (hB : B ≤ F.length + 1) (hc : F.Covered)
    (hnd : ∀ k nd, F.deref k = some nd → nd.m_contextS.Nodup)
    (cachelimit : Int) (hlim : cachelimit = NONE ∨ 0 ≤ cachelimit) :
    ∀ (L done : List Nat) (nodes : Arena),
      (∀ i ∈ L, (F.deref i).isSome = true) →
      Arena.Rel PseudotreeNode.CacheRel F nodes →
      (∀ i ∈ done, ∀ nd, nodes.deref i = some nd →
        nd.m_cacheContextS = F.cacheTarget cachelimit i) →
      ∃ nodes1, cacheContextLoop cachelimit L nodes = some nodes1
        ∧ Arena.Rel PseudotreeNode.CacheRel F nodes1
        ∧ ∀ i ∈ done ++ L, ∀ nd, nodes1.deref i = some nd →
            nd.m_cacheContextS = F.cacheTarget cachelimit i := by
  intro L
  induction L with
  | nil =>
    intro done nodes _ hrel hdone
    exact ⟨nodes, rfl, hrel, by simpa using hdone⟩
  | cons i L ih =>
    intro done nodes hL hrel hdone
    have hr2 := Arena.Ranked.ranked_congr hrel (fun a b h => h.1) (fun a b h => h.2.1) hr
    have hc2 := Arena.Covered.covered_congr hrel (fun a b h => h.2.1) (fun a b h => h.2.2.1) hc
    have hFi := hL i (List.mem_cons_self i L)
    cases hFd : F.deref i with
    | none => simp [hFd] at hFi
    | some fnd =>
      obtain ⟨nd, hd, hfn⟩ := hrel.left hFd
      have hnd2 : nd.m_contextS.Nodup := by
        rw [← hfn.2.2.1]; exact hnd i fnd hFd
      obtain ⟨nodes1, h1, hrel1, ⟨nd1, hd1, hcache⟩, hother⟩ :=
        cacheContextNode_spec hr2 (by rw [← hrel.1]; exact hB) hc2 cachelimit hlim hd hnd2
      have hrelF : Arena.Rel PseudotreeNode.CacheRel F nodes1 :=
        Arena.Rel.rel_trans PseudotreeNode.CacheRel.cache_trans hrel hrel1
      have htar : nodes.cacheTarget cachelimit i = F.cacheTarget cachelimit i :=
        (Arena.cacheTarget_congr hrel (fun a b h => h.2.1) (fun a b h => h.2.2.1)
          cachelimit i).symm
      obtain ⟨nodes2, h2, hrel2, hall⟩ := ih (done ++ [i]) nodes1
        (fun j hj => hL j (List.mem_cons_of_mem _ hj)) hrelF
        (by
          intro j hj ndj hdj
          by_cases hji : j = i
          · subst hji
            rw [hd1] at hdj
            cases hdj
            rw [hcache, htar]
          · have hjd : j ∈ done := by
              rcases List.mem_append.1 hj with h | h
              · exact h
              · simp only [List.mem_singleton] at h
                exact absurd h hji
            obtain ⟨a, ha, _⟩ := hrel1.right hdj
            rw [hother j hji a ndj ha hdj]
            exact hdone j hjd a ha)
      refine ⟨nodes2, ?_, hrel2, ?_⟩
      · simp only [cacheContextLoop, h1]
        exact h2
      · intro j hj
        apply hall j
        simpa using hj

/-! ## The dummy root -/

theorem attachToDummy_spec (bogus : Nat) : ∀ (roots : List Nat) (nodes : Arena) (comps : Int),
    (∀ r ∈ roots, r ≠ bogus ∧ ∃ rn, nodes.deref r = some rn) →
    ∃ T, attachToDummy bogus roots nodes comps = some (T, comps + (roots.length : Int))
      ∧ T.length = nodes.length
      ∧ ∀ k, T.deref k =
          if k = bogus then (nodes.deref bogus).map (fun x => x.addChildren roots)
          else (nodes.deref k).map
            (fun x => if k ∈ roots then x.setParent (some bogus) else x) := by
  intro roots
  induction roots with
  | nil =>
    intro nodes comps _
    refine ⟨nodes, by simp [attachToDummy], rfl, ?_⟩
    intro k
    by_cases hk : k = bogus
    · subst hk
      cases h : nodes.deref k <;> simp [PseudotreeNode.addChildren]
    · cases h : nodes.deref k <;> simp [hk]
  | cons r rest ih =>
    intro nodes comps hall
    obtain ⟨hrb, rn, hrn⟩ := hall r (List.mem_cons_self r rest)
    have hd1 : ∀ k, Arena.deref ((nodes.modify bogus (fun p => p.addChild r)).modify r
        (fun x => x.setParent (some bogus))) k
        = if k = r then (nodes.deref r).map (fun x => x.setParent (some bogus))
          else if k = bogus then (nodes.deref bogus).map (fun p => p.addChild r)
          else nodes.deref k := by
      intro k
      simp only [Arena.deref_modify]
      by_cases hkr : k = r
      · subst hkr
        simp [hrb]
      · simp [hkr]
    obtain ⟨T, h1, h2, h3⟩ := ih
      ((nodes.modify bogus (fun p => p.addChild r)).modify r (fun x => x.setParent (some bogus)))
      (comps + 1)
      (by
        intro r2 hr2
        obtain ⟨h2b, rn2, hrn2⟩ := hall r2 (List.mem_cons_of_mem _ hr2)
        refine ⟨h2b, ?_⟩
        rw [hd1]
        by_cases h2r : r2 = r
        · subst h2r; simp [hrn]
        · simp [h2r, h2b, hrn2])
    refine ⟨T, ?_, ?_, ?_⟩
    · simp only [attachToDummy, hrn, h1, List.length_cons, Nat.cast_add, Nat.cast_one]
      congr 2
      omega
    · rw [h2, Arena.length_modify, Arena.length_modify]
    · intro k
      rw [h3]
      simp only [hd1]
      by_cases hkb : k = bogus
      · subst hkb
        have hbr : k ≠ r := fun e => hrb e.symm
        simp only [if_true, hbr, if_false]
        cases h : nodes.deref k with
        | none => simp
        | some pk => simp [PseudotreeNode.addChild, PseudotreeNode.addChildren]
      · simp only [hkb, if_false, List.mem_cons]
        by_cases hkr : k = r
        · subst hkr
          simp only [if_true, true_or, hrn, Option.map_some', Option.some.injEq]
          by_cases hm : k ∈ rest
          · simp [hm, PseudotreeNode.setParent]
          · simp [hm]
        · simp only [hkr, if_false, false_or]

/-- The ancestors in the tree with the dummy root `n` are the ancestors in the forest and
then the dummy. -/
theorem Arena.ancestors_with_dummy {F T : Arena} {ρ : Nat → Nat} {n : Nat}
    (hr : F.Ranked ρ n)
    (hT : ∀ k fnd, F.deref k = some fnd → ∃ nd, T.deref k = some nd
      ∧ nd.m_parent = (if fnd.m_parent = none then some n else fnd.m_parent))
    (hTn : ∃ rd, T.deref n = some rd ∧ rd.m_parent = none) :
    ∀ (f : Nat) (p : Nat), ρ p < n → n ≤ f + ρ p → (F.deref p).isSome = true →
      T.ancestors (f + 1) (some p) = F.ancestors f (some p) ++ [n] := by
  obtain ⟨rd, hrd, hrdpar⟩ := hTn
  intro f
  induction f with
  | zero => intro p h1 h2; omega
  | succ f ih =>
    intro p h1 h2 h3
    cases hfd : F.deref p with
    | none => simp [hfd] at h3
    | some fnd =>
      obtain ⟨nd, hnd, hpar⟩ := hT p fnd hfd
      have hunf : T.ancestors (f + 1 + 1) (some p) = p :: T.ancestors (f + 1) nd.m_parent := by
        simp [Arena.ancestors, hnd]
      rw [hunf]
      simp only [Arena.ancestors, hfd, List.cons_append, List.cons.injEq, true_and]
      cases hfp : fnd.m_parent with
      | none =>
        rw [hfp] at hpar
        simp only [if_true] at hpar
        rw [hpar]
        have : F.ancestors f none = [] := by cases f <;> simp [Arena.ancestors]
        rw [this]
        simp only [Arena.ancestors, hrd, hrdpar, List.nil_append, List.cons.injEq, true_and]
        cases f <;> simp [Arena.ancestors]
      | some p2 =>
        rw [hfp] at hpar
        simp only [reduceCtorEq, if_false] at hpar
        rw [hpar]
        obtain ⟨hu1, hu2, hu3⟩ := hr.up p fnd p2 hfd hfp
        exact ih p2 hu2 (by omega) hu3

/-! ## From the forest to the tree -/

theorem perm_range_facts {elim : List Nat} {n : Nat} (hperm : elim.Perm (List.range n)) :
    elim.Nodup ∧ elim.length = n ∧ (∀ k, k ∈ elim ↔ k < n) := by
  refine ⟨(hperm.nodup_iff).2 (List.nodup_range n), by simpa using hperm.length_eq, ?_⟩
  intro k
  rw [hperm.mem_iff, List.mem_range]

theorem indexOf_lt_of_lt {elim : List Nat} {n : Nat} (hperm : elim.Perm (List.range n))
    {k : Nat} (hk : k < n) : elim.indexOf k < n := by
  obtain ⟨_, hlen, hmem⟩ := perm_range_facts hperm
  have := List.indexOf_lt_length.2 ((hmem k).2 hk)
  omega

theorem indexOf_dummy {elim : List Nat} {n : Nat} (hperm : elim.Perm (List.range n)) :
    elim.indexOf n = n := by
  obtain ⟨_, hlen, hmem⟩ := perm_range_facts hperm
  have hn : n ∉ elim := fun h => by have := (hmem n).1 h; omega
  rw [List.indexOf_of_not_mem hn, hlen]

theorem ForestInv.root_ctx {G0 : Graph} {n : Nat} {elim : List Nat} {st : BuildState}
    (hperm : elim.Perm (List.range n)) (h : ForestInv G0 n elim elim st)
    {k : Nat} {nd : PseudotreeNode} (hd : st.m_nodes.deref k = some nd)
    (hpar : nd.m_parent = none) : nd.m_contextS = [] := by
  obtain ⟨_, _, hmem⟩ := perm_range_facts hperm
  apply List.eq_nil_iff_forall_not_mem.2
  intro x hx
  exact (h.rootCtx k nd hd hpar).1 x hx ((hmem x).2 (h.ctxLater k nd x hd hx).1)

theorem ForestInv.done {G0 : Graph} {n : Nat} {elim : List Nat} {st : BuildState}
    (hperm : elim.Perm (List.range n)) (h : ForestInv G0 n elim elim st) :
    ForestDone G0 n elim st.m_nodes st.roots := by
  obtain ⟨_, _, hmem⟩ := perm_range_facts hperm
  exact ⟨h.len, fun k hk => (h.nodeIff k).2 ((hmem k).2 hk), h.var, h.rootsIff, h.rootsNodup,
    h.parent, h.children, h.ctxNodup, h.ctxLater, fun r nd hd hp => h.root_ctx hperm hd hp,
    h.ctxEdges⟩

theorem ForestDone.node_lt {G0 : Graph} {n : Nat} {elim : List Nat} {F : Arena}
    {roots : List Nat} (h : ForestDone G0 n elim F roots) {k : Nat} {nd : PseudotreeNode}
    (hd : F.deref k = some nd) : k < n := by
  rw [← h.len]; exact Arena.deref_lt hd

theorem ForestDone.ranked {G0 : Graph} {n : Nat} {elim : List Nat} {F : Arena}
    {roots : List Nat} (hperm : elim.Perm (List.range n)) (h : ForestDone G0 n elim F roots) :
    F.Ranked elim.indexOf n := by
  refine ⟨h.var, ?_⟩
  intro k nd p hd hp
  obtain ⟨hidx, pn, hpn, _⟩ := h.parent k nd p hd hp
  exact ⟨hidx, indexOf_lt_of_lt hperm (h.node_lt hpn), by simp [hpn]⟩

theorem ForestDone.covered {G0 : Graph} {n : Nat} {elim : List Nat} {F : Arena}
    {roots : List Nat} (h : ForestDone G0 n elim F roots) : F.Covered := by
  intro k nd hd
  refine ⟨fun hpar => h.rootCtx k nd hd hpar, ?_⟩
  intro p hp
  obtain ⟨_, pn, hpn, _, hcov⟩ := h.parent k nd p hd hp
  exact ⟨pn, hpn, hcov⟩

theorem tree_of_forest {G0 : Graph} {n : Nat} {elim : List Nat} {cachelimit : Int}
    {F : Arena} {roots : List Nat} {nodes1 : Arena} (hperm : elim.Perm (List.range n))
    (h : ForestDone G0 n elim F roots)
    (hrel : Arena.Rel PseudotreeNode.CacheRel F nodes1)
    (hcache : ∀ i ∈ List.range n, ∀ nd, nodes1.deref i = some nd →
      nd.m_cacheContextS = F.cacheTarget cachelimit i)
    (comps : Int) :
    ∃ T, attachToDummy n roots (nodes1 ++ [some (PseudotreeNode.new n [])]) comps
        = some (T, comps + (roots.length : Int))
      ∧ TreeInv G0 n elim cachelimit T := by
  obtain ⟨hnd, hlen, hmem⟩ := perm_range_facts hperm
  have hlen1 : nodes1.length = n := by rw [← hrel.1, h.len]
  have hranked := h.ranked hperm
  have hA0 : ∀ k, Arena.deref (nodes1 ++ [some (PseudotreeNode.new n [])]) k
      = if k < n then nodes1.deref k
        else if k = n then some (PseudotreeNode.new n []) else none := by
    intro k
    rw [Arena.deref_append, hlen1]
  have hrootF : ∀ r ∈ roots, ∃ fnd, F.deref r = some fnd ∧ fnd.m_parent = none :=
    fun r hr => (h.rootsIff r).1 hr
  obtain ⟨T, hT1, hT2, hT3⟩ := attachToDummy_spec n roots
    (nodes1 ++ [some (PseudotreeNode.new n [])]) comps
    (by
      intro r hr
      obtain ⟨fnd, hfnd, _⟩ := hrootF r hr
      have hrn : r < n := h.node_lt hfnd
      obtain ⟨nd1, hnd1, _⟩ := hrel.left hfnd
      refine ⟨by omega, nd1, ?_⟩
      rw [hA0]
      simp [hrn, hnd1])
  refine ⟨T, hT1, ?_⟩
  have hTn : T.deref n = some ((PseudotreeNode.new n []).addChildren roots) := by
    simp only [hT3, hA0, if_true, lt_irrefl, if_false, Option.map_some']
  have hview : ∀ k, k < n → ∃ fnd nd, F.deref k = some fnd ∧ T.deref k = some nd
      ∧ nd.m_var = k ∧ nd.m_contextS = fnd.m_contextS ∧ nd.m_children = fnd.m_children
      ∧ nd.m_parent = (if fnd.m_parent = none then some n else fnd.m_parent)
      ∧ nd.m_cacheContextS = F.cacheTarget cachelimit k
      ∧ (k ∈ roots ↔ fnd.m_parent = none) := by
    intro k hk
    have hsome : (F.deref k).isSome = true := h.nodeSome k hk
    cases hfd : F.deref k with
    | none => simp [hfd] at hsome
    | some fnd =>
      obtain ⟨nd1, hnd1, hcr⟩ := hrel.left hfd
      have hkn : k ≠ n := by omega
      have hroot : k ∈ roots ↔ fnd.m_parent = none := by
        rw [h.rootsIff k]
        constructor
        · rintro ⟨x, hx, hxp⟩
          rw [hfd] at hx; cases hx; exact hxp
        · intro hp; exact ⟨fnd, hfd, hp⟩
      have hc := hcache k (List.mem_range.2 hk) nd1 hnd1
      refine ⟨fnd, if k ∈ roots then nd1.setParent (some n) else nd1, rfl, ?_, ?_, ?_, ?_,
        ?_, ?_, hroot⟩
      · simp only [hT3, hA0, hkn, hk, if_true, if_false, hnd1, Option.map_some']
      · by_cases hr : k ∈ roots
        · simp only [hr, if_true, PseudotreeNode.setParent]
          rw [← hcr.1]; exact h.var k fnd hfd
        · simp only [hr, if_false]
          rw [← hcr.1]; exact h.var k fnd hfd
      · by_cases hr : k ∈ roots
        · simp only [hr, if_true, PseudotreeNode.setParent]; exact hcr.2.2.1.symm
        · simp only [hr, if_false]; exact hcr.2.2.1.symm
      · by_cases hr : k ∈ roots
        · simp only [hr, if_true, PseudotreeNode.setParent]; exact hcr.2.2.2.1.symm
        · simp only [hr, if_false]; exact hcr.2.2.2.1.symm
      · by_cases hr : k ∈ roots
        · simp only [hr, if_true, PseudotreeNode.setParent, hroot.1 hr]
        · have hp : ¬ fnd.m_parent = none := fun e => hr (hroot.2 e)
          simp only [hr, if_false, hp]
          exact hcr.2.1.symm
      · by_cases hr : k ∈ roots
        · simp only [hr, if_true, PseudotreeNode.setParent]; exact hc
        · simp only [hr, if_false]; exact hc
  have hgt : ∀ k, n < k → T.deref k = none := by
    intro k hk
    have h1 : ¬ k = n := by omega
    have h2 : ¬ k < n := by omega
    simp only [hT3, hA0, h1, h2, if_false, Option.map_none']
  have hTlt : ∀ k nd, T.deref k = some nd → k ≤ n := by
    intro k nd hd
    by_contra hk
    rw [hgt k (by omega)] at hd
    cases hd
  have hTF : ∀ k fnd, F.deref k = some fnd → ∃ nd, T.deref k = some nd
      ∧ nd.m_parent = (if fnd.m_parent = none then some n else fnd.m_parent) := by
    intro k fnd hfd
    obtain ⟨fnd2, nd, h1, h2, _, _, _, h6, _⟩ := hview k (h.node_lt hfd)
    rw [hfd] at h1
    cases h1
    exact ⟨nd, h2, h6⟩
  refine ⟨by rw [hT2]; simp [hlen1], ?node, ⟨_, hTn, rfl, rfl, rfl⟩, ?parent, ?children,
    ?ctxNodup, ?ctxLater, ?ctxEdges, ?cache⟩
  case node =>
    intro k hk
    by_cases hkn : k = n
    · rw [hkn]
      exact ⟨_, hTn, rfl⟩
    · obtain ⟨fnd, nd, _, h2, h3, _⟩ := hview k (by omega)
      exact ⟨nd, h2, h3⟩
  case parent =>
    intro k nd hk hd
    obtain ⟨fnd, nd2, h1, h2, _, h4, _, h6, _, h8⟩ := hview k hk
    rw [hd] at h2
    cases h2
    cases hfp : fnd.m_parent with
    | none =>
      have hctx : nd.m_contextS = [] := by rw [h4]; exact h.rootCtx k fnd h1 hfp
      refine ⟨n, _, by rw [h6, hfp]; simp, Or.inl rfl, hTn, ?_, ?_, fun _ => hctx⟩
      · simp only [PseudotreeNode.new, PseudotreeNode.addChildren, List.nil_append]
        exact List.count_eq_one_of_mem h.rootsNodup (h8.2 hfp)
      · intro x hx
        rw [hctx] at hx
        simp at hx
    | some p =>
      obtain ⟨hidx, pn, hpn, hcount, hcov⟩ := h.parent k fnd p h1 hfp
      have hpn_lt : p < n := h.node_lt hpn
      obtain ⟨fpn, npn, g1, g2, _, g4, g5, _⟩ := hview p hpn_lt
      rw [hpn] at g1
      cases g1
      refine ⟨p, npn, by rw [h6, hfp]; simp, Or.inr ⟨hpn_lt, hidx⟩, g2, by rw [g5]; exact hcount,
        ?_, fun e => by omega⟩
      intro x hx
      rw [h4] at hx
      rw [g4]
      exact hcov x hx
  case children =>
    intro p pn c hd hc
    by_cases hpn : p = n
    · rw [hpn] at hd
      rw [hTn] at hd
      cases hd
      simp only [PseudotreeNode.new, PseudotreeNode.addChildren, List.nil_append] at hc
      obtain ⟨fnd, hfnd, hfpar⟩ := hrootF c hc
      have hcn : c < n := h.node_lt hfnd
      obtain ⟨fnd2, nd, h1, h2, _, _, _, h6, _⟩ := hview c hcn
      rw [hfnd] at h1
      cases h1
      exact ⟨hcn, nd, h2, by rw [h6, hfpar]; simp [hpn]⟩
    · have hplt : p < n := by
        have := hTlt p pn hd
        omega
      obtain ⟨fpn, npn, g1, g2, _, _, g5, _⟩ := hview p hplt
      rw [hd] at g2
      cases g2
      rw [g5] at hc
      obtain ⟨cn, hcn, hcpar⟩ := h.children p fpn c g1 hc
      have hclt : c < n := h.node_lt hcn
      obtain ⟨fnd2, nd, h1, h2, _, _, _, h6, _⟩ := hview c hclt
      rw [hcn] at h1
      cases h1
      exact ⟨hclt, nd, h2, by rw [h6, hcpar]; simp⟩
  case ctxNodup =>
    intro k nd hd
    by_cases hkn : k = n
    · rw [hkn] at hd
      rw [hTn] at hd
      cases hd
      simp [PseudotreeNode.new, PseudotreeNode.addChildren]
    · have hk : k < n := by
        have := hTlt k nd hd
        omega
      obtain ⟨fnd, nd2, h1, h2, _, h4, _⟩ := hview k hk
      rw [hd] at h2
      cases h2
      rw [h4]
      exact h.ctxNodup k fnd h1
  case ctxLater =>
    intro k nd x hd hx
    by_cases hkn : k = n
    · rw [hkn] at hd
      rw [hTn] at hd
      cases hd
      simp [PseudotreeNode.new, PseudotreeNode.addChildren] at hx
    · have hk : k < n := by
        have := hTlt k nd hd
        omega
      obtain ⟨fnd, nd2, h1, h2, _, h4, _⟩ := hview k hk
      rw [hd] at h2
      cases h2
      rw [h4] at hx
      exact h.ctxLater k fnd x h1 hx
  case ctxEdges =>
    intro k nd x hk hd hadj hidx
    obtain ⟨fnd, nd2, h1, h2, _, h4, _⟩ := hview k hk
    rw [hd] at h2
    cases h2
    rw [h4]
    exact h.ctxEdges k fnd x h1 hadj hidx
  case cache =>
    intro k nd hk hd
    obtain ⟨fnd, nd2, h1, h2, _, h4, _, h6, h7, _⟩ := hview k hk
    rw [hd] at h2
    cases h2
    rw [h7]
    have hanc : T.ctxAncestors k = F.ctxAncestors k := by
      simp only [Arena.ctxAncestors, hd, h1, h4]
      cases hfp : fnd.m_parent with
      | none =>
        have hctx := h.rootCtx k fnd h1 hfp
        simp [hctx]
      | some p =>
        rw [h6, hfp]
        simp only [reduceCtorEq, if_false]
        obtain ⟨_, hu2, hu3⟩ := hranked.up k fnd p h1 hfp
        have hT2b : T.length = n + 1 := by rw [hT2]; simp [hlen1]
        rw [hT2b, h.len]
        rw [Arena.ancestors_with_dummy hranked hTF ⟨_, hTn, rfl⟩ (n + 1) p hu2 (by omega) hu3]
        rw [List.filter_append]
        have hn : n ∉ fnd.m_contextS := fun hm => by
          have := (h.ctxLater k fnd n h1 hm).1
          omega
        simp [hn]
    simp only [Arena.cacheTarget, hd, h1, h4, hanc]

/-! ## The recursive updates keep the tree -/

theorem PseudotreeNode.Similar.node_refl (a : PseudotreeNode) : a.Similar a :=
  ⟨⟨rfl, rfl, rfl, List.Perm.refl _⟩, rfl, rfl, rfl⟩

theorem PseudotreeNode.Similar.node_trans (a b c : PseudotreeNode) (h1 : a.Similar b)
    (h2 : b.Similar c) : a.Similar c :=
  ⟨⟨h1.1.1.trans h2.1.1, h1.1.2.1.trans h2.1.2.1, h1.1.2.2.1.trans h2.1.2.2.1,
    h1.1.2.2.2.trans h2.1.2.2.2⟩, h1.2.1.trans h2.2.1, h1.2.2.1.trans h2.2.2.1,
    h1.2.2.2.trans h2.2.2.2⟩

theorem Arena.Rel.similar_trans {A B C : Arena} (h1 : Arena.Rel PseudotreeNode.Similar A B)
    (h2 : Arena.Rel PseudotreeNode.Similar B C) : Arena.Rel PseudotreeNode.Similar A C :=
  Arena.Rel.rel_trans PseudotreeNode.Similar.node_trans h1 h2

theorem Arena.Rel.similar_modify (A : Arena) (p : Nat) (f : PseudotreeNode → PseudotreeNode)
    (hf : ∀ a : PseudotreeNode, a.Similar (f a)) : Arena.Rel PseudotreeNode.Similar A (A.modify p f) :=
  Arena.Rel.rel_modify PseudotreeNode.Similar.node_refl A p f hf

theorem Arena.Rel.isSome {R : PseudotreeNode → PseudotreeNode → Prop} {A B : Arena}
    (h : Arena.Rel R A B) (k : Nat) : (B.deref k).isSome = (A.deref k).isSome := by
  have := h.2 k
  cases ha : A.deref k <;> cases hb : B.deref k <;> simp [ha, hb] at this ⊢

theorem Arena.Down.down_congr {A B : Arena} {ρ : Nat → Nat}
    (h : Arena.Rel PseudotreeNode.Similar A B) (hd : A.Down ρ) : B.Down ρ := by
  intro p pn c hp hc
  obtain ⟨a, ha, hab⟩ := h.right hp
  have hc2 : c ∈ a.m_children := hab.1.2.2.2.mem_iff.2 hc
  obtain ⟨h1, h2⟩ := hd p a c ha hc2
  exact ⟨by rw [h.isSome c]; exact h1, h2⟩

theorem Arena.Up.up_congr {A B : Arena}
    (h : Arena.Rel PseudotreeNode.Similar A B) (hu : A.Up) : B.Up := by
  intro c cn p hc hp
  obtain ⟨a, ha, hab⟩ := h.right hc
  obtain ⟨pn, hpn, hmem⟩ := hu c a p ha (hab.1.2.1.trans hp)
  obtain ⟨pb, hpb, hpp⟩ := h.left hpn
  exact ⟨pb, hpb, hpp.1.2.2.2.mem_iff.1 hmem⟩

theorem Arena.Reaches.reaches_congr {A B : Arena}
    (h : Arena.Rel PseudotreeNode.Similar A B) {k v : Nat} (hr : A.Reaches k v) :
    B.Reaches k v := by
  induction hr with
  | refl => exact Arena.Reaches.refl _
  | step _ hc hp ih =>
    obtain ⟨b, hb, hab⟩ := h.left hc
    exact Arena.Reaches.step ih hb (hab.1.2.1.symm.trans hp)

theorem Arena.Rel.similar_symm {A B : Arena} (h : Arena.Rel PseudotreeNode.Similar A B) :
    Arena.Rel PseudotreeNode.Similar B A := by
  refine ⟨h.1.symm, fun k => ?_⟩
  cases hb : B.deref k with
  | none =>
    have := (h.none_iff k).2 hb
    simp [this]
  | some b =>
    obtain ⟨a, ha, hab⟩ := h.right hb
    simp only [ha]
    exact ⟨⟨hab.1.1.symm, hab.1.2.1.symm, hab.1.2.2.1.symm, hab.1.2.2.2.symm⟩,
      hab.2.1.symm, hab.2.2.1.symm, hab.2.2.2.symm⟩

theorem depthHeightKids_spec (f : Arena → Nat → Option (Arena × Int)) (A0 : Arena) :
    ∀ (cs : List Nat) (ns : Arena) (m : Int),
      (∀ c ∈ cs, ∀ ns, Arena.Rel PseudotreeNode.Similar A0 ns →
        ∃ ns1 h, f ns c = some (ns1, h) ∧ Arena.Rel PseudotreeNode.Similar A0 ns1) →
      Arena.Rel PseudotreeNode.Similar A0 ns →
      ∃ ns1 m1, depthHeightKids f cs ns m = some (ns1, m1)
        ∧ Arena.Rel PseudotreeNode.Similar A0 ns1 := by
  intro cs
  induction cs with
  | nil => intro ns m _ h; exact ⟨ns, m, rfl, h⟩
  | cons c cs ih =>
    intro ns m hf h
    obtain ⟨ns1, h1, e1, r1⟩ := hf c (List.mem_cons_self c cs) ns h
    simp only [depthHeightKids, e1]
    exact ih ns1 _ (fun c hc => hf c (List.mem_cons_of_mem _ hc)) r1

theorem updateDepthHeight_spec {ρ : Nat → Nat} :
    ∀ (fuel : Nat) (A : Arena) (v : Nat) (d : Int), A.Down ρ → (A.deref v).isSome = true →
      ρ v < fuel →
      ∃ A1 h, updateDepthHeight fuel A v d = some (A1, h)
        ∧ Arena.Rel PseudotreeNode.Similar A A1 := by
  intro fuel
  induction fuel with
  | zero => intro A v d _ _ h; omega
  | succ fuel ih =>
    intro A v d hdown hv hfuel
    cases hd : A.deref v with
    | none => simp [hd] at hv
    | some nd =>
      have r1 : Arena.Rel PseudotreeNode.Similar A (A.modify v (fun x => { x with m_depth := d })) :=
        Arena.Rel.similar_modify A v _ (fun a => ⟨⟨rfl, rfl, rfl, List.Perm.refl _⟩, rfl, rfl, rfl⟩)
      simp only [updateDepthHeight, hd]
      by_cases hch : nd.m_children = []
      · simp only [hch, if_true]
        refine ⟨_, _, rfl, r1.similar_trans ?_⟩
        exact Arena.Rel.similar_modify _ v _
          (fun a => ⟨⟨rfl, rfl, rfl, List.Perm.refl _⟩, rfl, rfl, rfl⟩)
      · simp only [hch, if_false]
        obtain ⟨ns1, m1, e1, r2⟩ := depthHeightKids_spec
          (fun ns c => updateDepthHeight fuel ns c (d + 1)) A nd.m_children
          (A.modify v (fun x => { x with m_depth := d })) 0
          (fun c hc ns hns => by
            obtain ⟨h1, h2⟩ := hdown v nd c hd hc
            obtain ⟨A1, h, e, r⟩ := ih ns c (d + 1) (hdown.down_congr hns)
              (by rw [hns.isSome c]; exact h1) (by omega)
            exact ⟨A1, h, e, hns.similar_trans r⟩) r1
        simp only [e1]
        refine ⟨_, _, rfl, r2.similar_trans ?_⟩
        exact Arena.Rel.similar_modify _ v _
          (fun a => ⟨⟨rfl, rfl, rfl, List.Perm.refl _⟩, rfl, rfl, rfl⟩)

theorem subWidthKids_spec (f : Arena → Nat → Option (Arena × Int)) (v : Nat) (A0 : Arena) :
    ∀ (cs : List Nat) (ns : Arena),
      (∀ c ∈ cs, ∀ ns, Arena.Rel PseudotreeNode.Similar A0 ns →
        ∃ ns1 h, f ns c = some (ns1, h) ∧ Arena.Rel PseudotreeNode.Similar A0 ns1) →
      Arena.Rel PseudotreeNode.Similar A0 ns →
      ∃ ns1, subWidthKids f v cs ns = some ns1
        ∧ Arena.Rel PseudotreeNode.Similar A0 ns1 := by
  intro cs
  induction cs with
  | nil => intro ns _ h; exact ⟨ns, rfl, h⟩
  | cons c cs ih =>
    intro ns hf h
    obtain ⟨ns1, h1, e1, r1⟩ := hf c (List.mem_cons_self c cs) ns h
    simp only [subWidthKids, e1]
    exact ih _ (fun c hc => hf c (List.mem_cons_of_mem _ hc))
      (r1.similar_trans (Arena.Rel.similar_modify _ v _
          (fun a => ⟨⟨rfl, rfl, rfl, List.Perm.refl _⟩, rfl, rfl, rfl⟩)))

theorem updateSubWidth_spec {ρ : Nat → Nat} :
    ∀ (fuel : Nat) (A : Arena) (v : Nat), A.Down ρ → (A.deref v).isSome = true →
      ρ v < fuel →
      ∃ A1 w, updateSubWidth fuel A v = some (A1, w)
        ∧ Arena.Rel PseudotreeNode.Similar A A1 := by
  intro fuel
  induction fuel with
  | zero => intro A v _ _ h; omega
  | succ fuel ih =>
    intro A v hdown hv hfuel
    cases hd : A.deref v with
    | none => simp [hd] at hv
    | some nd =>
      have r1 : Arena.Rel PseudotreeNode.Similar A
          (A.modify v (fun x => { x with m_subWidth := (x.m_contextS.length : Int) })) :=
        Arena.Rel.similar_modify A v _ (fun a => ⟨⟨rfl, rfl, rfl, List.Perm.refl _⟩, rfl, rfl, rfl⟩)
      simp only [updateSubWidth, hd]
      obtain ⟨ns1, e1, r2⟩ := subWidthKids_spec
        (fun ns c => updateSubWidth fuel ns c) v A nd.m_children _
        (fun c hc ns hns => by
          obtain ⟨h1, h2⟩ := hdown v nd c hd hc
          obtain ⟨A1, h, e, r⟩ := ih ns c (hdown.down_congr hns)
            (by rw [hns.isSome c]; exact h1) (by omega)
          exact ⟨A1, h, e, hns.similar_trans r⟩) r1
      simp only [e1]
      have hv2 : (ns1.deref v).isSome = true := by rw [r2.isSome v, hd]; rfl
      cases hd2 : ns1.deref v with
      | none => simp [hd2] at hv2
      | some nd2 => exact ⟨_, _, rfl, r2⟩

theorem orderChildren_spec {ρ : Nat → Nat} (subOrder : SubOrder) (A : Arena) (v : Nat)
    (hdown : A.Down ρ) (hv : (A.deref v).isSome = true) :
    ∃ A1, orderChildren subOrder A v = some A1 ∧ Arena.Rel PseudotreeNode.Similar A A1 := by
  cases hd : A.deref v with
  | none => simp [hd] at hv
  | some nd =>
    have hall : nd.m_children.all (fun c => (A.deref c).isSome) = true := by
      rw [List.all_eq_true]
      intro c hc
      exact (hdown v nd c hd hc).1
    cases subOrder with
    | widthInc =>
      simp only [orderChildren, hd, hall, if_true]
      refine ⟨_, rfl, ⟨(Arena.length_modify _ _ _).symm, fun k => ?_⟩⟩
      rw [Arena.deref_modify]
      by_cases hk : k = v
      · subst hk
        simp only [hd, if_true, Option.map_some']
        exact ⟨⟨rfl, rfl, rfl, (List.perm_insertionSort _ _).symm⟩, rfl, rfl, rfl⟩
      · simp only [hk, if_false]
        cases h : A.deref k with
        | none => trivial
        | some a => exact PseudotreeNode.Similar.node_refl a
    | widthDec =>
      simp only [orderChildren, hd, hall, if_true]
      refine ⟨_, rfl, ⟨(Arena.length_modify _ _ _).symm, fun k => ?_⟩⟩
      rw [Arena.deref_modify]
      by_cases hk : k = v
      · subst hk
        simp only [hd, if_true, Option.map_some']
        exact ⟨⟨rfl, rfl, rfl, (List.perm_insertionSort _ _).symm⟩, rfl, rfl, rfl⟩
      · simp only [hk, if_false]
        cases h : A.deref k with
        | none => trivial
        | some a => exact PseudotreeNode.Similar.node_refl a
    | other =>
      simp only [orderChildren, hd]
      exact ⟨_, rfl, Arena.Rel.rel_refl PseudotreeNode.Similar.node_refl A⟩

theorem orderAll_spec {ρ : Nat → Nat} (subOrder : SubOrder) :
    ∀ (L : List Nat) (A : Arena), A.Down ρ → (∀ i ∈ L, (A.deref i).isSome = true) →
      ∃ A1, orderAll subOrder L A = some A1 ∧ Arena.Rel PseudotreeNode.Similar A A1 := by
  intro L
  induction L with
  | nil => intro A _ _; exact ⟨A, rfl, Arena.Rel.rel_refl PseudotreeNode.Similar.node_refl A⟩
  | cons i L ih =>
    intro A hdown hL
    obtain ⟨A1, e1, r1⟩ := orderChildren_spec subOrder A i hdown (hL i (List.mem_cons_self i L))
    obtain ⟨A2, e2, r2⟩ := ih A1 (hdown.down_congr r1) (fun j hj => by
      rw [r1.isSome j]; exact hL j (List.mem_cons_of_mem _ hj))
    simp only [orderAll, e1]
    exact ⟨A2, e2, r1.similar_trans r2⟩

/-! ## `updateSubprobVars` -/

/-- A change of the subproblem variables of the node `v` that keeps `v` among them and adds
only variables of lower rank keeps every node good. -/
theorem Arena.Good.good_modify {A : Arena} {ρ : Nat → Nat} {v : Nat}
    (f : PseudotreeNode → PseudotreeNode)
    (hf : ∀ a : PseudotreeNode, (v ∈ a.m_subproblemVars → v ∈ (f a).m_subproblemVars)
      ∧ ∀ x ∈ (f a).m_subproblemVars, x ∈ a.m_subproblemVars ∨ ρ x < ρ v)
    {k : Nat} (h : A.Good ρ k) : (A.modify v f).Good ρ k := by
  obtain ⟨nd, hd, hmem, hall⟩ := h
  unfold Arena.Good
  rw [Arena.deref_modify]
  by_cases hk : k = v
  · subst hk
    simp only [if_true, hd, Option.map_some']
    refine ⟨_, rfl, (hf nd).1 hmem, fun x hx => ?_⟩
    rcases (hf nd).2 x hx with h1 | h1
    · exact hall x h1
    · exact Or.inr h1
  · simp only [hk, if_false]
    exact ⟨nd, hd, hmem, hall⟩

theorem subprobVarsKids_spec {ρ : Nat → Nat} (f : Arena → Nat → Option (Arena × List Nat))
    (v : Nat) (A0 : Arena) :
    ∀ (cs : List Nat) (ns : Arena),
      (∀ c ∈ cs, ∀ ns, Arena.Rel PseudotreeNode.Similar A0 ns →
        ∃ ns1 vars, f ns c = some (ns1, vars) ∧ Arena.Rel PseudotreeNode.Similar A0 ns1
          ∧ (∀ k, ns.Good ρ k → ns1.Good ρ k) ∧ (∀ k, A0.Reaches k c → ns1.Good ρ k)
          ∧ (∀ x ∈ vars, x = c ∨ ρ x < ρ c)) →
      (∀ c ∈ cs, ρ c < ρ v) →
      Arena.Rel PseudotreeNode.Similar A0 ns →
      ∃ ns1, subprobVarsKids f v cs ns = some ns1
        ∧ Arena.Rel PseudotreeNode.Similar A0 ns1
        ∧ (∀ k, ns.Good ρ k → ns1.Good ρ k)
        ∧ (∀ c ∈ cs, ∀ k, A0.Reaches k c → ns1.Good ρ k) := by
  intro cs
  induction cs with
  | nil => intro ns _ _ h; exact ⟨ns, rfl, h, fun _ h => h, fun c hc => by simp at hc⟩
  | cons c cs ih =>
    intro ns hf hρ h
    obtain ⟨ns1, vars, e1, r1, g1, g2, g3⟩ := hf c (List.mem_cons_self c cs) ns h
    simp only [subprobVarsKids, e1]
    have hstep : ∀ k, ns1.Good ρ k → (ns1.modify v (fun x =>
        { x with m_subproblemVars := x.m_subproblemVars ++ vars })).Good ρ k := by
      intro k hk
      refine Arena.Good.good_modify _ (fun a => ⟨fun hm => List.mem_append_left _ hm, fun x hx => ?_⟩) hk
      rcases List.mem_append.1 hx with h1 | h1
      · exact Or.inl h1
      · right
        have hc := hρ c (List.mem_cons_self c cs)
        rcases g3 x h1 with h2 | h2
        · rw [h2]; exact hc
        · omega
    obtain ⟨ns2, e2, r2, g4, g5⟩ := ih
      (ns1.modify v (fun x => { x with m_subproblemVars := x.m_subproblemVars ++ vars }))
      (fun c hc => hf c (List.mem_cons_of_mem _ hc))
      (fun c hc => hρ c (List.mem_cons_of_mem _ hc))
      (r1.similar_trans (Arena.Rel.similar_modify _ v _
          (fun a => ⟨⟨rfl, rfl, rfl, List.Perm.refl _⟩, rfl, rfl, rfl⟩)))
    refine ⟨ns2, e2, r2, fun k hk => g4 k (hstep k (g1 k hk)), fun c2 hc2 k hk => ?_⟩
    rcases List.mem_cons.1 hc2 with h1 | h1
    · subst h1
      exact g4 k (hstep k (g2 k hk))
    · exact g5 c2 h1 k hk

theorem updateSubprobVars_spec {ρ : Nat → Nat} (numVars : Nat) :
    ∀ (fuel : Nat) (A : Arena) (v : Nat), A.Down ρ → A.Up →
      (∀ k nd, A.deref k = some nd → nd.m_var = k) → (A.deref v).isSome = true →
      ρ v < fuel →
      ∃ A1 vars, updateSubprobVars numVars fuel A v = some (A1, vars)
        ∧ Arena.Rel PseudotreeNode.Similar A A1
        ∧ (∀ k, A.Good ρ k → A1.Good ρ k) ∧ (∀ k, A.Reaches k v → A1.Good ρ k)
        ∧ (∀ x ∈ vars, x = v ∨ ρ x < ρ v) := by
  intro fuel
  induction fuel with
  | zero => intro A v _ _ _ _ h; omega
  | succ fuel ih =>
    intro A v hdown hup hvar hv hfuel
    cases hd : A.deref v with
    | none => simp [hd] at hv
    | some nd =>
      have r1 : Arena.Rel PseudotreeNode.Similar A
          (A.modify v (fun x => { x with m_subproblemVars := [x.m_var] })) :=
        Arena.Rel.similar_modify A v _ (fun a => ⟨⟨rfl, rfl, rfl, List.Perm.refl _⟩, rfl, rfl, rfl⟩)
      have g0 : (A.modify v (fun x => { x with m_subproblemVars := [x.m_var] })).Good ρ v := by
        unfold Arena.Good
        rw [Arena.deref_modify]
        simp only [if_true, hd, Option.map_some']
        refine ⟨_, rfl, ?_, ?_⟩
        · simp [hvar v nd hd]
        · intro x hx
          simp only [List.mem_singleton] at hx
          left
          rw [hx, hvar v nd hd]
      have g1 : ∀ k, A.Good ρ k →
          (A.modify v (fun x => { x with m_subproblemVars := [x.m_var] })).Good ρ k := by
        intro k hk
        by_cases hkv : k = v
        · rw [hkv]; exact g0
        · obtain ⟨kd, h1, h2, h3⟩ := hk
          refine ⟨kd, ?_, h2, h3⟩
          rw [Arena.deref_modify]
          simp [hkv, h1]
      simp only [updateSubprobVars, hd]
      obtain ⟨ns1, e1, r2, g2, g3⟩ := subprobVarsKids_spec
        (fun ns c => updateSubprobVars numVars fuel ns c) v A nd.m_children _
        (fun c hc ns hns => by
          obtain ⟨h1, h2⟩ := hdown v nd c hd hc
          obtain ⟨A1, vars, e, r, q1, q2, q3⟩ := ih ns c (hdown.down_congr hns) (hup.up_congr hns)
            (fun k kd hkd => by
              obtain ⟨a, ha, hab⟩ := hns.right hkd
              rw [← hab.1.1]; exact hvar k a ha)
            (by rw [hns.isSome c]; exact h1) (by omega)
          exact ⟨A1, vars, e, hns.similar_trans r, q1,
            fun k hk => q2 k (hk.reaches_congr hns), q3⟩)
        (fun c hc => (hdown v nd c hd hc).2) r1
      simp only [e1]
      have hv2 : (ns1.deref v).isSome = true := by rw [r2.isSome v, hd]; rfl
      cases hd2 : ns1.deref v with
      | none => simp [hd2] at hv2
      | some nd2 =>
        simp only
        have hfin : ∀ k, ns1.Good ρ k → (ns1.modify v (fun x => { x with
            m_subproblemVars := sortVars nd2.m_subproblemVars,
            m_subproblemVarMap := subproblemVarMap numVars
              (sortVars nd2.m_subproblemVars) })).Good ρ k := by
          intro k hk
          by_cases hkv : k = v
          · subst hkv
            obtain ⟨kd, h1, h2, h3⟩ := hk
            rw [hd2] at h1
            cases h1
            unfold Arena.Good
            rw [Arena.deref_modify]
            simp only [if_true, hd2, Option.map_some']
            refine ⟨_, rfl, ?_, ?_⟩
            · exact (List.perm_insertionSort _ _).mem_iff.2 h2
            · intro x hx
              exact h3 x ((List.perm_insertionSort _ _).mem_iff.1 hx)
          · obtain ⟨kd, h1, h2, h3⟩ := hk
            refine ⟨kd, ?_, h2, h3⟩
            rw [Arena.deref_modify]
            simp [hkv, h1]
        have gv := g2 v g0
        refine ⟨_, _, rfl, r2.similar_trans (Arena.Rel.similar_modify _ v _
          (fun a => ⟨⟨rfl, rfl, rfl, List.Perm.refl _⟩, rfl, rfl, rfl⟩)),
          fun k hk => hfin k (g2 k (g1 k hk)), fun k hk => ?_, fun x hx => ?_⟩
        · cases hk with
          | refl => exact hfin v gv
          | step hr hc hp =>
            obtain ⟨pn, hpn, hmem⟩ := hup _ _ _ hc hp
            rw [hd] at hpn
            cases hpn
            exact hfin k (g3 _ hmem k hr)
        · obtain ⟨kd, h1, h2, h3⟩ := gv
          rw [hd2] at h1
          cases h1
          exact h3 x ((List.perm_insertionSort _ _).mem_iff.1 hx)

/-! ## Facts about the tree -/

theorem TreeInv.deref_le {G0 : Graph} {n : Nat} {elim : List Nat} {cachelimit : Int}
    {T : Arena} (h : TreeInv G0 n elim cachelimit T) {k : Nat} {nd : PseudotreeNode}
    (hd : T.deref k = some nd) : k ≤ n := by
  have := Arena.deref_lt hd
  rw [h.len] at this
  omega

theorem TreeInv.varAt {G0 : Graph} {n : Nat} {elim : List Nat} {cachelimit : Int}
    {T : Arena} (h : TreeInv G0 n elim cachelimit T) (k : Nat) (nd : PseudotreeNode)
    (hd : T.deref k = some nd) : nd.m_var = k := by
  obtain ⟨nd2, h1, h2⟩ := h.node k (h.deref_le hd)
  rw [hd] at h1
  cases h1
  exact h2

theorem TreeInv.rank_lt {G0 : Graph} {n : Nat} {elim : List Nat} {cachelimit : Int}
    {T : Arena} (hperm : elim.Perm (List.range n)) (h : TreeInv G0 n elim cachelimit T)
    {k p : Nat} {nd : PseudotreeNode} (hd : T.deref k = some nd) (hp : nd.m_parent = some p) :
    k < n ∧ p ≤ n ∧ elim.indexOf k < elim.indexOf p ∧ (T.deref p).isSome = true := by
  have hk : k < n := by
    have := h.deref_le hd
    rcases Nat.lt_or_ge k n with h1 | h1
    · exact h1
    · have hkn : k = n := by omega
      obtain ⟨rd, hrd, hrp, _⟩ := h.root
      rw [hkn, hrd] at hd
      cases hd
      rw [hrp] at hp
      cases hp
  obtain ⟨p2, pn, hp2, hcase, hpn, _⟩ := h.parent k nd hk hd
  rw [hp] at hp2
  cases hp2
  refine ⟨hk, h.deref_le hpn, ?_, by simp [hpn]⟩
  rcases hcase with h1 | h1
  · rw [h1, indexOf_dummy hperm]
    exact indexOf_lt_of_lt hperm hk
  · exact h1.2

theorem TreeInv.tree_ranked {G0 : Graph} {n : Nat} {elim : List Nat} {cachelimit : Int}
    {T : Arena} (hperm : elim.Perm (List.range n)) (h : TreeInv G0 n elim cachelimit T) :
    T.Ranked elim.indexOf (n + 1) := by
  refine ⟨h.varAt, ?_⟩
  intro k nd p hd hp
  obtain ⟨hk, hpn, hidx, hsome⟩ := h.rank_lt hperm hd hp
  refine ⟨hidx, ?_, hsome⟩
  rcases Nat.lt_or_ge p n with h1 | h1
  · have := indexOf_lt_of_lt hperm h1
    omega
  · have hpn2 : p = n := by omega
    rw [hpn2, indexOf_dummy hperm]
    omega

theorem TreeInv.down {G0 : Graph} {n : Nat} {elim : List Nat} {cachelimit : Int}
    {T : Arena} (hperm : elim.Perm (List.range n)) (h : TreeInv G0 n elim cachelimit T) :
    T.Down elim.indexOf := by
  intro p pn c hp hc
  obtain ⟨hcn, cn, hcd, hcp⟩ := h.children p pn c hp hc
  obtain ⟨_, _, hidx, _⟩ := h.rank_lt hperm hcd hcp
  exact ⟨by simp [hcd], hidx⟩

theorem TreeInv.up {G0 : Graph} {n : Nat} {elim : List Nat} {cachelimit : Int}
    {T : Arena} (hperm : elim.Perm (List.range n)) (h : TreeInv G0 n elim cachelimit T) :
    T.Up := by
  intro c cn p hc hp
  obtain ⟨hk, _, _, _⟩ := h.rank_lt hperm hc hp
  obtain ⟨p2, pn, hp2, _, hpn, hcount, _⟩ := h.parent c cn hk hc
  rw [hp] at hp2
  cases hp2
  refine ⟨pn, hpn, ?_⟩
  apply List.count_pos_iff.1
  omega

theorem TreeInv.tree_covered {G0 : Graph} {n : Nat} {elim : List Nat} {cachelimit : Int}
    {T : Arena} (hperm : elim.Perm (List.range n)) (h : TreeInv G0 n elim cachelimit T) :
    T.Covered := by
  intro k nd hd
  constructor
  · intro hp
    rcases Nat.lt_or_ge k n with h1 | h1
    · obtain ⟨p, _, hp2, _⟩ := h.parent k nd h1 hd
      rw [hp] at hp2
      cases hp2
    · have hkn : k = n := by have := h.deref_le hd; omega
      obtain ⟨rd, hrd, _, hctx, _⟩ := h.root
      rw [hkn, hrd] at hd
      cases hd
      exact hctx
  · intro p hp
    obtain ⟨hk, _, _, _⟩ := h.rank_lt hperm hd hp
    obtain ⟨p2, pn, hp2, _, hpn, _, hcov, _⟩ := h.parent k nd hk hd
    rw [hp] at hp2
    cases hp2
    exact ⟨pn, hpn, hcov⟩

theorem Arena.Reaches.head {A : Arena} {k p v : Nat} {nd : PseudotreeNode}
    (hd : A.deref k = some nd) (hp : nd.m_parent = some p) (hr : A.Reaches p v) :
    A.Reaches k v := by
  induction hr with
  | refl => exact Arena.Reaches.step (Arena.Reaches.refl k) hd hp
  | step _ hc hcp ih => exact Arena.Reaches.step ih hc hcp

theorem TreeInv.reaches {G0 : Graph} {n : Nat} {elim : List Nat} {cachelimit : Int}
    {T : Arena} (hperm : elim.Perm (List.range n)) (h : TreeInv G0 n elim cachelimit T) :
    ∀ (m k : Nat), k ≤ n → n ≤ m + elim.indexOf k → T.Reaches k n := by
  intro m
  induction m with
  | zero =>
    intro k hk hm
    rcases Nat.lt_or_ge k n with h1 | h1
    · have := indexOf_lt_of_lt hperm h1
      omega
    · have hkn : k = n := by omega
      rw [hkn]
      exact Arena.Reaches.refl n
  | succ m ih =>
    intro k hk hm
    rcases Nat.lt_or_ge k n with h1 | h1
    · obtain ⟨nd, hd, _⟩ := h.node k hk
      obtain ⟨p, pn, hp, _, hpn, _⟩ := h.parent k nd h1 hd
      obtain ⟨_, hple, hidx, _⟩ := h.rank_lt hperm hd hp
      exact Arena.Reaches.head hd hp (ih p hple (by omega))
    · have hkn : k = n := by omega
      rw [hkn]
      exact Arena.Reaches.refl n

theorem TreeInv.congr_shape {G0 : Graph} {n : Nat} {elim : List Nat} {cachelimit : Int}
    {T T1 : Arena}
    (hrel : Arena.Rel (fun a b => a.Shape b ∧ a.m_cacheContextS = b.m_cacheContextS) T T1)
    (h : TreeInv G0 n elim cachelimit T) : TreeInv G0 n elim cachelimit T1 := by
  refine ⟨hrel.1.symm.trans h.len, ?node, ?root, ?parent, ?children, ?ctxNodup, ?ctxLater,
    ?ctxEdges, ?cache⟩
  case node =>
    intro k hk
    obtain ⟨nd, hd, hv⟩ := h.node k hk
    obtain ⟨b, hb, hab⟩ := hrel.left hd
    exact ⟨b, hb, hab.1.1.symm.trans hv⟩
  case root =>
    obtain ⟨rd, hrd, h1, h2, h3⟩ := h.root
    obtain ⟨b, hb, hab⟩ := hrel.left hrd
    exact ⟨b, hb, hab.1.2.1.symm.trans h1, hab.1.2.2.1.symm.trans h2, hab.2.symm.trans h3⟩
  case parent =>
    intro k b hk hb
    obtain ⟨a, ha, hab⟩ := hrel.right hb
    obtain ⟨p, pn, hp, hcase, hpn, hcount, hcov, hroot⟩ := h.parent k a hk ha
    obtain ⟨pb, hpb, hpab⟩ := hrel.left hpn
    refine ⟨p, pb, hab.1.2.1.symm.trans hp, hcase, hpb, ?_, ?_, ?_⟩
    · rw [← hpab.1.2.2.2.count_eq]; exact hcount
    · intro x hx
      rw [← hab.1.2.2.1] at hx
      rw [← hpab.1.2.2.1]
      exact hcov x hx
    · intro e
      rw [← hab.1.2.2.1]
      exact hroot e
  case children =>
    intro p pb c hpb hc
    obtain ⟨pa, hpa, hpab⟩ := hrel.right hpb
    obtain ⟨hcn, cn, hcd, hcp⟩ := h.children p pa c hpa (hpab.1.2.2.2.mem_iff.2 hc)
    obtain ⟨cb, hcb, hcab⟩ := hrel.left hcd
    exact ⟨hcn, cb, hcb, hcab.1.2.1.symm.trans hcp⟩
  case ctxNodup =>
    intro k b hb
    obtain ⟨a, ha, hab⟩ := hrel.right hb
    rw [← hab.1.2.2.1]
    exact h.ctxNodup k a ha
  case ctxLater =>
    intro k b x hb hx
    obtain ⟨a, ha, hab⟩ := hrel.right hb
    rw [← hab.1.2.2.1] at hx
    exact h.ctxLater k a x ha hx
  case ctxEdges =>
    intro k b x hk hb hadj hidx
    obtain ⟨a, ha, hab⟩ := hrel.right hb
    rw [← hab.1.2.2.1]
    exact h.ctxEdges k a x hk ha hadj hidx
  case cache =>
    intro k b hk hb
    obtain ⟨a, ha, hab⟩ := hrel.right hb
    rw [← hab.2, h.cache k a hk ha]
    exact Arena.cacheTarget_congr hrel (fun a b h => h.1.2.1) (fun a b h => h.1.2.2.1)
      cachelimit k

theorem TreeInv.tree_congr {G0 : Graph} {n : Nat} {elim : List Nat} {cachelimit : Int}
    {T T1 : Arena} (hrel : Arena.Rel PseudotreeNode.Similar T T1)
    (h : TreeInv G0 n elim cachelimit T) : TreeInv G0 n elim cachelimit T1 :=
  h.congr_shape (hrel.mono (fun _ _ hab => ⟨hab.1, hab.2.1⟩))

/-! ## `build` returns a tree -/

/-- Lines 401-434: the cache context loop and the dummy root, on the forest that the first
loop has left. -/
theorem forest_finish {G0 : Graph} {n : Nat} {elim : List Nat} {F : Arena} {roots : List Nat}
    (hperm : elim.Perm (List.range n)) (h : ForestDone G0 n elim F roots)
    (cachelimit : Int) (hlim : cachelimit = NONE ∨ 0 ≤ cachelimit) (comps : Int) :
    ∃ nodes1 T, cacheContextLoop cachelimit (List.range F.length) F = some nodes1
      ∧ attachToDummy n roots (nodes1 ++ [some (PseudotreeNode.new n [])]) comps
          = some (T, comps + (roots.length : Int))
      ∧ TreeInv G0 n elim cachelimit T := by
  obtain ⟨nodes1, e1, r1, c1⟩ := cacheContextLoop_spec (h.ranked hperm)
    (by rw [h.len]; omega) h.covered h.ctxNodup cachelimit hlim (List.range F.length) [] F
    (fun i hi => h.nodeSome i (by rw [← h.len]; exact List.mem_range.1 hi))
    (Arena.Rel.rel_refl (fun a => ⟨rfl, rfl, rfl, rfl, rfl⟩) F)
    (fun i hi => by simp at hi)
  obtain ⟨T, e2, hT⟩ := tree_of_forest hperm h r1
    (fun i hi nd hd => c1 i (by rw [h.len]; simpa using hi) nd hd) comps
  exact ⟨nodes1, T, e1, e2, hT⟩

/-- Lines 436-462: the recursive updates on the tree. -/
theorem tree_updates {G0 : Graph} {n : Nat} {elim : List Nat} {cachelimit : Int} {T : Arena}
    (hperm : elim.Perm (List.range n)) (h : TreeInv G0 n elim cachelimit T)
    (subOrder : SubOrder) :
    ∃ nodes3 hgt nodes4 w nodes5 nodes6 vars,
      updateDepthHeight (T.length + 1) T n (-1) = some (nodes3, hgt)
      ∧ updateSubWidth (nodes3.length + 1) nodes3 n = some (nodes4, w)
      ∧ orderAll subOrder (List.range nodes4.length) nodes4 = some nodes5
      ∧ updateSubprobVars nodes5.length (nodes5.length + 1) nodes5 n = some (nodes6, vars)
      ∧ TreeInv G0 n elim cachelimit nodes6
      ∧ ∀ k, k ≤ n → nodes6.Good elim.indexOf k := by
  have hroot : ∀ {A : Arena}, TreeInv G0 n elim cachelimit A → (A.deref n).isSome = true := by
    intro A hA
    obtain ⟨rd, hrd, _⟩ := hA.root
    simp [hrd]
  have hρ : elim.indexOf n = n := indexOf_dummy hperm
  obtain ⟨nodes3, hgt, e3, r3⟩ := updateDepthHeight_spec (T.length + 1) T n (-1)
    (h.down hperm) (hroot h) (by rw [hρ, h.len]; omega)
  have h3 := h.tree_congr r3
  obtain ⟨nodes4, w, e4, r4⟩ := updateSubWidth_spec (nodes3.length + 1) nodes3 n
    (h3.down hperm) (hroot h3) (by rw [hρ, h3.len]; omega)
  have h4 := h3.tree_congr r4
  obtain ⟨nodes5, e5, r5⟩ := orderAll_spec subOrder (List.range nodes4.length) nodes4
    (h4.down hperm) (fun i hi => by
      obtain ⟨nd, hd, _⟩ := h4.node i (by
        have := List.mem_range.1 hi
        rw [h4.len] at this
        omega)
      simp [hd])
  have h5 := h4.tree_congr r5
  obtain ⟨nodes6, vars, e6, r6, _, g6, _⟩ := updateSubprobVars_spec nodes5.length
    (nodes5.length + 1) nodes5 n (h5.down hperm) (h5.up hperm) h5.varAt (hroot h5)
    (by rw [hρ, h5.len]; omega)
  exact ⟨nodes3, hgt, nodes4, w, nodes5, nodes6, vars, e3, e4, e5, e6, h5.tree_congr r6,
    fun k hk => g6 k (h5.reaches hperm n k hk (by omega))⟩

/-- The recursive updates of `buildChain`, which does not order the children. -/
theorem chain_updates {G0 : Graph} {n : Nat} {elim : List Nat} {cachelimit : Int} {T : Arena}
    (hperm : elim.Perm (List.range n)) (h : TreeInv G0 n elim cachelimit T) :
    ∃ nodes3 hgt nodes4 w nodes5 vars,
      updateDepthHeight (T.length + 1) T n (-1) = some (nodes3, hgt)
      ∧ updateSubWidth (nodes3.length + 1) nodes3 n = some (nodes4, w)
      ∧ updateSubprobVars nodes4.length (nodes4.length + 1) nodes4 n = some (nodes5, vars)
      ∧ TreeInv G0 n elim cachelimit nodes5
      ∧ ∀ k, k ≤ n → nodes5.Good elim.indexOf k := by
  have hroot : ∀ {A : Arena}, TreeInv G0 n elim cachelimit A → (A.deref n).isSome = true := by
    intro A hA
    obtain ⟨rd, hrd, _⟩ := hA.root
    simp [hrd]
  have hρ : elim.indexOf n = n := indexOf_dummy hperm
  obtain ⟨nodes3, hgt, e3, r3⟩ := updateDepthHeight_spec (T.length + 1) T n (-1)
    (h.down hperm) (hroot h) (by rw [hρ, h.len]; omega)
  have h3 := h.tree_congr r3
  obtain ⟨nodes4, w, e4, r4⟩ := updateSubWidth_spec (nodes3.length + 1) nodes3 n
    (h3.down hperm) (hroot h3) (by rw [hρ, h3.len]; omega)
  have h4 := h3.tree_congr r4
  obtain ⟨nodes5, vars, e5, r5, _, g5, _⟩ := updateSubprobVars_spec nodes4.length
    (nodes4.length + 1) nodes4 n (h4.down hperm) (h4.up hperm) h4.varAt (hroot h4)
    (by rw [hρ, h4.len]; omega)
  exact ⟨nodes3, hgt, nodes4, w, nodes5, vars, e3, e4, e5, h4.tree_congr r5,
    fun k hk => g5 k (h4.reaches hperm n k hk (by omega))⟩

theorem build_spec (pt0 : Pseudotree) (G : Graph) (n : Nat) (elim : List Nat)
    (cachelimit : Int) (hrep : G.Rep) (hsim : G.Simple) (hnodes : G.NodesAre n)
    (hperm : elim.Perm (List.range n)) (hlim : cachelimit = NONE ∨ 0 ≤ cachelimit)
    (hready : pt0.Ready n) :
    ∃ pt, Pseudotree.build pt0 G elim cachelimit = some pt
      ∧ TreeInv G n elim cachelimit pt.m_nodes
      ∧ (∀ k, k ≤ n → pt.m_nodes.Good elim.indexOf k)
      ∧ pt.m_elimOrder = elim ++ [n] ∧ pt.m_root = some n := by
  obtain ⟨hnd, hlen, hmem⟩ := perm_range_facts hperm
  have hptn : (if pt0.m_height ≠ UNKNOWN then pt0.reset else pt0).m_nodes
      = List.replicate n none := by
    split
    · simp [Pseudotree.reset, hready.1]
    · rename_i hh
      rcases hready.2 with h1 | h1
      · exact absurd h1 hh
      · exact h1
  have hstat : G.getStatNodes = (n : Int) := by
    unfold Graph.getStatNodes
    rw [hrep.statNodes, keys_length_of_nodesAre hrep hnodes]
  obtain ⟨st, e1, hF⟩ := buildLoop_spec hnd (fun k hk => (hmem k).1 hk) elim []
    { G := G, m_width := (if pt0.m_height ≠ UNKNOWN then pt0.reset else pt0).m_width,
      m_nodes := List.replicate n none, roots := [] } rfl
    (ForestInv.init_forest elim _ hrep hsim hnodes)
  have hD := hF.done hperm
  obtain ⟨nodes1, T, e2, e3, hT⟩ := forest_finish hperm hD cachelimit hlim
    (if pt0.m_height ≠ UNKNOWN then pt0.reset else pt0).m_components
  obtain ⟨nodes3, hgt, nodes4, w, nodes5, nodes6, vars, e4, e5, e6, e7, hT6, hgood⟩ :=
    tree_updates hperm hT (if pt0.m_height ≠ UNKNOWN then pt0.reset else pt0).m_subOrder
  have hb : ∃ pt, Pseudotree.build pt0 G elim cachelimit = some pt ∧ pt.m_nodes = nodes6
      ∧ pt.m_elimOrder = elim ++ [n] ∧ pt.m_root = some n := by
    simp only [Pseudotree.build, hptn, hstat, List.length_replicate, hlen, and_self, if_true,
      e1, e2, e3, e4, e5, e6, e7]
    exact ⟨_, rfl, rfl, rfl, rfl⟩
  obtain ⟨pt, hpt1, hpt2, hpt3, hpt4⟩ := hb
  rw [← hpt2] at hT6 hgood
  exact ⟨pt, hpt1, hT6, hgood, hpt3, hpt4⟩

/-! ## The first loop of `buildChain` -/

theorem ChainInv.init_chain {G : Graph} {n : Nat} (elim : List Nat) (w : Int) (hrep : G.Rep)
    (hsim : G.Simple) (hnodes : G.NodesAre n) :
    ChainInv G n elim []
      { G := G, m_pathwidth := w, m_nodes := List.replicate n none, context := [],
        prev := none } := by
  refine ⟨hrep, hsim, ?_, by simp, ?_, ?_, ?_, ?_, ?_, ?_, ?_, List.nodup_nil, ?_, ?_, ?_, ?_,
    ?_, ?_, ?_⟩
  · intro k; simpa using hnodes k
  · intro k; simp [Arena.deref_replicate]
  · intro k nd hd; simp [Arena.deref_replicate] at hd
  · intro q hq; simp at hq
  · intro _; rfl
  · intro k nd hd; simp [Arena.deref_replicate] at hd
  · intro q nd hq; simp at hq
  · intro x hx; simp at hx
  · intro k nd p hd; simp [Arena.deref_replicate] at hd
  · intro p pn c hd; simp [Arena.deref_replicate] at hd
  · intro k nd hd; simp [Arena.deref_replicate] at hd
  · intro k nd x hd; simp [Arena.deref_replicate] at hd
  · intro a b hab _ _; exact hab
  · intro k nd x hd; simp [Arena.deref_replicate] at hd
  · intro k nd hd; simp [Arena.deref_replicate] at hd

/-- The arena after one pass of the first loop of `buildChain`. -/
theorem chain_arena (nodes : Arena) (v : Nat) (ctx : List Nat) (prev : Option Nat)
    (hv : v < nodes.length) (hq : ∀ q, prev = some q → q ≠ v) :
    ∀ k, Arena.deref
        (match prev with
          | some q => Arena.modify (Arena.modify (nodes.set v (some (PseudotreeNode.new v ctx))) v
              (fun x => x.setChild q)) q (fun x => x.setParent (some v))
          | none => nodes.set v (some (PseudotreeNode.new v ctx))) k
      = if k = v then some ((PseudotreeNode.new v ctx).addChildren prev.toList)
        else if prev = some k then (nodes.deref k).map (fun x => x.setParent (some v))
        else nodes.deref k := by
  intro k
  cases prev with
  | none =>
    simp only [Arena.deref_set _ _ _ _ hv, Option.toList_none, reduceCtorEq, if_false]
    by_cases hk : k = v
    · simp [hk, PseudotreeNode.addChildren, PseudotreeNode.new]
    · simp [hk]
  | some q =>
    have hqv : q ≠ v := hq q rfl
    simp only [Arena.deref_modify, Arena.deref_set _ _ _ _ hv, Option.toList_some,
      Option.some.injEq]
    by_cases hk : k = v
    · subst hk
      have : ¬ k = q := fun e => hqv e.symm
      simp [this, PseudotreeNode.addChildren, PseudotreeNode.new, PseudotreeNode.setChild]
    · by_cases hkq : k = q
      · subst hkq
        simp [hk]
      · have : ¬ q = k := fun e => hkq e.symm
        simp [hk, hkq, this]

theorem ChainInv.step_chain {G0 : Graph} {n : Nat} {elim pre rest : List Nat} {v : Nat}
    {st : ChainState} (h : ChainInv G0 n elim pre st) (hsplit : pre ++ v :: rest = elim)
    (hnd : elim.Nodup) (hlt : ∀ k ∈ elim, k < n) :
    ∃ N, st.G.getNeighbors v = some N
      ∧ (v < st.m_nodes.length ∧ st.m_nodes.deref v = none)
      ∧ ChainInv G0 n elim (pre ++ [v])
          { G := (st.G.addClique N).removeNode v,
            m_pathwidth := max st.m_pathwidth
              ((setInsertAll N (setErase v st.context)).length : Int),
            m_nodes :=
              (match st.prev with
              | some q => Arena.modify (Arena.modify (st.m_nodes.set v
                  (some (PseudotreeNode.new v (setInsertAll N (setErase v st.context))))) v
                  (fun x => x.setChild q)) q (fun x => x.setParent (some v))
              | none => st.m_nodes.set v
                  (some (PseudotreeNode.new v (setInsertAll N (setErase v st.context))))),
            context := setInsertAll N (setErase v st.context), prev := some v } := by
  have hvpre : v ∉ pre := by
    rw [← hsplit] at hnd
    have := (List.nodup_append.1 hnd).2.2
    intro hv
    exact this hv (List.mem_cons_self v rest) 
  have hvn : v < n := hlt v (by rw [← hsplit]; simp)
  have hvnode : st.G.hasNode v = true := (h.gnodes v).2 ⟨hvn, hvpre⟩
  obtain ⟨N, hN⟩ := (st.G.hasNode_iff v).1 hvnode
  have hNnd : N.Nodup := h.rep.setsNodup v N hN
  have hNadj : ∀ x, x ∈ N ↔ st.G.adj v x := by
    intro x
    constructor
    · intro hx; exact ⟨N, hN, hx⟩
    · rintro ⟨S, hS, hx⟩
      rw [hN] at hS; cases hS; exact hx
  have hNnode : ∀ x ∈ N, st.G.hasNode x = true :=
    fun x hx => Graph.adj_hasNode (h.simple.sym v x ⟨N, hN, hx⟩)
  have hNv : ∀ x ∈ N, x ≠ v := by
    intro x hx e
    subst e
    exact h.simple.irrefl x ⟨N, hN, hx⟩
  have hNlive : ∀ x ∈ N, x < n ∧ x ∉ pre := fun x hx => (h.gnodes x).1 (hNnode x hx)
  have hidxv : elim.indexOf v = pre.length := by
    rw [← hsplit]; exact indexOf_append_mid pre rest v hvpre
  have hidxpre : ∀ k ∈ pre, elim.indexOf k < pre.length := by
    intro k hk; rw [← hsplit]; exact indexOf_lt_of_mem_left pre _ k hk
  have hidxother : ∀ x, x ∉ pre → x ≠ v → pre.length < elim.indexOf x := by
    intro x hx hxv; rw [← hsplit]; exact indexOf_gt_of_not_mem pre rest v x hx hxv
  have hvnone : st.m_nodes.deref v = none := by
    cases hd : st.m_nodes.deref v with
    | none => rfl
    | some nd =>
      have := (h.nodeIff v).1 (by simp [hd])
      exact absurd this hvpre
  have hvlen : v < st.m_nodes.length := by rw [h.len]; exact hvn
  have hqv : ∀ q, st.prev = some q → q ≠ v := by
    intro q hq e
    exact hvpre (e ▸ h.prevSome q hq)
  refine ⟨N, hN, ⟨hvlen, hvnone⟩, ?_⟩
  have hadj := Graph.adj_elimStep h.simple v N hNnd
  have hnode := Graph.hasNode_elimStep h.simple v N hN
  have hctx : ∀ x, x ∈ setInsertAll N (setErase v st.context)
      ↔ x ∈ N ∨ (x ∈ st.context ∧ x ≠ v) := by
    intro x
    rw [mem_setInsertAll, mem_setErase]
  have hctxlive : ∀ x ∈ setInsertAll N (setErase v st.context), x < n ∧ x ∉ pre ∧ x ≠ v := by
    intro x hx
    rcases (hctx x).1 hx with h1 | h1
    · exact ⟨(hNlive x h1).1, (hNlive x h1).2, hNv x h1⟩
    · exact ⟨(h.ctxLive x h1.1).1, (h.ctxLive x h1.1).2, h1.2⟩
  have hder := chain_arena st.m_nodes v (setInsertAll N (setErase v st.context)) st.prev
    hvlen hqv
  generalize hA : (match st.prev with
              | some q => Arena.modify (Arena.modify (st.m_nodes.set v
                  (some (PseudotreeNode.new v (setInsertAll N (setErase v st.context))))) v
                  (fun x => x.setChild q)) q (fun x => x.setParent (some v))
              | none => st.m_nodes.set v
                  (some (PseudotreeNode.new v (setInsertAll N (setErase v st.context))))) = A
  rw [hA] at hder
  have hlenA : A.length = n := by
    rw [← hA, ← h.len]
    cases st.prev <;> simp [Arena.length_modify]
  have hdv : A.deref v = some ((PseudotreeNode.new v
      (setInsertAll N (setErase v st.context))).addChildren st.prev.toList) := by
    rw [hder]; simp
  -- the view of the old nodes
  have hview : ∀ k nd1, A.deref k = some nd1 → k ≠ v →
      ∃ nd, st.m_nodes.deref k = some nd ∧ nd1.m_var = nd.m_var
        ∧ nd1.m_contextS = nd.m_contextS ∧ nd1.m_children = nd.m_children
        ∧ nd1.m_cacheContextS = nd.m_cacheContextS
        ∧ nd1.m_cacheResetList = nd.m_cacheResetList ∧ nd1.m_functions = nd.m_functions
        ∧ nd1.m_parent = (if st.prev = some k then some v else nd.m_parent) := by
    intro k nd1 hk1 hkv
    rw [hder] at hk1
    simp only [hkv, if_false] at hk1
    cases hd : st.m_nodes.deref k with
    | none => simp [hd] at hk1
    | some nd =>
      refine ⟨nd, rfl, ?_⟩
      by_cases hc : st.prev = some k
      · simp only [hc, if_true, hd, Option.map_some', Option.some.injEq] at hk1
        subst hk1
        simp [hc, PseudotreeNode.setParent]
      · simp only [hc, if_false, hd, Option.some.injEq] at hk1
        subst hk1
        simp [hc]
  have hview2 : ∀ k nd, st.m_nodes.deref k = some nd →
      ∃ nd1, A.deref k = some nd1 ∧ nd1.m_var = nd.m_var
        ∧ nd1.m_contextS = nd.m_contextS ∧ nd1.m_children = nd.m_children
        ∧ nd1.m_parent = (if st.prev = some k then some v else nd.m_parent) := by
    intro k nd hd
    have hkv : k ≠ v := by
      intro e; subst e; rw [hvnone] at hd; cases hd
    rw [hder]
    simp only [hkv, if_false, hd]
    by_cases hc : st.prev = some k
    · exact ⟨nd.setParent (some v), by simp [hc], by simp [hc, PseudotreeNode.setParent]⟩
    · exact ⟨nd, by simp [hc], by simp [hc]⟩
  refine ⟨Graph.rep_removeNode (Graph.rep_addClique N h.rep) v,
    Graph.simple_removeNode (Graph.simple_addClique h.simple N hNnd) v,
    ?gnodes, hlenA, ?nodeIff, ?var, ?prevSome, ?prevNone, ?rootIff, ?prevCtx, ?ctxLive,
    nodup_setInsertAll _ _ (nodup_setErase _ _ h.contextNodup),
    ?parent, ?children, ?ctxNodup, ?ctxLater, ?edges, ?ctxEdges, ?fresh⟩
  case gnodes =>
    intro k
    simp only [hnode, h.gnodes k, List.mem_append, List.mem_singleton]
    tauto
  case nodeIff =>
    intro k
    by_cases hkv : k = v
    · subst hkv
      simp [hdv]
    · rw [hder]
      have := h.nodeIff k
      simp only [List.mem_append, List.mem_singleton, hkv, or_false, if_false]
      rw [← this]
      by_cases hc : st.prev = some k
      · simp only [hc, if_true]
        cases st.m_nodes.deref k <;> simp
      · simp only [hc, if_false]
  case var =>
    intro k nd1 hd1
    by_cases hkv : k = v
    · subst hkv
      rw [hdv] at hd1
      cases hd1
      rfl
    · obtain ⟨nd, hd, hvar, _⟩ := hview k nd1 hd1 hkv
      rw [hvar]
      exact h.var k nd hd
  case prevSome =>
    intro q hq
    simp only [Option.some.injEq] at hq
    simp [hq]
  case prevNone =>
    intro hq
    simp at hq
  case rootIff =>
    intro k nd1 hd1
    by_cases hkv : k = v
    · subst hkv
      rw [hdv] at hd1
      cases hd1
      simp [PseudotreeNode.new, PseudotreeNode.addChildren]
    · obtain ⟨nd, hd, _, _, _, _, _, _, h8⟩ := hview k nd1 hd1 hkv
      have hne : ¬ v = k := fun e => hkv e.symm
      simp only [Option.some.injEq, hne, iff_false]
      rw [h8]
      by_cases hc : st.prev = some k
      · simp [hc]
      · simp only [hc, if_false]
        exact fun e => hc ((h.rootIff k nd hd).1 e)
  case prevCtx =>
    intro q nd1 hq hd1
    simp only [Option.some.injEq] at hq
    subst hq
    rw [hdv] at hd1
    cases hd1
    rfl
  case ctxLive =>
    intro x hx
    obtain ⟨h1, h2, h3⟩ := hctxlive x hx
    exact ⟨h1, by simp [h2, h3]⟩
  case parent =>
    intro k nd1 p hd1 hpar
    by_cases hkv : k = v
    · subst hkv
      rw [hdv] at hd1
      cases hd1
      simp [PseudotreeNode.new, PseudotreeNode.addChildren] at hpar
    · obtain ⟨nd, hd, _, hctx1, _, _, _, _, h8⟩ := hview k nd1 hd1 hkv
      rw [hpar] at h8
      by_cases hc : st.prev = some k
      · simp only [hc, if_true, Option.some.injEq] at h8
        subst h8
        have hkpre : k ∈ pre := (h.nodeIff k).1 (by simp [hd])
        refine ⟨by rw [hidxv]; exact hidxpre k hkpre, _, hdv, ?_, ?_⟩
        · simp [PseudotreeNode.new, PseudotreeNode.addChildren, hc]
        · intro x hx
          rw [hctx1, h.prevCtx k nd hc hd] at hx
          by_cases hxp : x = p
          · exact Or.inl hxp
          · right
            simp only [PseudotreeNode.new, PseudotreeNode.addChildren]
            exact (hctx x).2 (Or.inr ⟨hx, hxp⟩)
      · simp only [hc, if_false] at h8
        obtain ⟨hidx, pn, hpn, hcount, hcover⟩ := h.parent k nd p hd h8.symm
        obtain ⟨pn1, hpn1, _, hpctx, hpch, _⟩ := hview2 p pn hpn
        refine ⟨hidx, pn1, hpn1, by rw [hpch]; exact hcount, ?_⟩
        intro x hx
        rw [hctx1] at hx
        rw [hpctx]
        exact hcover x hx
  case children =>
    intro p pn1 c hd1 hc
    by_cases hpv : p = v
    · subst hpv
      rw [hdv] at hd1
      cases hd1
      simp only [PseudotreeNode.new, PseudotreeNode.addChildren, List.nil_append,
        Option.mem_toList, Option.mem_def] at hc
      have hcpre := h.prevSome c hc
      have hsome := (h.nodeIff c).2 hcpre
      cases hcd : st.m_nodes.deref c with
      | none => simp [hcd] at hsome
      | some cn =>
        obtain ⟨cn1, hcn1, _, _, _, h5⟩ := hview2 c cn hcd
        refine ⟨cn1, hcn1, ?_⟩
        rw [h5]
        simp [hc]
    · obtain ⟨pn, hpn, _, _, hch, _⟩ := hview p pn1 hd1 hpv
      rw [hch] at hc
      obtain ⟨cn, hcn, hcpar⟩ := h.children p pn c hpn hc
      obtain ⟨cn1, hcn1, _, _, _, h5⟩ := hview2 c cn hcn
      refine ⟨cn1, hcn1, ?_⟩
      rw [h5]
      have hnr : ¬ st.prev = some c := by
        intro hr
        have := (h.rootIff c cn hcn).2 hr
        rw [hcpar] at this
        cases this
      simp [hnr, hcpar]
  case ctxNodup =>
    intro k nd1 hd1
    by_cases hkv : k = v
    · subst hkv
      rw [hdv] at hd1
      cases hd1
      exact nodup_setInsertAll _ _ (nodup_setErase _ _ h.contextNodup)
    · obtain ⟨nd, hd, _, hctx1, _⟩ := hview k nd1 hd1 hkv
      rw [hctx1]
      exact h.ctxNodup k nd hd
  case ctxLater =>
    intro k nd1 x hd1 hx
    by_cases hkv : k = v
    · subst hkv
      rw [hdv] at hd1
      cases hd1
      obtain ⟨h1, h2, h3⟩ := hctxlive x hx
      refine ⟨h1, ?_⟩
      rw [hidxv]
      exact hidxother x h2 h3
    · obtain ⟨nd, hd, _, hctx1, _⟩ := hview k nd1 hd1 hkv
      rw [hctx1] at hx
      exact h.ctxLater k nd x hd hx
  case edges =>
    intro a b hab ha hb
    simp only [List.mem_append, List.mem_singleton, not_or] at ha hb
    rw [hadj]
    exact ⟨ha.2, hb.2, Or.inl (h.edges a b hab ha.1 hb.1)⟩
  case ctxEdges =>
    intro k nd1 x hd1 hkx hidx
    by_cases hkv : k = v
    · subst hkv
      rw [hdv] at hd1
      cases hd1
      simp only [PseudotreeNode.new, PseudotreeNode.addChildren]
      have hxpre : x ∉ pre := by
        intro hm
        have := hidxpre x hm
        omega
      exact (hctx x).2 (Or.inl ((hNadj x).2 (h.edges k x hkx hvpre hxpre)))
    · obtain ⟨nd, hd, _, hctx1, _⟩ := hview k nd1 hd1 hkv
      rw [hctx1]
      exact h.ctxEdges k nd x hd hkx hidx
  case fresh =>
    intro k nd1 hd1
    by_cases hkv : k = v
    · subst hkv
      rw [hdv] at hd1
      cases hd1
      simp [PseudotreeNode.new, PseudotreeNode.addChildren]
    · obtain ⟨nd, hd, _, _, _, h5, h6, h7, _⟩ := hview k nd1 hd1 hkv
      rw [h5, h6, h7]
      exact h.fresh k nd hd

theorem chainLoop_spec {G0 : Graph} {n : Nat} {elim : List Nat} (hnd : elim.Nodup)
    (hlt : ∀ k ∈ elim, k < n) :
    ∀ (rest pre : List Nat) (st : ChainState), pre ++ rest = elim →
      ChainInv G0 n elim pre st →
      ∃ st1, chainLoop rest st = some st1 ∧ ChainInv G0 n elim elim st1 := by
  intro rest
  induction rest with
  | nil =>
    intro pre st hsplit h
    simp only [List.append_nil] at hsplit
    subst hsplit
    exact ⟨st, rfl, h⟩
  | cons v rest ih =>
    intro pre st hsplit h
    obtain ⟨N, hN, hcond, h1⟩ := h.step_chain hsplit hnd hlt
    obtain ⟨st1, hb, h2⟩ := ih (pre ++ [v]) _ (by simpa using hsplit) h1
    refine ⟨st1, ?_, h2⟩
    simp only [chainLoop, hN, hcond, and_self, if_true]
    exact hb

theorem ChainInv.chain_done {G0 : Graph} {n : Nat} {elim : List Nat} {st : ChainState}
    (hperm : elim.Perm (List.range n)) (hn : 0 < n) (h : ChainInv G0 n elim elim st) :
    ∃ q, st.prev = some q ∧ ForestDone G0 n elim st.m_nodes [q] := by
  obtain ⟨_, hlen, hmem⟩ := perm_range_facts hperm
  have hctx : st.context = [] := by
    apply List.eq_nil_iff_forall_not_mem.2
    intro x hx
    obtain ⟨h1, h2⟩ := h.ctxLive x hx
    exact h2 ((hmem x).2 h1)
  cases hp : st.prev with
  | none =>
    have := h.prevNone hp
    rw [this] at hlen
    simp at hlen
    omega
  | some q =>
    refine ⟨q, rfl, h.len, fun k hk => (h.nodeIff k).2 ((hmem k).2 hk), h.var, ?_,
      List.nodup_singleton q, h.parent, h.children, h.ctxNodup, h.ctxLater, ?_, h.ctxEdges⟩
    · intro r
      simp only [List.mem_singleton]
      constructor
      · intro e
        subst e
        have hsome := (h.nodeIff r).2 (h.prevSome r hp)
        cases hd : st.m_nodes.deref r with
        | none => simp [hd] at hsome
        | some nd => exact ⟨nd, rfl, (h.rootIff r nd hd).2 hp⟩
      · rintro ⟨nd, hd, hpar⟩
        have := (h.rootIff r nd hd).1 hpar
        rw [hp] at this
        cases this
        rfl
    · intro r nd hd hpar
      have hr := (h.rootIff r nd hd).1 hpar
      rw [h.prevCtx r nd hr hd, hctx]

theorem buildChain_spec (pt0 : Pseudotree) (G : Graph) (n : Nat) (elim : List Nat)
    (cachelimit : Int) (hrep : G.Rep) (hsim : G.Simple) (hnodes : G.NodesAre n)
    (hperm : elim.Perm (List.range n)) (hn : 0 < n)
    (hlim : cachelimit = NONE ∨ 0 ≤ cachelimit)
    (hready : pt0.Ready n) :
    ∃ pt, Pseudotree.buildChain pt0 G elim cachelimit = some pt
      ∧ TreeInv G n elim cachelimit pt.m_nodes
      ∧ (∀ k, k ≤ n → pt.m_nodes.Good elim.indexOf k)
      ∧ pt.m_elimOrder = elim ++ [n] ∧ pt.m_root = some n := by
  obtain ⟨hnd, hlen, hmem⟩ := perm_range_facts hperm
  have hptn : (if pt0.m_height ≠ UNKNOWN then { pt0.reset with m_width := pt0.m_width }
      else pt0).m_nodes = List.replicate n none := by
    split
    · simp [Pseudotree.reset, hready.1]
    · rename_i hh
      rcases hready.2 with h1 | h1
      · exact absurd h1 hh
      · exact h1
  have hstat : G.getStatNodes = (n : Int) := by
    unfold Graph.getStatNodes
    rw [hrep.statNodes, keys_length_of_nodesAre hrep hnodes]
  obtain ⟨st, e1, hF⟩ := chainLoop_spec hnd (fun k hk => (hmem k).1 hk) elim []
    { G := G,
      m_pathwidth := (if pt0.m_height ≠ UNKNOWN then { pt0.reset with m_width := pt0.m_width }
        else pt0).m_pathwidth,
      m_nodes := List.replicate n none, context := [], prev := none } rfl
    (ChainInv.init_chain elim _ hrep hsim hnodes)
  obtain ⟨q, hq, hD⟩ := hF.chain_done hperm hn
  obtain ⟨nodes1, T, e2, e3, hT⟩ := forest_finish hperm hD cachelimit hlim 0
  have hqsome : ∃ qn, Arena.deref (nodes1 ++ [some (PseudotreeNode.new n [])]) q = some qn := by
    cases hd : Arena.deref (nodes1 ++ [some (PseudotreeNode.new n [])]) q with
    | none => simp [attachToDummy, hd] at e3
    | some qn => exact ⟨qn, rfl⟩
  obtain ⟨qn, hqn⟩ := hqsome
  simp only [attachToDummy, hqn, Option.some.injEq, Prod.mk.injEq] at e3
  obtain ⟨nodes3, hgt, nodes4, w, nodes5, vars, e4, e5, e6, hT5, hgood⟩ :=
    chain_updates hperm hT
  have hb : ∃ pt, Pseudotree.buildChain pt0 G elim cachelimit = some pt ∧ pt.m_nodes = nodes5
      ∧ pt.m_elimOrder = elim ++ [n] ∧ pt.m_root = some n := by
    simp only [Pseudotree.buildChain, hptn, hstat, List.length_replicate, hlen, and_self,
      if_true, e1, e2, hq, e3.1, e4, e5, e6]
    exact ⟨_, rfl, rfl, rfl, rfl⟩
  obtain ⟨pt, hpt1, hpt2, hpt3, hpt4⟩ := hb
  rw [← hpt2] at hT5 hgood
  exact ⟨pt, hpt1, hT5, hgood, hpt3, hpt4⟩

/-! ## The path to the root and the truncated cache context -/

theorem TreeInv.ancestors_last {G0 : Graph} {n : Nat} {elim : List Nat} {cachelimit : Int}
    {T : Arena} (hperm : elim.Perm (List.range n)) (h : TreeInv G0 n elim cachelimit T) :
    ∀ (m k : Nat), k ≤ n → n ≤ m + elim.indexOf k → ∀ f, m < f →
      ∃ l, T.ancestors f (some k) = l ++ [n] := by
  intro m
  induction m with
  | zero =>
    intro k hk hm f hf
    rcases Nat.lt_or_ge k n with h1 | h1
    · have := indexOf_lt_of_lt hperm h1
      omega
    · have hkn : k = n := by omega
      obtain ⟨rd, hrd, hrp, _⟩ := h.root
      obtain ⟨f1, rfl⟩ : ∃ f1, f = f1 + 1 := ⟨f - 1, by omega⟩
      refine ⟨[], ?_⟩
      rw [hkn]
      simp only [Arena.ancestors, hrd, hrp, List.nil_append]
      cases f1 <;> simp [Arena.ancestors]
  | succ m ih =>
    intro k hk hm f hf
    obtain ⟨f1, rfl⟩ : ∃ f1, f = f1 + 1 := ⟨f - 1, by omega⟩
    rcases Nat.lt_or_ge k n with h1 | h1
    · obtain ⟨nd, hd, _⟩ := h.node k hk
      obtain ⟨p, pn, hp, _, hpn, _⟩ := h.parent k nd h1 hd
      obtain ⟨_, hple, hidx, _⟩ := h.rank_lt hperm hd hp
      obtain ⟨l, hl⟩ := ih p hple (by omega) f1 (by omega)
      refine ⟨k :: l, ?_⟩
      simp only [Arena.ancestors, hd, hp, hl, List.cons_append]
    · have hkn : k = n := by omega
      obtain ⟨rd, hrd, hrp, _⟩ := h.root
      refine ⟨[], ?_⟩
      rw [hkn]
      simp only [Arena.ancestors, hrd, hrp, List.nil_append]
      cases f1 <;> simp [Arena.ancestors]

theorem mem_foldl_setInsert (l : List Nat) : ∀ (acc : List Nat) (x : Nat),
    x ∈ l.foldl (fun a y => setInsert y a) acc ↔ x ∈ l ∨ x ∈ acc := by
  induction l with
  | nil => intro acc x; simp
  | cons a l ih =>
    intro acc x
    simp only [List.foldl_cons, ih, mem_setInsert, List.mem_cons]
    tauto

theorem length_foldl_setInsert (l : List Nat) : ∀ (acc : List Nat), l.Nodup →
    (∀ x ∈ l, x ∉ acc) →
    (l.foldl (fun a y => setInsert y a) acc).length = acc.length + l.length := by
  induction l with
  | nil => intro acc _ _; simp
  | cons a l ih =>
    intro acc hnd hdis
    simp only [List.foldl_cons, List.length_cons]
    have ha : a ∉ acc := hdis a (List.mem_cons_self a l)
    rw [ih (setInsert a acc) (List.nodup_cons.1 hnd).2 (fun x hx => by
      rw [mem_setInsert]
      rintro (h1 | h1)
      · subst h1
        exact (List.nodup_cons.1 hnd).1 hx
      · exact hdis x (List.mem_cons_of_mem _ hx) h1)]
    rw [length_setInsert_of_not_mem ha]
    omega

/-- The cache context of a node whose full context is longer than the cache limit. -/
theorem TreeInv.cache_truncated {G0 : Graph} {n : Nat} {elim : List Nat} {cachelimit : Int}
    {T : Arena} (hperm : elim.Perm (List.range n)) (h : TreeInv G0 n elim cachelimit T)
    (hlim : cachelimit = NONE ∨ 0 ≤ cachelimit) {k : Nat} {nd : PseudotreeNode}
    (hk : k < n) (hd : T.deref k = some nd) :
    (T.ctxAncestors k).Perm nd.m_contextS
    ∧ ((cachelimit = NONE ∨ (nd.m_contextS.length : Int) ≤ cachelimit) →
        nd.m_cacheContextS = nd.m_contextS)
    ∧ (¬ (cachelimit = NONE ∨ (nd.m_contextS.length : Int) ≤ cachelimit) →
        (∀ x, x ∈ nd.m_cacheContextS ↔ x ∈ (T.ctxAncestors k).take cachelimit.toNat)
        ∧ (∀ x ∈ nd.m_cacheContextS, x ∈ nd.m_contextS)
        ∧ (nd.m_cacheContextS.length : Int) = cachelimit) := by
  have hp := Arena.ctxAncestors_perm (h.tree_ranked hperm) (by rw [h.len]; omega) (h.tree_covered hperm)
    hd (h.ctxNodup k nd hd)
  have hc := h.cache k nd hk hd
  refine ⟨hp, ?_, ?_⟩
  · intro hcond
    rw [hc]
    simp only [Arena.cacheTarget, hd]
    rw [if_pos]
    rcases hcond with h1 | h1
    · exact Or.inl h1
    · exact Or.inr h1
  · intro hcond
    have hcond2 : ¬ (cachelimit = NONE ∨ cachelimit ≥ (nd.m_contextS.length : Int)) := by
      intro hh
      apply hcond
      rcases hh with h1 | h1
      · exact Or.inl h1
      · exact Or.inr h1
    have heq : nd.m_cacheContextS
        = ((T.ctxAncestors k).take cachelimit.toNat).foldl (fun a x => setInsert x a) [] := by
      rw [hc]
      simp only [Arena.cacheTarget, hd]
      rw [if_neg hcond2]
    have h0 : 0 ≤ cachelimit := by
      rcases hlim with h1 | h1
      · exact absurd (Or.inl h1) hcond
      · exact h1
    have hlt : cachelimit < (nd.m_contextS.length : Int) := by
      by_contra hh
      exact hcond (Or.inr (by omega))
    have hmem : ∀ x, x ∈ nd.m_cacheContextS ↔ x ∈ (T.ctxAncestors k).take cachelimit.toNat := by
      intro x
      rw [heq, mem_foldl_setInsert]
      simp
    refine ⟨hmem, ?_, ?_⟩
    · intro x hx
      exact hp.mem_iff.1 (List.mem_of_mem_take ((hmem x).1 hx))
    · rw [heq, length_foldl_setInsert _ _
        (((hp.nodup_iff).2 (h.ctxNodup k nd hd)).sublist (List.take_sublist _ _))
        (fun x _ => by simp)]
      simp only [List.length_nil, zero_add, List.length_take]
      rw [hp.length_eq]
      omega

/-! ## `resetFunctionInfo` -/

theorem firstInScope_spec (scope : List Nat) : ∀ (l : List Nat) (v : Nat),
    firstInScope scope l = some v →
    v ∈ scope ∧ v ∈ l ∧ ∀ u ∈ scope, u ∈ l → l.indexOf v ≤ l.indexOf u := by
  intro l
  induction l with
  | nil => intro v h; simp [firstInScope] at h
  | cons a l ih =>
    intro v h
    by_cases ha : a ∈ scope
    · simp only [firstInScope, ha, if_true, Option.some.injEq] at h
      subst h
      exact ⟨ha, List.mem_cons_self _ _, fun u _ _ => by simp⟩
    · simp only [firstInScope, ha, if_false] at h
      obtain ⟨h1, h2, h3⟩ := ih v h
      have hva : v ≠ a := fun e => ha (e ▸ h1)
      refine ⟨h1, List.mem_cons_of_mem _ h2, fun u hu hul => ?_⟩
      have hua : u ≠ a := fun e => ha (e ▸ hu)
      have hul2 : u ∈ l := by
        rcases List.mem_cons.1 hul with h4 | h4
        · exact absurd h4 hua
        · exact h4
      rw [List.indexOf_cons_ne _ (Ne.symm hva), List.indexOf_cons_ne _ (Ne.symm hua)]
      exact Nat.succ_le_succ (h3 u hu hul2)

theorem firstInScope_isSome (scope : List Nat) : ∀ (l : List Nat),
    (∃ v ∈ scope, v ∈ l) → ∃ d, firstInScope scope l = some d := by
  intro l
  induction l with
  | nil => rintro ⟨v, _, hv⟩; simp at hv
  | cons a l ih =>
    rintro ⟨v, hv, hvl⟩
    by_cases ha : a ∈ scope
    · exact ⟨a, by simp [firstInScope, ha]⟩
    · simp only [firstInScope, ha, if_false]
      apply ih
      rcases List.mem_cons.1 hvl with h4 | h4
      · exact absurd (h4 ▸ hv) ha
      · exact ⟨v, hv, h4⟩

theorem assignFunction_eq (elimOrder : List Nat) (nodes : Arena) (f : Function) :
    assignFunction elimOrder nodes f
      = match functionTarget elimOrder f with
        | none => none
        | some d =>
          match nodes.deref d with
          | none => none
          | some _ => some (nodes.modify d (fun x => x.addFunction f)) := by
  unfold assignFunction functionTarget
  split <;> rfl

theorem resetAllFunctions_spec : ∀ (nodes : Arena), (∀ x ∈ nodes, x.isSome = true) →
    resetAllFunctions nodes = some (nodes.map (fun o => o.map (fun x => x.resetFunctions))) := by
  intro nodes
  induction nodes with
  | nil => intro _; rfl
  | cons x xs ih =>
    intro h
    cases x with
    | none =>
      have := h none (List.mem_cons_self _ _)
      simp at this
    | some nd =>
      simp only [resetAllFunctions, ih (fun y hy => h y (List.mem_cons_of_mem _ hy)),
        List.map_cons, Option.map_some']

theorem Arena.deref_map (nodes : Arena) (g : PseudotreeNode → PseudotreeNode) (k : Nat) :
    Arena.deref (nodes.map (fun o => o.map g)) k = (nodes.deref k).map g := by
  unfold Arena.deref
  induction nodes generalizing k with
  | nil => simp
  | cons x xs ih =>
    cases k with
    | zero => simp
    | succ k => simpa using ih k

theorem assignFunctions_spec (elimOrder : List Nat) : ∀ (fns : List Function) (nodes : Arena),
    (∀ f ∈ fns, ∃ d, functionTarget elimOrder f = some d ∧ (nodes.deref d).isSome = true) →
    ∃ nodes1, assignFunctions elimOrder fns nodes = some nodes1
      ∧ nodes1.length = nodes.length
      ∧ ∀ k, nodes1.deref k = (nodes.deref k).map (fun x =>
          { x with m_functions := x.m_functions
              ++ fns.filter (fun f => decide (functionTarget elimOrder f = some k)) }) := by
  intro fns
  induction fns with
  | nil =>
    intro nodes _
    refine ⟨nodes, rfl, rfl, fun k => ?_⟩
    cases nodes.deref k <;> simp
  | cons f fns ih =>
    intro nodes h
    obtain ⟨d, hd, hsome⟩ := h f (List.mem_cons_self _ _)
    cases hdn : nodes.deref d with
    | none => simp [hdn] at hsome
    | some dn =>
      obtain ⟨nodes1, e1, l1, g1⟩ := ih (nodes.modify d (fun x => x.addFunction f))
        (fun f2 hf2 => by
          obtain ⟨d2, hd2, hs2⟩ := h f2 (List.mem_cons_of_mem _ hf2)
          refine ⟨d2, hd2, ?_⟩
          rw [Arena.deref_modify]
          by_cases hdd : d2 = d
          · simp [hdd, hdn]
          · simpa [hdd] using hs2)
      refine ⟨nodes1, ?_, by rw [l1, Arena.length_modify], fun k => ?_⟩
      · simp only [assignFunctions, assignFunction_eq, hd, hdn]
        exact e1
      · rw [g1 k, Arena.deref_modify]
        by_cases hk : k = d
        · subst hk
          simp [hdn, hd, PseudotreeNode.addFunction, List.filter_cons]
        · have hne : ¬ functionTarget elimOrder f = some k := by
            rw [hd]
            intro e
            cases e
            exact hk rfl
          simp [hk, hne, List.filter_cons]

/-- What `resetFunctionInfo` returns on a pseudo tree without null node when every
function has a target in `m_nodes`. -/
theorem resetFunctionInfo_spec (pt : Pseudotree) (fns : List Function)
    (hnodes : ∀ x ∈ pt.m_nodes, x.isSome = true)
    (htarget : ∀ f ∈ fns, ∃ d, functionTarget pt.m_elimOrder f = some d
      ∧ d < pt.m_nodes.length) :
    ∃ nodes1, pt.resetFunctionInfo fns = some { pt with m_nodes := nodes1 }
      ∧ nodes1.length = pt.m_nodes.length
      ∧ ∀ k, nodes1.deref k = (pt.m_nodes.deref k).map (fun x =>
          { x with m_functions :=
              fns.filter (fun f => decide (functionTarget pt.m_elimOrder f = some k)) }) := by
  have hsome : ∀ k, k < pt.m_nodes.length → (pt.m_nodes.deref k).isSome = true := by
    intro k hk
    unfold Arena.deref
    rw [List.getD_eq_getElem _ _ hk]
    exact hnodes _ (List.getElem_mem hk)
  obtain ⟨nodes1, e1, l1, g1⟩ := assignFunctions_spec pt.m_elimOrder fns
    (pt.m_nodes.map (fun o => o.map (fun x => x.resetFunctions)))
    (fun f hf => by
      obtain ⟨d, hd, hlt⟩ := htarget f hf
      refine ⟨d, hd, ?_⟩
      rw [Arena.deref_map]
      have := hsome d hlt
      cases h : pt.m_nodes.deref d with
      | none => simp [h] at this
      | some _ => rfl)
  refine ⟨nodes1, ?_, by rw [l1]; simp, fun k => ?_⟩
  · simp only [Pseudotree.resetFunctionInfo, resetAllFunctions_spec pt.m_nodes hnodes, e1]
  · rw [g1 k, Arena.deref_map]
    cases pt.m_nodes.deref k with
    | none => rfl
    | some x => simp [PseudotreeNode.resetFunctions]

/-! ## `build` followed by `resetFunctionInfo` -/

/-- The target of a function in the order that `build` has stored. -/
theorem functionTarget_build {n : Nat} {elim : List Nat} (hperm : elim.Perm (List.range n))
    (f : Function) (hscope : ∀ x ∈ f.getScopeSet, x < n) :
    ∃ d, functionTarget (elim ++ [n]) f = some d ∧ d ≤ n
      ∧ (f.getScopeSet = [] → d = n)
      ∧ (f.getScopeSet ≠ [] → d < n ∧ d ∈ f.getScopeSet
          ∧ ∀ u ∈ f.getScopeSet, elim.indexOf d ≤ elim.indexOf u) := by
  obtain ⟨_, hlen, hmem⟩ := perm_range_facts hperm
  by_cases hs : f.getScopeSet = []
  · refine ⟨n, by simp [functionTarget, hs], le_refl n, fun _ => rfl, fun h => absurd hs h⟩
  · obtain ⟨v, hv⟩ := List.exists_mem_of_ne_nil _ hs
    obtain ⟨d, hd⟩ := firstInScope_isSome f.getScopeSet (elim ++ [n])
      ⟨v, hv, List.mem_append_left _ ((hmem v).2 (hscope v hv))⟩
    obtain ⟨h1, h2, h3⟩ := firstInScope_spec _ _ _ hd
    have hlen0 : f.getScopeSet.length ≠ 0 := fun e => hs (List.length_eq_zero.1 e)
    have hdn : d < n := hscope d h1
    refine ⟨d, by simp [functionTarget, hlen0, hd], by omega, fun h => absurd h hs,
      fun _ => ⟨hdn, h1, fun u hu => ?_⟩⟩
    have hue : u ∈ elim := (hmem u).2 (hscope u hu)
    have hde : d ∈ elim := (hmem d).2 hdn
    have := h3 u hu (List.mem_append_left _ hue)
    rwa [List.indexOf_append_of_mem hde, List.indexOf_append_of_mem hue] at this

theorem build_reset_spec (pt0 : Pseudotree) (G : Graph) (n : Nat) (elim : List Nat)
    (cachelimit : Int) (fns : List Function) (hrep : G.Rep) (hsim : G.Simple)
    (hnodes : G.NodesAre n) (hperm : elim.Perm (List.range n))
    (hlim : cachelimit = NONE ∨ 0 ≤ cachelimit) (hready : pt0.Ready n)
    (hscope : ∀ f ∈ fns, ∀ x ∈ f.getScopeSet, x < n) :
    ∃ pt pt1, Pseudotree.build pt0 G elim cachelimit = some pt
      ∧ pt.resetFunctionInfo fns = some pt1
      ∧ TreeInv G n elim cachelimit pt1.m_nodes
      ∧ (∀ k, k ≤ n → pt1.m_nodes.Good elim.indexOf k)
      ∧ ∀ k nd, pt1.getNode k = some nd →
          nd.m_functions = fns.filter (fun f => decide (functionTarget (elim ++ [n]) f = some k)) := by
  obtain ⟨pt, hb, hT, hgood, helim, _⟩ :=
    build_spec pt0 G n elim cachelimit hrep hsim hnodes hperm hlim hready
  have hall : ∀ x ∈ pt.m_nodes, x.isSome = true := by
    intro x hx
    obtain ⟨k, hk, hxk⟩ := List.getElem_of_mem hx
    rw [hT.len] at hk
    obtain ⟨nd, hd, _⟩ := hT.node k (by omega)
    unfold Arena.deref at hd
    rw [List.getD_eq_getElem _ _ (by rw [hT.len]; exact hk), hxk] at hd
    simp [hd]
  obtain ⟨nodes1, e1, l1, g1⟩ := resetFunctionInfo_spec pt fns hall (fun f hf => by
    obtain ⟨d, hd, hdn, _⟩ := functionTarget_build hperm f (hscope f hf)
    rw [helim, hT.len]
    exact ⟨d, hd, by omega⟩)
  rw [helim] at g1
  have hrel : Arena.Rel (fun a b => a.Shape b ∧ a.m_cacheContextS = b.m_cacheContextS)
      pt.m_nodes nodes1 := by
    refine ⟨l1.symm, fun k => ?_⟩
    rw [g1 k]
    cases pt.m_nodes.deref k with
    | none => trivial
    | some a => exact ⟨⟨rfl, rfl, rfl, List.Perm.refl _⟩, rfl⟩
  refine ⟨pt, _, hb, e1, hT.congr_shape hrel, fun k hk => ?_, fun k nd hd => ?_⟩
  · obtain ⟨nd, hd, h1, h2⟩ := hgood k hk
    have hd1 := g1 k
    rw [hd] at hd1
    exact ⟨_, hd1, h1, h2⟩
  · simp only [Pseudotree.getNode, g1 k] at hd
    cases h : pt.m_nodes.deref k with
    | none => simp [h] at hd
    | some a =>
      simp only [h, Option.map_some', Option.some.injEq] at hd
      rw [← hd]

/-! ## The cache reset lists and the stages of `build` -/

theorem find_eq_head_filter {α : Type} (p : α → Bool) (l : List α) :
    l.find? p = (l.filter p).head? := by
  induction l with
  | nil => rfl
  | cons a l ih =>
    rw [List.find?_cons, List.filter_cons]
    cases hp : p a
    · simp
    · simp

theorem Arena.resetTarget_congr {R : PseudotreeNode → PseudotreeNode → Prop} {A B : Arena}
    (h : Arena.Rel R A B) (hpar : ∀ a b, R a b → a.m_parent = b.m_parent)
    (hctx : ∀ a b, R a b → a.m_contextS = b.m_contextS) (cachelimit : Int) (k : Nat) :
    A.resetTarget cachelimit k = B.resetTarget cachelimit k := by
  unfold Arena.resetTarget
  rw [Arena.ctxAncestors_congr h hpar hctx]
  cases ha : A.deref k with
  | none => rw [(h.none_iff k).1 ha]
  | some a =>
    obtain ⟨b, hb, hab⟩ := h.left ha
    simp only [hb, hctx a b hab]

/-- Lines 403-421 add the variable of the node to one reset list, that of its reset
target, and to none when the cache context is the full context. -/
theorem cacheContextNode_resets {nodes : Arena} {ρ : Nat → Nat} {B : Nat}
    (hr : nodes.Ranked ρ B) (hB : B ≤ nodes.length + 1) (hc : nodes.Covered)
    (cachelimit : Int) (hlim : cachelimit = NONE ∨ 0 ≤ cachelimit)
    {i : Nat} {nd : PseudotreeNode} (hd : nodes.deref i = some nd)
    (hnd : nd.m_contextS.Nodup) :
    ∃ nodes1, cacheContextNode cachelimit nodes i = some nodes1
      ∧ ∀ k a b, nodes.deref k = some a → nodes1.deref k = some b →
          b.m_cacheResetList = a.m_cacheResetList
            ++ (if nodes.resetTarget cachelimit i = some k then [i] else []) := by
  have hperm := Arena.ctxAncestors_perm hr hB hc hd hnd
  unfold cacheContextNode
  simp only [hd]
  by_cases hfull : cachelimit = NONE ∨ cachelimit ≥ (nd.m_contextS.length : Int)
  · simp only [hfull, if_true]
    refine ⟨_, rfl, ?_⟩
    intro k a b ha hb
    have ht : nodes.resetTarget cachelimit i = none := by
      simp [Arena.resetTarget, hd, hfull]
    rw [ht]
    rw [Arena.deref_modify] at hb
    simp only [reduceCtorEq, if_false, List.append_nil]
    by_cases hki : k = i
    · simp only [hki, if_true, hd, Option.map_some', Option.some.injEq] at hb ha
      rw [← hb, ← ha]; rfl
    · simp only [hki, if_false, ha, Option.some.injEq] at hb
      rw [hb]
  · simp only [hfull, if_false]
    have hnn : cachelimit ≠ NONE := fun e => hfull (Or.inl e)
    have h0 : 0 ≤ cachelimit := by
      rcases hlim with h | h
      · exact absurd h hnn
      · exact h
    have hlt : ¬ cachelimit < 0 := by omega
    have hj : cachelimit.toNat < nd.m_contextS.length := by
      have : ¬ cachelimit ≥ (nd.m_contextS.length : Int) := fun e => hfull (Or.inr e)
      omega
    simp only [hlt, if_false]
    have hlenA : ((nodes.ancestors (nodes.length + 1) nd.m_parent).filter
        (fun x => decide (x ∈ nd.m_contextS))).length = nd.m_contextS.length := by
      have := hperm.length_eq
      simpa [Arena.ctxAncestors, hd] using this
    obtain ⟨p1, hw, hp1, hdrop⟩ := cacheWalk_spec hr hB nd.m_contextS cachelimit.toNat
      nd.m_parent []
      (fun p hp => (hr.up i nd p hd hp).2.1)
      (by rw [hlenA]; omega)
    simp only [hw]
    have hrel1 : ∀ l : List Nat, Arena.Rel PseudotreeNode.CacheRel nodes
        (nodes.modify i (fun x => x.setCacheContext l)) :=
      fun l => Arena.Rel.rel_modify PseudotreeNode.CacheRel.cache_refl _ _ _
        (fun a => ⟨rfl, rfl, rfl, rfl, rfl⟩)
    have hne : ((nodes.ancestors (nodes.length + 1) p1).filter
        (fun x => decide (x ∈ nd.m_contextS))) ≠ [] := by
      rw [hdrop]
      intro he
      have := congrArg List.length he
      simp only [List.length_drop, List.length_nil, hlenA] at this
      omega
    obtain ⟨q, hq⟩ := find_of_filter_ne_nil _ _ hne
    have hfind : ∀ l : List Nat,
        findInContext (nodes.modify i (fun x => x.setCacheContext l)) nd.m_contextS
          ((nodes.modify i (fun x => x.setCacheContext l)).length + 1) p1 = some q := by
      intro l
      have hr1 := Arena.Ranked.ranked_congr (hrel1 l) (fun a b h => h.1) (fun a b h => h.2.1) hr
      have hanc := Arena.ancestors_congr (hrel1 l) (fun a b h => h.2.1)
      rw [findInContext_eq_find hr1.var, ← hanc, Arena.length_modify]
      exact hq
    simp only [hfind]
    have ht : nodes.resetTarget cachelimit i = some q := by
      simp only [Arena.resetTarget, hd, hfull, if_false, Arena.ctxAncestors]
      rw [← List.head?_drop, ← hdrop, ← find_eq_head_filter]
      exact hq
    have hdd : ∀ (l : List Nat) (w k : Nat),
        Arena.deref ((nodes.modify i (fun x => x.setCacheContext l)).modify q
          (fun x => x.addCacheReset w)) k
        = ((nodes.deref k).map (fun x => if k = i then x.setCacheContext l else x)).map
            (fun x => if k = q then x.addCacheReset w else x) := by
      intro l w k
      simp only [Arena.deref_modify]
      by_cases hkq : k = q
      · by_cases hki : k = i
        · subst hki
          subst hkq
          cases nodes.deref k <;> simp
        · subst hkq
          cases nodes.deref k <;> simp [hki]
      · by_cases hki : k = i
        · subst hki
          cases nodes.deref k <;> simp [hkq]
        · cases nodes.deref k <;> simp [hkq, hki]
    refine ⟨_, rfl, ?_⟩
    intro k a b ha hb
    rw [ht]
    rw [hdd, ha, hr.var i nd hd] at hb
    simp only [Option.map_some', Option.some.injEq] at hb
    rw [← hb]
    by_cases hkq : k = q
    · have e : (some q = some k) := by rw [hkq]
      simp only [hkq, e, if_true]
      by_cases hki : q = i
      · simp only [hki, if_true]; rfl
      · simp only [hki, if_false]; rfl
    · have e : ¬ (some q = some k) := fun h => hkq (Option.some.inj h).symm
      simp only [hkq, e, if_false, List.append_nil]
      by_cases hki : k = i
      · simp only [hki, if_true]; rfl
      · simp only [hki, if_false]

/-- Lines 402-424: after the loop over the positions `L` the reset list of a node holds,
behind what it held, the variables of `L` whose reset target the node is. -/
theorem cacheContextLoop_resets {F : Arena} {ρ : Nat → Nat} {B : Nat}
    (hr : F.Ranked ρ B) (hB : B ≤ F.length + 1) (hc : F.Covered)
    (hnd : ∀ k nd, F.deref k = some nd → nd.m_contextS.Nodup)
    (cachelimit : Int) (hlim : cachelimit = NONE ∨ 0 ≤ cachelimit) :
    ∀ (L : List Nat) (nodes : Arena),
      (∀ i ∈ L, (F.deref i).isSome = true) →
      Arena.Rel PseudotreeNode.CacheRel F nodes →
      ∃ nodes1, cacheContextLoop cachelimit L nodes = some nodes1
        ∧ ∀ k a b, nodes.deref k = some a → nodes1.deref k = some b →
            b.m_cacheResetList = a.m_cacheResetList
              ++ L.filter (fun i => decide (F.resetTarget cachelimit i = some k)) := by
  intro L
  induction L with
  | nil =>
    intro nodes _ _
    refine ⟨nodes, rfl, ?_⟩
    intro k a b ha hb
    rw [ha] at hb
    cases hb
    simp
  | cons i L ih =>
    intro nodes hL hrel
    have hr2 := Arena.Ranked.ranked_congr hrel (fun a b h => h.1) (fun a b h => h.2.1) hr
    have hc2 := Arena.Covered.covered_congr hrel (fun a b h => h.2.1) (fun a b h => h.2.2.1) hc
    have hFi := hL i (List.mem_cons_self i L)
    cases hFd : F.deref i with
    | none => simp [hFd] at hFi
    | some fnd =>
      obtain ⟨nd, hd, hfn⟩ := hrel.left hFd
      have hnd2 : nd.m_contextS.Nodup := by
        rw [← hfn.2.2.1]; exact hnd i fnd hFd
      obtain ⟨nodes1, h1, hrel1, _, _⟩ :=
        cacheContextNode_spec hr2 (by rw [← hrel.1]; exact hB) hc2 cachelimit hlim hd hnd2
      obtain ⟨nodes1b, h1b, hres⟩ :=
        cacheContextNode_resets hr2 (by rw [← hrel.1]; exact hB) hc2 cachelimit hlim hd hnd2
      rw [h1] at h1b
      cases h1b
      have hrelF : Arena.Rel PseudotreeNode.CacheRel F nodes1 :=
        Arena.Rel.rel_trans PseudotreeNode.CacheRel.cache_trans hrel hrel1
      have htar : nodes.resetTarget cachelimit i = F.resetTarget cachelimit i :=
        (Arena.resetTarget_congr hrel (fun a b h => h.2.1) (fun a b h => h.2.2.1)
          cachelimit i).symm
      obtain ⟨nodes2, h2, hall⟩ := ih nodes1
        (fun j hj => hL j (List.mem_cons_of_mem _ hj)) hrelF
      refine ⟨nodes2, ?_, ?_⟩
      · simp only [cacheContextLoop, h1]
        exact h2
      · intro k a b ha hb
        obtain ⟨c, hc1, _⟩ := hrel1.left ha
        rw [hall k c b hc1 hb, hres k a c ha hc1, htar, List.filter_cons]
        by_cases ht : F.resetTarget cachelimit i = some k
        · simp [ht]
        · simp [ht]

/-- Lines 426-434: what the dummy root changes in the arena that the cache context loop has
left. -/
theorem dummy_view {G0 : Graph} {n : Nat} {elim : List Nat} {F : Arena} {roots : List Nat}
    {nodes1 T : Arena} {comps c2 : Int} (h : ForestDone G0 n elim F roots)
    (hrel : Arena.Rel PseudotreeNode.CacheRel F nodes1)
    (e : attachToDummy n roots (nodes1 ++ [some (PseudotreeNode.new n [])]) comps
      = some (T, c2)) :
    T.length = n + 1 ∧ T.deref n = some ((PseudotreeNode.new n []).addChildren roots)
      ∧ ∀ k, k < n → ∃ fnd nd1, F.deref k = some fnd ∧ nodes1.deref k = some nd1
          ∧ T.deref k = some (if k ∈ roots then nd1.setParent (some n) else nd1)
          ∧ PseudotreeNode.CacheRel fnd nd1
          ∧ (k ∈ roots ↔ fnd.m_parent = none) := by
  have hlen1 : nodes1.length = n := by rw [← hrel.1, h.len]
  have hA0 : ∀ k, Arena.deref (nodes1 ++ [some (PseudotreeNode.new n [])]) k
      = if k < n then nodes1.deref k
        else if k = n then some (PseudotreeNode.new n []) else none := by
    intro k
    rw [Arena.deref_append, hlen1]
  have hrootF : ∀ r ∈ roots, ∃ fnd, F.deref r = some fnd ∧ fnd.m_parent = none :=
    fun r hr => (h.rootsIff r).1 hr
  obtain ⟨T2, hT1, hT2, hT3⟩ := attachToDummy_spec n roots
    (nodes1 ++ [some (PseudotreeNode.new n [])]) comps
    (by
      intro r hr
      obtain ⟨fnd, hfnd, _⟩ := hrootF r hr
      have hrn : r < n := h.node_lt hfnd
      obtain ⟨nd1, hnd1, _⟩ := hrel.left hfnd
      refine ⟨by omega, nd1, ?_⟩
      rw [hA0]
      simp [hrn, hnd1])
  rw [e] at hT1
  cases hT1
  refine ⟨by rw [hT2]; simp [hlen1], ?_, ?_⟩
  · simp only [hT3, hA0, if_true, lt_irrefl, if_false, Option.map_some']
  · intro k hk
    have hsome : (F.deref k).isSome = true := h.nodeSome k hk
    cases hfd : F.deref k with
    | none => simp [hfd] at hsome
    | some fnd =>
      obtain ⟨nd1, hnd1, hcr⟩ := hrel.left hfd
      have hkn : k ≠ n := by omega
      have hroot : k ∈ roots ↔ fnd.m_parent = none := by
        rw [h.rootsIff k]
        constructor
        · rintro ⟨x, hx, hxp⟩
          rw [hfd] at hx; cases hx; exact hxp
        · intro hp; exact ⟨fnd, hfd, hp⟩
      refine ⟨fnd, nd1, rfl, hnd1, ?_, hcr, hroot⟩
      simp only [hT3, hA0, hkn, hk, if_true, if_false, hnd1, Option.map_some']

/-- The dummy root is in no context, so the context variables met on the way up are those
of the forest. -/
theorem ctxAncestors_dummy {G0 : Graph} {n : Nat} {elim : List Nat} {F : Arena}
    {roots : List Nat} {nodes1 T : Arena} {comps c2 : Int}
    (hperm : elim.Perm (List.range n)) (h : ForestDone G0 n elim F roots)
    (hrel : Arena.Rel PseudotreeNode.CacheRel F nodes1)
    (e : attachToDummy n roots (nodes1 ++ [some (PseudotreeNode.new n [])]) comps
      = some (T, c2)) (k : Nat) (hk : k < n) :
    T.ctxAncestors k = F.ctxAncestors k := by
  obtain ⟨hlen, hTn, hview⟩ := dummy_view h hrel e
  have hranked := h.ranked hperm
  have hpar : ∀ k fnd, F.deref k = some fnd → ∃ nd, T.deref k = some nd
      ∧ nd.m_parent = (if fnd.m_parent = none then some n else fnd.m_parent)
      ∧ nd.m_contextS = fnd.m_contextS := by
    intro k fnd hfd
    obtain ⟨fnd2, nd1, h1, h2, h3, h4, h5⟩ := hview k (h.node_lt hfd)
    rw [hfd] at h1
    cases h1
    refine ⟨_, h3, ?_, ?_⟩
    · by_cases hr : k ∈ roots
      · simp only [hr, if_true, PseudotreeNode.setParent, h5.1 hr]
      · have hp : ¬ fnd.m_parent = none := fun e => hr (h5.2 e)
        simp only [hr, if_false, hp]
        exact h4.2.1.symm
    · by_cases hr : k ∈ roots
      · simp only [hr, if_true, PseudotreeNode.setParent]; exact h4.2.2.1.symm
      · simp only [hr, if_false]; exact h4.2.2.1.symm
  have hTF : ∀ k fnd, F.deref k = some fnd → ∃ nd, T.deref k = some nd
      ∧ nd.m_parent = (if fnd.m_parent = none then some n else fnd.m_parent) := by
    intro k fnd hfd
    obtain ⟨nd, h1, h2, _⟩ := hpar k fnd hfd
    exact ⟨nd, h1, h2⟩
  have hsome : (F.deref k).isSome = true := h.nodeSome k hk
  cases hfd : F.deref k with
  | none => simp [hfd] at hsome
  | some fnd =>
    obtain ⟨nd, hd, h6, h4⟩ := hpar k fnd hfd
    simp only [Arena.ctxAncestors, hd, hfd, h4]
    cases hfp : fnd.m_parent with
    | none =>
      have hctx := h.rootCtx k fnd hfd hfp
      simp [hctx]
    | some p =>
      rw [h6, hfp]
      simp only [reduceCtorEq, if_false]
      obtain ⟨_, hu2, hu3⟩ := hranked.up k fnd p hfd hfp
      rw [hlen, h.len]
      rw [Arena.ancestors_with_dummy hranked hTF ⟨_, hTn, rfl⟩ (n + 1) p hu2 (by omega) hu3]
      rw [List.filter_append]
      have hn : n ∉ fnd.m_contextS := fun hm => by
        have := (h.ctxLater k fnd n hfd hm).1
        omega
      simp [hn]

/-- Lines 436-462: the recursive updates leave every node as it is in all that the loops
before have set, the children up to their order. -/
theorem tree_updates_rel {G0 : Graph} {n : Nat} {elim : List Nat} {cachelimit : Int}
    {T : Arena} (hperm : elim.Perm (List.range n)) (h : TreeInv G0 n elim cachelimit T)
    (subOrder : SubOrder) :
    ∃ nodes3 hgt nodes4 w nodes5 nodes6 vars,
      updateDepthHeight (T.length + 1) T n (-1) = some (nodes3, hgt)
      ∧ updateSubWidth (nodes3.length + 1) nodes3 n = some (nodes4, w)
      ∧ orderAll subOrder (List.range nodes4.length) nodes4 = some nodes5
      ∧ updateSubprobVars nodes5.length (nodes5.length + 1) nodes5 n = some (nodes6, vars)
      ∧ Arena.Rel PseudotreeNode.Similar T nodes6 := by
  have hroot : ∀ {A : Arena}, TreeInv G0 n elim cachelimit A → (A.deref n).isSome = true := by
    intro A hA
    obtain ⟨rd, hrd, _⟩ := hA.root
    simp [hrd]
  have hρ : elim.indexOf n = n := indexOf_dummy hperm
  obtain ⟨nodes3, hgt, e3, r3⟩ := updateDepthHeight_spec (T.length + 1) T n (-1)
    (h.down hperm) (hroot h) (by rw [hρ, h.len]; omega)
  have h3 := h.tree_congr r3
  obtain ⟨nodes4, w, e4, r4⟩ := updateSubWidth_spec (nodes3.length + 1) nodes3 n
    (h3.down hperm) (hroot h3) (by rw [hρ, h3.len]; omega)
  have h4 := h3.tree_congr r4
  obtain ⟨nodes5, e5, r5⟩ := orderAll_spec subOrder (List.range nodes4.length) nodes4
    (h4.down hperm) (fun i hi => by
      obtain ⟨nd, hd, _⟩ := h4.node i (by
        have := List.mem_range.1 hi
        rw [h4.len] at this
        omega)
      simp [hd])
  have h5 := h4.tree_congr r5
  obtain ⟨nodes6, vars, e6, r6, _, g6, _⟩ := updateSubprobVars_spec nodes5.length
    (nodes5.length + 1) nodes5 n (h5.down hperm) (h5.up hperm) h5.varAt (hroot h5)
    (by rw [hρ, h5.len]; omega)
  exact ⟨nodes3, hgt, nodes4, w, nodes5, nodes6, vars, e3, e4, e5, e6,
    ((r3.similar_trans r4).similar_trans r5).similar_trans r6⟩

/-- The recursive updates of `buildChain` leave every node as it is in all that the loops
before have set. -/
theorem chain_updates_rel {G0 : Graph} {n : Nat} {elim : List Nat} {cachelimit : Int}
    {T : Arena} (hperm : elim.Perm (List.range n)) (h : TreeInv G0 n elim cachelimit T) :
    ∃ nodes3 hgt nodes4 w nodes5 vars,
      updateDepthHeight (T.length + 1) T n (-1) = some (nodes3, hgt)
      ∧ updateSubWidth (nodes3.length + 1) nodes3 n = some (nodes4, w)
      ∧ updateSubprobVars nodes4.length (nodes4.length + 1) nodes4 n = some (nodes5, vars)
      ∧ Arena.Rel PseudotreeNode.Similar T nodes5 := by
  have hroot : ∀ {A : Arena}, TreeInv G0 n elim cachelimit A → (A.deref n).isSome = true := by
    intro A hA
    obtain ⟨rd, hrd, _⟩ := hA.root
    simp [hrd]
  have hρ : elim.indexOf n = n := indexOf_dummy hperm
  obtain ⟨nodes3, hgt, e3, r3⟩ := updateDepthHeight_spec (T.length + 1) T n (-1)
    (h.down hperm) (hroot h) (by rw [hρ, h.len]; omega)
  have h3 := h.tree_congr r3
  obtain ⟨nodes4, w, e4, r4⟩ := updateSubWidth_spec (nodes3.length + 1) nodes3 n
    (h3.down hperm) (hroot h3) (by rw [hρ, h3.len]; omega)
  have h4 := h3.tree_congr r4
  obtain ⟨nodes5, vars, e5, r5, _, g5, _⟩ := updateSubprobVars_spec nodes4.length
    (nodes4.length + 1) nodes4 n (h4.down hperm) (h4.up hperm) h4.varAt (hroot h4)
    (by rw [hρ, h4.len]; omega)
  exact ⟨nodes3, hgt, nodes4, w, nodes5, vars, e3, e4, e5,
    (r3.similar_trans r4).similar_trans r5⟩

/-- The stages of `build`: the forest of the first loop, the arena after the cache context
loop, the tree with the dummy root, and the result, which differs from that tree only in
what the recursive updates compute. -/
theorem build_view (pt0 : Pseudotree) (G : Graph) (n : Nat) (elim : List Nat)
    (cachelimit : Int) (hrep : G.Rep) (hsim : G.Simple) (hnodes : G.NodesAre n)
    (hperm : elim.Perm (List.range n)) (hlim : cachelimit = NONE ∨ 0 ≤ cachelimit)
    (hready : pt0.Ready n) :
    ∃ pt st nodes1 T, Pseudotree.build pt0 G elim cachelimit = some pt
      ∧ ForestInv G n elim elim st
      ∧ cacheContextLoop cachelimit (List.range st.m_nodes.length) st.m_nodes = some nodes1
      ∧ attachToDummy n st.roots (nodes1 ++ [some (PseudotreeNode.new n [])])
          (if pt0.m_height ≠ UNKNOWN then pt0.reset else pt0).m_components
          = some (T, pt.m_components)
      ∧ TreeInv G n elim cachelimit T
      ∧ Arena.Rel PseudotreeNode.Similar T pt.m_nodes := by
  obtain ⟨hnd, hlen, hmem⟩ := perm_range_facts hperm
  have hptn : (if pt0.m_height ≠ UNKNOWN then pt0.reset else pt0).m_nodes
      = List.replicate n none := by
    split
    · simp [Pseudotree.reset, hready.1]
    · rename_i hh
      rcases hready.2 with h1 | h1
      · exact absurd h1 hh
      · exact h1
  have hstat : G.getStatNodes = (n : Int) := by
    unfold Graph.getStatNodes
    rw [hrep.statNodes, keys_length_of_nodesAre hrep hnodes]
  obtain ⟨st, e1, hF⟩ := buildLoop_spec hnd (fun k hk => (hmem k).1 hk) elim []
    { G := G, m_width := (if pt0.m_height ≠ UNKNOWN then pt0.reset else pt0).m_width,
      m_nodes := List.replicate n none, roots := [] } rfl
    (ForestInv.init_forest elim _ hrep hsim hnodes)
  have hD := hF.done hperm
  obtain ⟨nodes1, T, e2, e3, hT⟩ := forest_finish hperm hD cachelimit hlim
    (if pt0.m_height ≠ UNKNOWN then pt0.reset else pt0).m_components
  obtain ⟨nodes3, hgt, nodes4, w, nodes5, nodes6, vars, e4, e5, e6, e7, hrel⟩ :=
    tree_updates_rel hperm hT (if pt0.m_height ≠ UNKNOWN then pt0.reset else pt0).m_subOrder
  have hb : ∃ pt, Pseudotree.build pt0 G elim cachelimit = some pt ∧ pt.m_nodes = nodes6
      ∧ pt.m_components = (if pt0.m_height ≠ UNKNOWN then pt0.reset else pt0).m_components
          + (st.roots.length : Int) := by
    simp only [Pseudotree.build, hptn, hstat, List.length_replicate, hlen, and_self, if_true,
      e1, e2, e3, e4, e5, e6, e7]
    exact ⟨_, rfl, rfl, rfl⟩
  obtain ⟨pt, hpt1, hpt2, hpt3⟩ := hb
  rw [← hpt2] at hrel
  rw [← hpt3] at e3
  exact ⟨pt, st, nodes1, T, hpt1, hF, e2, e3, hT, hrel⟩

theorem ChainLinks.step_links {pre : List Nat} {v : Nat} {prev : Option Nat}
    {nodes nodes2 : Arena} (ctx : List Nat) (h : ChainLinks pre prev nodes)
    (hnd : (pre ++ [v]).Nodup)
    (hA : ∀ k, nodes2.deref k
      = if k = v then some ((PseudotreeNode.new v ctx).addChildren prev.toList)
        else if prev = some k then (nodes.deref k).map (fun x => x.setParent (some v))
        else nodes.deref k) :
    ChainLinks (pre ++ [v]) (some v) nodes2 := by
  have hpre : pre.Nodup := (List.nodup_append.1 hnd).1
  have hvpre : v ∉ pre := fun hm => (List.nodup_append.1 hnd).2.2 hm (List.mem_singleton.2 rfl)
  refine ⟨by simp, ?_⟩
  intro l1 k l2 hsplit
  rw [hA]
  rcases List.eq_nil_or_concat l2 with h2 | ⟨l3, b, h2⟩
  · subst h2
    have := List.append_inj' hsplit rfl
    obtain ⟨e1, e2⟩ := this
    simp only [List.cons.injEq, and_true] at e2
    subst e1
    subst e2
    simp only [if_true]
    refine ⟨_, rfl, rfl, ?_⟩
    simp [PseudotreeNode.addChildren, PseudotreeNode.new, h.1]
  · subst h2
    have hs2 : pre ++ [v] = (l1 ++ k :: l3) ++ [b] := by simpa using hsplit
    obtain ⟨e1, e2⟩ := List.append_inj' hs2 rfl
    simp only [List.cons.injEq, and_true] at e2
    subst e2
    obtain ⟨nd, hd, hp, hc⟩ := h.2 l1 k l3 e1
    have hkpre : k ∈ pre := by rw [e1]; simp
    have hkv : ¬ k = v := fun e => hvpre (e ▸ hkpre)
    simp only [hkv, if_false, hd, Option.map_some']
    rw [e1] at hpre
    have hk3 : k ∉ l3 := by
      have := (List.nodup_append.1 hpre).2.1
      exact (List.nodup_cons.1 this).1
    by_cases hprev : prev = some k
    · have hl3 : l3 = [] := by
        by_contra hne
        rw [h.1, e1, List.getLast?_append_of_ne_nil _ (by simp)] at hprev
        cases l3 with
        | nil => exact hne rfl
        | cons a l =>
          rw [List.getLast?_cons_cons] at hprev
          exact hk3 (List.mem_of_getLast?_eq_some hprev)
      subst hl3
      simp only [hprev, if_true]
      exact ⟨_, rfl, rfl, hc⟩
    · have hl3 : l3 ≠ [] := by
        intro e
        subst e
        apply hprev
        rw [h.1, e1]
        simp
      simp only [hprev, if_false]
      refine ⟨nd, rfl, ?_, hc⟩
      rw [hp]
      cases l3 with
      | nil => exact absurd rfl hl3
      | cons a l => rfl

theorem chainLoop_links : ∀ (vs pre : List Nat) (st st1 : ChainState), (pre ++ vs).Nodup →
    chainLoop vs st = some st1 → ChainLinks pre st.prev st.m_nodes →
    ChainLinks (pre ++ vs) st1.prev st1.m_nodes := by
  intro vs
  induction vs with
  | nil =>
    intro pre st st1 _ he h
    simp only [chainLoop, Option.some.injEq] at he
    subst he
    simpa using h
  | cons v rest ih =>
    intro pre st st1 hnd he h
    simp only [chainLoop] at he
    cases hN : st.G.getNeighbors v with
    | none => simp [hN] at he
    | some N =>
      simp only [hN] at he
      split at he
      · rename_i hcond
        have hnd1 : (pre ++ [v]).Nodup := by
          have : (pre ++ [v] ++ rest).Nodup := by simpa using hnd
          exact (List.nodup_append.1 this).1
        have hq : ∀ q, st.prev = some q → q ≠ v := by
          intro q hq e
          rw [h.1] at hq
          have hvpre : v ∉ pre :=
            fun hm => (List.nodup_append.1 hnd1).2.2 hm (List.mem_singleton.2 rfl)
          exact hvpre (e ▸ List.mem_of_getLast?_eq_some hq)
        have hder := chain_arena st.m_nodes v (setInsertAll N (setErase v st.context)) st.prev
          hcond.1 hq
        have h1 := h.step_links (setInsertAll N (setErase v st.context)) hnd1 hder
        have := ih (pre ++ [v]) _ st1 (by simpa using hnd) he h1
        simpa using this
      · cases he

/-- The stages of `buildChain`: the chain of the first loop, the arena after the cache
context loop, the chain with the dummy root on top, and the result. -/
theorem buildChain_view (pt0 : Pseudotree) (G : Graph) (n : Nat) (elim : List Nat)
    (cachelimit : Int) (hrep : G.Rep) (hsim : G.Simple) (hnodes : G.NodesAre n)
    (hperm : elim.Perm (List.range n)) (hn : 0 < n)
    (hlim : cachelimit = NONE ∨ 0 ≤ cachelimit)
    (hready : pt0.Ready n) :
    ∃ pt st q nodes1 T, Pseudotree.buildChain pt0 G elim cachelimit = some pt
      ∧ ChainInv G n elim elim st ∧ st.prev = some q
      ∧ ChainLinks elim (some q) st.m_nodes
      ∧ cacheContextLoop cachelimit (List.range st.m_nodes.length) st.m_nodes = some nodes1
      ∧ attachToDummy n [q] (nodes1 ++ [some (PseudotreeNode.new n [])]) 0 = some (T, 1)
      ∧ TreeInv G n elim cachelimit T
      ∧ Arena.Rel PseudotreeNode.Similar T pt.m_nodes
      ∧ pt.m_components = 1 := by
  obtain ⟨hnd, hlen, hmem⟩ := perm_range_facts hperm
  have hptn : (if pt0.m_height ≠ UNKNOWN then { pt0.reset with m_width := pt0.m_width }
      else pt0).m_nodes = List.replicate n none := by
    split
    · simp [Pseudotree.reset, hready.1]
    · rename_i hh
      rcases hready.2 with h1 | h1
      · exact absurd h1 hh
      · exact h1
  have hstat : G.getStatNodes = (n : Int) := by
    unfold Graph.getStatNodes
    rw [hrep.statNodes, keys_length_of_nodesAre hrep hnodes]
  obtain ⟨st, e1, hF⟩ := chainLoop_spec hnd (fun k hk => (hmem k).1 hk) elim []
    { G := G,
      m_pathwidth := (if pt0.m_height ≠ UNKNOWN then { pt0.reset with m_width := pt0.m_width }
        else pt0).m_pathwidth,
      m_nodes := List.replicate n none, context := [], prev := none } rfl
    (ChainInv.init_chain elim _ hrep hsim hnodes)
  have hlinks := chainLoop_links elim [] _ st (by simpa using hnd) e1
    ⟨rfl, fun l1 k l2 hs => by simp at hs⟩
  obtain ⟨q, hq, hD⟩ := hF.chain_done hperm hn
  rw [hq] at hlinks
  obtain ⟨nodes1, T, e2, e3, hT⟩ := forest_finish hperm hD cachelimit hlim 0
  have e3keep := e3
  have hqsome : ∃ qn, Arena.deref (nodes1 ++ [some (PseudotreeNode.new n [])]) q = some qn := by
    cases hd : Arena.deref (nodes1 ++ [some (PseudotreeNode.new n [])]) q with
    | none => simp [attachToDummy, hd] at e3
    | some qn => exact ⟨qn, rfl⟩
  obtain ⟨qn, hqn⟩ := hqsome
  simp only [attachToDummy, hqn, Option.some.injEq, Prod.mk.injEq] at e3
  obtain ⟨nodes3, hgt, nodes4, w, nodes5, vars, e4, e5, e6, hrel⟩ :=
    chain_updates_rel hperm hT
  have hb : ∃ pt, Pseudotree.buildChain pt0 G elim cachelimit = some pt ∧ pt.m_nodes = nodes5
      ∧ pt.m_components = 1 := by
    simp only [Pseudotree.buildChain, hptn, hstat, List.length_replicate, hlen, and_self,
      if_true, e1, e2, hq, e3.1, e4, e5, e6]
    exact ⟨_, rfl, rfl, rfl⟩
  obtain ⟨pt, hpt1, hpt2, hpt3⟩ := hb
  rw [← hpt2] at hrel
  refine ⟨pt, st, q, nodes1, T, hpt1, hF, hq, by simpa using hlinks, e2, ?_, hT, hrel, hpt3⟩
  simpa using e3keep

/-- The reset target of a node is the same in the forest and under the dummy root. -/
theorem resetTarget_dummy {G0 : Graph} {n : Nat} {elim : List Nat} {F : Arena}
    {roots : List Nat} {nodes1 T : Arena} {comps c2 : Int}
    (hperm : elim.Perm (List.range n)) (h : ForestDone G0 n elim F roots)
    (hrel : Arena.Rel PseudotreeNode.CacheRel F nodes1)
    (e : attachToDummy n roots (nodes1 ++ [some (PseudotreeNode.new n [])]) comps
      = some (T, c2)) (cachelimit : Int) (k : Nat) (hk : k < n) :
    T.resetTarget cachelimit k = F.resetTarget cachelimit k := by
  obtain ⟨_, _, hview⟩ := dummy_view h hrel e
  obtain ⟨fnd, nd1, h1, h2, h3, h4, _⟩ := hview k hk
  have hctx : (if k ∈ roots then nd1.setParent (some n) else nd1).m_contextS
      = fnd.m_contextS := by
    by_cases hr : k ∈ roots
    · simp only [hr, if_true, PseudotreeNode.setParent]; exact h4.2.2.1.symm
    · simp only [hr, if_false]; exact h4.2.2.1.symm
  simp only [Arena.resetTarget, h1, h3, hctx, ctxAncestors_dummy hperm h hrel e k hk]

/-- Lines 401-424 in `build`: the reset list of a node holds, in their order, the variables
whose reset target the node is. -/
theorem build_resets (pt0 : Pseudotree) (G : Graph) (n : Nat) (elim : List Nat)
    (cachelimit : Int) (hrep : G.Rep) (hsim : G.Simple) (hnodes : G.NodesAre n)
    (hperm : elim.Perm (List.range n)) (hlim : cachelimit = NONE ∨ 0 ≤ cachelimit)
    (hready : pt0.Ready n) :
    ∃ pt, Pseudotree.build pt0 G elim cachelimit = some pt
      ∧ TreeInv G n elim cachelimit pt.m_nodes
      ∧ ∀ q qn, pt.m_nodes.deref q = some qn →
          qn.m_cacheResetList = (List.range n).filter
            (fun i => decide (pt.m_nodes.resetTarget cachelimit i = some q)) := by
  obtain ⟨pt, st, nodes1, T, hb, hF, e2, e3, hT, hrel⟩ :=
    build_view pt0 G n elim cachelimit hrep hsim hnodes hperm hlim hready
  have hD := hF.done hperm
  have hsome : ∀ i ∈ List.range st.m_nodes.length, (st.m_nodes.deref i).isSome = true :=
    fun i hi => hD.nodeSome i (by rw [← hD.len]; exact List.mem_range.1 hi)
  have hrefl : Arena.Rel PseudotreeNode.CacheRel st.m_nodes st.m_nodes :=
    Arena.Rel.rel_refl (fun a => ⟨rfl, rfl, rfl, rfl, rfl⟩) st.m_nodes
  obtain ⟨nodes1a, e1a, r1, _⟩ := cacheContextLoop_spec (hD.ranked hperm)
    (by rw [hD.len]; omega) hD.covered hD.ctxNodup cachelimit hlim
    (List.range st.m_nodes.length) [] st.m_nodes hsome hrefl (fun i hi => by simp at hi)
  rw [e2] at e1a
  cases e1a
  obtain ⟨nodes1b, e1b, hres⟩ := cacheContextLoop_resets (hD.ranked hperm)
    (by rw [hD.len]; omega) hD.covered hD.ctxNodup cachelimit hlim
    (List.range st.m_nodes.length) st.m_nodes hsome hrefl
  rw [e2] at e1b
  cases e1b
  obtain ⟨hlen, hTn, hview⟩ := dummy_view hD r1 e3
  refine ⟨pt, hb, hT.tree_congr hrel, ?_⟩
  intro q qn hq
  obtain ⟨tq, htq, hsim2⟩ := hrel.right hq
  rw [← hsim2.2.2.1]
  have htar : ∀ i ∈ List.range n,
      decide (pt.m_nodes.resetTarget cachelimit i = some q)
        = decide (st.m_nodes.resetTarget cachelimit i = some q) := by
    intro i hi
    rw [← Arena.resetTarget_congr hrel (fun a b h => h.1.2.1) (fun a b h => h.1.2.2.1),
      resetTarget_dummy hperm hD r1 e3 cachelimit i (List.mem_range.1 hi)]
  rw [List.filter_congr htar]
  have hqn := hT.deref_le htq
  rcases Nat.lt_or_ge q n with hlt | hge
  · obtain ⟨fnd, nd1, h1, h2, h3, _, _⟩ := hview q hlt
    rw [htq] at h3
    cases h3
    have := hres q fnd nd1 h1 h2
    rw [(hF.fresh q fnd h1).2.1, List.nil_append, hD.len] at this
    rw [← this]
    by_cases hr : q ∈ st.roots
    · simp only [hr, if_true, PseudotreeNode.setParent]
    · simp only [hr, if_false]
  · have hqe : q = n := by omega
    rw [hqe, hTn] at htq
    cases htq
    symm
    apply List.filter_eq_nil_iff.2
    intro i hi
    simp only [decide_eq_true_eq]
    intro ht
    simp only [Arena.resetTarget] at ht
    cases hfd : st.m_nodes.deref i with
    | none => simp [hfd] at ht
    | some fnd =>
      simp only [hfd] at ht
      split at ht
      · cases ht
      · have hm := List.getElem?_mem ht
        simp only [Arena.ctxAncestors, hfd, List.mem_filter, decide_eq_true_eq] at hm
        have := (hD.ctxLater i fnd q hfd hm.2).1
        omega

theorem not_mem_take_of_nodup {α : Type} {l : List α} (hl : l.Nodup) {c : Nat} {q : α}
    (hq : l[c]? = some q) : q ∉ l.take c := by
  have hsplit : l = l.take c ++ l.drop c := (List.take_append_drop c l).symm
  rw [hsplit] at hl
  have hdis := (List.nodup_append.1 hl).2.2
  have hmem : q ∈ l.drop c := by
    have : (l.drop c)[0]? = some q := by
      rw [List.getElem?_drop]; simpa using hq
    exact List.getElem?_mem this
  intro h
  exact hdis h hmem

/-- C5. On a well-formed graph with the nodes `0..n-1` (and `n * n` an `int`, as the
constructor of `Graph` needs), started without stored initial scores, `eliminate` returns
for every limit, every tolerance and every sequence of random draws: the loop ends within
its `n + 1` passes, without a failed assertion. The order it writes never holds a node
twice and holds only nodes of the graph, and when the returned value is not `INT_MAX` the
order is a permutation of the nodes. -/
theorem eliminate_permutation (G : Graph) (n : Nat) (limit : Int) (tolerance : Nat)
    (rnd : Nat → Nat) (hrep : G.Rep) (hsim : G.Simple) (hnodes : G.NodesAre n)
    (hn : (n : Int) * n ≤ INT_MAX) :
    ∃ r, eliminate G limit tolerance [] rnd = some r
      ∧ r.elim.Nodup ∧ (∀ k ∈ r.elim, k < n)
      ∧ (r.ret ≠ INT_MAX → r.elim.Perm (List.range n)) := by
  have key := eliminateLoop_rule n tolerance limit rnd
    (ElimInv n)
    (fun r => r.elim.Nodup ∧ (∀ k ∈ r.elim, k < n)
      ∧ (r.ret ≠ INT_MAX → ∀ k, k < n → k ∈ r.elim))
    (fun st h => h.elim_length_le)
    (fun st h h0 => ⟨h.elimNodup, h.elimLt, fun _ => h.exit_all h0⟩)
    (by
      intro st h _
      obtain ⟨st1, hs, h1, hel, _, _, _⟩ := simplicial_phase tolerance h
        (fun _ _ => True) (fun _ _ _ _ _ _ _ => trivial) trivial
      rcases eliminateBody_after limit rnd h h1 hs hel with
        ⟨_, hall, hb⟩ | ⟨_, v, N, m, _, _, _, _, hN, ⟨_, hb⟩ | ⟨_, hb⟩⟩
      · rw [hb]
        exact ⟨h1.elimNodup, h1.elimLt, fun _ => hall⟩
      · rw [hb]
        have hv := (h1.nodes v).1 ((st1.G.hasNode_iff v).2 ⟨N, hN⟩)
        refine ⟨?_, ?_, fun hne => absurd rfl hne⟩
        · exact List.Nodup.append h1.elimNodup (List.nodup_singleton v)
            (by simpa [List.disjoint_singleton] using hv.2)
        · intro k hk
          rcases List.mem_append.1 hk with hk | hk
          · exact h1.elimLt k hk
          · simp only [List.mem_singleton] at hk
            subst hk
            exact hv.1
      · rw [hb]
        refine ⟨h1.eliminateNode hn v N hN _, ?_⟩
        simp [eliminateNode, hel])
  have hstat := getStatNodes_of_nodesAre hrep hnodes
  obtain ⟨r, hr, hq1, hq2, hq3⟩ := key (n + 1) _ (ElimInv.init hrep hsim hnodes hn)
    (by simp)
  refine ⟨r, ?_, hq1, hq2, ?_⟩
  · simp only [eliminate, hstat]
    exact hr
  · intro hne
    rw [List.perm_ext_iff_of_nodup hq1 (List.nodup_range n)]
    intro k
    rw [List.mem_range]
    exact ⟨hq2 k, hq3 hne k⟩

/-- C5, at a graph with a cycle and a pendant node, tolerance 1 and limit 3. -/
theorem eliminate_permutation_witness :
    ∃ r, eliminate (Graph.ofEdges 6 [(0,1),(1,2),(2,3),(3,0),(4,0),(4,1),(5,4)]) 3 1 []
        (fun t => t) = some r
      ∧ r.elim.Nodup ∧ (∀ k ∈ r.elim, k < 6)
      ∧ (r.ret ≠ INT_MAX → r.elim.Perm (List.range 6)) :=
  eliminate_permutation _ 6 3 1 _ (Graph.wf_of_check (n := 6) (by decide)).1.rep
    (Graph.wf_of_check (n := 6) (by decide)).1.simple
    (Graph.wf_of_check (n := 6) (by decide)).2 (by decide)

/-- C7, the failing input: on the graph of one edge with `limit = 0` both nodes are
simplicial, the first is eliminated with one neighbour, and the loop returns the width 1
from the simplicial exit, where the limit is never looked at: a value above the limit that
is not the sentinel. -/
theorem eliminate_limit_missed :
    eliminate (Graph.ofEdges 2 [(0, 1)]) 0 0 [] (fun _ => 0) = some ⟨1, [0, 1]⟩
      ∧ ¬ ((1 : Int) ≤ 0) ∧ (1 : Int) ≠ INT_MAX := by
  decide

/-- C8, the failing input: a 4-cycle `0-1-2-3`, the node 4 on the edge `0-1`, and the
pendant node 5 on 4. The first pass removes the simplicial node 5 and then takes node 2,
of recorded score 1, as `nextNode`; in the graph of that moment the neighbours 0 and 1 of
node 4 are adjacent, so node 4 is in the graph with fill score 0, below the fill score 1
of the chosen node. The score of node 4 was not computed again when its simplicial
neighbour left. -/
theorem eliminate_stale_score :
    ∃ st1,
      elimSimplicial [5]
          { G := Graph.ofEdges 6 [(0,1),(1,2),(2,3),(3,0),(4,0),(4,1),(5,4)],
            scores := [2, 2, 1, 1, 2, 0], elim := [], width := UNKNOWN, nextNode := none,
            draws := 0 } = some st1
      ∧ initialScores (Graph.ofEdges 6 [(0,1),(1,2),(2,3),(3,0),(4,0),(4,1),(5,4)]) 6 []
          = [2, 2, 1, 1, 2, 0]
      ∧ (scan 6 0 [2, 2, 1, 1, 2, 0]).simplicial = [5]
      ∧ eliminateBody 6 0 INT_MAX (fun _ => 0)
          { G := Graph.ofEdges 6 [(0,1),(1,2),(2,3),(3,0),(4,0),(4,1),(5,4)],
            scores := [2, 2, 1, 1, 2, 0], elim := [], width := UNKNOWN, nextNode := none,
            draws := 0 } = ElimStep.next (eliminateNode st1 2 [1, 3] 2)
      ∧ st1.G.hasNode 4 = true ∧ st1.G.scoreMinfill 4 = 0 ∧ st1.G.scoreMinfill 2 = 1
      ∧ eliminate (Graph.ofEdges 6 [(0,1),(1,2),(2,3),(3,0),(4,0),(4,1),(5,4)]) INT_MAX 0 []
          (fun _ => 0) = some ⟨2, [5, 2, 3, 4, 0, 1]⟩ :=
  ⟨_, rfl, by decide, by decide, by decide, by decide, by decide, by decide, by decide⟩

/-- C1. After `build` and after `buildChain` on a graph with the nodes `0..n-1` and a
permutation `elim` of them, every node but the dummy root has a parent, and its full
context is a subset of the full context of the parent united with the variable of the
parent; every child of the dummy root has an empty full context. Both return when the
cache limit is `NONE` or not negative, `buildChain` when the graph has a node. -/
theorem context_subset_parent (pt0 : Pseudotree) (G : Graph) (n : Nat) (elim : List Nat)
    (cachelimit : Int) (hrep : G.Rep) (hsim : G.Simple) (hnodes : G.NodesAre n)
    (hperm : elim.Perm (List.range n)) (hlim : cachelimit = NONE ∨ 0 ≤ cachelimit)
    (hready : pt0.Ready n) :
    (∃ pt, Pseudotree.build pt0 G elim cachelimit = some pt ∧ pt.m_root = some n
      ∧ (∀ k, k < n → ∃ nd p pn, pt.getNode k = some nd ∧ nd.m_parent = some p
          ∧ pt.getNode p = some pn
          ∧ ∀ x ∈ nd.m_contextS, x ∈ pn.m_contextS ∨ x = pn.m_var)
      ∧ ∃ rd, pt.getNode n = some rd
          ∧ ∀ c ∈ rd.m_children, ∃ cn, pt.getNode c = some cn ∧ cn.m_contextS = [])
    ∧ (0 < n → ∃ pt, Pseudotree.buildChain pt0 G elim cachelimit = some pt
      ∧ pt.m_root = some n
      ∧ (∀ k, k < n → ∃ nd p pn, pt.getNode k = some nd ∧ nd.m_parent = some p
          ∧ pt.getNode p = some pn
          ∧ ∀ x ∈ nd.m_contextS, x ∈ pn.m_contextS ∨ x = pn.m_var)
      ∧ ∃ rd, pt.getNode n = some rd
          ∧ ∀ c ∈ rd.m_children, ∃ cn, pt.getNode c = some cn ∧ cn.m_contextS = []) := by
  have key : ∀ T : Arena, TreeInv G n elim cachelimit T →
      (∀ k, k < n → ∃ nd p pn, T.deref k = some nd ∧ nd.m_parent = some p
          ∧ T.deref p = some pn
          ∧ ∀ x ∈ nd.m_contextS, x ∈ pn.m_contextS ∨ x = pn.m_var)
      ∧ ∃ rd, T.deref n = some rd
          ∧ ∀ c ∈ rd.m_children, ∃ cn, T.deref c = some cn ∧ cn.m_contextS = [] := by
    intro T hT
    constructor
    · intro k hk
      obtain ⟨nd, hd, _⟩ := hT.node k (by omega)
      obtain ⟨p, pn, hp, _, hpn, _, hcov, _⟩ := hT.parent k nd hk hd
      refine ⟨nd, p, pn, hd, hp, hpn, fun x hx => ?_⟩
      rcases hcov x hx with h1 | h1
      · exact Or.inr (by rw [hT.varAt p pn hpn]; exact h1)
      · exact Or.inl h1
    · obtain ⟨rd, hrd, _⟩ := hT.root
      refine ⟨rd, hrd, fun c hc => ?_⟩
      obtain ⟨hcn, cn, hcd, hcp⟩ := hT.children n rd c hrd hc
      obtain ⟨p, pn, hp, _, _, _, _, hroot⟩ := hT.parent c cn hcn hcd
      rw [hcp] at hp
      cases hp
      exact ⟨cn, hcd, hroot rfl⟩
  constructor
  · obtain ⟨pt, hb, hT, _, _, hroot⟩ :=
      build_spec pt0 G n elim cachelimit hrep hsim hnodes hperm hlim hready
    exact ⟨pt, hb, hroot, key pt.m_nodes hT⟩
  · intro hn
    obtain ⟨pt, hb, hT, _, _, hroot⟩ :=
      buildChain_spec pt0 G n elim cachelimit hrep hsim hnodes hperm hn hlim hready
    exact ⟨pt, hb, hroot, key pt.m_nodes hT⟩

/-- C9. After `build` on a graph with the nodes `0..n-1` and a permutation `elim` of them
the root is a new node, the dummy with the variable `n`, without parent and with an empty
context; every other node has a parent that is the dummy or is eliminated later, is once
in the child list of that parent, and the parent links lead from it to the root; and
`getElimOrder` is `elim` followed by `n`. -/
theorem build_tree_structure (pt0 : Pseudotree) (G : Graph) (n : Nat) (elim : List Nat)
    (cachelimit : Int) (hrep : G.Rep) (hsim : G.Simple) (hnodes : G.NodesAre n)
    (hperm : elim.Perm (List.range n)) (hlim : cachelimit = NONE ∨ 0 ≤ cachelimit)
    (hready : pt0.Ready n) :
    ∃ pt, Pseudotree.build pt0 G elim cachelimit = some pt
      ∧ pt.m_root = some n ∧ G.hasNode n = false ∧ pt.m_nodes.length = n + 1
      ∧ (∃ rd, pt.getNode n = some rd ∧ rd.m_var = n ∧ rd.m_contextS = []
          ∧ rd.m_parent = none)
      ∧ (∀ k, k < n → ∃ nd p pn, pt.getNode k = some nd ∧ nd.m_var = k
          ∧ nd.m_parent = some p ∧ (p = n ∨ (p < n ∧ elim.indexOf k < elim.indexOf p))
          ∧ pt.getNode p = some pn ∧ pn.m_children.count k = 1
          ∧ (pt.m_nodes.ancestors (n + 1) (some k)).getLast? = some n)
      ∧ pt.getElimOrder = elim ++ [n] := by
  obtain ⟨pt, hb, hT, _, helim, hroot⟩ :=
    build_spec pt0 G n elim cachelimit hrep hsim hnodes hperm hlim hready
  refine ⟨pt, hb, hroot, ?_, hT.len, ?_, ?_, helim⟩
  · cases hh : G.hasNode n with
    | false => rfl
    | true =>
      have := (hnodes n).1 hh
      omega
  · obtain ⟨rd, hrd, hrp, hctx, _⟩ := hT.root
    exact ⟨rd, hrd, hT.varAt n rd hrd, hctx, hrp⟩
  · intro k hk
    obtain ⟨nd, hd, hvar⟩ := hT.node k (by omega)
    obtain ⟨p, pn, hp, hcase, hpn, hcount, _⟩ := hT.parent k nd hk hd
    obtain ⟨l, hl⟩ := hT.ancestors_last hperm n k (by omega) (by omega) (n + 1) (by omega)
    exact ⟨nd, p, pn, hd, hvar, hp, hcase, hpn, hcount, by rw [hl]; simp⟩

/-- C10. After `build` with a cache limit that is `NONE` or not negative, the cache context
of every node but the dummy is its full context when the limit is `NONE` or the full
context has at most `cachelimit` variables; otherwise it holds exactly the first
`cachelimit` context variables met from the parent of the node upward, so it is a subset
of the full context with `cachelimit` elements. The walk upward meets every variable of
the full context, and `build` returns, so the walk does not step past a node without
parent. -/
theorem build_cache_context (pt0 : Pseudotree) (G : Graph) (n : Nat) (elim : List Nat)
    (cachelimit : Int) (hrep : G.Rep) (hsim : G.Simple) (hnodes : G.NodesAre n)
    (hperm : elim.Perm (List.range n)) (hlim : cachelimit = NONE ∨ 0 ≤ cachelimit)
    (hready : pt0.Ready n) :
    ∃ pt, Pseudotree.build pt0 G elim cachelimit = some pt
      ∧ ∀ k, k < n → ∃ nd, pt.getNode k = some nd
        ∧ (pt.m_nodes.ctxAncestors k).Perm nd.m_contextS
        ∧ ((cachelimit = NONE ∨ (nd.m_contextS.length : Int) ≤ cachelimit) →
            nd.m_cacheContextS = nd.m_contextS)
        ∧ (¬ (cachelimit = NONE ∨ (nd.m_contextS.length : Int) ≤ cachelimit) →
            (∀ x, x ∈ nd.m_cacheContextS
              ↔ x ∈ (pt.m_nodes.ctxAncestors k).take cachelimit.toNat)
            ∧ (∀ x ∈ nd.m_cacheContextS, x ∈ nd.m_contextS)
            ∧ (nd.m_cacheContextS.length : Int) = cachelimit) := by
  obtain ⟨pt, hb, hT, _, _, _⟩ :=
    build_spec pt0 G n elim cachelimit hrep hsim hnodes hperm hlim hready
  refine ⟨pt, hb, fun k hk => ?_⟩
  obtain ⟨nd, hd, _⟩ := hT.node k (by omega)
  exact ⟨nd, hd, hT.cache_truncated hperm hlim hk hd⟩
theorem context_subset_parent_witness :
    (∃ pt, Pseudotree.build (Pseudotree.new 4 SubOrder.other)
        (Graph.ofEdges 4 [(0, 1), (1, 2), (0, 2), (2, 3)]) [0, 3, 1, 2] 1 = some pt
      ∧ pt.m_root = some 4
      ∧ (∀ k, k < 4 → ∃ nd p pn, pt.getNode k = some nd ∧ nd.m_parent = some p
          ∧ pt.getNode p = some pn
          ∧ ∀ x ∈ nd.m_contextS, x ∈ pn.m_contextS ∨ x = pn.m_var)
      ∧ ∃ rd, pt.getNode 4 = some rd
          ∧ ∀ c ∈ rd.m_children, ∃ cn, pt.getNode c = some cn ∧ cn.m_contextS = [])
    ∧ (∃ pt, Pseudotree.buildChain (Pseudotree.new 4 SubOrder.other)
        (Graph.ofEdges 4 [(0, 1), (1, 2), (0, 2), (2, 3)]) [0, 3, 1, 2] 1 = some pt
      ∧ pt.m_root = some 4
      ∧ (∀ k, k < 4 → ∃ nd p pn, pt.getNode k = some nd ∧ nd.m_parent = some p
          ∧ pt.getNode p = some pn
          ∧ ∀ x ∈ nd.m_contextS, x ∈ pn.m_contextS ∨ x = pn.m_var)
      ∧ ∃ rd, pt.getNode 4 = some rd
          ∧ ∀ c ∈ rd.m_children, ∃ cn, pt.getNode c = some cn ∧ cn.m_contextS = []) :=
  (fun h => ⟨h.1, h.2 (by decide)⟩)
    (context_subset_parent (Pseudotree.new 4 SubOrder.other)
      (Graph.ofEdges 4 [(0, 1), (1, 2), (0, 2), (2, 3)]) 4 [0, 3, 1, 2] 1
      (Graph.wf_of_check (n := 4) (by decide)).1.rep
      (Graph.wf_of_check (n := 4) (by decide)).1.simple
      (Graph.wf_of_check (n := 4) (by decide)).2 (by decide) (Or.inr (by decide))
      ⟨rfl, Or.inr rfl⟩)

theorem build_tree_structure_witness :
    ∃ pt, Pseudotree.build (Pseudotree.new 4 SubOrder.other)
        (Graph.ofEdges 4 [(0, 1), (1, 2), (0, 2), (2, 3)]) [0, 3, 1, 2] NONE = some pt
      ∧ pt.m_root = some 4
      ∧ (Graph.ofEdges 4 [(0, 1), (1, 2), (0, 2), (2, 3)]).hasNode 4 = false
      ∧ pt.m_nodes.length = 4 + 1
      ∧ (∃ rd, pt.getNode 4 = some rd ∧ rd.m_var = 4 ∧ rd.m_contextS = []
          ∧ rd.m_parent = none)
      ∧ (∀ k, k < 4 → ∃ nd p pn, pt.getNode k = some nd ∧ nd.m_var = k
          ∧ nd.m_parent = some p
          ∧ (p = 4 ∨ (p < 4 ∧ [0, 3, 1, 2].indexOf k < [0, 3, 1, 2].indexOf p))
          ∧ pt.getNode p = some pn ∧ pn.m_children.count k = 1
          ∧ (pt.m_nodes.ancestors (4 + 1) (some k)).getLast? = some 4)
      ∧ pt.getElimOrder = [0, 3, 1, 2] ++ [4] :=
  build_tree_structure (Pseudotree.new 4 SubOrder.other)
    (Graph.ofEdges 4 [(0, 1), (1, 2), (0, 2), (2, 3)]) 4 [0, 3, 1, 2] NONE
    (Graph.wf_of_check (n := 4) (by decide)).1.rep
    (Graph.wf_of_check (n := 4) (by decide)).1.simple
    (Graph.wf_of_check (n := 4) (by decide)).2 (by decide) (Or.inl rfl)
    ⟨rfl, Or.inr rfl⟩

theorem build_cache_context_witness :
    ∃ pt, Pseudotree.build (Pseudotree.new 4 SubOrder.other)
        (Graph.ofEdges 4 [(0, 1), (1, 2), (0, 2), (2, 3)]) [0, 3, 1, 2] 1 = some pt
      ∧ ∀ k, k < 4 → ∃ nd, pt.getNode k = some nd
        ∧ (pt.m_nodes.ctxAncestors k).Perm nd.m_contextS
        ∧ (((1 : Int) = NONE ∨ (nd.m_contextS.length : Int) ≤ 1) →
            nd.m_cacheContextS = nd.m_contextS)
        ∧ (¬ ((1 : Int) = NONE ∨ (nd.m_contextS.length : Int) ≤ 1) →
            (∀ x, x ∈ nd.m_cacheContextS
              ↔ x ∈ (pt.m_nodes.ctxAncestors k).take (1 : Int).toNat)
            ∧ (∀ x ∈ nd.m_cacheContextS, x ∈ nd.m_contextS)
            ∧ (nd.m_cacheContextS.length : Int) = 1) :=
  build_cache_context (Pseudotree.new 4 SubOrder.other)
    (Graph.ofEdges 4 [(0, 1), (1, 2), (0, 2), (2, 3)]) 4 [0, 3, 1, 2] 1
    (Graph.wf_of_check (n := 4) (by decide)).1.rep
    (Graph.wf_of_check (n := 4) (by decide)).1.simple
    (Graph.wf_of_check (n := 4) (by decide)).2 (by decide) (Or.inr (by decide))
    ⟨rfl, Or.inr rfl⟩

/-- C3. `resetFunctionInfo(fns)` on a pseudo tree without null node, whose elimination
order is not empty, names positions of `m_nodes` and holds every scope variable: the
function list of every node holds exactly the entries of `fns` whose target is the node,
so what an earlier call has assigned is gone; and every entry of `fns` is in the list of
one node only, as often as it is in `fns`: the node of the last entry of `m_elimOrder`
when its scope is empty, else the node of the scope variable that is first in
`m_elimOrder`. -/
theorem resetFunctionInfo_assignment (pt : Pseudotree) (fns : List Function)
    (hnodes : ∀ x ∈ pt.m_nodes, x.isSome = true)
    (hlt : ∀ v ∈ pt.m_elimOrder, v < pt.m_nodes.length)
    (hne : pt.m_elimOrder ≠ [])
    (hscope : ∀ f ∈ fns, ∀ v ∈ f.getScopeSet, v ∈ pt.m_elimOrder) :
    ∃ pt1, pt.resetFunctionInfo fns = some pt1
      ∧ (∀ k nd1, pt1.getNode k = some nd1 → nd1.m_functions
          = fns.filter (fun f => decide (functionTarget pt.m_elimOrder f = some k)))
      ∧ ∀ f ∈ fns, ∃ d nd, functionTarget pt.m_elimOrder f = some d
          ∧ pt1.getNode d = some nd ∧ nd.m_functions.count f = fns.count f
          ∧ (∀ k nd2, pt1.getNode k = some nd2 → f ∈ nd2.m_functions → k = d)
          ∧ (f.getScopeSet = [] → pt.m_elimOrder.getLast? = some d)
          ∧ (f.getScopeSet ≠ [] → d ∈ f.getScopeSet
              ∧ ∀ u ∈ f.getScopeSet, pt.m_elimOrder.indexOf d ≤ pt.m_elimOrder.indexOf u) := by
  have htarget : ∀ f ∈ fns, ∃ d, functionTarget pt.m_elimOrder f = some d
      ∧ d < pt.m_nodes.length
      ∧ (f.getScopeSet = [] → pt.m_elimOrder.getLast? = some d)
      ∧ (f.getScopeSet ≠ [] → d ∈ f.getScopeSet
          ∧ ∀ u ∈ f.getScopeSet, pt.m_elimOrder.indexOf d ≤ pt.m_elimOrder.indexOf u) := by
    intro f hf
    by_cases hs : f.getScopeSet = []
    · obtain ⟨d, hd⟩ : ∃ d, pt.m_elimOrder.getLast? = some d := by
        cases h : pt.m_elimOrder.getLast? with
        | none => exact absurd (List.getLast?_eq_none_iff.1 h) hne
        | some d => exact ⟨d, rfl⟩
      refine ⟨d, by simp [functionTarget, hs, hd], hlt d (List.mem_of_getLast?_eq_some hd),
        fun _ => hd, fun h => absurd hs h⟩
    · obtain ⟨v, hv⟩ := List.exists_mem_of_ne_nil _ hs
      obtain ⟨d, hd⟩ := firstInScope_isSome f.getScopeSet pt.m_elimOrder
        ⟨v, hv, hscope f hf v hv⟩
      obtain ⟨h1, h2, h3⟩ := firstInScope_spec _ _ _ hd
      have hlen0 : f.getScopeSet.length ≠ 0 := fun e => hs (List.length_eq_zero.1 e)
      exact ⟨d, by simp [functionTarget, hlen0, hd], hlt d h2, fun h => absurd h hs,
        fun _ => ⟨h1, fun u hu => h3 u hu (hscope f hf u hu)⟩⟩
  obtain ⟨nodes1, e1, l1, g1⟩ := resetFunctionInfo_spec pt fns hnodes (fun f hf => by
    obtain ⟨d, hd, hdl, _⟩ := htarget f hf
    exact ⟨d, hd, hdl⟩)
  have hfun : ∀ k nd1, nodes1.deref k = some nd1 → nd1.m_functions
      = fns.filter (fun f => decide (functionTarget pt.m_elimOrder f = some k)) := by
    intro k nd1 hd
    rw [g1 k] at hd
    cases h : pt.m_nodes.deref k with
    | none => simp [h] at hd
    | some a =>
      simp only [h, Option.map_some', Option.some.injEq] at hd
      rw [← hd]
  refine ⟨_, e1, hfun, fun f hf => ?_⟩
  obtain ⟨d, hd, hdl, h1, h2⟩ := htarget f hf
  have hsome : ∃ nd, nodes1.deref d = some nd := by
    cases h : nodes1.deref d with
    | none =>
      rw [g1 d] at h
      have hx : pt.m_nodes.deref d = none := by
        cases h3 : pt.m_nodes.deref d with
        | none => rfl
        | some _ => simp [h3] at h
      unfold Arena.deref at hx
      rw [List.getD_eq_getElem _ _ hdl] at hx
      have := hnodes _ (List.getElem_mem hdl)
      simp [hx] at this
    | some nd => exact ⟨nd, rfl⟩
  obtain ⟨nd, hnd⟩ := hsome
  refine ⟨d, nd, hd, hnd, ?_, ?_, h1, h2⟩
  · rw [hfun d nd hnd]
    exact List.count_filter (by simp [hd])
  · intro k nd2 hk hmem
    rw [hfun k nd2 hk] at hmem
    have := (List.mem_filter.1 hmem).2
    simp only [hd, decide_eq_true_eq, Option.some.injEq] at this
    exact this.symm

/-- C3, on a tree of three nodes that holds the functions of an earlier call. -/
theorem resetFunctionInfo_assignment_witness :
    ∃ pt1, Pseudotree.resetFunctionInfo
        { Pseudotree.new 2 SubOrder.other with
          m_nodes := [some (PseudotreeNode.addFunction (PseudotreeNode.new 0 [1]) ⟨7, [0]⟩),
            some (PseudotreeNode.new 1 []), some (PseudotreeNode.new 2 [])],
          m_elimOrder := [0, 1, 2] }
        [⟨0, [0, 1]⟩, ⟨1, []⟩, ⟨2, [1]⟩] = some pt1
      ∧ (∀ k nd1, pt1.getNode k = some nd1 → nd1.m_functions
          = [⟨0, [0, 1]⟩, ⟨1, []⟩, ⟨2, [1]⟩].filter
              (fun f => decide (functionTarget [0, 1, 2] f = some k)))
      ∧ ∀ f ∈ [(⟨0, [0, 1]⟩ : Function), ⟨1, []⟩, ⟨2, [1]⟩],
          ∃ d nd, functionTarget [0, 1, 2] f = some d
          ∧ pt1.getNode d = some nd
          ∧ nd.m_functions.count f = [(⟨0, [0, 1]⟩ : Function), ⟨1, []⟩, ⟨2, [1]⟩].count f
          ∧ (∀ k nd2, pt1.getNode k = some nd2 → f ∈ nd2.m_functions → k = d)
          ∧ (f.getScopeSet = [] → [0, 1, 2].getLast? = some d)
          ∧ (f.getScopeSet ≠ [] → d ∈ f.getScopeSet
              ∧ ∀ u ∈ f.getScopeSet, [0, 1, 2].indexOf d ≤ [0, 1, 2].indexOf u) :=
  resetFunctionInfo_assignment
    { Pseudotree.new 2 SubOrder.other with
      m_nodes := [some (PseudotreeNode.addFunction (PseudotreeNode.new 0 [1]) ⟨7, [0]⟩),
        some (PseudotreeNode.new 1 []), some (PseudotreeNode.new 2 [])],
      m_elimOrder := [0, 1, 2] }
    [⟨0, [0, 1]⟩, ⟨1, []⟩, ⟨2, [1]⟩] (by decide) (by decide) (by decide) (by decide)

/-- C2. Let `G` have the nodes `0..n-1` and an edge between every two variables of the
scope of a function of `fns`, and let `elim` be a permutation of the nodes. Then `build`
and `resetFunctionInfo(fns)` return, every function with a scope that is not empty is in
the function list of a node, and every variable of its scope is the variable of that node
or is among the ancestors of that node. -/
theorem scope_on_root_path (pt0 : Pseudotree) (G : Graph) (n : Nat) (elim : List Nat)
    (cachelimit : Int) (fns : List Function) (hrep : G.Rep) (hsim : G.Simple)
    (hnodes : G.NodesAre n) (hperm : elim.Perm (List.range n))
    (hlim : cachelimit = NONE ∨ 0 ≤ cachelimit) (hready : pt0.Ready n)
    (hscope : ∀ f ∈ fns, ∀ x ∈ f.getScopeSet, x < n)
    (hedge : ∀ f ∈ fns, ∀ x ∈ f.getScopeSet, ∀ y ∈ f.getScopeSet, x ≠ y → G.adj x y) :
    ∃ pt pt1, Pseudotree.build pt0 G elim cachelimit = some pt
      ∧ pt.resetFunctionInfo fns = some pt1
      ∧ ∀ f ∈ fns, f.getScopeSet ≠ [] →
          (∃ k nd, pt1.getNode k = some nd ∧ f ∈ nd.m_functions)
          ∧ ∀ k nd, pt1.getNode k = some nd → f ∈ nd.m_functions →
              ∀ x ∈ f.getScopeSet, x = nd.m_var ∨ x ∈ pt1.m_nodes.ancestorsOf k := by
  obtain ⟨pt, pt1, hb, hr, hT, _, hfun⟩ :=
    build_reset_spec pt0 G n elim cachelimit fns hrep hsim hnodes hperm hlim hready hscope
  refine ⟨pt, pt1, hb, hr, fun f hf hs => ?_⟩
  obtain ⟨d, hd, hdn, _, h2⟩ := functionTarget_build hperm f (hscope f hf)
  obtain ⟨hdlt, hdmem, hfirst⟩ := h2 hs
  constructor
  · obtain ⟨nd, hnd, _⟩ := hT.node d hdn
    refine ⟨d, nd, hnd, ?_⟩
    rw [hfun d nd hnd]
    exact List.mem_filter.2 ⟨hf, by simp [hd]⟩
  · intro k nd hk hmem x hx
    have hkd : k = d := by
      rw [hfun k nd hk] at hmem
      have := (List.mem_filter.1 hmem).2
      simp only [hd, decide_eq_true_eq, Option.some.injEq] at this
      exact this.symm
    subst hkd
    have hvar := hT.varAt k nd hk
    by_cases hxk : x = k
    · exact Or.inl (by rw [hvar]; exact hxk)
    · right
      obtain ⟨_, _, hmemE⟩ := perm_range_facts hperm
      have hle := hfirst x hx
      have hne : elim.indexOf k ≠ elim.indexOf x := by
        intro e
        exact hxk ((List.indexOf_inj ((hmemE k).2 hdlt) ((hmemE x).2 (hscope f hf x hx))).1 e).symm
      have hctx : x ∈ nd.m_contextS :=
        hT.ctxEdges k nd x hdlt hk (hedge f hf k hdmem x hx (Ne.symm hxk)) (by omega)
      have := Arena.ctx_subset_ancestors (hT.tree_ranked hperm) (hT.tree_covered hperm)
        pt1.m_nodes.length k nd hk (fun p _ => by rw [hT.len]; omega) x hctx
      simp only [Arena.ancestorsOf]
      have hk2 : pt1.m_nodes.deref k = some nd := hk
      rw [hk2]
      exact this

/-- C2, on the triangle with a pendant node. -/
theorem scope_on_root_path_witness :
    ∃ pt pt1, Pseudotree.build (Pseudotree.new 4 SubOrder.other)
        (Graph.ofEdges 4 [(0, 1), (1, 2), (0, 2), (2, 3)]) [0, 3, 1, 2] NONE = some pt
      ∧ pt.resetFunctionInfo [⟨0, [0, 1, 2]⟩, ⟨1, [2, 3]⟩, ⟨2, []⟩] = some pt1
      ∧ ∀ f ∈ [(⟨0, [0, 1, 2]⟩ : Function), ⟨1, [2, 3]⟩, ⟨2, []⟩], f.getScopeSet ≠ [] →
          (∃ k nd, pt1.getNode k = some nd ∧ f ∈ nd.m_functions)
          ∧ ∀ k nd, pt1.getNode k = some nd → f ∈ nd.m_functions →
              ∀ x ∈ f.getScopeSet, x = nd.m_var ∨ x ∈ pt1.m_nodes.ancestorsOf k :=
  scope_on_root_path (Pseudotree.new 4 SubOrder.other)
    (Graph.ofEdges 4 [(0, 1), (1, 2), (0, 2), (2, 3)]) 4 [0, 3, 1, 2] NONE
    [⟨0, [0, 1, 2]⟩, ⟨1, [2, 3]⟩, ⟨2, []⟩]
    (Graph.wf_of_check (n := 4) (by decide)).1.rep
    (Graph.wf_of_check (n := 4) (by decide)).1.simple
    (Graph.wf_of_check (n := 4) (by decide)).2 (by decide) (Or.inl rfl)
    ⟨rfl, Or.inr rfl⟩ (by decide) (by decide)

/-- C4 fails on the graph of one edge: the function on the two variables is assigned to
the node of variable 0 only, and the subproblem variables of that node are `[0]`, without
the scope variable 1. -/
theorem subtree_misses_scope :
    ∃ pt pt1, Pseudotree.build (Pseudotree.new 2 SubOrder.other) (Graph.ofEdges 2 [(0, 1)])
        [0, 1] NONE = some pt
      ∧ pt.resetFunctionInfo [⟨0, [0, 1]⟩] = some pt1
      ∧ pt1.m_nodes.map (fun o => o.map (fun nd => nd.m_functions))
          = [some [⟨0, [0, 1]⟩], some [], some []]
      ∧ pt1.m_nodes.map (fun o => o.map (fun nd => nd.m_subproblemVars))
          = [some [0], some [0, 1], some [0, 1, 2]]
      ∧ 1 ∈ Function.getScopeSet ⟨0, [0, 1]⟩ ∧ 1 ∉ [0] :=
  ⟨_, _, rfl, rfl, rfl, rfl, by decide, by decide⟩

/-- C4, amended. After `build` and `resetFunctionInfo(fns)` every function is in the
function list of exactly one node; the subproblem variables of that node hold the variable
of the node; when the scope is not empty that variable is a scope variable, the one
eliminated first, and no other scope variable is among the subproblem variables of the
node; a function with an empty scope is at the dummy root. -/
theorem function_node_subproblem (pt0 : Pseudotree) (G : Graph) (n : Nat) (elim : List Nat)
    (cachelimit : Int) (fns : List Function) (hrep : G.Rep) (hsim : G.Simple)
    (hnodes : G.NodesAre n) (hperm : elim.Perm (List.range n))
    (hlim : cachelimit = NONE ∨ 0 ≤ cachelimit) (hready : pt0.Ready n)
    (hscope : ∀ f ∈ fns, ∀ x ∈ f.getScopeSet, x < n) :
    ∃ pt pt1, Pseudotree.build pt0 G elim cachelimit = some pt
      ∧ pt.resetFunctionInfo fns = some pt1
      ∧ ∀ f ∈ fns, ∃ d nd, pt1.getNode d = some nd ∧ nd.m_var = d ∧ f ∈ nd.m_functions
          ∧ (∀ k nd2, pt1.getNode k = some nd2 → f ∈ nd2.m_functions → k = d)
          ∧ d ∈ nd.m_subproblemVars
          ∧ (f.getScopeSet = [] → d = n)
          ∧ (f.getScopeSet ≠ [] → d ∈ f.getScopeSet
              ∧ (∀ u ∈ f.getScopeSet, elim.indexOf d ≤ elim.indexOf u)
              ∧ ∀ x ∈ f.getScopeSet, x ∈ nd.m_subproblemVars → x = d) := by
  obtain ⟨pt, pt1, hb, hr, hT, hgood, hfun⟩ :=
    build_reset_spec pt0 G n elim cachelimit fns hrep hsim hnodes hperm hlim hready hscope
  refine ⟨pt, pt1, hb, hr, fun f hf => ?_⟩
  obtain ⟨d, hd, hdn, h1, h2⟩ := functionTarget_build hperm f (hscope f hf)
  obtain ⟨nd, hnd, hmemd, hlow⟩ := hgood d hdn
  refine ⟨d, nd, hnd, hT.varAt d nd hnd, ?_, ?_, hmemd, h1, fun hs => ?_⟩
  · rw [hfun d nd hnd]
    exact List.mem_filter.2 ⟨hf, by simp [hd]⟩
  · intro k nd2 hk hmem
    rw [hfun k nd2 hk] at hmem
    have := (List.mem_filter.1 hmem).2
    simp only [hd, decide_eq_true_eq, Option.some.injEq] at this
    exact this.symm
  · obtain ⟨_, hdmem, hfirst⟩ := h2 hs
    refine ⟨hdmem, hfirst, fun x hx hxv => ?_⟩
    rcases hlow x hxv with h3 | h3
    · exact h3
    · have := hfirst x hx
      simp only at h3
      omega

/-- C4, amended, on the triangle with a pendant node. -/
theorem function_node_subproblem_witness :
    ∃ pt pt1, Pseudotree.build (Pseudotree.new 4 SubOrder.other)
        (Graph.ofEdges 4 [(0, 1), (1, 2), (0, 2), (2, 3)]) [0, 3, 1, 2] NONE = some pt
      ∧ pt.resetFunctionInfo [⟨0, [0, 1, 2]⟩, ⟨1, [2, 3]⟩, ⟨2, []⟩] = some pt1
      ∧ ∀ f ∈ [(⟨0, [0, 1, 2]⟩ : Function), ⟨1, [2, 3]⟩, ⟨2, []⟩],
          ∃ d nd, pt1.getNode d = some nd ∧ nd.m_var = d ∧ f ∈ nd.m_functions
          ∧ (∀ k nd2, pt1.getNode k = some nd2 → f ∈ nd2.m_functions → k = d)
          ∧ d ∈ nd.m_subproblemVars
          ∧ (f.getScopeSet = [] → d = 4)
          ∧ (f.getScopeSet ≠ [] → d ∈ f.getScopeSet
              ∧ (∀ u ∈ f.getScopeSet, [0, 3, 1, 2].indexOf d ≤ [0, 3, 1, 2].indexOf u)
              ∧ ∀ x ∈ f.getScopeSet, x ∈ nd.m_subproblemVars → x = d) :=
  function_node_subproblem (Pseudotree.new 4 SubOrder.other)
    (Graph.ofEdges 4 [(0, 1), (1, 2), (0, 2), (2, 3)]) 4 [0, 3, 1, 2] NONE
    [⟨0, [0, 1, 2]⟩, ⟨1, [2, 3]⟩, ⟨2, []⟩]
    (Graph.wf_of_check (n := 4) (by decide)).1.rep
    (Graph.wf_of_check (n := 4) (by decide)).1.simple
    (Graph.wf_of_check (n := 4) (by decide)).2 (by decide) (Or.inl rfl)
    ⟨rfl, Or.inr rfl⟩ (by decide)

/-- C6. On a well-formed graph with the nodes `0..n-1`, started without stored initial
scores, `eliminate` returns; when the returned width `w` is not `INT_MAX`, then `w` is the
largest of the neighbour counts of the elimination game on the order it wrote (`UNKNOWN`
for the graph without nodes), and every node of the order has, in the filled graph that
the game leaves after the nodes before it, at most `w` neighbours. -/
theorem eliminate_width (G : Graph) (n : Nat) (limit : Int) (tolerance : Nat)
    (rnd : Nat → Nat) (hwf : G.WF) (hnodes : G.NodesAre n) (hn : (n : Int) * n ≤ INT_MAX) :
    ∃ r, eliminate G limit tolerance [] rnd = some r
      ∧ (r.ret ≠ INT_MAX →
          (∃ H ds, elimGame G r.elim = some (H, ds) ∧ ds.length = r.elim.length
            ∧ r.ret = widthOf ds)
          ∧ (∀ pre v post, r.elim = pre ++ v :: post →
              ∃ H1 ds1 N, elimGame G pre = some (H1, ds1) ∧ H1.getNeighbors v = some N
                ∧ (N.length : Int) ≤ r.ret)
          ∧ (n = 0 → r.ret = UNKNOWN)) := by
  obtain ⟨r, hr, hq⟩ := eliminate_game G n limit tolerance rnd hwf hnodes hn
  refine ⟨r, hr, fun hne => ?_⟩
  obtain ⟨H, ds, hg, hl, hw, hlen⟩ := hq hne
  refine ⟨⟨H, ds, hg, hl, hw⟩, ?_, ?_⟩
  · intro pre v post hsplit
    rw [hsplit] at hg
    obtain ⟨H1, ds1, N, h1, h2, h3⟩ := elimGame_split hg
    exact ⟨H1, ds1, N, h1, h2, by rw [hw]; exact le_widthOf ds _ h3⟩
  · intro h0
    have : ds = [] := List.length_eq_zero.1 (by omega)
    rw [hw, this]
    rfl

/-- C6, at a cycle of four nodes with two further nodes. -/
theorem eliminate_width_witness :
    ∃ r, eliminate (Graph.ofEdges 6 [(0,1),(1,2),(2,3),(3,0),(4,0),(4,1),(5,4)]) INT_MAX 0 []
        (fun _ => 0) = some r
      ∧ (r.ret ≠ INT_MAX →
          (∃ H ds, elimGame (Graph.ofEdges 6 [(0,1),(1,2),(2,3),(3,0),(4,0),(4,1),(5,4)])
              r.elim = some (H, ds) ∧ ds.length = r.elim.length ∧ r.ret = widthOf ds)
          ∧ (∀ pre v post, r.elim = pre ++ v :: post →
              ∃ H1 ds1 N, elimGame
                  (Graph.ofEdges 6 [(0,1),(1,2),(2,3),(3,0),(4,0),(4,1),(5,4)]) pre
                  = some (H1, ds1) ∧ H1.getNeighbors v = some N
                ∧ (N.length : Int) ≤ r.ret)
          ∧ (6 = 0 → r.ret = UNKNOWN)) :=
  eliminate_width _ 6 INT_MAX 0 _ (Graph.wf_of_check (n := 6) (by decide)).1
    (Graph.wf_of_check (n := 6) (by decide)).2 (by decide)

/-! ## C11: the cache reset lists -/

/-- C11. After `build` a variable is in a cache reset list only when its cache context was
truncated, that is `0 <= cachelimit < |full context|`. A variable `v` with a truncated
cache context is in exactly one reset list, and once: in that of the context variable `q`
met after the first `cachelimit` ones on the way up from the parent of `v`. This `q` is in
the full context of `v` and not in its cache context, while the context variables met
before `q` are all in the cache context, so `q` is the nearest such ancestor. -/
theorem build_cache_reset (pt0 : Pseudotree) (G : Graph) (n : Nat) (elim : List Nat)
    (cachelimit : Int) (hrep : G.Rep) (hsim : G.Simple) (hnodes : G.NodesAre n)
    (hperm : elim.Perm (List.range n)) (hlim : cachelimit = NONE ∨ 0 ≤ cachelimit)
    (hready : pt0.Ready n) :
    ∃ pt, Pseudotree.build pt0 G elim cachelimit = some pt
      ∧ (∀ v q qn, pt.m_nodes.deref q = some qn → v ∈ qn.m_cacheResetList →
          v < n ∧ ∃ nd, pt.m_nodes.deref v = some nd ∧ 0 ≤ cachelimit
            ∧ cachelimit < (nd.m_contextS.length : Int))
      ∧ (∀ v nd, v < n → pt.m_nodes.deref v = some nd → 0 ≤ cachelimit →
          cachelimit < (nd.m_contextS.length : Int) →
          ∃ q qn, (pt.m_nodes.ctxAncestors v)[cachelimit.toNat]? = some q
            ∧ pt.m_nodes.deref q = some qn
            ∧ qn.m_cacheResetList.count v = 1
            ∧ (∀ q2 qn2, pt.m_nodes.deref q2 = some qn2 → v ∈ qn2.m_cacheResetList → q2 = q)
            ∧ q ∈ nd.m_contextS ∧ q ∉ nd.m_cacheContextS
            ∧ ∀ x ∈ (pt.m_nodes.ctxAncestors v).take cachelimit.toNat,
                x ∈ nd.m_cacheContextS) := by
  obtain ⟨pt, hb, hT, hres⟩ :=
    build_resets pt0 G n elim cachelimit hrep hsim hnodes hperm hlim hready
  have hnone : NONE = (-1 : Int) := rfl
  refine ⟨pt, hb, ?_, ?_⟩
  · intro v q qn hq hv
    rw [hres q qn hq, List.mem_filter, decide_eq_true_eq] at hv
    obtain ⟨hvn, ht⟩ := hv
    refine ⟨List.mem_range.1 hvn, ?_⟩
    simp only [Arena.resetTarget] at ht
    cases hd : pt.m_nodes.deref v with
    | none => simp [hd] at ht
    | some nd =>
      simp only [hd] at ht
      split at ht
      · cases ht
      · rename_i hfull
        refine ⟨nd, rfl, ?_, ?_⟩
        · rcases hlim with h | h
          · exact absurd (Or.inl h) hfull
          · exact h
        · have : ¬ cachelimit ≥ (nd.m_contextS.length : Int) := fun e => hfull (Or.inr e)
          omega
  · intro v nd hv hd h0 hc
    have hfull : ¬ (cachelimit = NONE ∨ cachelimit ≥ (nd.m_contextS.length : Int)) := by
      rw [hnone]
      omega
    have hp := Arena.ctxAncestors_perm (hT.tree_ranked hperm) (by rw [hT.len]; omega)
      (hT.tree_covered hperm) hd (hT.ctxNodup v nd hd)
    have hnd : (pt.m_nodes.ctxAncestors v).Nodup := hp.nodup_iff.2 (hT.ctxNodup v nd hd)
    have hlen : cachelimit.toNat < (pt.m_nodes.ctxAncestors v).length := by
      rw [hp.length_eq]; omega
    have hq : (pt.m_nodes.ctxAncestors v)[cachelimit.toNat]?
        = some ((pt.m_nodes.ctxAncestors v)[cachelimit.toNat]) := List.getElem?_eq_getElem hlen
    generalize (pt.m_nodes.ctxAncestors v)[cachelimit.toNat] = q at hq
    have hqctx : q ∈ nd.m_contextS := hp.subset (List.getElem?_mem hq)
    have hqn : q < n := (hT.ctxLater v nd q hd hqctx).1
    obtain ⟨qn, hqd, _⟩ := hT.node q (by omega)
    have htar : pt.m_nodes.resetTarget cachelimit v = some q := by
      simp only [Arena.resetTarget, hd, hfull, if_false]
      exact hq
    have hcache : ∀ x, x ∈ nd.m_cacheContextS
        ↔ x ∈ (pt.m_nodes.ctxAncestors v).take cachelimit.toNat := by
      intro x
      rw [hT.cache v nd hv hd]
      simp only [Arena.cacheTarget, hd, hfull, if_false, mem_foldl_setInsert,
        List.not_mem_nil, or_false]
    refine ⟨q, qn, hq, hqd, ?_, ?_, hqctx, ?_, fun x hx => (hcache x).2 hx⟩
    · rw [hres q qn hqd]
      apply List.count_eq_one_of_mem ((List.nodup_range n).filter _)
      rw [List.mem_filter, decide_eq_true_eq]
      exact ⟨List.mem_range.2 hv, htar⟩
    · intro q2 qn2 hq2 hm
      rw [hres q2 qn2 hq2, List.mem_filter, decide_eq_true_eq, htar] at hm
      exact (Option.some.inj hm.2).symm
    · intro hm
      exact not_mem_take_of_nodup hnd hq ((hcache q).1 hm)

theorem build_cache_reset_witness :
    ∃ pt, Pseudotree.build (Pseudotree.new 5 SubOrder.other)
        (Graph.ofEdges 5 [(0,1),(1,2),(2,3),(0,2),(3,4),(1,4)]) [0,4,1,2,3] 1 = some pt
      ∧ (∀ v q qn, pt.m_nodes.deref q = some qn → v ∈ qn.m_cacheResetList →
          v < 5 ∧ ∃ nd, pt.m_nodes.deref v = some nd ∧ 0 ≤ (1 : Int)
            ∧ (1 : Int) < (nd.m_contextS.length : Int))
      ∧ (∀ v nd, v < 5 → pt.m_nodes.deref v = some nd → 0 ≤ (1 : Int) →
          (1 : Int) < (nd.m_contextS.length : Int) →
          ∃ q qn, (pt.m_nodes.ctxAncestors v)[(1 : Int).toNat]? = some q
            ∧ pt.m_nodes.deref q = some qn
            ∧ qn.m_cacheResetList.count v = 1
            ∧ (∀ q2 qn2, pt.m_nodes.deref q2 = some qn2 → v ∈ qn2.m_cacheResetList → q2 = q)
            ∧ q ∈ nd.m_contextS ∧ q ∉ nd.m_cacheContextS
            ∧ ∀ x ∈ (pt.m_nodes.ctxAncestors v).take (1 : Int).toNat,
                x ∈ nd.m_cacheContextS) :=
  build_cache_reset (Pseudotree.new 5 SubOrder.other)
    (Graph.ofEdges 5 [(0,1),(1,2),(2,3),(0,2),(3,4),(1,4)]) 5 [0,4,1,2,3] 1
    (Graph.wf_of_check (n := 5) (by decide)).1.rep
    (Graph.wf_of_check (n := 5) (by decide)).1.simple
    (Graph.wf_of_check (n := 5) (by decide)).2
    (by decide) (Or.inr (by decide)) ⟨rfl, Or.inr rfl⟩

/-! ## C12: `buildChain` returns a chain -/

/-- C12. `buildChain` on a non-empty order returns a chain: every node, the dummy included,
has at most one child, the parent of `elim[k]` is `elim[k+1]`, the parent of the last
variable of `elim` is the dummy root `n`, and `getComponents` is 1. -/
theorem buildChain_is_chain (pt0 : Pseudotree) (G : Graph) (n : Nat) (elim : List Nat)
    (cachelimit : Int) (hrep : G.Rep) (hsim : G.Simple) (hnodes : G.NodesAre n)
    (hperm : elim.Perm (List.range n)) (hn : 0 < n)
    (hlim : cachelimit = NONE ∨ 0 ≤ cachelimit) (hready : pt0.Ready n) :
    ∃ pt, Pseudotree.buildChain pt0 G elim cachelimit = some pt
      ∧ pt.m_root = some n
      ∧ (∀ k nd, pt.getNode k = some nd → nd.m_children.length ≤ 1)
      ∧ (∀ k a b, elim[k]? = some a → elim[k + 1]? = some b →
          ∃ nd, pt.getNode a = some nd ∧ nd.m_parent = some b)
      ∧ (∀ a, elim[n - 1]? = some a → ∃ nd, pt.getNode a = some nd ∧ nd.m_parent = some n)
      ∧ pt.getComponents = 1 := by
  obtain ⟨hnd, hlen, hmem⟩ := perm_range_facts hperm
  obtain ⟨pt, st, q, nodes1, T, hb, hF, hq, hlinks, e2, e3, hT, hrel, hcomp⟩ :=
    buildChain_view pt0 G n elim cachelimit hrep hsim hnodes hperm hn hlim hready
  obtain ⟨pt2, hb2, _, _, _, hroot⟩ :=
    buildChain_spec pt0 G n elim cachelimit hrep hsim hnodes hperm hn hlim hready
  rw [hb] at hb2
  cases hb2
  obtain ⟨q2, hq2, hD⟩ := hF.chain_done hperm hn
  rw [hq] at hq2
  cases hq2
  have hsome : ∀ i ∈ List.range st.m_nodes.length, (st.m_nodes.deref i).isSome = true :=
    fun i hi => hD.nodeSome i (by rw [← hD.len]; exact List.mem_range.1 hi)
  obtain ⟨nodes1a, e1a, r1, _⟩ := cacheContextLoop_spec (hD.ranked hperm)
    (by rw [hD.len]; omega) hD.covered hD.ctxNodup cachelimit hlim
    (List.range st.m_nodes.length) [] st.m_nodes hsome
    (Arena.Rel.rel_refl (fun a => ⟨rfl, rfl, rfl, rfl, rfl⟩) st.m_nodes)
    (fun i hi => by simp at hi)
  rw [e2] at e1a
  cases e1a
  obtain ⟨hTlen, hTn, hview⟩ := dummy_view hD r1 e3
  have hT2 := hT.tree_congr hrel
  have hkey : ∀ k fnd, st.m_nodes.deref k = some fnd → ∃ nd, pt.getNode k = some nd
      ∧ nd.m_parent = (if k = q then some n else fnd.m_parent)
      ∧ nd.m_children.length = fnd.m_children.length := by
    intro k fnd hfd
    obtain ⟨fnd2, nd1, h1, h2, h3, h4, _⟩ := hview k (hD.node_lt hfd)
    rw [hfd] at h1
    cases h1
    obtain ⟨nd, hnd1, hs⟩ := hrel.left h3
    refine ⟨nd, hnd1, ?_, ?_⟩
    · rw [← hs.1.2.1]
      by_cases hkq : k = q
      · simp [hkq, PseudotreeNode.setParent]
      · simp only [List.mem_singleton, hkq, if_false]
        exact h4.2.1.symm
    · rw [← hs.1.2.2.2.length_eq]
      by_cases hkq : k = q
      · simp only [List.mem_singleton, hkq, if_true, PseudotreeNode.setParent]
        rw [← h4.2.2.2.1]
      · simp only [List.mem_singleton, hkq, if_false]
        rw [← h4.2.2.2.1]
  have hlast : elim.getLast? = some q := hlinks.1.symm
  refine ⟨pt, hb, hroot, ?_, ?_, ?_, hcomp⟩
  · intro k nd hd
    have hkn := hT2.deref_le hd
    rcases Nat.lt_or_ge k n with hlt | hge
    · obtain ⟨l1, l2, hs⟩ := List.append_of_mem ((hmem k).2 hlt)
      obtain ⟨fnd, hfd, _, hch⟩ := hlinks.2 l1 k l2 hs
      obtain ⟨nd2, hnd2, _, hl⟩ := hkey k fnd hfd
      rw [hd] at hnd2
      cases hnd2
      rw [hl, hch]
      cases l1.getLast? <;> simp
    · have hke : k = n := by omega
      subst hke
      obtain ⟨td, htd, hs⟩ := hrel.right hd
      rw [hTn] at htd
      cases htd
      rw [← hs.1.2.2.2.length_eq]
      simp [PseudotreeNode.addChildren, PseudotreeNode.new]
  · intro k a b ha hb1
    have hk : k < elim.length := (List.getElem?_eq_some.1 ha).1
    have hs : elim = elim.take k ++ a :: elim.drop (k + 1) := by
      have h1 := (List.take_append_drop k elim).symm
      have h2 : elim.drop k = a :: elim.drop (k + 1) := by
        rw [List.drop_eq_getElem_cons hk, (List.getElem?_eq_some.1 ha).2]
      rw [h2] at h1
      exact h1
    obtain ⟨fnd, hfd, hpar, _⟩ := hlinks.2 _ a _ hs
    have hpb : fnd.m_parent = some b := by
      rw [hpar, List.head?_drop]
      exact hb1
    obtain ⟨nd, hnd1, hp, _⟩ := hkey a fnd hfd
    refine ⟨nd, hnd1, ?_⟩
    rw [hp, hpb]
    have haq : ¬ a = q := by
      intro e
      obtain ⟨_, hroots⟩ := (hD.rootsIff a)
      obtain ⟨x, hx, hxp⟩ := (hD.rootsIff a).1 (by simp [e])
      rw [hfd] at hx
      cases hx
      rw [hpb] at hxp
      cases hxp
    simp [haq]
  · intro a ha
    have haq : a = q := by
      rw [List.getLast?_eq_getElem?, hlen, ha] at hlast
      exact Option.some.inj hlast
    subst haq
    obtain ⟨x, hx, _⟩ := (hD.rootsIff a).1 (by simp)
    obtain ⟨nd, hnd1, hp, _⟩ := hkey a x hx
    exact ⟨nd, hnd1, by simpa using hp⟩

theorem buildChain_is_chain_witness :
    ∃ pt, Pseudotree.buildChain (Pseudotree.new 4 SubOrder.other)
        (Graph.ofEdges 4 [(0, 1), (1, 2), (0, 2), (2, 3)]) [0, 3, 1, 2] NONE = some pt
      ∧ pt.m_root = some 4
      ∧ (∀ k nd, pt.getNode k = some nd → nd.m_children.length ≤ 1)
      ∧ (∀ k a b, [0, 3, 1, 2][k]? = some a → [0, 3, 1, 2][k + 1]? = some b →
          ∃ nd, pt.getNode a = some nd ∧ nd.m_parent = some b)
      ∧ (∀ a, [0, 3, 1, 2][4 - 1]? = some a →
          ∃ nd, pt.getNode a = some nd ∧ nd.m_parent = some 4)
      ∧ pt.getComponents = 1 :=
  buildChain_is_chain (Pseudotree.new 4 SubOrder.other)
    (Graph.ofEdges 4 [(0, 1), (1, 2), (0, 2), (2, 3)]) 4 [0, 3, 1, 2] NONE
    (Graph.wf_of_check (n := 4) (by decide)).1.rep
    (Graph.wf_of_check (n := 4) (by decide)).1.simple
    (Graph.wf_of_check (n := 4) (by decide)).2
    (by decide) (by decide) (Or.inl rfl) ⟨rfl, Or.inr rfl⟩

/-! ## The heap of the search nodes -/

theorem Heap.deref_bound {heap : Heap} {p : Nat} {nd : SearchNode}
    (h : heap.deref p = some nd) : p < heap.length := by
  by_contra hlt
  have hnone : heap[p]? = none := List.getElem?_eq_none (by omega)
  simp [Heap.deref, List.getD_eq_getElem?_getD, hnone] at h

theorem Heap.deref_put (heap : Heap) (p k : Nat) (x : Option SearchNode)
    (hp : p < heap.length) :
    Heap.deref (heap.set p x) k = if k = p then x else heap.deref k := by
  unfold Heap.deref
  by_cases hk : k = p
  · subst hk
    rw [getD_set_eq _ _ _ _ hp]
    simp
  · rw [getD_set_ne _ _ _ _ _ (Ne.symm hk)]
    simp [hk]

theorem Heap.deref_update (heap : Heap) (p k : Nat) (f : SearchNode → SearchNode) :
    (heap.modify p f).deref k = if k = p then (heap.deref p).map f else heap.deref k := by
  unfold Heap.modify
  cases h : heap.deref p with
  | none =>
    by_cases hk : k = p
    · subst hk; simp [h]
    · simp [hk]
  | some nd =>
    simp only
    rw [Heap.deref_put _ _ _ _ (Heap.deref_bound h)]
    by_cases hk : k = p
    · simp [hk]
    · simp [hk]

theorem Heap.length_update (heap : Heap) (p : Nat) (f : SearchNode → SearchNode) :
    (heap.modify p f).length = heap.length := by
  unfold Heap.modify
  cases h : heap.deref p <;> simp

theorem Heap.deref_push (heap : Heap) (x : Option SearchNode) (k : Nat) :
    Heap.deref (heap ++ [x]) k
      = if k < heap.length then heap.deref k else if k = heap.length then x else none := by
  unfold Heap.deref
  by_cases hk : k < heap.length
  · simp [hk, List.getD_eq_getElem?_getD, List.getElem?_append_left hk]
  · simp only [hk, if_false]
    by_cases hk2 : k = heap.length
    · subst hk2
      simp [List.getD_eq_getElem?_getD]
    · have hnone : (heap ++ [x])[k]? = none :=
        List.getElem?_eq_none (by simp; omega)
      simp [hk2, List.getD_eq_getElem?_getD, hnone]

/-! ## The comparison of the values -/

theorem Dbl.le_nan_right (x : Dbl) : Dbl.le x Dbl.nan = false := by
  cases x <;> rfl

theorem Dbl.le_nan_left (x : Dbl) : Dbl.le Dbl.nan x = false := by
  cases x <;> rfl

theorem Dbl.eq_zero_iff (x : Dbl) : Dbl.eq x ELEM_ZERO = true ↔ x = ELEM_ZERO := by
  cases x <;> simp [Dbl.eq, ELEM_ZERO]

theorem Dbl.le_trans {a b c : Dbl} (h1 : Dbl.le a b = true) (h2 : Dbl.le b c = true) :
    Dbl.le a c = true := by
  cases a <;> cases b <;> cases c <;> simp_all [Dbl.le]
  omega

theorem Dbl.IsLog.of_le {a b : Dbl} (hb : b.IsLog) (h : Dbl.le a b = true) : a.IsLog := by
  rcases hb with hb | ⟨y, hb⟩ <;> subst hb <;> cases a <;> simp_all [Dbl.le, Dbl.IsLog]

theorem Dbl.IsLog.of_le_value {a b : Dbl} (h : Dbl.le a b = true) (hb : b ≠ Dbl.pinf) :
    a.IsLog := by
  cases a <;> cases b <;> simp_all [Dbl.le, Dbl.IsLog]
/-! ## The rounding of a sum -/

/-- The bound of the search in `shift` is large enough: the magnitude is cut to 53
significant bits, and to no fewer. -/
theorem Dbl.shift_spec : ∀ (fuel a : Nat), a < 2 ^ fuel * 2 ^ 53 →
    (a < 2 ^ 53 → Dbl.shift fuel a = 0)
      ∧ (2 ^ 53 ≤ a → 1 ≤ Dbl.shift fuel a ∧ 2 ^ 52 * 2 ^ Dbl.shift fuel a ≤ a
          ∧ a < 2 ^ 53 * 2 ^ Dbl.shift fuel a) := by
  intro fuel
  induction fuel with
  | zero =>
    intro a h
    simp only [pow_zero, one_mul] at h
    exact ⟨fun _ => rfl, fun h2 => by omega⟩
  | succ fuel ih =>
    intro a h
    constructor
    · intro h1
      simp only [Dbl.shift, h1, if_true]
    · intro h1
      have hn : ¬ a < 2 ^ 53 := by omega
      simp only [Dbl.shift, hn, if_false]
      have h2 : a / 2 < 2 ^ fuel * 2 ^ 53 := by
        rw [pow_succ] at h
        generalize 2 ^ fuel = X at h ⊢
        omega
      obtain ⟨i1, i2⟩ := ih (a / 2) h2
      by_cases h3 : a / 2 < 2 ^ 53
      · rw [i1 h3]
        simp only [zero_add, pow_one]
        omega
      · obtain ⟨_, j1, j2⟩ := i2 (by omega)
        rw [pow_succ]
        generalize 2 ^ Dbl.shift fuel (a / 2) = Y at j1 j2 ⊢
        omega

theorem Dbl.shift_self (a : Nat) :
    (a < 2 ^ 53 → Dbl.shift a a = 0)
      ∧ (2 ^ 53 ≤ a → 1 ≤ Dbl.shift a a ∧ 2 ^ 52 * 2 ^ Dbl.shift a a ≤ a
          ∧ a < 2 ^ 53 * 2 ^ Dbl.shift a a) := by
  refine Dbl.shift_spec a a ?_
  have h1 : a < 2 ^ a := Nat.lt_two_pow a
  have h2 : 2 ^ a * 1 ≤ 2 ^ a * 2 ^ 53 := Nat.mul_le_mul_left _ (by norm_num)
  omega

theorem Dbl.shift_mono {a b : Nat} (h : a ≤ b) : Dbl.shift a a ≤ Dbl.shift b b := by
  obtain ⟨a1, a2⟩ := Dbl.shift_self a
  obtain ⟨b1, b2⟩ := Dbl.shift_self b
  by_cases ha : a < 2 ^ 53
  · rw [a1 ha]
    exact Nat.zero_le _
  · obtain ⟨_, a3, a4⟩ := a2 (by omega)
    obtain ⟨_, b3, b4⟩ := b2 (by omega)
    by_contra hlt
    have hlt2 : Dbl.shift b b + 1 ≤ Dbl.shift a a := by omega
    have hp : 2 ^ (Dbl.shift b b + 1) ≤ 2 ^ Dbl.shift a a :=
      Nat.pow_le_pow_right (by norm_num) hlt2
    rw [pow_succ] at hp
    generalize 2 ^ Dbl.shift a a = X at a3 a4 hp
    generalize 2 ^ Dbl.shift b b = Y at b3 b4 hp
    omega

theorem Dbl.roundAt_zero (a : Nat) : Dbl.roundAt 0 a = a := by
  simp [Dbl.roundAt, Nat.mod_one]

/-- The definition of `roundAt` with the powers of two written out. -/
theorem Dbl.roundAt_eq (e a : Nat) : Dbl.roundAt e a
    = if 2 * (a % 2 ^ e) < 2 ^ e ∨ (2 * (a % 2 ^ e) = 2 ^ e ∧ a / 2 ^ e % 2 = 0) then
        a / 2 ^ e * 2 ^ e
      else (a / 2 ^ e + 1) * 2 ^ e := by
  simp only [Dbl.roundAt, Nat.one_shiftLeft]

/-- The rounded magnitude is one of the two multiples of `2^e` around the magnitude. -/
theorem Dbl.roundAt_bounds (e a : Nat) :
    a / 2 ^ e * 2 ^ e ≤ Dbl.roundAt e a ∧ Dbl.roundAt e a ≤ (a / 2 ^ e + 1) * 2 ^ e := by
  rw [Dbl.roundAt_eq]
  split
  · exact ⟨le_refl _, Nat.mul_le_mul_right _ (Nat.le_succ _)⟩
  · exact ⟨Nat.mul_le_mul_right _ (Nat.le_succ _), le_refl _⟩

theorem Dbl.roundAt_mono (e : Nat) {a b : Nat} (h : a ≤ b) :
    Dbl.roundAt e a ≤ Dbl.roundAt e b := by
  have hq : a / 2 ^ e ≤ b / 2 ^ e := Nat.div_le_div_right h
  rcases Nat.lt_or_ge (a / 2 ^ e) (b / 2 ^ e) with h1 | h1
  · have h2 : (a / 2 ^ e + 1) * 2 ^ e ≤ b / 2 ^ e * 2 ^ e := Nat.mul_le_mul_right _ h1
    exact Nat.le_trans (Dbl.roundAt_bounds e a).2 (Nat.le_trans h2 (Dbl.roundAt_bounds e b).1)
  · have hqe : a / 2 ^ e = b / 2 ^ e := le_antisymm hq h1
    have ha := Nat.div_add_mod a (2 ^ e)
    have hb := Nat.div_add_mod b (2 ^ e)
    have hr : a % 2 ^ e ≤ b % 2 ^ e := by
      rw [hqe] at ha
      generalize 2 ^ e * (b / 2 ^ e) = Z at ha hb
      omega
    rw [Dbl.roundAt_eq, Dbl.roundAt_eq, hqe]
    split
    · split
      · exact le_refl _
      · exact Nat.mul_le_mul_right _ (Nat.le_succ _)
    · rename_i hna
      split
      · rename_i hb2
        exfalso
        apply hna
        rcases hb2 with hb2 | ⟨hb2, hb3⟩
        · exact Or.inl (by omega)
        · rcases Nat.lt_or_ge (a % 2 ^ e) (b % 2 ^ e) with h3 | h3
          · exact Or.inl (by omega)
          · exact Or.inr ⟨by omega, hb3⟩
      · exact le_refl _

/-- Above `2^53` the rounded magnitude stays between the powers of two around it. -/
theorem Dbl.roundMag_binade {a : Nat} (ha : 2 ^ 53 ≤ a) :
    2 ^ 52 * 2 ^ Dbl.shift a a ≤ Dbl.roundMag a
      ∧ Dbl.roundMag a ≤ 2 ^ 53 * 2 ^ Dbl.shift a a := by
  obtain ⟨_, h1, h2⟩ := (Dbl.shift_self a).2 ha
  obtain ⟨b1, b2⟩ := Dbl.roundAt_bounds (Dbl.shift a a) a
  have hpos : 0 < 2 ^ Dbl.shift a a := Nat.pow_pos (by norm_num)
  have hq1 : 2 ^ 52 ≤ a / 2 ^ Dbl.shift a a := (Nat.le_div_iff_mul_le hpos).2 h1
  have hq2 : a / 2 ^ Dbl.shift a a < 2 ^ 53 := (Nat.div_lt_iff_lt_mul hpos).2 h2
  unfold Dbl.roundMag
  exact ⟨Nat.le_trans (Nat.mul_le_mul_right _ hq1) b1,
    Nat.le_trans b2 (Nat.mul_le_mul_right _ hq2)⟩

theorem Dbl.roundMag_small {a : Nat} (ha : a < 2 ^ 53) : Dbl.roundMag a = a := by
  unfold Dbl.roundMag
  rw [(Dbl.shift_self a).1 ha, Dbl.roundAt_zero]

/-- Rounding keeps the order of the magnitudes. -/
theorem Dbl.roundMag_mono {a b : Nat} (h : a ≤ b) : Dbl.roundMag a ≤ Dbl.roundMag b := by
  by_cases hb : b < 2 ^ 53
  · rw [Dbl.roundMag_small hb, Dbl.roundMag_small (by omega)]
    exact h
  · obtain ⟨hb0, hb1, hb2⟩ := (Dbl.shift_self b).2 (by omega)
    obtain ⟨hb3, hb4⟩ := Dbl.roundMag_binade (a := b) (by omega)
    by_cases ha : a < 2 ^ 53
    · rw [Dbl.roundMag_small ha]
      have hp : 2 ^ 1 ≤ 2 ^ Dbl.shift b b := Nat.pow_le_pow_right (by norm_num) hb0
      generalize 2 ^ Dbl.shift b b = Y at hb3 hp
      omega
    · obtain ⟨ha0, ha1, ha2⟩ := (Dbl.shift_self a).2 (by omega)
      obtain ⟨ha3, ha4⟩ := Dbl.roundMag_binade (a := a) (by omega)
      have hs := Dbl.shift_mono h
      rcases Nat.lt_or_ge (Dbl.shift a a) (Dbl.shift b b) with h1 | h1
      · have hp : 2 ^ (Dbl.shift a a + 1) ≤ 2 ^ Dbl.shift b b :=
          Nat.pow_le_pow_right (by norm_num) h1
        rw [pow_succ] at hp
        generalize 2 ^ Dbl.shift a a = X at ha4 hp
        generalize 2 ^ Dbl.shift b b = Y at hb3 hp
        omega
      · have he : Dbl.shift a a = Dbl.shift b b := le_antisymm hs h1
        unfold Dbl.roundMag
        rw [he]
        exact Dbl.roundAt_mono _ h

/-- Rounding keeps the order of the exact results. -/
theorem Dbl.round_nonneg_mono {a b : Nat} (h : a ≤ b) :
    Dbl.le (Dbl.round (a : Int)) (Dbl.round (b : Int)) = true := by
  have hm := Dbl.roundMag_mono h
  have hs := Dbl.shift_mono h
  have hna : ¬ ((a : Int) < 0) := by omega
  have hnb : ¬ ((b : Int) < 0) := by omega
  unfold Dbl.round
  simp only [Int.natAbs_ofNat, hna, hnb, if_false, Nat.one_shiftLeft]
  by_cases hob : 2046 ≤ Dbl.shift b b
      ∨ (Dbl.shift b b = 2045 ∧ Dbl.roundMag b = 2 ^ 53 * 2 ^ Dbl.shift b b)
  · rw [if_pos hob]
    split <;> rfl
  · rw [if_neg hob]
    have hoa : ¬ (2046 ≤ Dbl.shift a a
        ∨ (Dbl.shift a a = 2045 ∧ Dbl.roundMag a = 2 ^ 53 * 2 ^ Dbl.shift a a)) := by
      rintro (h1 | ⟨h1, h2⟩)
      · exact hob (Or.inl (by omega))
      · by_cases h3 : 2046 ≤ Dbl.shift b b
        · exact hob (Or.inl h3)
        · have he : Dbl.shift b b = 2045 := by omega
          have hb53 : 2 ^ 53 ≤ b := by
            by_contra hlt
            have := (Dbl.shift_self b).1 (by omega)
            omega
          have hb4 := (Dbl.roundMag_binade hb53).2
          rw [h1, ← he] at h2
          exact hob (Or.inr ⟨he, by omega⟩)
    rw [if_neg hoa]
    simp only [Dbl.le, decide_eq_true_eq]
    exact_mod_cast hm

theorem Dbl.round_neg (a : Nat) (ha : 0 < a) :
    Dbl.round (-(a : Int)) = match Dbl.round (a : Int) with
      | Dbl.fin m => Dbl.fin (-m)
      | Dbl.pinf => Dbl.ninf
      | x => x := by
  have h1 : (-(a : Int)) < 0 := by omega
  have h2 : ¬ ((a : Int) < 0) := by omega
  unfold Dbl.round
  simp only [Int.natAbs_neg, Int.natAbs_ofNat, h1, h2, if_true, if_false]
  split <;> rfl

theorem Dbl.round_nonneg_cases (a : Nat) :
    Dbl.round (a : Int) = Dbl.pinf ∨ ∃ m : Nat, Dbl.round (a : Int) = Dbl.fin (m : Int) := by
  have h2 : ¬ ((a : Int) < 0) := by omega
  unfold Dbl.round
  simp only [Int.natAbs_ofNat, h2, if_false]
  split
  · exact Or.inl rfl
  · exact Or.inr ⟨_, rfl⟩

/-- Rounding keeps the order of the exact results. -/
theorem Dbl.round_mono {x y : Int} (h : x ≤ y) :
    Dbl.le (Dbl.round x) (Dbl.round y) = true := by
  rcases Int.lt_or_le x 0 with hx | hx
  · obtain ⟨a, ha⟩ : ∃ a : Nat, x = -(a : Int) := ⟨x.natAbs, by omega⟩
    have hapos : 0 < a := by omega
    rcases Int.lt_or_le y 0 with hy | hy
    · obtain ⟨b, hb⟩ : ∃ b : Nat, y = -(b : Int) := ⟨y.natAbs, by omega⟩
      have hbpos : 0 < b := by omega
      have hba : b ≤ a := by omega
      have hm := Dbl.round_nonneg_mono hba
      rw [ha, hb, Dbl.round_neg a hapos, Dbl.round_neg b hbpos]
      rcases Dbl.round_nonneg_cases a with h1 | ⟨m1, h1⟩ <;>
        rcases Dbl.round_nonneg_cases b with h2 | ⟨m2, h2⟩ <;>
        rw [h1, h2] at hm ⊢ <;> simp_all [Dbl.le]
    · obtain ⟨b, hb⟩ : ∃ b : Nat, y = (b : Int) := ⟨y.natAbs, by omega⟩
      rw [ha, hb, Dbl.round_neg a hapos]
      rcases Dbl.round_nonneg_cases a with h1 | ⟨m1, h1⟩ <;>
        rcases Dbl.round_nonneg_cases b with h2 | ⟨m2, h2⟩ <;>
        rw [h1, h2] <;> simp [Dbl.le]
      omega
  · obtain ⟨a, ha⟩ : ∃ a : Nat, x = (a : Int) := ⟨x.natAbs, by omega⟩
    obtain ⟨b, hb⟩ : ∃ b : Nat, y = (b : Int) := ⟨y.natAbs, by omega⟩
    rw [ha, hb]
    exact Dbl.round_nonneg_mono (by omega)

/-- A sum that needs no more than 53 significant bits is exact. -/
theorem Dbl.round_exact {x : Int} (h : x.natAbs < 2 ^ 53) : Dbl.round x = Dbl.fin x := by
  have hs := (Dbl.shift_self x.natAbs).1 h
  have hm := Dbl.roundMag_small h
  unfold Dbl.round
  rw [hs, hm]
  simp only [show ¬ (2046 ≤ 0) by omega, show ¬ ((0 : Nat) = 2045) by omega, false_and,
    or_self, if_false]
  split <;> congr 1 <;> omega

theorem Dbl.le_ninf_round (x : Int) : Dbl.le Dbl.ninf (Dbl.round x) = true := by
  unfold Dbl.round
  split <;> split <;> rfl

/-- The sum of two `double` is monotone on the log values, rounded as it is. -/
theorem Dbl.add_mono {a b c d : Dbl} (hb : b.IsLog) (hd : d.IsLog)
    (h1 : Dbl.le a b = true) (h2 : Dbl.le c d = true) :
    Dbl.le (OP_TIMES a c) (OP_TIMES b d) = true := by
  have ha := hb.of_le h1
  have hc := hd.of_le h2
  rcases ha with ha | ⟨x, ha⟩ <;> rcases hc with hc | ⟨w, hc⟩ <;>
    rcases hb with hb | ⟨y, hb⟩ <;> rcases hd with hd | ⟨z, hd⟩ <;>
    subst ha <;> subst hc <;> subst hb <;> subst hd
  all_goals first
    | rfl
    | exact Dbl.le_ninf_round _
    | (exfalso; simp [Dbl.le] at h1; done)
    | (exfalso; simp [Dbl.le] at h2; done)
    | (simp only [Dbl.le, decide_eq_true_eq] at h1 h2; exact Dbl.round_mono (by omega))

/-- A sum that is a log value has log values as its terms. -/
theorem Dbl.IsLog.of_add {x y : Dbl} (h : (OP_TIMES x y).IsLog) : x.IsLog ∧ y.IsLog := by
  cases x <;> cases y <;> simp_all [OP_TIMES, Dbl.add, Dbl.IsLog]

/-! ## The pruning rule -/

theorem pstSiblings_eq (heap : Heap) (o : Nat) : ∀ (l : List (Option Nat)) (pst : Dbl),
    (∀ c, some c ∈ l → (heap.deref c).isSome = true) →
    pstSiblings heap o l pst
      = some (((l.filterMap id).filter (fun c => decide (c ≠ o))).foldl
          (fun acc c => OP_TIMES acc (heurOf heap c)) pst) := by
  intro l
  induction l with
  | nil => intro pst _; rfl
  | cons x l ih =>
    intro pst hl
    have hl2 : ∀ c, some c ∈ l → (heap.deref c).isSome = true :=
      fun c hc => hl c (List.mem_cons_of_mem _ hc)
    cases x with
    | none =>
      simp only [pstSiblings, List.filterMap_cons, id]
      exact ih pst hl2
    | some c =>
      by_cases hco : c = o
      · simp only [pstSiblings, hco, if_true, List.filterMap_cons, id, List.filter_cons,
          ne_eq, not_true_eq_false, decide_False, Bool.false_eq_true, if_false]
        exact ih pst hl2
      · have hsome := hl c (List.mem_cons_self _ _)
        cases hd : heap.deref c with
        | none => simp [hd] at hsome
        | some cn =>
          simp only [pstSiblings, hco, if_false, hd, List.filterMap_cons, id, List.filter_cons,
            ne_eq, not_false_eq_true, decide_True, if_true, List.foldl_cons]
          rw [ih _ hl2]
          simp only [heurOf, hd]

theorem orAbove_modify (heap : Heap) (p : Nat) (f : SearchNode → SearchNode)
    (hf : ∀ x, (f x).m_parent = x.m_parent) (o : Nat) :
    orAbove (heap.modify p f) o = orAbove heap o := by
  have hpar : ∀ k, ((heap.modify p f).deref k).map (fun x => x.m_parent)
      = (heap.deref k).map (fun x => x.m_parent) := by
    intro k
    rw [Heap.deref_update]
    by_cases hk : k = p
    · subst hk
      cases heap.deref k <;> simp [hf]
    · simp [hk]
  unfold orAbove
  have h1 := hpar o
  cases hd1 : (heap.modify p f).deref o with
  | none =>
    cases hd2 : heap.deref o with
    | none => rfl
    | some b => simp [hd1, hd2] at h1
  | some a =>
    cases hd2 : heap.deref o with
    | none => simp [hd1, hd2] at h1
    | some b =>
      simp only [hd1, hd2, Option.map_some', Option.some.injEq] at h1
      simp only [SearchNode.getParent, h1]
      cases hp : b.m_parent with
      | none => rfl
      | some q =>
        simp only
        have h2 := hpar q
        cases hd3 : (heap.modify p f).deref q with
        | none =>
          cases hd4 : heap.deref q with
          | none => rfl
          | some d => simp [hd3, hd4] at h2
        | some c =>
          cases hd4 : heap.deref q with
          | none => simp [hd3, hd4] at h2
          | some d =>
            simp only [hd3, hd4, Option.map_some', Option.some.injEq] at h2
            exact h2

theorem orList_modify (heap : Heap) (p : Nat) (f : SearchNode → SearchNode)
    (hf : ∀ x, (f x).m_parent = x.m_parent) : ∀ (k o : Nat),
    orList (heap.modify p f) o k = orList heap o k := by
  intro k
  induction k with
  | zero => intro o; rfl
  | succ k ih =>
    intro o
    simp only [orList, orAbove_modify heap p f hf, ih]

theorem orAt_modify (heap : Heap) (p : Nat) (f : SearchNode → SearchNode)
    (hf : ∀ x, (f x).m_parent = x.m_parent) (o : Nat) : ∀ k,
    orAt (heap.modify p f) o k = orAt heap o k := by
  intro k
  induction k with
  | zero => rfl
  | succ k ih =>
    simp only [orAt, ih]
    cases orAt heap o k with
    | none => rfl
    | some g => simp [orAbove_modify heap p f hf]

theorem orAt_succ_left (heap : Heap) (o g : Nat) (h : orAbove heap o = some g) : ∀ k,
    orAt heap o (k + 1) = orAt heap g k := by
  intro k
  induction k with
  | zero => simp [orAt, h]
  | succ k ih =>
    rw [orAt, ih]
    rfl

theorem orAbove_lt {heap : Heap} (hwf : heap.WF) {o g : Nat} (h : orAbove heap o = some g) :
    g < o := by
  unfold orAbove at h
  cases hd : heap.deref o with
  | none => simp [hd] at h
  | some orn =>
    simp only [hd] at h
    cases hp : orn.getParent with
    | none => simp [hp] at h
    | some a =>
      simp only [hp] at h
      cases hda : heap.deref a with
      | none => simp [hda] at h
      | some an =>
        simp only [hda] at h
        have h1 := (hwf.up o orn a hd hp).1
        have h2 := (hwf.up a an g hda h).1
        omega

theorem orAt_le {heap : Heap} (hup : ∀ o g, orAbove heap o = some g → g < o) (o : Nat) :
    ∀ k g, orAt heap o k = some g → g + k ≤ o := by
  intro k
  induction k with
  | zero =>
    intro g h
    simp only [orAt, Option.some.injEq] at h
    omega
  | succ k ih =>
    intro g h
    simp only [orAt] at h
    cases hk : orAt heap o k with
    | none => simp [hk] at h
    | some m =>
      simp only [hk, Option.some_bind] at h
      have := ih m hk
      have := hup m g h
      omega

theorem orAt_none_left (heap : Heap) (o : Nat) (h : orAbove heap o = none) : ∀ k,
    orAt heap o (k + 1) = none := by
  intro k
  induction k with
  | zero => simp [orAt, h]
  | succ k ih =>
    rw [orAt, ih]
    rfl

theorem markNotOpt_spec : ∀ (K fuel : Nat) (heap : Heap) (nn g : Nat),
    (∀ o g', orAbove heap o = some g' → g' < o) →
    orAt heap nn K = some g → K < fuel →
    ∃ heap1, markNotOpt g fuel heap nn = some heap1
      ∧ ∀ i, heap1.deref i
          = (heap.deref i).map (fun x => if i ∈ orList heap nn K then x.setNotOpt else x) := by
  intro K
  induction K with
  | zero =>
    intro fuel heap nn g _ hat hf
    simp only [orAt, Option.some.injEq] at hat
    subst hat
    cases fuel with
    | zero => omega
    | succ f =>
      refine ⟨heap, by simp [markNotOpt], ?_⟩
      intro i
      cases heap.deref i <;> simp [orList]
  | succ K ih =>
    intro fuel heap nn g hup hat hf
    cases hm : orAbove heap nn with
    | none => rw [orAt_none_left heap nn hm K] at hat; cases hat
    | some m =>
      rw [orAt_succ_left heap nn m hm K] at hat
      have hle := orAt_le hup m K g hat
      have hmn := hup nn m hm
      have hne : ¬ nn = g := by omega
      cases fuel with
      | zero => omega
      | succ f =>
        have hup2 : ∀ o g', orAbove (heap.modify nn (fun x => x.setNotOpt)) o = some g' →
            g' < o := by
          intro o g' h
          rw [orAbove_modify heap nn (fun x => x.setNotOpt) (fun x => rfl)] at h
          exact hup o g' h
        obtain ⟨heap1, h1, h2⟩ := ih f (heap.modify nn (fun x => x.setNotOpt)) m g hup2
          (by rw [orAt_modify heap nn (fun x => x.setNotOpt) (fun x => rfl)]; exact hat) (by omega)
        have hm2 := hm
        unfold orAbove at hm2
        cases hd : heap.deref nn with
        | none => simp [hd] at hm2
        | some nd =>
          simp only [hd] at hm2
          cases hp : nd.getParent with
          | none => simp [hp] at hm2
          | some a =>
            simp only [hp] at hm2
            cases hda : heap.deref a with
            | none => simp [hda] at hm2
            | some an =>
              simp only [hda] at hm2
              refine ⟨heap1, ?_, ?_⟩
              · simp only [markNotOpt, hne, if_false, hd, hp, hda, hm2]
                exact h1
              · intro i
                rw [h2 i, orList_modify heap nn (fun x => x.setNotOpt) (fun x => rfl), Heap.deref_update]
                simp only [orList, hm, List.mem_cons]
                by_cases hi : i = nn
                · subst hi
                  simp only [if_true, hd, Option.map_some', true_or]
                  by_cases hmem : i ∈ orList heap m K
                  · simp [hmem, SearchNode.setNotOpt]
                  · simp [hmem]
                · simp only [hi, if_false, false_or]

theorem NodeType.eq_or_of_ne_and {t : NodeType} (h : t ≠ NodeType.NODE_AND) :
    t = NodeType.NODE_OR := by
  cases t
  · exact absurd rfl h
  · rfl

theorem NodeType.eq_and_of_ne_or {t : NodeType} (h : t ≠ NodeType.NODE_OR) :
    t = NodeType.NODE_AND := by
  cases t
  · rfl
  · exact absurd rfl h

theorem ownOR_spec {heap : Heap} (hwf : heap.WF) {n : Nat} {nd : SearchNode}
    (hn : heap.deref n = some nd) :
    ∃ start sn, ownOR heap n = some start ∧ heap.deref start = some sn
      ∧ sn.m_type = NodeType.NODE_OR ∧ start ≤ n := by
  unfold ownOR
  simp only [hn, SearchNode.getType, SearchNode.getParent]
  by_cases ht : nd.m_type = NodeType.NODE_OR
  · exact ⟨n, nd, by simp [ht], hn, ht, le_refl n⟩
  · have hand := NodeType.eq_and_of_ne_or ht
    have hp := hwf.andParent n nd hn hand
    cases hpar : nd.m_parent with
    | none => simp [hpar] at hp
    | some p =>
      obtain ⟨hlt, pn, hpn, hty⟩ := hwf.up n nd p hn hpar
      rw [hand] at hty
      exact ⟨p, pn, by simp [ht], hpn, NodeType.eq_or_of_ne_and hty, by omega⟩

/-- One level up from a live OR node with a parent. -/
theorem chainStep_some {heap : Heap} (hwf : heap.WF) {o a : Nat} {orn : SearchNode}
    (ho : heap.deref o = some orn) (hty : orn.m_type = NodeType.NODE_OR)
    (hp : orn.getParent = some a) :
    ∃ an g gn, heap.deref a = some an ∧ an.getParent = some g ∧ heap.deref g = some gn
      ∧ gn.m_type = NodeType.NODE_OR ∧ g < o ∧ orAbove heap o = some g
      ∧ ∀ (sib sub : Nat → Dbl) (v : Dbl), chainStep heap sib sub (o, v)
          = some (g, ((an.childList.filterMap id).filter (fun c => decide (c ≠ o))).foldl
              (fun acc c => OP_TIMES acc (sib c))
              (OP_TIMES (OP_TIMES v an.getLabel) (sub a))) := by
  obtain ⟨hlt, an, han, hty2⟩ := hwf.up o orn a ho hp
  rw [hty] at hty2
  have hand := NodeType.eq_and_of_ne_or hty2
  have hsome := hwf.andParent a an han hand
  cases hg : an.m_parent with
  | none => simp [hg] at hsome
  | some g =>
    obtain ⟨hlt2, gn, hgn, hty3⟩ := hwf.up a an g han hg
    rw [hand] at hty3
    refine ⟨an, g, gn, han, hg, hgn, NodeType.eq_or_of_ne_and hty3, by omega, ?_, ?_⟩
    · simp only [orAbove, ho, hp, han]
      exact hg
    · intro sib sub v
      simp only [chainStep, ho, hp, han]
      have : an.getParent = some g := hg
      simp only [this]

theorem chainStep_none {heap : Heap} {o : Nat} {orn : SearchNode}
    (ho : heap.deref o = some orn) (hp : orn.getParent = none) (sib sub : Nat → Dbl) (v : Dbl) :
    chainStep heap sib sub (o, v) = none := by
  simp only [chainStep, ho, hp]

theorem chainValue_none_add (heap : Heap) (sib sub : Nat → Dbl) (init : Dbl) (n k : Nat)
    (h : chainValue heap sib sub init n k = none) : ∀ m,
    chainValue heap sib sub init n (k + m) = none := by
  intro m
  induction m with
  | zero => exact h
  | succ m ih =>
    show chainValue heap sib sub init n ((k + m) + 1) = none
    simp only [chainValue, ih, Option.none_bind]

/-- The nodes of the chain are live OR nodes, `k` levels above the OR node of `n`. -/
theorem chainValue_node {heap : Heap} (hwf : heap.WF) {n : Nat} {nd : SearchNode}
    (hn : heap.deref n = some nd) (sib sub : Nat → Dbl) (init : Dbl) :
    ∀ k o v, chainValue heap sib sub init n k = some (o, v) →
      ∃ orn start, heap.deref o = some orn ∧ orn.m_type = NodeType.NODE_OR
        ∧ ownOR heap n = some start ∧ orAt heap start k = some o := by
  obtain ⟨start, sn, hs1, hs2, hs3, _⟩ := ownOR_spec hwf hn
  intro k
  induction k with
  | zero =>
    intro o v h
    simp only [chainValue, hs1, Option.map_some', Option.some.injEq, Prod.mk.injEq] at h
    rw [← h.1]
    exact ⟨sn, start, hs2, hs3, hs1, rfl⟩
  | succ k ih =>
    intro o v h
    simp only [chainValue] at h
    cases hk : chainValue heap sib sub init n k with
    | none => simp [hk] at h
    | some x =>
      obtain ⟨o1, v1⟩ := x
      simp only [hk, Option.some_bind] at h
      obtain ⟨orn1, start1, h1, h2, h3, h4⟩ := ih o1 v1 hk
      cases hp : orn1.getParent with
      | none => rw [chainStep_none h1 hp] at h; cases h
      | some a =>
        obtain ⟨an, g, gn, _, _, hgn, hgt, _, hab, hstep⟩ := chainStep_some hwf h1 h2 hp
        rw [hstep] at h
        simp only [Option.some.injEq, Prod.mk.injEq] at h
        rw [← h.1]
        refine ⟨gn, start1, hgn, hgt, h3, ?_⟩
        simp only [orAt, h4, Option.some_bind]
        exact hab

/-- Lines 238-267: the loop climbs the levels of the partial solution tree until the
comparison succeeds or the root is reached. -/
theorem pruneLoop_spec {heap : Heap} (hwf : heap.WF) {n : Nat} {nd : SearchNode}
    (hn : heap.deref n = some nd) {start : Nat} (hstart : ownOR heap n = some start) :
    ∀ (fuel k o : Nat) (pst : Dbl), o < fuel → pstChain heap n k = some (o, pst) →
      NoPrune heap n k →
      ∃ b heap1, pruneLoop heap start fuel o pst = some (b, heap1)
        ∧ ((b = false ∧ heap1 = heap ∧ ∀ j, NoPrune heap n j)
          ∨ (b = true ∧ ∃ K o1 pst1 orn1, k < K ∧ pstChain heap n K = some (o1, pst1)
              ∧ heap.deref o1 = some orn1 ∧ Dbl.le pst1 orn1.getValue = true
              ∧ NoPrune heap n (K - 1)
              ∧ ∀ i, heap1.deref i = (heap.deref i).map
                  (fun x => if i ∈ orList heap start K then x.setNotOpt else x))) := by
  have hup : ∀ o g, orAbove heap o = some g → g < o := fun o g h => orAbove_lt hwf h
  intro fuel
  induction fuel with
  | zero => intro k o pst h; omega
  | succ fuel ih =>
    intro k o pst hof hk hno
    obtain ⟨orn, start1, ho, hty, hs, hat⟩ := chainValue_node hwf hn _ _ _ k o pst hk
    rw [hstart] at hs
    cases hs
    cases hp : orn.getParent with
    | none =>
      refine ⟨false, heap, by simp only [pruneLoop, ho, hp], Or.inl ⟨rfl, rfl, ?_⟩⟩
      intro j i hij o2 pst2 orn2 hc hd
      rcases Nat.lt_or_ge k i with hlt | hge
      · have hnone : pstChain heap n (k + 1) = none := by
          simp only [pstChain, chainValue]
          have : chainValue heap (heurOf heap) (subSolvedOf heap) (heurOf heap n) n k
              = some (o, pst) := hk
          rw [this, Option.some_bind, chainStep_none ho hp]
        have := chainValue_none_add heap _ _ _ n (k + 1) hnone (i - (k + 1))
        have he : k + 1 + (i - (k + 1)) = i := by omega
        rw [he] at this
        have hc2 : chainValue heap (heurOf heap) (subSolvedOf heap) (heurOf heap n) n i
            = some (o2, pst2) := hc
        rw [this] at hc2
        cases hc2
      · exact hno i hge o2 pst2 orn2 hc hd
    | some a =>
      obtain ⟨an, g, gn, han, hg, hgn, hgt, hgo, hab, hstep⟩ := chainStep_some hwf ho hty hp
      have hsib := pstSiblings_eq heap o an.childList
        (OP_TIMES (OP_TIMES pst an.getLabel) an.getSubSolved)
        (fun c hc => hwf.kids a an c han hc)
      have hnext : pstChain heap n (k + 1) = some (g,
          ((an.childList.filterMap id).filter (fun c => decide (c ≠ o))).foldl
            (fun acc c => OP_TIMES acc (heurOf heap c))
            (OP_TIMES (OP_TIMES pst an.getLabel) an.getSubSolved)) := by
        simp only [pstChain, chainValue]
        have : chainValue heap (heurOf heap) (subSolvedOf heap) (heurOf heap n) n k
            = some (o, pst) := hk
        rw [this, Option.some_bind, hstep]
        simp only [subSolvedOf, han]
      by_cases hle : Dbl.le (((an.childList.filterMap id).filter
          (fun c => decide (c ≠ o))).foldl (fun acc c => OP_TIMES acc (heurOf heap c))
            (OP_TIMES (OP_TIMES pst an.getLabel) an.getSubSolved)) gn.getValue = true
      · have hat2 : orAt heap start (k + 1) = some g := by
          simp only [orAt, hat, Option.some_bind]
          exact hab
        have hbound := orAt_le hup start (k + 1) g hat2
        have hsl : start < heap.length := by
          obtain ⟨s2, sn, hs1, hs2, _, _⟩ := ownOR_spec hwf hn
          rw [hstart] at hs1
          cases hs1
          exact Heap.deref_bound hs2
        obtain ⟨heap1, hm1, hm2⟩ := markNotOpt_spec (k + 1) (heap.length + 1) heap start g hup
          hat2 (by omega)
        refine ⟨true, heap1, ?_, Or.inr ⟨rfl, k + 1, g, _, gn, by omega, hnext, hgn, hle,
          by simpa using hno, hm2⟩⟩
        simp only [pruneLoop, ho, hp, han, hsib, hg, hgn, hle, if_true, hm1]
      · have hno2 : NoPrune heap n (k + 1) := by
          intro j hj o2 pst2 orn2 hc hd
          rcases Nat.lt_or_ge j (k + 1) with hlt | hge
          · exact hno j (by omega) o2 pst2 orn2 hc hd
          · have hje : j = k + 1 := by omega
            subst hje
            rw [hnext] at hc
            simp only [Option.some.injEq, Prod.mk.injEq] at hc
            obtain ⟨e1, e2⟩ := hc
            subst e1
            rw [hgn] at hd
            cases hd
            rw [← e2]
            simpa using hle
        obtain ⟨b, heap1, hr, hres⟩ := ih (k + 1) g _ (by omega) hnext hno2
        refine ⟨b, heap1, ?_, ?_⟩
        · simp only [pruneLoop, ho, hp, han, hsib, hg, hgn, hle]
          exact hr
        · rcases hres with h1 | ⟨hb, K, o1, pst1, orn1, hK, h2⟩
          · exact Or.inl h1
          · exact Or.inr ⟨hb, K, o1, pst1, orn1, by omega, h2⟩

/-- `canBePruned` returns, and what it returns and marks is decided by the first level of
the partial solution tree at which the comparison succeeds. -/
theorem canBePruned_spec {heap : Heap} (hwf : heap.WF) {n : Nat} {nd : SearchNode}
    (hn : heap.deref n = some nd) :
    ∃ b heap1, canBePruned heap n = some (b, heap1)
      ∧ (nd.getDepth < 0 → b = false ∧ heap1 = heap)
      ∧ (0 ≤ nd.getDepth → nd.getHeur = ELEM_ZERO → b = true ∧ heap1 = heap)
      ∧ (0 ≤ nd.getDepth → nd.getHeur ≠ ELEM_ZERO →
          (b = false ∧ heap1 = heap ∧ ∀ j, NoPrune heap n j)
          ∨ (b = true ∧ ∃ start K o1 pst1 orn1, ownOR heap n = some start
              ∧ pstChain heap n K = some (o1, pst1)
              ∧ heap.deref o1 = some orn1 ∧ Dbl.le pst1 orn1.getValue = true
              ∧ (∀ j, j < K → NoPrune heap n j)
              ∧ ∀ i, heap1.deref i = (heap.deref i).map
                  (fun x => if i ∈ orList heap start K then x.setNotOpt else x))) := by
  obtain ⟨start, sn, hs1, hs2, hs3, hs4⟩ := ownOR_spec hwf hn
  have hs1b : (if nd.getType = NodeType.NODE_OR then some n else nd.getParent) = some start := by
    simpa [ownOR, hn] using hs1
  have h0 : pstChain heap n 0 = some (start, nd.getHeur) := by
    simp [pstChain, chainValue, hs1, heurOf, hn]
  by_cases hdep : nd.getDepth < 0
  · refine ⟨false, heap, by simp [canBePruned, hn, hdep], fun _ => ⟨rfl, rfl⟩, ?_, ?_⟩
    · intro h; omega
    · intro h; omega
  · by_cases hz : nd.getHeur = ELEM_ZERO
    · refine ⟨true, heap, ?_, fun h => absurd h hdep, fun _ _ => ⟨rfl, rfl⟩,
        fun _ h => absurd hz h⟩
      have := (Dbl.eq_zero_iff nd.getHeur).2 hz
      simp [canBePruned, hn, hdep, this]
    · have hz2 : ¬ Dbl.eq nd.getHeur ELEM_ZERO = true :=
        fun h => hz ((Dbl.eq_zero_iff nd.getHeur).1 h)
      by_cases hle : Dbl.le nd.getHeur sn.getValue = true
      · refine ⟨true, heap, ?_, fun h => absurd h hdep, fun _ h => absurd h hz, ?_⟩
        · simp [canBePruned, hn, hdep, hz2, hs1b, hs2, hle]
        · intro _ _
          refine Or.inr ⟨rfl, start, 0, start, nd.getHeur, sn, hs1, h0, hs2, hle, ?_, ?_⟩
          · intro j hj; omega
          · intro i
            cases heap.deref i <;> simp [orList]
      · have hno : NoPrune heap n 0 := by
          intro j hj o pst orn hc hd
          have hj0 : j = 0 := by omega
          subst hj0
          rw [h0] at hc
          simp only [Option.some.injEq, Prod.mk.injEq] at hc
          obtain ⟨e1, e2⟩ := hc
          subst e1
          rw [hs2] at hd
          cases hd
          rw [← e2]
          simpa using hle
        obtain ⟨b, heap1, hr, hres⟩ := pruneLoop_spec hwf hn hs1 (heap.length + 1) 0 start
          nd.getHeur (by have := Heap.deref_bound hs2; omega) h0 hno
        refine ⟨b, heap1, ?_, fun h => absurd h hdep, fun _ h => absurd h hz, ?_⟩
        · simp only [canBePruned, hn, hdep, if_false, hz2, hs1b, hs2, hle]
          simpa using hr
        · intro _ _
          rcases hres with h1 | ⟨hb, K, o1, pst1, orn1, hK, h2, h3, h4, h5, h6⟩
          · exact Or.inl h1
          · refine Or.inr ⟨hb, start, K, o1, pst1, orn1, hs1, h2, h3, h4, ?_, h6⟩
            intro j hj i hi
            exact h5 i (by omega)

theorem Heap.wf_of_test {heap : Heap} (h : heap.check = true) : heap.WF := by
  have hall : ∀ i nd, heap.deref i = some nd → heap.checkNode i = true := by
    intro i nd hd
    have := List.all_eq_true.1 h i (List.mem_range.2 (Heap.deref_bound hd))
    exact this
  refine ⟨?_, ?_, ?_⟩
  · intro i nd p hd hp
    have := hall i nd hd
    simp only [Heap.checkNode, hd, hp, Bool.and_eq_true, decide_eq_true_eq] at this
    obtain ⟨⟨h1, h2⟩, _⟩ := this
    cases hdp : heap.deref p with
    | none => simp [hdp] at h2
    | some pn =>
      simp only [hdp, decide_eq_true_eq] at h2
      exact ⟨h1, pn, rfl, h2⟩
  · intro i nd hd ht
    have := hall i nd hd
    simp only [Heap.checkNode, hd, Bool.and_eq_true] at this
    cases hp : nd.m_parent with
    | none =>
      simp only [hp, decide_eq_true_eq] at this
      exact absurd ht this.1
    | some p => rfl
  · intro i nd c hd hc
    have := hall i nd hd
    simp only [Heap.checkNode, hd, Bool.and_eq_true, List.all_eq_true] at this
    exact this.2 (some c) hc

theorem orList_mem (heap : Heap) : ∀ (K o i : Nat), i ∈ orList heap o K →
    ∃ j, j < K ∧ orAt heap o j = some i := by
  intro K
  induction K with
  | zero => intro o i h; simp [orList] at h
  | succ K ih =>
    intro o i h
    simp only [orList] at h
    cases hm : orAbove heap o with
    | none =>
      simp only [hm, List.mem_singleton] at h
      exact ⟨0, by omega, by simp [orAt, h]⟩
    | some g =>
      simp only [hm, List.mem_cons] at h
      rcases h with h | h
      · exact ⟨0, by omega, by simp [orAt, h]⟩
      · obtain ⟨j, hj, hat⟩ := ih g i h
        exact ⟨j + 1, by omega, by rw [orAt_succ_left heap o g hm]; exact hat⟩

theorem Dbl.le_refl_of_log {x : Dbl} (h : x.IsLog) : Dbl.le x x = true := by
  rcases h with h | ⟨a, h⟩ <;> subst h <;> simp [Dbl.le]

theorem foldl_isLog_init (g : Nat → Dbl) : ∀ (L : List Nat) (b : Dbl),
    (L.foldl (fun acc c => OP_TIMES acc (g c)) b).IsLog → b.IsLog := by
  intro L
  induction L with
  | nil => intro b h; exact h
  | cons c L ih => intro b h; exact (Dbl.IsLog.of_add (ih _ h)).1

theorem foldl_times_mono (f g : Nat → Dbl) : ∀ (L : List Nat) (a b : Dbl),
    Dbl.le a b = true → (L.foldl (fun acc c => OP_TIMES acc (g c)) b).IsLog →
    (∀ c ∈ L, Dbl.le (f c) (g c) = true) →
    Dbl.le (L.foldl (fun acc c => OP_TIMES acc (f c)) a)
        (L.foldl (fun acc c => OP_TIMES acc (g c)) b) = true := by
  intro L
  induction L with
  | nil => intro a b h _ _; exact h
  | cons c L ih =>
    intro a b h hfin hall
    have hstep : (OP_TIMES b (g c)).IsLog := foldl_isLog_init g L _ hfin
    obtain ⟨hb, hg⟩ := Dbl.IsLog.of_add hstep
    exact ih _ _ (Dbl.add_mono hb hg h (hall c (List.mem_cons_self _ _))) hfin
      (fun x hx => hall x (List.mem_cons_of_mem _ hx))

/-- The value of the partial solution tree bounds the best value through the node at every
level at which it is a log value, when the heuristics bound the values they stand for;
both are combined by the sum of `double` in the order of `canBePruned`. -/
theorem chain_upper {heap : Heap} (hwf : heap.WF) {n : Nat} {nd : SearchNode}
    (hn : heap.deref n = some nd) (opt solved : Nat → Dbl)
    (below : Dbl) (hbelow : Dbl.le below nd.getHeur = true)
    (hsib : ∀ k o pst orn a an c, pstChain heap n k = some (o, pst) →
      heap.deref o = some orn → orn.getParent = some a → heap.deref a = some an →
      some c ∈ an.childList → c ≠ o → Dbl.le (opt c) (heurOf heap c) = true)
    (hsolved : ∀ k o pst orn a an, pstChain heap n k = some (o, pst) →
      heap.deref o = some orn → orn.getParent = some a → heap.deref a = some an →
      an.getSubSolved = solved a) :
    ∀ k o pst, pstChain heap n k = some (o, pst) → pst.IsLog →
      ∃ best, bestThrough heap opt solved below n k = some (o, best)
        ∧ Dbl.le best pst = true := by
  intro k
  induction k with
  | zero =>
    intro o pst h _
    obtain ⟨start, sn, hs1, _⟩ := ownOR_spec hwf hn
    simp only [pstChain, chainValue, hs1, Option.map_some', Option.some.injEq,
      Prod.mk.injEq, heurOf, hn] at h
    obtain ⟨e1, e2⟩ := h
    subst e1
    subst e2
    exact ⟨below, by simp [bestThrough, chainValue, hs1], hbelow⟩
  | succ k ih =>
    intro o pst h hpst
    have h' : (chainValue heap (heurOf heap) (subSolvedOf heap) (heurOf heap n) n k).bind
        (chainStep heap (heurOf heap) (subSolvedOf heap)) = some (o, pst) := h
    cases hk : chainValue heap (heurOf heap) (subSolvedOf heap) (heurOf heap n) n k with
    | none => simp [hk] at h'
    | some x =>
      obtain ⟨o1, pst1⟩ := x
      rw [hk, Option.some_bind] at h'
      obtain ⟨orn1, start, ho1, hty1, _, _⟩ := chainValue_node hwf hn _ _ _ k o1 pst1 hk
      cases hp : orn1.getParent with
      | none => rw [chainStep_none ho1 hp] at h'; cases h'
      | some a =>
        obtain ⟨an, g, gn, han, _, _, _, _, _, hstep⟩ := chainStep_some hwf ho1 hty1 hp
        rw [hstep] at h'
        simp only [Option.some.injEq, Prod.mk.injEq] at h'
        obtain ⟨e1, e2⟩ := h'
        subst e1
        rw [← e2] at hpst
        have hinit := foldl_isLog_init (heurOf heap) _ _ hpst
        obtain ⟨hpl, hsubl⟩ := Dbl.IsLog.of_add hinit
        obtain ⟨hlog1, hlabl⟩ := Dbl.IsLog.of_add hpl
        obtain ⟨best1, hb1, hle1⟩ := ih o1 pst1 hk hlog1
        have m1 := Dbl.add_mono hlog1 hlabl hle1 (Dbl.le_refl_of_log hlabl)
        have hsub : subSolvedOf heap a = an.getSubSolved := by simp [subSolvedOf, han]
        have hsol := hsolved k o1 pst1 orn1 a an hk ho1 hp han
        have m3 := Dbl.add_mono hpl hsubl m1 (Dbl.le_refl_of_log hsubl)
        have hfold := foldl_times_mono opt (heurOf heap)
          ((an.childList.filterMap id).filter (fun c => decide (c ≠ o1)))
          (OP_TIMES (OP_TIMES best1 an.getLabel) (solved a))
          (OP_TIMES (OP_TIMES pst1 an.getLabel) (subSolvedOf heap a))
          (by rw [← hsol, ← hsub]; exact m3) hpst
          (by
            intro c hc
            simp only [List.mem_filter, List.mem_filterMap, id, decide_eq_true_eq] at hc
            obtain ⟨⟨x, hx, hxc⟩, hne⟩ := hc
            subst hxc
            exact hsib k o1 pst1 orn1 a an c hk ho1 hp han hx hne)
        rw [e2] at hfold
        refine ⟨_, ?_, hfold⟩
        have hb1' : chainValue heap opt solved below n k = some (o1, best1) := hb1
        simp only [bestThrough, chainValue, hb1', Option.some_bind, hstep]

theorem pruneExample_log : pruneExample.LogValued := by
  intro c cn h
  have hc : c < 4 := Heap.deref_bound h
  interval_cases c <;> simp [pruneExample, Heap.deref] at h <;> subst h <;>
    simp [SearchNode.getHeur, SearchNode.getLabel, SearchNode.getSubSolved, SearchNode.setHeur,
      SearchNode.addChildren, SearchNode.setValue, SearchNode.newOR, SearchNode.newAND,
      Dbl.IsLog, ELEM_ONE]

theorem le_ninf_heurOf {heap : Heap} (hwf : heap.WF) (hlog : heap.LogValued) {a c : Nat}
    {an : SearchNode} (ha : heap.deref a = some an) (hc : some c ∈ an.childList) :
    Dbl.le Dbl.ninf (heurOf heap c) = true := by
  have hlive := hwf.kids a an c ha hc
  cases hdc : heap.deref c with
  | none => simp [hdc] at hlive
  | some cn =>
    simp only [heurOf, hdc]
    rcases (hlog c cn hdc).1 with h | ⟨x, h⟩ <;> rw [h] <;> rfl

/-! ## The cache signature and the cache lookup -/

theorem cacheSignature_eq (assignment : List Int) : ∀ (ctxt : List Nat) (sig : List Int),
    (∀ c ∈ ctxt, c < assignment.length) →
    cacheSignature assignment ctxt sig
      = some (sig ++ ctxt.map (fun c => assignment.getD c NONE)) := by
  intro ctxt
  induction ctxt with
  | nil => intro sig _; simp [cacheSignature]
  | cons c rest ih =>
    intro sig h
    have hc := h c (List.mem_cons_self _ _)
    have hget : assignment[c]? = some (assignment.getD c NONE) := by
      rw [List.getD_eq_getElem?_getD, List.getElem?_eq_getElem hc]
      rfl
    simp only [cacheSignature, hget]
    rw [ih _ (fun x hx => h x (List.mem_cons_of_mem _ hx))]
    simp

theorem addCacheContext_eq (s : Search) (node : Nat) (ctxt : List Nat) (nd : SearchNode)
    (hn : s.heap.deref node = some nd) (hctx : ∀ c ∈ ctxt, c < s.m_assignment.length) :
    s.addCacheContext node ctxt
      = some { s with
          heap := s.heap.modify node
                    (fun x => x.setCacheContext
                      (ctxt.map (fun c => s.m_assignment.getD c NONE))) } := by
  simp only [Search.addCacheContext, cacheSignature_eq s.m_assignment ctxt [] hctx, hn,
    List.nil_append]

/-! ## The costs of an OR node -/

theorem Dbl.lt_facts {a b : Dbl} (h : Dbl.lt a b = true) :
    a.isNaN = false ∧ b.isNaN = false ∧ Dbl.le a b = true := by
  cases a <;> cases b <;> simp_all [Dbl.lt, Dbl.le, Dbl.isNaN]
  omega

theorem Dbl.le_of_not_lt {a b : Dbl} (ha : a.isNaN = false) (hb : b.isNaN = false)
    (h : Dbl.lt a b = false) : Dbl.le b a = true := by
  cases a <;> cases b <;> simp_all [Dbl.lt, Dbl.le, Dbl.isNaN]

theorem Dbl.le_refl_of_not_nan {a : Dbl} (ha : a.isNaN = false) : Dbl.le a a = true := by
  cases a <;> simp_all [Dbl.le, Dbl.isNaN]

/-- The fold of `std::max` from a value that is no NaN gives the largest of the values that
are no NaN, the start among them. -/
theorem max_fold (f : Nat → Dbl) : ∀ (L : List Nat) (h0 : Dbl), h0.isNaN = false →
    (L.foldl (fun h i => Dbl.max h (f i)) h0).isNaN = false
      ∧ Dbl.le h0 (L.foldl (fun h i => Dbl.max h (f i)) h0) = true
      ∧ (∀ i ∈ L, (f i).isNaN = false →
          Dbl.le (f i) (L.foldl (fun h i => Dbl.max h (f i)) h0) = true)
      ∧ (L.foldl (fun h i => Dbl.max h (f i)) h0 = h0
          ∨ ∃ i ∈ L, f i = L.foldl (fun h i => Dbl.max h (f i)) h0) := by
  intro L
  induction L with
  | nil =>
    intro h0 hn
    exact ⟨hn, Dbl.le_refl_of_not_nan hn, fun i hi => by simp at hi, Or.inl rfl⟩
  | cons i L ih =>
    intro h0 hn
    simp only [List.foldl_cons]
    have hstep : (Dbl.max h0 (f i)).isNaN = false ∧ Dbl.le h0 (Dbl.max h0 (f i)) = true
        ∧ ((f i).isNaN = false → Dbl.le (f i) (Dbl.max h0 (f i)) = true)
        ∧ (Dbl.max h0 (f i) = h0 ∨ Dbl.max h0 (f i) = f i) := by
      unfold Dbl.max
      cases hlt : Dbl.lt h0 (f i) with
      | true =>
        obtain ⟨_, h2, h3⟩ := Dbl.lt_facts hlt
        simp only [if_true]
        exact ⟨h2, h3, fun _ => Dbl.le_refl_of_not_nan h2, Or.inr trivial⟩
      | false =>
        simp only [Bool.false_eq_true, if_false]
        exact ⟨hn, Dbl.le_refl_of_not_nan hn, fun hx => Dbl.le_of_not_lt hn hx hlt, Or.inl trivial⟩
    obtain ⟨s1, s2, s3, s4⟩ := hstep
    obtain ⟨r1, r2, r3, r4⟩ := ih (Dbl.max h0 (f i)) s1
    refine ⟨r1, Dbl.le_trans s2 r2, ?_, ?_⟩
    · intro j hj hx
      rcases List.mem_cons.1 hj with e | hj2
      · subst e
        exact Dbl.le_trans (s3 hx) r2
      · exact r3 j hj2 hx
    · rcases r4 with e | ⟨j, hj, e⟩
      · rcases s4 with e2 | e2
        · left; rw [e, e2]
        · right; exact ⟨i, List.mem_cons_self _ _, by rw [e, e2]⟩
      · right; exact ⟨j, List.mem_cons_of_mem _ hj, e⟩

theorem copyCosts_spec (cost : List Dbl) (off : Nat) :
    ∀ (L : List Nat) (dv : List Dbl),
      (∀ i ∈ L, i < cost.length ∧ 2 * i + off < dv.length) →
      ∃ dv1, copyCosts cost off L dv = some dv1 ∧ dv1.length = dv.length
        ∧ (∀ i ∈ L, dv1[2 * i + off]? = cost[i]?)
        ∧ (∀ j, (∀ i ∈ L, 2 * i + off ≠ j) → dv1[j]? = dv[j]?) := by
  intro L
  induction L with
  | nil =>
    intro dv _
    exact ⟨dv, rfl, rfl, fun i hi => by simp at hi, fun j _ => rfl⟩
  | cons i L ih =>
    intro dv h
    obtain ⟨h1, h2⟩ := h i (List.mem_cons_self _ _)
    have hget : cost[i]? = some cost[i] := List.getElem?_eq_getElem h1
    obtain ⟨dv1, e1, e2, e3, e4⟩ := ih (dv.set (2 * i + off) cost[i])
      (fun k hk => by
        have := h k (List.mem_cons_of_mem _ hk)
        simpa using this)
    refine ⟨dv1, by simp only [copyCosts, hget]; exact e1, by simpa using e2, ?_, ?_⟩
    · intro k hk
      rcases List.mem_cons.1 hk with e | hk2
      · subst e
        by_cases hex : ∃ k2 ∈ L, 2 * k2 + off = 2 * k + off
        · obtain ⟨k2, hk2, he⟩ := hex
          have : k2 = k := by omega
          subst this
          exact e3 k2 hk2
        · rw [e4 _ (fun k2 hk2 he => hex ⟨k2, hk2, he⟩), hget]
          simp [List.getElem?_set, h2]
      · exact e3 k hk2
    · intro j hj
      rw [e4 j (fun k hk => hj k (List.mem_cons_of_mem _ hk))]
      have := hj i (List.mem_cons_self _ _)
      simp [List.getElem?_set, this]

theorem combineCosts_spec : ∀ (L : List Nat) (dv : List Dbl) (h : Dbl), L.Nodup →
    (∀ i ∈ L, 2 * i + 1 < dv.length) →
    (combineCosts L dv h).1.length = dv.length
      ∧ (∀ i ∈ L, (combineCosts L dv h).1[2 * i]?
          = some (OP_TIMES (dv.getD (2 * i + 1) ELEM_NAN) (dv.getD (2 * i) ELEM_NAN)))
      ∧ (∀ j, (∀ i ∈ L, 2 * i ≠ j) → (combineCosts L dv h).1[j]? = dv[j]?)
      ∧ (combineCosts L dv h).2 = L.foldl (fun h i => Dbl.max h
          (OP_TIMES (dv.getD (2 * i + 1) ELEM_NAN) (dv.getD (2 * i) ELEM_NAN))) h := by
  intro L
  induction L with
  | nil =>
    intro dv h _ _
    exact ⟨rfl, fun i hi => by simp at hi, fun j _ => rfl, rfl⟩
  | cons i L ih =>
    intro dv h hnd hlen
    obtain ⟨hi, hnd2⟩ := List.nodup_cons.1 hnd
    have hl := hlen i (List.mem_cons_self _ _)
    obtain ⟨e1, e2, e3, e4⟩ := ih
      (dv.set (2 * i) (OP_TIMES (dv.getD (2 * i + 1) ELEM_NAN) (dv.getD (2 * i) ELEM_NAN)))
      (Dbl.max h (OP_TIMES (dv.getD (2 * i + 1) ELEM_NAN) (dv.getD (2 * i) ELEM_NAN))) hnd2
      (fun k hk => by
        have := hlen k (List.mem_cons_of_mem _ hk)
        simpa using this)
    have hsame : ∀ k ∈ L, OP_TIMES
        ((dv.set (2 * i) (OP_TIMES (dv.getD (2 * i + 1) ELEM_NAN)
          (dv.getD (2 * i) ELEM_NAN))).getD (2 * k + 1) ELEM_NAN)
        ((dv.set (2 * i) (OP_TIMES (dv.getD (2 * i + 1) ELEM_NAN)
          (dv.getD (2 * i) ELEM_NAN))).getD (2 * k) ELEM_NAN)
        = OP_TIMES (dv.getD (2 * k + 1) ELEM_NAN) (dv.getD (2 * k) ELEM_NAN) := by
      intro k hk
      have hki : k ≠ i := fun e => hi (e ▸ hk)
      have h1 : 2 * i ≠ 2 * k + 1 := by omega
      have h2 : 2 * i ≠ 2 * k := by omega
      simp only [List.getD_eq_getElem?_getD, List.getElem?_set, h1, h2, if_false]
    simp only [combineCosts]
    refine ⟨by simpa using e1, ?_, ?_, ?_⟩
    · intro k hk
      rcases List.mem_cons.1 hk with e | hk2
      · subst e
        have hno : ∀ k2 ∈ L, 2 * k2 ≠ 2 * k := by
          intro k2 hk2 he
          have hkk : k2 = k := by omega
          exact hi (hkk ▸ hk2)
        rw [e3 _ hno]
        have : 2 * k < dv.length := by omega
        simp [List.getElem?_set, this]
      · rw [e2 k hk2, hsame k hk2]
    · intro j hj
      rw [e3 j (fun k hk => hj k (List.mem_cons_of_mem _ hk))]
      have := hj i (List.mem_cons_self _ _)
      simp [List.getElem?_set, this]
    · rw [e4, List.foldl_cons]
      apply List.foldl_ext
      intro a k hk
      rw [hsame k hk]

theorem foldl_set_len (x : Dbl) (g : Nat → Nat) : ∀ (L : List Nat) (dv : List Dbl),
    (L.foldl (fun dv i => dv.set (g i) x) dv).length = dv.length := by
  intro L
  induction L with
  | nil => intro dv; rfl
  | cons i L ih =>
    intro dv
    simp only [List.foldl_cons, ih, List.length_set]

/-- Lines 464-490: the array of the costs and the value `h` that `assignCostsOR` computes
from the vectors of the heuristic. -/
theorem orCosts_spec (hr : Heuristic) (domains : List Int) (assignment : List Int)
    (v n d : Nat) (hd : domains[v]? = some (d : Int))
    (hH : d ≤ (hr.getHeurAll v assignment n (List.replicate d ELEM_ONE)).length)
    (hL : d ≤ (hr.getLabelAll v assignment n (List.replicate d ELEM_ONE)).length) :
    ∃ dv h, orCosts hr domains assignment v n
        = some (dv, h, hr.getLabelAll v assignment n (List.replicate d ELEM_ONE))
      ∧ dv.length = 2 * d
      ∧ (∀ i, i < d →
          dv[2 * i + 1]? = (hr.getLabelAll v assignment n (List.replicate d ELEM_ONE))[i]?
          ∧ dv[2 * i]? = some (OP_TIMES
              ((hr.getLabelAll v assignment n (List.replicate d ELEM_ONE)).getD i ELEM_NAN)
              ((hr.getHeurAll v assignment n (List.replicate d ELEM_ONE)).getD i ELEM_NAN)))
      ∧ h = (List.range d).foldl (fun h i => Dbl.max h (OP_TIMES
              ((hr.getLabelAll v assignment n (List.replicate d ELEM_ONE)).getD i ELEM_NAN)
              ((hr.getHeurAll v assignment n (List.replicate d ELEM_ONE)).getD i ELEM_NAN)))
            ELEM_ZERO := by
  have hlen0 : ((List.range d).foldl (fun dv i => dv.set (2 * i + 1) ELEM_ONE)
      (List.replicate (2 * d) ELEM_NAN)).length = 2 * d := by
    rw [foldl_set_len ELEM_ONE (fun i => 2 * i + 1)]
    simp
  obtain ⟨dv1, c1, l1, a1, b1⟩ := copyCosts_spec
    (hr.getHeurAll v assignment n (List.replicate d ELEM_ONE)) 0 (List.range d)
    ((List.range d).foldl (fun dv i => dv.set (2 * i + 1) ELEM_ONE)
      (List.replicate (2 * d) ELEM_NAN))
    (fun i hi => by
      have := List.mem_range.1 hi
      rw [hlen0]
      omega)
  obtain ⟨dv2, c2, l2, a2, b2⟩ := copyCosts_spec
    (hr.getLabelAll v assignment n (List.replicate d ELEM_ONE)) 1 (List.range d) dv1
    (fun i hi => by
      have := List.mem_range.1 hi
      rw [l1, hlen0]
      omega)
  have hdv2 : dv2.length = 2 * d := by rw [l2, l1, hlen0]
  obtain ⟨m1, m2, m3, m4⟩ := combineCosts_spec (List.range d) dv2 ELEM_ZERO
    (List.nodup_range d) (fun i hi => by
      have := List.mem_range.1 hi
      rw [hdv2]
      omega)
  have hodd : ∀ i, i < d → dv2.getD (2 * i + 1) ELEM_NAN
      = (hr.getLabelAll v assignment n (List.replicate d ELEM_ONE)).getD i ELEM_NAN := by
    intro i hi
    simp only [List.getD_eq_getElem?_getD]
    have := a2 i (List.mem_range.2 hi)
    simp only at this
    rw [this]
  have heven : ∀ i, i < d → dv2.getD (2 * i) ELEM_NAN
      = (hr.getHeurAll v assignment n (List.replicate d ELEM_ONE)).getD i ELEM_NAN := by
    intro i hi
    simp only [List.getD_eq_getElem?_getD]
    rw [b2 (2 * i) (fun k _ => by omega)]
    have := a1 i (List.mem_range.2 hi)
    simp only [Nat.add_zero] at this
    rw [this]
  refine ⟨(combineCosts (List.range d) dv2 ELEM_ZERO).1,
    (combineCosts (List.range d) dv2 ELEM_ZERO).2, ?_, by rw [m1, hdv2], ?_, ?_⟩
  · have hnn : ¬ ((d : Int) < 0) := by omega
    simp only [orCosts, hd, hnn, if_false, Int.toNat_ofNat, c1, c2]
  · intro i hi
    constructor
    · rw [m3 (2 * i + 1) (fun k _ => by omega)]
      exact a2 i (List.mem_range.2 hi)
    · rw [m2 i (List.mem_range.2 hi), hodd i hi, heven i hi]
  · rw [m4]
    apply List.foldl_ext
    intro a i hi
    have := List.mem_range.1 hi
    rw [hodd i this, heven i this]

theorem assignCostsOR_eq (hr : Heuristic) (s : Search) (n : Nat) (nd : SearchNode)
    (dv : List Dbl) (h : Dbl) (cost : List Dbl) (hn : s.heap.deref n = some nd)
    (he : orCosts hr s.m_domains s.m_assignment nd.getVar n = some (dv, h, cost)) :
    s.assignCostsOR hr n
      = some (h, { s with m_costTmp := cost,
                          heap := s.heap.modify n (fun x => (x.setHeur h).setHeurCache dv) }) := by
  simp only [Search.assignCostsOR, hn, he]

/-! ## The expansion of an OR node -/

theorem bump_some (v : List Nat) (i : Int) (k : Nat) (h : 0 ≤ i ∧ i.toNat < v.length) :
    ∃ w, bump v i k = some w ∧ w.length = v.length := by
  refine ⟨v.set i.toNat (v.getD i.toNat 0 + k), by simp [bump, h], by simp⟩

/-- Lines 313-341: when the costs of every new OR node can be computed and no heuristic is
`ELEM_ZERO`, the loop over the children of the pseudo tree node creates one OR node for
every child, in the order of the list, each with its heuristic and its costs. -/
theorem andChildren_spec (hr : Heuristic) (n : Nat) (depth : Int) :
    ∀ (L : List Nat) (s : Search) (chi : List Nat),
      (∀ (j c : Nat), L[j]? = some c → ∃ pcn dv h cost,
          s.m_pseudotree.getNode c = some pcn
          ∧ orCosts hr s.m_domains s.m_assignment pcn.m_var (s.heap.length + j)
              = some (dv, h, cost)
          ∧ Dbl.eq h ELEM_ZERO = false) →
      ∃ s1, Search.andChildren hr n depth L s chi
          = some (false, s1, chi ++ (List.range L.length).map (· + s.heap.length))
        ∧ s1.heap.length = s.heap.length + L.length
        ∧ (∀ k, k < s.heap.length → s1.heap.deref k = s.heap.deref k)
        ∧ (∀ (j c : Nat), L[j]? = some c → ∃ pcn dv h cost,
            s.m_pseudotree.getNode c = some pcn
            ∧ orCosts hr s.m_domains s.m_assignment pcn.m_var (s.heap.length + j)
                = some (dv, h, cost)
            ∧ s1.heap.deref (s.heap.length + j)
                = some (((SearchNode.newOR (some n) pcn.m_var (depth + 1)).setHeur
                    h).setHeurCache dv))
        ∧ s1.m_pseudotree = s.m_pseudotree ∧ s1.m_domains = s.m_domains
        ∧ s1.m_assignment = s.m_assignment ∧ s1.m_leafProfile = s.m_leafProfile
        ∧ s1.subprobOrder = s.subprobOrder ∧ s1.stats = s.stats
        ∧ s1.m_nodeProfile = s.m_nodeProfile := by
  intro L
  induction L with
  | nil =>
    intro s chi _
    refine ⟨s, by simp [Search.andChildren], by simp, fun _ _ => rfl, ?_, rfl, rfl, rfl, rfl,
      rfl, rfl, rfl⟩
    intro j c h
    simp at h
  | cons c L ih =>
    intro s chi hyp
    obtain ⟨pcn, dv, h, cost, hpc, hcost, hz⟩ := hyp 0 c (by simp)
    rw [Nat.add_zero] at hcost
    obtain ⟨hp0, hhp0⟩ : ∃ hp0 : Heap, hp0 = s.heap ++
        [some (SearchNode.newOR (some n) pcn.m_var (depth + 1))] := ⟨_, rfl⟩
    obtain ⟨s0, hs0⟩ : ∃ s0 : Search, s0 = { s with heap := hp0 } := ⟨_, rfl⟩
    have hd0 : s0.heap.deref s.heap.length
        = some (SearchNode.newOR (some n) pcn.m_var (depth + 1)) := by
      rw [hs0, hhp0]
      show Heap.deref (s.heap ++ [_]) _ = _
      rw [Heap.deref_push, if_neg (by omega), if_pos rfl]
    have hass := assignCostsOR_eq hr s0 s.heap.length _ dv h cost hd0
      (by rw [hs0]; exact hcost)
    obtain ⟨hp2, hhp2⟩ : ∃ hp2 : Heap, hp2 = s0.heap.modify s.heap.length
        (fun x => (x.setHeur h).setHeurCache dv) := ⟨_, rfl⟩
    obtain ⟨s2, hs2⟩ : ∃ s2 : Search, s2 = { s0 with m_costTmp := cost, heap := hp2 } :=
      ⟨_, rfl⟩
    rw [← hhp2] at hass
    rw [← hs2] at hass
    have hl2 : s2.heap.length = s.heap.length + 1 := by
      rw [hs2, hhp2]
      show (Heap.modify _ _ _).length = _
      rw [Heap.length_update, hs0, hhp0]
      simp
    have hpt2 : s2.m_pseudotree = s.m_pseudotree := by rw [hs2, hs0]
    have hdm2 : s2.m_domains = s.m_domains := by rw [hs2, hs0]
    have has2 : s2.m_assignment = s.m_assignment := by rw [hs2, hs0]
    have hder2 : ∀ k, s2.heap.deref k = if k = s.heap.length
        then some (((SearchNode.newOR (some n) pcn.m_var (depth + 1)).setHeur
          h).setHeurCache dv) else s.heap.deref k := by
      intro k
      rw [hs2, hhp2]
      show Heap.deref (Heap.modify _ _ _) _ = _
      rw [Heap.deref_update, hd0]
      by_cases hk : k = s.heap.length
      · rw [if_pos hk, if_pos hk]; rfl
      · rw [if_neg hk, if_neg hk, hs0, hhp0]
        show Heap.deref (s.heap ++ [_]) _ = _
        rw [Heap.deref_push]
        by_cases hk2 : k < s.heap.length
        · rw [if_pos hk2]
        · rw [if_neg hk2, if_neg hk]
          unfold Heap.deref
          rw [List.getD_eq_getElem?_getD, List.getElem?_eq_none (by omega)]
          rfl
    obtain ⟨s1, e1, e2, e3, e4, e5, e6, e7, e8, e9, e10, e11⟩ := ih s2 (chi ++ [s.heap.length])
      (by
        intro j c2 hj
        obtain ⟨pcn2, dv2, h2, cost2, a1, a2, a3⟩ := hyp (j + 1) c2 (by simpa using hj)
        refine ⟨pcn2, dv2, h2, cost2, by rw [hpt2]; exact a1, ?_, a3⟩
        rw [hdm2, has2, hl2, Nat.add_assoc, Nat.add_comm 1 j]
        exact a2)
    refine ⟨s1, ?_, by rw [e2, hl2]; simp only [List.length_cons]; omega, ?_, ?_,
      e5.trans hpt2, e6.trans hdm2, e7.trans has2, by rw [e8, hs2, hs0],
      by rw [e9, hs2, hs0], by rw [e10, hs2, hs0], by rw [e11, hs2, hs0]⟩
    · rw [Search.andChildren]
      simp only [hpc]
      rw [← hhp0, ← hs0, hass]
      simp only [hz, Bool.false_eq_true, if_false]
      rw [e1, hl2]
      simp only [List.length_cons, List.append_assoc, List.singleton_append, Option.some.injEq,
        Prod.mk.injEq, true_and, List.append_cancel_left_eq]
      rw [List.range_succ_eq_map, List.map_cons, List.map_map]
      simp only [Nat.zero_add, List.cons.injEq, true_and]
      apply List.map_congr_left
      intro x _
      show x + (s.heap.length + 1) = x + 1 + s.heap.length
      omega
    · intro k hk
      rw [e3 k (by omega), hder2, if_neg (by omega)]
    · intro j c2 hj
      cases j with
      | zero =>
        have hc : c2 = c := by simpa using hj.symm
        subst hc
        refine ⟨pcn, dv, h, cost, hpc, by rw [Nat.add_zero]; exact hcost, ?_⟩
        rw [Nat.add_zero, e3 _ (by omega), hder2, if_pos rfl]
      | succ j =>
        obtain ⟨pcn2, dv2, h2, cost2, a1, a2, a3⟩ := e4 j c2 (by simpa using hj)
        refine ⟨pcn2, dv2, h2, cost2, by rw [← hpt2]; exact a1, ?_, ?_⟩
        · rw [hdm2, has2, hl2, Nat.add_assoc, Nat.add_comm 1 j] at a2
          exact a2
        · rw [hl2, Nat.add_assoc, Nat.add_comm 1 j] at a3
          exact a3

/-! ## Dead ends in the expansion of an AND node -/

theorem Heap.deref_free (H : Heap) (p k : Nat) :
    (Heap.free H p).deref k = if k = p then none else H.deref k := by
  unfold Heap.free Heap.deref
  by_cases hk : k = p
  · subst hk
    rw [if_pos rfl, List.getD_eq_getElem?_getD]
    by_cases hlt : k < H.length
    · rw [List.getElem?_set_self hlt]; rfl
    · rw [List.getElem?_eq_none (by simpa using hlt)]; rfl
  · rw [if_neg hk, List.getD_eq_getElem?_getD, List.getD_eq_getElem?_getD,
      List.getElem?_set_ne (fun e => hk e.symm)]

theorem Heap.deref_free_all : ∀ (L : List Nat) (H : Heap) (k : Nat),
    (L.foldl Heap.free H).deref k = if k ∈ L then none else H.deref k := by
  intro L
  induction L with
  | nil => intro H k; simp
  | cons p L ih =>
    intro H k
    rw [List.foldl_cons, ih, Heap.deref_free]
    by_cases h1 : k ∈ L
    · simp [h1]
    · by_cases h2 : k = p
      · simp [h2]
      · simp [h1, h2]

theorem Heap.length_free_all : ∀ (L : List Nat) (H : Heap),
    (L.foldl Heap.free H).length = H.length := by
  intro L
  induction L with
  | nil => intro H; rfl
  | cons p L ih =>
    intro H
    rw [List.foldl_cons, ih]
    simp [Heap.free]

/-- One turn of the loop of lines 313-341 for the child `c` of the pseudo tree node, whose
costs can be computed: the state `s2` holds the new OR node with its costs, and the loop
stops with a dead end when the heuristic is `ELEM_ZERO` and goes on otherwise. -/
theorem andChildren_step (hr : Heuristic) (n : Nat) (depth : Int) (c : Nat) (s : Search)
    (pcn : PseudotreeNode) (dv : List Dbl) (h : Dbl) (cost : List Dbl)
    (hpc : s.m_pseudotree.getNode c = some pcn)
    (hcost : orCosts hr s.m_domains s.m_assignment pcn.m_var s.heap.length
      = some (dv, h, cost)) :
    ∃ s2 : Search,
      (∀ rest chi, Search.andChildren hr n depth (c :: rest) s chi
        = if Dbl.eq h ELEM_ZERO = true then
            some (true, { s2 with heap := (chi ++ [s.heap.length]).foldl Heap.free s2.heap },
              [])
          else Search.andChildren hr n depth rest s2 (chi ++ [s.heap.length]))
      ∧ s2.heap.length = s.heap.length + 1
      ∧ (∀ k, s2.heap.deref k = if k = s.heap.length
          then some (((SearchNode.newOR (some n) pcn.m_var (depth + 1)).setHeur
            h).setHeurCache dv) else s.heap.deref k)
      ∧ s2.m_pseudotree = s.m_pseudotree ∧ s2.m_domains = s.m_domains
      ∧ s2.m_assignment = s.m_assignment ∧ s2.m_leafProfile = s.m_leafProfile
      ∧ s2.subprobOrder = s.subprobOrder ∧ s2.stats = s.stats
      ∧ s2.m_nodeProfile = s.m_nodeProfile := by
  obtain ⟨hp0, hhp0⟩ : ∃ hp0 : Heap, hp0 = s.heap ++
      [some (SearchNode.newOR (some n) pcn.m_var (depth + 1))] := ⟨_, rfl⟩
  obtain ⟨s0, hs0⟩ : ∃ s0 : Search, s0 = { s with heap := hp0 } := ⟨_, rfl⟩
  have hd0 : s0.heap.deref s.heap.length
      = some (SearchNode.newOR (some n) pcn.m_var (depth + 1)) := by
    rw [hs0, hhp0]
    show Heap.deref (s.heap ++ [_]) _ = _
    rw [Heap.deref_push, if_neg (by omega), if_pos rfl]
  have hass := assignCostsOR_eq hr s0 s.heap.length _ dv h cost hd0
    (by rw [hs0]; exact hcost)
  obtain ⟨hp2, hhp2⟩ : ∃ hp2 : Heap, hp2 = s0.heap.modify s.heap.length
      (fun x => (x.setHeur h).setHeurCache dv) := ⟨_, rfl⟩
  obtain ⟨s2, hs2⟩ : ∃ s2 : Search, s2 = { s0 with m_costTmp := cost, heap := hp2 } :=
    ⟨_, rfl⟩
  rw [← hhp2] at hass
  rw [← hs2] at hass
  refine ⟨s2, ?_, ?_, ?_, by rw [hs2, hs0], by rw [hs2, hs0], by rw [hs2, hs0],
    by rw [hs2, hs0], by rw [hs2, hs0], by rw [hs2, hs0], by rw [hs2, hs0]⟩
  · intro rest chi
    rw [Search.andChildren]
    simp only [hpc]
    rw [← hhp0, ← hs0, hass]
  · rw [hs2, hhp2]
    show (Heap.modify _ _ _).length = _
    rw [Heap.length_update, hs0, hhp0]
    simp
  · intro k
    rw [hs2, hhp2]
    show Heap.deref (Heap.modify _ _ _) _ = _
    rw [Heap.deref_update, hd0]
    by_cases hk : k = s.heap.length
    · rw [if_pos hk, if_pos hk]; rfl
    · rw [if_neg hk, if_neg hk, hs0, hhp0]
      show Heap.deref (s.heap ++ [_]) _ = _
      rw [Heap.deref_push]
      by_cases hk2 : k < s.heap.length
      · rw [if_pos hk2]
      · rw [if_neg hk2, if_neg hk]
        unfold Heap.deref
        rw [List.getD_eq_getElem?_getD, List.getElem?_eq_none (by omega)]
        rfl

/-- Lines 313-333: when the costs of the first children can be computed with a heuristic
other than `ELEM_ZERO` and the next child gets the heuristic `ELEM_ZERO`, the loop stops
with a dead end: all nodes of `chi` and all new nodes are deleted, `chi` is empty. -/
theorem andChildren_dead (hr : Heuristic) (n : Nat) (depth : Int) (c : Nat)
    (L2 : List Nat) :
    ∀ (L1 : List Nat) (s : Search) (chi : List Nat),
      (∀ (j c1 : Nat), L1[j]? = some c1 → ∃ pcn dv h cost,
          s.m_pseudotree.getNode c1 = some pcn
          ∧ orCosts hr s.m_domains s.m_assignment pcn.m_var (s.heap.length + j)
              = some (dv, h, cost)
          ∧ Dbl.eq h ELEM_ZERO = false) →
      (∃ pcn dv h cost, s.m_pseudotree.getNode c = some pcn
          ∧ orCosts hr s.m_domains s.m_assignment pcn.m_var (s.heap.length + L1.length)
              = some (dv, h, cost)
          ∧ Dbl.eq h ELEM_ZERO = true) →
      ∃ s1, Search.andChildren hr n depth (L1 ++ c :: L2) s chi = some (true, s1, [])
        ∧ s1.heap.length = s.heap.length + L1.length + 1
        ∧ (∀ k, s1.heap.deref k
            = if k < s.heap.length ∧ k ∉ chi then s.heap.deref k else none)
        ∧ s1.m_pseudotree = s.m_pseudotree ∧ s1.m_domains = s.m_domains
        ∧ s1.m_assignment = s.m_assignment ∧ s1.m_leafProfile = s.m_leafProfile
        ∧ s1.subprobOrder = s.subprobOrder ∧ s1.stats = s.stats
        ∧ s1.m_nodeProfile = s.m_nodeProfile := by
  intro L1
  induction L1 with
  | nil =>
    intro s chi _ hz
    obtain ⟨pcn, dv, h, cost, hpc, hcost, hz⟩ := hz
    simp only [List.length_nil, Nat.add_zero] at hcost
    obtain ⟨s2, e1, e2, e3, e4, e5, e6, e7, e8, e9, e10⟩ :=
      andChildren_step hr n depth c s pcn dv h cost hpc hcost
    obtain ⟨hp3, hhp3⟩ : ∃ hp3 : Heap, hp3 = (chi ++ [s.heap.length]).foldl Heap.free
        s2.heap := ⟨_, rfl⟩
    refine ⟨{ s2 with heap := hp3 }, ?_, ?_, ?_, e4, e5, e6, e7, e8, e9, e10⟩
    · rw [List.nil_append, e1, if_pos hz, hhp3]
    · show hp3.length = _
      rw [hhp3, Heap.length_free_all, e2]
      simp
    · intro k
      show hp3.deref k = _
      rw [hhp3, Heap.deref_free_all, e3]
      by_cases hk : k < s.heap.length
      · by_cases hc : k ∈ chi
        · simp [hc]
        · have hne : k ≠ s.heap.length := by omega
          simp [hc, hk, hne]
      · by_cases hke : k = s.heap.length
        · simp [hke]
        · have hnone : s.heap.deref k = none := by
            unfold Heap.deref
            rw [List.getD_eq_getElem?_getD, List.getElem?_eq_none (by omega)]
            rfl
          simp [hk, hke, hnone]
  | cons c1 L1 ih =>
    intro s chi hyp hz
    obtain ⟨pcn, dv, h, cost, hpc, hcost, hnz⟩ := hyp 0 c1 (by simp)
    rw [Nat.add_zero] at hcost
    obtain ⟨s2, e1, e2, e3, e4, e5, e6, e7, e8, e9, e10⟩ :=
      andChildren_step hr n depth c1 s pcn dv h cost hpc hcost
    obtain ⟨s1, f1, f2, f3, f4, f5, f6, f7, f8, f9, f10⟩ := ih s2 (chi ++ [s.heap.length])
      (by
        intro j c2 hj
        obtain ⟨pcn2, dv2, h2, cost2, a1, a2, a3⟩ := hyp (j + 1) c2 (by simpa using hj)
        refine ⟨pcn2, dv2, h2, cost2, by rw [e4]; exact a1, ?_, a3⟩
        rw [e5, e6, e2, Nat.add_assoc, Nat.add_comm 1 j]
        exact a2)
      (by
        obtain ⟨pcn2, dv2, h2, cost2, a1, a2, a3⟩ := hz
        refine ⟨pcn2, dv2, h2, cost2, by rw [e4]; exact a1, ?_, a3⟩
        rw [e5, e6, e2, Nat.add_assoc, Nat.add_comm 1 L1.length]
        exact a2)
    refine ⟨s1, ?_, ?_, ?_, f4.trans e4, f5.trans e5, f6.trans e6, f7.trans e7, f8.trans e8,
      f9.trans e9, f10.trans e10⟩
    · rw [List.cons_append, e1, hnz]
      simp only [Bool.false_eq_true, if_false]
      exact f1
    · rw [f2, e2]; simp only [List.length_cons]; omega
    · intro k
      rw [f3 k, e2, e3]
      by_cases hk : k < s.heap.length
      · by_cases hc : k ∈ chi
        · simp [hc]
        · have hne : k ≠ s.heap.length := by omega
          have hk2 : k < s.heap.length + 1 := by omega
          simp [hc, hk, hne, hk2]
      · by_cases hke : k = s.heap.length
        · simp [hke]
        · have hk2 : ¬ k < s.heap.length + 1 := by omega
          simp [hk, hk2]

theorem leafAND_some (s : Search) (n : Nat) (depth : Int) (v : Dbl)
    (hleaf : depth ≠ -1 → 0 ≤ depth ∧ depth.toNat < s.m_leafProfile.length) :
    ∃ s1, s.leafAND n depth v = some s1
      ∧ s1.heap = s.heap.modify n (fun x => (x.setLeaf).setValue v)
      ∧ s1.stats.numLeaf = s.stats.numLeaf + 1 := by
  obtain ⟨lp, hlp⟩ : ∃ lp, (if depth ≠ -1 then bump s.m_leafProfile depth 1
      else some s.m_leafProfile) = some lp := by
    by_cases hd : depth ≠ -1
    · obtain ⟨w, hw, _⟩ := bump_some s.m_leafProfile depth 1 (hleaf hd)
      exact ⟨w, by rw [if_pos hd]; exact hw⟩
    · exact ⟨_, by rw [if_neg hd]⟩
  simp only [Search.leafAND, hlp]
  exact ⟨_, rfl, rfl, rfl⟩

/-! ## The budget test of `nextLeaf` -/

/-- When the loop of `nextLeaf` ends the run, the last call of `time` has read more than
`maxTime` seconds after the start, and every call before it has not. -/
theorem nextLeafLoop_exit {C D : Type} (read : C → Nat → Nat → List Int → Dbl × List Int)
    (reset : C → Nat → C) (nextNode : Run C D → Option (Option Nat × Run C D))
    (doExpand : Run C D → Nat → Option (Bool × Run C D)) (clock : Nat → Int)
    (timeStart maxTime : Int) :
    ∀ (fuel : Nat) (node : Option Nat) (r : Run C D) (k : Nat) (r1 : Run C D) (k1 : Nat),
      nextLeafLoop read reset nextNode doExpand clock timeStart maxTime fuel node r k
        = some (LeafResult.exit0, r1, k1) →
      k < k1 ∧ clock (k1 - 1) - timeStart > maxTime
        ∧ ∀ j, k ≤ j → j < k1 - 1 → clock j - timeStart ≤ maxTime := by
  intro fuel
  induction fuel with
  | zero => intro node r k r1 k1 h; simp [nextLeafLoop] at h
  | succ fuel ih =>
    intro node r k r1 k1 h
    cases node with
    | none => simp [nextLeafLoop] at h
    | some node =>
      rw [nextLeafLoop] at h
      split at h
      · cases h
      · cases h
      · split at h
        · cases h
        · cases h
        · split at h
          · cases h
          · cases h
          · split at h
            · cases h
            · cases h
            · split at h
              · cases h
              · split at h
                · rename_i hc
                  simp only [Option.some.injEq, Prod.mk.injEq, true_and] at h
                  obtain ⟨_, hk⟩ := h
                  subst hk
                  refine ⟨by omega, by simpa using hc, ?_⟩
                  intro j hj1 hj2
                  omega
                · rename_i hc
                  obtain ⟨a1, a2, a3⟩ := ih _ _ _ _ _ h
                  refine ⟨by omega, a2, ?_⟩
                  intro j hj1 hj2
                  by_cases hjk : j = k
                  · subst hjk; omega
                  · exact a3 j (by omega) hj2

/-! ## The partial solution tree read from the file -/

theorem fillForward_spec : ∀ (r i : Nat) (M rest done : List Dbl),
    M.length = 2 * r → done.length = 2 * i →
    fillForward r i (M ++ rest) (done ++ List.replicate (2 * r) ELEM_NAN)
      = some (done ++ M, rest) := by
  intro r
  induction r with
  | zero =>
    intro i M rest done hM _
    have : M = [] := List.length_eq_zero.1 (by omega)
    subst this
    simp [fillForward]
  | succ r ih =>
    intro i M rest done hM hd
    match M, hM with
    | v :: l :: M1, hM =>
      have hM1 : M1.length = 2 * r := by simp only [List.length_cons] at hM; omega
      have hrep : List.replicate (2 * (r + 1)) ELEM_NAN
          = ELEM_NAN :: ELEM_NAN :: List.replicate (2 * r) ELEM_NAN := by
        rw [show 2 * (r + 1) = 2 * r + 1 + 1 by omega, List.replicate_succ,
          List.replicate_succ]
      have hlt : 2 * i + 1 < (done ++ List.replicate (2 * (r + 1)) ELEM_NAN).length := by
        rw [List.length_append, List.length_replicate]; omega
      have hset : ((done ++ List.replicate (2 * (r + 1)) ELEM_NAN).set (2 * i) v).set
          (2 * i + 1) l = (done ++ [v, l]) ++ List.replicate (2 * r) ELEM_NAN := by
        rw [hrep, ← hd, List.set_append_right _ _ (le_refl _), Nat.sub_self, List.set_cons_zero,
          List.set_append_right _ _ (by omega), Nat.add_sub_cancel_left, List.set_cons_succ,
          List.set_cons_zero]
        simp
      have := ih (i + 1) M1 rest (done ++ [v, l]) hM1 (by simp [hd]; omega)
      simp only [List.cons_append, fillForward, hlt, if_true, hset]
      refine Eq.trans this ?_
      simp

theorem fillReverse_spec : ∀ (c : Nat) (M rest done : List Dbl),
    M.length = 2 * c →
    fillReverse c (M ++ rest) (List.replicate (2 * c) ELEM_NAN ++ done)
      = some (M.reverse ++ done, rest) := by
  intro c
  induction c with
  | zero =>
    intro M rest done hM
    have : M = [] := List.length_eq_zero.1 (by omega)
    subst this
    simp [fillReverse]
  | succ c ih =>
    intro M rest done hM
    match M, hM with
    | l :: v :: M1, hM =>
      have hM1 : M1.length = 2 * c := by simp only [List.length_cons] at hM; omega
      have hrep : List.replicate (2 * (c + 1)) ELEM_NAN
          = List.replicate (2 * c) ELEM_NAN ++ [ELEM_NAN, ELEM_NAN] := by
        rw [show 2 * (c + 1) = 2 * c + 2 by omega, List.replicate_add]
        rfl
      have hlen : (List.replicate (2 * c) ELEM_NAN).length = 2 * c := List.length_replicate _ _
      have hlt : 2 * c + 1 < (List.replicate (2 * (c + 1)) ELEM_NAN ++ done).length := by
        rw [List.length_append, List.length_replicate]; omega
      have hset : ((List.replicate (2 * (c + 1)) ELEM_NAN ++ done).set (2 * c + 1) l).set
          (2 * c) v = List.replicate (2 * c) ELEM_NAN ++ (v :: l :: done) := by
        rw [hrep, List.append_assoc, List.set_append_right _ _ (by rw [hlen]; omega), hlen,
          Nat.add_sub_cancel_left, List.set_append_right _ _ (by rw [hlen]), hlen,
          Nat.sub_self]
        rfl
      have := ih M1 rest (v :: l :: done) hM1
      simp only [List.cons_append, fillReverse, hlt, if_true, hset]
      refine Eq.trans this ?_
      simp

/-! ## `increaseTuple` -/

theorem rowMajorOffset_append : ∀ (X LX Y LY : List Int), X.length = LX.length →
    rowMajorOffset (X ++ Y) (LX ++ LY)
      = rowMajorOffset X LX * LY.prod + rowMajorOffset Y LY := by
  intro X
  induction X with
  | nil =>
    intro LX Y LY h
    have : LX = [] := List.length_eq_zero.1 h.symm
    subst this
    simp [rowMajorOffset]
  | cons x X ih =>
    intro LX Y LY h
    match LX, h with
    | l :: LX, h =>
      have h2 : X.length = LX.length := by simpa using h
      show x * (LX ++ LY).prod + rowMajorOffset (X ++ Y) (LX ++ LY)
        = (x * LX.prod + rowMajorOffset X LX) * LY.prod + rowMajorOffset Y LY
      rw [ih LX Y LY h2, List.prod_append]
      ring

theorem rowMajorOffset_zeros : ∀ (n : Nat) (L : List Int),
    rowMajorOffset (List.replicate n 0) L = 0 := by
  intro n
  induction n with
  | zero => intro L; cases L <;> rfl
  | succ n ih =>
    intro L
    cases L with
    | nil => rfl
    | cons l L => simp [List.replicate_succ, rowMajorOffset, ih]

/-- The offset of the tuple whose entries are all one below the limit is one below the
product of the limits. -/
theorem rowMajorOffset_last : ∀ (T L : List Int), T.length = L.length →
    (∀ j, j < T.length → T.getD j 0 = L.getD j 0 - 1) →
    rowMajorOffset T L = L.prod - 1 := by
  intro T
  induction T with
  | nil =>
    intro L h _
    have : L = [] := List.length_eq_zero.1 h.symm
    subst this
    rfl
  | cons t T ih =>
    intro L h hl
    match L, h with
    | l :: L, h =>
      have h2 : T.length = L.length := by simpa using h
      have h0 := hl 0 (by simp)
      simp only [List.getD_cons_zero] at h0
      have := ih L h2 (fun j hj => by
        have := hl (j + 1) (by simp; omega)
        simpa using this)
      simp only [rowMajorOffset, this, h0, List.prod_cons]
      ring

/-- The loop of `increaseTuple` on a tuple `A ++ B` whose part `A`, of the length `i`, is
still to be visited: when every entry of `A` is one below its limit, `A` is set to zero and
`i` ends as 0; otherwise the last entry of `A` below that is raised, the entries of `A`
behind it are set to zero, and `i` ends above 0. -/
theorem increaseLoop_spec : ∀ (A B limit : List Int),
    (∀ j, j < A.length → A.getD j 0 < limit.getD j 0) →
    ((∀ j, j < A.length → A.getD j 0 = limit.getD j 0 - 1)
      ∧ increaseLoop A.length (A ++ B) limit = (0, List.replicate A.length 0 ++ B))
    ∨ (∃ A1 a A2, A = A1 ++ a :: A2 ∧ a ≠ limit.getD A1.length 0 - 1
        ∧ (∀ j, j < A2.length →
            A2.getD j 0 = limit.getD (A1.length + 1 + j) 0 - 1)
        ∧ increaseLoop A.length (A ++ B) limit
            = (A1.length + 1, A1 ++ (a + 1) :: (List.replicate A2.length 0 ++ B))) := by
  intro A
  induction A using List.reverseRecOn with
  | nil =>
    intro B limit _
    exact Or.inl ⟨fun j hj => by simp at hj, by simp [increaseLoop]⟩
  | append_singleton A a ih =>
    intro B limit hlim
    have hA : ∀ j, j < A.length → A.getD j 0 < limit.getD j 0 := by
      intro j hj
      have := hlim j (by simp; omega)
      rwa [List.getD_append _ _ _ _ hj] at this
    have ha : a < limit.getD A.length 0 := by
      have := hlim A.length (by simp)
      rwa [List.getD_append_right _ _ _ _ (le_refl _), Nat.sub_self, List.getD_cons_zero] at this
    have hget : ((A ++ [a]) ++ B).getD A.length 0 = a := by
      rw [List.append_assoc, List.getD_append_right _ _ _ _ (le_refl _), Nat.sub_self]
      rfl
    have hset : ∀ x : Int, ((A ++ [a]) ++ B).set A.length x = A ++ x :: B := by
      intro x
      rw [List.append_assoc, List.set_append_right _ _ (le_refl _), Nat.sub_self]
      rfl
    have hget2 : ∀ x : Int, (A ++ x :: B).getD A.length 0 = x := by
      intro x
      rw [List.getD_append_right _ _ _ _ (le_refl _), Nat.sub_self]
      rfl
    have hset2 : ∀ x y : Int, (A ++ x :: B).set A.length y = A ++ y :: B := by
      intro x y
      rw [List.set_append_right _ _ (le_refl _), Nat.sub_self]
      rfl
    have hlen : (A ++ [a]).length = A.length + 1 := by simp
    by_cases hlast : a + 1 = limit.getD A.length 0
    · have hloop : increaseLoop (A ++ [a]).length ((A ++ [a]) ++ B) limit
          = increaseLoop A.length (A ++ 0 :: B) limit := by
        rw [hlen, increaseLoop]
        simp only [hget, hset, hget2, hlast, if_true, hset2]
      rcases ih (0 :: B) limit hA with ⟨h1, h2⟩ | ⟨A1, b, A2, e1, e2, e3, e4⟩
      · left
        refine ⟨?_, ?_⟩
        · intro j hj
          by_cases hjA : j < A.length
          · rw [List.getD_append _ _ _ _ hjA]; exact h1 j hjA
          · have : j = A.length := by simp at hj; omega
            subst this
            rw [List.getD_append_right _ _ _ _ (le_refl _), Nat.sub_self, List.getD_cons_zero]
            omega
        · rw [hloop, h2, hlen, List.replicate_succ', List.append_assoc]
          rfl
      · right
        refine ⟨A1, b, A2 ++ [a], by rw [e1]; simp, e2, ?_, ?_⟩
        · intro j hj
          by_cases hj2 : j < A2.length
          · rw [List.getD_append _ _ _ _ hj2]; exact e3 j hj2
          · have : j = A2.length := by simp at hj; omega
            subst this
            rw [List.getD_append_right _ _ _ _ (le_refl _), Nat.sub_self, List.getD_cons_zero]
            have hAl : A.length = A1.length + 1 + A2.length := by rw [e1]; simp; omega
            rw [← hAl]
            omega
        · rw [hloop, e4]
          simp [List.replicate_succ', List.append_assoc]
    · right
      refine ⟨A, a, [], rfl, by omega, fun j hj => by simp at hj, ?_⟩
      rw [hlen, increaseLoop]
      simp only [hget, hset, hget2, hlast, if_false]
      rfl

/-! ## C13: pruning is sound -/

theorem pruneExample_noinf : pruneExample.NoPlusInf := by
  intro c cn h
  have hc : c < 4 := Heap.deref_bound h
  interval_cases c <;> simp [pruneExample, Heap.deref] at h <;> subst h <;>
    simp [SearchNode.getValue, SearchNode.setHeur, SearchNode.addChildren,
      SearchNode.setValue, SearchNode.newOR, SearchNode.newAND, ELEM_NAN]

/-- C13, the rule on an example in which a sum is rounded. In the search space
`roundExample` the node 2 has the heuristic `2^53`, its sibling the heuristic 1, label and
accumulator of the parent are 0, and the root has the value `2^53`. `canBePruned(2)` forms
`2^53 + 0 + 0 + 1`, which as a `double` is `2^53`, finds it at most the value of the root,
returns true and marks the node 2. With the heuristics as the values they bound, the best
solution through the node 2 has the value `2^53 + 1` as a real number, which is above the
value of the root; combined by the sums of `double` it has the value `2^53`. -/
theorem pruning_rounds_sum :
    roundExample.check = true
      ∧ canBePruned roundExample 2
          = some (true, roundExample.modify 2 (fun x => x.setNotOpt))
      ∧ pstChain roundExample 2 0 = some (2, Dbl.ofInt (2 ^ 53))
      ∧ (roundExample.deref 2).map SearchNode.getValue = some Dbl.nan
      ∧ pstChain roundExample 2 1 = some (0, Dbl.ofInt (2 ^ 53))
      ∧ (roundExample.deref 0).map SearchNode.getValue = some (Dbl.ofInt (2 ^ 53))
      ∧ bestExact roundExample (heurOf roundExample) (subSolvedOf roundExample)
          (heurOf roundExample 2) 2 1 = some (0, Dbl.ofInt (2 ^ 53 + 1))
      ∧ Dbl.le (Dbl.ofInt (2 ^ 53 + 1)) (Dbl.ofInt (2 ^ 53)) = false
      ∧ bestThrough roundExample (heurOf roundExample) (subSolvedOf roundExample)
          (heurOf roundExample 2) 2 1 = some (0, Dbl.ofInt (2 ^ 53))
      ∧ Dbl.add (Dbl.ofInt (2 ^ 53)) (Dbl.ofInt 1) = Dbl.ofInt (2 ^ 53)
      ∧ Dbl.addExact (Dbl.ofInt (2 ^ 53)) (Dbl.ofInt 1) = Dbl.ofInt (2 ^ 53 + 1) := by
  set_option maxRecDepth 20000 in
  exact ⟨by decide, by decide, by decide, by decide, by decide, by decide, by decide,
    by decide, by decide, by decide, by decide⟩

/-- C13. Pruning is sound in the arithmetic of `double`, on a heap of the shape `Heap.WF`
in which no node has the value plus infinity. Let `below` be at most the heuristic of `n`,
let the optimum `opt c` of every sibling OR node `c` beside the path from `n` to the root be
at most its heuristic, and let the accumulator of every AND node on the path be the value
`solved` of its solved children. When `canBePruned(n)` returns true by the comparison at
the OR ancestor `o_k`, the best value `bestThrough` of a solution below `o_k` that passes
through `n`, combined by the same sums of `double` in the same order as the value of the
partial solution tree, is at most the value of `o_k`. -/
theorem pruning_sound (heap : Heap) (n : Nat) (nd : SearchNode) (hwf : heap.WF)
    (hn : heap.deref n = some nd) (hval : heap.NoPlusInf) (opt solved : Nat → Dbl)
    (below : Dbl) (hbelow : Dbl.le below nd.getHeur = true)
    (hsib : ∀ k o pst orn a an c, pstChain heap n k = some (o, pst) →
      heap.deref o = some orn → orn.getParent = some a → heap.deref a = some an →
      some c ∈ an.childList → c ≠ o → Dbl.le (opt c) (heurOf heap c) = true)
    (hsolved : ∀ k o pst orn a an, pstChain heap n k = some (o, pst) →
      heap.deref o = some orn → orn.getParent = some a → heap.deref a = some an →
      an.getSubSolved = solved a)
    (heap1 : Heap) (hres : canBePruned heap n = some (true, heap1))
    (hz : nd.getHeur ≠ ELEM_ZERO) :
    ∃ k o pst orn best, pstChain heap n k = some (o, pst) ∧ heap.deref o = some orn
      ∧ Dbl.le pst orn.getValue = true ∧ (∀ j, j < k → NoPrune heap n j)
      ∧ bestThrough heap opt solved below n k = some (o, best)
      ∧ Dbl.le best orn.getValue = true := by
  obtain ⟨b, heap2, hr, h1, h2, h3⟩ := canBePruned_spec hwf hn
  rw [hres] at hr
  simp only [Option.some.injEq, Prod.mk.injEq] at hr
  obtain ⟨hb, _⟩ := hr
  subst hb
  by_cases hdep : nd.getDepth < 0
  · have := (h1 hdep).1
    cases this
  · rcases h3 (by omega) hz with ⟨hf, _⟩ | ⟨_, start, K, o1, pst1, orn1, _, hc, hd, hle, hmin, _⟩
    · cases hf
    · obtain ⟨best, hb1, hb2⟩ :=
        chain_upper hwf hn opt solved below hbelow hsib hsolved K o1 pst1 hc
          (Dbl.IsLog.of_le_value hle (hval o1 orn1 hd))
      exact ⟨K, o1, pst1, orn1, best, hc, hd, hle, hmin, hb1, Dbl.le_trans hb2 hle⟩

theorem pruning_sound_witness :
    ∃ k o pst orn best, pstChain pruneExample 2 k = some (o, pst)
      ∧ pruneExample.deref o = some orn
      ∧ Dbl.le pst orn.getValue = true ∧ (∀ j, j < k → NoPrune pruneExample 2 j)
      ∧ bestThrough pruneExample (fun _ => Dbl.ninf) (subSolvedOf pruneExample) (Dbl.fin 2)
          2 k = some (o, best)
      ∧ Dbl.le best orn.getValue = true :=
  pruning_sound pruneExample 2 ((SearchNode.newOR (some 1) 0 0).setHeur (Dbl.fin 3))
    (Heap.wf_of_test (by decide)) rfl pruneExample_noinf (fun _ => Dbl.ninf)
    (subSolvedOf pruneExample) (Dbl.fin 2) (by decide)
    (fun _ _ _ _ _ _ _ _ _ _ ha hc _ =>
      le_ninf_heurOf (Heap.wf_of_test (by decide)) pruneExample_log ha hc)
    (fun _ _ _ _ a _ _ _ _ ha => by simp [subSolvedOf, ha])
    (pruneExample.modify 2 (fun x => x.setNotOpt)) (by decide) (by decide)

/-! ## C14: the pruning rule -/

/-- The rule where a sum is rounded: in `roundExample` the chain has the value `2^53` at
the node 2, whose own value is NaN, and the value `2^53 + 0 + 0 + 1`, which as a `double`
is `2^53`, at the root, whose value is `2^53`; the comparison holds there and
`canBePruned(2)` returns true. -/
theorem canBePruned_rule_rounded :
    pstChain roundExample 2 0 = some (2, Dbl.ofInt (2 ^ 53))
      ∧ pstChain roundExample 2 1 = some (0, Dbl.ofInt (2 ^ 53))
      ∧ (roundExample.deref 0).map SearchNode.getValue = some (Dbl.ofInt (2 ^ 53))
      ∧ (canBePruned roundExample 2).map Prod.fst = some true := by
  set_option maxRecDepth 20000 in
  exact ⟨by decide, by decide, by decide, by decide⟩

/-- C14. On a heap of the shape `Heap.WF`, `canBePruned(n)` returns. For a node of depth
below 0 it returns false. For a node of depth at least 0 it returns true exactly when the
heuristic of `n` is `ELEM_ZERO` or `pst_k <= value(o_k)` holds for some level `k` of the
chain `pstChain` of the rule, whose combinations are the sums of `double` in the order in
which `canBePruned` forms them: the label of the AND node, its accumulator, then the
heuristics of the children in the order of the array. The comparison never holds against
a value that is NaN. -/
theorem canBePruned_rule (heap : Heap) (n : Nat) (nd : SearchNode) (hwf : heap.WF)
    (hn : heap.deref n = some nd) :
    ∃ b heap1, canBePruned heap n = some (b, heap1)
      ∧ (nd.getDepth < 0 → b = false)
      ∧ (0 ≤ nd.getDepth →
          (b = true ↔ nd.getHeur = ELEM_ZERO
            ∨ ∃ k o pst orn, pstChain heap n k = some (o, pst) ∧ heap.deref o = some orn
                ∧ Dbl.le pst orn.getValue = true))
      ∧ (∀ pst v : Dbl, v.isNaN = true → Dbl.le pst v = false) := by
  obtain ⟨b, heap1, hr, h1, h2, h3⟩ := canBePruned_spec hwf hn
  refine ⟨b, heap1, hr, fun h => (h1 h).1, ?_, ?_⟩
  · intro hdep
    constructor
    · intro hb
      by_cases hz : nd.getHeur = ELEM_ZERO
      · exact Or.inl hz
      · rcases h3 hdep hz with ⟨hf, _⟩ | ⟨_, start, K, o1, pst1, orn1, _, hc, hd, hle, _⟩
        · rw [hb] at hf; cases hf
        · exact Or.inr ⟨K, o1, pst1, orn1, hc, hd, hle⟩
    · rintro (hz | ⟨k, o, pst, orn, hc, hd, hle⟩)
      · exact (h2 hdep hz).1
      · by_cases hz : nd.getHeur = ELEM_ZERO
        · exact (h2 hdep hz).1
        · rcases h3 hdep hz with ⟨_, _, hno⟩ | ⟨hb, _⟩
          · have := hno k k (le_refl k) o pst orn hc hd
            rw [hle] at this
            cases this
          · exact hb
  · intro pst v hv
    cases v with
    | nan => exact Dbl.le_nan_right pst
    | ninf => cases hv
    | fin x => cases hv
    | pinf => cases hv

theorem canBePruned_rule_witness :
    ∃ b heap1, canBePruned pruneExample 2 = some (b, heap1)
      ∧ (((SearchNode.newOR (some 1) 0 0).setHeur (Dbl.fin 3)).getDepth < 0 → b = false)
      ∧ (0 ≤ ((SearchNode.newOR (some 1) 0 0).setHeur (Dbl.fin 3)).getDepth →
          (b = true ↔ ((SearchNode.newOR (some 1) 0 0).setHeur (Dbl.fin 3)).getHeur = ELEM_ZERO
            ∨ ∃ k o pst orn, pstChain pruneExample 2 k = some (o, pst)
                ∧ pruneExample.deref o = some orn
                ∧ Dbl.le pst orn.getValue = true))
      ∧ (∀ pst v : Dbl, v.isNaN = true → Dbl.le pst v = false) :=
  canBePruned_rule pruneExample 2 ((SearchNode.newOR (some 1) 0 0).setHeur (Dbl.fin 3))
    (Heap.wf_of_test (by decide)) rfl

/-! ## C15: the nodes marked by `setNotOpt` -/

/-- C15 fails as it is stated. In the search space `pruneExample` the node 2 has the
heuristic 3 and no value; one level up the value of the partial solution tree is 4, which
is below the value 5 of the root and not equal to it. `canBePruned(2)` returns true and
has marked the node 2 by `setNotOpt`. -/
theorem notOpt_without_tie :
    canBePruned pruneExample 2 = some (true, pruneExample.modify 2 (fun x => x.setNotOpt))
      ∧ (pruneExample.deref 2).map (fun x => x.m_notOpt) = some false
      ∧ ((pruneExample.modify 2 (fun x => x.setNotOpt)).deref 2).map (fun x => x.m_notOpt)
          = some true
      ∧ pstChain pruneExample 2 0 = some (2, Dbl.fin 3)
      ∧ (pruneExample.deref 2).map (fun x => x.getValue) = some Dbl.nan
      ∧ pstChain pruneExample 2 1 = some (0, Dbl.fin 4)
      ∧ (pruneExample.deref 0).map (fun x => x.getValue) = some (Dbl.fin 5)
      ∧ Dbl.eq (Dbl.fin 4) (Dbl.fin 5) = false
      ∧ Dbl.le (Dbl.fin 4) (Dbl.fin 5) = true := by
  decide

/-- C15, amended. On a heap of the shape `Heap.WF`, `canBePruned(n)` leaves every node as
it is or marks it by `setNotOpt`; it marks a node only when it returns true by the
comparison `pst_K <= value(o_K)` at an OR ancestor `o_K`, which may hold with equality or
strictly, and the marked node is one of the OR nodes `o_j` with `j < K` below that
ancestor. -/
theorem canBePruned_marks (heap : Heap) (n : Nat) (nd : SearchNode) (hwf : heap.WF)
    (hn : heap.deref n = some nd) :
    ∃ b heap1, canBePruned heap n = some (b, heap1)
      ∧ ∀ i x, heap.deref i = some x →
          heap1.deref i = some x
          ∨ (heap1.deref i = some x.setNotOpt ∧ b = true
              ∧ ∃ start K j o pst orn, ownOR heap n = some start ∧ j < K
                  ∧ orAt heap start j = some i
                  ∧ pstChain heap n K = some (o, pst) ∧ heap.deref o = some orn
                  ∧ Dbl.le pst orn.getValue = true
                  ∧ ∀ m, m < K → NoPrune heap n m) := by
  obtain ⟨b, heap1, hr, h1, h2, h3⟩ := canBePruned_spec hwf hn
  refine ⟨b, heap1, hr, ?_⟩
  intro i x hx
  by_cases hdep : nd.getDepth < 0
  · rw [(h1 hdep).2]
    exact Or.inl hx
  · by_cases hz : nd.getHeur = ELEM_ZERO
    · rw [(h2 (by omega) hz).2]
      exact Or.inl hx
    · rcases h3 (by omega) hz with ⟨_, he, _⟩ |
        ⟨hb, start, K, o1, pst1, orn1, hs, hc, hd, hle, hmin, hmark⟩
      · rw [he]
        exact Or.inl hx
      · rw [hmark i, hx]
        simp only [Option.map_some']
        by_cases hmem : i ∈ orList heap start K
        · obtain ⟨j, hj, hat⟩ := orList_mem heap K start i hmem
          rw [if_pos hmem]
          exact Or.inr ⟨rfl, hb, start, K, j, o1, pst1, orn1, hs, hj, hat, hc, hd, hle, hmin⟩
        · rw [if_neg hmem]
          exact Or.inl rfl

theorem canBePruned_marks_witness :
    ∃ b heap1, canBePruned pruneExample 2 = some (b, heap1)
      ∧ ∀ i x, pruneExample.deref i = some x →
          heap1.deref i = some x
          ∨ (heap1.deref i = some x.setNotOpt ∧ b = true
              ∧ ∃ start K j o pst orn, ownOR pruneExample 2 = some start ∧ j < K
                  ∧ orAt pruneExample start j = some i
                  ∧ pstChain pruneExample 2 K = some (o, pst)
                  ∧ pruneExample.deref o = some orn
                  ∧ Dbl.le pst orn.getValue = true
                  ∧ ∀ m, m < K → NoPrune pruneExample 2 m) :=
  canBePruned_marks pruneExample 2 ((SearchNode.newOR (some 1) 0 0).setHeur (Dbl.fin 3))
    (Heap.wf_of_test (by decide)) rfl

/-! ## C16 -/

/-- C16. `doCaching(node)` returns, and its answer is `true` exactly when the node is an OR
node, the two gates hold (`cacheGates`: the variable is neither the root of the pseudo tree
nor a child of the root, and its full context is not longer than that of its parent) and
the cache holds an entry that is no NaN for the variable and the signature, the projection
of the assignment onto the cache context. Then the value of the node is the cached value
and the node is marked as a leaf. In every other case the answer is `false`, the value and
the leaf flag of the node are unchanged, and the node is marked cachable by the call
exactly when it is an OR node, the two gates hold and the lookup missed. -/
theorem doCaching_lookup {C : Type} (read : C → Nat → Nat → List Int → Dbl × List Int)
    (reset : C → Nat → C) (cache : C) (s : Search) (node : Nat) (nd : SearchNode)
    (ptnode : PseudotreeNode) (hn : s.heap.deref node = some nd)
    (hpt : s.m_pseudotree.getNode nd.getVar = some ptnode)
    (hpar : ∀ p, ptnode.m_parent = some p → (s.m_pseudotree.getNode p).isSome = true)
    (hctx : ∀ c ∈ ptnode.getCacheContextVec, c < s.m_assignment.length) :
    ∃ b cache1 s1 nd1, s.doCaching read reset cache node = some (b, cache1, s1)
      ∧ s1.heap.deref node = some nd1
      ∧ (b = true ↔ (nd.getType = NodeType.NODE_OR ∧ s.cacheGates ptnode
          ∧ (read cache nd.getVar nd.getCacheInst
              (s.project ptnode.getCacheContextVec)).1.isNaN = false))
      ∧ (b = true → nd1.getValue = (read cache nd.getVar nd.getCacheInst
              (s.project ptnode.getCacheContextVec)).1 ∧ nd1.m_leaf = true)
      ∧ (b = false → nd1.getValue = nd.getValue ∧ nd1.m_leaf = nd.m_leaf
          ∧ (nd1.m_cachable = true ↔ nd.m_cachable = true
              ∨ (nd.getType = NodeType.NODE_OR ∧ s.cacheGates ptnode
                ∧ (read cache nd.getVar nd.getCacheInst
                    (s.project ptnode.getCacheContextVec)).1.isNaN = true))) := by
  by_cases hand : nd.getType = NodeType.NODE_AND
  · have hnor : ¬ nd.getType = NodeType.NODE_OR := by rw [hand]; decide
    refine ⟨false, ptnode.getCacheReset.foldl reset cache, s, nd,
      by simp [Search.doCaching, hn, hpt, hand], hn, ?_, ?_, ?_⟩
    · simp [hnor]
    · intro h; cases h
    · intro _; simp [hnor]
  · have hor : nd.getType = NodeType.NODE_OR := NodeType.eq_or_of_ne_and hand
    cases hp : ptnode.m_parent with
    | none =>
      have hg : ¬ s.cacheGates ptnode := by
        rintro ⟨p, ppn, h1, _⟩
        rw [hp] at h1; cases h1
      refine ⟨false, cache, s, nd, by simp [Search.doCaching, hn, hpt, hand, hp], hn, ?_, ?_, ?_⟩
      · simp [hg]
      · intro h; cases h
      · intro _; simp [hg]
    | some p =>
      have hps := hpar p hp
      cases hpp : s.m_pseudotree.getNode p with
      | none => simp [hpp] at hps
      | some ppn =>
        cases hgp : ppn.m_parent with
        | none =>
          have hg : ¬ s.cacheGates ptnode := by
            rintro ⟨p2, ppn2, h1, h2, h3, _⟩
            rw [hp] at h1; cases h1
            rw [hpp] at h2; cases h2
            exact h3 hgp
          refine ⟨false, cache, s, nd, by simp [Search.doCaching, hn, hpt, hand, hp, hpp, hgp],
            hn, ?_, ?_, ?_⟩
          · simp [hg]
          · intro h; cases h
          · intro _; simp [hg]
        | some g =>
          by_cases hlen : ptnode.getFullContextVec.length ≤ ppn.getFullContextVec.length
          · have hg : s.cacheGates ptnode := ⟨p, ppn, hp, hpp, by simp [hgp], hlen⟩
            have hadd := addCacheContext_eq s node ptnode.getCacheContextVec nd hn hctx
            have hd1 : (s.heap.modify node (fun x => x.setCacheContext
                (ptnode.getCacheContextVec.map (fun c => s.m_assignment.getD c NONE)))).deref node
                = some (nd.setCacheContext
                    (ptnode.getCacheContextVec.map (fun c => s.m_assignment.getD c NONE))) := by
              simp [Heap.deref_update, hn]
            by_cases hnan : (read cache nd.getVar nd.getCacheInst
                (s.project ptnode.getCacheContextVec)).1.isNaN = false
            · have hnan3 := hnan
              simp only [Search.project, SearchNode.getVar, SearchNode.getCacheInst] at hnan3
              simp only [Search.doCaching, hn, hpt, hand, if_false, hp, hpp, hgp, hlen, if_true,
                hadd, hd1]
              simp only [SearchNode.getVar, SearchNode.getCacheInst,
                SearchNode.getCacheContext, SearchNode.setCacheContext, hnan3, if_true, if_false]
              refine ⟨_, _, _, (((nd.setCacheContext (s.project ptnode.getCacheContextVec)).setValue
                (read cache nd.getVar nd.getCacheInst
                  (s.project ptnode.getCacheContextVec)).1).setOptAssig
                (read cache nd.getVar nd.getCacheInst
                  (s.project ptnode.getCacheContextVec)).2).setLeaf, rfl, ?_, ?_, ?_, ?_⟩
              · simp only [Heap.deref_update, if_true, hn, Option.map_some']
                rfl
              · simp only [true_iff]
                exact ⟨hor, hg, hnan⟩
              · intro _
                exact ⟨rfl, rfl⟩
              · intro h; cases h
            · have hnan2 : (read cache nd.getVar nd.getCacheInst
                  (s.project ptnode.getCacheContextVec)).1.isNaN = true := by
                simpa using hnan
              have hnan3 := hnan
              simp only [Search.project, SearchNode.getVar, SearchNode.getCacheInst] at hnan3
              simp only [Search.doCaching, hn, hpt, hand, if_false, hp, hpp, hgp, hlen, if_true,
                hadd, hd1]
              simp only [SearchNode.getVar, SearchNode.getCacheInst,
                SearchNode.getCacheContext, SearchNode.setCacheContext, hnan3, if_true, if_false]
              refine ⟨_, _, _,
                (nd.setCacheContext (s.project ptnode.getCacheContextVec)).setCachable,
                rfl, ?_, ?_, ?_, ?_⟩
              · simp only [Heap.deref_update, if_true, hn, Option.map_some']
                rfl
              · constructor
                · intro h; cases h
                · rintro ⟨_, _, h⟩
                  exact absurd h hnan
              · intro h; cases h
              · intro _
                exact ⟨rfl, rfl, fun _ => Or.inr ⟨hor, hg, hnan2⟩, fun _ => rfl⟩
          · have hg : ¬ s.cacheGates ptnode := by
              rintro ⟨p2, ppn2, h1, h2, _, h4⟩
              rw [hp] at h1; cases h1
              rw [hpp] at h2; cases h2
              exact hlen h4
            refine ⟨false, cache, s, nd,
              by simp [Search.doCaching, hn, hpt, hand, hp, hpp, hgp, hlen], hn, ?_, ?_, ?_⟩
            · simp [hg]
            · intro h; cases h
            · intro _; simp [hg]

theorem doCaching_lookup_witness :
    ∃ b cache1 s1 nd1,
      exampleSearchOR.doCaching exampleRead (fun c _ => c) () 6 = some (b, cache1, s1)
      ∧ s1.heap.deref 6 = some nd1
      ∧ (b = true ↔ (exampleNodeOR.getType = NodeType.NODE_OR
          ∧ exampleSearchOR.cacheGates (examplePTNode 0)
          ∧ (exampleRead () exampleNodeOR.getVar exampleNodeOR.getCacheInst
              (exampleSearchOR.project (examplePTNode 0).getCacheContextVec)).1.isNaN = false))
      ∧ (b = true → nd1.getValue = (exampleRead () exampleNodeOR.getVar
              exampleNodeOR.getCacheInst
              (exampleSearchOR.project (examplePTNode 0).getCacheContextVec)).1
            ∧ nd1.m_leaf = true)
      ∧ (b = false → nd1.getValue = exampleNodeOR.getValue ∧ nd1.m_leaf = exampleNodeOR.m_leaf
          ∧ (nd1.m_cachable = true ↔ exampleNodeOR.m_cachable = true
              ∨ (exampleNodeOR.getType = NodeType.NODE_OR
                ∧ exampleSearchOR.cacheGates (examplePTNode 0)
                ∧ (exampleRead () exampleNodeOR.getVar exampleNodeOR.getCacheInst
                    (exampleSearchOR.project (examplePTNode 0).getCacheContextVec)).1.isNaN
                  = true))) :=
  doCaching_lookup exampleRead (fun c _ => c) () exampleSearchOR 6 exampleNodeOR
    (examplePTNode 0) (by decide) (by decide) (by decide) (by decide)

/-! ## C17 -/

/-- C17. `addCacheContext(node, ctxt)` sets the cache signature of the node to the list of
the length of `ctxt` whose entry `i` is `m_assignment[ctxt[i]]`, and changes nothing but
this signature: the assignment and every other node are as before. -/
theorem addCacheContext_signature (s : Search) (node : Nat) (ctxt : List Nat)
    (nd : SearchNode) (hn : s.heap.deref node = some nd)
    (hctx : ∀ c ∈ ctxt, c < s.m_assignment.length) :
    ∃ s1 nd1, s.addCacheContext node ctxt = some s1
      ∧ s1.m_assignment = s.m_assignment
      ∧ s1.heap.deref node = some nd1
      ∧ nd1 = nd.setCacheContext nd1.getCacheContext
      ∧ nd1.getCacheContext.length = ctxt.length
      ∧ (∀ i, i < ctxt.length →
          ∃ c, ctxt[i]? = some c ∧ nd1.getCacheContext[i]? = s.m_assignment[c]?)
      ∧ (∀ k, k ≠ node → s1.heap.deref k = s.heap.deref k) := by
  refine ⟨_, nd.setCacheContext (ctxt.map (fun c => s.m_assignment.getD c NONE)),
    addCacheContext_eq s node ctxt nd hn hctx, rfl, ?_, rfl, ?_, ?_, ?_⟩
  · simp [Heap.deref_update, hn]
  · simp [SearchNode.getCacheContext, SearchNode.setCacheContext]
  · intro i hi
    have hc := hctx ctxt[i] (List.getElem_mem _)
    refine ⟨ctxt[i], List.getElem?_eq_getElem hi, ?_⟩
    simp only [SearchNode.getCacheContext, SearchNode.setCacheContext, List.getElem?_map,
      List.getElem?_eq_getElem hi, Option.map_some']
    rw [List.getD_eq_getElem?_getD, List.getElem?_eq_getElem hc]
    rfl
  · intro k hk
    simp [Heap.deref_update, hk]

theorem addCacheContext_signature_witness :
    ∃ s1 nd1, exampleSearchOR.addCacheContext 6 [2, 1] = some s1
      ∧ s1.m_assignment = exampleSearchOR.m_assignment
      ∧ s1.heap.deref 6 = some nd1
      ∧ nd1 = exampleNodeOR.setCacheContext nd1.getCacheContext
      ∧ nd1.getCacheContext.length = [2, 1].length
      ∧ (∀ i, i < [2, 1].length →
          ∃ c, [2, 1][i]? = some c
            ∧ nd1.getCacheContext[i]? = exampleSearchOR.m_assignment[c]?)
      ∧ (∀ k, k ≠ 6 → s1.heap.deref k = exampleSearchOR.heap.deref k) :=
  addCacheContext_signature exampleSearchOR 6 [2, 1] exampleNodeOR (by decide) (by decide)

/-! ## C18 -/

/-- C18. `assignCostsOR(n)` for a node on a variable with `d` values, when the vectors of
the heuristic have a cost for each of them, stores for every value `i` below `d` the label
`getLabelAll(..)[i]` at the position `2i+1` of the array of the costs and the label
combined with `getHeurAll(..)[i]` at the position `2i`. It sets and returns as the
heuristic of the node the largest of the entries at the positions `2i`: every such entry
that is no NaN is at most that value, which is one of the entries or is `ELEM_ZERO`. -/
theorem assignCostsOR_costs (hr : Heuristic) (s : Search) (n : Nat) (nd : SearchNode)
    (d : Nat) (hn : s.heap.deref n = some nd)
    (hd : s.getDomainSize nd.getVar = some (d : Int))
    (hH : d ≤ (hr.getHeurAll nd.getVar s.m_assignment n (List.replicate d ELEM_ONE)).length)
    (hL : d ≤ (hr.getLabelAll nd.getVar s.m_assignment n (List.replicate d ELEM_ONE)).length) :
    ∃ h s1 nd1 dv, s.assignCostsOR hr n = some (h, s1)
      ∧ s1.heap.deref n = some nd1 ∧ nd1.getHeur = h ∧ nd1.getHeurCache = some dv
      ∧ dv.length = 2 * d
      ∧ (∀ i, i < d →
          dv[2 * i + 1]?
            = (hr.getLabelAll nd.getVar s.m_assignment n (List.replicate d ELEM_ONE))[i]?
          ∧ dv[2 * i]? = some (OP_TIMES
              ((hr.getLabelAll nd.getVar s.m_assignment n
                (List.replicate d ELEM_ONE)).getD i ELEM_NAN)
              ((hr.getHeurAll nd.getVar s.m_assignment n
                (List.replicate d ELEM_ONE)).getD i ELEM_NAN)))
      ∧ (∀ i x, i < d → dv[2 * i]? = some x → x.isNaN = false → Dbl.le x h = true)
      ∧ (h = ELEM_ZERO ∨ ∃ i, i < d ∧ dv[2 * i]? = some h) := by
  obtain ⟨dv, h, e1, e2, e3, e4⟩ := orCosts_spec hr s.m_domains s.m_assignment nd.getVar n d
    hd hH hL
  obtain ⟨_, _, m3, m4⟩ := max_fold (fun i => OP_TIMES
      ((hr.getLabelAll nd.getVar s.m_assignment n (List.replicate d ELEM_ONE)).getD i ELEM_NAN)
      ((hr.getHeurAll nd.getVar s.m_assignment n (List.replicate d ELEM_ONE)).getD i ELEM_NAN))
    (List.range d) ELEM_ZERO rfl
  rw [← e4] at m3 m4
  refine ⟨h, _, (nd.setHeur h).setHeurCache dv, dv, assignCostsOR_eq hr s n nd dv h _ hn e1,
    ?_, rfl, rfl, e2, e3, ?_, ?_⟩
  · simp [Heap.deref_update, hn]
  · intro i x hi hx hnan
    rw [(e3 i hi).2] at hx
    cases hx
    exact m3 i (List.mem_range.2 hi) hnan
  · rcases m4 with e | ⟨i, hi, e⟩
    · exact Or.inl e
    · have hi2 := List.mem_range.1 hi
      exact Or.inr ⟨i, hi2, by rw [(e3 i hi2).2]; exact congrArg some e⟩

theorem assignCostsOR_costs_witness :
    ∃ h s1 nd1 dv, exampleSearchOR.assignCostsOR exampleHeuristic 6 = some (h, s1)
      ∧ s1.heap.deref 6 = some nd1 ∧ nd1.getHeur = h ∧ nd1.getHeurCache = some dv
      ∧ dv.length = 2 * 2
      ∧ (∀ i, i < 2 →
          dv[2 * i + 1]?
            = (exampleHeuristic.getLabelAll exampleNodeOR.getVar exampleSearchOR.m_assignment 6
                (List.replicate 2 ELEM_ONE))[i]?
          ∧ dv[2 * i]? = some (OP_TIMES
              ((exampleHeuristic.getLabelAll exampleNodeOR.getVar exampleSearchOR.m_assignment 6
                (List.replicate 2 ELEM_ONE)).getD i ELEM_NAN)
              ((exampleHeuristic.getHeurAll exampleNodeOR.getVar exampleSearchOR.m_assignment 6
                (List.replicate 2 ELEM_ONE)).getD i ELEM_NAN)))
      ∧ (∀ i x, i < 2 → dv[2 * i]? = some x → x.isNaN = false → Dbl.le x h = true)
      ∧ (h = ELEM_ZERO ∨ ∃ i, i < 2 ∧ dv[2 * i]? = some h) :=
  assignCostsOR_costs exampleHeuristic exampleSearchOR 6 exampleNodeOR 2 (by decide) rfl
    (by decide) (by decide)

/-! ## C19 -/

/-- C20, counterexample. The AND node at 7 of `exampleSearchLeaf` has not been expanded, its
variable 0 has no child in the pseudo tree, so no new OR node has the heuristic
`ELEM_ZERO`, and the order of the subproblems is not by heuristic; `generateChildrenAND`
makes no child, marks the node as a leaf with the value `ELEM_ONE` and returns `true`, not
`false`. -/
theorem leaf_variable_returns_true :
    exampleSearchLeaf.heap.deref 7 = some exampleNodeLeaf
      ∧ exampleNodeLeaf.getType = NodeType.NODE_AND ∧ exampleNodeLeaf.m_children = none
      ∧ exampleSearchLeaf.m_pseudotree.getNode exampleNodeLeaf.getVar = some (examplePTNode 0)
      ∧ (examplePTNode 0).m_children = []
      ∧ exampleSearchLeaf.subprobOrder = HeurOrder.other
      ∧ (exampleSearchLeaf.generateChildrenAND exampleHeuristic 7 []).map
          (fun r => (r.1, r.2.2, r.2.1.heap.deref 7, r.2.1.heap.length))
        = some (true, [], some ((exampleNodeLeaf.setLeaf).setValue ELEM_ONE), 8) := by
  decide

/-- C20. For an AND node `n` that has not been expanded, whose variable has at least one
child in the pseudo tree, when the costs of every new OR node can be computed with a
heuristic that is not `ELEM_ZERO` and the order of the subproblems is not by heuristic,
`generateChildrenAND` returns `false` and makes exactly one new OR node for every child of
the pseudo tree node: the node at the position `j` of `chi` is the new node for the child
`j` of the reversed list of the children, a child of `n` of the depth of `n` plus 1, and
`chi` becomes the array of the children of `n`. -/
theorem generateChildrenAND_children (hr : Heuristic) (s : Search) (n : Nat)
    (nd : SearchNode) (ptnode : PseudotreeNode) (hn : s.heap.deref n = some nd)
    (htype : nd.getType = NodeType.NODE_AND) (hnew : nd.m_children = none)
    (hvar : nd.getVar < s.stats.numANDVar.length)
    (hpt : s.m_pseudotree.getNode nd.getVar = some ptnode)
    (hchild : ptnode.m_children ≠ [])
    (hprof : 0 ≤ nd.getDepth → nd.getDepth.toNat < s.m_nodeProfile.length)
    (hcost : ∀ (j c : Nat), ptnode.m_children.reverse[j]? = some c → ∃ pcn dv h cost,
        s.m_pseudotree.getNode c = some pcn
        ∧ orCosts hr s.m_domains s.m_assignment pcn.m_var (s.heap.length + j)
            = some (dv, h, cost)
        ∧ Dbl.eq h ELEM_ZERO = false)
    (hord : s.subprobOrder = HeurOrder.other) :
    ∃ s1 chi, s.generateChildrenAND hr n [] = some (false, s1, chi)
      ∧ chi = (List.range ptnode.m_children.length).map (· + s.heap.length)
      ∧ s1.heap.length = s.heap.length + ptnode.m_children.length
      ∧ (∀ (j c : Nat), ptnode.m_children.reverse[j]? = some c → ∃ pcn nd1,
          s.m_pseudotree.getNode c = some pcn
          ∧ chi[j]? = some (s.heap.length + j)
          ∧ s1.heap.deref (s.heap.length + j) = some nd1
          ∧ nd1.getType = NodeType.NODE_OR ∧ nd1.getParent = some n
          ∧ nd1.getVar = pcn.m_var ∧ nd1.getDepth = nd.getDepth + 1
          ∧ nd1.m_children = none)
      ∧ s1.heap.deref n = some (nd.addChildren chi)
      ∧ (∀ k, k < s.heap.length → k ≠ n → s1.heap.deref k = s.heap.deref k) := by
  obtain ⟨nv, hnv, _⟩ := bump_some s.stats.numANDVar (nd.getVar : Int) 1
    ⟨by omega, by simpa using hvar⟩
  obtain ⟨np, hnp⟩ : ∃ np, (if nd.getDepth ≥ 0 then bump s.m_nodeProfile nd.getDepth 1
      else some s.m_nodeProfile) = some np := by
    by_cases hdep : nd.getDepth ≥ 0
    · obtain ⟨w, hw, _⟩ := bump_some s.m_nodeProfile nd.getDepth 1 ⟨hdep, hprof hdep⟩
      exact ⟨w, by rw [if_pos hdep]; exact hw⟩
    · exact ⟨_, by rw [if_neg hdep]⟩
  obtain ⟨st2, hst2⟩ : ∃ st2 : SearchStats, st2 =
      { s.stats with numExpAND := s.stats.numExpAND + 1, numANDVar := nv } := ⟨_, rfl⟩
  obtain ⟨s0, hs0⟩ : ∃ s0 : Search, s0 = { s with stats := st2, m_nodeProfile := np } :=
    ⟨_, rfl⟩
  have hnlt := Heap.deref_bound hn
  obtain ⟨s2, e1, e2, e3, e4, e5, e6, e7, e8, e9, e10, e11⟩ :=
    andChildren_spec hr n nd.getDepth ptnode.m_children.reverse s0 [] (by rw [hs0]; exact hcost)
  have hlen : ptnode.m_children.reverse.length = ptnode.m_children.length :=
    List.length_reverse _
  have hh0 : s0.heap = s.heap := by rw [hs0]
  rw [hlen, hh0, List.nil_append] at e1
  rw [hlen, hh0] at e2
  rw [hh0] at e3 e4
  obtain ⟨chi, hchi⟩ : ∃ chi, chi = (List.range ptnode.m_children.length).map
      (· + s.heap.length) := ⟨_, rfl⟩
  rw [← hchi] at e1
  have hne : chi.isEmpty = false := by
    rw [hchi]
    cases hk : ptnode.m_children with
    | nil => exact absurd hk hchild
    | cons a l => simp [List.range_succ_eq_map]
  have hord2 : s2.subprobOrder = HeurOrder.other := by rw [e9, hs0]; exact hord
  obtain ⟨hp3, hhp3⟩ : ∃ hp3 : Heap, hp3 = s2.heap.modify n (fun x => x.addChildren chi) :=
    ⟨_, rfl⟩
  have hdn2 : s2.heap.deref n = some nd := by rw [e3 n hnlt]; exact hn
  refine ⟨{ s2 with heap := hp3 }, chi, ?_, hchi, ?_, ?_, ?_, ?_⟩
  · simp only [Search.generateChildrenAND, hn, htype, ne_eq, not_true_eq_false, if_false, hnew,
      Option.isSome_none, Bool.false_eq_true, false_and, hnv, hpt, hnp]
    rw [← hst2, ← hs0, e1]
    simp only [hne, Bool.false_eq_true, if_false, hord2, hhp3]
  · show hp3.length = _
    rw [hhp3, Heap.length_update, e2]
  · intro j c hj
    obtain ⟨pcn, dv, h, cost, a1, _, a3⟩ := e4 j c hj
    have hjl : j < ptnode.m_children.length := by
      have := (List.getElem?_eq_some_iff.1 hj).1
      rwa [hlen] at this
    refine ⟨pcn, ((SearchNode.newOR (some n) pcn.m_var (nd.getDepth + 1)).setHeur
      h).setHeurCache dv, by rw [hs0] at a1; exact a1, ?_, ?_, rfl, rfl, rfl, rfl, rfl⟩
    · rw [hchi, List.getElem?_map, List.getElem?_range hjl]
      simp [Nat.add_comm]
    · show hp3.deref _ = _
      rw [hhp3, Heap.deref_update, if_neg (by omega), a3]
  · show hp3.deref _ = _
    rw [hhp3, Heap.deref_update, if_pos rfl, hdn2]
    rfl
  · intro k hk hkn
    show hp3.deref _ = _
    rw [hhp3, Heap.deref_update, if_neg hkn, e3 k hk]

theorem generateChildrenAND_children_witness :
    ∃ s1 chi, exampleSearch.generateChildrenAND exampleHeuristic 5 [] = some (false, s1, chi)
      ∧ chi = (List.range (examplePTNode 1).m_children.length).map
          (· + exampleSearch.heap.length)
      ∧ s1.heap.length = exampleSearch.heap.length + (examplePTNode 1).m_children.length
      ∧ (∀ (j c : Nat), (examplePTNode 1).m_children.reverse[j]? = some c → ∃ pcn nd1,
          exampleSearch.m_pseudotree.getNode c = some pcn
          ∧ chi[j]? = some (exampleSearch.heap.length + j)
          ∧ s1.heap.deref (exampleSearch.heap.length + j) = some nd1
          ∧ nd1.getType = NodeType.NODE_OR ∧ nd1.getParent = some 5
          ∧ nd1.getVar = pcn.m_var ∧ nd1.getDepth = exampleNodeAND.getDepth + 1
          ∧ nd1.m_children = none)
      ∧ s1.heap.deref 5 = some (exampleNodeAND.addChildren chi)
      ∧ (∀ k, k < exampleSearch.heap.length → k ≠ 5 →
          s1.heap.deref k = exampleSearch.heap.deref k) :=
  generateChildrenAND_children exampleHeuristic exampleSearch 5 exampleNodeAND
    (examplePTNode 1) (by decide) rfl rfl (by decide) (by decide) (by decide) (by decide)
    (by
      intro j c hj
      have hK : (examplePTNode 1).m_children.reverse = [0] := by decide
      rw [hK] at hj
      cases j with
      | zero =>
        cases hj
        exact ⟨examplePTNode 0, [Dbl.fin (-1), Dbl.fin (-1), Dbl.fin (-1), Dbl.fin (-1)],
          Dbl.fin (-1), [Dbl.fin (-1), Dbl.fin (-1)], by decide, by decide, by decide⟩
      | succ j => simp at hj)
    rfl

/-! ## What the recursive updates leave alone -/

theorem PseudotreeNode.SameButDepth.depth_refl (a : PseudotreeNode) : a.SameButDepth a := by
  cases a; rfl

theorem PseudotreeNode.SameButDepth.depth_trans (a b c : PseudotreeNode)
    (h1 : a.SameButDepth b) (h2 : b.SameButDepth c) : a.SameButDepth c := by
  unfold PseudotreeNode.SameButDepth at *
  rw [h2, h1]

theorem PseudotreeNode.SameButDepth.depth_similar {a b : PseudotreeNode} (h : a.SameButDepth b) :
    a.Similar b := by
  unfold PseudotreeNode.SameButDepth at h
  rw [h]
  exact ⟨⟨rfl, rfl, rfl, List.Perm.refl _⟩, rfl, rfl, rfl⟩

theorem PseudotreeNode.SameButVars.vars_refl (a : PseudotreeNode) : a.SameButVars a := by
  cases a; rfl

theorem PseudotreeNode.SameButVars.vars_trans (a b c : PseudotreeNode)
    (h1 : a.SameButVars b) (h2 : b.SameButVars c) : a.SameButVars c := by
  unfold PseudotreeNode.SameButVars at *
  rw [h2, h1]

theorem PseudotreeNode.SameButVars.vars_similar {a b : PseudotreeNode} (h : a.SameButVars b) :
    a.Similar b := by
  unfold PseudotreeNode.SameButVars at h
  rw [h]
  exact ⟨⟨rfl, rfl, rfl, List.Perm.refl _⟩, rfl, rfl, rfl⟩

theorem depthHeightKids_frame {R : PseudotreeNode → PseudotreeNode → Prop}
    (hrefl : ∀ a, R a a) (htrans : ∀ a b c, R a b → R b c → R a c)
    (f : Arena → Nat → Option (Arena × Int)) :
    ∀ (cs : List Nat) (ns : Arena) (m : Int) (ns1 : Arena) (m1 : Int),
      (∀ c ∈ cs, ∀ ns ns1 h, f ns c = some (ns1, h) → Arena.Rel R ns ns1) →
      depthHeightKids f cs ns m = some (ns1, m1) → Arena.Rel R ns ns1 := by
  intro cs
  induction cs with
  | nil =>
    intro ns m ns1 m1 _ h
    simp only [depthHeightKids, Option.some.injEq, Prod.mk.injEq] at h
    rw [← h.1]
    exact Arena.Rel.rel_refl hrefl ns
  | cons c cs ih =>
    intro ns m ns1 m1 hf h
    simp only [depthHeightKids] at h
    cases e : f ns c with
    | none => simp [e] at h
    | some r =>
      obtain ⟨ns2, h2⟩ := r
      simp only [e] at h
      exact Arena.Rel.rel_trans htrans (hf c (List.mem_cons_self c cs) ns ns2 h2 e)
        (ih ns2 _ ns1 m1 (fun c hc => hf c (List.mem_cons_of_mem _ hc)) h)

/-- `updateDepthHeight` changes `m_depth` and `m_subHeight` only. -/
theorem updateDepthHeight_frame {R : PseudotreeNode → PseudotreeNode → Prop}
    (hrefl : ∀ a, R a a) (htrans : ∀ a b c, R a b → R b c → R a c)
    (h1 : ∀ (a : PseudotreeNode) (d : Int), R a { a with m_depth := d })
    (h2 : ∀ (a : PseudotreeNode) (h : Int), R a { a with m_subHeight := h }) :
    ∀ (fuel : Nat) (A : Arena) (v : Nat) (d : Int) (A1 : Arena) (h : Int),
      updateDepthHeight fuel A v d = some (A1, h) → Arena.Rel R A A1 := by
  intro fuel
  induction fuel with
  | zero => intro A v d A1 h e; simp [updateDepthHeight] at e
  | succ fuel ih =>
    intro A v d A1 h e
    simp only [updateDepthHeight] at e
    cases hd : A.deref v with
    | none => simp [hd] at e
    | some nd =>
      simp only [hd] at e
      have r1 : Arena.Rel R A (A.modify v (fun x => { x with m_depth := d })) :=
        Arena.Rel.rel_modify hrefl A v _ (fun a => h1 a d)
      by_cases hch : nd.m_children = []
      · simp only [hch, if_true, Option.some.injEq, Prod.mk.injEq] at e
        rw [← e.1]
        exact Arena.Rel.rel_trans htrans r1 (Arena.Rel.rel_modify hrefl _ v _ (fun a => h2 a 0))
      · simp only [hch, if_false] at e
        cases ek : depthHeightKids (fun ns c => updateDepthHeight fuel ns c (d + 1))
            nd.m_children (A.modify v (fun x => { x with m_depth := d })) 0 with
        | none => simp [ek] at e
        | some r =>
          obtain ⟨ns2, m⟩ := r
          simp only [ek, Option.some.injEq, Prod.mk.injEq] at e
          rw [← e.1]
          have r2 := depthHeightKids_frame hrefl htrans _ nd.m_children _ 0 ns2 m
            (fun c _ ns ns1 h e => ih ns c (d + 1) ns1 h e) ek
          exact Arena.Rel.rel_trans htrans r1 (Arena.Rel.rel_trans htrans r2
            (Arena.Rel.rel_modify hrefl _ v _ (fun a => h2 a (m + 1))))

theorem subWidthKids_frame {R : PseudotreeNode → PseudotreeNode → Prop}
    (hrefl : ∀ a, R a a) (htrans : ∀ a b c, R a b → R b c → R a c)
    (h1 : ∀ (a : PseudotreeNode) (w : Int), R a { a with m_subWidth := w })
    (f : Arena → Nat → Option (Arena × Int)) (v : Nat) :
    ∀ (cs : List Nat) (ns ns1 : Arena),
      (∀ c ∈ cs, ∀ ns ns1 h, f ns c = some (ns1, h) → Arena.Rel R ns ns1) →
      subWidthKids f v cs ns = some ns1 → Arena.Rel R ns ns1 := by
  intro cs
  induction cs with
  | nil =>
    intro ns ns1 _ h
    simp only [subWidthKids, Option.some.injEq] at h
    rw [← h]
    exact Arena.Rel.rel_refl hrefl ns
  | cons c cs ih =>
    intro ns ns1 hf h
    simp only [subWidthKids] at h
    cases e : f ns c with
    | none => simp [e] at h
    | some r =>
      obtain ⟨ns2, w⟩ := r
      simp only [e] at h
      exact Arena.Rel.rel_trans htrans (hf c (List.mem_cons_self c cs) ns ns2 w e)
        (Arena.Rel.rel_trans htrans (Arena.Rel.rel_modify hrefl _ v _ (fun a => h1 a _))
          (ih _ ns1 (fun c hc => hf c (List.mem_cons_of_mem _ hc)) h))

/-- `updateSubWidth` changes `m_subWidth` only. -/
theorem updateSubWidth_frame {R : PseudotreeNode → PseudotreeNode → Prop}
    (hrefl : ∀ a, R a a) (htrans : ∀ a b c, R a b → R b c → R a c)
    (h1 : ∀ (a : PseudotreeNode) (w : Int), R a { a with m_subWidth := w }) :
    ∀ (fuel : Nat) (A : Arena) (v : Nat) (A1 : Arena) (w : Int),
      updateSubWidth fuel A v = some (A1, w) → Arena.Rel R A A1 := by
  intro fuel
  induction fuel with
  | zero => intro A v A1 w e; simp [updateSubWidth] at e
  | succ fuel ih =>
    intro A v A1 w e
    simp only [updateSubWidth] at e
    cases hd : A.deref v with
    | none => simp [hd] at e
    | some nd =>
      simp only [hd] at e
      cases ek : subWidthKids (fun ns c => updateSubWidth fuel ns c) v nd.m_children
          (A.modify v (fun x => { x with m_subWidth := (x.m_contextS.length : Int) })) with
      | none => simp [ek] at e
      | some ns2 =>
        simp only [ek] at e
        cases hd2 : ns2.deref v with
        | none => simp [hd2] at e
        | some nd2 =>
          simp only [hd2, Option.some.injEq, Prod.mk.injEq] at e
          rw [← e.1]
          exact Arena.Rel.rel_trans htrans (Arena.Rel.rel_modify hrefl A v _ (fun a => h1 a _))
            (subWidthKids_frame hrefl htrans h1 _ v nd.m_children _ ns2
              (fun c _ ns ns1 h e => ih ns c ns1 h e) ek)

/-- `orderChildren` on every node changes `m_children` only. -/
theorem orderAll_frame {R : PseudotreeNode → PseudotreeNode → Prop}
    (hrefl : ∀ a, R a a) (htrans : ∀ a b c, R a b → R b c → R a c)
    (h1 : ∀ (a : PseudotreeNode) (l : List Nat), l.Perm a.m_children →
      R a { a with m_children := l }) (subOrder : SubOrder) :
    ∀ (l : List Nat) (A A1 : Arena), orderAll subOrder l A = some A1 → Arena.Rel R A A1 := by
  intro l
  induction l with
  | nil =>
    intro A A1 e
    simp only [orderAll, Option.some.injEq] at e
    rw [← e]
    exact Arena.Rel.rel_refl hrefl A
  | cons i rest ih =>
    intro A A1 e
    simp only [orderAll] at e
    cases e1 : orderChildren subOrder A i with
    | none => simp [e1] at e
    | some A2 =>
      simp only [e1] at e
      refine Arena.Rel.rel_trans htrans ?_ (ih A2 A1 e)
      unfold orderChildren at e1
      cases hd : A.deref i with
      | none => simp [hd] at e1
      | some nd =>
        simp only [hd] at e1
        have hmod : ∀ (l : List Nat), l.Perm nd.m_children →
            Arena.Rel R A (A.modify i (fun x => { x with m_children := l })) := by
          intro l hl
          refine ⟨(Arena.length_modify A i _).symm, fun k => ?_⟩
          rw [Arena.deref_modify]
          by_cases hk : k = i
          · subst hk
            simp only [if_true, hd, Option.map_some']
            exact h1 nd l hl
          · simp only [hk, if_false]
            cases h : A.deref k with
            | none => trivial
            | some a => exact hrefl a
        cases subOrder with
        | widthInc =>
          simp only at e1
          split at e1
          · simp only [Option.some.injEq] at e1
            rw [← e1]
            exact hmod _ (List.perm_insertionSort _ _)
          · cases e1
        | widthDec =>
          simp only at e1
          split at e1
          · simp only [Option.some.injEq] at e1
            rw [← e1]
            exact hmod _ (List.perm_insertionSort _ _)
          · cases e1
        | other =>
          simp only [Option.some.injEq] at e1
          rw [← e1]
          exact Arena.Rel.rel_refl hrefl A

theorem subprobVarsKids_frame {R : PseudotreeNode → PseudotreeNode → Prop}
    (hrefl : ∀ a, R a a) (htrans : ∀ a b c, R a b → R b c → R a c)
    (h1 : ∀ (a : PseudotreeNode) (l : List Nat), R a { a with m_subproblemVars := l })
    (f : Arena → Nat → Option (Arena × List Nat)) (v : Nat) :
    ∀ (cs : List Nat) (ns ns1 : Arena),
      (∀ c ∈ cs, ∀ ns ns1 h, f ns c = some (ns1, h) → Arena.Rel R ns ns1) →
      subprobVarsKids f v cs ns = some ns1 → Arena.Rel R ns ns1 := by
  intro cs
  induction cs with
  | nil =>
    intro ns ns1 _ h
    simp only [subprobVarsKids, Option.some.injEq] at h
    rw [← h]
    exact Arena.Rel.rel_refl hrefl ns
  | cons c cs ih =>
    intro ns ns1 hf h
    simp only [subprobVarsKids] at h
    cases e : f ns c with
    | none => simp [e] at h
    | some r =>
      obtain ⟨ns2, w⟩ := r
      simp only [e] at h
      exact Arena.Rel.rel_trans htrans (hf c (List.mem_cons_self c cs) ns ns2 w e)
        (Arena.Rel.rel_trans htrans (Arena.Rel.rel_modify hrefl _ v _ (fun a => h1 a _))
          (ih _ ns1 (fun c hc => hf c (List.mem_cons_of_mem _ hc)) h))

/-- `updateSubprobVars` changes `m_subproblemVars` and `m_subproblemVarMap` only. -/
theorem updateSubprobVars_frame {R : PseudotreeNode → PseudotreeNode → Prop}
    (hrefl : ∀ a, R a a) (htrans : ∀ a b c, R a b → R b c → R a c)
    (h1 : ∀ (a : PseudotreeNode) (l : List Nat), R a { a with m_subproblemVars := l })
    (h2 : ∀ (a : PseudotreeNode) (l : List Nat) (m : List Int),
      R a { a with m_subproblemVars := l, m_subproblemVarMap := m }) (numVars : Nat) :
    ∀ (fuel : Nat) (A : Arena) (v : Nat) (A1 : Arena) (vars : List Nat),
      updateSubprobVars numVars fuel A v = some (A1, vars) → Arena.Rel R A A1 := by
  intro fuel
  induction fuel with
  | zero => intro A v A1 w e; simp [updateSubprobVars] at e
  | succ fuel ih =>
    intro A v A1 w e
    simp only [updateSubprobVars] at e
    cases hd : A.deref v with
    | none => simp [hd] at e
    | some nd =>
      simp only [hd] at e
      cases ek : subprobVarsKids (fun ns c => updateSubprobVars numVars fuel ns c) v
          nd.m_children (A.modify v (fun x => { x with m_subproblemVars := [x.m_var] })) with
      | none => simp [ek] at e
      | some ns2 =>
        simp only [ek] at e
        cases hd2 : ns2.deref v with
        | none => simp [hd2] at e
        | some nd2 =>
          simp only [hd2, Option.some.injEq, Prod.mk.injEq] at e
          rw [← e.1]
          exact Arena.Rel.rel_trans htrans (Arena.Rel.rel_modify hrefl A v _ (fun a => h1 a _))
            (Arena.Rel.rel_trans htrans
              (subprobVarsKids_frame hrefl htrans h1 _ v nd.m_children _ ns2
                (fun c _ ns ns1 h e => ih ns c ns1 h e) ek)
              (Arena.Rel.rel_modify hrefl _ v _ (fun a => h2 a _ _)))

/-! ## Subtrees -/

theorem Arena.Rel.children_eq {R : PseudotreeNode → PseudotreeNode → Prop} {A B : Arena}
    (h : Arena.Rel R A B) (hR : ∀ a b, R a b → a.m_children = b.m_children) (k : Nat) :
    (A.deref k).map PseudotreeNode.m_children = (B.deref k).map PseudotreeNode.m_children := by
  cases ha : A.deref k with
  | none => rw [(h.none_iff k).1 ha]
  | some a =>
    obtain ⟨b, hb, hab⟩ := h.left ha
    rw [hb]
    simp [hR a b hab]

theorem Arena.subtree_congr {A B : Arena}
    (h : ∀ k, (A.deref k).map PseudotreeNode.m_children
      = (B.deref k).map PseudotreeNode.m_children) :
    ∀ (fuel v : Nat), A.subtree fuel v = B.subtree fuel v := by
  intro fuel
  induction fuel with
  | zero => intro v; rfl
  | succ fuel ih =>
    intro v
    have hv := h v
    simp only [Arena.subtree]
    cases ha : A.deref v with
    | none =>
      rw [ha] at hv
      cases hb : B.deref v with
      | none => rfl
      | some b => rw [hb] at hv; cases hv
    | some a =>
      rw [ha] at hv
      cases hb : B.deref v with
      | none => rw [hb] at hv; cases hv
      | some b =>
        rw [hb] at hv
        simp only [Option.map_some', Option.some.injEq] at hv
        simp only [hv]
        rw [show b.m_children.flatMap (A.subtree fuel) = b.m_children.flatMap (B.subtree fuel)
          from List.flatMap_congr (fun c _ => ih c)]

theorem Arena.height_congr {A B : Arena}
    (h : ∀ k, (A.deref k).map PseudotreeNode.m_children
      = (B.deref k).map PseudotreeNode.m_children) :
    ∀ (fuel v : Nat), A.height fuel v = B.height fuel v := by
  intro fuel
  induction fuel with
  | zero => intro v; rfl
  | succ fuel ih =>
    intro v
    have hv := h v
    simp only [Arena.height]
    cases ha : A.deref v with
    | none =>
      rw [ha] at hv
      cases hb : B.deref v with
      | none => rfl
      | some b => rw [hb] at hv; cases hv
    | some a =>
      rw [ha] at hv
      cases hb : B.deref v with
      | none => rw [hb] at hv; cases hv
      | some b =>
        rw [hb] at hv
        simp only [Option.map_some', Option.some.injEq] at hv
        simp only [hv]
        have : b.m_children.map (A.height fuel) = b.m_children.map (B.height fuel) :=
          List.map_congr_left (fun c _ => ih c)
        rw [this]

/-- The subtree of a node holds live nodes of no higher rank. -/
theorem Arena.subtree_rank {A : Arena} {ρ : Nat → Nat} (hdown : A.Down ρ) :
    ∀ (fuel v x : Nat), x ∈ A.subtree fuel v → ρ x ≤ ρ v ∧ (A.deref x).isSome = true := by
  intro fuel
  induction fuel with
  | zero => intro v x hx; simp [Arena.subtree] at hx
  | succ fuel ih =>
    intro v x hx
    simp only [Arena.subtree] at hx
    cases hd : A.deref v with
    | none => simp [hd] at hx
    | some nd =>
      simp only [hd, List.mem_cons, List.mem_flatMap] at hx
      rcases hx with h1 | ⟨c, hc, hxc⟩
      · subst h1
        exact ⟨le_refl _, by simp [hd]⟩
      · obtain ⟨h2, h3⟩ := ih c x hxc
        have := (hdown v nd c hd hc).2
        exact ⟨by omega, h3⟩

theorem Arena.subtree_self {A : Arena} {v : Nat} {nd : PseudotreeNode}
    (hd : A.deref v = some nd) (fuel : Nat) : v ∈ A.subtree (fuel + 1) v := by
  simp [Arena.subtree, hd]

/-- A bound of the depth above the rank of the node gives the whole subtree. -/
theorem Arena.subtree_fuel {A : Arena} {ρ : Nat → Nat} (hdown : A.Down ρ) :
    ∀ (f g v : Nat), ρ v < f → ρ v < g → A.subtree f v = A.subtree g v := by
  intro f
  induction f with
  | zero => intro g v h; omega
  | succ f ih =>
    intro g v hf hg
    cases g with
    | zero => omega
    | succ g =>
      simp only [Arena.subtree]
      cases hd : A.deref v with
      | none => rfl
      | some nd =>
        simp only
        congr 1
        refine List.flatMap_congr (fun c hc => ?_)
        have := (hdown v nd c hd hc).2
        exact ih g c (by omega) (by omega)

theorem Arena.height_fuel {A : Arena} {ρ : Nat → Nat} (hdown : A.Down ρ) :
    ∀ (f g v : Nat), ρ v < f → ρ v < g → A.height f v = A.height g v := by
  intro f
  induction f with
  | zero => intro g v h; omega
  | succ f ih =>
    intro g v hf hg
    cases g with
    | zero => omega
    | succ g =>
      simp only [Arena.height]
      cases hd : A.deref v with
      | none => rfl
      | some nd =>
        simp only
        have : nd.m_children.map (A.height f) = nd.m_children.map (A.height g) :=
          List.map_congr_left (fun c hc => by
            have := (hdown v nd c hd hc).2
            exact ih g c (by omega) (by omega))
        rw [this]

theorem foldl_max_le (l : List Int) : ∀ (m : Int), m ≤ l.foldl max m := by
  induction l with
  | nil => intro m; exact le_refl m
  | cons x xs ih => intro m; exact le_trans (le_max_left m x) (ih (max m x))

theorem Arena.height_nonneg (A : Arena) : ∀ (fuel v : Nat), 0 ≤ A.height fuel v := by
  intro fuel
  cases fuel with
  | zero => intro v; exact le_refl _
  | succ fuel =>
    intro v
    simp only [Arena.height]
    cases hd : A.deref v with
    | none => exact le_refl _
    | some nd =>
      simp only
      split
      · exact le_refl _
      · have := foldl_max_le (nd.m_children.map (A.height fuel)) 0
        omega

/-! ## What the recursive updates compute -/

theorem depthHeightKids_content (f : Arena → Nat → Option (Arena × Int)) (g : Nat → Int)
    (sub : Nat → List Nat) (P : Arena → Prop) :
    ∀ (cs : List Nat) (ns : Arena) (m : Int) (ns1 : Arena) (m1 : Int),
      (∀ c ∈ cs, ∀ ns ns1 h, P ns → f ns c = some (ns1, h) →
        P ns1 ∧ (∀ k, k ∉ sub c → ns1.deref k = ns.deref k) ∧ h = g c) →
      P ns → depthHeightKids f cs ns m = some (ns1, m1) →
      P ns1 ∧ (∀ k, (∀ c ∈ cs, k ∉ sub c) → ns1.deref k = ns.deref k)
        ∧ m1 = (cs.map g).foldl max m := by
  intro cs
  induction cs with
  | nil =>
    intro ns m ns1 m1 _ hP h
    simp only [depthHeightKids, Option.some.injEq, Prod.mk.injEq] at h
    rw [← h.1, ← h.2]
    exact ⟨hP, fun _ _ => rfl, rfl⟩
  | cons c cs ih =>
    intro ns m ns1 m1 hf hP h
    simp only [depthHeightKids] at h
    cases e : f ns c with
    | none => simp [e] at h
    | some r =>
      obtain ⟨ns2, h2⟩ := r
      simp only [e] at h
      obtain ⟨p1, l1, g1⟩ := hf c (List.mem_cons_self c cs) ns ns2 h2 hP e
      obtain ⟨p2, l2, g2⟩ := ih ns2 _ ns1 m1 (fun c hc => hf c (List.mem_cons_of_mem _ hc)) p1 h
      refine ⟨p2, fun k hk => ?_, ?_⟩
      · rw [l2 k (fun c hc => hk c (List.mem_cons_of_mem _ hc)),
          l1 k (hk c (List.mem_cons_self c cs))]
      · rw [g2, g1]; rfl

/-- `updateDepthHeight(d)` on the node `v` touches the nodes of the subtree of `v` only,
sets the depth of `v` to `d` and returns the height of the subtree, which it stores in `v`. -/
theorem updateDepthHeight_content {ρ : Nat → Nat} :
    ∀ (fuel : Nat) (A : Arena) (v : Nat) (d : Int) (A1 : Arena) (h : Int), A.Down ρ →
      updateDepthHeight fuel A v d = some (A1, h) →
      (∀ k, k ∉ A.subtree fuel v → A1.deref k = A.deref k) ∧ h = A.height fuel v
        ∧ ∃ nd1, A1.deref v = some nd1 ∧ nd1.m_depth = d ∧ nd1.m_subHeight = h := by
  intro fuel
  induction fuel with
  | zero => intro A v d A1 h _ e; simp [updateDepthHeight] at e
  | succ fuel ih =>
    intro A v d A1 h hdown e
    simp only [updateDepthHeight] at e
    cases hd : A.deref v with
    | none => simp [hd] at e
    | some nd =>
      simp only [hd] at e
      have hsub : A.subtree (fuel + 1) v = v :: nd.m_children.flatMap (A.subtree fuel) := by
        simp only [Arena.subtree, hd]
      by_cases hch : nd.m_children = []
      · simp only [hch, if_true, Option.some.injEq, Prod.mk.injEq] at e
        rw [← e.1, ← e.2]
        refine ⟨fun k hk => ?_, ?_, ?_⟩
        · have hkv : k ≠ v := fun hkv => hk (by rw [hsub, hkv]; exact List.mem_cons_self _ _)
          simp only [Arena.deref_modify, hkv, if_false]
        · simp [Arena.height, hd, hch]
        · simp only [Arena.deref_modify, if_true, hd, Option.map_some']
          exact ⟨_, rfl, rfl, rfl⟩
      · simp only [hch, if_false] at e
        cases ek : depthHeightKids (fun ns c => updateDepthHeight fuel ns c (d + 1))
            nd.m_children (A.modify v (fun x => { x with m_depth := d })) 0 with
        | none => simp [ek] at e
        | some r =>
          obtain ⟨ns2, m⟩ := r
          simp only [ek, Option.some.injEq, Prod.mk.injEq] at e
          have r1 : Arena.Rel PseudotreeNode.SameButDepth A
              (A.modify v (fun x => { x with m_depth := d })) :=
            Arena.Rel.rel_modify PseudotreeNode.SameButDepth.depth_refl A v _ (fun a => rfl)
          obtain ⟨p2, l2, g2⟩ := depthHeightKids_content
            (fun ns c => updateDepthHeight fuel ns c (d + 1)) (A.height fuel) (A.subtree fuel)
            (fun ns => Arena.Rel PseudotreeNode.SameButDepth A ns) nd.m_children _ 0 ns2 m
            (fun c hc ns ns1 h hP e => by
              have hch := hP.children_eq (fun a b hab => by
                unfold PseudotreeNode.SameButDepth at hab; rw [hab])
              obtain ⟨q1, q2, _⟩ := ih ns c (d + 1) ns1 h
                (hdown.down_congr (hP.mono (fun a b hab => hab.depth_similar))) e
              refine ⟨Arena.Rel.rel_trans PseudotreeNode.SameButDepth.depth_trans hP
                (updateDepthHeight_frame PseudotreeNode.SameButDepth.depth_refl
                  PseudotreeNode.SameButDepth.depth_trans (fun a d => rfl) (fun a h => rfl)
                  fuel ns c (d + 1) ns1 h e), ?_, ?_⟩
              · rw [Arena.subtree_congr hch fuel c]; exact q1
              · rw [Arena.height_congr hch fuel c]; exact q2) r1 ek
          rw [← e.1, ← e.2]
          have hv2 : ns2.deref v = some { nd with m_depth := d } := by
            rw [l2 v (fun c hc hvc => by
              have := (hdown v nd c hd hc).2
              have := (Arena.subtree_rank hdown fuel c v hvc).1
              omega), Arena.deref_modify]
            simp [hd]
          refine ⟨fun k hk => ?_, ?_, ?_⟩
          · rw [hsub, List.mem_cons, List.mem_flatMap] at hk
            have hkv : k ≠ v := fun hkv => hk (Or.inl hkv)
            rw [Arena.deref_modify]
            simp only [hkv, if_false]
            rw [l2 k (fun c hc hkc => hk (Or.inr ⟨c, hc, hkc⟩)), Arena.deref_modify]
            simp [hkv]
          · simp only [Arena.height, hd, hch, if_false]
            rw [g2]
          · rw [Arena.deref_modify]
            simp only [if_true, hv2, Option.map_some']
            exact ⟨_, rfl, rfl, rfl⟩

theorem subprobVarsKids_content (f : Arena → Nat → Option (Arena × List Nat)) (v : Nat)
    (sub : Nat → List Nat) (P : Arena → Prop)
    (hmod : ∀ (ns : Arena) (l : List Nat), P ns → P (ns.modify v
      (fun x => { x with m_subproblemVars := x.m_subproblemVars ++ l }))) :
    ∀ (cs : List Nat) (ns ns1 : Arena),
      (∀ c ∈ cs, ∀ ns ns1 vars, P ns → f ns c = some (ns1, vars) →
        P ns1 ∧ (∀ k, k ∉ sub c → ns1.deref k = ns.deref k) ∧ vars.Perm (sub c)) →
      (∀ c ∈ cs, v ∉ sub c) →
      P ns → subprobVarsKids f v cs ns = some ns1 →
      P ns1 ∧ (∀ k, k ≠ v → (∀ c ∈ cs, k ∉ sub c) → ns1.deref k = ns.deref k)
        ∧ ∀ nd, ns.deref v = some nd → ∃ nd1 l, ns1.deref v = some nd1
            ∧ nd1.m_subproblemVars = nd.m_subproblemVars ++ l ∧ l.Perm (cs.flatMap sub) := by
  intro cs
  induction cs with
  | nil =>
    intro ns ns1 _ _ hP h
    simp only [subprobVarsKids, Option.some.injEq] at h
    rw [← h]
    exact ⟨hP, fun _ _ _ => rfl, fun nd hnd => ⟨nd, [], hnd, by simp, by simp⟩⟩
  | cons c cs ih =>
    intro ns ns1 hf hv hP h
    simp only [subprobVarsKids] at h
    cases e : f ns c with
    | none => simp [e] at h
    | some r =>
      obtain ⟨ns2, vars⟩ := r
      simp only [e] at h
      obtain ⟨p1, l1, g1⟩ := hf c (List.mem_cons_self c cs) ns ns2 vars hP e
      obtain ⟨p2, l2, g2⟩ := ih _ ns1 (fun c hc => hf c (List.mem_cons_of_mem _ hc))
        (fun c hc => hv c (List.mem_cons_of_mem _ hc)) (hmod ns2 vars p1) h
      refine ⟨p2, fun k hkv hk => ?_, fun nd hnd => ?_⟩
      · rw [l2 k hkv (fun c hc => hk c (List.mem_cons_of_mem _ hc)), Arena.deref_modify]
        simp only [hkv, if_false]
        exact l1 k (hk c (List.mem_cons_self c cs))
      · have h2 : ns2.deref v = some nd := by
          rw [l1 v (hv c (List.mem_cons_self c cs))]; exact hnd
        obtain ⟨nd1, l, q1, q2, q3⟩ := g2 { nd with
            m_subproblemVars := nd.m_subproblemVars ++ vars } (by
          rw [Arena.deref_modify]; simp [h2])
        refine ⟨nd1, vars ++ l, q1, ?_, ?_⟩
        · rw [q2]; simp
        · simp only [List.flatMap_cons]
          exact List.Perm.append g1 q3

/-- `updateSubprobVars` on the node `v` touches the nodes of the subtree of `v` only and
returns the variables of the subtree, which it stores in `v`. -/
theorem updateSubprobVars_content {ρ : Nat → Nat} (numVars : Nat) :
    ∀ (fuel : Nat) (A : Arena) (v : Nat) (A1 : Arena) (vars : List Nat), A.Down ρ →
      (∀ k nd, A.deref k = some nd → nd.m_var = k) →
      updateSubprobVars numVars fuel A v = some (A1, vars) →
      (∀ k, k ∉ A.subtree fuel v → A1.deref k = A.deref k) ∧ vars.Perm (A.subtree fuel v)
        ∧ ∃ nd1, A1.deref v = some nd1 ∧ nd1.m_subproblemVars = vars := by
  intro fuel
  induction fuel with
  | zero => intro A v A1 vars _ _ e; simp [updateSubprobVars] at e
  | succ fuel ih =>
    intro A v A1 vars hdown hvar e
    simp only [updateSubprobVars] at e
    cases hd : A.deref v with
    | none => simp [hd] at e
    | some nd =>
      simp only [hd] at e
      have hsub : A.subtree (fuel + 1) v = v :: nd.m_children.flatMap (A.subtree fuel) := by
        simp only [Arena.subtree, hd]
      cases ek : subprobVarsKids (fun ns c => updateSubprobVars numVars fuel ns c) v
          nd.m_children (A.modify v (fun x => { x with m_subproblemVars := [x.m_var] })) with
      | none => simp [ek] at e
      | some ns2 =>
        simp only [ek] at e
        have r1 : Arena.Rel PseudotreeNode.SameButVars A
            (A.modify v (fun x => { x with m_subproblemVars := [x.m_var] })) :=
          Arena.Rel.rel_modify PseudotreeNode.SameButVars.vars_refl A v _ (fun a => rfl)
        obtain ⟨p2, l2, g2⟩ := subprobVarsKids_content
          (fun ns c => updateSubprobVars numVars fuel ns c) v (A.subtree fuel)
          (fun ns => Arena.Rel PseudotreeNode.SameButVars A ns)
          (fun ns l hP => Arena.Rel.rel_trans PseudotreeNode.SameButVars.vars_trans hP
            (Arena.Rel.rel_modify PseudotreeNode.SameButVars.vars_refl ns v _ (fun a => rfl)))
          nd.m_children _ ns2
          (fun c hc ns ns1 h hP e => by
            have hch := hP.children_eq (fun a b hab => by
              unfold PseudotreeNode.SameButVars at hab; rw [hab])
            obtain ⟨q1, q2, _⟩ := ih ns c ns1 h
              (hdown.down_congr (hP.mono (fun a b hab => hab.vars_similar)))
              (fun k kd hkd => by
                obtain ⟨a, ha, hab⟩ := hP.right hkd
                rw [← hab.vars_similar.1.1]; exact hvar k a ha) e
            refine ⟨Arena.Rel.rel_trans PseudotreeNode.SameButVars.vars_trans hP
              (updateSubprobVars_frame PseudotreeNode.SameButVars.vars_refl
                PseudotreeNode.SameButVars.vars_trans (fun a l => rfl) (fun a l m => rfl)
                numVars fuel ns c ns1 h e), ?_, ?_⟩
            · rw [Arena.subtree_congr hch fuel c]; exact q1
            · rw [Arena.subtree_congr hch fuel c]; exact q2)
          (fun c hc hvc => by
            have := (hdown v nd c hd hc).2
            have := (Arena.subtree_rank hdown fuel c v hvc).1
            omega) r1 ek
        obtain ⟨nd2, l, hd2, hv2, hl⟩ := g2 { nd with m_subproblemVars := [nd.m_var] } (by
          rw [Arena.deref_modify]; simp [hd])
        simp only [hd2, Option.some.injEq, Prod.mk.injEq] at e
        rw [← e.1, ← e.2]
        refine ⟨fun k hk => ?_, ?_, ?_⟩
        · rw [hsub, List.mem_cons, List.mem_flatMap] at hk
          have hkv : k ≠ v := fun hkv => hk (Or.inl hkv)
          rw [Arena.deref_modify]
          simp only [hkv, if_false]
          rw [l2 k hkv (fun c hc hkc => hk (Or.inr ⟨c, hc, hkc⟩)), Arena.deref_modify]
          simp [hkv]
        · rw [hsub, hv2]
          refine (List.perm_insertionSort _ _).trans ?_
          simp only [List.singleton_append, hvar v nd hd]
          exact List.Perm.cons v hl
        · rw [Arena.deref_modify]
          simp only [if_true, hd2, Option.map_some']
          exact ⟨_, rfl, rfl⟩


/-! ## The loop over the stack in `restrictSubproblem` -/

theorem Arena.subtree_length {A : Arena} {ρ : Nat → Nat} (hdown : A.Down ρ) {F v : Nat}
    {nd : PseudotreeNode} (hd : A.deref v = some nd) (hF : ρ v < F) :
    (A.subtree F v).length
      = 1 + (nd.m_children.map (fun c => (A.subtree F c).length)).sum := by
  cases F with
  | zero => omega
  | succ F =>
    have h1 : A.subtree (F + 1) v = v :: nd.m_children.flatMap (A.subtree F) := by
      simp only [Arena.subtree, hd]
    have h2 : nd.m_children.map (fun c => (A.subtree (F + 1) c).length)
        = nd.m_children.map (fun c => (A.subtree F c).length) :=
      List.map_congr_left (fun c hc => by
        have := (hdown v nd c hd hc).2
        rw [Arena.subtree_fuel hdown (F + 1) F c (by omega) (by omega)])
    rw [h1, h2, List.length_cons, List.length_flatMap]
    have : (List.length ∘ A.subtree F) = fun c => (A.subtree F c).length := rfl
    rw [this]
    omega

/-- The loop over the stack ends when the bound of its turns exceeds the number of nodes
in the subtrees of the nodes on the stack. -/
theorem condWidthLoop_total {A : Arena} {ρ : Nat → Nat} (hdown : A.Down ρ)
    (condset : List Nat) (F : Nat) :
    ∀ (fuel : Nat) (stck : List Nat) (w : Int),
      (∀ n ∈ stck, (A.deref n).isSome = true ∧ ρ n < F) →
      (stck.map (fun n => (A.subtree F n).length)).sum < fuel →
      ∃ w1, condWidthLoop A condset fuel stck w = some w1 := by
  intro fuel
  induction fuel with
  | zero => intro stck w _ h; omega
  | succ fuel ih =>
    intro stck w hs hsum
    cases stck with
    | nil => exact ⟨w, rfl⟩
    | cons n rest =>
      obtain ⟨hn, hρ⟩ := hs n (List.mem_cons_self n rest)
      cases hd : A.deref n with
      | none => simp [hd] at hn
      | some nd =>
        simp only [condWidthLoop, hd]
        refine ih _ _ (fun c hc => ?_) ?_
        · rcases List.mem_append.1 hc with h1 | h1
          · obtain ⟨q1, q2⟩ := hdown n nd c hd (List.mem_reverse.1 h1)
            exact ⟨q1, by omega⟩
          · exact hs c (List.mem_cons_of_mem _ h1)
        · have := Arena.subtree_length hdown hd hρ
          simp only [List.map_cons, List.sum_cons, List.map_append, List.sum_append,
            List.map_reverse, List.sum_reverse] at hsum ⊢
          omega

theorem subprobVarsKids_total (f : Arena → Nat → Option (Arena × List Nat)) (v : Nat)
    (A0 : Arena) :
    ∀ (cs : List Nat) (ns : Arena),
      (∀ c ∈ cs, ∀ ns, Arena.Rel PseudotreeNode.Similar A0 ns →
        ∃ ns1 vars, f ns c = some (ns1, vars) ∧ Arena.Rel PseudotreeNode.Similar A0 ns1) →
      Arena.Rel PseudotreeNode.Similar A0 ns →
      ∃ ns1, subprobVarsKids f v cs ns = some ns1
        ∧ Arena.Rel PseudotreeNode.Similar A0 ns1 := by
  intro cs
  induction cs with
  | nil => intro ns _ h; exact ⟨ns, rfl, h⟩
  | cons c cs ih =>
    intro ns hf h
    obtain ⟨ns1, vars, e1, r1⟩ := hf c (List.mem_cons_self c cs) ns h
    simp only [subprobVarsKids, e1]
    exact ih _ (fun c hc => hf c (List.mem_cons_of_mem _ hc))
      (r1.similar_trans (Arena.Rel.similar_modify _ v _
        (fun a => ⟨⟨rfl, rfl, rfl, List.Perm.refl _⟩, rfl, rfl, rfl⟩)))

/-- `updateSubprobVars` returns when the bound of the depth exceeds the rank of the node. -/
theorem updateSubprobVars_total {ρ : Nat → Nat} (numVars : Nat) :
    ∀ (fuel : Nat) (A : Arena) (v : Nat), A.Down ρ → (A.deref v).isSome = true →
      ρ v < fuel →
      ∃ A1 vars, updateSubprobVars numVars fuel A v = some (A1, vars)
        ∧ Arena.Rel PseudotreeNode.Similar A A1 := by
  intro fuel
  induction fuel with
  | zero => intro A v _ _ h; omega
  | succ fuel ih =>
    intro A v hdown hv hfuel
    cases hd : A.deref v with
    | none => simp [hd] at hv
    | some nd =>
      have r1 : Arena.Rel PseudotreeNode.Similar A
          (A.modify v (fun x => { x with m_subproblemVars := [x.m_var] })) :=
        Arena.Rel.similar_modify A v _ (fun a => ⟨⟨rfl, rfl, rfl, List.Perm.refl _⟩, rfl, rfl, rfl⟩)
      simp only [updateSubprobVars, hd]
      obtain ⟨ns1, e1, r2⟩ := subprobVarsKids_total
        (fun ns c => updateSubprobVars numVars fuel ns c) v A nd.m_children _
        (fun c hc ns hns => by
          obtain ⟨h1, h2⟩ := hdown v nd c hd hc
          obtain ⟨A1, vars, e, r⟩ := ih ns c (hdown.down_congr hns)
            (by rw [hns.isSome c]; exact h1) (by omega)
          exact ⟨A1, vars, e, hns.similar_trans r⟩) r1
      simp only [e1]
      have hv2 : (ns1.deref v).isSome = true := by rw [r2.isSome v, hd]; rfl
      cases hd2 : ns1.deref v with
      | none => simp [hd2] at hv2
      | some nd2 =>
        simp only
        exact ⟨_, _, rfl, r2.similar_trans (Arena.Rel.similar_modify _ v _
          (fun a => ⟨⟨rfl, rfl, rfl, List.Perm.refl _⟩, rfl, rfl, rfl⟩))⟩

/-- The subtree of a node depends on the children of the nodes of no higher rank only. -/
theorem Arena.subtree_local {A B : Arena} {ρ : Nat → Nat} (hdown : A.Down ρ) :
    ∀ (fuel v : Nat),
      (∀ k, ρ k ≤ ρ v → (A.deref k).map PseudotreeNode.m_children
        = (B.deref k).map PseudotreeNode.m_children) →
      A.subtree fuel v = B.subtree fuel v := by
  intro fuel
  induction fuel with
  | zero => intro v _; rfl
  | succ fuel ih =>
    intro v h
    have hv := h v (le_refl _)
    simp only [Arena.subtree]
    cases ha : A.deref v with
    | none =>
      rw [ha] at hv
      cases hb : B.deref v with
      | none => rfl
      | some b => rw [hb] at hv; cases hv
    | some a =>
      rw [ha] at hv
      cases hb : B.deref v with
      | none => rw [hb] at hv; cases hv
      | some b =>
        rw [hb] at hv
        simp only [Option.map_some', Option.some.injEq] at hv
        simp only
        rw [← hv, show a.m_children.flatMap (A.subtree fuel) = a.m_children.flatMap (B.subtree fuel)
          from List.flatMap_congr (fun c hc => ih c (fun k hk => h k (by
            have := (hdown v a c ha hc).2
            omega)))]

/-- The height of a subtree depends on the children of the nodes of no higher rank only. -/
theorem Arena.height_local {A B : Arena} {ρ : Nat → Nat} (hdown : A.Down ρ) :
    ∀ (fuel v : Nat),
      (∀ k, ρ k ≤ ρ v → (A.deref k).map PseudotreeNode.m_children
        = (B.deref k).map PseudotreeNode.m_children) →
      A.height fuel v = B.height fuel v := by
  intro fuel
  induction fuel with
  | zero => intro v _; rfl
  | succ fuel ih =>
    intro v h
    have hv := h v (le_refl _)
    simp only [Arena.height]
    cases ha : A.deref v with
    | none =>
      rw [ha] at hv
      cases hb : B.deref v with
      | none => rfl
      | some b => rw [hb] at hv; cases hv
    | some a =>
      rw [ha] at hv
      cases hb : B.deref v with
      | none => rw [hb] at hv; cases hv
      | some b =>
        rw [hb] at hv
        simp only [Option.map_some', Option.some.injEq] at hv
        simp only
        rw [← hv, show a.m_children.map (A.height fuel) = a.m_children.map (B.height fuel)
          from List.map_congr_left (fun c hc => ih c (fun k hk => h k (by
            have := (hdown v a c ha hc).2
            omega)))]

/-- The steps of `build` after the tree is there: the four recursive updates, and the
members that `build` sets at its end. -/
theorem build_stages (pt0 : Pseudotree) (G : Graph) (n : Nat) (elim : List Nat)
    (cachelimit : Int) (hrep : G.Rep) (hsim : G.Simple) (hnodes : G.NodesAre n)
    (hperm : elim.Perm (List.range n)) (hlim : cachelimit = NONE ∨ 0 ≤ cachelimit)
    (hready : pt0.Ready n) :
    ∃ pt T nodes3 hgt nodes4 w nodes5 vars, Pseudotree.build pt0 G elim cachelimit = some pt
      ∧ TreeInv G n elim cachelimit T
      ∧ updateDepthHeight (T.length + 1) T n (-1) = some (nodes3, hgt)
      ∧ updateSubWidth (nodes3.length + 1) nodes3 n = some (nodes4, w)
      ∧ orderAll (if pt0.m_height ≠ UNKNOWN then pt0.reset else pt0).m_subOrder
          (List.range nodes4.length) nodes4 = some nodes5
      ∧ updateSubprobVars nodes5.length (nodes5.length + 1) nodes5 n = some (pt.m_nodes, vars)
      ∧ Arena.Rel PseudotreeNode.Similar T pt.m_nodes
      ∧ pt.m_root = some n ∧ pt.m_height = hgt - 1 ∧ pt.m_size = (vars.length : Int) - 1 := by
  obtain ⟨hnd, hlen, hmem⟩ := perm_range_facts hperm
  have hptn : (if pt0.m_height ≠ UNKNOWN then pt0.reset else pt0).m_nodes
      = List.replicate n none := by
    split
    · simp [Pseudotree.reset, hready.1]
    · rename_i hh
      rcases hready.2 with h1 | h1
      · exact absurd h1 hh
      · exact h1
  have hstat : G.getStatNodes = (n : Int) := by
    unfold Graph.getStatNodes
    rw [hrep.statNodes, keys_length_of_nodesAre hrep hnodes]
  obtain ⟨st, e1, hF⟩ := buildLoop_spec hnd (fun k hk => (hmem k).1 hk) elim []
    { G := G, m_width := (if pt0.m_height ≠ UNKNOWN then pt0.reset else pt0).m_width,
      m_nodes := List.replicate n none, roots := [] } rfl
    (ForestInv.init_forest elim _ hrep hsim hnodes)
  have hD := hF.done hperm
  obtain ⟨nodes1, T, e2, e3, hT⟩ := forest_finish hperm hD cachelimit hlim
    (if pt0.m_height ≠ UNKNOWN then pt0.reset else pt0).m_components
  obtain ⟨nodes3, hgt, nodes4, w, nodes5, nodes6, vars, e4, e5, e6, e7, hrel⟩ :=
    tree_updates_rel hperm hT (if pt0.m_height ≠ UNKNOWN then pt0.reset else pt0).m_subOrder
  have hb : ∃ pt, Pseudotree.build pt0 G elim cachelimit = some pt ∧ pt.m_nodes = nodes6
      ∧ pt.m_root = some n ∧ pt.m_height = hgt - 1 ∧ pt.m_size = (vars.length : Int) - 1 := by
    simp only [Pseudotree.build, hptn, hstat, List.length_replicate, hlen, and_self, if_true,
      e1, e2, e3, e4, e5, e6, e7]
    exact ⟨_, rfl, rfl, rfl, rfl, rfl⟩
  obtain ⟨pt, hpt1, hpt2, hpt3, hpt4, hpt5⟩ := hb
  rw [← hpt2] at hrel e7
  exact ⟨pt, T, nodes3, hgt, nodes4, w, nodes5, vars, hpt1, hT, e4, e5, e6, e7, hrel,
    hpt3, hpt4, hpt5⟩

/-! ## The subtrees of a tree -/

theorem Arena.Reaches.cases_head {A : Arena} {k v : Nat} (hr : A.Reaches k v) :
    k = v ∨ ∃ nd p, A.deref k = some nd ∧ nd.m_parent = some p ∧ A.Reaches p v := by
  induction hr with
  | refl => exact Or.inl rfl
  | step hr hc hp ih =>
    rcases ih with h1 | ⟨nd, p, h1, h2, h3⟩
    · right
      rw [h1]
      exact ⟨_, _, hc, hp, Arena.Reaches.refl _⟩
    · exact Or.inr ⟨nd, p, h1, h2, Arena.Reaches.step h3 hc hp⟩

/-- The nodes that the parent links reach from one node form a chain. -/
theorem Arena.Reaches.chain {A : Arena} {x a b : Nat} (h1 : A.Reaches x a)
    (h2 : A.Reaches x b) : A.Reaches a b ∨ A.Reaches b a := by
  induction h1 with
  | refl => exact Or.inl h2
  | step hr hc hp ih =>
    rcases ih with h3 | h3
    · rcases h3.cases_head with h4 | ⟨nd, p, h4, h5, h6⟩
      · right
        rw [← h4]
        exact Arena.Reaches.step (Arena.Reaches.refl _) hc hp
      · left
        rw [hc] at h4
        cases h4
        rw [hp] at h5
        cases h5
        exact h6
    · exact Or.inr (Arena.Reaches.step h3 hc hp)

theorem TreeInv.reaches_rank {G0 : Graph} {n : Nat} {elim : List Nat} {cachelimit : Int}
    {T : Arena} (hperm : elim.Perm (List.range n)) (h : TreeInv G0 n elim cachelimit T)
    {a b : Nat} (hr : T.Reaches a b) : elim.indexOf a ≤ elim.indexOf b := by
  induction hr with
  | refl => exact le_refl _
  | step _ hc hp ih =>
    have := (h.rank_lt hperm hc hp).2.2.1
    omega

theorem TreeInv.subtree_reaches {G0 : Graph} {n : Nat} {elim : List Nat} {cachelimit : Int}
    {T : Arena} (h : TreeInv G0 n elim cachelimit T) :
    ∀ (fuel v x : Nat), x ∈ T.subtree fuel v → T.Reaches x v := by
  intro fuel
  induction fuel with
  | zero => intro v x hx; simp [Arena.subtree] at hx
  | succ fuel ih =>
    intro v x hx
    simp only [Arena.subtree] at hx
    cases hd : T.deref v with
    | none => simp [hd] at hx
    | some nd =>
      simp only [hd, List.mem_cons, List.mem_flatMap] at hx
      rcases hx with h1 | ⟨c, hc, hxc⟩
      · rw [h1]; exact Arena.Reaches.refl v
      · obtain ⟨_, cn, hcn, hcp⟩ := h.children v nd c hd hc
        exact Arena.Reaches.step (ih c x hxc) hcn hcp

theorem TreeInv.children_nodup {G0 : Graph} {n : Nat} {elim : List Nat} {cachelimit : Int}
    {T : Arena} (h : TreeInv G0 n elim cachelimit T) {p : Nat} {pn : PseudotreeNode}
    (hp : T.deref p = some pn) : pn.m_children.Nodup := by
  rw [List.nodup_iff_count_le_one]
  intro c
  by_cases hc : c ∈ pn.m_children
  · obtain ⟨hcn, cn, hcd, hcp⟩ := h.children p pn c hp hc
    obtain ⟨p2, pn2, h1, _, h2, h3, _⟩ := h.parent c cn hcn hcd
    rw [hcp] at h1
    cases h1
    rw [hp] at h2
    cases h2
    omega
  · rw [List.count_eq_zero_of_not_mem hc]
    omega

/-- In the tree no variable is twice in a subtree. -/
theorem TreeInv.subtree_nodup {G0 : Graph} {n : Nat} {elim : List Nat} {cachelimit : Int}
    {T : Arena} (hperm : elim.Perm (List.range n)) (h : TreeInv G0 n elim cachelimit T) :
    ∀ (fuel v : Nat), (T.subtree fuel v).Nodup := by
  intro fuel
  induction fuel with
  | zero => intro v; simp [Arena.subtree]
  | succ fuel ih =>
    intro v
    simp only [Arena.subtree]
    cases hd : T.deref v with
    | none => simp
    | some nd =>
      simp only
      rw [List.nodup_cons, List.nodup_flatMap]
      refine ⟨?_, fun c _ => ih c, ?_⟩
      · intro hv
        obtain ⟨c, hc, hvc⟩ := List.mem_flatMap.1 hv
        have h1 : elim.indexOf c < elim.indexOf v := (h.down hperm v nd c hd hc).2
        have h2 : elim.indexOf v ≤ elim.indexOf c :=
          (Arena.subtree_rank (h.down hperm) fuel c v hvc).1
        omega
      · have hnd : List.Pairwise (fun a b => a ≠ b) nd.m_children := h.children_nodup hd
        refine List.Pairwise.imp_of_mem ?_ hnd
        · intro a b ha hb hab x hxa hxb
          have key : ∀ c1 c2, c1 ∈ nd.m_children → c2 ∈ nd.m_children → c1 ≠ c2 →
              T.Reaches c1 c2 → False := by
            intro c1 c2 hc1 hc2 hne hr
            rcases hr.cases_head with h4 | ⟨cn, p, h4, h5, h6⟩
            · exact hne h4
            · obtain ⟨_, cn1, hcn1, hcp1⟩ := h.children v nd c1 hd hc1
              rw [hcn1] at h4
              cases h4
              rw [hcp1] at h5
              cases h5
              have h7 : elim.indexOf v ≤ elim.indexOf c2 := h.reaches_rank hperm h6
              have h8 : elim.indexOf c2 < elim.indexOf v := (h.down hperm v nd c2 hd hc2).2
              omega
          rcases (h.subtree_reaches fuel a x hxa).chain (h.subtree_reaches fuel b x hxb)
            with h3 | h3
          · exact key a b ha hb hab h3
          · exact key b a hb ha (fun e => hab e.symm) h3

/-- `updateDepthHeight(d)` on a node with one child leaves the child at depth `d + 1`. -/
theorem updateDepthHeight_child {ρ : Nat → Nat} {fuel : Nat} {A A1 : Arena} {v c : Nat}
    {d h : Int} {nd : PseudotreeNode} (hdown : A.Down ρ) (hd : A.deref v = some nd)
    (hch : nd.m_children = [c]) (e : updateDepthHeight (fuel + 1) A v d = some (A1, h)) :
    ∃ cd, A1.deref c = some cd ∧ cd.m_depth = d + 1 := by
  have hcv : c ≠ v := by
    intro hcv
    have := (hdown v nd c hd (by rw [hch]; exact List.mem_singleton_self c)).2
    rw [hcv] at this
    omega
  simp only [updateDepthHeight, hd, hch, List.cons_ne_nil, if_false, depthHeightKids] at e
  cases e1 : updateDepthHeight fuel (A.modify v (fun x => { x with m_depth := d })) c (d + 1) with
  | none => simp [e1] at e
  | some r =>
    obtain ⟨ns1, h1⟩ := r
    simp only [e1, Option.some.injEq, Prod.mk.injEq] at e
    have hdown1 : (A.modify v (fun x => { x with m_depth := d })).Down ρ :=
      hdown.down_congr (Arena.Rel.similar_modify A v _
        (fun a => ⟨⟨rfl, rfl, rfl, List.Perm.refl _⟩, rfl, rfl, rfl⟩))
    obtain ⟨_, _, cd, hcd, hdep, _⟩ := updateDepthHeight_content fuel _ c (d + 1) ns1 h1 hdown1 e1
    refine ⟨cd, ?_, hdep⟩
    rw [← e.1, Arena.deref_modify]
    simp only [hcv, if_false]
    exact hcd

/-- After `build` the dummy root has depth -1. -/
theorem build_root_depth (pt0 : Pseudotree) (G : Graph) (n : Nat) (elim : List Nat)
    (cachelimit : Int) (hrep : G.Rep) (hsim : G.Simple) (hnodes : G.NodesAre n)
    (hperm : elim.Perm (List.range n)) (hlim : cachelimit = NONE ∨ 0 ≤ cachelimit)
    (hready : pt0.Ready n) :
    ∃ pt rd, Pseudotree.build pt0 G elim cachelimit = some pt
      ∧ TreeInv G n elim cachelimit pt.m_nodes ∧ pt.m_root = some n
      ∧ pt.m_nodes.deref n = some rd ∧ rd.m_depth = -1 := by
  obtain ⟨pt, T, nodes3, hgt, nodes4, w, nodes5, vars, hb, hT, e4, e5, e6, e7, hrel, hroot,
    _, _⟩ := build_stages pt0 G n elim cachelimit hrep hsim hnodes hperm hlim hready
  obtain ⟨_, _, nd3, hnd3, hdep, _⟩ :=
    updateDepthHeight_content (T.length + 1) T n (-1) nodes3 hgt (hT.down hperm) e4
  have hR1 : ∀ a : PseudotreeNode, a.m_depth = a.m_depth := fun _ => rfl
  have hR2 : ∀ a b c : PseudotreeNode, a.m_depth = b.m_depth → b.m_depth = c.m_depth →
      a.m_depth = c.m_depth := fun _ _ _ h1 h2 => h1.trans h2
  have r5 := updateSubWidth_frame hR1 hR2 (fun a w => rfl) _ _ _ _ _ e5
  have r6 := orderAll_frame hR1 hR2 (fun a l _ => rfl) _ _ _ _ e6
  have r7 := updateSubprobVars_frame hR1 hR2 (fun a l => rfl) (fun a l m => rfl) _ _ _ _ _ _ e7
  obtain ⟨nd4, hnd4, h4⟩ := r5.left hnd3
  obtain ⟨nd5, hnd5, h5⟩ := r6.left hnd4
  obtain ⟨nd6, hnd6, h6⟩ := r7.left hnd5
  exact ⟨pt, nd6, hb, hT.tree_congr hrel, hroot, hnd6, by rw [← h6, ← h5, ← h4, hdep]⟩

/-! ## C21 -/

/-- C21. Let `n` be an AND node that has not been expanded. When its variable has no child
in the pseudo tree, `generateChildrenAND` marks `n` as a leaf with the value `ELEM_ONE`,
counts one leaf and returns `true`. When the costs of the first new OR nodes are computed
with a heuristic other than `ELEM_ZERO` and the next new OR node gets the heuristic
`ELEM_ZERO`, it deletes every new node, leaves `n` without children, marks `n` as a leaf
with the value `ELEM_ZERO`, counts one leaf and returns `true`, with `chi` empty. -/
theorem generateChildrenAND_dead_end (hr : Heuristic) (s : Search) (n : Nat)
    (nd : SearchNode) (ptnode : PseudotreeNode) (hn : s.heap.deref n = some nd)
    (htype : nd.getType = NodeType.NODE_AND) (hnew : nd.m_children = none)
    (hvar : nd.getVar < s.stats.numANDVar.length)
    (hpt : s.m_pseudotree.getNode nd.getVar = some ptnode)
    (hprof : 0 ≤ nd.getDepth → nd.getDepth.toNat < s.m_nodeProfile.length)
    (hleaf : nd.getDepth ≠ -1 →
      0 ≤ nd.getDepth ∧ nd.getDepth.toNat < s.m_leafProfile.length) :
    (ptnode.m_children = [] →
      ∃ s1 nd1, s.generateChildrenAND hr n [] = some (true, s1, [])
        ∧ s1.heap.deref n = some nd1 ∧ nd1 = (nd.setLeaf).setValue ELEM_ONE
        ∧ nd1.m_leaf = true ∧ nd1.getValue = ELEM_ONE ∧ nd1.m_children = none
        ∧ s1.stats.numLeaf = s.stats.numLeaf + 1
        ∧ s1.heap.length = s.heap.length
        ∧ (∀ k, k ≠ n → s1.heap.deref k = s.heap.deref k))
    ∧ (∀ (L1 : List Nat) (c : Nat) (L2 : List Nat),
        ptnode.m_children.reverse = L1 ++ c :: L2 →
        (∀ (j c1 : Nat), L1[j]? = some c1 → ∃ pcn dv h cost,
          s.m_pseudotree.getNode c1 = some pcn
          ∧ orCosts hr s.m_domains s.m_assignment pcn.m_var (s.heap.length + j)
              = some (dv, h, cost)
          ∧ Dbl.eq h ELEM_ZERO = false) →
        (∃ pcn dv h cost, s.m_pseudotree.getNode c = some pcn
          ∧ orCosts hr s.m_domains s.m_assignment pcn.m_var (s.heap.length + L1.length)
              = some (dv, h, cost)
          ∧ Dbl.eq h ELEM_ZERO = true) →
        ∃ s1 nd1, s.generateChildrenAND hr n [] = some (true, s1, [])
          ∧ s1.heap.deref n = some nd1 ∧ nd1 = (nd.setLeaf).setValue ELEM_ZERO
          ∧ nd1.m_leaf = true ∧ nd1.getValue = ELEM_ZERO ∧ nd1.m_children = none
          ∧ s1.stats.numLeaf = s.stats.numLeaf + 1
          ∧ (∀ k, s.heap.length ≤ k → s1.heap.deref k = none)
          ∧ (∀ k, k < s.heap.length → k ≠ n → s1.heap.deref k = s.heap.deref k)) := by
  obtain ⟨nv, hnv, _⟩ := bump_some s.stats.numANDVar (nd.getVar : Int) 1
    ⟨by omega, by simpa using hvar⟩
  obtain ⟨np, hnp⟩ : ∃ np, (if nd.getDepth ≥ 0 then bump s.m_nodeProfile nd.getDepth 1
      else some s.m_nodeProfile) = some np := by
    by_cases hdep : nd.getDepth ≥ 0
    · obtain ⟨w, hw, _⟩ := bump_some s.m_nodeProfile nd.getDepth 1 ⟨hdep, hprof hdep⟩
      exact ⟨w, by rw [if_pos hdep]; exact hw⟩
    · exact ⟨_, by rw [if_neg hdep]⟩
  obtain ⟨st2, hst2⟩ : ∃ st2 : SearchStats, st2 =
      { s.stats with numExpAND := s.stats.numExpAND + 1, numANDVar := nv } := ⟨_, rfl⟩
  obtain ⟨s0, hs0⟩ : ∃ s0 : Search, s0 = { s with stats := st2, m_nodeProfile := np } :=
    ⟨_, rfl⟩
  have hnlt := Heap.deref_bound hn
  have hh0 : s0.heap = s.heap := by rw [hs0]
  have hgen : s.generateChildrenAND hr n [] =
      (match Search.andChildren hr n nd.getDepth ptnode.m_children.reverse s0 [] with
        | none => none
        | some (true, s2, chi2) =>
          match s2.leafAND n nd.getDepth ELEM_ZERO with
          | none => none
          | some s3 => some (true, s3, chi2)
        | some (false, s2, chi2) =>
          if chi2.isEmpty then
            match s2.leafAND n nd.getDepth ELEM_ONE with
            | none => none
            | some s3 => some (true, s3, chi2)
          else
            let sorted : List Nat :=
              match s2.subprobOrder with
              | HeurOrder.heurInc => (chi2.reverse.insertionSort (heurLess s2.heap)).reverse
              | HeurOrder.heurDec => chi2.insertionSort (heurLess s2.heap)
              | HeurOrder.other => chi2
            let heap1 := s2.heap.modify n (fun x => x.addChildren sorted)
            some (false, { s2 with heap := heap1 }, sorted)) := by
    subst hs0
    subst hst2
    simp only [Search.generateChildrenAND, hn, htype, ne_eq, not_true_eq_false, if_false, hnew,
      Option.isSome_none, Bool.false_eq_true, false_and, hnv, hpt, hnp]
  constructor
  · intro hK
    obtain ⟨s3, l1, l2, l3⟩ := leafAND_some s0 n nd.getDepth ELEM_ONE
      (by rw [hs0]; exact hleaf)
    refine ⟨s3, (nd.setLeaf).setValue ELEM_ONE, ?_, ?_, rfl, rfl, rfl, hnew, ?_, ?_, ?_⟩
    · rw [hgen, hK]
      simp only [List.reverse_nil, Search.andChildren, List.isEmpty_nil, if_true, l1]
    · rw [l2, hh0, Heap.deref_update, if_pos rfl, hn]; rfl
    · rw [l3, hs0, hst2]
    · rw [l2, hh0, Heap.length_update]
    · intro k hk
      rw [l2, hh0, Heap.deref_update, if_neg hk]
  · intro L1 c L2 hK hgood hzero
    obtain ⟨s2, e1, e2, e3, e4, e5, e6, e7, e8, e9, e10⟩ :=
      andChildren_dead hr n nd.getDepth c L2 L1 s0 [] (by rw [hs0]; exact hgood)
        (by rw [hs0]; exact hzero)
    obtain ⟨s3, l1, l2, l3⟩ := leafAND_some s2 n nd.getDepth ELEM_ZERO
      (by rw [e7, hs0]; exact hleaf)
    have hd2 : s2.heap.deref n = some nd := by
      rw [e3, hh0, if_pos ⟨hnlt, by simp⟩]; exact hn
    refine ⟨s3, (nd.setLeaf).setValue ELEM_ZERO, ?_, ?_, rfl, rfl, rfl, hnew, ?_, ?_, ?_⟩
    · rw [hgen, hK, e1]
      simp only [l1]
    · rw [l2, Heap.deref_update, if_pos rfl, hd2]; rfl
    · rw [l3, e9, hs0, hst2]
    · intro k hk
      rw [l2, Heap.deref_update, if_neg (by omega), e3, hh0, if_neg (by omega)]
    · intro k hk hkn
      rw [l2, Heap.deref_update, if_neg hkn, e3, hh0, if_pos ⟨hk, by simp⟩]

theorem generateChildrenAND_dead_end_witness :
    (∃ s1 nd1, exampleSearchLeaf.generateChildrenAND exampleHeuristic 7 []
          = some (true, s1, [])
        ∧ s1.heap.deref 7 = some nd1 ∧ nd1 = (exampleNodeLeaf.setLeaf).setValue ELEM_ONE
        ∧ nd1.m_leaf = true ∧ nd1.getValue = ELEM_ONE ∧ nd1.m_children = none
        ∧ s1.stats.numLeaf = exampleSearchLeaf.stats.numLeaf + 1
        ∧ s1.heap.length = exampleSearchLeaf.heap.length
        ∧ (∀ k, k ≠ 7 → s1.heap.deref k = exampleSearchLeaf.heap.deref k))
    ∧ (∃ s1 nd1, exampleSearch.generateChildrenAND deadHeuristic 5 [] = some (true, s1, [])
        ∧ s1.heap.deref 5 = some nd1 ∧ nd1 = (exampleNodeAND.setLeaf).setValue ELEM_ZERO
        ∧ nd1.m_leaf = true ∧ nd1.getValue = ELEM_ZERO ∧ nd1.m_children = none
        ∧ s1.stats.numLeaf = exampleSearch.stats.numLeaf + 1
        ∧ (∀ k, exampleSearch.heap.length ≤ k → s1.heap.deref k = none)
        ∧ (∀ k, k < exampleSearch.heap.length → k ≠ 5 →
            s1.heap.deref k = exampleSearch.heap.deref k)) :=
  ⟨(generateChildrenAND_dead_end exampleHeuristic exampleSearchLeaf 7 exampleNodeLeaf
      (examplePTNode 0) (by decide) rfl rfl (by decide) (by decide) (by decide)
      (by decide)).1 (by decide),
   (generateChildrenAND_dead_end deadHeuristic exampleSearch 5 exampleNodeAND
      (examplePTNode 1) (by decide) rfl rfl (by decide) (by decide) (by decide)
      (by decide)).2 [] 0 [] (by decide) (fun j c1 hj => by simp at hj)
      ⟨examplePTNode 0, [Dbl.ninf, Dbl.fin 0, Dbl.ninf, Dbl.fin 0], Dbl.ninf,
        [Dbl.fin 0, Dbl.fin 0], by decide, by decide, by decide⟩⟩

/-! ## C22 -/

/-- C22 fails as it is stated. At the start of the search of the examples, with the root
on the stack, the budget `maxTime = 0` and a clock that reads 1000 seconds after the start
at every call, `nextLeaf` ends the run by `exit(0)` at its first test of the budget, which
comes after the root has been expanded: `numExpOR` is 1. With a clock that still reads the
second of the start at every call the run is not ended at all: `nextLeaf` returns a leaf
after four OR nodes and four AND nodes have been expanded. -/
theorem budget_after_expansion :
    (nextLeaf emptyRead (fun c _ => c) bbNextNode (bbExpand exampleHeuristic)
      (fun _ => 1000) 0 0 1 exampleRunStart 0).map
        (fun x => (x.1, x.2.1.search.stats.numExpOR, x.2.1.search.stats.numExpAND, x.2.2))
      = some (LeafResult.exit0, 1, 0, 1)
    ∧ exampleRunStart.search.stats.numExpOR = 0
    ∧ (nextLeaf emptyRead (fun c _ => c) bbNextNode (bbExpand exampleHeuristic)
      (fun _ => 0) 0 0 20 exampleRunStart 0).map
        (fun x => (x.1, x.2.1.search.stats.numExpOR, x.2.1.search.stats.numExpAND, x.2.2))
      = some (LeafResult.leaf 9, 4, 4, 7) := by
  decide

/-- C22, amended. `nextLeaf` tests the budget only after a node has gone through
`doProcess`, `doCaching`, `doPruning` and `doExpand` without becoming a leaf and the next
node has been fetched. With `maxTime = 0`, when the first node does not become a leaf, the
run is ended by `exit(0)` at the first test exactly when the clock then reads more than
the second of the start, in the state that the expansion of the first node and the fetch
of the next have left; otherwise the loop goes on with the next node. Whenever the run is
ended, the clock has read more than the second of the start at the last test and not at
any test before. -/
theorem nextLeaf_budget {C D : Type} (read : C → Nat → Nat → List Int → Dbl × List Int)
    (reset : C → Nat → C) (nextNode : Run C D → Option (Option Nat × Run C D))
    (doExpand : Run C D → Nat → Option (Bool × Run C D)) (clock : Nat → Int)
    (timeStart : Int) (fuel k : Nat) (r r1 r4 r5 : Run C D) (node : Nat)
    (next : Option Nat) (s1 s2 s3 : Search) (c2 : C)
    (h0 : nextNode r = some (some node, r1))
    (h1 : r1.search.doProcess node = some (false, s1))
    (h2 : s1.doCaching read reset r1.cache node = some (false, c2, s2))
    (h3 : s2.doPruning node = some (false, s3))
    (h4 : doExpand { r1 with search := s3, cache := c2 } node = some (false, r4))
    (h5 : nextNode r4 = some (next, r5)) :
    (timeStart < clock k →
      nextLeaf read reset nextNode doExpand clock timeStart 0 (fuel + 1) r k
        = some (LeafResult.exit0, r5, k + 1))
    ∧ (clock k ≤ timeStart →
      nextLeaf read reset nextNode doExpand clock timeStart 0 (fuel + 1) r k
        = nextLeafLoop read reset nextNode doExpand clock timeStart 0 fuel next r5
            (k + 1))
    ∧ (∀ (fuel1 : Nat) (r6 : Run C D) (k1 : Nat),
      nextLeaf read reset nextNode doExpand clock timeStart 0 fuel1 r k
        = some (LeafResult.exit0, r6, k1) →
      k < k1 ∧ timeStart < clock (k1 - 1)
        ∧ ∀ j, k ≤ j → j < k1 - 1 → clock j ≤ timeStart) := by
  refine ⟨?_, ?_, ?_⟩
  · intro hc
    have : clock k - timeStart > 0 := by omega
    simp only [nextLeaf, h0, nextLeafLoop, h1, h2, h3, h4, h5, this, if_true]
  · intro hc
    have : ¬ clock k - timeStart > 0 := by omega
    simp only [nextLeaf, h0, nextLeafLoop, h1, h2, h3, h4, h5, this, if_false]
  · intro fuel1 r6 k1 h
    simp only [nextLeaf, h0] at h
    obtain ⟨a1, a2, a3⟩ := nextLeafLoop_exit read reset nextNode doExpand clock timeStart 0
      fuel1 (some node) r1 k r6 k1 h
    refine ⟨a1, by omega, ?_⟩
    intro j hj1 hj2
    have := a3 j hj1 hj2
    omega

theorem nextLeaf_budget_witness :
    ((0 : Int) < (fun _ => (1000 : Int)) 0 →
      nextLeaf emptyRead (fun c _ => c) bbNextNode (bbExpand exampleHeuristic)
          (fun _ => 1000) 0 0 (0 + 1) exampleRunStart 0
        = some (LeafResult.exit0, { exampleRunExpanded with driver := [] }, 0 + 1))
    ∧ ((fun _ => (1000 : Int)) 0 ≤ 0 →
      nextLeaf emptyRead (fun c _ => c) bbNextNode (bbExpand exampleHeuristic)
          (fun _ => 1000) 0 0 (0 + 1) exampleRunStart 0
        = nextLeafLoop emptyRead (fun c _ => c) bbNextNode (bbExpand exampleHeuristic)
            (fun _ => 1000) 0 0 0 (some 1) { exampleRunExpanded with driver := [] } (0 + 1))
    ∧ (∀ (fuel1 : Nat) (r6 : Run Unit (List Nat)) (k1 : Nat),
      nextLeaf emptyRead (fun c _ => c) bbNextNode (bbExpand exampleHeuristic)
          (fun _ => 1000) 0 0 fuel1 exampleRunStart 0
        = some (LeafResult.exit0, r6, k1) →
      0 < k1 ∧ (0 : Int) < (fun _ => (1000 : Int)) (k1 - 1)
        ∧ ∀ j, 0 ≤ j → j < k1 - 1 → (fun _ => (1000 : Int)) j ≤ 0) :=
  nextLeaf_budget emptyRead (fun c _ => c) bbNextNode (bbExpand exampleHeuristic)
    (fun _ => 1000) 0 0 0 exampleRunStart { exampleRunStart with driver := [] }
    exampleRunExpanded { exampleRunExpanded with driver := [] } 0 (some 1)
    exampleRunProcessed.search exampleRunProcessed.search exampleRunProcessed.search ()
    rfl rfl rfl rfl rfl rfl

/-! ## C23 -/

/-- C23. When `m_solved` is true or the option `nosearch` is set, `runSearch` returns
`true` and leaves every member as it is: the flags `m_started` and `m_solved`, the search
space and the problem. It does so whatever `runSearchWorker` is, also one that fails at
every call, so no search routine is invoked. -/
theorem runSearch_idempotent {σ : Type}
    (runSearchWorker : Main σ → Nat → Option (Bool × Main σ)) (m : Main σ)
    (nodeLimit : Nat) (b : Bool) (hopt : m.nosearch = some b)
    (h : b = true ∨ m.m_solved = true) :
    m.runSearch runSearchWorker nodeLimit = some (true, m)
      ∧ m.runSearch (fun _ _ => none) nodeLimit = some (true, m) := by
  cases b with
  | true => simp [Main.runSearch, hopt]
  | false =>
    rcases h with h | h
    · cases h
    · simp [Main.runSearch, hopt, h]

theorem runSearch_idempotent_witness :
    Main.runSearch (fun m _ => some (false, { m with rest := m.rest + 1 }))
        { m_solved := true, m_started := true, nosearch := some false, rest := (7 : Nat) } 0
      = some (true,
          { m_solved := true, m_started := true, nosearch := some false, rest := (7 : Nat) })
    ∧ Main.runSearch (fun _ _ => none)
        { m_solved := true, m_started := true, nosearch := some false, rest := (7 : Nat) } 0
      = some (true,
          { m_solved := true, m_started := true, nosearch := some false, rest := (7 : Nat) }) :=
  runSearch_idempotent (fun m _ => some (false, { m with rest := m.rest + 1 }))
    { m_solved := true, m_started := true, nosearch := some false, rest := (7 : Nat) } 0 false
    rfl (Or.inr rfl)

/-! ## C24 -/

/-- C24. For a tuple and limits of equal length with `0 <= tuple[j] < limit[j]`,
`increaseTuple` raises `idx` by exactly 1. It answers `false` exactly when every entry is
one below its limit (also for the empty tuple) and then resets the tuple to zeros.
Otherwise it answers `true` and the new tuple is the successor in row-major order: the last
entry that is not one below its limit is raised by one and the entries behind it are set to
zero, so the new tuple is within the limits and its row-major offset is that of the old one
plus 1; when `idx` was the offset of the old tuple it is the offset of the new one. -/
theorem increaseTuple_successor (idx : Nat) (tuple limit : List Int)
    (hlen : tuple.length = limit.length)
    (hrange : ∀ j, j < tuple.length → 0 ≤ tuple.getD j 0 ∧ tuple.getD j 0 < limit.getD j 0)
    (hidx : idx + 1 < 2 ^ 64) :
    ∃ b t1, increaseTuple idx tuple limit = some (b, idx + 1, t1)
      ∧ t1.length = tuple.length
      ∧ (b = false ↔ ∀ j, j < tuple.length → tuple.getD j 0 = limit.getD j 0 - 1)
      ∧ (b = false → t1 = List.replicate tuple.length 0)
      ∧ (b = true →
          (∃ A1 a A2, tuple = A1 ++ a :: A2 ∧ t1 = A1 ++ (a + 1) :: List.replicate A2.length 0
            ∧ a ≠ limit.getD A1.length 0 - 1
            ∧ ∀ j, j < A2.length → A2.getD j 0 = limit.getD (A1.length + 1 + j) 0 - 1)
          ∧ (∀ j, j < t1.length → 0 ≤ t1.getD j 0 ∧ t1.getD j 0 < limit.getD j 0)
          ∧ rowMajorOffset t1 limit = rowMajorOffset tuple limit + 1
          ∧ ((idx : Int) = rowMajorOffset tuple limit →
              ((idx + 1 : Nat) : Int) = rowMajorOffset t1 limit)) := by
  have hmod : (idx + 1) % 2 ^ 64 = idx + 1 := Nat.mod_eq_of_lt hidx
  have hspec := increaseLoop_spec tuple [] limit (fun j hj => (hrange j hj).2)
  simp only [List.append_nil] at hspec
  rcases hspec with ⟨h1, h2⟩ | ⟨A1, a, A2, e1, e2, e3, e4⟩
  · refine ⟨false, List.replicate tuple.length 0, ?_, by simp, ?_, fun _ => rfl,
      fun h => by cases h⟩
    · rw [increaseTuple, if_pos hlen]
      simp only [h2, hmod]
      simp
    · simp only [true_iff]; exact h1
  · have hlenA : tuple.length = A1.length + 1 + A2.length := by rw [e1]; simp; omega
    have hnot : ¬ ∀ j, j < tuple.length → tuple.getD j 0 = limit.getD j 0 - 1 := by
      intro hall
      have := hall A1.length (by omega)
      rw [e1, List.getD_append_right _ _ _ _ (le_refl _), Nat.sub_self,
        List.getD_cons_zero] at this
      exact e2 this
    have hget : ∀ j, tuple.getD j 0 = (A1 ++ a :: A2).getD j 0 := by intro j; rw [e1]
    have hvalid : ∀ j, j < (A1 ++ (a + 1) :: List.replicate A2.length 0).length →
        0 ≤ (A1 ++ (a + 1) :: List.replicate A2.length 0).getD j 0
        ∧ (A1 ++ (a + 1) :: List.replicate A2.length 0).getD j 0 < limit.getD j 0 := by
      intro j hj
      have hj2 : j < tuple.length := by
        simp only [List.length_append, List.length_cons, List.length_replicate] at hj
        omega
      have hr := hrange j hj2
      rw [hget] at hr
      by_cases c1 : j < A1.length
      · rw [List.getD_append _ _ _ _ c1] at hr ⊢
        exact hr
      · by_cases c2 : j = A1.length
        · subst c2
          rw [List.getD_append_right _ _ _ _ (le_refl _), Nat.sub_self,
            List.getD_cons_zero] at hr ⊢
          omega
        · rw [List.getD_append_right _ _ _ _ (by omega)] at hr ⊢
          obtain ⟨m, hm⟩ : ∃ m, j - A1.length = m + 1 := ⟨j - A1.length - 1, by omega⟩
          rw [hm, List.getD_cons_succ] at hr ⊢
          rw [List.getD_eq_getElem?_getD, List.getElem?_replicate]
          split
          · simp only [Option.getD_some]; omega
          · simp only [Option.getD_none]; omega
    have hoff : rowMajorOffset (A1 ++ (a + 1) :: List.replicate A2.length 0) limit
        = rowMajorOffset tuple limit + 1 := by
      have hl1 : limit = limit.take A1.length ++ limit.getD A1.length 0
          :: limit.drop (A1.length + 1) := by
        have hlt : A1.length < limit.length := by omega
        conv_lhs => rw [← List.take_append_drop A1.length limit]
        congr 1
        rw [List.drop_eq_getElem_cons hlt, List.getD_eq_getElem?_getD,
          List.getElem?_eq_getElem hlt]
        rfl
      have hlt1 : A1.length = (limit.take A1.length).length := by
        rw [List.length_take]; omega
      have hA2 : rowMajorOffset A2 (limit.drop (A1.length + 1))
          = (limit.drop (A1.length + 1)).prod - 1 := by
        apply rowMajorOffset_last
        · rw [List.length_drop]; omega
        · intro j hj
          rw [e3 j hj, List.getD_eq_getElem?_getD, List.getD_eq_getElem?_getD,
            List.getElem?_drop]
      rw [e1]
      conv_lhs => rw [hl1]
      conv_rhs => rw [hl1]
      rw [rowMajorOffset_append _ _ _ _ hlt1, rowMajorOffset_append _ _ _ _ hlt1]
      simp only [rowMajorOffset, rowMajorOffset_zeros, hA2]
      ring
    refine ⟨true, A1 ++ (a + 1) :: List.replicate A2.length 0, ?_, ?_, ?_,
      (fun h => by cases h), fun _ => ⟨⟨A1, a, A2, e1, rfl, e2, e3⟩, hvalid, hoff, ?_⟩⟩
    · rw [increaseTuple, if_pos hlen]
      simp only [e4, hmod]
      simp
    · simp only [List.length_append, List.length_cons, List.length_replicate]; omega
    · simp only [Bool.true_eq_false, false_iff]; exact hnot
    · intro hi
      rw [hoff, ← hi]
      push_cast
      ring

theorem increaseTuple_successor_witness :
    ∃ b t1, increaseTuple 5 [0, 1, 2] [2, 2, 3] = some (b, 5 + 1, t1)
      ∧ t1.length = ([0, 1, 2] : List Int).length
      ∧ (b = false ↔ ∀ j, j < ([0, 1, 2] : List Int).length →
          ([0, 1, 2] : List Int).getD j 0 = ([2, 2, 3] : List Int).getD j 0 - 1)
      ∧ (b = false → t1 = List.replicate ([0, 1, 2] : List Int).length 0)
      ∧ (b = true →
          (∃ A1 a A2, ([0, 1, 2] : List Int) = A1 ++ a :: A2
            ∧ t1 = A1 ++ (a + 1) :: List.replicate A2.length 0
            ∧ a ≠ ([2, 2, 3] : List Int).getD A1.length 0 - 1
            ∧ ∀ j, j < A2.length →
                A2.getD j 0 = ([2, 2, 3] : List Int).getD (A1.length + 1 + j) 0 - 1)
          ∧ (∀ j, j < t1.length →
              0 ≤ t1.getD j 0 ∧ t1.getD j 0 < ([2, 2, 3] : List Int).getD j 0)
          ∧ rowMajorOffset t1 [2, 2, 3] = rowMajorOffset [0, 1, 2] [2, 2, 3] + 1
          ∧ (((5 : Nat) : Int) = rowMajorOffset [0, 1, 2] [2, 2, 3] →
              ((5 + 1 : Nat) : Int) = rowMajorOffset t1 [2, 2, 3])) :=
  increaseTuple_successor 5 [0, 1, 2] [2, 2, 3] rfl (by decide) (by decide)

/-! ## C25 -/

/-- C25, evaluation. On the graph with the nodes 0 and 1 and the edge between them,
`removeNode(0)` removes the node 0 and clears the entry of the matrix for the pair (1, 0),
not the entry for (0, 1): afterwards `hasNode(0)` and `hasEdge(1, 0)` are false and
`hasEdge(0, 1)`, which reads the matrix, is still true. -/
theorem removeNode_stale_row :
    (((Graph.new 2).addEdge 0 1).removeNode 0).hasNode 0 = false
      ∧ (((Graph.new 2).addEdge 0 1).removeNode 0).hasEdge 1 0 = false
      ∧ (((Graph.new 2).addEdge 0 1).removeNode 0).hasEdge 0 1 = true
      ∧ (((Graph.new 2).addEdge 0 1).removeNode 0).getNeighbors 1 = some []
      ∧ ((Graph.new 2).addEdge 0 1) = Graph.run [GraphOp.addEdge 0 1] (Graph.new 2) := by
  decide

/-! ## The graph after a sequence of operations -/

theorem Graph.adj_removeAdjacency (G : Graph) (i j a b : Nat) :
    (G.removeAdjacency i j).adj a b ↔ G.adj a b ∧ ¬ (a = i ∧ b = j) := by
  unfold Graph.adj
  rw [Graph.getNeighbors_removeAdjacency]
  by_cases ha : a = i
  · subst ha
    simp only [if_true, true_and]
    cases hf : G.getNeighbors a with
    | none => simp
    | some T =>
      simp only [Option.map_some', Option.some.injEq, exists_eq_left']
      rw [mem_setErase]
  · simp only [ha, if_false, false_and, not_false_eq_true, and_true]

theorem Graph.getNeighbors_removeEdge (G : Graph) (i j k : Nat) :
    (G.removeEdge i j).getNeighbors k
      = ((G.removeAdjacency i j).removeAdjacency j i).getNeighbors k := rfl

theorem Graph.adj_removeEdge (G : Graph) (i j a b : Nat) :
    (G.removeEdge i j).adj a b
      ↔ G.adj a b ∧ ¬ (a = i ∧ b = j) ∧ ¬ (a = j ∧ b = i) := by
  have h : (G.removeEdge i j).adj a b ↔ ((G.removeAdjacency i j).removeAdjacency j i).adj a b :=
    Iff.rfl
  rw [h, Graph.adj_removeAdjacency, Graph.adj_removeAdjacency]
  tauto

theorem Graph.rep_removeEdge {G : Graph} (h : G.Rep) (i j : Nat) : (G.removeEdge i j).Rep := by
  have h2 := Graph.rep_removeAdjacency (Graph.rep_removeAdjacency h i j) j i
  exact ⟨h2.keysNodup, h2.statNodes, h2.setsNodup⟩

theorem Graph.simple_removeEdge {G : Graph} (h : G.Simple) (i j : Nat) :
    (G.removeEdge i j).Simple := by
  refine ⟨?_, ?_⟩
  · intro a b hab
    rw [Graph.adj_removeEdge] at hab ⊢
    exact ⟨h.sym a b hab.1, fun e => hab.2.2 ⟨e.2, e.1⟩, fun e => hab.2.1 ⟨e.2, e.1⟩⟩
  · intro a ha
    rw [Graph.adj_removeEdge] at ha
    exact h.irrefl a ha.1

theorem Graph.simple_addNode {G : Graph} (h : G.Simple) (i : Nat) : (G.addNode i).Simple := by
  refine ⟨?_, ?_⟩
  · intro a b hab
    rw [Graph.adj_addNode] at hab ⊢
    exact h.sym a b hab
  · intro a ha
    rw [Graph.adj_addNode] at ha
    exact h.irrefl a ha

theorem Graph.simple_addEdge {G : Graph} (h : G.Simple) (i j : Nat) (hij : i ≠ j) :
    (G.addEdge i j).Simple := by
  refine ⟨?_, ?_⟩
  · intro a b hab
    rw [Graph.adj_addEdge] at hab ⊢
    rcases hab with hab | ⟨e1, e2⟩ | ⟨e1, e2⟩
    · exact Or.inl (h.sym a b hab)
    · exact Or.inr (Or.inr ⟨e2, e1⟩)
    · exact Or.inr (Or.inl ⟨e2, e1⟩)
  · intro a ha
    rw [Graph.adj_addEdge] at ha
    rcases ha with ha | ⟨e1, e2⟩ | ⟨e1, e2⟩
    · exact h.irrefl a ha
    · exact hij (e1.symm.trans e2)
    · exact hij (e2.symm.trans e1)

theorem Graph.rep_new (n : Nat) : (Graph.new n).Rep :=
  ⟨by simp [Graph.new], by simp [Graph.new],
    fun i S h => by simp [Graph.new, Graph.getNeighbors, mapFind] at h⟩

theorem Graph.simple_new (n : Nat) : (Graph.new n).Simple :=
  ⟨fun i j h => by
      obtain ⟨S, hS, _⟩ := h
      simp [Graph.new, Graph.getNeighbors, mapFind] at hS,
    fun i h => by
      obtain ⟨S, hS, _⟩ := h
      simp [Graph.new, Graph.getNeighbors, mapFind] at hS⟩

/-- Every operation that is meant for the graph keeps the representation sound and the
graph undirected and free of loops. -/
theorem GraphOp.apply_inv {G : Graph} (n : Nat) (op : GraphOp) (hv : op.Valid n)
    (hr : G.Rep) (hs : G.Simple) : (op.apply G).Rep ∧ (op.apply G).Simple := by
  cases op with
  | addNode i => exact ⟨Graph.rep_addNode hr i, Graph.simple_addNode hs i⟩
  | addEdge i j => exact ⟨Graph.rep_addEdge hr i j, Graph.simple_addEdge hs i j hv.2.2⟩
  | removeEdge i j => exact ⟨Graph.rep_removeEdge hr i j, Graph.simple_removeEdge hs i j⟩
  | removeNode i => exact ⟨Graph.rep_removeNode hr i, Graph.simple_removeNode hs i⟩
  | addClique s =>
    have hnd : s.Nodup := (List.Sorted.nodup hv.1)
    exact ⟨Graph.rep_addClique s hr, Graph.simple_addClique hs s hnd⟩

theorem Graph.run_inv (n : Nat) : ∀ (ops : List GraphOp) (G : Graph),
    (∀ op ∈ ops, op.Valid n) → G.Rep → G.Simple →
    (Graph.run ops G).Rep ∧ (Graph.run ops G).Simple := by
  intro ops
  induction ops with
  | nil => intro G _ hr hs; exact ⟨hr, hs⟩
  | cons op ops ih =>
    intro G hv hr hs
    obtain ⟨h1, h2⟩ := GraphOp.apply_inv n op (hv op (List.mem_cons_self _ _)) hr hs
    exact ih (op.apply G) (fun o ho => hv o (List.mem_cons_of_mem _ ho)) h1 h2

/-! ## C26 -/

/-- C26. In the graph that the operations `addNode`, `addEdge` between two different nodes,
`removeEdge`, `removeNode` and `addClique` of a set make of the empty graph, `j` is a
neighbour of `i` exactly when `i` is a neighbour of `j`, for all nodes `i` and `j` of the
graph; every member of a neighbour set is a node of the graph, and no node is its own
neighbour. The nodes named in the operations are below the side `n` of the matrix. -/
theorem graph_edges_in_sync (n : Nat) (ops : List GraphOp)
    (hvalid : ∀ op ∈ ops, op.Valid n) :
    (∀ i j Si Sj, (Graph.run ops (Graph.new n)).getNeighbors i = some Si →
        (Graph.run ops (Graph.new n)).getNeighbors j = some Sj → (j ∈ Si ↔ i ∈ Sj))
      ∧ (∀ i S x, (Graph.run ops (Graph.new n)).getNeighbors i = some S → x ∈ S →
          (Graph.run ops (Graph.new n)).hasNode x = true)
      ∧ (∀ i S, (Graph.run ops (Graph.new n)).getNeighbors i = some S → i ∉ S) := by
  obtain ⟨hr, hs⟩ := Graph.run_inv n ops (Graph.new n) hvalid (Graph.rep_new n)
    (Graph.simple_new n)
  refine ⟨?_, ?_, ?_⟩
  · intro i j Si Sj hi hj
    constructor
    · intro h
      obtain ⟨T, hT, hm⟩ := hs.sym i j ⟨Si, hi, h⟩
      rw [hj] at hT
      cases hT
      exact hm
    · intro h
      obtain ⟨T, hT, hm⟩ := hs.sym j i ⟨Sj, hj, h⟩
      rw [hi] at hT
      cases hT
      exact hm
  · intro i S x hi hx
    exact Graph.adj_hasNode (hs.sym i x ⟨S, hi, hx⟩)
  · intro i S hi hx
    exact hs.irrefl i ⟨S, hi, hx⟩

theorem graph_edges_in_sync_witness :
    (∀ i j Si Sj,
        (Graph.run [GraphOp.addClique [0, 1, 2], GraphOp.removeEdge 0 2, GraphOp.addNode 3,
            GraphOp.addEdge 3 1, GraphOp.removeNode 1] (Graph.new 4)).getNeighbors i
          = some Si →
        (Graph.run [GraphOp.addClique [0, 1, 2], GraphOp.removeEdge 0 2, GraphOp.addNode 3,
            GraphOp.addEdge 3 1, GraphOp.removeNode 1] (Graph.new 4)).getNeighbors j
          = some Sj → (j ∈ Si ↔ i ∈ Sj))
      ∧ (∀ i S x,
          (Graph.run [GraphOp.addClique [0, 1, 2], GraphOp.removeEdge 0 2, GraphOp.addNode 3,
            GraphOp.addEdge 3 1, GraphOp.removeNode 1] (Graph.new 4)).getNeighbors i
            = some S → x ∈ S →
          (Graph.run [GraphOp.addClique [0, 1, 2], GraphOp.removeEdge 0 2, GraphOp.addNode 3,
            GraphOp.addEdge 3 1, GraphOp.removeNode 1] (Graph.new 4)).hasNode x = true)
      ∧ (∀ i S,
          (Graph.run [GraphOp.addClique [0, 1, 2], GraphOp.removeEdge 0 2, GraphOp.addNode 3,
            GraphOp.addEdge 3 1, GraphOp.removeNode 1] (Graph.new 4)).getNeighbors i
            = some S → i ∉ S) :=
  graph_edges_in_sync 4
    [GraphOp.addClique [0, 1, 2], GraphOp.removeEdge 0 2, GraphOp.addNode 3,
      GraphOp.addEdge 3 1, GraphOp.removeNode 1]
    (by
      intro op hop
      simp only [List.mem_cons, List.mem_singleton, List.not_mem_nil, or_false] at hop
      rcases hop with h | h | h | h | h <;> subst h <;> simp [GraphOp.Valid])

/-! ## C27 -/

/-- C27, evaluation. After `addEdge(0, 1)` has been called twice on the empty graph the
graph has the two nodes 0 and 1 and the one edge between them, `getStatNodes()` is 2 and
`getStatEdges()` is 2, not 1. -/
theorem addEdge_counts_twice :
    (Graph.run [GraphOp.addEdge 0 1, GraphOp.addEdge 0 1] (Graph.new 2)).getStatEdges = 2
      ∧ (Graph.run [GraphOp.addEdge 0 1, GraphOp.addEdge 0 1] (Graph.new 2)).edgeCount = 1
      ∧ (Graph.run [GraphOp.addEdge 0 1, GraphOp.addEdge 0 1] (Graph.new 2)).getStatNodes = 2
      ∧ (Graph.run [GraphOp.addEdge 0 1, GraphOp.addEdge 0 1] (Graph.new 2)).getNeighbors 0
          = some [1]
      ∧ (Graph.run [GraphOp.addEdge 0 1, GraphOp.addEdge 0 1] (Graph.new 2)).getNeighbors 1
          = some [0]
      ∧ (Graph.run [GraphOp.addEdge 0 1, GraphOp.addEdge 0 1] (Graph.new 2)).getNodes
          = [0, 1] := by
  decide

/-! ## The effect of `Pseudotree::restrictSubproblem` on a built pseudo tree -/

/-- On the pseudo tree that `build` gives, `restrictSubproblem(n)` changes nothing, and
`restrictSubproblem(i)` for a variable `i` below `n` puts `i` under the root, conditions
size and height on the subtree of `i`, leaves children and contexts of the other nodes, and
stores as the conditioned width the result of the loop over the stack that starts with
`i`. -/
theorem restrictSubproblem_view (pt0 : Pseudotree) (G : Graph) (n : Nat) (elim : List Nat)
    (cachelimit : Int) (hrep : G.Rep) (hsim : G.Simple) (hnodes : G.NodesAre n)
    (hperm : elim.Perm (List.range n)) (hlim : cachelimit = NONE ∨ 0 ≤ cachelimit)
    (hready : pt0.Ready n) :
    ∃ pt, Pseudotree.build pt0 G elim cachelimit = some pt
      ∧ pt.restrictSubproblem n = some (-1, pt)
      ∧ ∀ i nd, i < n → pt.m_nodes.deref i = some nd →
          ∃ pt1 rd1 nd1, pt.restrictSubproblem i = some (nd.m_depth, pt1)
            ∧ pt1.m_nodes.deref n = some rd1 ∧ rd1.m_children = [i]
            ∧ pt1.m_nodes.deref i = some nd1 ∧ nd1.m_depth = 0 ∧ nd1.m_parent = some n
            ∧ (pt.m_nodes.subtree (n + 1) i).Nodup
            ∧ pt1.getSizeCond = ((pt.m_nodes.subtree (n + 1) i).length : Int)
            ∧ pt1.getHeightCond = pt.m_nodes.height (n + 1) i
            ∧ (∀ k kd, k ≠ n → pt.m_nodes.deref k = some kd →
                ∃ kd1, pt1.m_nodes.deref k = some kd1 ∧ kd1.m_children = kd.m_children
                  ∧ kd1.m_contextS = kd.m_contextS)
            ∧ ∃ F, condWidthLoop pt1.m_nodes nd1.m_contextS F [i] NONE
                = some pt1.m_widthConditioned := by
  obtain ⟨pt, rd, hb, hA, hroot, hrd, hdep⟩ :=
    build_root_depth pt0 G n elim cachelimit hrep hsim hnodes hperm hlim hready
  have hρn : elim.indexOf n = n := indexOf_dummy hperm
  have hvarn : rd.m_var = n := hA.varAt n rd hrd
  have hdownA := hA.down hperm
  have hnone : NONE = (-1 : Int) := rfl
  refine ⟨pt, hb, ?_, ?_⟩
  · simp only [Pseudotree.restrictSubproblem, hroot, hrd, hA.len, hvarn, if_true, hdep,
      Nat.lt_succ_self]
  · intro i nd hi hnd
    have hni : n ≠ i := by omega
    have hin : i ≠ n := by omega
    have hρi : elim.indexOf i < n := indexOf_lt_of_lt hperm hi
    obtain ⟨nodes1, hn1⟩ : ∃ x, x = (pt.m_nodes.modify n (fun x => x.setChild i)).modify i
        (fun x => x.setParent (some n)) := ⟨_, rfl⟩
    have hd1 : ∀ k, nodes1.deref k = if k = i then some (nd.setParent (some n))
        else if k = n then some (rd.setChild i) else pt.m_nodes.deref k := by
      intro k
      rw [hn1]
      simp only [Arena.deref_modify, hin, if_false, hnd, hrd, Option.map_some']
    have hd1i : nodes1.deref i = some (nd.setParent (some n)) := by rw [hd1]; simp
    have hd1n : nodes1.deref n = some (rd.setChild i) := by rw [hd1]; simp [hni]
    have hlen1 : nodes1.length = n + 1 := by
      rw [hn1, Arena.length_modify, Arena.length_modify, hA.len]
    have hsome1 : ∀ c, (pt.m_nodes.deref c).isSome = true → (nodes1.deref c).isSome = true := by
      intro c hc
      rw [hd1]
      split
      · rfl
      · split
        · rfl
        · exact hc
    have hdown1 : nodes1.Down elim.indexOf := by
      intro p pn c hp hc
      rw [hd1] at hp
      by_cases hpi : p = i
      · simp only [hpi, if_true, Option.some.injEq] at hp
        rw [← hp] at hc
        obtain ⟨h1, h2⟩ := hdownA i nd c hnd hc
        exact ⟨hsome1 c h1, by rw [hpi]; exact h2⟩
      · by_cases hpn : p = n
        · simp only [hpi, hpn, hni, if_false, if_true, Option.some.injEq] at hp
          rw [← hp] at hc
          have hci : c = i := List.mem_singleton.1 hc
          rw [hci, hpn]
          exact ⟨by rw [hd1i]; rfl, by show elim.indexOf i < elim.indexOf n; omega⟩
        · simp only [hpi, hpn, if_false] at hp
          obtain ⟨h1, h2⟩ := hdownA p pn c hp hc
          exact ⟨hsome1 c h1, h2⟩
    have hvar1 : ∀ k kd, nodes1.deref k = some kd → kd.m_var = k := by
      intro k kd hk
      rw [hd1] at hk
      by_cases hki : k = i
      · simp only [hki, if_true, Option.some.injEq] at hk
        rw [← hk, hki]
        exact hA.varAt i nd hnd
      · by_cases hkn : k = n
        · simp only [hki, hkn, hni, if_false, if_true, Option.some.injEq] at hk
          rw [← hk, hkn]
          exact hvarn
        · simp only [hki, hkn, if_false] at hk
          exact hA.varAt k kd hk
    have hfuel1 : elim.indexOf n < nodes1.length + 1 := by omega
    obtain ⟨nodes2, vars, e8, _⟩ := updateSubprobVars_total nodes1.length (nodes1.length + 1)
      nodes1 n hdown1 (by rw [hd1n]; rfl) hfuel1
    have f8 := updateSubprobVars_frame PseudotreeNode.SameButVars.vars_refl
      PseudotreeNode.SameButVars.vars_trans (fun a l => rfl) (fun a l m => rfl) _ _ _ _ _ _ e8
    obtain ⟨_, p8, rn2, hrn2, hv8⟩ := updateSubprobVars_content _ _ _ _ _ _ hdown1 hvar1 e8
    have hdown2 := hdown1.down_congr (f8.mono (fun a b hab => hab.vars_similar))
    have hlen2 : nodes2.length = n + 1 := by rw [← f8.1, hlen1]
    have hfuel2 : elim.indexOf n < nodes2.length + 1 := by omega
    obtain ⟨nodes3, h, e9, _⟩ := updateDepthHeight_spec (nodes2.length + 1) nodes2 n (-1)
      hdown2 (by rw [hrn2]; rfl) hfuel2
    have f9 := updateDepthHeight_frame PseudotreeNode.SameButDepth.depth_refl
      PseudotreeNode.SameButDepth.depth_trans (fun a d => rfl) (fun a h => rfl) _ _ _ _ _ _ e9
    obtain ⟨_, hh, _⟩ := updateDepthHeight_content _ _ _ _ _ _ hdown2 e9
    have hdown3 := hdown2.down_congr (f9.mono (fun a b hab => hab.depth_similar))
    have hch2 : rn2.m_children = [i] := by
      obtain ⟨b, hb, hab⟩ := f8.left hd1n
      rw [hrn2] at hb
      cases hb
      unfold PseudotreeNode.SameButVars at hab
      rw [hab]
      rfl
    have htr : ∀ k a, nodes1.deref k = some a → ∃ c, nodes3.deref k = some c
        ∧ c.m_children = a.m_children ∧ c.m_contextS = a.m_contextS
        ∧ c.m_parent = a.m_parent := by
      intro k a ha
      obtain ⟨b, hb, hab⟩ := f8.left ha
      obtain ⟨c, hc, hbc⟩ := f9.left hb
      unfold PseudotreeNode.SameButVars at hab
      unfold PseudotreeNode.SameButDepth at hbc
      exact ⟨c, hc, by rw [hbc, hab], by rw [hbc, hab], by rw [hbc, hab]⟩
    obtain ⟨nd3, hnd3, _, _, hp3⟩ := htr i _ hd1i
    obtain ⟨rd3, hrd3, hc3, _, _⟩ := htr n _ hd1n
    obtain ⟨cd, hcd, hcdep⟩ := updateDepthHeight_child hdown2 hrn2 hch2 e9
    rw [hnd3] at hcd
    cases hcd
    have hch12 := f8.children_eq (fun a b hab => by
      unfold PseudotreeNode.SameButVars at hab; rw [hab])
    have hch23 := f9.children_eq (fun a b hab => by
      unfold PseudotreeNode.SameButDepth at hab; rw [hab])
    have hchA1 : ∀ k, elim.indexOf k ≤ elim.indexOf i →
        (pt.m_nodes.deref k).map PseudotreeNode.m_children
          = (nodes1.deref k).map PseudotreeNode.m_children := by
      intro k hk
      rw [hd1]
      by_cases hki : k = i
      · simp only [hki, if_true, hnd, Option.map_some']
        rfl
      · have hkn : k ≠ n := by
          intro hkn
          rw [hkn] at hk
          omega
        simp only [hki, hkn, if_false]
    have hsub1 : pt.m_nodes.subtree (n + 1) i = nodes1.subtree (n + 1) i :=
      Arena.subtree_local hdownA (n + 1) i hchA1
    have hsub3 : nodes1.subtree (n + 1) i = nodes3.subtree (n + 1) i :=
      (Arena.subtree_congr hch12 (n + 1) i).trans (Arena.subtree_congr hch23 (n + 1) i)
    have hmem : i ∈ pt.m_nodes.subtree (n + 1) i := Arena.subtree_self hnd n
    have hvars : vars.length = (pt.m_nodes.subtree (n + 1) i).length + 1 := by
      rw [p8.length_eq, hlen1, hsub1]
      simp [Arena.subtree, hd1n, PseudotreeNode.setChild]
    obtain ⟨w, ew⟩ := condWidthLoop_total hdown3 nd3.m_contextS (n + 1)
      rn2.m_subproblemVars.length [i] NONE
      (fun x hx => by
        rw [List.mem_singleton.1 hx]
        exact ⟨by rw [hnd3]; rfl, by show elim.indexOf i < n + 1; omega⟩)
      (by
        simp only [List.map_cons, List.map_nil, List.sum_cons, List.sum_nil]
        rw [← hsub3, ← hsub1, hv8, hvars]
        omega)
    have hheight : h = pt.m_nodes.height (n + 1) i + 1 := by
      have hr : nodes2.height (n + 1 + 1) n = max 0 (nodes2.height (n + 1) i) + 1 := by
        rw [Arena.height]
        simp only [hrn2, hch2, List.cons_ne_nil, if_false, List.map, List.foldl]
      rw [hh, hlen2, hr]
      rw [← Arena.height_congr hch12 (n + 1) i, ← Arena.height_local hdownA (n + 1) i hchA1,
        max_eq_right (Arena.height_nonneg _ _ _)]
    obtain ⟨pt1, hpt1⟩ : ∃ x, x = { pt with
        m_widthConditioned := w,
        m_sizeConditioned := (rn2.m_subproblemVars.length : Int) - 1,
        m_heightConditioned := h - 1,
        m_nodes := nodes3 } := ⟨_, rfl⟩
    have hpn : pt1.m_nodes = nodes3 := by rw [hpt1]
    subst hn1
    refine ⟨pt1, rd3, nd3, ?_, by rw [hpn]; exact hrd3, hc3, by rw [hpn]; exact hnd3, ?_, hp3,
      hA.subtree_nodup hperm (n + 1) i, ?_, ?_, ?_,
      ⟨rn2.m_subproblemVars.length, by rw [hpn, hpt1]; exact ew⟩⟩
    · have hlt : i < n + 1 := by omega
      have hvi : ¬ n = i := hni
      simp only [Pseudotree.restrictSubproblem, hroot, hrd, hA.len, hlt, hnd, hvarn, hvi,
        if_false, if_true, e8, hrn2, e9, hnd3, ew, hpt1]
    · rw [hcdep]; rfl
    · have hs : pt1.m_sizeConditioned = ((pt.m_nodes.subtree (n + 1) i).length : Int) := by
        rw [hpt1]
        show (rn2.m_subproblemVars.length : Int) - 1 = _
        rw [hv8, hvars]
        push_cast
        omega
      unfold Pseudotree.getSizeCond
      rw [if_neg (by rw [hs, hnone]; omega), hs]
    · have hs : pt1.m_heightConditioned = pt.m_nodes.height (n + 1) i := by
        rw [hpt1]
        show h - 1 = _
        rw [hheight]
        omega
      have := Arena.height_nonneg pt.m_nodes (n + 1) i
      unfold Pseudotree.getHeightCond
      rw [if_neg (by rw [hs, hnone]; omega), hs]
    · intro k kd hkn hkd
      rw [hpn]
      by_cases hki : k = i
      · rw [hki] at hkd ⊢
        rw [hnd] at hkd
        cases hkd
        obtain ⟨c, q1, q2, q3, _⟩ := htr i _ hd1i
        exact ⟨c, q1, q2, q3⟩
      · obtain ⟨c, q1, q2, q3, _⟩ := htr k kd (by
          simp only [Arena.deref_modify, hki, hkn, if_false]
          exact hkd)
        exact ⟨c, q1, q2, q3⟩


/-! ## C28: `Pseudotree::restrictSubproblem` -/

/-- C28. On the pseudo tree that `build` gives for a graph on the variables `0..n-1`, whose
root is the dummy variable `n`: `restrictSubproblem(n)` returns -1 and changes nothing. For
a variable `i` below `n`, `restrictSubproblem(i)` returns the depth that `i` had before the
call; afterwards the root has the only child `i`, the node `i` has depth 0 and the root as
its parent, `getSizeCond()` is the number of variables in the subtree of `i`, in which no
variable is twice, `getHeightCond()` is the height of that subtree, and every node but the
root has the children and the context it had before. -/
theorem restrictSubproblem_effect (pt0 : Pseudotree) (G : Graph) (n : Nat) (elim : List Nat)
    (cachelimit : Int) (hrep : G.Rep) (hsim : G.Simple) (hnodes : G.NodesAre n)
    (hperm : elim.Perm (List.range n)) (hlim : cachelimit = NONE ∨ 0 ≤ cachelimit)
    (hready : pt0.Ready n) :
    ∃ pt, Pseudotree.build pt0 G elim cachelimit = some pt
      ∧ pt.restrictSubproblem n = some (-1, pt)
      ∧ ∀ i nd, i < n → pt.m_nodes.deref i = some nd →
          ∃ pt1 rd1 nd1, pt.restrictSubproblem i = some (nd.m_depth, pt1)
            ∧ pt1.m_nodes.deref n = some rd1 ∧ rd1.m_children = [i]
            ∧ pt1.m_nodes.deref i = some nd1 ∧ nd1.m_depth = 0 ∧ nd1.m_parent = some n
            ∧ (pt.m_nodes.subtree (n + 1) i).Nodup
            ∧ pt1.getSizeCond = ((pt.m_nodes.subtree (n + 1) i).length : Int)
            ∧ pt1.getHeightCond = pt.m_nodes.height (n + 1) i
            ∧ ∀ k kd, k ≠ n → pt.m_nodes.deref k = some kd →
                ∃ kd1, pt1.m_nodes.deref k = some kd1 ∧ kd1.m_children = kd.m_children
                  ∧ kd1.m_contextS = kd.m_contextS := by
  obtain ⟨pt, hb, h1, h2⟩ :=
    restrictSubproblem_view pt0 G n elim cachelimit hrep hsim hnodes hperm hlim hready
  refine ⟨pt, hb, h1, ?_⟩
  intro i nd hi hnd
  obtain ⟨pt1, rd1, nd1, q1, q2, q3, q4, q5, q6, q7, q8, q9, q10, _⟩ := h2 i nd hi hnd
  exact ⟨pt1, rd1, nd1, q1, q2, q3, q4, q5, q6, q7, q8, q9, q10⟩

theorem restrictSubproblem_effect_witness :
    ∃ pt, Pseudotree.build (Pseudotree.new 5 SubOrder.other)
        (Graph.ofEdges 5 [(0,1),(1,2),(2,3),(0,2),(3,4),(1,4)]) [0,4,1,2,3] 1 = some pt
      ∧ pt.restrictSubproblem 5 = some (-1, pt)
      ∧ ∀ i nd, i < 5 → pt.m_nodes.deref i = some nd →
          ∃ pt1 rd1 nd1, pt.restrictSubproblem i = some (nd.m_depth, pt1)
            ∧ pt1.m_nodes.deref 5 = some rd1 ∧ rd1.m_children = [i]
            ∧ pt1.m_nodes.deref i = some nd1 ∧ nd1.m_depth = 0 ∧ nd1.m_parent = some 5
            ∧ (pt.m_nodes.subtree (5 + 1) i).Nodup
            ∧ pt1.getSizeCond = ((pt.m_nodes.subtree (5 + 1) i).length : Int)
            ∧ pt1.getHeightCond = pt.m_nodes.height (5 + 1) i
            ∧ ∀ k kd, k ≠ 5 → pt.m_nodes.deref k = some kd →
                ∃ kd1, pt1.m_nodes.deref k = some kd1 ∧ kd1.m_children = kd.m_children
                  ∧ kd1.m_contextS = kd.m_contextS :=
  restrictSubproblem_effect (Pseudotree.new 5 SubOrder.other)
    (Graph.ofEdges 5 [(0,1),(1,2),(2,3),(0,2),(3,4),(1,4)]) 5 [0,4,1,2,3] 1
    (Graph.wf_of_check (n := 5) (by decide)).1.rep
    (Graph.wf_of_check (n := 5) (by decide)).1.simple
    (Graph.wf_of_check (n := 5) (by decide)).2
    (by decide) (Or.inr (by decide)) ⟨rfl, Or.inr rfl⟩

/-! ## C29 -/

/-- C29. For a list `L` of `2k` values, the values of the OR nodes and the labels of the
AND nodes in turn from the top, `restrictSubproblem(file)` reads the same vector `pstVals`,
the list `L` itself, from a file that stores `L` after the size `k` as from a file that
stores the reverse of `L` after the size `-k`; in both cases the rest of the file is left
in the stream. -/
theorem readPST_order (L : List Dbl) (k : Nat) (rest : List Dbl)
    (hlen : L.length = 2 * k) (hk : 2 * (k : Int) ≤ INT_MAX) :
    readPST (k : Int) (L ++ rest) = some (L, rest)
      ∧ readPST (-(k : Int)) (L.reverse ++ rest) = some (L, rest) := by
  have hmax : INT_MAX = 2147483647 := rfl
  have c1 : ¬ ((k : Int) < -INT_MAX ∨ 2 * (k : Int) > INT_MAX ∨ 2 * (k : Int) < -INT_MAX) := by
    omega
  have c2 : ¬ (-(k : Int) < -INT_MAX ∨ 2 * -(k : Int) > INT_MAX
      ∨ 2 * -(k : Int) < -INT_MAX) := by
    omega
  have hf := fillForward_spec k 0 L rest [] hlen rfl
  simp only [List.nil_append] at hf
  constructor
  · simp only [readPST, c1, if_false, Int.toNat_ofNat, show ¬ ((k : Int) < 0) by omega,
      Nat.mul_comm k 2]
    exact hf
  · by_cases hk0 : k = 0
    · subst hk0
      have hL : L = [] := List.length_eq_zero.1 (by omega)
      subst hL
      simp [readPST, fillForward, INT_MAX]
    · have hneg : -(k : Int) < 0 := by omega
      have hr := fillReverse_spec k L.reverse rest [] (by rw [List.length_reverse]; exact hlen)
      simp only [List.append_nil, List.reverse_reverse] at hr
      simp only [readPST, c2, if_false, hneg, if_true, neg_neg, Int.toNat_ofNat,
        Nat.mul_comm k 2]
      exact hr

theorem readPST_order_witness :
    readPST ((2 : Nat) : Int) ([Dbl.fin 5, Dbl.fin (-1), Dbl.fin 3, Dbl.fin (-2)] ++ [Dbl.pinf])
        = some ([Dbl.fin 5, Dbl.fin (-1), Dbl.fin 3, Dbl.fin (-2)], [Dbl.pinf])
      ∧ readPST (-((2 : Nat) : Int))
          ([Dbl.fin 5, Dbl.fin (-1), Dbl.fin 3, Dbl.fin (-2)].reverse ++ [Dbl.pinf])
        = some ([Dbl.fin 5, Dbl.fin (-1), Dbl.fin 3, Dbl.fin (-2)], [Dbl.pinf]) :=
  readPST_order [Dbl.fin 5, Dbl.fin (-1), Dbl.fin 3, Dbl.fin (-2)] 2 [Dbl.pinf] rfl
    (by decide)

/-! ## C30 -/

/-- C30. On a heap of the shape `Heap.WF`, `doPruning(node)` returns what `canBePruned`
answers. When the answer is `true` the node is marked as a leaf and as pruned and
`numPruned` grows by one; an OR node gets the value `ELEM_ZERO` exactly when its value was
NaN and the domain size of its variable is added to `m_leafProfile[depth]`, for an AND node
the value stays and 1 is added to `m_leafProfile[depth]`, both for a depth of the pseudo
tree node of at least 0 only; every other node is as `canBePruned` left it. When the answer
is `false` the state is unchanged. -/
theorem doPruning_effect (s : Search) (node : Nat) (nd : SearchNode)
    (ptnode : PseudotreeNode) (dom : Nat) (hwf : s.heap.WF)
    (hn : s.heap.deref node = some nd)
    (hpt : s.m_pseudotree.getNode nd.getVar = some ptnode)
    (hprof : 0 ≤ ptnode.m_depth → ptnode.m_depth.toNat < s.m_leafProfile.length)
    (hdom : s.getDomainSize nd.getVar = some (dom : Int)) :
    ∃ b heap1 s1 nd1, canBePruned s.heap node = some (b, heap1)
      ∧ s.doPruning node = some (b, s1)
      ∧ s1.heap.deref node = some nd1
      ∧ (b = false → s1 = s)
      ∧ (b = true →
          nd1.m_leaf = true ∧ nd1.m_pruned = true
          ∧ s1.stats = { s.stats with numPruned := s.stats.numPruned + 1 }
          ∧ (nd.getType = NodeType.NODE_OR →
              nd1.getValue = (if nd.getValue.isNaN = true then ELEM_ZERO else nd.getValue))
          ∧ (nd.getType = NodeType.NODE_AND → nd1.getValue = nd.getValue)
          ∧ (ptnode.m_depth < 0 → s1.m_leafProfile = s.m_leafProfile)
          ∧ (0 ≤ ptnode.m_depth → s1.m_leafProfile
              = s.m_leafProfile.set ptnode.m_depth.toNat
                  (s.m_leafProfile.getD ptnode.m_depth.toNat 0
                    + (if nd.getType = NodeType.NODE_AND then 1 else dom)))
          ∧ (∀ k, k ≠ node → s1.heap.deref k = heap1.deref k)
          ∧ s1.m_assignment = s.m_assignment ∧ s1.m_nodeProfile = s.m_nodeProfile) := by
  obtain ⟨b, heap1, hcan, h1, h2, h3⟩ := canBePruned_spec hwf hn
  have hfalse : b = false → heap1 = s.heap := by
    intro hb
    by_cases hdep : nd.getDepth < 0
    · exact (h1 hdep).2
    · by_cases hz : nd.getHeur = ELEM_ZERO
      · have := (h2 (by omega) hz).1
        rw [hb] at this; cases this
      · rcases h3 (by omega) hz with ⟨_, h, _⟩ | ⟨h, _⟩
        · exact h
        · rw [hb] at h; cases h
  have hnode : ∃ nd0, heap1.deref node = some nd0 ∧ nd0.getValue = nd.getValue
      ∧ nd0.getType = nd.getType := by
    by_cases hdep : nd.getDepth < 0
    · rw [(h1 hdep).2]; exact ⟨nd, hn, rfl, rfl⟩
    · by_cases hz : nd.getHeur = ELEM_ZERO
      · rw [(h2 (by omega) hz).2]; exact ⟨nd, hn, rfl, rfl⟩
      · rcases h3 (by omega) hz with ⟨_, h, _⟩ | ⟨_, start, K, o1, pst1, orn1, _, _, _, _, _, h⟩
        · rw [h]; exact ⟨nd, hn, rfl, rfl⟩
        · rw [h node, hn]
          by_cases hm : node ∈ orList s.heap start K
          · exact ⟨nd.setNotOpt, by simp [hm], rfl, rfl⟩
          · exact ⟨nd, by simp [hm], rfl, rfl⟩
  obtain ⟨nd0, hd0, hv0, ht0⟩ := hnode
  cases b with
  | false =>
    have hh := hfalse rfl
    subst hh
    refine ⟨false, s.heap, s, nd, hcan, ?_, hn, fun _ => rfl, fun h => by cases h⟩
    simp only [Search.doPruning, hn, hpt, hcan]
  | true =>
    obtain ⟨hp2, hhp2⟩ : ∃ hp2 : Heap, hp2 = heap1.modify node
        (fun x => (x.setLeaf).setPruned) := ⟨_, rfl⟩
    have hd2 : hp2.deref node = some ((nd0.setLeaf).setPruned) := by
      rw [hhp2, Heap.deref_update, if_pos rfl, hd0]; rfl
    have hoth2 : ∀ k, k ≠ node → hp2.deref k = heap1.deref k := by
      intro k hk
      rw [hhp2, Heap.deref_update, if_neg hk]
    by_cases hand : nd.getType = NodeType.NODE_AND
    · have hnor : ¬ nd.getType = NodeType.NODE_OR := by rw [hand]; decide
      by_cases hdep : ptnode.m_depth ≥ 0
      · obtain ⟨lp, hlp⟩ : ∃ lp, bump s.m_leafProfile ptnode.m_depth 1 = some lp
            ∧ lp = s.m_leafProfile.set ptnode.m_depth.toNat
              (s.m_leafProfile.getD ptnode.m_depth.toNat 0 + 1) :=
          ⟨_, by simp [bump, hdep, hprof hdep], rfl⟩
        refine ⟨true, heap1, { s with heap := hp2, stats :=
            { s.stats with numPruned := s.stats.numPruned + 1 }, m_leafProfile := lp },
          (nd0.setLeaf).setPruned, hcan, ?_, hd2, (fun h => by cases h),
          fun _ => ⟨rfl, rfl, rfl, fun h => absurd h hnor,
            fun _ => hv0, fun h => by omega, fun _ => by simp [hand, hlp.2], hoth2, rfl,
            rfl⟩⟩
        simp only [Search.doPruning, hn, hpt, hcan, hand, if_true, hdep, hlp.1, hhp2]
      · refine ⟨true, heap1, { s with heap := hp2, stats :=
            { s.stats with numPruned := s.stats.numPruned + 1 } },
          (nd0.setLeaf).setPruned, hcan, ?_, hd2, (fun h => by cases h),
          fun _ => ⟨rfl, rfl, rfl, fun h => absurd h hnor,
            fun _ => hv0, fun _ => rfl, fun h => absurd h hdep, hoth2, rfl, rfl⟩⟩
        simp only [Search.doPruning, hn, hpt, hcan, hand, if_true, hdep, if_false, hhp2]
    · have hor : nd.getType = NodeType.NODE_OR := NodeType.eq_or_of_ne_and hand
      have hvv : ((nd0.setLeaf).setPruned).getValue = nd.getValue := hv0
      obtain ⟨hp3, hhp3⟩ : ∃ hp3 : Heap, hp3 =
          (if ((nd0.setLeaf).setPruned).getValue.isNaN = true then
            hp2.modify node (fun x => x.setValue ELEM_ZERO)
          else hp2) := ⟨_, rfl⟩
      have hd3 : ∃ nd1, hp3.deref node = some nd1 ∧ nd1.m_leaf = true ∧ nd1.m_pruned = true
          ∧ nd1.getValue = (if nd.getValue.isNaN = true then ELEM_ZERO else nd.getValue) := by
        rw [hhp3, hvv]
        by_cases hnan : nd.getValue.isNaN = true
        · rw [if_pos hnan, if_pos hnan, Heap.deref_update, if_pos rfl, hd2]
          exact ⟨_, rfl, rfl, rfl, rfl⟩
        · rw [if_neg hnan, if_neg hnan, hd2]
          exact ⟨_, rfl, rfl, rfl, hv0⟩
      have hother : ∀ k, k ≠ node → hp3.deref k = heap1.deref k := by
        intro k hk
        rw [hhp3]
        split
        · rw [Heap.deref_update, if_neg hk]; exact hoth2 k hk
        · exact hoth2 k hk
      obtain ⟨nd1, hd1, hl1, hp1, hv1⟩ := hd3
      have hdom2 : ¬ ((dom : Int) < 0) := by omega
      by_cases hdep : ptnode.m_depth ≥ 0
      · obtain ⟨lp, hlp⟩ : ∃ lp, bump s.m_leafProfile ptnode.m_depth dom = some lp
            ∧ lp = s.m_leafProfile.set ptnode.m_depth.toNat
              (s.m_leafProfile.getD ptnode.m_depth.toNat 0 + dom) :=
          ⟨_, by simp [bump, hdep, hprof hdep], rfl⟩
        refine ⟨true, heap1, { s with heap := hp3, stats :=
            { s.stats with numPruned := s.stats.numPruned + 1 }, m_leafProfile := lp },
          nd1, hcan, ?_, hd1, (fun h => by cases h), fun _ => ⟨hl1, hp1, rfl, fun _ => hv1,
            fun h => absurd h hand, fun h => by omega, fun _ => by simp [hand, hlp.2],
            hother, rfl, rfl⟩⟩
        simp only [Search.doPruning, hn, hpt, hcan, hand, if_false, ← hhp2, hd2, hdep, if_true,
          hdom, hdom2, Int.toNat_ofNat, hlp.1, hhp3]
      · refine ⟨true, heap1, { s with heap := hp3, stats :=
            { s.stats with numPruned := s.stats.numPruned + 1 } },
          nd1, hcan, ?_, hd1, (fun h => by cases h), fun _ => ⟨hl1, hp1, rfl, fun _ => hv1,
            fun h => absurd h hand, fun _ => rfl, fun h => absurd h hdep,
            hother, rfl, rfl⟩⟩
        simp only [Search.doPruning, hn, hpt, hcan, hand, if_false, ← hhp2, hd2, hdep, hhp3]

theorem doPruning_effect_witness :
    ∃ b heap1 s1 nd1, canBePruned exampleSearchPrune.heap 6 = some (b, heap1)
      ∧ exampleSearchPrune.doPruning 6 = some (b, s1)
      ∧ s1.heap.deref 6 = some nd1
      ∧ (b = false → s1 = exampleSearchPrune)
      ∧ (b = true →
          nd1.m_leaf = true ∧ nd1.m_pruned = true
          ∧ s1.stats = { exampleSearchPrune.stats with
                numPruned := exampleSearchPrune.stats.numPruned + 1 }
          ∧ (exampleNodeOR.getType = NodeType.NODE_OR →
              nd1.getValue = (if exampleNodeOR.getValue.isNaN = true then ELEM_ZERO
                else exampleNodeOR.getValue))
          ∧ (exampleNodeOR.getType = NodeType.NODE_AND →
              nd1.getValue = exampleNodeOR.getValue)
          ∧ ((examplePTNode 0).m_depth < 0 →
              s1.m_leafProfile = exampleSearchPrune.m_leafProfile)
          ∧ (0 ≤ (examplePTNode 0).m_depth → s1.m_leafProfile
              = exampleSearchPrune.m_leafProfile.set (examplePTNode 0).m_depth.toNat
                  (exampleSearchPrune.m_leafProfile.getD (examplePTNode 0).m_depth.toNat 0
                    + (if exampleNodeOR.getType = NodeType.NODE_AND then 1 else 2)))
          ∧ (∀ k, k ≠ 6 → s1.heap.deref k = heap1.deref k)
          ∧ s1.m_assignment = exampleSearchPrune.m_assignment
          ∧ s1.m_nodeProfile = exampleSearchPrune.m_nodeProfile) :=
  doPruning_effect exampleSearchPrune 6 exampleNodeOR (examplePTNode 0) 2
    (Heap.wf_of_test (by decide)) (by decide) (by decide) (by decide) (by decide)

/-! ## All the steps of `build` -/

/-- The steps of `build` on a graph with the nodes `0..n-1`: the first loop, the cache
context loop, the dummy root, the four recursive updates, and the members that `build`
sets at its end. -/
theorem build_full (pt0 : Pseudotree) (G : Graph) (n : Nat) (elim : List Nat)
    (cachelimit : Int) (hrep : G.Rep) (hsim : G.Simple) (hnodes : G.NodesAre n)
    (hperm : elim.Perm (List.range n)) (hlim : cachelimit = NONE ∨ 0 ≤ cachelimit)
    (hready : pt0.Ready n) :
    ∃ pt st nodes1 T nodes3 hgt nodes4 w nodes5 vars,
      Pseudotree.build pt0 G elim cachelimit = some pt
      ∧ buildLoop elim
          { G := G, m_width := (if pt0.m_height ≠ UNKNOWN then pt0.reset else pt0).m_width,
            m_nodes := List.replicate n none, roots := [] } = some st
      ∧ ForestInv G n elim elim st
      ∧ cacheContextLoop cachelimit (List.range st.m_nodes.length) st.m_nodes = some nodes1
      ∧ attachToDummy n st.roots (nodes1 ++ [some (PseudotreeNode.new n [])])
          (if pt0.m_height ≠ UNKNOWN then pt0.reset else pt0).m_components
          = some (T, pt.m_components)
      ∧ TreeInv G n elim cachelimit T
      ∧ updateDepthHeight (T.length + 1) T n (-1) = some (nodes3, hgt)
      ∧ updateSubWidth (nodes3.length + 1) nodes3 n = some (nodes4, w)
      ∧ orderAll (if pt0.m_height ≠ UNKNOWN then pt0.reset else pt0).m_subOrder
          (List.range nodes4.length) nodes4 = some nodes5
      ∧ updateSubprobVars nodes5.length (nodes5.length + 1) nodes5 n = some (pt.m_nodes, vars)
      ∧ Arena.Rel PseudotreeNode.Similar T pt.m_nodes
      ∧ pt.m_root = some n ∧ pt.m_height = hgt - 1 ∧ pt.m_size = (vars.length : Int) - 1
      ∧ pt.m_width = st.m_width
      ∧ pt.m_components = (if pt0.m_height ≠ UNKNOWN then pt0.reset else pt0).m_components
          + (st.roots.length : Int) := by
  obtain ⟨hnd, hlen, hmem⟩ := perm_range_facts hperm
  have hptn : (if pt0.m_height ≠ UNKNOWN then pt0.reset else pt0).m_nodes
      = List.replicate n none := by
    split
    · simp [Pseudotree.reset, hready.1]
    · rename_i hh
      rcases hready.2 with h1 | h1
      · exact absurd h1 hh
      · exact h1
  have hstat : G.getStatNodes = (n : Int) := by
    unfold Graph.getStatNodes
    rw [hrep.statNodes, keys_length_of_nodesAre hrep hnodes]
  obtain ⟨st, e1, hF⟩ := buildLoop_spec hnd (fun k hk => (hmem k).1 hk) elim []
    { G := G, m_width := (if pt0.m_height ≠ UNKNOWN then pt0.reset else pt0).m_width,
      m_nodes := List.replicate n none, roots := [] } rfl
    (ForestInv.init_forest elim _ hrep hsim hnodes)
  have hD := hF.done hperm
  obtain ⟨nodes1, T, e2, e3, hT⟩ := forest_finish hperm hD cachelimit hlim
    (if pt0.m_height ≠ UNKNOWN then pt0.reset else pt0).m_components
  obtain ⟨nodes3, hgt, nodes4, w, nodes5, nodes6, vars, e4, e5, e6, e7, hrel⟩ :=
    tree_updates_rel hperm hT (if pt0.m_height ≠ UNKNOWN then pt0.reset else pt0).m_subOrder
  have hb : ∃ pt, Pseudotree.build pt0 G elim cachelimit = some pt ∧ pt.m_nodes = nodes6
      ∧ pt.m_root = some n ∧ pt.m_height = hgt - 1 ∧ pt.m_size = (vars.length : Int) - 1
      ∧ pt.m_width = st.m_width
      ∧ pt.m_components = (if pt0.m_height ≠ UNKNOWN then pt0.reset else pt0).m_components
          + (st.roots.length : Int) := by
    simp only [Pseudotree.build, hptn, hstat, List.length_replicate, hlen, and_self, if_true,
      e1, e2, e3, e4, e5, e6, e7]
    exact ⟨_, rfl, rfl, rfl, rfl, rfl, rfl, rfl⟩
  obtain ⟨pt, hpt1, hpt2, hpt3, hpt4, hpt5, hpt6, hpt7⟩ := hb
  rw [← hpt2] at hrel e7
  rw [← hpt7] at e3
  exact ⟨pt, st, nodes1, T, nodes3, hgt, nodes4, w, nodes5, vars, hpt1, e1, hF, e2, e3, hT,
    e4, e5, e6, e7, hrel, hpt3, hpt4, hpt5, hpt6, hpt7⟩

/-- The first loop of `build` plays the elimination game: it leaves the graph of the game,
and its width is the largest of the width before and the neighbour counts of the game. -/
theorem buildLoop_game : ∀ (elim : List Nat) (st st1 : BuildState) (ds0 : List Nat),
    buildLoop elim st = some st1 →
    ∃ ds, elim.foldl elimStep (some (st.G, ds0)) = some (st1.G, ds0 ++ ds)
      ∧ st1.m_width = ds.foldl (fun w d => max w (d : Int)) st.m_width := by
  intro elim
  induction elim with
  | nil =>
    intro st st1 ds0 h
    simp only [buildLoop, Option.some.injEq] at h
    rw [← h]
    exact ⟨[], by simp, rfl⟩
  | cons v rest ih =>
    intro st st1 ds0 h
    simp only [buildLoop] at h
    cases hN : st.G.getNeighbors v with
    | none => simp [hN] at h
    | some N =>
      simp only [hN] at h
      cases hins : insertNewNode st.m_nodes v N st.roots with
      | none => simp [hins] at h
      | some x =>
        obtain ⟨nodes1, roots1⟩ := x
        simp only [hins] at h
        obtain ⟨ds, e, hw⟩ := ih _ st1 (ds0 ++ [N.length]) h
        refine ⟨N.length :: ds, ?_, ?_⟩
        · simp only [List.foldl_cons, elimStep, hN]
          rw [e]
          simp
        · rw [hw]
          rfl

/-! ## Further invariants of the first loop of `build` -/

/-- One pass of the first loop of `build`, seen from the arena: the new node has the
neighbours as its context and the roots that hold it in their context as its children,
and these roots get it as their parent. -/
theorem ForestInv.step_view {G0 : Graph} {n : Nat} {elim pre rest : List Nat} {v : Nat}
    {st : BuildState} (h : ForestInv G0 n elim pre st) (hsplit : pre ++ v :: rest = elim)
    (hnd : elim.Nodup) (hlt : ∀ k ∈ elim, k < n) {N : List Nat} {nodes1 : Arena}
    {roots1 : List Nat} (hN : st.G.getNeighbors v = some N)
    (hins : insertNewNode st.m_nodes v N st.roots = some (nodes1, roots1)) :
    st.m_nodes.deref v = none ∧ N.Nodup
      ∧ roots1 = st.roots.filter (fun r => decide (v ∉ st.m_nodes.ctx r)) ++ [v]
      ∧ nodes1.deref v = some ((PseudotreeNode.new v N).addChildren
          (st.roots.filter (fun r => decide (v ∈ st.m_nodes.ctx r))))
      ∧ (∀ k, k ≠ v → nodes1.deref k = (st.m_nodes.deref k).map
          (fun x => if k ∈ st.roots ∧ v ∈ x.m_contextS then x.setParent (some v) else x))
      ∧ ForestInv G0 n elim (pre ++ [v])
          { G := (st.G.addClique N).removeNode v,
            m_width := max st.m_width (N.length : Int),
            m_nodes := nodes1, roots := roots1 } := by
  have hvpre : v ∉ pre := by
    rw [← hsplit] at hnd
    have := (List.nodup_append.1 hnd).2.2
    intro hv
    exact this hv (List.mem_cons_self v rest) 
  have hvn : v < n := hlt v (by rw [← hsplit]; simp)
  have hvnone : st.m_nodes.deref v = none := by
    cases hd : st.m_nodes.deref v with
    | none => rfl
    | some nd =>
      have := (h.nodeIff v).1 (by simp [hd])
      exact absurd this hvpre
  have hrootsome : ∀ r ∈ st.roots, ∃ rn, st.m_nodes.deref r = some rn := by
    intro r hr
    obtain ⟨rn, hrn, _⟩ := (h.rootsIff r).1 hr
    exact ⟨rn, hrn⟩
  obtain ⟨nodes2, hins2, _, hdv, hdk⟩ := insertNewNode_spec st.m_nodes st.roots v N
    (by rw [h.len]; exact hvn) hvnone hrootsome h.rootsNodup
  rw [hins] at hins2
  simp only [Option.some.injEq, Prod.mk.injEq] at hins2
  obtain ⟨e1, e2⟩ := hins2
  subst e1
  obtain ⟨N2, nodes3, roots3, hN2, hins3, hF⟩ := h.step_forest hsplit hnd hlt
  rw [hN] at hN2
  cases hN2
  rw [hins] at hins3
  simp only [Option.some.injEq, Prod.mk.injEq] at hins3
  obtain ⟨e3, e4⟩ := hins3
  subst e3
  subst e4
  exact ⟨hvnone, h.rep.setsNodup v N hN, e2, hdv, hdk, hF⟩

/-- An invariant that every pass of the first loop of `build` keeps, beside `ForestInv`,
holds when the loop is through. -/
theorem buildLoop_extra {G0 : Graph} {n : Nat} {elim : List Nat} (hnd : elim.Nodup)
    (hlt : ∀ k ∈ elim, k < n) (Inv : List Nat → BuildState → Prop)
    (hstep : ∀ (pre : List Nat) (v : Nat) (rest : List Nat) (st : BuildState) (N : List Nat)
      (nodes1 : Arena) (roots1 : List Nat), pre ++ v :: rest = elim →
      ForestInv G0 n elim pre st → Inv pre st → st.G.getNeighbors v = some N →
      insertNewNode st.m_nodes v N st.roots = some (nodes1, roots1) →
      Inv (pre ++ [v]) { G := (st.G.addClique N).removeNode v,
                         m_width := max st.m_width (N.length : Int),
                         m_nodes := nodes1, roots := roots1 }) :
    ∀ (rest pre : List Nat) (st st1 : BuildState), pre ++ rest = elim →
      ForestInv G0 n elim pre st → Inv pre st → buildLoop rest st = some st1 →
      Inv elim st1 := by
  intro rest
  induction rest with
  | nil =>
    intro pre st st1 hsplit _ hI hb
    simp only [List.append_nil] at hsplit
    simp only [buildLoop, Option.some.injEq] at hb
    rw [← hb, ← hsplit]
    exact hI
  | cons v rest ih =>
    intro pre st st1 hsplit h hI hb
    obtain ⟨N, nodes1, roots1, hN, hins, h1⟩ := h.step_forest hsplit hnd hlt
    simp only [buildLoop, hN, hins] at hb
    exact ih (pre ++ [v]) _ st1 (by simpa using hsplit) h1
      (hstep pre v rest st N nodes1 roots1 hsplit h hI hN hins) hb

theorem Graph.Connected.of_adj {G : Graph} {a b : Nat} (h : G.adj a b) : G.Connected a b :=
  Relation.ReflTransGen.single h

theorem Graph.Connected.conn_symm {G : Graph} (hs : G.Simple) {a b : Nat}
    (h : G.Connected a b) : G.Connected b a :=
  Relation.ReflTransGen.symmetric (fun x y hxy => hs.sym x y hxy) h

theorem Graph.Connected.conn_trans {G : Graph} {a b c : Nat} (h1 : G.Connected a b)
    (h2 : G.Connected b c) : G.Connected a c :=
  Relation.ReflTransGen.trans h1 h2

/-- When the first loop of `build` is through, every node is connected in the graph to
the nodes of its context, and the parent of a node is in its context. -/
theorem buildLoop_conn {G0 : Graph} {n : Nat} {elim : List Nat} (hsim0 : G0.Simple)
    (hrep0 : G0.Rep) (hnodes : G0.NodesAre n) (hnd : elim.Nodup) (hlt : ∀ k ∈ elim, k < n)
    (w : Int) (st1 : BuildState)
    (hb : buildLoop elim { G := G0, m_width := w, m_nodes := List.replicate n none,
                           roots := [] } = some st1) :
    (∀ k nd x, st1.m_nodes.deref k = some nd → x ∈ nd.m_contextS → G0.Connected k x)
      ∧ (∀ k nd p, st1.m_nodes.deref k = some nd → nd.m_parent = some p →
          p ∈ nd.m_contextS) := by
  have key := buildLoop_extra hnd hlt
    (fun _ st => (∀ a b, st.G.adj a b → G0.Connected a b)
      ∧ (∀ k nd x, st.m_nodes.deref k = some nd → x ∈ nd.m_contextS → G0.Connected k x)
      ∧ (∀ k nd p, st.m_nodes.deref k = some nd → nd.m_parent = some p →
          p ∈ nd.m_contextS))
    (by
      intro pre v rest st N nodes1 roots1 hsplit h hI hN hins
      obtain ⟨i1, i2, i3⟩ := hI
      obtain ⟨hvnone, hNnd, _, hdv, hdk, _⟩ := h.step_view hsplit hnd hlt hN hins
      have hvN : ∀ x ∈ N, G0.Connected v x := fun x hx => i1 v x ⟨N, hN, hx⟩
      refine ⟨?_, ?_, ?_⟩
      · intro a b hab
        rw [Graph.adj_elimStep h.simple v N hNnd] at hab
        rcases hab.2.2 with h1 | ⟨h1, h2, _⟩
        · exact i1 a b h1
        · exact ((hvN a h1).conn_symm hsim0).conn_trans (hvN b h2)
      · intro k nd x hk hx
        by_cases hkv : k = v
        · subst hkv
          simp only at hk
          rw [hdv] at hk
          cases hk
          exact hvN x hx
        · simp only at hk
          rw [hdk k hkv] at hk
          cases hd : st.m_nodes.deref k with
          | none => simp [hd] at hk
          | some nd0 =>
            simp only [hd, Option.map_some', Option.some.injEq] at hk
            have hctx : nd.m_contextS = nd0.m_contextS := by
              rw [← hk]
              split <;> rfl
            rw [hctx] at hx
            exact i2 k nd0 x hd hx
      · intro k nd p hk hp
        by_cases hkv : k = v
        · subst hkv
          simp only at hk
          rw [hdv] at hk
          cases hk
          cases hp
        · simp only at hk
          rw [hdk k hkv] at hk
          cases hd : st.m_nodes.deref k with
          | none => simp [hd] at hk
          | some nd0 =>
            simp only [hd, Option.map_some', Option.some.injEq] at hk
            by_cases hc : k ∈ st.roots ∧ v ∈ nd0.m_contextS
            · rw [if_pos hc] at hk
              rw [← hk] at hp ⊢
              simp only [PseudotreeNode.setParent, Option.some.injEq] at hp
              rw [← hp]
              exact hc.2
            · rw [if_neg hc] at hk
              rw [← hk] at hp ⊢
              exact i3 k nd0 p hd hp)
    elim [] _ st1 rfl (ForestInv.init_forest elim w hrep0 hsim0 hnodes)
    ⟨fun a b hab => Graph.Connected.of_adj hab,
      fun k nd x hd => by simp [Arena.deref_replicate] at hd,
      fun k nd p hd => by simp [Arena.deref_replicate] at hd⟩ hb
  exact ⟨key.2.1, key.2.2⟩

/-! ## The roots of the forest and the components of the graph -/

theorem Arena.Reaches.reaches_trans {A : Arena} {a b c : Nat} (h1 : A.Reaches a b)
    (h2 : A.Reaches b c) : A.Reaches a c := by
  induction h2 with
  | refl => exact h1
  | step _ hc hp ih => exact Arena.Reaches.step ih hc hp

/-- A node without parent is reached from itself only. -/
theorem Arena.Reaches.of_root {A : Arena} {r x : Nat} {rd : PseudotreeNode}
    (hr : A.deref r = some rd) (hp : rd.m_parent = none) (h : A.Reaches r x) : r = x := by
  rcases h.cases_head with h1 | ⟨nd, p, h1, h2, _⟩
  · exact h1
  · rw [hr] at h1
    cases h1
    rw [hp] at h2
    cases h2

/-- In the forest that the first loop of `build` leaves, the parent links lead from every
node to a root, to which the node is connected in the graph. -/
theorem forest_root_conn {G0 : Graph} {n : Nat} {elim : List Nat} {F : Arena}
    {roots : List Nat} (hperm : elim.Perm (List.range n)) (h : ForestDone G0 n elim F roots)
    (hconn : ∀ k nd x, F.deref k = some nd → x ∈ nd.m_contextS → G0.Connected k x)
    (hpar : ∀ k nd p, F.deref k = some nd → nd.m_parent = some p → p ∈ nd.m_contextS) :
    ∀ (m k : Nat), k < n → n ≤ m + elim.indexOf k →
      ∃ r, r ∈ roots ∧ F.Reaches k r ∧ G0.Connected k r := by
  intro m
  induction m with
  | zero =>
    intro k hk hm
    have := indexOf_lt_of_lt hperm hk
    omega
  | succ m ih =>
    intro k hk hm
    have hsome := h.nodeSome k hk
    cases hd : F.deref k with
    | none => simp [hd] at hsome
    | some nd =>
      cases hp : nd.m_parent with
      | none =>
        exact ⟨k, (h.rootsIff k).2 ⟨nd, hd, hp⟩, Arena.Reaches.refl k,
          Relation.ReflTransGen.refl⟩
      | some p =>
        obtain ⟨hidx, pn, hpn, _⟩ := h.parent k nd p hd hp
        obtain ⟨r, hr1, hr2, hr3⟩ := ih p (h.node_lt hpn) (by omega)
        exact ⟨r, hr1, Arena.Reaches.head hd hp hr2,
          (hconn k nd p hd (hpar k nd p hd hp)).conn_trans hr3⟩

/-- In the forest the parent links lead from a node to every node of its context. -/
theorem forest_ctx_reaches {G0 : Graph} {n : Nat} {elim : List Nat} {F : Arena}
    {roots : List Nat} (hperm : elim.Perm (List.range n)) (h : ForestDone G0 n elim F roots) :
    ∀ (m k : Nat) (nd : PseudotreeNode) (x : Nat), F.deref k = some nd → x ∈ nd.m_contextS →
      n ≤ m + elim.indexOf k → F.Reaches k x := by
  intro m
  induction m with
  | zero =>
    intro k nd x hd _ hm
    have := indexOf_lt_of_lt hperm (h.node_lt hd)
    omega
  | succ m ih =>
    intro k nd x hd hx hm
    cases hp : nd.m_parent with
    | none =>
      rw [h.rootCtx k nd hd hp] at hx
      cases hx
    | some p =>
      obtain ⟨hidx, pn, hpn, _, hcov⟩ := h.parent k nd p hd hp
      rcases hcov x hx with h1 | h1
      · rw [h1]
        exact Arena.Reaches.head hd hp (Arena.Reaches.refl p)
      · exact Arena.Reaches.head hd hp (ih p pn x hpn h1 (by omega))

/-- Two nodes that an edge of the graph joins have the same root in the forest. -/
theorem forest_edge_root {G0 : Graph} {n : Nat} {elim : List Nat} {F : Arena}
    {roots : List Nat} (hperm : elim.Perm (List.range n)) (h : ForestDone G0 n elim F roots)
    (hsim0 : G0.Simple) (hnodes : G0.NodesAre n) {a b r : Nat} (hab : G0.adj a b)
    (hr : r ∈ roots) (har : F.Reaches a r) : F.Reaches b r := by
  obtain ⟨hnd, _, hmem⟩ := perm_range_facts hperm
  have ha : a < n := (hnodes a).1 (Graph.adj_hasNode hab)
  have hb : b < n := (hnodes b).1 (Graph.adj_hasNode (hsim0.sym a b hab))
  obtain ⟨rd, hrd, hrp⟩ := (h.rootsIff r).1 hr
  have hne : a ≠ b := fun e => hsim0.irrefl a (by rw [e] at hab ⊢; exact hab)
  have hidx : elim.indexOf a ≠ elim.indexOf b := by
    intro e
    exact hne (List.indexOf_inj ((hmem a).2 ha) ((hmem b).2 hb) |>.1 e)
  have hsa := h.nodeSome a ha
  have hsb := h.nodeSome b hb
  cases hda : F.deref a with
  | none => simp [hda] at hsa
  | some and =>
    cases hdb : F.deref b with
    | none => simp [hdb] at hsb
    | some bnd =>
      rcases Nat.lt_or_gt_of_ne hidx with h1 | h1
      · have hab2 : F.Reaches a b := forest_ctx_reaches hperm h n a and b hda
          (h.ctxEdges a and b hda hab h1) (by omega)
        rcases hab2.chain har with h2 | h2
        · exact h2
        · rw [Arena.Reaches.of_root hrd hrp h2]
          exact Arena.Reaches.refl b
      · have hba : F.Reaches b a := forest_ctx_reaches hperm h n b bnd a hdb
          (h.ctxEdges b bnd a hdb (hsim0.sym a b hab) h1) (by omega)
        exact hba.reaches_trans har

/-- The roots of the forest are one node of every connected component of the graph: every
node is connected to a root, and two roots that are connected are the same. -/
theorem forest_components {G0 : Graph} {n : Nat} {elim : List Nat} {F : Arena}
    {roots : List Nat} (hperm : elim.Perm (List.range n)) (h : ForestDone G0 n elim F roots)
    (hsim0 : G0.Simple) (hnodes : G0.NodesAre n)
    (hconn : ∀ k nd x, F.deref k = some nd → x ∈ nd.m_contextS → G0.Connected k x)
    (hpar : ∀ k nd p, F.deref k = some nd → nd.m_parent = some p → p ∈ nd.m_contextS) :
    (∀ k, k < n → ∃ r, r ∈ roots ∧ G0.Connected k r)
      ∧ (∀ r1 r2, r1 ∈ roots → r2 ∈ roots → G0.Connected r1 r2 → r1 = r2) := by
  constructor
  · intro k hk
    obtain ⟨r, h1, _, h3⟩ := forest_root_conn hperm h hconn hpar n k hk (by omega)
    exact ⟨r, h1, h3⟩
  · intro r1 r2 hr1 hr2 hc
    have key : ∀ x, G0.Connected r1 x → F.Reaches x r1 := by
      intro x hx
      induction hx with
      | refl => exact Arena.Reaches.refl r1
      | tail _ hbc ih => exact forest_edge_root hperm h hsim0 hnodes hbc hr1 ih
    obtain ⟨rd, hrd, hrp⟩ := (h.rootsIff r2).1 hr2
    exact (Arena.Reaches.of_root hrd hrp (key r2 hc)).symm

/-- A list of nodes with one node of every connected component has as many members as the
graph has components: the classes of the equivalence that the edges generate on the nodes
`0..n-1`. -/
theorem Graph.card_components {G : Graph} {n : Nat} (hsim : G.Simple) (hnodes : G.NodesAre n)
    (L : List Nat) (hnd : L.Nodup) (hlt : ∀ r, r ∈ L → r < n)
    (hcov : ∀ k, k < n → ∃ r, r ∈ L ∧ G.Connected k r)
    (hsep : ∀ r1 r2, r1 ∈ L → r2 ∈ L → G.Connected r1 r2 → r1 = r2) :
    Nat.card (Quotient (Relation.EqvGen.setoid (fun a b : Fin n => G.adj a.1 b.1)))
      = L.length := by
  have h1 : ∀ a b, G.Connected a b → ∀ ha : a < n, ∃ hb : b < n,
      Relation.EqvGen (fun a b : Fin n => G.adj a.1 b.1) ⟨a, ha⟩ ⟨b, hb⟩ := by
    intro a b hab
    induction hab with
    | refl => exact fun ha => ⟨ha, Relation.EqvGen.refl _⟩
    | tail _ hbc ih =>
      intro ha
      obtain ⟨hb, e⟩ := ih ha
      have hc := (hnodes _).1 (Graph.adj_hasNode (hsim.sym _ _ hbc))
      exact ⟨hc, Relation.EqvGen.trans _ _ _ e (Relation.EqvGen.rel _ _ hbc)⟩
  have h2 : ∀ x y : Fin n, Relation.EqvGen (fun a b : Fin n => G.adj a.1 b.1) x y →
      G.Connected x.1 y.1 := by
    intro x y hxy
    induction hxy with
    | rel _ _ h => exact Graph.Connected.of_adj h
    | refl _ => exact Relation.ReflTransGen.refl
    | symm _ _ _ ih => exact ih.conn_symm hsim
    | trans _ _ _ _ _ ih1 ih2 => exact ih1.conn_trans ih2
  have hbij : Function.Bijective (fun i : Fin L.length =>
      (Quotient.mk (Relation.EqvGen.setoid (fun a b : Fin n => G.adj a.1 b.1))
        ⟨L.get i, hlt _ (List.get_mem L i.1 i.2)⟩)) := by
    constructor
    · intro i j hij
      have e := h2 _ _ (Quotient.exact hij)
      have e2 := hsep _ _ (List.get_mem L i.1 i.2) (List.get_mem L j.1 j.2) e
      exact (List.Nodup.get_inj_iff hnd).1 e2
    · intro q
      induction q using Quotient.inductionOn with
      | _ x =>
        obtain ⟨r, hr, hc⟩ := hcov x.1 x.2
        obtain ⟨i, hi⟩ := List.get_of_mem hr
        refine ⟨i, Quotient.sound ?_⟩
        obtain ⟨hb, e⟩ := h1 _ _ (hc.conn_symm hsim) (hlt r hr)
        have e3 : (⟨L.get i, hlt _ (List.get_mem L i.1 i.2)⟩ : Fin n) = ⟨r, hlt r hr⟩ :=
          Fin.ext hi
        rw [e3]
        exact e
  rw [← Nat.card_eq_of_bijective _ hbij]
  simp


/-! ## The depths, heights and widths of a tree -/

theorem PseudotreeNode.SameButWidth.width_refl (a : PseudotreeNode) : a.SameButWidth a := by
  unfold PseudotreeNode.SameButWidth; rfl

theorem PseudotreeNode.SameButWidth.width_trans (a b c : PseudotreeNode)
    (h1 : a.SameButWidth b) (h2 : b.SameButWidth c) : a.SameButWidth c := by
  unfold PseudotreeNode.SameButWidth at *
  rw [h2, h1]

theorem PseudotreeNode.SameButWidth.width_similar {a b : PseudotreeNode}
    (h : a.SameButWidth b) : a.Similar b := by
  unfold PseudotreeNode.SameButWidth at h
  rw [h]
  exact ⟨⟨rfl, rfl, rfl, List.Perm.refl _⟩, rfl, rfl, rfl⟩

theorem le_foldl_max_of_mem (l : List Int) : ∀ (m x : Int), x ∈ l → x ≤ l.foldl max m := by
  induction l with
  | nil => intro m x hx; cases hx
  | cons y ys ih =>
    intro m x hx
    rcases List.mem_cons.1 hx with h | h
    · rw [h]
      exact le_trans (le_max_right m y) (foldl_max_le ys (max m y))
    · exact ih (max m y) x h

theorem foldl_max_mem (l : List Int) : ∀ (m : Int), l.foldl max m = m ∨ l.foldl max m ∈ l := by
  induction l with
  | nil => intro m; exact Or.inl rfl
  | cons y ys ih =>
    intro m
    rcases ih (max m y) with h | h
    · rw [List.foldl_cons, h]
      rcases max_choice m y with h2 | h2
      · exact Or.inl h2
      · rw [h2]; exact Or.inr (List.mem_cons_self y ys)
    · exact Or.inr (List.mem_cons_of_mem _ h)

theorem foldl_max_perm {l1 l2 : List Int} (h : l1.Perm l2) (m : Int) :
    l1.foldl max m = l2.foldl max m := by
  apply le_antisymm
  · rcases foldl_max_mem l1 m with h1 | h1
    · rw [h1]; exact foldl_max_le l2 m
    · exact le_foldl_max_of_mem l2 m _ (h.mem_iff.1 h1)
  · rcases foldl_max_mem l2 m with h1 | h1
    · rw [h1]; exact foldl_max_le l1 m
    · exact le_foldl_max_of_mem l1 m _ (h.mem_iff.2 h1)

theorem Arena.width_congr {A B : Arena}
    (h : ∀ k, (A.deref k).map PseudotreeNode.m_children
      = (B.deref k).map PseudotreeNode.m_children)
    (hc : ∀ k, (A.deref k).map PseudotreeNode.m_contextS
      = (B.deref k).map PseudotreeNode.m_contextS) :
    ∀ (fuel v : Nat), A.width fuel v = B.width fuel v := by
  intro fuel
  induction fuel with
  | zero => intro v; rfl
  | succ fuel ih =>
    intro v
    have hv := h v
    have hcv := hc v
    simp only [Arena.width]
    cases ha : A.deref v with
    | none =>
      rw [ha] at hv
      cases hb : B.deref v with
      | none => rfl
      | some b => rw [hb] at hv; cases hv
    | some a =>
      rw [ha] at hv hcv
      cases hb : B.deref v with
      | none => rw [hb] at hv; cases hv
      | some b =>
        rw [hb] at hv hcv
        simp only [Option.map_some', Option.some.injEq] at hv hcv
        simp only [hv, hcv]
        have : b.m_children.map (A.width fuel) = b.m_children.map (B.width fuel) :=
          List.map_congr_left (fun c _ => ih c)
        rw [this]

theorem Arena.width_fuel {A : Arena} {ρ : Nat → Nat} (hdown : A.Down ρ) :
    ∀ (f g v : Nat), ρ v < f → ρ v < g → A.width f v = A.width g v := by
  intro f
  induction f with
  | zero => intro g v h; omega
  | succ f ih =>
    intro g v hf hg
    cases g with
    | zero => omega
    | succ g =>
      simp only [Arena.width]
      cases hd : A.deref v with
      | none => rfl
      | some nd =>
        simp only
        have : nd.m_children.map (A.width f) = nd.m_children.map (A.width g) :=
          List.map_congr_left (fun c hc => by
            have := (hdown v nd c hd hc).2
            exact ih g c (by omega) (by omega))
        rw [this]

/-- The width of a subtree bounds the size of every context in the subtree. -/
theorem Arena.width_bound (A : Arena) :
    ∀ (fuel v k : Nat) (kd : PseudotreeNode), k ∈ A.subtree fuel v → A.deref k = some kd →
      (kd.m_contextS.length : Int) ≤ A.width fuel v := by
  intro fuel
  induction fuel with
  | zero => intro v k kd hk; simp [Arena.subtree] at hk
  | succ fuel ih =>
    intro v k kd hk hkd
    simp only [Arena.subtree] at hk
    simp only [Arena.width]
    cases hd : A.deref v with
    | none => simp [hd] at hk
    | some nd =>
      simp only [hd, List.mem_cons, List.mem_flatMap] at hk
      simp only
      rcases hk with h1 | ⟨c, hc, hkc⟩
      · subst h1
        rw [hd] at hkd
        cases hkd
        exact foldl_max_le _ _
      · exact le_trans (ih c k kd hkc hkd)
          (le_foldl_max_of_mem _ _ _ (List.mem_map.2 ⟨c, hc, rfl⟩))

/-- The width of a subtree is the size of a context in the subtree. -/
theorem Arena.width_attained {A : Arena} {ρ : Nat → Nat} (hdown : A.Down ρ) :
    ∀ (fuel v : Nat), (A.deref v).isSome = true → ρ v < fuel →
      ∃ k kd, k ∈ A.subtree fuel v ∧ A.deref k = some kd
        ∧ (kd.m_contextS.length : Int) = A.width fuel v := by
  intro fuel
  induction fuel with
  | zero => intro v _ h; omega
  | succ fuel ih =>
    intro v hv hf
    cases hd : A.deref v with
    | none => simp [hd] at hv
    | some nd =>
      have hw : A.width (fuel + 1) v
          = (nd.m_children.map (A.width fuel)).foldl max (nd.m_contextS.length : Int) := by
        simp only [Arena.width, hd]
      have hs : A.subtree (fuel + 1) v = v :: nd.m_children.flatMap (A.subtree fuel) := by
        simp only [Arena.subtree, hd]
      rcases foldl_max_mem (nd.m_children.map (A.width fuel)) (nd.m_contextS.length : Int)
        with h1 | h1
      · exact ⟨v, nd, by rw [hs]; exact List.mem_cons_self _ _, hd, by rw [hw, h1]⟩
      · obtain ⟨c, hc, hcw⟩ := List.mem_map.1 h1
        obtain ⟨hcs, hcr⟩ := hdown v nd c hd hc
        obtain ⟨k, kd, hk1, hk2, hk3⟩ := ih c hcs (by omega)
        refine ⟨k, kd, ?_, hk2, by rw [hw, ← hcw, hk3]⟩
        rw [hs]
        exact List.mem_cons_of_mem _ (List.mem_flatMap.2 ⟨c, hc, hk1⟩)

/-- The subtree of a node holds the children of its nodes. -/
theorem Arena.subtree_closed {A : Arena} {ρ : Nat → Nat} (hdown : A.Down ρ) :
    ∀ (fuel v p c : Nat) (pn : PseudotreeNode), ρ v < fuel → p ∈ A.subtree fuel v →
      A.deref p = some pn → c ∈ pn.m_children → c ∈ A.subtree fuel v := by
  intro fuel
  induction fuel with
  | zero => intro v p c pn h; omega
  | succ fuel ih =>
    intro v p c pn hf hp hpn hc
    simp only [Arena.subtree] at hp ⊢
    cases hd : A.deref v with
    | none => simp [hd] at hp
    | some nd =>
      simp only [hd, List.mem_cons, List.mem_flatMap] at hp ⊢
      rcases hp with h1 | ⟨c1, hc1, hpc⟩
      · subst h1
        rw [hd] at hpn
        cases hpn
        obtain ⟨hcs, hcr⟩ := hdown _ _ c hd hc
        cases hcd : A.deref c with
        | none => simp [hcd] at hcs
        | some cn =>
          refine Or.inr ⟨c, hc, ?_⟩
          cases fuel with
          | zero => omega
          | succ fuel => exact Arena.subtree_self hcd fuel
      · have := (hdown v nd c1 hd hc1).2
        exact Or.inr ⟨c1, hc1, ih c1 p c pn (by omega) hpc hpn hc⟩

/-- A node that the parent links lead to `v` is in the subtree of `v`. -/
theorem Arena.subtree_of_reaches {A : Arena} {ρ : Nat → Nat} (hdown : A.Down ρ) (hup : A.Up)
    {k v : Nat} (hk : (A.deref k).isSome = true) (h : A.Reaches k v) :
    ∀ fuel, ρ v < fuel → k ∈ A.subtree fuel v := by
  induction h with
  | refl =>
    intro fuel hf
    cases hd : A.deref k with
    | none => simp [hd] at hk
    | some nd =>
      cases fuel with
      | zero => omega
      | succ fuel => exact Arena.subtree_self hd fuel
  | step hr hc hp ih =>
    rename_i c v cn
    intro fuel hf
    obtain ⟨pn, hpn, hmem⟩ := hup c cn v hc hp
    have hr := (hdown v pn c hpn hmem).2
    cases fuel with
    | zero => omega
    | succ fuel =>
      simp only [Arena.subtree, hpn, List.mem_cons, List.mem_flatMap]
      exact Or.inr ⟨c, hmem, ih fuel (by omega)⟩

/-- The subtrees of two arenas with the same children up to their order have the same
members. -/
theorem Arena.subtree_mem_congr {A B : Arena} (h : Arena.Rel PseudotreeNode.Similar A B) :
    ∀ (fuel v k : Nat), k ∈ A.subtree fuel v ↔ k ∈ B.subtree fuel v := by
  intro fuel
  induction fuel with
  | zero => intro v k; simp [Arena.subtree]
  | succ fuel ih =>
    intro v k
    simp only [Arena.subtree]
    cases ha : A.deref v with
    | none =>
      rw [(h.none_iff v).1 ha]
    | some a =>
      obtain ⟨b, hb, hab⟩ := h.left ha
      rw [hb]
      simp only [List.mem_cons, List.mem_flatMap]
      constructor
      · rintro (h1 | ⟨c, hc, hkc⟩)
        · exact Or.inl h1
        · exact Or.inr ⟨c, hab.1.2.2.2.mem_iff.1 hc, (ih c k).1 hkc⟩
      · rintro (h1 | ⟨c, hc, hkc⟩)
        · exact Or.inl h1
        · exact Or.inr ⟨c, hab.1.2.2.2.mem_iff.2 hc, (ih c k).2 hkc⟩

/-- When the depth of every child is one more than that of its node, the depths in a
subtree are at most the depth of its root plus its height, and one of them is that. -/
theorem Arena.depth_height {A : Arena} {ρ : Nat → Nat} (hdown : A.Down ρ) (dep : Nat → Int)
    (hdep : ∀ p pn c, A.deref p = some pn → c ∈ pn.m_children → dep c = dep p + 1) :
    ∀ (fuel v : Nat), (A.deref v).isSome = true → ρ v < fuel →
      (∀ k, k ∈ A.subtree fuel v → dep k ≤ dep v + A.height fuel v)
        ∧ ∃ k, k ∈ A.subtree fuel v ∧ dep k = dep v + A.height fuel v := by
  intro fuel
  induction fuel with
  | zero => intro v _ h; omega
  | succ fuel ih =>
    intro v hv hf
    cases hd : A.deref v with
    | none => simp [hd] at hv
    | some nd =>
      have hs : A.subtree (fuel + 1) v = v :: nd.m_children.flatMap (A.subtree fuel) := by
        simp only [Arena.subtree, hd]
      by_cases hch : nd.m_children = []
      · have hh : A.height (fuel + 1) v = 0 := by simp [Arena.height, hd, hch]
        rw [hs, hh, hch]
        simp
      · have hh : A.height (fuel + 1) v
            = (nd.m_children.map (A.height fuel)).foldl max 0 + 1 := by
          simp [Arena.height, hd, hch]
        rw [hs, hh]
        constructor
        · intro k hk
          rcases List.mem_cons.1 hk with h1 | h1
          · rw [h1]
            have := foldl_max_le (nd.m_children.map (A.height fuel)) 0
            omega
          · obtain ⟨c, hc, hkc⟩ := List.mem_flatMap.1 h1
            obtain ⟨hcs, hcr⟩ := hdown v nd c hd hc
            have h2 := (ih c hcs (by omega)).1 k hkc
            have h3 := hdep v nd c hd hc
            have h4 := le_foldl_max_of_mem (nd.m_children.map (A.height fuel)) 0
              (A.height fuel c) (List.mem_map.2 ⟨c, hc, rfl⟩)
            omega
        · rcases foldl_max_mem (nd.m_children.map (A.height fuel)) 0 with h1 | h1
          · cases hcl : nd.m_children with
            | nil => exact absurd hcl hch
            | cons c cs =>
              have hc : c ∈ nd.m_children := by rw [hcl]; exact List.mem_cons_self _ _
              obtain ⟨hcs, hcr⟩ := hdown v nd c hd hc
              obtain ⟨hle, _⟩ := ih c hcs (by omega)
              have h3 := hdep v nd c hd hc
              have h4 := le_foldl_max_of_mem (nd.m_children.map (A.height fuel)) 0
                (A.height fuel c) (List.mem_map.2 ⟨c, hc, rfl⟩)
              have h5 := A.height_nonneg fuel c
              obtain ⟨k, hk1, hk2⟩ := (ih c hcs (by omega)).2
              refine ⟨k, ?_, ?_⟩
              · rw [← hcl]
                exact List.mem_cons_of_mem _ (List.mem_flatMap.2 ⟨c, hc, hk1⟩)
              · rw [← hcl, h1]
                rw [h1] at h4
                omega
          · obtain ⟨c, hc, hcw⟩ := List.mem_map.1 h1
            obtain ⟨hcs, hcr⟩ := hdown v nd c hd hc
            obtain ⟨k, hk1, hk2⟩ := (ih c hcs (by omega)).2
            have h3 := hdep v nd c hd hc
            refine ⟨k, List.mem_cons_of_mem _ (List.mem_flatMap.2 ⟨c, hc, hk1⟩), ?_⟩
            rw [← hcw, hk2, h3]
            omega

/-- What a call on a child has set in the subtree of the child is there after the loop
over the children, when the subtrees of the children are disjoint. -/
theorem depthHeightKids_post (f : Arena → Nat → Option (Arena × Int)) (g : Nat → Int)
    (sub : Nat → List Nat) (P : Arena → Prop) (Post : Nat → Arena → Prop) :
    ∀ (cs : List Nat) (ns : Arena) (m : Int) (ns1 : Arena) (m1 : Int),
      (∀ c ∈ cs, ∀ ns ns1, Post c ns → (∀ k, k ∈ sub c → ns1.deref k = ns.deref k) →
        Post c ns1) →
      (∀ c ∈ cs, ∀ ns ns1 h, P ns → f ns c = some (ns1, h) →
        P ns1 ∧ (∀ k, k ∉ sub c → ns1.deref k = ns.deref k) ∧ h = g c ∧ Post c ns1) →
      cs.Pairwise (fun a b => ∀ k, k ∈ sub a → k ∉ sub b) →
      P ns → depthHeightKids f cs ns m = some (ns1, m1) →
      ∀ c ∈ cs, Post c ns1 := by
  intro cs
  induction cs with
  | nil => intro ns m ns1 m1 _ _ _ _ _ c hc; cases hc
  | cons c cs ih =>
    intro ns m ns1 m1 hstab hf hpw hP h
    simp only [depthHeightKids] at h
    cases e : f ns c with
    | none => simp [e] at h
    | some r =>
      obtain ⟨ns2, h2⟩ := r
      simp only [e] at h
      obtain ⟨p1, l1, g1, q1⟩ := hf c (List.mem_cons_self c cs) ns ns2 h2 hP e
      obtain ⟨hpw1, hpw2⟩ := List.pairwise_cons.1 hpw
      obtain ⟨p2, l2, g2⟩ := depthHeightKids_content f g sub P cs ns2 _ ns1 m1
        (fun c hc ns ns1 h hP e => by
          obtain ⟨a1, a2, a3, _⟩ := hf c (List.mem_cons_of_mem _ hc) ns ns1 h hP e
          exact ⟨a1, a2, a3⟩) p1 h
      intro c1 hc1
      rcases List.mem_cons.1 hc1 with h3 | h3
      · rw [h3]
        exact hstab c (List.mem_cons_self c cs) ns2 ns1 q1
          (fun k hk => l2 k (fun c2 hc2 => hpw1 c2 hc2 k hk))
      · exact ih ns2 _ ns1 m1 (fun c hc => hstab c (List.mem_cons_of_mem _ hc))
          (fun c hc => hf c (List.mem_cons_of_mem _ hc)) hpw2 p1 h c1 h3

/-- The subtrees of the children of a node are disjoint when no variable is twice in the
subtree of the node. -/
theorem Arena.children_disjoint {A : Arena} {v : Nat} {nd : PseudotreeNode} {fuel : Nat}
    (hd : A.deref v = some nd) (hnd : (A.subtree (fuel + 1) v).Nodup) :
    nd.m_children.Pairwise (fun a b => ∀ k, k ∈ A.subtree fuel a → k ∉ A.subtree fuel b) := by
  simp only [Arena.subtree, hd, List.nodup_cons] at hnd
  have := (List.nodup_flatMap.1 hnd.2).2
  refine this.imp ?_
  intro a b hab k hka hkb
  exact hab hka hkb

/-- `updateDepthHeight(d)` on the node `v` leaves in every node of the subtree of `v` the
height of its subtree, and in every child of such a node the depth of the node plus 1. -/
theorem updateDepthHeight_deep {ρ : Nat → Nat} :
    ∀ (fuel : Nat) (A : Arena) (v : Nat) (d : Int) (A1 : Arena) (h : Int), A.Down ρ →
      (∀ F u, (A.subtree F u).Nodup) → ρ v < fuel →
      updateDepthHeight fuel A v d = some (A1, h) →
      ∀ p pn, p ∈ A.subtree fuel v → A.deref p = some pn →
        ∃ pn1, A1.deref p = some pn1 ∧ pn1.m_subHeight = A.height fuel p
          ∧ ∀ c, c ∈ pn.m_children →
              ∃ cn, A1.deref c = some cn ∧ cn.m_depth = pn1.m_depth + 1 := by
  intro fuel
  induction fuel with
  | zero => intro A v d A1 h _ _ _ e; simp [updateDepthHeight] at e
  | succ fuel ih =>
    intro A v d A1 h hdown hnodup hf e
    obtain ⟨c1, c2, nd1, c3, c4, c5⟩ :=
      updateDepthHeight_content (fuel + 1) A v d A1 h hdown e
    simp only [updateDepthHeight] at e
    cases hd : A.deref v with
    | none => simp [hd] at e
    | some nd =>
      simp only [hd] at e
      have hsub : A.subtree (fuel + 1) v = v :: nd.m_children.flatMap (A.subtree fuel) := by
        simp only [Arena.subtree, hd]
      by_cases hch : nd.m_children = []
      · intro p pn hp hpn
        rw [hsub, hch] at hp
        simp only [List.flatMap_nil, List.mem_singleton] at hp
        subst hp
        rw [hd] at hpn
        cases hpn
        refine ⟨nd1, c3, by rw [c5, c2], ?_⟩
        intro c hc
        rw [hch] at hc
        cases hc
      · simp only [hch, if_false] at e
        cases ek : depthHeightKids (fun ns c => updateDepthHeight fuel ns c (d + 1))
            nd.m_children (A.modify v (fun x => { x with m_depth := d })) 0 with
        | none => simp [ek] at e
        | some r =>
          obtain ⟨ns2, m⟩ := r
          simp only [ek, Option.some.injEq, Prod.mk.injEq] at e
          have r1 : Arena.Rel PseudotreeNode.SameButDepth A
              (A.modify v (fun x => { x with m_depth := d })) :=
            Arena.Rel.rel_modify PseudotreeNode.SameButDepth.depth_refl A v _ (fun a => rfl)
          have hkids := depthHeightKids_post
            (fun ns c => updateDepthHeight fuel ns c (d + 1)) (A.height fuel) (A.subtree fuel)
            (fun ns => Arena.Rel PseudotreeNode.SameButDepth A ns)
            (fun c ns =>
              (∃ cn, ns.deref c = some cn ∧ cn.m_depth = d + 1)
              ∧ ∀ p pn, p ∈ A.subtree fuel c → A.deref p = some pn →
                ∃ pn1, ns.deref p = some pn1 ∧ pn1.m_subHeight = A.height fuel p
                  ∧ ∀ c, c ∈ pn.m_children →
                    ∃ cn, ns.deref c = some cn ∧ cn.m_depth = pn1.m_depth + 1)
            nd.m_children _ 0 ns2 m
            (fun c hc ns ns1 hpost hsame => by
              obtain ⟨hcs, hcr⟩ := hdown v nd c hd hc
              have hcf : ρ c < fuel := by omega
              have hcc : c ∈ A.subtree fuel c := by
                cases hcd : A.deref c with
                | none => simp [hcd] at hcs
                | some cn =>
                  cases fuel with
                  | zero => omega
                  | succ fuel => exact Arena.subtree_self hcd fuel
              obtain ⟨⟨cn, hcn, hcd⟩, hdeep⟩ := hpost
              refine ⟨⟨cn, by rw [hsame c hcc]; exact hcn, hcd⟩, ?_⟩
              intro p pn hp hpn
              obtain ⟨pn1, q1, q2, q3⟩ := hdeep p pn hp hpn
              refine ⟨pn1, by rw [hsame p hp]; exact q1, q2, ?_⟩
              intro c2 hc2
              obtain ⟨cn2, q4, q5⟩ := q3 c2 hc2
              exact ⟨cn2, by
                rw [hsame c2 (Arena.subtree_closed hdown fuel c p c2 pn hcf hp hpn hc2)]
                exact q4, q5⟩)
            (fun c hc ns ns1 h hP e => by
              obtain ⟨hcs, hcr⟩ := hdown v nd c hd hc
              have hcf : ρ c < fuel := by omega
              have hchild := hP.children_eq (fun a b hab => by
                unfold PseudotreeNode.SameButDepth at hab; rw [hab])
              have hdn : ns.Down ρ :=
                hdown.down_congr (hP.mono (fun a b hab => hab.depth_similar))
              obtain ⟨q1, q2, cn, q3, q4, _⟩ := updateDepthHeight_content fuel ns c (d + 1)
                ns1 h hdn e
              have hdeep := ih ns c (d + 1) ns1 h hdn
                (fun F u => by rw [← Arena.subtree_congr hchild F u]; exact hnodup F u) hcf e
              refine ⟨Arena.Rel.rel_trans PseudotreeNode.SameButDepth.depth_trans hP
                (updateDepthHeight_frame PseudotreeNode.SameButDepth.depth_refl
                  PseudotreeNode.SameButDepth.depth_trans (fun a d => rfl) (fun a h => rfl)
                  fuel ns c (d + 1) ns1 h e), ?_, ?_, ⟨cn, q3, q4⟩, ?_⟩
              · rw [Arena.subtree_congr hchild fuel c]; exact q1
              · rw [Arena.height_congr hchild fuel c]; exact q2
              · intro p pn hp hpn
                obtain ⟨pn2, hpn2, hrel⟩ := hP.left hpn
                rw [Arena.subtree_congr hchild fuel c] at hp
                obtain ⟨pn1, t1, t2, t3⟩ := hdeep p pn2 hp hpn2
                refine ⟨pn1, t1, by rw [Arena.height_congr hchild fuel p]; exact t2, ?_⟩
                intro c2 hc2
                have hce : pn2.m_children = pn.m_children := by
                  unfold PseudotreeNode.SameButDepth at hrel; rw [hrel]
                exact t3 c2 (by rw [hce]; exact hc2))
            (Arena.children_disjoint hd (hnodup (fuel + 1) v)) r1 ek
          intro p pn hp hpn
          rw [hsub] at hp
          rcases List.mem_cons.1 hp with h1 | h1
          · subst h1
            rw [hd] at hpn
            cases hpn
            refine ⟨nd1, c3, by rw [c5, c2], ?_⟩
            intro c hc
            obtain ⟨⟨cn, hcn, hcd⟩, _⟩ := hkids c hc
            have hcv : c ≠ p := by
              intro hcv
              have := (hdown _ _ c hd hc).2
              rw [hcv] at this
              omega
            refine ⟨cn, ?_, by rw [hcd, c4]⟩
            rw [← e.1, Arena.deref_modify]
            simp only [hcv, if_false]
            exact hcn
          · obtain ⟨c, hc, hpc⟩ := List.mem_flatMap.1 h1
            obtain ⟨hcs, hcr⟩ := hdown v nd c hd hc
            have hpr := (Arena.subtree_rank hdown fuel c p hpc).1
            obtain ⟨_, hdeep⟩ := hkids c hc
            obtain ⟨pn1, t1, t2, t3⟩ := hdeep p pn hpc hpn
            have hpv : p ≠ v := by
              intro hpv
              rw [hpv] at hpr
              omega
            refine ⟨pn1, ?_, ?_, ?_⟩
            · rw [← e.1, Arena.deref_modify]
              simp only [hpv, if_false]
              exact t1
            · rw [t2]
              exact Arena.height_fuel hdown fuel (fuel + 1) p (by omega) (by omega)
            · intro c2 hc2
              obtain ⟨cn2, t4, t5⟩ := t3 c2 hc2
              have hc2v : c2 ≠ v := by
                intro hc2v
                have := (hdown p pn c2 hpn hc2).2
                rw [hc2v] at this
                omega
              refine ⟨cn2, ?_, t5⟩
              rw [← e.1, Arena.deref_modify]
              simp only [hc2v, if_false]
              exact t4

/-- The loop over the children in `updateSubWidth`: the node `v` gets the largest of its
width before and the widths that the calls on the children return, and what a call on a
child has set in the subtree of the child is there after the loop. -/
theorem subWidthKids_deep (f : Arena → Nat → Option (Arena × Int)) (g : Nat → Int)
    (sub : Nat → List Nat) (P : Arena → Prop) (Post : Nat → Arena → Prop) (v : Nat)
    (hmod : ∀ ns w, P ns →
      P (ns.modify v (fun x => { x with m_subWidth := max x.m_subWidth w }))) :
    ∀ (cs : List Nat) (ns ns1 : Arena) (nd0 : PseudotreeNode),
      (∀ c ∈ cs, ∀ ns ns1, Post c ns → (∀ k, k ∈ sub c → ns1.deref k = ns.deref k) →
        Post c ns1) →
      (∀ c ∈ cs, ∀ ns ns1 w, P ns → f ns c = some (ns1, w) →
        P ns1 ∧ (∀ k, k ∉ sub c → ns1.deref k = ns.deref k) ∧ w = g c ∧ Post c ns1) →
      (∀ c ∈ cs, v ∉ sub c) →
      cs.Pairwise (fun a b => ∀ k, k ∈ sub a → k ∉ sub b) →
      P ns → ns.deref v = some nd0 → subWidthKids f v cs ns = some ns1 →
      P ns1 ∧ (∀ k, k ≠ v → (∀ c ∈ cs, k ∉ sub c) → ns1.deref k = ns.deref k)
        ∧ ns1.deref v = some { nd0 with m_subWidth := (cs.map g).foldl max nd0.m_subWidth }
        ∧ ∀ c ∈ cs, Post c ns1 := by
  intro cs
  induction cs with
  | nil =>
    intro ns ns1 nd0 _ _ _ _ hP hd h
    simp only [subWidthKids, Option.some.injEq] at h
    rw [← h]
    exact ⟨hP, fun _ _ _ => rfl, hd, fun c hc => by cases hc⟩
  | cons c cs ih =>
    intro ns ns1 nd0 hstab hf hv hpw hP hd h
    simp only [subWidthKids] at h
    cases e : f ns c with
    | none => simp [e] at h
    | some r =>
      obtain ⟨ns2, w⟩ := r
      simp only [e] at h
      obtain ⟨p1, l1, g1, q1⟩ := hf c (List.mem_cons_self c cs) ns ns2 w hP e
      obtain ⟨hpw1, hpw2⟩ := List.pairwise_cons.1 hpw
      have hd2 : ns2.deref v = some nd0 := by
        rw [l1 v (hv c (List.mem_cons_self c cs))]
        exact hd
      have hd3 : (ns2.modify v (fun x => { x with m_subWidth := max x.m_subWidth w })).deref v
          = some { nd0 with m_subWidth := max nd0.m_subWidth w } := by
        rw [Arena.deref_modify]
        simp [hd2]
      obtain ⟨p2, l2, g2, q2⟩ := ih _ ns1 _
        (fun c hc => hstab c (List.mem_cons_of_mem _ hc))
        (fun c hc => hf c (List.mem_cons_of_mem _ hc))
        (fun c hc => hv c (List.mem_cons_of_mem _ hc)) hpw2 (hmod ns2 w p1) hd3 h
      refine ⟨p2, ?_, ?_, ?_⟩
      · intro k hkv hk
        rw [l2 k hkv (fun c hc => hk c (List.mem_cons_of_mem _ hc)), Arena.deref_modify]
        simp only [hkv, if_false]
        exact l1 k (hk c (List.mem_cons_self c cs))
      · rw [g2, g1]
        rfl
      · intro c1 hc1
        rcases List.mem_cons.1 hc1 with h3 | h3
        · rw [h3]
          refine hstab c (List.mem_cons_self c cs) ns2 ns1 q1 (fun k hk => ?_)
          have hkv : k ≠ v := fun hkv => hv c (List.mem_cons_self c cs) (by rw [← hkv]; exact hk)
          rw [l2 k hkv (fun c2 hc2 => hpw1 c2 hc2 k hk), Arena.deref_modify]
          simp only [hkv, if_false]
        · exact q2 c1 h3

/-- `updateSubWidth()` on the node `v` touches the nodes of the subtree of `v` only,
returns the width of the subtree and leaves in every node of the subtree the width of its
subtree. -/
theorem updateSubWidth_deep {ρ : Nat → Nat} :
    ∀ (fuel : Nat) (A : Arena) (v : Nat) (A1 : Arena) (w : Int), A.Down ρ →
      (∀ F u, (A.subtree F u).Nodup) → ρ v < fuel →
      updateSubWidth fuel A v = some (A1, w) →
      (∀ k, k ∉ A.subtree fuel v → A1.deref k = A.deref k) ∧ w = A.width fuel v
        ∧ ∀ p, p ∈ A.subtree fuel v →
            ∃ pn1, A1.deref p = some pn1 ∧ pn1.m_subWidth = A.width fuel p := by
  intro fuel
  induction fuel with
  | zero => intro A v A1 w _ _ _ e; simp [updateSubWidth] at e
  | succ fuel ih =>
    intro A v A1 w hdown hnodup hf e
    simp only [updateSubWidth] at e
    cases hd : A.deref v with
    | none => simp [hd] at e
    | some nd =>
      simp only [hd] at e
      have hsub : A.subtree (fuel + 1) v = v :: nd.m_children.flatMap (A.subtree fuel) := by
        simp only [Arena.subtree, hd]
      have hwid : A.width (fuel + 1) v
          = (nd.m_children.map (A.width fuel)).foldl max (nd.m_contextS.length : Int) := by
        simp only [Arena.width, hd]
      cases ek : subWidthKids (fun ns c => updateSubWidth fuel ns c) v nd.m_children
          (A.modify v (fun x => { x with m_subWidth := (x.m_contextS.length : Int) })) with
      | none => simp [ek] at e
      | some ns2 =>
        simp only [ek] at e
        have r1 : Arena.Rel PseudotreeNode.SameButWidth A
            (A.modify v (fun x => { x with m_subWidth := (x.m_contextS.length : Int) })) :=
          Arena.Rel.rel_modify PseudotreeNode.SameButWidth.width_refl A v _ (fun a => rfl)
        have hd1 : (A.modify v (fun x => { x with m_subWidth := (x.m_contextS.length : Int) })).deref v
            = some { nd with m_subWidth := (nd.m_contextS.length : Int) } := by
          rw [Arena.deref_modify]
          simp [hd]
        obtain ⟨p2, l2, g2, q2⟩ := subWidthKids_deep
          (fun ns c => updateSubWidth fuel ns c) (A.width fuel) (A.subtree fuel)
          (fun ns => Arena.Rel PseudotreeNode.SameButWidth A ns)
          (fun c ns => ∀ p, p ∈ A.subtree fuel c →
            ∃ pn1, ns.deref p = some pn1 ∧ pn1.m_subWidth = A.width fuel p) v
          (fun ns w hP => Arena.Rel.rel_trans PseudotreeNode.SameButWidth.width_trans hP
            (Arena.Rel.rel_modify PseudotreeNode.SameButWidth.width_refl ns v _ (fun a => rfl)))
          nd.m_children _ ns2 _
          (fun c hc ns ns1 hpost hsame p hp => by
            obtain ⟨pn1, t1, t2⟩ := hpost p hp
            exact ⟨pn1, by rw [hsame p hp]; exact t1, t2⟩)
          (fun c hc ns ns1 w hP e => by
            obtain ⟨hcs, hcr⟩ := hdown v nd c hd hc
            have hcf : ρ c < fuel := by omega
            have hchild := hP.children_eq (fun a b hab => by
              unfold PseudotreeNode.SameButWidth at hab; rw [hab])
            have hctx : ∀ k, (A.deref k).map PseudotreeNode.m_contextS
                = (ns.deref k).map PseudotreeNode.m_contextS := by
              intro k
              cases ha : A.deref k with
              | none => rw [(hP.none_iff k).1 ha]
              | some a =>
                obtain ⟨b, hb, hab⟩ := hP.left ha
                rw [hb]
                unfold PseudotreeNode.SameButWidth at hab
                rw [hab]
                rfl
            have hdn : ns.Down ρ :=
              hdown.down_congr (hP.mono (fun a b hab => hab.width_similar))
            obtain ⟨t1, t2, t3⟩ := ih ns c ns1 w hdn
              (fun F u => by rw [← Arena.subtree_congr hchild F u]; exact hnodup F u) hcf e
            refine ⟨Arena.Rel.rel_trans PseudotreeNode.SameButWidth.width_trans hP
              (updateSubWidth_frame PseudotreeNode.SameButWidth.width_refl
                PseudotreeNode.SameButWidth.width_trans (fun a w => rfl)
                fuel ns c ns1 w e), ?_, ?_, ?_⟩
            · rw [Arena.subtree_congr hchild fuel c]; exact t1
            · rw [Arena.width_congr hchild hctx fuel c]; exact t2
            · intro p hp
              rw [Arena.subtree_congr hchild fuel c] at hp
              obtain ⟨pn1, t4, t5⟩ := t3 p hp
              exact ⟨pn1, t4, by rw [Arena.width_congr hchild hctx fuel p]; exact t5⟩)
          (fun c hc hvc => by
            have := (hdown v nd c hd hc).2
            have := (Arena.subtree_rank hdown fuel c v hvc).1
            omega)
          (Arena.children_disjoint hd (hnodup (fuel + 1) v)) r1 hd1 ek
        rw [g2] at e
        simp only [Option.some.injEq, Prod.mk.injEq] at e
        rw [← e.1, ← e.2]
        refine ⟨?_, ?_, ?_⟩
        · intro k hk
          rw [hsub, List.mem_cons, List.mem_flatMap] at hk
          have hkv : k ≠ v := fun hkv => hk (Or.inl hkv)
          rw [l2 k hkv (fun c hc hkc => hk (Or.inr ⟨c, hc, hkc⟩)), Arena.deref_modify]
          simp [hkv]
        · rw [hwid]
        · intro p hp
          rw [hsub] at hp
          rcases List.mem_cons.1 hp with h1 | h1
          · rw [h1]
            exact ⟨_, g2, by rw [hwid]⟩
          · obtain ⟨c, hc, hpc⟩ := List.mem_flatMap.1 h1
            obtain ⟨hcs, hcr⟩ := hdown v nd c hd hc
            have hpr := (Arena.subtree_rank hdown fuel c p hpc).1
            obtain ⟨pn1, t1, t2⟩ := q2 c hc p hpc
            exact ⟨pn1, t1, by
              rw [t2]
              exact Arena.width_fuel hdown fuel (fuel + 1) p (by omega) (by omega)⟩

theorem indexOf_le_of_le {elim : List Nat} {n : Nat} (hperm : elim.Perm (List.range n))
    {k : Nat} (hk : k ≤ n) : elim.indexOf k ≤ n := by
  rcases Nat.lt_or_ge k n with h1 | h1
  · have := indexOf_lt_of_lt hperm h1
    omega
  · have : k = n := by omega
    rw [this, indexOf_dummy hperm]

/-- The two recursive updates `updateDepthHeight(-1)` and `updateSubWidth()` on the dummy
root of the tree give the depths, heights and widths of the shape of the tree, in every
arena that has the nodes of the tree with these three members. -/
theorem TreeInv.measured {G0 : Graph} {n : Nat} {elim : List Nat} {cachelimit : Int}
    {T nodes3 nodes4 : Arena} {hgt w : Int} (hperm : elim.Perm (List.range n))
    (hT : TreeInv G0 n elim cachelimit T)
    (e4 : updateDepthHeight (T.length + 1) T n (-1) = some (nodes3, hgt))
    (e5 : updateSubWidth (nodes3.length + 1) nodes3 n = some (nodes4, w))
    (pt : Pseudotree) (hsim : Arena.Rel PseudotreeNode.Similar T pt.m_nodes)
    (hkeep : Arena.Rel PseudotreeNode.SameMeasures nodes4 pt.m_nodes)
    (hh : pt.m_height = hgt - 1) : pt.Measured n := by
  have hρ : elim.indexOf n = n := indexOf_dummy hperm
  have hdown := hT.down hperm
  have hnodup := hT.subtree_nodup hperm
  have hlen := hT.len
  -- the first update
  obtain ⟨_, c2, rd3, c3, c4, _⟩ :=
    updateDepthHeight_content (T.length + 1) T n (-1) nodes3 hgt hdown e4
  have deep3 := updateDepthHeight_deep (T.length + 1) T n (-1) nodes3 hgt hdown hnodup
    (by rw [hρ, hlen]; omega) e4
  have r3 : Arena.Rel PseudotreeNode.SameButDepth T nodes3 :=
    updateDepthHeight_frame PseudotreeNode.SameButDepth.depth_refl
      PseudotreeNode.SameButDepth.depth_trans (fun a d => rfl) (fun a h => rfl)
      _ _ _ _ _ _ e4
  have hchild3 := r3.children_eq (fun a b hab => by
    unfold PseudotreeNode.SameButDepth at hab; rw [hab])
  have hctx3 : ∀ k, (T.deref k).map PseudotreeNode.m_contextS
      = (nodes3.deref k).map PseudotreeNode.m_contextS := by
    intro k
    cases ha : T.deref k with
    | none => rw [(r3.none_iff k).1 ha]
    | some a =>
      obtain ⟨b, hb, hab⟩ := r3.left ha
      rw [hb]
      unfold PseudotreeNode.SameButDepth at hab
      rw [hab]
      rfl
  have hdown3 : nodes3.Down elim.indexOf :=
    hdown.down_congr (r3.mono (fun a b hab => hab.depth_similar))
  have hlen3 : nodes3.length = n + 1 := by rw [← r3.1, hlen]
  -- the second update
  obtain ⟨_, _, deep4⟩ := updateSubWidth_deep (nodes3.length + 1) nodes3 n nodes4 w hdown3
    (fun F u => by rw [← Arena.subtree_congr hchild3 F u]; exact hnodup F u)
    (by rw [hρ, hlen3]; omega) e5
  have r4 : Arena.Rel (fun a b : PseudotreeNode =>
      a.m_depth = b.m_depth ∧ a.m_subHeight = b.m_subHeight) nodes3 nodes4 :=
    updateSubWidth_frame (fun a => ⟨rfl, rfl⟩)
      (fun a b c h1 h2 => ⟨h1.1.trans h2.1, h1.2.trans h2.2⟩) (fun a w => ⟨rfl, rfl⟩)
      _ _ _ _ _ e5
  -- every node is in the subtree of the dummy root
  have hall : ∀ k, k ≤ n → k ∈ T.subtree (n + 1 + 1) n := by
    intro k hk
    obtain ⟨nd, hnd, _⟩ := hT.node k hk
    exact Arena.subtree_of_reaches hdown (hT.up hperm) (by simp [hnd])
      (hT.reaches hperm n k hk (by omega)) (n + 1 + 1) (by rw [hρ]; omega)
  rw [hlen] at deep3
  rw [hlen3] at deep4
  rw [← Arena.subtree_congr hchild3 (n + 1 + 1) n] at deep4
  -- the three members of a node of the result
  have key : ∀ p bn, pt.m_nodes.deref p = some bn →
      ∃ tn, T.deref p = some tn ∧ tn.Similar bn ∧ p ≤ n
        ∧ bn.m_subHeight = T.height (n + 1 + 1) p ∧ bn.m_subWidth = T.width (n + 1 + 1) p
        ∧ ∀ c, c ∈ tn.m_children →
            ∃ cb, pt.m_nodes.deref c = some cb ∧ cb.m_depth = bn.m_depth + 1 := by
    intro p bn hbn
    obtain ⟨tn, htn, hs⟩ := hsim.right hbn
    have hp := hT.deref_le htn
    obtain ⟨n3, h3a, h3b, h3c⟩ := deep3 p tn (hall p hp) htn
    obtain ⟨n4, h4a, h4b⟩ := r4.left h3a
    obtain ⟨n4b, h4c, h4d⟩ := deep4 p (hall p hp)
    rw [h4a] at h4c
    cases h4c
    obtain ⟨bn2, hb2, hm⟩ := hkeep.left h4a
    rw [hbn] at hb2
    cases hb2
    refine ⟨tn, htn, hs, hp, by rw [← hm.2.1, ← h4b.2, h3b], ?_, ?_⟩
    · rw [← hm.2.2, h4d, Arena.width_congr hchild3 hctx3]
    · intro c hc
      obtain ⟨c3n, hc3, hc3d⟩ := h3c c hc
      obtain ⟨c4n, hc4, hc4d⟩ := r4.left hc3
      obtain ⟨cb, hcb, hcm⟩ := hkeep.left hc4
      exact ⟨cb, hcb, by rw [← hcm.1, ← hc4d.1, hc3d, ← hm.1, ← h4b.1]⟩
  have hdepth : ∀ p pn c, T.deref p = some pn → c ∈ pn.m_children →
      pt.m_nodes.depthAt c = pt.m_nodes.depthAt p + 1 := by
    intro p pn c hpn hc
    obtain ⟨pb, hpb, _⟩ := hsim.left hpn
    obtain ⟨tn, htn, _, _, _, _, hkids⟩ := key p pb hpb
    rw [hpn] at htn
    cases htn
    obtain ⟨cb, hcb, hcd⟩ := hkids c hc
    simp only [Arena.depthAt, hcb, hpb, hcd]
  obtain ⟨rd, hrd, hrs⟩ := hsim.left (hT.root.choose_spec.1)
  obtain ⟨rd4, hrd4, hrm4⟩ := r4.left c3
  obtain ⟨rdb, hrdb, hrmb⟩ := hkeep.left hrd4
  have hrootdepth : rdb.m_depth = -1 := by rw [← hrmb.1, ← hrm4.1, c4]
  have hmax := Arena.depth_height hdown pt.m_nodes.depthAt hdepth (n + 1 + 1) n
    (by rw [hT.root.choose_spec.1]; rfl) (by rw [hρ]; omega)
  have hdn : pt.m_nodes.depthAt n = -1 := by simp only [Arena.depthAt, hrdb, hrootdepth]
  have hhe : pt.getHeight = -1 + T.height (n + 1 + 1) n := by
    unfold Pseudotree.getHeight
    rw [hh, c2, hlen]
    omega
  refine ⟨⟨rdb, hrdb, hrootdepth⟩, ?_, ?_, ?_, ?_, ?_⟩
  · intro k nd hkn hnd
    obtain ⟨tk, htk, hsk, hk, _⟩ := key k nd hnd
    obtain ⟨p, pn, hp1, _, hp3, hp4, _⟩ := hT.parent k tk (by omega) htk
    obtain ⟨pb, hpb, _⟩ := hsim.left hp3
    obtain ⟨tp, htp, _, _, _, _, hkids⟩ := key p pb hpb
    rw [hp3] at htp
    cases htp
    have hmem : k ∈ pn.m_children := by
      apply List.count_pos_iff.1
      omega
    obtain ⟨cb, hcb, hcd⟩ := hkids k hmem
    rw [hnd] at hcb
    cases hcb
    exact ⟨p, pb, by rw [← hsk.1.2.1]; exact hp1, hpb, hcd⟩
  · intro p pn hpn
    obtain ⟨tn, htn, hs, hp, hsh, _, _⟩ := key p pn hpn
    have hperm2 : tn.m_children.Perm pn.m_children := hs.1.2.2.2
    have hmap : tn.m_children.map (T.height (n + 1))
        = tn.m_children.map pt.m_nodes.subHeightAt := by
      refine List.map_congr_left (fun c hc => ?_)
      have hcs := (hdown p tn c htn hc).1
      have hcr : elim.indexOf c < elim.indexOf p := (hdown p tn c htn hc).2
      have hpr := indexOf_le_of_le hperm hp
      cases hcd : T.deref c with
      | none => simp [hcd] at hcs
      | some cn =>
        obtain ⟨cb, hcb, _⟩ := hsim.left hcd
        obtain ⟨_, _, _, _, hch, _⟩ := key c cb hcb
        simp only [Arena.subHeightAt, hcb, hch]
        exact Arena.height_fuel hdown _ _ c (by omega) (by omega)
    rw [hsh]
    by_cases hch : pn.m_children = []
    · have htc : tn.m_children = [] := by
        rw [hch] at hperm2
        exact hperm2.eq_nil
      simp [Arena.height, htn, htc, hch]
    · have htc : tn.m_children ≠ [] := by
        intro h
        rw [h] at hperm2
        exact hch hperm2.symm.eq_nil
      simp only [hch, if_false]
      have : T.height (n + 1 + 1) p
          = (tn.m_children.map (T.height (n + 1))).foldl max 0 + 1 := by
        simp [Arena.height, htn, htc]
      rw [this, hmap]
      rw [foldl_max_perm (hperm2.map pt.m_nodes.subHeightAt) 0]
  · intro p pn hpn
    obtain ⟨tn, htn, hs, hp, _, hsw, _⟩ := key p pn hpn
    have hpr := indexOf_le_of_le hperm hp
    have hw : T.width (n + 1 + 1) p = T.width (n + 1) p :=
      Arena.width_fuel hdown _ _ p (by omega) (by omega)
    constructor
    · intro k kd hk hkd
      obtain ⟨tk, htk, hsk⟩ := hsim.right hkd
      have := Arena.width_bound T (n + 1) p k tk
        ((Arena.subtree_mem_congr hsim (n + 1) p k).2 hk) htk
      rw [hsw, hw, ← hsk.1.2.2.1]
      exact this
    · obtain ⟨k, tk, hk1, hk2, hk3⟩ := Arena.width_attained hdown (n + 1) p
        (by simp [htn]) (by omega)
      obtain ⟨kd, hkd, hsk⟩ := hsim.left hk2
      exact ⟨k, kd, (Arena.subtree_mem_congr hsim (n + 1) p k).1 hk1, hkd, by
        rw [hsw, hw, ← hk3, hsk.1.2.2.1]⟩
  · intro k kd hkd
    obtain ⟨tk, htk, _, hk, _⟩ := key k kd hkd
    have := hmax.1 k (hall k hk)
    rw [hdn] at this
    simp only [Arena.depthAt, hkd] at this
    rw [hhe]
    exact this
  · obtain ⟨k, hk1, hk2⟩ := hmax.2
    have hks := (Arena.subtree_rank hdown _ _ _ hk1).2
    cases htk : T.deref k with
    | none => simp [htk] at hks
    | some tk =>
      obtain ⟨kd, hkd, _⟩ := hsim.left htk
      refine ⟨k, kd, hkd, ?_⟩
      rw [hdn] at hk2
      simp only [Arena.depthAt, hkd] at hk2
      rw [hhe, hk2]

theorem PseudotreeNode.SameMeasures.measures_refl (a : PseudotreeNode) : a.SameMeasures a :=
  ⟨rfl, rfl, rfl⟩

theorem PseudotreeNode.SameMeasures.measures_trans (a b c : PseudotreeNode)
    (h1 : a.SameMeasures b) (h2 : b.SameMeasures c) : a.SameMeasures c :=
  ⟨h1.1.trans h2.1, h1.2.1.trans h2.2.1, h1.2.2.trans h2.2.2⟩

/-- The steps of `buildChain` on a graph with the nodes `0..n-1`: the tree with the dummy
root on top of the chain, the three recursive updates, and the height that `buildChain`
sets at its end. -/
theorem buildChain_full (pt0 : Pseudotree) (G : Graph) (n : Nat) (elim : List Nat)
    (cachelimit : Int) (hrep : G.Rep) (hsim : G.Simple) (hnodes : G.NodesAre n)
    (hperm : elim.Perm (List.range n)) (hn : 0 < n)
    (hlim : cachelimit = NONE ∨ 0 ≤ cachelimit)
    (hready : pt0.Ready n) :
    ∃ pt T nodes3 hgt nodes4 w vars, Pseudotree.buildChain pt0 G elim cachelimit = some pt
      ∧ TreeInv G n elim cachelimit T
      ∧ updateDepthHeight (T.length + 1) T n (-1) = some (nodes3, hgt)
      ∧ updateSubWidth (nodes3.length + 1) nodes3 n = some (nodes4, w)
      ∧ updateSubprobVars nodes4.length (nodes4.length + 1) nodes4 n = some (pt.m_nodes, vars)
      ∧ Arena.Rel PseudotreeNode.Similar T pt.m_nodes
      ∧ pt.m_root = some n ∧ pt.m_height = hgt - 1 := by
  obtain ⟨hnd, hlen, hmem⟩ := perm_range_facts hperm
  have hptn : (if pt0.m_height ≠ UNKNOWN then { pt0.reset with m_width := pt0.m_width }
      else pt0).m_nodes = List.replicate n none := by
    split
    · simp [Pseudotree.reset, hready.1]
    · rename_i hh
      rcases hready.2 with h1 | h1
      · exact absurd h1 hh
      · exact h1
  have hstat : G.getStatNodes = (n : Int) := by
    unfold Graph.getStatNodes
    rw [hrep.statNodes, keys_length_of_nodesAre hrep hnodes]
  obtain ⟨st, e1, hF⟩ := chainLoop_spec hnd (fun k hk => (hmem k).1 hk) elim []
    { G := G,
      m_pathwidth := (if pt0.m_height ≠ UNKNOWN then { pt0.reset with m_width := pt0.m_width }
        else pt0).m_pathwidth,
      m_nodes := List.replicate n none, context := [], prev := none } rfl
    (ChainInv.init_chain elim _ hrep hsim hnodes)
  obtain ⟨q, hq, hD⟩ := hF.chain_done hperm hn
  obtain ⟨nodes1, T, e2, e3, hT⟩ := forest_finish hperm hD cachelimit hlim 0
  have hqsome : ∃ qn, Arena.deref (nodes1 ++ [some (PseudotreeNode.new n [])]) q = some qn := by
    cases hd : Arena.deref (nodes1 ++ [some (PseudotreeNode.new n [])]) q with
    | none => simp [attachToDummy, hd] at e3
    | some qn => exact ⟨qn, rfl⟩
  obtain ⟨qn, hqn⟩ := hqsome
  simp only [attachToDummy, hqn, Option.some.injEq, Prod.mk.injEq] at e3
  obtain ⟨nodes3, hgt, nodes4, w, nodes5, vars, e4, e5, e6, hrel⟩ :=
    chain_updates_rel hperm hT
  have hb : ∃ pt, Pseudotree.buildChain pt0 G elim cachelimit = some pt ∧ pt.m_nodes = nodes5
      ∧ pt.m_root = some n ∧ pt.m_height = hgt - 1 := by
    simp only [Pseudotree.buildChain, hptn, hstat, List.length_replicate, hlen, and_self,
      if_true, e1, e2, hq, e3.1, e4, e5, e6]
    exact ⟨_, rfl, rfl, rfl, rfl⟩
  obtain ⟨pt, hpt1, hpt2, hpt3, hpt4⟩ := hb
  rw [← hpt2] at hrel e6
  exact ⟨pt, T, nodes3, hgt, nodes4, w, vars, hpt1, hT, e4, e5, e6, hrel, hpt3, hpt4⟩


/-! ## Ascending sets -/

theorem setInsert_sorted (a : Nat) {s : List Nat} (h : s.Pairwise (fun x y => x < y)) :
    (setInsert a s).Pairwise (fun x y => x < y) := by
  unfold setInsert
  split
  · exact h
  · rename_i ha
    have h1 : s.Sorted (fun x y => x ≤ y) := List.Pairwise.imp (fun hxy => Nat.le_of_lt hxy) h
    have h2 : (List.orderedInsert (fun x y => x ≤ y) a s).Sorted (fun x y => x ≤ y) :=
      List.Sorted.orderedInsert a s h1
    have h3 : (List.orderedInsert (fun x y => x ≤ y) a s).Nodup := by
      rw [(List.perm_orderedInsert (fun x y => x ≤ y) a s).nodup_iff]
      exact List.nodup_cons.2 ⟨ha, List.Pairwise.imp (fun hxy => Nat.ne_of_lt hxy) h⟩
    exact List.Sorted.lt_of_le h2 h3

theorem setErase_sorted (a : Nat) {s : List Nat} (h : s.Pairwise (fun x y => x < y)) :
    (setErase a s).Pairwise (fun x y => x < y) :=
  List.Pairwise.filter _ h

theorem mapSet_mem : ∀ (m : List (Nat × List Nat)) (i : Nat) (v : List Nat)
    (kv : Nat × List Nat), kv ∈ mapSet m i v → kv ∈ m ∨ kv.2 = v := by
  intro m
  induction m with
  | nil => intro i v kv h; simp [mapSet] at h
  | cons x r ih =>
    intro i v kv h
    obtain ⟨k, w⟩ := x
    simp only [mapSet] at h
    split at h
    · rcases List.mem_cons.1 h with h1 | h1
      · exact Or.inr (by rw [h1])
      · exact Or.inl (List.mem_cons_of_mem _ h1)
    · rcases List.mem_cons.1 h with h1 | h1
      · exact Or.inl (by rw [h1]; exact List.mem_cons_self _ _)
      · rcases ih i v kv h1 with h2 | h2
        · exact Or.inl (List.mem_cons_of_mem _ h2)
        · exact Or.inr h2

theorem mapFind_mem : ∀ (m : List (Nat × List Nat)) (i : Nat) (s : List Nat),
    mapFind m i = some s → (i, s) ∈ m := by
  intro m
  induction m with
  | nil => intro i s h; simp [mapFind] at h
  | cons x r ih =>
    intro i s h
    obtain ⟨k, w⟩ := x
    simp only [mapFind] at h
    split at h
    · rename_i hk
      simp only [Option.some.injEq] at h
      rw [← hk, h]
      exact List.mem_cons_self _ _
    · exact List.mem_cons_of_mem _ (ih i s h)

theorem Graph.Ascending.of_find {G : Graph} (h : G.Ascending) {i : Nat} {S : List Nat}
    (hS : G.getNeighbors i = some S) : S.Pairwise (fun x y => x < y) :=
  h (i, S) (mapFind_mem _ _ _ hS)

theorem Graph.Ascending.asc_addNode {G : Graph} (h : G.Ascending) (i : Nat) :
    (G.addNode i).Ascending := by
  unfold Graph.addNode
  split
  · intro kv hkv
    simp only [List.mem_append, List.mem_singleton] at hkv
    rcases hkv with h1 | h1
    · exact h kv h1
    · rw [h1]
      exact List.Pairwise.nil
  · exact h

theorem Graph.Ascending.asc_addAdjacency {G : Graph} (h : G.Ascending) (i j : Nat) :
    (G.addAdjacency i j).Ascending := by
  have h1 := h.asc_addNode i
  unfold Graph.addAdjacency
  simp only
  split
  · rename_i s hs
    intro kv hkv
    rcases mapSet_mem _ _ _ kv hkv with h2 | h2
    · exact h1 kv h2
    · rw [h2]
      exact setInsert_sorted j (h1 (i, s) (mapFind_mem _ _ _ hs))
  · exact h1

theorem Graph.Ascending.asc_removeAdjacency {G : Graph} (h : G.Ascending) (i j : Nat) :
    (G.removeAdjacency i j).Ascending := by
  unfold Graph.removeAdjacency
  split
  · rename_i s hs
    intro kv hkv
    rcases mapSet_mem _ _ _ kv hkv with h2 | h2
    · exact h kv h2
    · rw [h2]
      exact setErase_sorted j (h (i, s) (mapFind_mem _ _ _ hs))
  · exact h

theorem Graph.Ascending.asc_addEdge {G : Graph} (h : G.Ascending) (i j : Nat) :
    (G.addEdge i j).Ascending :=
  (h.asc_addAdjacency i j).asc_addAdjacency j i

theorem Graph.Ascending.asc_addCliqueInner (a : Nat) : ∀ (rest : List Nat) {G : Graph},
    G.Ascending → (G.addCliqueInner a rest).Ascending := by
  intro rest
  induction rest with
  | nil => intro G h; exact h
  | cons b bs ih =>
    intro G h
    exact ih (h.asc_addEdge a b)

theorem Graph.Ascending.asc_addClique : ∀ (N : List Nat) {G : Graph},
    G.Ascending → (G.addClique N).Ascending := by
  intro N
  induction N with
  | nil => intro G h; exact h
  | cons a rest ih =>
    intro G h
    exact ih (Graph.Ascending.asc_addCliqueInner a rest (h.asc_addNode a))

theorem Graph.Ascending.asc_removeNode {G : Graph} (h : G.Ascending) (i : Nat) :
    (G.removeNode i).Ascending := by
  unfold Graph.removeNode
  split
  · rename_i S hS
    have key : ∀ (L : List Nat) (g : Graph), g.Ascending →
        (L.foldl (fun g it => { g.removeAdjacency it i with
          m_statNumEdges := (g.removeAdjacency it i).m_statNumEdges - 1 }) g).Ascending := by
      intro L
      induction L with
      | nil => intro g hg; exact hg
      | cons x xs ih =>
        intro g hg
        exact ih _ (hg.asc_removeAdjacency x i)
    intro kv hkv
    exact key S G h kv (List.mem_filter.1 hkv).1
  · exact h

/-! ## `setminusSize` -/

theorem setminusLoop_eq : ∀ (fuel : Nat) (a b : List Nat) (s : Int),
    a.length + b.length ≤ fuel → a.Pairwise (fun x y => x < y) →
    b.Pairwise (fun x y => x < y) →
    setminusLoop fuel a b s = s + setminusCount a b := by
  intro fuel
  induction fuel with
  | zero =>
    intro a b s hl _ _
    have ha : a = [] := List.length_eq_zero.1 (by omega)
    rw [ha]
    cases b <;> simp [setminusLoop, setminusCount]
  | succ fuel ih =>
    intro a b s hl ha hb
    cases a with
    | nil => cases b <;> simp [setminusLoop, setminusCount]
    | cons x xs =>
      cases b with
      | nil => simp [setminusLoop, setminusCount]
      | cons y ys =>
        obtain ⟨hx, hxs⟩ := List.pairwise_cons.1 ha
        obtain ⟨hy, hys⟩ := List.pairwise_cons.1 hb
        simp only [List.length_cons] at hl
        simp only [setminusLoop]
        by_cases hxy : x = y
        · simp only [hxy, if_true]
          rw [ih xs ys s (by omega) hxs hys]
          congr 1
          unfold setminusCount
          have h1 : (y :: xs).filter (fun z => decide (z ∉ y :: ys))
              = xs.filter (fun z => decide (z ∉ ys)) := by
            rw [List.filter_cons_of_neg (by simp)]
            refine List.filter_congr (fun z hz => ?_)
            have := hx z hz
            simp only [List.mem_cons, not_or, decide_eq_decide]
            constructor
            · exact fun h => h.2
            · exact fun h => ⟨by omega, h⟩
          rw [h1]
        · simp only [hxy, if_false]
          by_cases hlt : x < y
          · simp only [hlt, if_true]
            rw [ih xs (y :: ys) (s + 1) (by simp only [List.length_cons]; omega) hxs hb]
            unfold setminusCount
            have h1 : x ∉ y :: ys := by
              intro hm
              rcases List.mem_cons.1 hm with h2 | h2
              · exact hxy h2
              · have := hy x h2
                omega
            rw [List.filter_cons_of_pos (by simpa using h1)]
            simp only [List.length_cons]
            push_cast
            omega
          · simp only [hlt, if_false]
            rw [ih (x :: xs) ys s (by simp only [List.length_cons]; omega) ha hys]
            congr 1
            unfold setminusCount
            have h1 : (x :: xs).filter (fun z => decide (z ∉ y :: ys))
                = (x :: xs).filter (fun z => decide (z ∉ ys)) := by
              refine List.filter_congr (fun z hz => ?_)
              have hzy : z ≠ y := by
                rcases List.mem_cons.1 hz with h2 | h2
                · rw [h2]; exact hxy
                · have := hx z h2
                  omega
              simp only [List.mem_cons, not_or, decide_eq_decide]
              constructor
              · exact fun h => h.2
              · exact fun h => ⟨hzy, h⟩
            rw [h1]

/-- `setminusSize(a, b)` is the number of elements of `a` that are not in `b`, for
strictly increasing vectors. -/
theorem setminusSize_eq {a b : List Nat} (ha : a.Pairwise (fun x y => x < y))
    (hb : b.Pairwise (fun x y => x < y)) : setminusSize a b = setminusCount a b := by
  unfold setminusSize
  rw [setminusLoop_eq _ a b 0 (le_refl _) ha hb]
  omega

/-! ## The contexts are ascending -/

/-- When the first loop of `build` is through on a graph with ascending neighbour sets,
every context is strictly increasing. -/
theorem buildLoop_sorted {G0 : Graph} {n : Nat} {elim : List Nat} (hsim0 : G0.Simple)
    (hrep0 : G0.Rep) (hnodes : G0.NodesAre n) (hasc : G0.Ascending) (hnd : elim.Nodup)
    (hlt : ∀ k ∈ elim, k < n) (w : Int) (st1 : BuildState)
    (hb : buildLoop elim { G := G0, m_width := w, m_nodes := List.replicate n none,
                           roots := [] } = some st1) :
    ∀ k nd, st1.m_nodes.deref k = some nd → nd.m_contextS.Pairwise (fun x y => x < y) := by
  have key := buildLoop_extra hnd hlt
    (fun _ st => st.G.Ascending
      ∧ ∀ k nd, st.m_nodes.deref k = some nd → nd.m_contextS.Pairwise (fun x y => x < y))
    (by
      intro pre v rest st N nodes1 roots1 hsplit h hI hN hins
      obtain ⟨i1, i2⟩ := hI
      obtain ⟨hvnone, hNnd, _, hdv, hdk, _⟩ := h.step_view hsplit hnd hlt hN hins
      refine ⟨(i1.asc_addClique N).asc_removeNode v, ?_⟩
      intro k nd hk
      by_cases hkv : k = v
      · subst hkv
        simp only at hk
        rw [hdv] at hk
        cases hk
        exact i1.of_find hN
      · simp only at hk
        rw [hdk k hkv] at hk
        cases hd : st.m_nodes.deref k with
        | none => simp [hd] at hk
        | some nd0 =>
          simp only [hd, Option.map_some', Option.some.injEq] at hk
          have hctx : nd.m_contextS = nd0.m_contextS := by
            rw [← hk]
            split <;> rfl
          rw [hctx]
          exact i2 k nd0 hd)
    elim [] _ st1 rfl (ForestInv.init_forest elim w hrep0 hsim0 hnodes)
    ⟨hasc, fun k nd hd => by simp [Arena.deref_replicate] at hd⟩ hb
  exact key.2

/-- After `build` on a graph with ascending neighbour sets every context is strictly
increasing. -/
theorem build_sorted (pt0 : Pseudotree) (G : Graph) (n : Nat) (elim : List Nat)
    (cachelimit : Int) (hrep : G.Rep) (hsim : G.Simple) (hnodes : G.NodesAre n)
    (hasc : G.Ascending) (hperm : elim.Perm (List.range n))
    (hlim : cachelimit = NONE ∨ 0 ≤ cachelimit) (hready : pt0.Ready n) (pt : Pseudotree)
    (hpt : Pseudotree.build pt0 G elim cachelimit = some pt) :
    ∀ k nd, pt.m_nodes.deref k = some nd → nd.m_contextS.Pairwise (fun x y => x < y) := by
  obtain ⟨hnd, hlen, hmem⟩ := perm_range_facts hperm
  obtain ⟨pt2, st, nodes1, T, nodes3, hgt, nodes4, w, nodes5, vars, hb, e1, hF, e2, e3, hT,
    _, _, _, _, hrel, _⟩ :=
    build_full pt0 G n elim cachelimit hrep hsim hnodes hperm hlim hready
  rw [hpt] at hb
  cases hb
  have hD := hF.done hperm
  have hs := buildLoop_sorted hsim hrep hnodes hasc hnd (fun k hk => (hmem k).1 hk) _ st e1
  obtain ⟨nodes1a, e2a, r1, _⟩ := cacheContextLoop_spec (hD.ranked hperm)
    (by rw [hD.len]; omega) hD.covered hD.ctxNodup cachelimit hlim
    (List.range st.m_nodes.length) [] st.m_nodes
    (fun i hi => hD.nodeSome i (by rw [← hD.len]; exact List.mem_range.1 hi))
    (Arena.Rel.rel_refl (fun a => ⟨rfl, rfl, rfl, rfl, rfl⟩) st.m_nodes)
    (fun i hi => by simp at hi)
  rw [e2] at e2a
  cases e2a
  obtain ⟨_, hdummy, hrest⟩ := dummy_view hD r1 e3
  intro k nd hk
  obtain ⟨tn, htn, hs2⟩ := hrel.right hk
  rw [← hs2.1.2.2.1]
  have hkn := hT.deref_le htn
  rcases Nat.lt_or_ge k n with h1 | h1
  · obtain ⟨fnd, nd1, q1, q2, q3, q4, _⟩ := hrest k h1
    rw [htn] at q3
    have hctx : tn.m_contextS = fnd.m_contextS := by
      simp only [Option.some.injEq] at q3
      rw [q3, q4.2.2.1]
      split <;> rfl
    rw [hctx]
    exact hs k fnd q1
  · have : k = n := by omega
    rw [this, hdummy] at htn
    cases htn
    exact List.Pairwise.nil

/-! ## The loop over the stack -/

/-- The loop over the stack returns the largest of the start value and the values
`setminusSize(n->m_contextV, condset)` over the nodes in the subtrees of the nodes on the
stack. -/
theorem condWidthLoop_spec {A : Arena} {ρ : Nat → Nat} (hdown : A.Down ρ)
    (condset : List Nat) (F : Nat) :
    ∀ (fuel : Nat) (stck : List Nat) (w w1 : Int), (∀ n ∈ stck, ρ n < F) →
      condWidthLoop A condset fuel stck w = some w1 →
      w ≤ w1
      ∧ (∀ n ∈ stck, ∀ k kd, k ∈ A.subtree F n → A.deref k = some kd →
          setminusSize kd.m_contextS condset ≤ w1)
      ∧ (w1 = w ∨ ∃ n ∈ stck, ∃ k kd, k ∈ A.subtree F n ∧ A.deref k = some kd
          ∧ setminusSize kd.m_contextS condset = w1) := by
  intro fuel
  induction fuel with
  | zero => intro stck w w1 _ h; simp [condWidthLoop] at h
  | succ fuel ih =>
    intro stck w w1 hs h
    cases stck with
    | nil =>
      simp only [condWidthLoop, Option.some.injEq] at h
      rw [← h]
      exact ⟨le_refl _, fun n hn => absurd hn (List.not_mem_nil n), Or.inl rfl⟩
    | cons n rest =>
      have hρ := hs n (List.mem_cons_self n rest)
      cases hd : A.deref n with
      | none => simp [condWidthLoop, hd] at h
      | some nd =>
        simp only [condWidthLoop, hd] at h
        have hcρ : ∀ c ∈ nd.m_children, ρ c < ρ n := fun c hc => (hdown n nd c hd hc).2
        obtain ⟨q1, q2, q3⟩ := ih _ _ w1 (fun c hc => by
          rcases List.mem_append.1 hc with h1 | h1
          · have := hcρ c (List.mem_reverse.1 h1)
            omega
          · exact hs c (List.mem_cons_of_mem _ h1)) h
        obtain ⟨F1, hF1⟩ : ∃ F1, F = F1 + 1 := ⟨F - 1, by omega⟩
        have hsub : A.subtree F n = n :: nd.m_children.flatMap (A.subtree F) := by
          rw [hF1]
          simp only [Arena.subtree, hd]
          congr 1
          refine List.flatMap_congr (fun c hc => ?_)
          have := hcρ c hc
          exact Arena.subtree_fuel hdown F1 (F1 + 1) c (by omega) (by omega)
        refine ⟨le_trans (le_max_left _ _) q1, ?_, ?_⟩
        · intro n1 hn1 k kd hk hkd
          rcases List.mem_cons.1 hn1 with h1 | h1
          · rw [h1, hsub] at hk
            rcases List.mem_cons.1 hk with h2 | h2
            · rw [h2, hd] at hkd
              cases hkd
              exact le_trans (le_max_right _ _) q1
            · obtain ⟨c, hc, hkc⟩ := List.mem_flatMap.1 h2
              exact q2 c (List.mem_append_left _ (List.mem_reverse.2 hc)) k kd hkc hkd
          · exact q2 n1 (List.mem_append_right _ h1) k kd hk hkd
        · rcases q3 with h1 | ⟨n1, hn1, k, kd, hk, hkd, hv⟩
          · rcases max_choice w (setminusSize nd.m_contextS condset) with h2 | h2
            · exact Or.inl (by rw [h1, h2])
            · refine Or.inr ⟨n, List.mem_cons_self _ _, n, nd, ?_, hd, by rw [h1, h2]⟩
              rw [hsub]
              exact List.mem_cons_self _ _
          · rcases List.mem_append.1 hn1 with h2 | h2
            · refine Or.inr ⟨n, List.mem_cons_self _ _, k, kd, ?_, hkd, hv⟩
              rw [hsub]
              exact List.mem_cons_of_mem _
                (List.mem_flatMap.2 ⟨n1, List.mem_reverse.1 h2, hk⟩)
            · exact Or.inr ⟨n1, List.mem_cons_of_mem _ h2, k, kd, hk, hkd, hv⟩

/-- The loop over the stack reads the children and the contexts of the nodes it visits. -/
theorem condWidthLoop_congr {A B : Arena} {ρ : Nat → Nat} (hdown : A.Down ρ) (r : Nat)
    (hagree : ∀ k kd, k ≠ r → A.deref k = some kd →
      ∃ kd1, B.deref k = some kd1 ∧ kd1.m_children = kd.m_children
        ∧ kd1.m_contextS = kd.m_contextS)
    (hno : ∀ p pn, A.deref p = some pn → r ∉ pn.m_children) (condset : List Nat) :
    ∀ (fuel : Nat) (stck : List Nat) (w : Int),
      (∀ n ∈ stck, n ≠ r ∧ (A.deref n).isSome = true) →
      condWidthLoop A condset fuel stck w = condWidthLoop B condset fuel stck w := by
  intro fuel
  induction fuel with
  | zero => intro stck w _; rfl
  | succ fuel ih =>
    intro stck w hs
    cases stck with
    | nil => rfl
    | cons n rest =>
      obtain ⟨hnr, hn⟩ := hs n (List.mem_cons_self n rest)
      cases hd : A.deref n with
      | none => simp [hd] at hn
      | some nd =>
        obtain ⟨kd1, hb, hc1, hc2⟩ := hagree n nd hnr hd
        simp only [condWidthLoop, hd, hb, hc1, hc2]
        refine ih _ _ (fun c hc => ?_)
        rcases List.mem_append.1 hc with h1 | h1
        · have hcm := List.mem_reverse.1 h1
          refine ⟨?_, (hdown n nd c hd hcm).1⟩
          intro hcr
          rw [hcr] at hcm
          exact hno n nd hd hcm
        · exact hs c (List.mem_cons_of_mem _ h1)

/-- The result of the loop over the stack does not depend on the bound of its turns. -/
theorem condWidthLoop_fuel (A : Arena) (condset : List Nat) :
    ∀ (f g : Nat) (stck : List Nat) (w w1 w2 : Int),
      condWidthLoop A condset f stck w = some w1 →
      condWidthLoop A condset g stck w = some w2 → w1 = w2 := by
  intro f
  induction f with
  | zero => intro g stck w w1 w2 h; simp [condWidthLoop] at h
  | succ f ih =>
    intro g stck w w1 w2 h1 h2
    cases g with
    | zero => simp [condWidthLoop] at h2
    | succ g =>
      cases stck with
      | nil =>
        simp only [condWidthLoop, Option.some.injEq] at h1 h2
        rw [← h1, ← h2]
      | cons n rest =>
        cases hd : A.deref n with
        | none => simp [condWidthLoop, hd] at h1
        | some nd =>
          simp only [condWidthLoop, hd] at h1 h2
          exact ih g _ _ w1 w2 h1 h2

/-! ## C31: the chain of nodes that `canBePruned` marks -/

theorem orList_of_orAt (heap : Heap) : ∀ (K o j i : Nat), j < K → orAt heap o j = some i →
    i ∈ orList heap o K := by
  intro K
  induction K with
  | zero => intro o j i hj; omega
  | succ K ih =>
    intro o j i hj hat
    cases j with
    | zero =>
      simp only [orAt, Option.some.injEq] at hat
      rw [← hat]
      simp only [orList]
      cases orAbove heap o <;> simp
    | succ j =>
      cases hm : orAbove heap o with
      | none =>
        rw [orAt_none_left heap o hm] at hat
        cases hat
      | some g =>
        rw [orAt_succ_left heap o g hm] at hat
        simp only [orList, hm]
        exact List.mem_cons_of_mem _ (ih g j i (by omega) hat)

theorem chainValue_below (heap : Heap) (sib sub : Nat → Dbl) (init : Dbl) (n : Nat) :
    ∀ (m k : Nat), (chainValue heap sib sub init n (k + m)).isSome = true →
      (chainValue heap sib sub init n k).isSome = true := by
  intro m k h
  cases hk : chainValue heap sib sub init n k with
  | none =>
    rw [chainValue_none_add heap sib sub init n k hk m] at h
    cases h
  | some x => rfl

/-- C31. On a heap of the shape `Heap.WF`, `canBePruned(n)` returns. When it returns
false, or true by the test of the heuristic against `ELEM_ZERO` or by the comparison at the
own OR node of `n`, every node is as it was. When it returns true otherwise, the
comparison has succeeded first at the OR node `o` that is `K` levels above the own OR node
`start` of `n`; the OR nodes `0, ..., K-1` levels above `start` are live OR nodes and are
marked by `setNotOpt`, and every other node is as it was. -/
theorem canBePruned_chain (heap : Heap) (n : Nat) (nd : SearchNode) (hwf : heap.WF)
    (hn : heap.deref n = some nd) :
    ∃ b heap1, canBePruned heap n = some (b, heap1)
      ∧ (b = false → heap1 = heap)
      ∧ (nd.getHeur = ELEM_ZERO → heap1 = heap)
      ∧ (∀ start sn, ownOR heap n = some start → heap.deref start = some sn →
          Dbl.le nd.getHeur sn.getValue = true → ∀ i, heap1.deref i = heap.deref i)
      ∧ (b = true → nd.getHeur ≠ ELEM_ZERO →
          ∃ start K o pst orn, ownOR heap n = some start ∧ orAt heap start K = some o
            ∧ heap.deref o = some orn ∧ pstChain heap n K = some (o, pst)
            ∧ Dbl.le pst orn.getValue = true ∧ (∀ j, j < K → NoPrune heap n j)
            ∧ (∀ j, j < K → ∃ i x, orAt heap start j = some i ∧ heap.deref i = some x
                ∧ x.m_type = NodeType.NODE_OR ∧ heap1.deref i = some x.setNotOpt)
            ∧ (∀ i, (∀ j, j < K → orAt heap start j ≠ some i) →
                heap1.deref i = heap.deref i)) := by
  obtain ⟨b, heap1, hres, h1, h2, h3⟩ := canBePruned_spec hwf hn
  obtain ⟨start0, sn0, hs1, hs2, _, _⟩ := ownOR_spec hwf hn
  have h0 : pstChain heap n 0 = some (start0, nd.getHeur) := by
    simp [pstChain, chainValue, hs1, heurOf, hn]
  have hmark : ∀ (K : Nat) (i : Nat), (∀ j, j < K → orAt heap start0 j ≠ some i) →
      (heap.deref i).map (fun x => if i ∈ orList heap start0 K then x.setNotOpt else x)
        = heap.deref i := by
    intro K i hi
    have hni : i ∉ orList heap start0 K := by
      intro hm
      obtain ⟨j, hj, hat⟩ := orList_mem heap K start0 i hm
      exact hi j hj hat
    cases heap.deref i <;> simp [hni]
  refine ⟨b, heap1, hres, ?_, ?_, ?_, ?_⟩
  · intro hb
    by_cases hdep : nd.getDepth < 0
    · exact (h1 hdep).2
    · have hdep0 : 0 ≤ nd.getDepth := by omega
      by_cases hz : nd.getHeur = ELEM_ZERO
      · have := (h2 hdep0 hz).1
        rw [hb] at this
        cases this
      · rcases h3 hdep0 hz with h | h
        · exact h.2.1
        · rw [hb] at h
          cases h.1
  · intro hz
    by_cases hdep : nd.getDepth < 0
    · exact (h1 hdep).2
    · exact (h2 (by omega) hz).2
  · intro start sn hst hsn hle i
    rw [hs1] at hst
    cases hst
    rw [hs2] at hsn
    cases hsn
    by_cases hdep : nd.getDepth < 0
    · rw [(h1 hdep).2]
    · have hdep0 : 0 ≤ nd.getDepth := by omega
      by_cases hz : nd.getHeur = ELEM_ZERO
      · rw [(h2 hdep0 hz).2]
      · rcases h3 hdep0 hz with h | ⟨_, st, K, o1, pst1, orn1, q1, q2, q3, q4, q5, q6⟩
        · rw [h.2.1]
        · rw [hs1] at q1
          cases q1
          have hK : K = 0 := by
            by_contra hK
            have := q5 0 (by omega) 0 (le_refl 0) start0 nd.getHeur sn0 h0 hs2
            rw [hle] at this
            cases this
          rw [q6 i, hK]
          exact hmark 0 i (fun j hj => by omega)
  · intro hb hz
    have hdep0 : 0 ≤ nd.getDepth := by
      by_contra hdep
      have := (h1 (by omega)).1
      rw [hb] at this
      cases this
    rcases h3 hdep0 hz with h | ⟨_, st, K, o1, pst1, orn1, q1, q2, q3, q4, q5, q6⟩
    · rw [hb] at h
      cases h.1
    · rw [hs1] at q1
      cases q1
      obtain ⟨_, st2, _, _, r3, r4⟩ := chainValue_node hwf hn (heurOf heap)
        (subSolvedOf heap) (heurOf heap n) K o1 pst1 q2
      rw [hs1] at r3
      cases r3
      refine ⟨start0, K, o1, pst1, orn1, hs1, r4, q3, q2, q4, q5, ?_, ?_⟩
      · intro j hj
        have hsome : (pstChain heap n j).isSome = true := by
          have hKj : K = j + (K - j) := by omega
          have hq : (chainValue heap (heurOf heap) (subSolvedOf heap) (heurOf heap n) n
              (j + (K - j))).isSome = true := by
            rw [← hKj]
            show (pstChain heap n K).isSome = true
            rw [q2]
            rfl
          exact chainValue_below heap _ _ _ n (K - j) j hq
        cases hc : pstChain heap n j with
        | none => rw [hc] at hsome; cases hsome
        | some x =>
          obtain ⟨i, v⟩ := x
          obtain ⟨x, st3, t1, t2, t3, t4⟩ := chainValue_node hwf hn (heurOf heap)
            (subSolvedOf heap) (heurOf heap n) j i v hc
          rw [hs1] at t3
          cases t3
          refine ⟨i, x, t4, t1, t2, ?_⟩
          rw [q6 i, t1]
          simp [orList_of_orAt heap K start0 j i hj t4]
      · intro i hi
        rw [q6 i]
        exact hmark K i hi

theorem canBePruned_chain_witness :
    ∃ b heap1, canBePruned pruneExample 2 = some (b, heap1)
      ∧ (b = false → heap1 = pruneExample)
      ∧ (((SearchNode.newOR (some 1) 0 0).setHeur (Dbl.fin 3)).getHeur = ELEM_ZERO →
          heap1 = pruneExample)
      ∧ (∀ start sn, ownOR pruneExample 2 = some start → pruneExample.deref start = some sn →
          Dbl.le ((SearchNode.newOR (some 1) 0 0).setHeur (Dbl.fin 3)).getHeur sn.getValue
            = true → ∀ i, heap1.deref i = pruneExample.deref i)
      ∧ (b = true → ((SearchNode.newOR (some 1) 0 0).setHeur (Dbl.fin 3)).getHeur ≠ ELEM_ZERO →
          ∃ start K o pst orn, ownOR pruneExample 2 = some start
            ∧ orAt pruneExample start K = some o
            ∧ pruneExample.deref o = some orn ∧ pstChain pruneExample 2 K = some (o, pst)
            ∧ Dbl.le pst orn.getValue = true ∧ (∀ j, j < K → NoPrune pruneExample 2 j)
            ∧ (∀ j, j < K → ∃ i x, orAt pruneExample start j = some i
                ∧ pruneExample.deref i = some x
                ∧ x.m_type = NodeType.NODE_OR ∧ heap1.deref i = some x.setNotOpt)
            ∧ (∀ i, (∀ j, j < K → orAt pruneExample start j ≠ some i) →
                heap1.deref i = pruneExample.deref i)) :=
  canBePruned_chain pruneExample 2 _ (Heap.wf_of_test (by decide)) rfl

/-! ## C32: `Search::restrictSubproblem(rootVar, assig, pst)` -/

theorem Heap.deref_push_old (heap : Heap) (x : Option SearchNode) {k : Nat}
    (hk : k < heap.length) : Heap.deref (heap ++ [x]) k = heap.deref k := by
  rw [Heap.deref_push, if_pos hk]

theorem Heap.deref_push_new (heap : Heap) (x : Option SearchNode) :
    Heap.deref (heap ++ [x]) heap.length = x := by
  rw [Heap.deref_push, if_neg (Nat.lt_irrefl _), if_pos rfl]

theorem Heap.deref_update_ne (heap : Heap) (f : SearchNode → SearchNode) {p k : Nat}
    (hk : k ≠ p) : (heap.modify p f).deref k = heap.deref k := by
  rw [Heap.deref_update, if_neg hk]

theorem Heap.deref_update_eq (heap : Heap) (f : SearchNode → SearchNode) (p : Nat) :
    (heap.modify p f).deref p = (heap.deref p).map f := by
  rw [Heap.deref_update, if_pos rfl]

/-- The end of a pass of the loop that builds the chain of dummy nodes: the AND node is
appended and becomes the child of the OR node at the end of `heap2`. -/
theorem pstNodes_tail (heap2 : Heap) (H dummyVar : Nat) (l : Dbl) (orn : SearchNode)
    (hlen2 : heap2.length = H + 1) (hor : heap2.deref H = some orn) :
    ((heap2 ++ [some (SearchNode.newAND H dummyVar (-1) 0 l)]).modify H
        (fun x => x.setChild heap2.length)).length = H + 2
      ∧ ((heap2 ++ [some (SearchNode.newAND H dummyVar (-1) 0 l)]).modify H
          (fun x => x.setChild heap2.length)).deref H = some (orn.setChild (H + 1))
      ∧ ((heap2 ++ [some (SearchNode.newAND H dummyVar (-1) 0 l)]).modify H
          (fun x => x.setChild heap2.length)).deref (H + 1)
          = some (SearchNode.newAND H dummyVar (-1) 0 l)
      ∧ ∀ p, p < H → ((heap2 ++ [some (SearchNode.newAND H dummyVar (-1) 0 l)]).modify H
          (fun x => x.setChild heap2.length)).deref p = heap2.deref p := by
  refine ⟨?_, ?_, ?_, ?_⟩
  · rw [Heap.length_update, List.length_append, hlen2]
    rfl
  · rw [Heap.deref_update_eq, Heap.deref_push_old _ _ (by omega), hor, hlen2]
    rfl
  · rw [Heap.deref_update_ne _ _ (by omega), ← hlen2, Heap.deref_push_new]
  · intro p hp
    rw [Heap.deref_update_ne _ _ (by omega), Heap.deref_push_old _ _ (by omega)]

/-- One pass of the loop that builds the chain of dummy nodes: two nodes are appended, the
OR node with the AND node as its child, and the node `node` of the pass before gets the OR
node as its child. -/
theorem pstNodes_pass (dummyVar : Nat) (pst : List Dbl) (k i : Nat) (heap : Heap)
    (root node : Option Nat) (v l : Dbl) (hv : pst[2 * i]? = some v)
    (hl : pst[2 * i + 1]? = some l)
    (hnode : 0 < i → ∃ nd x, node = some nd ∧ heap.deref nd = some x) :
    ∃ heap1, pstNodes dummyVar pst (k + 1) i heap root node
        = pstNodes dummyVar pst k (i + 1) heap1 (if 0 < i then root else some heap.length)
            (some (heap.length + 1))
      ∧ heap1.length = heap.length + 2
      ∧ heap1.deref heap.length = some (((SearchNode.newOR node dummyVar (-1)).setValue
          v).setChild (heap.length + 1))
      ∧ heap1.deref (heap.length + 1) = some (SearchNode.newAND heap.length dummyVar (-1) 0 l)
      ∧ ∀ p, p < heap.length → heap1.deref p
          = if 0 < i ∧ node = some p then (heap.deref p).map (fun x => x.setChild heap.length)
            else heap.deref p := by
  by_cases hi : 0 < i
  · obtain ⟨nd, x, hnd, hx⟩ := hnode hi
    have hlt := Heap.deref_bound hx
    obtain ⟨heap2, hh2⟩ : ∃ h2, h2 = (heap ++ [some ((SearchNode.newOR node dummyVar
        (-1)).setValue v)]).modify nd (fun x => x.setChild heap.length) := ⟨_, rfl⟩
    have hlen2 : heap2.length = heap.length + 1 := by
      rw [hh2, Heap.length_update, List.length_append]
      rfl
    have hd1 : (heap ++ [some ((SearchNode.newOR (some nd) dummyVar (-1)).setValue v)]).deref nd
        = some x := by
      rw [Heap.deref_push_old _ _ hlt, hx]
    have hor : heap2.deref heap.length
        = some ((SearchNode.newOR node dummyVar (-1)).setValue v) := by
      rw [hh2, Heap.deref_update_ne _ _ (by omega), Heap.deref_push_new]
    obtain ⟨t1, t2, t3, t4⟩ := pstNodes_tail heap2 heap.length dummyVar l _ hlen2 hor
    refine ⟨_, ?_, t1, t2, t3, ?_⟩
    · rw [hnd] at hh2 ⊢
      simp only [pstNodes, hv, hl, hi, if_true, hd1, ← hh2, hlen2]
    · intro p hp
      rw [t4 p hp, hh2]
      simp only [hi, true_and, hnd, Option.some.injEq]
      by_cases hpn : nd = p
      · subst hpn
        rw [if_pos rfl, Heap.deref_update_eq, Heap.deref_push_old _ _ hp]
      · rw [if_neg hpn, Heap.deref_update_ne _ _ (fun e => hpn e.symm),
          Heap.deref_push_old _ _ hp]
  · obtain ⟨heap2, hh2⟩ : ∃ h2, h2 = heap ++ [some ((SearchNode.newOR node dummyVar
        (-1)).setValue v)] := ⟨_, rfl⟩
    have hlen2 : heap2.length = heap.length + 1 := by
      rw [hh2, List.length_append]
      rfl
    have hor : heap2.deref heap.length
        = some ((SearchNode.newOR node dummyVar (-1)).setValue v) := by
      rw [hh2, Heap.deref_push_new]
    obtain ⟨t1, t2, t3, t4⟩ := pstNodes_tail heap2 heap.length dummyVar l _ hlen2 hor
    refine ⟨_, ?_, t1, t2, t3, ?_⟩
    · simp only [pstNodes, hv, hl, hi, if_false, ← hh2, hlen2]
    · intro p hp
      rw [t4 p hp, hh2, Heap.deref_push_old _ _ hp]
      simp [hi]

/-- The loop that builds the chain of dummy nodes, from the pass `i` on for `k` passes. -/
theorem pstNodes_spec (dummyVar L : Nat) (pst : List Dbl) (root0 : Option Nat) :
    ∀ (k i : Nat) (heap : Heap), 2 * (i + k) ≤ pst.length → heap.length = L + 2 * i →
      (∀ t, t < i → heap.deref (L + 2 * t) = some (dummyOR dummyVar L pst t)
        ∧ heap.deref (L + 2 * t + 1) = some (if t + 1 < i
            then (dummyAND dummyVar L pst t).setChild (L + 2 * t + 2)
            else dummyAND dummyVar L pst t)) →
      ∃ heap1, pstNodes dummyVar pst k i heap (if 0 < i then some L else root0)
          (if 0 < i then some (L + 2 * i - 1) else none)
          = some (heap1, (if 0 < i + k then some L else root0),
              (if 0 < i + k then some (L + 2 * (i + k) - 1) else none))
        ∧ heap1.length = L + 2 * (i + k)
        ∧ (∀ p, p < L → heap1.deref p = heap.deref p)
        ∧ (∀ t, t < i + k → heap1.deref (L + 2 * t) = some (dummyOR dummyVar L pst t)
            ∧ heap1.deref (L + 2 * t + 1) = some (if t + 1 < i + k
                then (dummyAND dummyVar L pst t).setChild (L + 2 * t + 2)
                else dummyAND dummyVar L pst t)) := by
  intro k
  induction k with
  | zero =>
    intro i heap _ hlen hinv
    exact ⟨heap, rfl, hlen, fun _ _ => rfl, hinv⟩
  | succ k ih =>
    intro i heap hpst hlen hinv
    have h1 : 2 * i < pst.length := by omega
    have h2 : 2 * i + 1 < pst.length := by omega
    have hv : pst[2 * i]? = some (pst.getD (2 * i) ELEM_NAN) := by
      rw [List.getD_eq_getElem?_getD, List.getElem?_eq_getElem h1]
      rfl
    have hl : pst[2 * i + 1]? = some (pst.getD (2 * i + 1) ELEM_NAN) := by
      rw [List.getD_eq_getElem?_getD, List.getElem?_eq_getElem h2]
      rfl
    obtain ⟨heap1, e1, l1, o1, a1, p1⟩ := pstNodes_pass dummyVar pst k i heap
      (if 0 < i then some L else root0) (if 0 < i then some (L + 2 * i - 1) else none)
      _ _ hv hl (fun hi => by
        have := (hinv (i - 1) (by omega)).2
        rw [if_neg (by omega)] at this
        have e : L + 2 * (i - 1) + 1 = L + 2 * i - 1 := by omega
        rw [e] at this
        exact ⟨L + 2 * i - 1, dummyAND dummyVar L pst (i - 1), by rw [if_pos hi], this⟩)
    rw [hlen] at l1 o1 a1 p1 e1
    have hinv1 : ∀ t, t < i + 1 → heap1.deref (L + 2 * t) = some (dummyOR dummyVar L pst t)
        ∧ heap1.deref (L + 2 * t + 1) = some (if t + 1 < i + 1
            then (dummyAND dummyVar L pst t).setChild (L + 2 * t + 2)
            else dummyAND dummyVar L pst t) := by
      intro t ht
      by_cases hti : t < i
      · obtain ⟨q1, q2⟩ := hinv t hti
        have hi : 0 < i := by omega
        constructor
        · rw [p1 (L + 2 * t) (by omega), if_neg, q1]
          rintro ⟨_, h⟩
          rw [if_pos hi] at h
          simp only [Option.some.injEq] at h
          omega
        · rw [p1 (L + 2 * t + 1) (by omega), q2]
          by_cases htl : t + 1 < i
          · rw [if_neg, if_pos htl, if_pos (by omega)]
            rintro ⟨_, h⟩
            rw [if_pos hi] at h
            simp only [Option.some.injEq] at h
            omega
          · have e : L + 2 * i - 1 = L + 2 * t + 1 := by omega
            have e2 : L + 2 * i = L + 2 * t + 2 := by omega
            rw [if_pos ⟨hi, by rw [if_pos hi, e]⟩, if_neg htl, if_pos (by omega),
              Option.map_some', e2]
      · have hti2 : t = i := by omega
        subst hti2
        constructor
        · rw [o1]
          rfl
        · have e : L + 2 * t + 1 = L + 2 * t + 1 := rfl
          rw [a1, if_neg (by omega)]
          rfl
    obtain ⟨heap2, e2, l2, p2, q2⟩ := ih (i + 1) heap1 (by omega) (by rw [l1]; omega) hinv1
    have hroot : (if 0 < i then (if 0 < i then some L else root0) else some (L + 2 * i))
        = some L := by
      by_cases hi : 0 < i
      · simp [hi]
      · have : i = 0 := by omega
        simp [this]
    have harith : i + 1 + k = i + (k + 1) := by omega
    rw [hroot] at e1
    rw [if_pos (Nat.succ_pos i)] at e2
    rw [if_pos (Nat.succ_pos i)] at e2
    have e3 : L + 2 * (i + 1) - 1 = L + 2 * i + 1 := by omega
    rw [e3] at e2
    rw [harith] at e2 l2 q2
    refine ⟨heap2, by rw [e1]; exact e2, l2, fun p hp => ?_, q2⟩
    rw [p2 p hp, p1 p (by omega), if_neg]
    rintro ⟨hi, h⟩
    rw [if_pos hi] at h
    simp only [Option.some.injEq] at h
    omega

/-- The loop over the context copies the entries of `assig` at the variables of the
context and leaves the other entries of the assignment. -/
theorem copyContext_spec (assig : List Int) : ∀ (ctx : List Nat) (a : List Int),
    (∀ c ∈ ctx, c < assig.length ∧ c < a.length) →
    ∃ a1, copyContext ctx assig a = some a1 ∧ a1.length = a.length
      ∧ (∀ c ∈ ctx, a1[c]? = assig[c]?) ∧ (∀ c, c ∉ ctx → a1[c]? = a[c]?) := by
  intro ctx
  induction ctx with
  | nil => intro a _; exact ⟨a, rfl, rfl, fun c hc => by simp at hc, fun _ _ => rfl⟩
  | cons c rest ih =>
    intro a h
    obtain ⟨hc1, hc2⟩ := h c (List.mem_cons_self c rest)
    obtain ⟨a1, e1, l1, p1, q1⟩ := ih (a.set c (assig[c])) (fun x hx => by
      rw [List.length_set]
      exact h x (List.mem_cons_of_mem _ hx))
    refine ⟨a1, ?_, by rw [l1, List.length_set], fun x hx => ?_, fun x hx => ?_⟩
    · simp only [copyContext, List.getElem?_eq_getElem hc1, hc2, if_true]
      exact e1
    · by_cases hxr : x ∈ rest
      · exact p1 x hxr
      · have hxc : x = c := by
          rcases List.mem_cons.1 hx with h1 | h1
          · exact h1
          · exact absurd h1 hxr
        rw [q1 x hxr, hxc, List.getElem?_set_self hc2, List.getElem?_eq_getElem hc1]
    · have hxc : x ≠ c := fun e => hx (by rw [e]; exact List.mem_cons_self c rest)
      have hxr : x ∉ rest := fun e => hx (List.mem_cons_of_mem _ e)
      rw [q1 x hxr, List.getElem?_set_ne (fun e => hxc e.symm)]

/-- C32. Let the pseudo tree be restricted to `rootVar`, let the context of `rootVar` index
both assignments, and let `pst` have the length `2k` with `k >= 1`. Then
`restrictSubproblem(rootVar, assig, pst)` returns the old depth of `rootVar`. The nodes it
creates follow the `L` positions of the heap before: for `t < k` the OR node of the dummy
variable `N - 1` with the depth -1 and the value `pst[2t]` at `L + 2t`, whose parent is the
AND node before it (none for `t = 0`) and whose only child is the AND node at `L + 2t + 1`
with the value 0 and the label `pst[2t+1]`, whose only child is the node at `L + 2t + 2`;
the last of these, at `L + 2k`, is an OR node of `rootVar` with the depth 0 and no
children, which is stored as `subproblemLocal` and passed to `reset`. The root is the node
at `L`. The assignment has the entries of `assig` at the variables of the context of
`rootVar` and its old entries elsewhere. -/
theorem restrictSubproblem_chain (fresh : SearchStats) (s : Search) (rootVar : Nat)
    (assig : List Int) (pst : List Dbl) (k : Nat) (depth : Int) (pt1 : Pseudotree)
    (ptnode : PseudotreeNode)
    (hpt : s.m_pseudotree.restrictSubproblem rootVar = some (depth, pt1))
    (hh : 0 ≤ pt1.getHeightCond + 1) (hnode : pt1.getNode rootVar = some ptnode)
    (hctx : ∀ c ∈ ptnode.getFullContextVec, c < assig.length ∧ c < s.m_assignment.length)
    (hN : 0 < s.m_domains.length) (hlen : pst.length = 2 * k) (hk : 0 < k) :
    ∃ r, Search.restrictSubproblem fresh s rootVar assig pst = some r
      ∧ r.depth = depth
      ∧ r.search.root = some s.heap.length
      ∧ r.search.heap.length = s.heap.length + 2 * k + 1
      ∧ (∀ t, t < k →
          r.search.heap.deref (s.heap.length + 2 * t)
            = some (dummyOR (s.m_domains.length - 1) s.heap.length pst t)
          ∧ r.search.heap.deref (s.heap.length + 2 * t + 1)
            = some ((dummyAND (s.m_domains.length - 1) s.heap.length pst t).setChild
                (s.heap.length + 2 * t + 2)))
      ∧ r.search.heap.deref (s.heap.length + 2 * k)
          = some (SearchNode.newOR (some (s.heap.length + 2 * k - 1)) rootVar 0)
      ∧ r.subproblemLocal = s.heap.length + 2 * k
      ∧ r.resetArg = s.heap.length + 2 * k
      ∧ r.search.m_assignment.length = s.m_assignment.length
      ∧ (∀ c ∈ ptnode.getFullContextVec, r.search.m_assignment[c]? = assig[c]?)
      ∧ (∀ c, c ∉ ptnode.getFullContextVec →
          r.search.m_assignment[c]? = s.m_assignment[c]?) := by
  obtain ⟨a1, ea, la, pa, qa⟩ := copyContext_spec assig _ _ hctx
  obtain ⟨heap0, hh0⟩ : ∃ h0 : Heap, h0 = (match s.root with
      | some r => s.heap.free r
      | none => s.heap) := ⟨_, rfl⟩
  have hlen0 : heap0.length = s.heap.length := by
    rw [hh0]
    cases s.root with
    | none => rfl
    | some r => simp [Heap.free]
  obtain ⟨heap1, e1, l1, _, q1⟩ := pstNodes_spec (s.m_domains.length - 1) s.heap.length pst
    s.root k 0 heap0 (by omega) (by rw [hlen0]; rfl) (fun t ht => by omega)
  rw [if_neg (Nat.lt_irrefl 0), if_neg (Nat.lt_irrefl 0), Nat.zero_add,
    if_pos hk, if_pos hk] at e1
  rw [Nat.zero_add] at l1 q1
  have hkl : k = pst.length / 2 := by omega
  obtain ⟨_, hand⟩ := q1 (k - 1) (by omega)
  rw [if_neg (by omega)] at hand
  have e2 : s.heap.length + 2 * (k - 1) + 1 = s.heap.length + 2 * k - 1 := by omega
  rw [e2] at hand
  obtain ⟨heap2, hh2⟩ : ∃ h2 : Heap, h2 = (heap1 ++ [some (SearchNode.newOR
      (some (s.heap.length + 2 * k - 1)) rootVar 0)]).modify (s.heap.length + 2 * k - 1)
      (fun x => x.setChild heap1.length) := ⟨_, rfl⟩
  have hN0 : ¬ s.m_domains.length = 0 := by omega
  have hh1 : ¬ pt1.getHeightCond + 1 < 0 := by omega
  have hres : Search.restrictSubproblem fresh s rootVar assig pst
      = some { depth := depth,
               search := { s with m_pseudotree := pt1, m_nodeProfile := [],
                                  m_leafProfile := resizeCounts s.m_leafProfile
                                    (pt1.getHeightCond + 1).toNat,
                                  m_assignment := a1, stats := fresh, heap := heap2,
                                  root := some s.heap.length },
               subproblemLocal := heap1.length,
               resetArg := heap1.length } := by
    simp only [Search.restrictSubproblem, hpt, hh1, if_false, hnode, ea, hN0, ← hh0, ← hkl, e1,
      hand, ← hh2]
  refine ⟨_, hres, rfl, rfl, ?_, ?_, ?_, by rw [l1], by rw [l1], la, pa, qa⟩
  · show heap2.length = _
    rw [hh2, Heap.length_update, List.length_append, l1]
    rfl
  · intro t ht
    obtain ⟨r1, r2⟩ := q1 t ht
    constructor
    · show heap2.deref _ = _
      rw [hh2, Heap.deref_update_ne _ _ (by omega), Heap.deref_push_old _ _ (by omega), r1]
    · show heap2.deref _ = _
      by_cases htk : t + 1 < k
      · rw [hh2, Heap.deref_update_ne _ _ (by omega), Heap.deref_push_old _ _ (by omega), r2,
          if_pos htk]
      · have e3 : s.heap.length + 2 * t + 1 = s.heap.length + 2 * k - 1 := by omega
        have e4 : s.heap.length + 2 * t + 2 = heap1.length := by omega
        rw [e3, hh2, Heap.deref_update_eq, Heap.deref_push_old _ _ (by omega), hand,
          Option.map_some', e4]
        have e5 : t = k - 1 := by omega
        rw [e5]
  · show heap2.deref _ = _
    rw [hh2, Heap.deref_update_ne _ _ (by omega), ← l1, Heap.deref_push_new, l1]

theorem restrictSubproblem_chain_witness :
    ∃ r, Search.restrictSubproblem exampleStats exampleSearch 1 [5, 6, 7, 8]
        [Dbl.fin 3, Dbl.fin 4, Dbl.fin 5, Dbl.fin 6] = some r
      ∧ r.depth = 1
      ∧ r.search.root = some exampleSearch.heap.length
      ∧ r.search.heap.length = exampleSearch.heap.length + 2 * 2 + 1
      ∧ (∀ t, t < 2 →
          r.search.heap.deref (exampleSearch.heap.length + 2 * t)
            = some (dummyOR (exampleSearch.m_domains.length - 1) exampleSearch.heap.length
                [Dbl.fin 3, Dbl.fin 4, Dbl.fin 5, Dbl.fin 6] t)
          ∧ r.search.heap.deref (exampleSearch.heap.length + 2 * t + 1)
            = some ((dummyAND (exampleSearch.m_domains.length - 1) exampleSearch.heap.length
                [Dbl.fin 3, Dbl.fin 4, Dbl.fin 5, Dbl.fin 6] t).setChild
                (exampleSearch.heap.length + 2 * t + 2)))
      ∧ r.search.heap.deref (exampleSearch.heap.length + 2 * 2)
          = some (SearchNode.newOR (some (exampleSearch.heap.length + 2 * 2 - 1)) 1 0)
      ∧ r.subproblemLocal = exampleSearch.heap.length + 2 * 2
      ∧ r.resetArg = exampleSearch.heap.length + 2 * 2
      ∧ r.search.m_assignment.length = exampleSearch.m_assignment.length
      ∧ (∀ c ∈ ((examplePTRestricted.getNode 1).getD (PseudotreeNode.new 1 [])).getFullContextVec,
          r.search.m_assignment[c]? = [(5 : Int), 6, 7, 8][c]?)
      ∧ (∀ c, c ∉ ((examplePTRestricted.getNode 1).getD (PseudotreeNode.new 1 [])).getFullContextVec →
          r.search.m_assignment[c]? = exampleSearch.m_assignment[c]?) :=
  restrictSubproblem_chain exampleStats exampleSearch 1 [5, 6, 7, 8]
    [Dbl.fin 3, Dbl.fin 4, Dbl.fin 5, Dbl.fin 6] 2 1 examplePTRestricted
    ((examplePTRestricted.getNode 1).getD (PseudotreeNode.new 1 []))
    (by decide) (by decide) (by decide) (by decide) (by decide) rfl (by decide)

/-! ## C33: `Search::updateSolution` -/

theorem Dbl.lt_of_not_le {a b : Dbl} (ha : a.isNaN = false) (hb : b.isNaN = false)
    (h : Dbl.le a b = false) : Dbl.lt b a = true := by
  cases a <;> cases b <;> simp_all [Dbl.le, Dbl.lt, Dbl.isNaN]

theorem Dbl.not_le_of_lt {a b : Dbl} (h : Dbl.lt b a = true) : Dbl.le a b = false := by
  cases a <;> cases b <;> simp_all [Dbl.le, Dbl.lt]

theorem Dbl.le_of_lt {a b : Dbl} (h : Dbl.lt a b = true) : Dbl.le a b = true := by
  cases a <;> cases b <;> simp_all [Dbl.le, Dbl.lt]
  omega

theorem Dbl.le_self {a : Dbl} (ha : a.isNaN = false) : Dbl.le a a = true := by
  cases a <;> simp_all [Dbl.le, Dbl.isNaN]

theorem Dbl.not_nan_of_lt {a b : Dbl} (h : Dbl.lt a b = true) :
    a.isNaN = false ∧ b.isNaN = false := by
  cases a <;> cases b <;> simp_all [Dbl.lt, Dbl.isNaN]

/-- One call of `updateSolution` on a live root: the answer, and what becomes of the
root. -/
theorem updateSolution_step (s : Search) (r : Nat) (rn : SearchNode)
    (hroot : s.root = some r) (hr : s.heap.deref r = some rn) (d : Dbl) (tuple : List Int)
    (hp : Heap) (hhp : hp = s.heap.modify r (fun x => (x.setValue d).setOptAssig tuple)) :
    (d.isNaN = false ∧ (rn.getValue.isNaN = true ∨ Dbl.lt rn.getValue d = true)
      ∧ s.updateSolution d tuple = some (true, { s with heap := hp }))
    ∨ (¬ (d.isNaN = false ∧ (rn.getValue.isNaN = true ∨ Dbl.lt rn.getValue d = true))
      ∧ s.updateSolution d tuple = some (false, s)) := by
  subst hhp
  by_cases hd : d.isNaN = true
  · right
    refine ⟨fun h => by rw [hd] at h; exact Bool.noConfusion h.1, ?_⟩
    simp [Search.updateSolution, hroot, hr, hd]
  · have hd0 : d.isNaN = false := by simpa using hd
    by_cases hv : rn.getValue.isNaN = true
    · left
      refine ⟨hd0, Or.inl hv, ?_⟩
      simp [Search.updateSolution, hroot, hr, hd0, hv]
    · have hv0 : rn.getValue.isNaN = false := by simpa using hv
      by_cases hle : Dbl.le d rn.getValue = true
      · right
        refine ⟨?_, ?_⟩
        · rintro ⟨_, h | h⟩
          · exact hv h
          · rw [Dbl.not_le_of_lt h] at hle
            cases hle
        · simp [Search.updateSolution, hroot, hr, hd0, hv0, hle]
      · left
        have hle0 : Dbl.le d rn.getValue = false := by simpa using hle
        refine ⟨hd0, Or.inr (Dbl.lt_of_not_le hd0 hv0 hle0), ?_⟩
        simp [Search.updateSolution, hroot, hr, hd0, hv0, hle0]

/-- A sequence of calls of `updateSolution` on a live root returns, keeps the root live,
and a root value that is not NaN stays so and does not decrease. -/
theorem updateSolutions_spec : ∀ (calls : List (Dbl × List Int)) (s : Search) (r : Nat)
    (rn : SearchNode), s.root = some r → s.heap.deref r = some rn →
    ∃ s2 rn2, s.updateSolutions calls = some s2 ∧ s2.root = some r
      ∧ s2.heap.deref r = some rn2
      ∧ (rn.getValue.isNaN = false →
          rn2.getValue.isNaN = false ∧ Dbl.le rn.getValue rn2.getValue = true) := by
  intro calls
  induction calls with
  | nil =>
    intro s r rn hroot hr
    exact ⟨s, rn, rfl, hroot, hr, fun h => ⟨h, Dbl.le_self h⟩⟩
  | cons c rest ih =>
    intro s r rn hroot hr
    obtain ⟨hp, hhp⟩ : ∃ hp, hp = s.heap.modify r
      (fun x => (x.setValue c.1).setOptAssig c.2) := ⟨_, rfl⟩
    rcases updateSolution_step s r rn hroot hr c.1 c.2 hp hhp with ⟨hd, hcase, e⟩ | ⟨_, e⟩
    · have hr1 : hp.deref r = some ((rn.setValue c.1).setOptAssig c.2) := by
        rw [hhp, Heap.deref_update]
        simp [hr]
      obtain ⟨s2, rn2, e2, h1, h2, h3⟩ := ih { s with heap := hp } r _ hroot hr1
      refine ⟨s2, rn2, by simp only [Search.updateSolutions, e]; exact e2, h1, h2, ?_⟩
      intro hv
      obtain ⟨h4, h5⟩ := h3 hd
      refine ⟨h4, ?_⟩
      rcases hcase with h6 | h6
      · rw [hv] at h6
        exact Bool.noConfusion h6
      · exact Dbl.le_trans (Dbl.le_of_lt h6) h5
    · obtain ⟨s2, rn2, e2, h1, h2, h3⟩ := ih s r rn hroot hr
      exact ⟨s2, rn2, by simp only [Search.updateSolutions, e]; exact e2, h1, h2, h3⟩

/-- C33. On a live root, `updateSolution(d, tuple)` returns true exactly when `d` is not
NaN and the value of the root is NaN or strictly below `d`. When it returns true the value
of the root is `d` and its optimal assignment is `tuple`, and nothing else has changed;
when it returns false nothing has changed. Every sequence of calls returns, and a value of
the root that is not NaN is not NaN afterwards and has not decreased. -/
theorem updateSolution_monotone (s : Search) (r : Nat) (rn : SearchNode)
    (hroot : s.root = some r) (hr : s.heap.deref r = some rn) (d : Dbl) (tuple : List Int) :
    (∃ b s1, s.updateSolution d tuple = some (b, s1)
      ∧ (b = true ↔ d.isNaN = false
          ∧ (rn.getValue.isNaN = true ∨ Dbl.lt rn.getValue d = true))
      ∧ (b = true → s1.rootValue = some d
          ∧ s1.heap.deref r = some ((rn.setValue d).setOptAssig tuple)
          ∧ s1.root = s.root ∧ s1.heap.length = s.heap.length
          ∧ ∀ k, k ≠ r → s1.heap.deref k = s.heap.deref k)
      ∧ (b = false → s1 = s))
    ∧ ∀ calls : List (Dbl × List Int), ∃ s2 v2, s.updateSolutions calls = some s2
        ∧ s2.rootValue = some v2
        ∧ (rn.getValue.isNaN = false →
            v2.isNaN = false ∧ Dbl.le rn.getValue v2 = true) := by
  constructor
  · obtain ⟨hp, hhp⟩ : ∃ hp, hp = s.heap.modify r
      (fun x => (x.setValue d).setOptAssig tuple) := ⟨_, rfl⟩
    rcases updateSolution_step s r rn hroot hr d tuple hp hhp with ⟨hd, hcase, e⟩ | ⟨hno, e⟩
    · refine ⟨true, _, e, ⟨fun _ => ⟨hd, hcase⟩, fun _ => rfl⟩, fun _ => ?_,
        (fun h => Bool.noConfusion h)⟩
      have hr1 : hp.deref r = some ((rn.setValue d).setOptAssig tuple) := by
        rw [hhp, Heap.deref_update]
        simp [hr]
      refine ⟨?_, hr1, rfl, ?_, fun k hk => ?_⟩
      · simp only [Search.rootValue, hroot, hr1]
        rfl
      · show hp.length = _
        rw [hhp, Heap.length_update]
      · show hp.deref k = _
        rw [hhp, Heap.deref_update]
        simp [hk]
    · exact ⟨false, s, e, ⟨fun h => Bool.noConfusion h, fun h => absurd h hno⟩,
        (fun h => Bool.noConfusion h), fun _ => rfl⟩
  · intro calls
    obtain ⟨s2, rn2, e2, h1, h2, h3⟩ := updateSolutions_spec calls s r rn hroot hr
    refine ⟨s2, rn2.getValue, e2, ?_, h3⟩
    simp [Search.rootValue, h1, h2]

theorem updateSolution_monotone_witness :
    (∃ b s1, exampleSearch.updateSolution (Dbl.fin 3) [1, 0, 1, 0] = some (b, s1)
      ∧ (b = true ↔ (Dbl.fin 3).isNaN = false
          ∧ ((((SearchNode.newOR none 3 (-1)).setHeur (Dbl.fin 0)).addChildren
                [1]).getValue.isNaN = true
            ∨ Dbl.lt (((SearchNode.newOR none 3 (-1)).setHeur (Dbl.fin 0)).addChildren
                [1]).getValue (Dbl.fin 3) = true))
      ∧ (b = true → s1.rootValue = some (Dbl.fin 3)
          ∧ s1.heap.deref 0 = some (((((SearchNode.newOR none 3 (-1)).setHeur
              (Dbl.fin 0)).addChildren [1]).setValue (Dbl.fin 3)).setOptAssig [1, 0, 1, 0])
          ∧ s1.root = exampleSearch.root ∧ s1.heap.length = exampleSearch.heap.length
          ∧ ∀ k, k ≠ 0 → s1.heap.deref k = exampleSearch.heap.deref k)
      ∧ (b = false → s1 = exampleSearch))
    ∧ ∀ calls : List (Dbl × List Int), ∃ s2 v2,
        exampleSearch.updateSolutions calls = some s2
        ∧ s2.rootValue = some v2
        ∧ ((((SearchNode.newOR none 3 (-1)).setHeur (Dbl.fin 0)).addChildren
              [1]).getValue.isNaN = false →
            v2.isNaN = false
            ∧ Dbl.le (((SearchNode.newOR none 3 (-1)).setHeur (Dbl.fin 0)).addChildren
                [1]).getValue v2 = true) :=
  updateSolution_monotone exampleSearch 0 _ rfl rfl (Dbl.fin 3) [1, 0, 1, 0]

/-! ## C34: depths, heights and widths -/

/-- C34: after `build`, and after `buildChain`, on a graph with the nodes `0..n-1` and an
elimination order that is a permutation of them, the dummy root `n` has depth -1, every
other node has depth one more than its parent, `m_subHeight` of a node is 0 without
children and one more than the largest `m_subHeight` of a child otherwise, `m_subWidth` of
a node is the largest size of a full context in its subtree, and `getHeight()` is the
largest depth of a node (`Pseudotree.Measured`); `buildChain` dereferences the last node
of the chain and so needs a graph with a node. -/
theorem build_measures (pt0 : Pseudotree) (G : Graph) (n : Nat) (elim : List Nat)
    (cachelimit : Int) (hrep : G.Rep) (hsim : G.Simple) (hnodes : G.NodesAre n)
    (hperm : elim.Perm (List.range n))
    (hlim : cachelimit = NONE ∨ 0 ≤ cachelimit) (hready : pt0.Ready n) :
    (∃ pt, Pseudotree.build pt0 G elim cachelimit = some pt ∧ pt.m_root = some n
      ∧ pt.Measured n)
    ∧ (0 < n → ∃ pt, Pseudotree.buildChain pt0 G elim cachelimit = some pt
        ∧ pt.m_root = some n ∧ pt.Measured n) := by
  constructor
  · obtain ⟨pt, st, nodes1, T, nodes3, hgt, nodes4, w, nodes5, vars, hb, _, _, _, _, hT,
      e4, e5, e6, e7, hrel, hroot, hh, _⟩ :=
      build_full pt0 G n elim cachelimit hrep hsim hnodes hperm hlim hready
    have r6 := orderAll_frame PseudotreeNode.SameMeasures.measures_refl
      PseudotreeNode.SameMeasures.measures_trans (fun a l _ => ⟨rfl, rfl, rfl⟩) _ _ _ _ e6
    have r7 := updateSubprobVars_frame PseudotreeNode.SameMeasures.measures_refl
      PseudotreeNode.SameMeasures.measures_trans (fun a l => ⟨rfl, rfl, rfl⟩)
      (fun a l m => ⟨rfl, rfl, rfl⟩) _ _ _ _ _ _ e7
    exact ⟨pt, hb, hroot, hT.measured hperm e4 e5 pt hrel
      (Arena.Rel.rel_trans PseudotreeNode.SameMeasures.measures_trans r6 r7) hh⟩
  · intro hn
    obtain ⟨pt, T, nodes3, hgt, nodes4, w, vars, hb, hT, e4, e5, e6, hrel, hroot, hh⟩ :=
      buildChain_full pt0 G n elim cachelimit hrep hsim hnodes hperm hn hlim hready
    have r6 := updateSubprobVars_frame PseudotreeNode.SameMeasures.measures_refl
      PseudotreeNode.SameMeasures.measures_trans (fun a l => ⟨rfl, rfl, rfl⟩)
      (fun a l m => ⟨rfl, rfl, rfl⟩) _ _ _ _ _ _ e6
    exact ⟨pt, hb, hroot, hT.measured hperm e4 e5 pt hrel r6 hh⟩

theorem build_measures_witness :
    (∃ pt, Pseudotree.build (Pseudotree.new 5 SubOrder.other)
        (Graph.ofEdges 5 [(0,1),(1,2),(2,3),(0,2),(3,4),(1,4)]) [0,4,1,2,3] 1 = some pt
      ∧ pt.m_root = some 5 ∧ pt.Measured 5)
    ∧ (0 < 5 → ∃ pt, Pseudotree.buildChain (Pseudotree.new 5 SubOrder.other)
        (Graph.ofEdges 5 [(0,1),(1,2),(2,3),(0,2),(3,4),(1,4)]) [0,4,1,2,3] 1 = some pt
        ∧ pt.m_root = some 5 ∧ pt.Measured 5) :=
  build_measures (Pseudotree.new 5 SubOrder.other)
    (Graph.ofEdges 5 [(0,1),(1,2),(2,3),(0,2),(3,4),(1,4)]) 5 [0,4,1,2,3] 1
    (Graph.wf_of_check (n := 5) (by decide)).1.rep
    (Graph.wf_of_check (n := 5) (by decide)).1.simple
    (Graph.wf_of_check (n := 5) (by decide)).2
    (by decide) (Or.inr (by decide)) ⟨rfl, Or.inr rfl⟩

/-! ## C35: `Pseudotree::computeSubproblemWidth` -/

/-- C35: `setminusSize(a, b)` is the number of elements of `a` that are not in `b`, for
strictly increasing vectors. On the pseudo tree that `build` gives for a graph on the
variables `0..n-1` whose neighbour sets are ascending, `computeSubproblemWidth(i)` returns
a value: the largest number, over the nodes of the subtree of `i`, of variables in the full
context of the node that are not in the full context of `i`. For a variable `i` below the
dummy root `n`, `restrictSubproblem(i)` stores the same value as the conditioned width. -/
theorem computeSubproblemWidth_spec (pt0 : Pseudotree) (G : Graph) (n : Nat)
    (elim : List Nat) (cachelimit : Int) (hrep : G.Rep) (hsim : G.Simple)
    (hnodes : G.NodesAre n) (hasc : G.Ascending) (hperm : elim.Perm (List.range n))
    (hlim : cachelimit = NONE ∨ 0 ≤ cachelimit) (hready : pt0.Ready n) :
    (∀ a b : List Nat, a.Pairwise (fun x y => x < y) → b.Pairwise (fun x y => x < y) →
      setminusSize a b = setminusCount a b)
    ∧ ∃ pt, Pseudotree.build pt0 G elim cachelimit = some pt
      ∧ ∀ i nd, i ≤ n → pt.m_nodes.deref i = some nd →
          ∃ w, pt.computeSubproblemWidth i = some w
            ∧ (∀ k kd, k ∈ pt.m_nodes.subtree (n + 1) i → pt.m_nodes.deref k = some kd →
                setminusCount kd.m_contextS nd.m_contextS ≤ w)
            ∧ (∃ k kd, k ∈ pt.m_nodes.subtree (n + 1) i ∧ pt.m_nodes.deref k = some kd
                ∧ setminusCount kd.m_contextS nd.m_contextS = w)
            ∧ (i < n → ∃ d pt1, pt.restrictSubproblem i = some (d, pt1)
                ∧ pt1.m_widthConditioned = w ∧ pt1.getWidthCond = w) := by
  refine ⟨fun a b ha hb => setminusSize_eq ha hb, ?_⟩
  obtain ⟨pt, rd, hb, hA, hroot, hrd, hdep⟩ :=
    build_root_depth pt0 G n elim cachelimit hrep hsim hnodes hperm hlim hready
  obtain ⟨pt2, hb2, _, hview⟩ :=
    restrictSubproblem_view pt0 G n elim cachelimit hrep hsim hnodes hperm hlim hready
  rw [hb] at hb2
  cases hb2
  have hsorted := build_sorted pt0 G n elim cachelimit hrep hsim hnodes hasc hperm hlim hready
    pt hb
  have hdown := hA.down hperm
  refine ⟨pt, hb, ?_⟩
  intro i nd hi hnd
  have hρi : elim.indexOf i < n + 1 := by
    have := indexOf_le_of_le hperm hi
    omega
  have hlenle : (pt.m_nodes.subtree (n + 1) i).length ≤ n + 1 := by
    have hnd2 := hA.subtree_nodup hperm (n + 1) i
    have hsub : pt.m_nodes.subtree (n + 1) i ⊆ List.range (n + 1) := by
      intro k hk
      have hks := (Arena.subtree_rank hdown _ _ _ hk).2
      cases hkd : pt.m_nodes.deref k with
      | none => simp [hkd] at hks
      | some kd =>
        have := hA.deref_le hkd
        exact List.mem_range.2 (by omega)
    have := (List.subperm_of_subset hnd2 hsub).length_le
    simpa using this
  obtain ⟨w, ew⟩ := condWidthLoop_total hdown nd.m_contextS (n + 1)
    (pt.m_nodes.length + 1) [i] NONE
    (fun x hx => by
      rw [List.mem_singleton.1 hx]
      exact ⟨by rw [hnd]; rfl, hρi⟩)
    (by
      simp only [List.map_cons, List.map_nil, List.sum_cons, List.sum_nil]
      rw [hA.len]
      omega)
  obtain ⟨q1, q2, q3⟩ := condWidthLoop_spec hdown nd.m_contextS (n + 1) _ [i] NONE w
    (fun x hx => by rw [List.mem_singleton.1 hx]; exact hρi) ew
  have hconv : ∀ k kd, pt.m_nodes.deref k = some kd →
      setminusSize kd.m_contextS nd.m_contextS = setminusCount kd.m_contextS nd.m_contextS :=
    fun k kd hkd => setminusSize_eq (hsorted k kd hkd) (hsorted i nd hnd)
  have hself : (0 : Int) ≤ w := by
    have := q2 i (List.mem_singleton_self i) i nd (Arena.subtree_self hnd n) hnd
    rw [hconv i nd hnd] at this
    have h0 : (0 : Int) ≤ setminusCount nd.m_contextS nd.m_contextS := by
      unfold setminusCount
      exact Int.natCast_nonneg _
    omega
  have hnone : NONE = (-1 : Int) := rfl
  refine ⟨w, ?_, ?_, ?_, ?_⟩
  · simp only [Pseudotree.computeSubproblemWidth, hnd]
    exact ew
  · intro k kd hk hkd
    rw [← hconv k kd hkd]
    exact q2 i (List.mem_singleton_self i) k kd hk hkd
  · rcases q3 with h1 | ⟨n1, hn1, k, kd, hk, hkd, hv⟩
    · rw [h1, hnone] at hself
      omega
    · rw [List.mem_singleton.1 hn1] at hk
      exact ⟨k, kd, hk, hkd, by rw [← hconv k kd hkd]; exact hv⟩
  · intro hin
    obtain ⟨pt1, rd1, nd1, e1, _, _, hnd1, _, _, _, _, _, hframe, F, eF⟩ := hview i nd hin hnd
    have hctx : nd1.m_contextS = nd.m_contextS := by
      obtain ⟨kd1, hk1, _, hk3⟩ := hframe i nd (by omega) hnd
      rw [hnd1] at hk1
      cases hk1
      exact hk3
    rw [hctx] at eF
    have hcongr := condWidthLoop_congr hdown n hframe
      (fun p pn hp hm => by
        have := (hA.children p pn n hp hm).1
        omega)
      nd.m_contextS F [i] NONE
      (fun x hx => by
        rw [List.mem_singleton.1 hx]
        exact ⟨by omega, by rw [hnd]; rfl⟩)
    rw [← hcongr] at eF
    have hw : pt1.m_widthConditioned = w := condWidthLoop_fuel _ _ _ _ _ _ _ _ eF ew
    refine ⟨nd.m_depth, pt1, e1, hw, ?_⟩
    unfold Pseudotree.getWidthCond
    rw [if_neg (by rw [hw, hnone]; omega), hw]

theorem computeSubproblemWidth_spec_witness :
    (∀ a b : List Nat, a.Pairwise (fun x y => x < y) → b.Pairwise (fun x y => x < y) →
      setminusSize a b = setminusCount a b)
    ∧ ∃ pt, Pseudotree.build (Pseudotree.new 5 SubOrder.other)
        (Graph.ofEdges 5 [(0,1),(1,2),(2,3),(0,2),(3,4),(1,4)]) [0,4,1,2,3] 1 = some pt
      ∧ ∀ i nd, i ≤ 5 → pt.m_nodes.deref i = some nd →
          ∃ w, pt.computeSubproblemWidth i = some w
            ∧ (∀ k kd, k ∈ pt.m_nodes.subtree (5 + 1) i → pt.m_nodes.deref k = some kd →
                setminusCount kd.m_contextS nd.m_contextS ≤ w)
            ∧ (∃ k kd, k ∈ pt.m_nodes.subtree (5 + 1) i ∧ pt.m_nodes.deref k = some kd
                ∧ setminusCount kd.m_contextS nd.m_contextS = w)
            ∧ (i < 5 → ∃ d pt1, pt.restrictSubproblem i = some (d, pt1)
                ∧ pt1.m_widthConditioned = w ∧ pt1.getWidthCond = w) :=
  computeSubproblemWidth_spec (Pseudotree.new 5 SubOrder.other)
    (Graph.ofEdges 5 [(0,1),(1,2),(2,3),(0,2),(3,4),(1,4)]) 5 [0,4,1,2,3] 1
    (Graph.wf_of_check (n := 5) (by decide)).1.rep
    (Graph.wf_of_check (n := 5) (by decide)).1.simple
    (Graph.wf_of_check (n := 5) (by decide)).2
    (by unfold Graph.Ascending; decide) (by decide) (Or.inr (by decide)) ⟨rfl, Or.inr rfl⟩

/-! ## C36: the index of the leaf profile in `generateChildrenOR` -/

/-- C36, evaluation. At the start of the search of the examples the root is the OR node of
the dummy variable at the depth -1 and the leaf profile has three entries. When the label
of the one value of the dummy variable is `ELEM_ZERO`, `generateChildrenOR` on the root
counts the dead end and then runs `m_leafProfile[depth] += 1` with the depth -1, which is no
position of the vector; with the label -1 it returns. -/
theorem root_zero_label_profile :
    (exampleSearchRootZero.heap.deref 0).map (fun x => (x.getType, x.getDepth, x.getHeurCache))
        = some (NodeType.NODE_OR, -1, some [Dbl.fin (-1), ELEM_ZERO])
      ∧ exampleSearchRootZero.root = some 0
      ∧ exampleSearchRootZero.getDomainSize 3 = some 1
      ∧ exampleSearchRootZero.m_leafProfile = [0, 0, 0]
      ∧ exampleSearchRootZero.m_pseudotree.m_height = 2
      ∧ bump exampleSearchRootZero.m_leafProfile (-1) 1 = none
      ∧ exampleSearchRootZero.generateChildrenOR 0 [] = none
      ∧ (exampleRunStart.search.generateChildrenOR 0 []).isSome = true :=
  ⟨rfl, rfl, rfl, rfl, rfl, rfl, rfl, rfl⟩

/-! ## C37: the components -/

/-- C37: after `build(G, elim)` on a pseudo tree that is freshly constructed or is reset
by `build`, with `elim` a permutation of the nodes `0..n-1` of `G`, `getComponents()` is
the number of children of the dummy root, and these children are one node of every
connected component of `G`: every node is connected to one of them, no two of them are
connected, and so their number is the number of classes of the equivalence that the edges
of `G` generate on the nodes. -/
theorem build_components (pt0 : Pseudotree) (G : Graph) (n : Nat) (elim : List Nat)
    (cachelimit : Int) (hrep : G.Rep) (hsim : G.Simple) (hnodes : G.NodesAre n)
    (hperm : elim.Perm (List.range n)) (hlim : cachelimit = NONE ∨ 0 ≤ cachelimit)
    (hready : pt0.Ready n) (hfresh : pt0.m_height = UNKNOWN → pt0.m_components = 0) :
    ∃ pt rd, Pseudotree.build pt0 G elim cachelimit = some pt
      ∧ pt.m_root = some n ∧ pt.m_nodes.deref n = some rd
      ∧ pt.getComponents = (rd.m_children.length : Int)
      ∧ rd.m_children.Nodup
      ∧ (∀ r, r ∈ rd.m_children → r < n)
      ∧ (∀ k, k < n → ∃ r, r ∈ rd.m_children ∧ G.Connected k r)
      ∧ (∀ r1 r2, r1 ∈ rd.m_children → r2 ∈ rd.m_children → G.Connected r1 r2 → r1 = r2)
      ∧ Nat.card (Quotient (Relation.EqvGen.setoid (fun a b : Fin n => G.adj a.1 b.1)))
          = rd.m_children.length := by
  obtain ⟨hnd, hlen, hmem⟩ := perm_range_facts hperm
  obtain ⟨pt, st, nodes1, T, nodes3, hgt, nodes4, w, nodes5, vars, hb, e1, hF, e2, e3, hT,
    _, _, _, _, hrel, hroot, _, _, _, hcomp⟩ :=
    build_full pt0 G n elim cachelimit hrep hsim hnodes hperm hlim hready
  have hD := hF.done hperm
  obtain ⟨hconn, hpar⟩ := buildLoop_conn hsim hrep hnodes hnd (fun k hk => (hmem k).1 hk)
    _ st e1
  obtain ⟨hcov, hsep⟩ := forest_components hperm hD hsim hnodes hconn hpar
  obtain ⟨nodes1a, e2a, r1, _⟩ := cacheContextLoop_spec (hD.ranked hperm)
    (by rw [hD.len]; omega) hD.covered hD.ctxNodup cachelimit hlim
    (List.range st.m_nodes.length) [] st.m_nodes
    (fun i hi => hD.nodeSome i (by rw [← hD.len]; exact List.mem_range.1 hi))
    (Arena.Rel.rel_refl (fun a => ⟨rfl, rfl, rfl, rfl, rfl⟩) st.m_nodes)
    (fun i hi => by simp at hi)
  rw [e2] at e2a
  cases e2a
  obtain ⟨_, hdummy, _⟩ := dummy_view hD r1 e3
  have hk := hrel.2 n
  rw [hdummy] at hk
  have hzero : (if pt0.m_height ≠ UNKNOWN then pt0.reset else pt0).m_components = 0 := by
    split
    · rfl
    · rename_i hh
      exact hfresh (not_not.1 hh)
  cases hd : pt.m_nodes.deref n with
  | none =>
    rw [hd] at hk
    exact hk.elim
  | some rd =>
    rw [hd] at hk
    have hp : st.roots.Perm rd.m_children := by
      have := hk.1.2.2.2
      simpa [PseudotreeNode.addChildren, PseudotreeNode.new] using this
    have hrlt : ∀ r, r ∈ st.roots → r < n := by
      intro r hr
      obtain ⟨rn, hrn, _⟩ := (hD.rootsIff r).1 hr
      exact hD.node_lt hrn
    refine ⟨pt, rd, hb, hroot, hd, ?_, hp.nodup_iff.1 hD.rootsNodup,
      fun r hr => hrlt r (hp.mem_iff.2 hr), ?_, ?_, ?_⟩
    · unfold Pseudotree.getComponents
      rw [hcomp, hzero, hp.length_eq]
      simp
    · intro k hk2
      obtain ⟨r, hr, hc⟩ := hcov k hk2
      exact ⟨r, hp.mem_iff.1 hr, hc⟩
    · intro r1 r2 h1 h2 hc
      exact hsep r1 r2 (hp.mem_iff.2 h1) (hp.mem_iff.2 h2) hc
    · rw [← hp.length_eq]
      exact Graph.card_components hsim hnodes st.roots hD.rootsNodup hrlt hcov hsep

theorem build_components_witness :
    ∃ pt rd, Pseudotree.build (Pseudotree.new 6 SubOrder.other)
        (Graph.ofEdges 6 [(0,1),(1,2),(3,4)]) [0,3,5,1,4,2] 1 = some pt
      ∧ pt.m_root = some 6 ∧ pt.m_nodes.deref 6 = some rd
      ∧ pt.getComponents = (rd.m_children.length : Int)
      ∧ rd.m_children.Nodup
      ∧ (∀ r, r ∈ rd.m_children → r < 6)
      ∧ (∀ k, k < 6 → ∃ r, r ∈ rd.m_children
          ∧ (Graph.ofEdges 6 [(0,1),(1,2),(3,4)]).Connected k r)
      ∧ (∀ r1 r2, r1 ∈ rd.m_children → r2 ∈ rd.m_children →
          (Graph.ofEdges 6 [(0,1),(1,2),(3,4)]).Connected r1 r2 → r1 = r2)
      ∧ Nat.card (Quotient (Relation.EqvGen.setoid (fun a b : Fin 6 =>
          (Graph.ofEdges 6 [(0,1),(1,2),(3,4)]).adj a.1 b.1))) = rd.m_children.length :=
  build_components (Pseudotree.new 6 SubOrder.other) (Graph.ofEdges 6 [(0,1),(1,2),(3,4)]) 6
    [0,3,5,1,4,2] 1
    (Graph.wf_of_check (n := 6) (by decide)).1.rep
    (Graph.wf_of_check (n := 6) (by decide)).1.simple
    (Graph.wf_of_check (n := 6) (by decide)).2
    (by decide) (Or.inr (by decide)) ⟨rfl, Or.inr rfl⟩ (fun _ => rfl)

/-! ## C38: the width of `eliminate` and the width of `build` -/

/-- C38. On a well-formed graph with the nodes `0..n-1`, `eliminate`, started without
stored initial scores, returns; when the width `w` it returns is not `INT_MAX`, `build` on
a fresh pseudo tree with the order that `eliminate` wrote returns a pseudo tree whose
`getWidth()` is `w`: both are the largest of the neighbour counts of the elimination game
on that order. -/
theorem eliminate_build_width (G : Graph) (n : Nat) (limit : Int) (tolerance : Nat)
    (rnd : Nat → Nat) (subOrder : SubOrder) (cachelimit : Int) (hwf : G.WF)
    (hnodes : G.NodesAre n) (hn : (n : Int) * n ≤ INT_MAX)
    (hlim : cachelimit = NONE ∨ 0 ≤ cachelimit) :
    ∃ r, eliminate G limit tolerance [] rnd = some r
      ∧ (r.ret ≠ INT_MAX →
          ∃ pt H ds, Pseudotree.build (Pseudotree.new n subOrder) G r.elim cachelimit = some pt
            ∧ pt.getWidth = r.ret
            ∧ elimGame G r.elim = some (H, ds) ∧ r.ret = widthOf ds) := by
  obtain ⟨r, hr, hq⟩ := eliminate_game G n limit tolerance rnd hwf hnodes hn
  obtain ⟨r2, hr2, _, _, hperm⟩ := eliminate_permutation G n limit tolerance rnd hwf.rep
    hwf.simple hnodes hn
  rw [hr] at hr2
  cases hr2
  refine ⟨r, hr, fun hne => ?_⟩
  obtain ⟨H, ds, hg, _, hw, _⟩ := hq hne
  obtain ⟨pt, st, _, _, _, _, _, _, _, _, hb, hloop, _, _, _, _, _, _, _, _, _, _, _, _, hwd,
    _⟩ := build_full (Pseudotree.new n subOrder) G n r.elim cachelimit hwf.rep hwf.simple
      hnodes (hperm hne) hlim ⟨rfl, Or.inr rfl⟩
  obtain ⟨ds2, hg2, hw2⟩ := buildLoop_game r.elim _ st [] hloop
  have hg3 : elimGame G r.elim = some (st.G, ds2) := by
    simpa [elimGame] using hg2
  rw [hg] at hg3
  simp only [Option.some.injEq, Prod.mk.injEq] at hg3
  refine ⟨pt, H, ds, hb, ?_, hg, hw⟩
  show pt.m_width = r.ret
  rw [hwd, hw2, hw, hg3.2]
  rfl

theorem eliminate_build_width_witness :
    ∃ r, eliminate (Graph.ofEdges 6 [(0,1),(1,2),(2,3),(3,0),(4,0),(4,1),(5,4)]) INT_MAX 0 []
        (fun _ => 0) = some r
      ∧ (r.ret ≠ INT_MAX →
          ∃ pt H ds, Pseudotree.build (Pseudotree.new 6 SubOrder.other)
              (Graph.ofEdges 6 [(0,1),(1,2),(2,3),(3,0),(4,0),(4,1),(5,4)]) r.elim NONE
              = some pt
            ∧ pt.getWidth = r.ret
            ∧ elimGame (Graph.ofEdges 6 [(0,1),(1,2),(2,3),(3,0),(4,0),(4,1),(5,4)]) r.elim
                = some (H, ds) ∧ r.ret = widthOf ds) :=
  eliminate_build_width (Graph.ofEdges 6 [(0,1),(1,2),(2,3),(3,0),(4,0),(4,1),(5,4)]) 6
    INT_MAX 0 (fun _ => 0) SubOrder.other NONE (Graph.wf_of_check (n := 6) (by decide)).1
    (Graph.wf_of_check (n := 6) (by decide)).2 (by decide) (Or.inl rfl)

/-! ## C39: the profiles after `Search::restrictSubproblem` -/

/-- The node profile is empty after `restrictSubproblem(rootVar, assig, pst)`. -/
theorem restrictSubproblem_profile (fresh : SearchStats) (s : Search) (rootVar : Nat)
    (assig : List Int) (pst : List Dbl) (r : Restricted)
    (h : Search.restrictSubproblem fresh s rootVar assig pst = some r) :
    r.search.m_nodeProfile = [] := by
  unfold Search.restrictSubproblem at h
  repeat' (first | (cases h; rfl) | (cases h) | (split at h) | (dsimp only at h))

/-- C39, evaluation. In the state of the examples, whose profiles have three entries 0,
`restrictSubproblem(1, assig, pst)` leaves `getHeightCond() = 1`, a leaf profile of two
entries 0, and a node profile without any entry, so that `m_nodeProfile[0] += 1` is out of
range. From a leaf profile with the entries 5, 7 and 9 it leaves the entries 5 and 7. -/
theorem restrict_clears_node_profile :
    (Search.restrictSubproblem exampleStats exampleSearch 1 [5, 6, 7, 8]
        [Dbl.fin 3, Dbl.fin 4]).map
      (fun r => (r.search.m_nodeProfile, r.search.m_leafProfile,
        r.search.m_pseudotree.getHeightCond)) = some ([], [0, 0], 1)
    ∧ bump [] 0 1 = none
    ∧ (Search.restrictSubproblem exampleStats { exampleSearch with m_leafProfile := [5, 7, 9] }
        1 [5, 6, 7, 8] [Dbl.fin 3, Dbl.fin 4]).map
      (fun r => (r.search.m_nodeProfile, r.search.m_leafProfile,
        r.search.m_pseudotree.getHeightCond)) = some ([], [5, 7], 1) :=
  ⟨rfl, rfl, rfl⟩

/-! ## C40: `Search::restrictSubproblem` with an empty partial solution tree -/

/-- C40, evaluation. With an empty `pst` the loop over the passes is not entered, `node` is
still null when line 712 runs `node->setChild(next)`: `restrictSubproblem(rootVar, assig,
pst)` dereferences the null pointer, whatever the state is. The reader of the subproblem
file passes the empty vector on when the file has the size 0, and with a `pst` of one OR
value and one AND label the call on the state of the examples returns. -/
theorem restrict_empty_pst :
    (∀ (fresh : SearchStats) (s : Search) (rootVar : Nat) (assig : List Int),
      Search.restrictSubproblem fresh s rootVar assig [] = none)
    ∧ readPST 0 [] = some ([], [])
    ∧ (Search.restrictSubproblem exampleStats exampleSearch 1 [5, 6, 7, 8]
        [Dbl.fin 3, Dbl.fin 4]).isSome = true
    ∧ (pstNodes 3 [] 0 0 exampleSearch.heap exampleSearch.root none).map (fun x => x.2.2)
        = some none := by
  refine ⟨?_, rfl, rfl, rfl⟩
  intro fresh s rootVar assig
  unfold Search.restrictSubproblem
  repeat (first | split | rfl)

end daoopt
